import Mathlib

/-!
# A shallow embedding of the twoskip storage engine (`lib/cyrusdb_twoskip.c`)

The mapped file is modelled at the level of records: the 64 header bytes are
kept in decoded form and the rest of the file is the list of records it
holds, each at its byte offset.  Encoding to bytes and the CRC32 words belong
to the record codec; here a record that is present in the list is one whose
head and tail CRC verify.  The pointer logic (dual level-zero pointer, skip
list search, location cache, stitch, transactions, recovery, checkpoint) is
translated function by function from the C source.

A result of type `Option (Int × σ)` is `none` when the C function does not
return (a failed `assert`, or a loop that exceeds the iteration bound that
every well-formed file respects) and `some (r, s)` when it returns the
cyrusdb code `r` leaving state `s`.
-/

namespace Twoskip

/-! ## Constants -/

/-- Number of skiplist levels. -/
def MAXLEVEL : Nat := 31
/-- Format version. -/
def VERSION : Nat := 1
/-- Do not bother rewriting if the database has less than this much new data. -/
def MINREWRITE : Nat := 16834
/-- Record type `'='`. -/
def DUMMY : Nat := 61
/-- Record type `'+'`. -/
def RECORD : Nat := 43
/-- Record type `'-'`. -/
def DELETE : Nat := 45
/-- Record type `'$'`. -/
def COMMIT : Nat := 36
/-- Header flag bit 0. -/
def DIRTY : Nat := 1
def HEADER_SIZE : Nat := 64
def UINT16_MAX : Nat := 65535
def UINT32_MAX : Nat := 4294967295
def UNLOCKED : Nat := 0
def READLOCKED : Nat := 1
def WRITELOCKED : Nat := 2

/-- Modelled from the spec: the error kinds of section 7 (`cyrusdb.h` is not
among the sources); `IoError`. -/
def CYRUSDB_IOERROR : Int := -1
/-- Modelled from the spec: error kind `Exists`. -/
def CYRUSDB_EXISTS : Int := -3
/-- Modelled from the spec: error kind `Internal`. -/
def CYRUSDB_INTERNAL : Int := -4
/-- Modelled from the spec: error kind `NotFound`. -/
def CYRUSDB_NOTFOUND : Int := -5

/-- Modelled from the spec: the raw comparator, "raw lexicographic (unsigned
byte comparison with length tiebreak)"; `bsearch.c` is not among the sources. -/
def bsearch_ncompare_raw : List Nat → List Nat → Int
  | [], [] => 0
  | [], _ :: _ => -1
  | _ :: _, [] => 1
  | a :: s, b :: t =>
    if a < b then -1 else if b < a then 1 else bsearch_ncompare_raw s t

/-! ## Data structures -/

/-- A single record of the twoskip file (`struct skiprecord`).  `key` and
`val` are the bytes that `keyoffset` and `valoffset` address in the map. -/
structure skiprecord where
  offset : Nat := 0
  len : Nat := 0
  type : Nat := 0
  level : Nat := 0
  keylen : Nat := 0
  vallen : Nat := 0
  nextloc : Nat → Nat := fun _ => 0
  keyoffset : Nat := 0
  valoffset : Nat := 0
  key : List Nat := []
  val : List Nat := []

/-- Header fields (`struct db_header`). -/
structure db_header where
  version : Nat := 0
  flags : Nat := 0
  generation : Nat := 0
  num_records : Nat := 0
  repack_size : Nat := 0
  current_size : Nat := 0

/-- Modelled from the spec: the MappedFile component (`mappedfile.c` is not
among the sources): the file size, the decoded header bytes, the records in
the file, and the advisory lock held. -/
structure mappedfile where
  size : Nat := 0
  header : db_header := {}
  recs : List skiprecord := []
  lock_status : Nat := 0

/-- A location in the twoskip file (`struct skiploc`). -/
structure skiploc where
  keybuf : List Nat := []
  is_exactmatch : Bool := false
  record : skiprecord := {}
  backloc : Nat → Nat := fun _ => 0
  forwardloc : Nat → Nat := fun _ => 0
  generation : Nat := 0
  end_ : Nat := 0

/-- A transaction token (`struct txn`). -/
structure txn where
  num : Nat := 0
deriving DecidableEq

/-- The database handle (`struct dbengine`).  `rand_src` is the stream of
outcomes of the test `rand() / RAND_MAX < PROB` that `randlvl` draws from. -/
structure dbengine where
  mf : mappedfile := {}
  header : db_header := {}
  loc : skiploc := {}
  is_open : Bool := false
  end_ : Nat := 0
  txn_num : Nat := 0
  current_txn : Option txn := none
  open_flags : Nat := 0
  rand_src : Nat → Bool := fun _ => false

/-- What is fixed when the database is opened: the comparator. -/
structure Env where
  compar : List Nat → List Nat → Int

/-! ## The floating point test of `mycommit`

`#define REWRITE_RATIO 0.2` is a constant of type `double`; the test
`((float)diff / (float)db->header.current_size) > REWRITE_RATIO` converts
the two unsigned 64-bit integers to IEEE-754 binary32 (round to nearest,
ties to even), divides in binary32 (correctly rounded, ties to even),
converts the quotient to binary64 (exact) and compares it with the binary64
number nearest to 0.2.  The quotient of two integers of `[1, 2 ^ 64]` is in
`[2 ^ -64, 2 ^ 64]`, within the normal range of binary32, so that neither
overflow nor a subnormal result occurs; `x / 0` is `+inf` for `x > 0` and
`0 / 0` is a NaN, which compares false.  The operations on `float` are the
ones of binary32 (`FLT_EVAL_METHOD` 0, as on x86-64 and AArch64). -/

/-- The binary64 number nearest to 0.2 is `REWRITE_RATIO_NUM / 2 ^ 54`
(bit pattern `0x3FC999999999999A`). -/
def REWRITE_RATIO_NUM : Nat := 3602879701896397

/-- The position of the leading bit of `n` (0 for `n < 2`), by at most
`fuel` halvings. -/
def ilog2 : Nat → Nat → Nat
  | 0, _ => 0
  | fuel + 1, n => if n < 2 then 0 else ilog2 fuel (n / 2) + 1

/-- The integer nearest to `n / d`, ties to the even one. -/
def round_even (n d : Nat) : Nat :=
  let q := n / d
  let r := n % d
  if 2 * r > d ∨ (2 * r = d ∧ q % 2 = 1) then q + 1 else q

/-- `(float)n` for an unsigned 64-bit integer `n`, as the integer it
denotes: `n` itself when it has at most 24 significant bits, else `n`
rounded to 24 significant bits. -/
def to_float (n : Nat) : Nat :=
  let e := ilog2 64 n
  if e < 24 then n else round_even n (2 ^ (e - 23)) * 2 ^ (e - 23)

/-- The test `((float)diff / (float)current_size) > REWRITE_RATIO`.  With
`a = (float)diff`, `b = (float)current_size` both positive, the quotient
`a / b` lies in `[2 ^ e, 2 ^ (e + 1))` for `e = la - lb - adj`, its binary32
rounding is `n * 2 ^ (e - 23)` with `n` the integer nearest to
`a / b * 2 ^ (23 - e)`, and the comparison with `REWRITE_RATIO_NUM / 2 ^ 54`
is made on cross products. -/
def ratio_exceeded (diff current_size : Nat) : Bool :=
  let a := to_float diff
  let b := to_float current_size
  if b = 0 then decide (a ≠ 0)
  else if a = 0 then false
  else
    let la := ilog2 65 a
    let lb := ilog2 65 b
    let adj := if a * 2 ^ lb < b * 2 ^ la then 1 else 0
    let n := round_even (a * 2 ^ (23 + lb + adj)) (b * 2 ^ la)
    decide (n * 2 ^ la * 2 ^ 54 > REWRITE_RATIO_NUM * 2 ^ (23 + lb + adj))

/-! ## Helper functions -/

/-- Calculate padding size. -/
def roundup (record_size howfar : Nat) : Nat :=
  if record_size % howfar ≠ 0 then record_size + (howfar - record_size % howfar)
  else record_size

/-- The loop of `randlvl`; `lvl` is a `uint8_t`. -/
def randlvl_loop : Nat → (Nat → Bool) → Nat → Nat → Nat × (Nat → Bool)
  | 0, src, lvl, _ => (lvl, src)
  | fuel + 1, src, lvl, maxlvl =>
    if src 0 then
      let lvl1 := (lvl + 1) % 256
      if lvl1 = maxlvl then (lvl1, fun n => src (n + 1))
      else randlvl_loop fuel (fun n => src (n + 1)) lvl1 maxlvl
    else (lvl, fun n => src (n + 1))

/-- Choose a level appropriately randomly. -/
def randlvl (src : Nat → Bool) (lvl maxlvl : Nat) : Nat × (Nat → Bool) :=
  randlvl_loop 256 src lvl maxlvl

def _key (rec : skiprecord) : List Nat := rec.key

def _val (rec : skiprecord) : List Nat := rec.val

def _size (db : dbengine) : Nat := db.mf.size

/-! ## Mapped file primitives -/

/-- Modelled from the spec: take the shared lock. -/
def mappedfile_readlock (mf : mappedfile) : mappedfile :=
  { mf with lock_status := READLOCKED }

/-- Modelled from the spec: take the exclusive lock. -/
def mappedfile_writelock (mf : mappedfile) : mappedfile :=
  { mf with lock_status := WRITELOCKED }

/-- Modelled from the spec: release the lock. -/
def mappedfile_unlock (mf : mappedfile) : mappedfile :=
  { mf with lock_status := UNLOCKED }

/-- Modelled from the spec: truncate the file; the records that start at or
after the new size are gone. -/
def mappedfile_truncate (mf : mappedfile) (offset : Nat) : mappedfile :=
  { mf with size := offset, recs := mf.recs.filter (fun d => d.offset < offset) }

/-! ## Header -/

/-- Given an open, mapped db, read in the header information. -/
def read_header (db : dbengine) : Int × dbengine :=
  if _size db < HEADER_SIZE then (CYRUSDB_IOERROR, db)
  else
    let db1 := { db with header := { db.header with version := db.mf.header.version } }
    if db1.header.version > VERSION then (CYRUSDB_IOERROR, db1)
    else
      (0, { db1 with header := db.mf.header, end_ := db.mf.header.current_size })

/-- Given an open, mapped, locked db, write the header information. -/
def write_header (db : dbengine) : Int × dbengine :=
  (0, { db with mf := { db.mf with header := db.header,
                                   size := max db.mf.size HEADER_SIZE } })

/-- Simple wrapper to write with an fsync. -/
def commit_header (db : dbengine) : Int × dbengine :=
  write_header db

/-! ## Record -/

/-- The number of bytes of a record head before the pointers: the fixed
eight bytes and the extended lengths. -/
def headlen (keylen vallen : Nat) : Nat :=
  8 + (if keylen < UINT16_MAX then 0 else 8) + (if vallen < UINT32_MAX then 0 else 8)

/-- The total length `read_record` computes for a record. -/
def reclen (level keylen vallen : Nat) : Nat :=
  headlen keylen vallen + 8 * (1 + level) + 8 + roundup (keylen + vallen) 8

/-- The pointers that are part of the on-disk head: entries `0..level`. -/
def diskptrs (level : Nat) (nextloc : Nat → Nat) : Nat → Nat :=
  fun i => if i ≤ level then nextloc i else 0

/-- The tail CRC of a record that is in the file verifies. -/
def check_tailcrc (_db : dbengine) (_record : skiprecord) : Int := 0

/-- Read a single skiprecord at the given offset. -/
def read_record (db : dbengine) (offset : Nat) : Option (Int × skiprecord) :=
  let record : skiprecord := { offset := offset, len := 24 }
  if record.offset + record.len > _size db then some (CYRUSDB_IOERROR, record)
  else
    match db.mf.recs.find? (fun d => d.offset = offset) with
    | none => some (CYRUSDB_IOERROR, record)
    | some d =>
      if d.level > MAXLEVEL then none
      else
        let record : skiprecord :=
          { record with type := d.type, level := d.level, keylen := d.keylen,
                        vallen := d.vallen,
                        len := reclen d.level d.keylen d.vallen }
        if record.offset + record.len > _size db then some (CYRUSDB_IOERROR, record)
        else
          let keyoffset := offset + headlen d.keylen d.vallen + 8 * (1 + d.level) + 8
          some (0, { record with nextloc := diskptrs d.level d.nextloc,
                                 keyoffset := keyoffset,
                                 valoffset := keyoffset + d.keylen,
                                 key := d.key, val := d.val })

/-- Only changing the record head, so only rewrite that much. -/
def rewrite_record (db : dbengine) (record : skiprecord) : Option (Int × dbengine) :=
  if db.header.flags &&& DIRTY = 0 then none
  else if record.offset = 0 then none
  else if record.level > MAXLEVEL then none
  else
    let hl := headlen record.keylen record.vallen + 8 * (1 + record.level) + 8
    some (0, { db with mf := { db.mf with
      size := max db.mf.size (record.offset + hl),
      recs := db.mf.recs.map (fun d =>
        if d.offset = record.offset then
          { d with type := record.type, level := record.level,
                   keylen := record.keylen, vallen := record.vallen,
                   nextloc := diskptrs record.level record.nextloc }
        else d) } })

/-- You can only write records at the end. -/
def write_record (db : dbengine) (record : skiprecord) (key val : List Nat) :
    Option (Int × dbengine × skiprecord) :=
  if record.offset ≠ 0 then none
  else if record.level > MAXLEVEL then none
  else
    let n := reclen record.level record.keylen record.vallen
    let keyoffset := db.end_ + headlen record.keylen record.vallen + 8 * (1 + record.level) + 8
    let record1 : skiprecord :=
      { record with offset := db.end_, keyoffset := keyoffset,
                    valoffset := keyoffset + record.keylen, len := n,
                    key := key.take record.keylen, val := val.take record.vallen }
    let d : skiprecord := { record1 with nextloc := diskptrs record.level record.nextloc }
    some (0, { db with
      mf := { db.mf with
        size := max db.mf.size (db.end_ + n),
        recs := db.mf.recs.filter (fun e => e.offset + e.len ≤ db.end_ ∨ db.end_ + n ≤ e.offset)
                  ++ [d] },
      end_ := db.end_ + n }, record1)

/-- Helper to append a record, starting the transaction by dirtying the
header first if required. -/
def append_record (db : dbengine) (record : skiprecord) (key val : List Nat) :
    Option (Int × dbengine × skiprecord) :=
  if db.current_txn = none then none
  else if db.header.flags &&& DIRTY = 0 then
    let db1 := { db with header := { db.header with flags := db.header.flags ||| DIRTY } }
    match commit_header db1 with
    | (r, db2) => if r ≠ 0 then some (r, db2, record) else write_record db2 record key val
  else write_record db record key val


/-! ## Location management -/

def _getzero (db : dbengine) (record : skiprecord) : Nat :=
  if record.nextloc 0 ≥ db.end_ then record.nextloc 1
  else if record.nextloc 1 ≥ db.end_ then record.nextloc 0
  else if record.nextloc 0 > record.nextloc 1 then record.nextloc 0
  else record.nextloc 1

/-- Find the next record at a given level, encapsulating the level 0 magic.
The second component is `*outloc`, meaningful when the code is 0. -/
def _getloc (db : dbengine) (record : skiprecord) (level : Nat) : Option (Int × Nat) :=
  if level ≠ 0 then some (0, record.nextloc (level + 1))
  else
    let offset := _getzero db record
    if offset = 0 then some (0, offset)
    else
      match read_record db offset with
      | none => none
      | some (r, local_) =>
        if r ≠ 0 then some (r, 0)
        else if local_.type = DELETE then some (0, local_.nextloc 0)
        else some (0, offset)

/-- Set the next record at a given level, encapsulating the level 0 magic. -/
def _setloc (db : dbengine) (record : skiprecord) (level : Nat) (offset : Nat) : skiprecord :=
  if level ≠ 0 then { record with nextloc := Function.update record.nextloc (level + 1) offset }
  else if record.nextloc 0 ≥ db.header.current_size then
    { record with nextloc := Function.update record.nextloc 0 offset }
  else if record.nextloc 1 ≥ db.header.current_size then
    { record with nextloc := Function.update record.nextloc 1 offset }
  else if record.nextloc 1 > record.nextloc 0 then
    { record with nextloc := Function.update record.nextloc 0 offset }
  else
    { record with nextloc := Function.update record.nextloc 1 offset }

/-- The loop `for (i = ..; i < record.level; i++) r = _getloc(db, &record, i,
&loc->forwardloc[i])` with `cnt` iterations left; with `back` it also sets
`loc->backloc[i] = record.offset` first (the start-of-file case of
`relocate`). -/
def forward_loop (db : dbengine) (record : skiprecord) (back : Bool) :
    Nat → Nat → skiploc → Option (Int × skiploc)
  | 0, _, loc => some (0, loc)
  | cnt + 1, i, loc =>
    let loc1 := if back then { loc with backloc := Function.update loc.backloc i record.offset }
                else loc
    match _getloc db record i with
    | none => none
    | some (r, out) =>
      if r ≠ 0 then some (r, loc1)
      else forward_loop db record back cnt (i + 1)
             { loc1 with forwardloc := Function.update loc1.forwardloc i out }

/-- The `while (level)` loop of `relocate`.  The state is the location, the
local `newrecord` and `cmp`. -/
def relocate_loop (E : Env) (db : dbengine) :
    Nat → Nat → skiploc → skiprecord → Int → Option (Int × skiploc × skiprecord × Int)
  | _, 0, loc, newrecord, cmp => some (0, loc, newrecord, cmp)
  | 0, _ + 1, _, _, _ => none
  | fuel + 1, l + 1, loc, newrecord, cmp =>
    match _getloc db loc.record l with
    | none => none
    | some (r, offset) =>
      if r ≠ 0 then some (r, loc, newrecord, cmp)
      else
        let loc1 := { loc with backloc := Function.update loc.backloc l loc.record.offset,
                               forwardloc := Function.update loc.forwardloc l offset }
        if offset ≠ 0 ∧ newrecord.offset ≠ offset then
          match read_record db offset with
          | none => none
          | some (r, newrecord1) =>
            if r ≠ 0 then some (r, loc1, newrecord1, cmp)
            else
              let cmp1 := E.compar (_key newrecord1) loc1.keybuf
              if cmp1 < 0 then
                relocate_loop E db fuel (l + 1) { loc1 with record := newrecord1 } newrecord1 cmp1
              else relocate_loop E db fuel l loc1 newrecord1 cmp1
        else relocate_loop E db fuel l loc1 newrecord cmp

/-- Finds a record, either an exact match or the record immediately before. -/
def relocate (E : Env) (db : dbengine) : Option (Int × dbengine) :=
  let loc0 := { db.loc with generation := db.header.generation, end_ := db.end_ }
  match read_record db HEADER_SIZE with
  | none => none
  | some (_, dummy) =>
    let loc1 := { loc0 with record := dummy, is_exactmatch := false }
    if loc1.keybuf.length = 0 then
      match forward_loop db loc1.record true loc1.record.level 0 loc1 with
      | none => none
      | some (r, loc2) => some (r, { db with loc := loc2 })
    else
      match relocate_loop E db (db.mf.recs.length + MAXLEVEL + 1) loc1.record.level loc1 {} (-1) with
      | none => none
      | some (r, loc2, newrecord, cmp) =>
        if r ≠ 0 then some (r, { db with loc := loc2 })
        else if cmp = 0 then
          let loc3 := { loc2 with is_exactmatch := true, record := newrecord }
          match forward_loop db loc3.record false loc3.record.level 0 loc3 with
          | none => none
          | some (r, loc4) =>
            if r ≠ 0 then some (r, { db with loc := loc4 })
            else some (check_tailcrc db loc4.record, { db with loc := loc4 })
        else some (0, { db with loc := loc2 })

/-- The loop `for (i = 0; i < n; i++) a[i] = v`, from index `i` with `cnt`
iterations left. -/
def fill_loop (v : Nat) : Nat → Nat → (Nat → Nat) → (Nat → Nat)
  | 0, _, a => a
  | cnt + 1, i, a => fill_loop v cnt (i + 1) (Function.update a i v)

/-- Helper function to find a location, either by using the existing
location if it is close enough, or using the full relocate above. -/
def find_loc (E : Env) (db0 : dbengine) (key : List Nat) : Option (Int × dbengine) :=
  let db := { db0 with loc := { db0.loc with keybuf := key } }
  if key.length ≠ 0 ∧ db.loc.end_ = db.end_ ∧ db.loc.generation = db.header.generation then
    let cmp := E.compar (_key db.loc.record) db.loc.keybuf
    if db.loc.is_exactmatch ∧ cmp = 0 then some (0, db)
    else if cmp < 0 then
      let db1 := { db with loc := { db.loc with
        backloc := fill_loop db.loc.record.offset db.loc.record.level 0 db.loc.backloc } }
      if db1.loc.forwardloc 0 = 0 then
        some (0, { db1 with loc := { db1.loc with is_exactmatch := false } })
      else
        match read_record db1 (db1.loc.forwardloc 0) with
        | none => none
        | some (r, newrecord) =>
          if r ≠ 0 then some (r, db1)
          else
            let cmp1 := E.compar (_key newrecord) db1.loc.keybuf
            if cmp1 = 0 then
              let loc2 := { db1.loc with is_exactmatch := true, record := newrecord }
              match forward_loop db1 newrecord false newrecord.level 0 loc2 with
              | none => none
              | some (r, loc3) =>
                if r ≠ 0 then some (r, { db1 with loc := loc3 })
                else some (check_tailcrc db1 loc3.record, { db1 with loc := loc3 })
            else if cmp1 > 0 then
              some (0, { db1 with loc := { db1.loc with is_exactmatch := false } })
            else relocate E db1
    else relocate E db
  else relocate E db

/-- Helper function to advance to the "next" record.  Used by foreach,
fetchnext, and internal functions. -/
def advance_loc (E : Env) (db0 : dbengine) : Option (Int × dbengine) :=
  let stale := db0.loc.end_ ≠ db0.end_ ∨ db0.loc.generation ≠ db0.header.generation
  match (if stale then relocate E db0 else some (0, db0)) with
  | none => none
  | some (r, db) =>
    if r ≠ 0 then some (r, db)
    else if db.loc.forwardloc 0 = 0 then
      relocate E { db with loc := { db.loc with keybuf := [] } }
    else
      let loc1 := { db.loc with
        backloc := fill_loop db.loc.record.offset db.loc.record.level 0 db.loc.backloc }
      match read_record db (loc1.forwardloc 0) with
      | none => none
      | some (r, rec) =>
        let loc2 := { loc1 with record := rec }
        if r ≠ 0 then some (r, { db with loc := loc2 })
        else
          match forward_loop db loc2.record false loc2.record.level 0 loc2 with
          | none => none
          | some (r, loc3) =>
            if r ≠ 0 then some (r, { db with loc := loc3 })
            else
              let loc4 := { loc3 with keybuf := _key loc3.record, is_exactmatch := true }
              some (check_tailcrc db loc4.record, { db with loc := loc4 })

/-- The loop `for (i = level; i < maxlevel; i++) _setloc(db, &oldrecord, i,
loc->forwardloc[i])` of `stitch`, from index `i` with `cnt` iterations left. -/
def setloc_loop (db : dbengine) : Nat → Nat → skiprecord → skiprecord
  | 0, _, record => record
  | cnt + 1, i, record => setloc_loop db cnt (i + 1) (_setloc db record i (db.loc.forwardloc i))

/-- The `while (oldrecord.level < maxlevel)` loop of `stitch`; `level` is
`oldrecord.level`. -/
def stitch_loop (maxlevel : Nat) : Nat → Nat → dbengine → Option (Int × dbengine)
  | 0, level, db => if level < maxlevel then none else some (0, db)
  | fuel + 1, level, db =>
    if level < maxlevel then
      match read_record db (db.loc.backloc level) with
      | none => none
      | some (r, oldrecord) =>
        if r ≠ 0 then some (r, db)
        else
          let oldrecord1 := setloc_loop db (maxlevel - level) level oldrecord
          match rewrite_record db oldrecord1 with
          | none => none
          | some (r, db1) =>
            if r ≠ 0 then some (r, db1)
            else stitch_loop maxlevel fuel oldrecord1.level db1
    else some (0, db)

/-- Helper function to update all the back records efficiently after
appending a new record, either create or delete.  The caller must set
forwardloc[] correctly for each level it has changed. -/
def stitch (db : dbengine) (maxlevel : Nat) : Option (Int × dbengine) :=
  stitch_loop maxlevel (maxlevel + 1) 0 db

/-- The loop `for (i = 0; i < level; i++) nextloc[i+1] = forwardloc[i]`. -/
def nextloc_loop (fwd : Nat → Nat) : Nat → Nat → (Nat → Nat) → (Nat → Nat)
  | 0, _, a => a
  | cnt + 1, i, a => nextloc_loop fwd cnt (i + 1) (Function.update a (i + 1) (fwd i))

/-- The loop `for (i = 0; i < level; i++) forwardloc[i] = nextloc[i+1]`. -/
def forwardloc_loop (nxt : Nat → Nat) : Nat → Nat → (Nat → Nat) → (Nat → Nat)
  | 0, _, a => a
  | cnt + 1, i, a => forwardloc_loop nxt cnt (i + 1) (Function.update a i (nxt (i + 1)))

/-- Decrement of an unsigned 64-bit counter by `n`: the difference modulo
`2 ^ 64`. -/
def sub64 (a n : Nat) : Nat :=
  if n % 2 ^ 64 ≤ a % 2 ^ 64 then a % 2 ^ 64 - n % 2 ^ 64
  else 2 ^ 64 - (n % 2 ^ 64 - a % 2 ^ 64)

/-- Increment of an unsigned 64-bit counter by `n`. -/
def add64 (a n : Nat) : Nat := (a + n) % 2 ^ 64

/-- Overall "store" function.  This is the place that all changes funnel
through. -/
def store_here (db0 : dbengine) (val : List Nat) : Option (Int × dbengine) :=
  let level0 := if db0.loc.is_exactmatch then db0.loc.record.level else 0
  let db1 := if db0.loc.is_exactmatch then
      { db0 with header := { db0.header with
          num_records := sub64 db0.header.num_records 1,
          repack_size := sub64 db0.header.repack_size db0.loc.record.len } }
    else db0
  let lv := randlvl db1.rand_src 1 MAXLEVEL
  let db2 := { db1 with rand_src := lv.2 }
  let newrecord : skiprecord :=
    { type := RECORD, level := lv.1, keylen := db2.loc.keybuf.length, vallen := val.length,
      nextloc := nextloc_loop db2.loc.forwardloc lv.1 0 (fun _ => 0) }
  let level := if newrecord.level > level0 then newrecord.level else level0
  match append_record db2 newrecord db2.loc.keybuf val with
  | none => none
  | some (r, db3, newrecord1) =>
    if r ≠ 0 then some (r, db3)
    else
      let db4 := { db3 with loc := { db3.loc with
        forwardloc := fill_loop newrecord1.offset newrecord1.level 0 db3.loc.forwardloc } }
      match stitch db4 level with
      | none => none
      | some (_, db5) =>
        match read_record db5 newrecord1.offset with
        | none => none
        | some (r, rec) =>
          let db6 := { db5 with loc := { db5.loc with record := rec } }
          if r ≠ 0 then some (r, db6)
          else
            let loc7 := { db6.loc with
              is_exactmatch := true,
              forwardloc := forwardloc_loop newrecord1.nextloc newrecord1.level 0 db6.loc.forwardloc }
            some (0, { db6 with
              loc := { loc7 with end_ := db6.end_ },
              header := { db6.header with
                num_records := add64 db6.header.num_records 1,
                repack_size := add64 db6.header.repack_size loc7.record.len } })

/-- Delete a record. -/
def delete_here (db0 : dbengine) : Option (Int × dbengine) :=
  if ¬ db0.loc.is_exactmatch then some (CYRUSDB_NOTFOUND, db0)
  else
    let db1 := { db0 with header := { db0.header with
        num_records := sub64 db0.header.num_records 1,
        repack_size := sub64 db0.header.repack_size db0.loc.record.len } }
    let newrecord : skiprecord :=
      { type := DELETE, nextloc := Function.update (fun _ => 0) 0 (db1.loc.forwardloc 0) }
    match append_record db1 newrecord [] [] with
    | none => none
    | some (r, db2, newrecord1) =>
      if r ≠ 0 then some (r, db2)
      else
        let db3 := { db2 with loc := { db2.loc with
          forwardloc := Function.update db2.loc.forwardloc 0 newrecord1.offset } }
        match stitch db3 db3.loc.record.level with
        | none => none
        | some (r, db4) =>
          if r ≠ 0 then some (r, db4)
          else
            match read_record db4 (db4.loc.backloc 0) with
            | none => none
            | some (r, rec) =>
              let db5 := { db4 with loc := { db4.loc with record := rec } }
              if r ≠ 0 then some (r, db5)
              else
                some (0, { db5 with loc := { db5.loc with
                  forwardloc := Function.update db5.loc.forwardloc 0 (newrecord1.nextloc 0),
                  is_exactmatch := false,
                  end_ := db5.end_ } })


/-! ## Database struct and transaction management -/

def db_is_clean (db : dbengine) : Bool :=
  if db.header.current_size ≠ _size db then false
  else if db.header.flags &&& DIRTY ≠ 0 then false
  else true

def unlock (db : dbengine) : Int × dbengine :=
  (0, { db with mf := mappedfile_unlock db.mf })

/-- The functions that close the recursion of the engine: `recovery2` (from
`recovery`) and `mycheckpoint` (from `mycommit`). -/
structure Ctx where
  recovery2 : dbengine → Option (Int × dbengine)
  mycheckpoint : dbengine → Option (Int × dbengine)

/-- The loop `for (i = 2; i <= record.level; i++)` of `recovery1`, from index
`i` with `cnt` iterations left; the state is the database and the arrays
`prev` and `next`. -/
def recovery1_fix (record : skiprecord) :
    Nat → Nat → dbengine → (Nat → Nat) → (Nat → Nat) →
    Option (Int × dbengine × (Nat → Nat) × (Nat → Nat))
  | 0, _, db, prev, next => some (0, db, prev, next)
  | cnt + 1, i, db, prev, next =>
    let step (db1 : dbengine) :=
      recovery1_fix record cnt (i + 1) db1
        (Function.update prev i record.offset) (Function.update next i (record.nextloc i))
    if next i ≠ record.offset then
      match read_record db (prev i) with
      | none => none
      | some (r, fixrecord) =>
        if r ≠ 0 then some (r, db, prev, next)
        else
          match rewrite_record db
              { fixrecord with nextloc := Function.update fixrecord.nextloc i record.offset } with
          | none => none
          | some (r, db1) => if r ≠ 0 then some (r, db1, prev, next) else step db1
    else step db

/-- The loop `for (i = 0; i < 2; i++)` of `recovery1` that zeroes the level
zero pointers at or past `current_size`; the result carries `r`. -/
def recovery1_zero : Nat → Nat → Int → dbengine → skiprecord →
    Option (Int × dbengine × skiprecord)
  | 0, _, r, db, record => some (r, db, record)
  | cnt + 1, i, r, db, record =>
    if record.nextloc i ≥ db.header.current_size then
      let record1 := { record with nextloc := Function.update record.nextloc i 0 }
      match rewrite_record db record1 with
      | none => none
      | some (r1, db1) => recovery1_zero cnt (i + 1) r1 db1 record1
    else recovery1_zero cnt (i + 1) r db record

/-- The `while (nextoffset)` loop of `recovery1`. -/
def recovery1_walk :
    Nat → Nat → dbengine → (Nat → Nat) → (Nat → Nat) → Nat →
    Option (Int × dbengine × (Nat → Nat) × (Nat → Nat) × Nat)
  | _, 0, db, prev, next, num_records => some (0, db, prev, next, num_records)
  | 0, _ + 1, _, _, _, _ => none
  | fuel + 1, nextoffset, db, prev, next, num_records =>
    match read_record db nextoffset with
    | none => none
    | some (r, record) =>
      if r ≠ 0 then some (r, db, prev, next, num_records)
      else
        match recovery1_fix record (record.level - 1) 2 db prev next with
        | none => none
        | some (r, db1, prev1, next1) =>
          if r ≠ 0 then some (r, db1, prev1, next1, num_records)
          else
            match recovery1_zero 2 0 r db1 record with
            | none => none
            | some (r, db2, record1) =>
              let nextoffset1 := _getzero db2 record1
              if r ≠ 0 then some (r, db2, prev1, next1, num_records)
              else
                recovery1_walk fuel nextoffset1 db2 prev1 next1
                  (if record1.keylen ≠ 0 then add64 num_records 1 else num_records)

/-- The loop `for (i = 2; i <= MAXLEVEL; i++)` of `recovery1` that zeroes the
remaining tail pointers. -/
def recovery1_tail (prev next : Nat → Nat) : Nat → Nat → dbengine → Option (Int × dbengine)
  | 0, _, db => some (0, db)
  | cnt + 1, i, db =>
    if next i ≠ 0 then
      match read_record db (prev i) with
      | none => none
      | some (r, fixrecord) =>
        if r ≠ 0 then some (r, db)
        else
          match rewrite_record db
              { fixrecord with nextloc := Function.update fixrecord.nextloc i 0 } with
          | none => none
          | some (r, db1) =>
            if r ≠ 0 then some (r, db1) else recovery1_tail prev next cnt (i + 1) db1
    else recovery1_tail prev next cnt (i + 1) db

/-- Clear the DIRTY bit of the 32-bit flags word. -/
def clear_dirty (flags : Nat) : Nat := flags &&& (4294967295 - DIRTY)

/-- Run recovery on this file.  Always called with a write lock. -/
def recovery1 (db0 : dbengine) : Option (Int × dbengine) :=
  if db0.mf.lock_status ≠ WRITELOCKED then none
  else if db_is_clean db0 then some (0, db0)
  else
    let dirtied : Int × dbengine :=
      if db0.header.flags &&& DIRTY = 0 then
        commit_header { db0 with header := { db0.header with flags := db0.header.flags ||| DIRTY } }
      else (0, db0)
    if dirtied.1 ≠ 0 then some dirtied
    else
      let db := dirtied.2
      match recovery1_walk (db.mf.recs.length + 1) HEADER_SIZE db (fun _ => 0)
              (fill_loop HEADER_SIZE (MAXLEVEL + 1) 0 (fun _ => 0)) 0 with
      | none => none
      | some (r, db1, prev, next, num_records) =>
        if r ≠ 0 then some (r, db1)
        else
          match recovery1_tail prev next (MAXLEVEL - 1) 2 db1 with
          | none => none
          | some (r, db2) =>
            if r ≠ 0 then some (r, db2)
            else
              let db3 := { db2 with mf := mappedfile_truncate db2.mf db2.header.current_size }
              let db4 := { db3 with header := { db3.header with
                flags := clear_dirty db3.header.flags, num_records := num_records } }
              some (commit_header db4)

def recovery (C : Ctx) (db : dbengine) : Option (Int × dbengine) :=
  if db_is_clean db then some (0, db)
  else
    match recovery1 db with
    | none => none
    | some (r, db1) => if r ≠ 0 then C.recovery2 db1 else some (0, db1)

def write_lock (C : Ctx) (db0 : dbengine) : Option (Int × dbengine) :=
  let db := { db0 with mf := mappedfile_writelock db0.mf }
  let hdr : Int × dbengine := if db.is_open then read_header db else (0, db)
  if hdr.1 ≠ 0 then some hdr else recovery C hdr.2

/-- Take the read lock; `fuel` bounds the re-entry after an inconsistent
file was repaired under the write lock. -/
def read_lock (C : Ctx) : Nat → dbengine → Option (Int × dbengine)
  | 0, _ => none
  | fuel + 1, db0 =>
    let db := { db0 with mf := mappedfile_readlock db0.mf }
    if db.is_open then
      match read_header db with
      | (r, db1) =>
        if r ≠ 0 then some (r, db1)
        else if ¬ db_is_clean db1 then
          match write_lock C (unlock db1).2 with
          | none => none
          | some (r, db2) =>
            if r ≠ 0 then some (r, db2) else read_lock C fuel (unlock db2).2
        else some (0, db1)
    else some (0, db)

/-- Begin a transaction; the last component is `*tidptr`. -/
def newtxn (C : Ctx) (db : dbengine) (tid : Option txn) : Option (Int × dbengine × Option txn) :=
  if db.current_txn ≠ none then none
  else if tid ≠ none then none
  else
    match write_lock C db with
    | none => none
    | some (r, db1) =>
      if r ≠ 0 then some (r, db1, tid)
      else
        let t : txn := { num := db1.txn_num + 1 }
        some (0, { db1 with txn_num := db1.txn_num + 1, current_txn := some t }, some t)

/-! ## External APIs -/

/-- What `myfetch` hands back: the code, the handle, `*tidptr`, and the
output parameters `foundkey` and `data` (`none` is `NULL`). -/
structure fetch_result where
  r : Int
  db : dbengine
  tid : Option txn
  foundkey : Option (List Nat)
  data : Option (List Nat)

/-- The entry protocol shared by `myfetch` and `myforeach`: use the running
transaction if there is one, else begin one through `tidptr`, else take the
read lock.  `tidptr` is `none` for a null pointer; the result carries the
effective `tidptr`. -/
def enter_read (C : Ctx) (db : dbengine) (tidptr : Option (Option txn)) :
    Option (Int × dbengine × Option (Option txn)) :=
  let tidptr1 := if tidptr = none ∧ db.current_txn ≠ none then some db.current_txn else tidptr
  match tidptr1 with
  | some tid =>
    if tid = none then
      match newtxn C db tid with
      | none => none
      | some (r, db1, tid1) => some (r, db1, some tid1)
    else some (0, db, tidptr1)
  | none =>
    match read_lock C 2 db with
    | none => none
    | some (r, db1) => some (r, db1, none)

def myfetch (E : Env) (C : Ctx) (db0 : dbengine) (key : List Nat)
    (tidptr : Option (Option txn)) (fetchnext : Bool) : Option fetch_result :=
  match enter_read C db0 tidptr with
  | none => none
  | some (r, db1, tidptr1) =>
    let tid1 := tidptr1.getD none
    if r ≠ 0 then some ⟨r, db1, tid1, none, none⟩
    else
      let done (r : Int) (db : dbengine) (fk data : Option (List Nat)) : fetch_result :=
        if tidptr1 = none then ⟨r, (unlock db).2, tid1, fk, data⟩ else ⟨r, db, tid1, fk, data⟩
      match find_loc E db1 key with
      | none => none
      | some (r, db2) =>
        if r ≠ 0 then some (done r db2 none none)
        else
          match (if fetchnext then advance_loc E db2 else some (0, db2)) with
          | none => none
          | some (r, db3) =>
            if r ≠ 0 then some (done r db3 none none)
            else if db3.loc.is_exactmatch then
              some (done 0 db3 (some db3.loc.keybuf) (some (_val db3.loc.record)))
            else some (done CYRUSDB_NOTFOUND db3 (some db3.loc.keybuf) none)

/-- The `while (db->loc.is_exactmatch)` loop of `myforeach`.  The state is
the handle, the rock and `need_unlock`; the result carries `r` and `cb_r`. -/
def myforeach_loop {ρ : Type} (E : Env) (C : Ctx) (pfx : List Nat)
    (goodp : Option (ρ → List Nat → List Nat → Int))
    (cb : ρ → List Nat → List Nat → Option (Int × ρ)) (notid : Bool) :
    Nat → dbengine → ρ → Bool → Option (Int × Int × dbengine × ρ × Bool)
  | 0, db, rock, need_unlock =>
    if db.loc.is_exactmatch then none else some (0, 0, db, rock, need_unlock)
  | fuel + 1, db, rock, need_unlock =>
    if ¬ db.loc.is_exactmatch then some (0, 0, db, rock, need_unlock)
    else if pfx.length ≠ 0 ∧ db.loc.record.keylen < pfx.length then
      some (0, 0, db, rock, need_unlock)
    else if pfx.length ≠ 0 ∧ E.compar ((_key db.loc.record).take pfx.length) pfx ≠ 0 then
      some (0, 0, db, rock, need_unlock)
    else
      let val := _val db.loc.record
      let good : Bool := match goodp with
        | none => true
        | some p => p rock db.loc.keybuf val ≠ 0
      if good then
        let db1 := if notid then (unlock db).2 else db
        let need_unlock1 := if notid then false else need_unlock
        match cb rock db1.loc.keybuf val with
        | none => none
        | some (cb_r, rock1) =>
          if cb_r ≠ 0 then some (0, cb_r, db1, rock1, need_unlock1)
          else
            match (if notid then read_lock C 2 db1 else some (0, db1)) with
            | none => none
            | some (r, db2) =>
              if r ≠ 0 then some (r, cb_r, db2, rock1, need_unlock1)
              else
                let need_unlock2 := if notid then true else need_unlock1
                match advance_loc E db2 with
                | none => none
                | some (r, db3) =>
                  if r ≠ 0 then some (r, cb_r, db3, rock1, need_unlock2)
                  else myforeach_loop E C pfx goodp cb notid fuel db3 rock1 need_unlock2
      else
        match advance_loc E db with
        | none => none
        | some (r, db3) =>
          if r ≠ 0 then some (r, 0, db3, rock, need_unlock)
          else myforeach_loop E C pfx goodp cb notid fuel db3 rock need_unlock

/-- Iterate over the records whose key starts with `pfx`.  The callbacks do
not re-enter this handle; the result is the code, the handle, the rock and
`*tidptr`. -/
def myforeach {ρ : Type} (E : Env) (C : Ctx) (db0 : dbengine) (pfx : List Nat)
    (goodp : Option (ρ → List Nat → List Nat → Int))
    (cb : ρ → List Nat → List Nat → Option (Int × ρ)) (rock : ρ)
    (tidptr : Option (Option txn)) : Option (Int × dbengine × ρ × Option txn) :=
  match enter_read C db0 tidptr with
  | none => none
  | some (r, db1, tidptr1) =>
    let tid1 := tidptr1.getD none
    if r ≠ 0 then some (r, db1, rock, tid1)
    else
      let notid : Bool := tidptr1 = none
      let done (res : Int × Int × dbengine × ρ × Bool) : Int × dbengine × ρ × Option txn :=
        match res with
        | (r, cb_r, db, rock1, need_unlock) =>
          ((if r ≠ 0 then r else cb_r), (if need_unlock then (unlock db).2 else db), rock1, tid1)
      match find_loc E db1 pfx with
      | none => none
      | some (r, db2) =>
        if r ≠ 0 then some (done (r, 0, db2, rock, notid))
        else
          match (if ¬ db2.loc.is_exactmatch then advance_loc E db2 else some (0, db2)) with
          | none => none
          | some (r, db3) =>
            if r ≠ 0 then some (done (r, 0, db3, rock, notid))
            else
              match myforeach_loop E C pfx goodp cb notid (db3.mf.recs.length + 1) db3 rock notid with
              | none => none
              | some res => some (done res)

/-- Helper function for all writes: wraps create and delete and the FORCE
logic for each.  `data = none` is the null pointer, a delete. -/
def skipwrite (E : Env) (db0 : dbengine) (key : List Nat) (data : Option (List Nat))
    (force : Bool) : Option (Int × dbengine) :=
  match find_loc E db0 key with
  | none => none
  | some (r, db) =>
    if r ≠ 0 then some (r, db)
    else if db.loc.is_exactmatch then
      match data with
      | none => delete_here db
      | some d =>
        if ¬ force then some (CYRUSDB_EXISTS, db)
        else if E.compar d (_val db.loc.record) = 0 then some (0, db)
        else store_here db d
    else
      match data with
      | some d => store_here db d
      | none => if ¬ force then some (CYRUSDB_NOTFOUND, db) else some (0, db)

def myabort (db0 : dbengine) (tid : Option txn) : Option (Int × dbengine) :=
  if tid ≠ db0.current_txn then none
  else
    let db := { db0 with current_txn := none, end_ := db0.header.current_size }
    match recovery1 db with
    | none => none
    | some (r, db1) => some (r, (unlock db1).2)

def mycommit (E : Env) (C : Ctx) (db0 : dbengine) (tid : Option txn) : Option (Int × dbengine) :=
  if tid ≠ db0.current_txn then none
  else
    let body : Option (Int × dbengine) :=
      if db0.header.flags &&& DIRTY = 0 then some (0, db0)
      else
        let newrecord : skiprecord :=
          { type := COMMIT, nextloc := Function.update (fun _ => 0) 0 db0.header.current_size }
        match append_record db0 newrecord [] [] with
        | none => none
        | some (r, db1, _) =>
          if r ≠ 0 then some (r, db1)
          else
            some (commit_header { db1 with header := { db1.header with
              current_size := db1.end_, flags := clear_dirty db1.header.flags } })
    match body with
    | none => none
    | some (r, db2) =>
      if r ≠ 0 then
        match myabort db2 tid with
        | none => none
        | some (_, db3) => some (r, db3)
      else
        let diff := sub64 db2.header.current_size db2.header.repack_size
        if diff > MINREWRITE ∧ ratio_exceeded diff db2.header.current_size then
          match C.mycheckpoint db2 with
          | none => none
          | some (r, db3) => some (r, { db3 with current_txn := none })
        else some (0, { (unlock db2).2 with current_txn := none })

/-- The store entry point; the last component is `*tidptr` (of the local
transaction when `tidptr` is the null pointer `none`). -/
def mystore (E : Env) (C : Ctx) (db0 : dbengine) (key : List Nat) (data : Option (List Nat))
    (tidptr : Option (Option txn)) (force : Bool) : Option (Int × dbengine × Option txn) :=
  if key.length = 0 then none
  else
    let tid0 : Option txn := tidptr.getD none
    let started : Option (Int × dbengine × Option txn) :=
      if tid0 = none then newtxn C db0 tid0 else some (0, db0, tid0)
    match started with
    | none => none
    | some (r, db1, tid1) =>
      if r ≠ 0 then some (r, db1, tid1)
      else
        match skipwrite E db1 key data force with
        | none => none
        | some (r, db2) =>
          if r ≠ 0 then
            match myabort db2 tid1 with
            | none => none
            | some (r2, db3) => some ((if r2 ≠ 0 then r2 else r), db3, tid1)
          else if tidptr = none ∧ tid1 ≠ none then
            match mycommit E C db2 tid1 with
            | none => none
            | some (r, db3) => some (r, db3, tid1)
          else some (0, db2, tid1)


/-! ## Consistency check -/

/-- The loop `for (i = 0; i < MAXLEVEL; i++) r = _getloc(db, &oldrecord, i,
&fwd[i])` of `myconsistent`. -/
def consistent_init (db : dbengine) (oldrecord : skiprecord) :
    Nat → Nat → (Nat → Nat) → Option (Int × (Nat → Nat))
  | 0, _, fwd => some (0, fwd)
  | cnt + 1, i, fwd =>
    match _getloc db oldrecord i with
    | none => none
    | some (r, out) =>
      if r ≠ 0 then some (r, fwd)
      else consistent_init db oldrecord cnt (i + 1) (Function.update fwd i out)

/-- The loop `for (i = 0; i < record.level; i++)` of `myconsistent` that
checks the linkage of one record and advances the pointers. -/
def consistent_link (db : dbengine) (record : skiprecord) :
    Nat → Nat → (Nat → Nat) → Option (Int × (Nat → Nat))
  | 0, _, fwd => some (0, fwd)
  | cnt + 1, i, fwd =>
    if fwd i ≠ record.offset then some (CYRUSDB_INTERNAL, fwd)
    else
      match _getloc db record i with
      | none => none
      | some (r, out) =>
        if r ≠ 0 then some (r, fwd)
        else consistent_link db record cnt (i + 1) (Function.update fwd i out)

/-- The `while (fwd[0])` loop of `myconsistent`. -/
def consistent_walk (E : Env) (db : dbengine) :
    Nat → skiprecord → (Nat → Nat) → Option (Int × (Nat → Nat))
  | 0, _, fwd => if fwd 0 ≠ 0 then none else some (0, fwd)
  | fuel + 1, oldrecord, fwd =>
    if fwd 0 = 0 then some (0, fwd)
    else
      match read_record db (fwd 0) with
      | none => none
      | some (r, record) =>
        if r ≠ 0 then some (r, fwd)
        else if E.compar (_key record) (_key oldrecord) ≤ 0 then some (CYRUSDB_INTERNAL, fwd)
        else
          match consistent_link db record record.level 0 fwd with
          | none => none
          | some (r, fwd1) =>
            if r ≠ 0 then some (r, fwd1) else consistent_walk E db fuel record fwd1

/-- The loop `for (i = 0; i < MAXLEVEL; i++) if (fwd[i])` of `myconsistent`. -/
def consistent_tail (fwd : Nat → Nat) : Nat → Nat → Int
  | 0, _ => 0
  | cnt + 1, i => if fwd i ≠ 0 then CYRUSDB_INTERNAL else consistent_tail fwd cnt (i + 1)

/-- Perform some basic consistency checks. -/
def myconsistent (E : Env) (db : dbengine) (tid : Option txn) : Option Int :=
  if db.current_txn ≠ tid then none
  else
    match read_record db HEADER_SIZE with
    | none => none
    | some (r, oldrecord) =>
      if r ≠ 0 then some r
      else
        match consistent_init db oldrecord MAXLEVEL 0 (fun _ => 0) with
        | none => none
        | some (r, fwd) =>
          if r ≠ 0 then some r
          else
            match consistent_walk E db (db.mf.recs.length + 1) oldrecord fwd with
            | none => none
            | some (r, fwd1) =>
              if r ≠ 0 then some r else some (consistent_tail fwd1 MAXLEVEL 0)

/-! ## Open -/

/-- The part of `opendb` from the new-file test to the final unlock.  The
result `none` of the inner option is the jump to `retry_write`. -/
def opendb_attempt (C : Ctx) (db0 : dbengine) : Option (Option (Int × dbengine)) :=
  let created : Option (Option (Int × dbengine)) :=
    if db0.mf.size = 0 then
      if db0.mf.lock_status ≠ WRITELOCKED then some none
      else
        let dummy : skiprecord := { type := DUMMY, level := MAXLEVEL }
        match write_record { db0 with end_ := HEADER_SIZE } dummy [] [] with
        | none => none
        | some (r, db1, _) =>
          if r ≠ 0 then some (some (r, db1))
          else
            some (some (commit_header { db1 with header := { db1.header with
              version := VERSION, generation := 1,
              repack_size := db1.end_, current_size := db1.end_ } }))
    else some (some (0, db0))
  match created with
  | none => none
  | some none => some none
  | some (some (r, db2)) =>
    if r ≠ 0 then some (some (r, db2))
    else
      match read_header { db2 with is_open := true } with
      | (r, db3) =>
        if r ≠ 0 then some (some (r, db3))
        else if ¬ db_is_clean db3 then
          if db3.mf.lock_status ≠ WRITELOCKED then some none
          else
            match recovery C db3 with
            | none => none
            | some (r, db4) =>
              if r ≠ 0 then some (some (r, db4)) else some (some (0, (unlock db4).2))
        else some (some (0, (unlock db3).2))

/-- Open the database held by the mapped file `mf` (an empty file when it is
created).  `src` is the state of the random source. -/
def opendb (C : Ctx) (mf : mappedfile) (flags : Nat) (src : Nat → Bool) :
    Option (Int × dbengine) :=
  let db : dbengine := { mf := mf, open_flags := flags, rand_src := src, is_open := false }
  match read_lock C 2 db with
  | none => none
  | some (r, db1) =>
    if r ≠ 0 then some (r, db1)
    else
      match opendb_attempt C db1 with
      | none => none
      | some (some res) => some res
      | some none =>
        match write_lock C { (unlock db1).2 with is_open := false } with
        | none => none
        | some (r, db2) =>
          if r ≠ 0 then some (r, db2)
          else
            match opendb_attempt C db2 with
            | none => none
            | some (some res) => some res
            | some none => none

/-! ## Checkpoint and catastrophic recovery -/

/-- The rock of `copy_cb` (`struct copy_rock`). -/
structure copy_rock where
  db : dbengine
  tid : Option txn

def copy_cb (E : Env) (C : Ctx) (cr : copy_rock) (key val : List Nat) :
    Option (Int × copy_rock) :=
  match mystore E C cr.db key (some val) (some cr.tid) false with
  | none => none
  | some (r, db1, tid1) => some (r, { db := db1, tid := tid1 })

/-- The handle `myclose` is given here came from `opendb` directly and is
not in the list of open databases, so its `assert(ent)` fails. -/
def myclose_unlisted (_db : dbengine) : Option (Int × dbengine) := none

/-- Compress the database `db` into a new file and take that file over. -/
def mycheckpoint (E : Env) (C : Ctx) (db : dbengine) : Option (Int × dbengine) :=
  if db.current_txn = none then none
  else
    match myconsistent E db db.current_txn with
    | none => none
    | some r =>
      if r ≠ 0 then some (r, (unlock db).2)
      else
        match opendb C {} db.open_flags db.rand_src with
        | none => none
        | some (r, newdb) =>
          if r ≠ 0 then some (r, db)
          else
            match myforeach E C db [] none (copy_cb E C) { db := newdb, tid := none }
                    (some db.current_txn) with
            | none => none
            | some (r, olddb, cr, _) =>
              let err (cr : copy_rock) : Option (Int × dbengine) :=
                match myabort cr.db cr.tid with
                | none => none
                | some (_, db1) =>
                  match myclose_unlisted db1 with
                  | none => none
                  | some _ => some (CYRUSDB_IOERROR, (unlock olddb).2)
              if r ≠ 0 then err cr
              else
                match myconsistent E cr.db cr.tid with
                | none => none
                | some r =>
                  if r ≠ 0 then err cr
                  else
                    let crdb := { cr.db with header := { cr.db.header with
                      generation := db.header.generation + 1 } }
                    match mycommit E C crdb cr.tid with
                    | none => none
                    | some (r, crdb1) =>
                      if r ≠ 0 then err { cr with db := crdb1 } else some (0, crdb1)

/-- The loop of `_copy_commit` over the records of one commit; the state is
the new database and its transaction. -/
def _copy_commit_loop (E : Env) (C : Ctx) (db : dbengine) (commit : skiprecord) :
    Nat → Nat → dbengine → Option txn → Option (Int × dbengine × Option txn)
  | 0, offset, newdb, tid => if offset < commit.offset then none else some (0, newdb, tid)
  | fuel + 1, offset, newdb, tid =>
    if offset < commit.offset then
      match read_record db offset with
      | none => none
      | some (r, record) =>
        if r ≠ 0 then some (r, newdb, tid)
        else if record.type ≠ DELETE ∧ record.type ≠ RECORD then
          some (CYRUSDB_IOERROR, newdb, tid)
        else
          let val : Option (List Nat) :=
            if record.type = DELETE then none else some (_val record)
          match mystore E C newdb (_key record) val (some tid) true with
          | none => none
          | some (r, newdb1, tid1) =>
            if r ≠ 0 then some (r, newdb1, tid1)
            else _copy_commit_loop E C db commit fuel (offset + record.len) newdb1 tid1
    else some (0, newdb, tid)

def _copy_commit (E : Env) (C : Ctx) (db newdb : dbengine) (commit : skiprecord) :
    Option (Int × dbengine) :=
  match _copy_commit_loop E C db commit (commit.offset + 1) (commit.nextloc 0) newdb none with
  | none => none
  | some (r, newdb1, tid) =>
    if r ≠ 0 then
      if tid ≠ none then
        match myabort newdb1 tid with
        | none => none
        | some (_, newdb2) => some (r, newdb2)
      else some (r, newdb1)
    else if tid ≠ none then mycommit E C newdb1 tid
    else some (0, newdb1)

/-- The scan of `recovery2` over the old file. -/
def recovery2_loop (E : Env) (C : Ctx) (db : dbengine) :
    Nat → Nat → dbengine → Option dbengine
  | 0, offset, newdb => if offset < _size db then none else some newdb
  | fuel + 1, offset, newdb =>
    if offset < _size db then
      match read_record db offset with
      | none => none
      | some (r, record) =>
        if r ≠ 0 then some newdb
        else if record.type = COMMIT then
          match _copy_commit E C db newdb record with
          | none => none
          | some (r, newdb1) =>
            if r ≠ 0 then some newdb1
            else recovery2_loop E C db fuel (offset + record.len) newdb1
        else recovery2_loop E C db fuel (offset + record.len) newdb
    else some newdb

/-- The file is really screwed: read out records from the top and apply
commits to a new file instead. -/
def recovery2 (E : Env) (C : Ctx) (db : dbengine) : Option (Int × dbengine) :=
  match opendb C {} db.open_flags db.rand_src with
  | none => none
  | some (r, newdb0) =>
    if r ≠ 0 then some (r, db)
    else
      let newdb := { newdb0 with header := { newdb0.header with
        generation := db.header.generation + 1 } }
      match recovery2_loop E C db (_size db + 1) HEADER_SIZE newdb with
      | none => none
      | some newdb1 =>
        if newdb1.header.num_records = 0 then
          match myclose_unlisted newdb1 with
          | none => none
          | some _ => some (CYRUSDB_NOTFOUND, db)
        else some (0, newdb1)

/-- The engine to nesting depth `d` of checkpoint and catastrophic recovery
inside one another; at depth 0 neither returns. -/
def ctx (E : Env) : Nat → Ctx
  | 0 => { recovery2 := fun _ => none, mycheckpoint := fun _ => none }
  | d + 1 => { recovery2 := recovery2 E (ctx E d), mycheckpoint := mycheckpoint E (ctx E d) }

/-! ## The backend entry points -/

def fetch (E : Env) (C : Ctx) (mydb : dbengine) (key : List Nat)
    (tidptr : Option (Option txn)) : Option fetch_result :=
  if key.length = 0 then none else myfetch E C mydb key tidptr false

def fetchnext (E : Env) (C : Ctx) (mydb : dbengine) (key : List Nat)
    (tidptr : Option (Option txn)) : Option fetch_result :=
  myfetch E C mydb key tidptr true

def create (E : Env) (C : Ctx) (db : dbengine) (key : List Nat) (data : Option (List Nat))
    (tid : Option (Option txn)) : Option (Int × dbengine × Option txn) :=
  mystore E C db key (some (data.getD [])) tid false

def store (E : Env) (C : Ctx) (db : dbengine) (key : List Nat) (data : Option (List Nat))
    (tid : Option (Option txn)) : Option (Int × dbengine × Option txn) :=
  mystore E C db key (some (data.getD [])) tid true

def delete (E : Env) (C : Ctx) (db : dbengine) (key : List Nat)
    (tid : Option (Option txn)) (force : Bool) : Option (Int × dbengine × Option txn) :=
  mystore E C db key none tid force

/-! ## Specification: well-formed files, the chain of live records, and the invariants -/

/-- The derived fields of a record are what `read_record` computes. -/
structure Norm (d : skiprecord) : Prop where
  level_le : d.level ≤ MAXLEVEL
  len_eq : d.len = reclen d.level d.keylen d.vallen
  keylen_eq : d.keylen = d.key.length
  vallen_eq : d.vallen = d.val.length
  keyoffset_eq : d.keyoffset = d.offset + headlen d.keylen d.vallen + 8 * (1 + d.level) + 8
  valoffset_eq : d.valoffset = d.keyoffset + d.keylen
  ptrs : ∀ i, d.level < i → d.nextloc i = 0

/-- The records of the file lie inside it, one per offset. -/
structure MfOK (mf : mappedfile) : Prop where
  nodup : (mf.recs.map skiprecord.offset).Nodup
  norm : ∀ d ∈ mf.recs, Norm d
  bound : ∀ d ∈ mf.recs, HEADER_SIZE ≤ d.offset ∧ d.offset + d.len ≤ mf.size

/-- What never changes about a record once it is appended. -/
structure node where
  offset : Nat
  level : Nat
  key : List Nat
  val : List Nat

/-- The sentinel at offset 64. -/
def dummyNode : node := ⟨HEADER_SIZE, MAXLEVEL, [], []⟩

/-- The first node of level above `i`, as an offset; 0 when there is none. -/
def nextAt (i : Nat) : List node → Nat
  | [] => 0
  | n :: rest => if i < n.level then n.offset else nextAt i rest

/-- The last node of level above `i`. -/
def lastAt (i : Nat) (l : List node) : Nat := nextAt i l.reverse

/-- The effective level zero pointer of `d` leads to `t`, directly or
through one delete record. -/
def Succ0 (recs : List skiprecord) (d : skiprecord) (t : Nat) : Prop :=
  (max (d.nextloc 0) (d.nextloc 1) = 0 ∧ t = 0) ∨
  ∃ e ∈ recs, e.offset = max (d.nextloc 0) (d.nextloc 1) ∧ e.offset ≠ 0 ∧
    ((e.type = DELETE ∧ t = e.nextloc 0) ∨ (e.type ≠ DELETE ∧ t = e.offset))

/-- The node `n` is in the file and its pointers lead to the nodes of
`rest` at every level. -/
def NodeAt (recs : List skiprecord) (n : node) (rest : List node) : Prop :=
  ∃ d ∈ recs, d.offset = n.offset ∧ d.level = n.level ∧ d.key = n.key ∧ d.val = n.val ∧
    d.type ≠ DELETE ∧ Succ0 recs d (nextAt 0 rest) ∧
    ∀ i, 1 ≤ i → i < n.level → d.nextloc (i + 1) = nextAt i rest

def Linked (recs : List skiprecord) : List node → Prop
  | [] => True
  | n :: rest => NodeAt recs n rest ∧ Linked recs rest

/-- What the engine relies on: the comparator is a strict total order on
byte strings with the empty string least. -/
structure CompareLaws (cmp : List Nat → List Nat → Int) : Prop where
  eq_zero : ∀ a b, cmp a b = 0 ↔ a = b
  lt_gt : ∀ a b, cmp a b < 0 ↔ 0 < cmp b a
  trans : ∀ a b c, cmp a b < 0 → cmp b c < 0 → cmp a c < 0
  nil_lt : ∀ a, a ≠ [] → cmp [] a < 0

/-- An in-memory record agrees with a node. -/
def RecOf (r : skiprecord) (n : node) : Prop :=
  r.offset = n.offset ∧ r.level = n.level ∧ r.key = n.key ∧ r.val = n.val

/-- The last node of `dummyNode :: p`. -/
def lastNode (p : List node) : node := (p.reverse.head?).getD dummyNode

/-- The skip list over the live records `live`, in key order. -/
structure ChainOK (E : Env) (recs : List skiprecord) (live : List node) : Prop where
  linked : Linked recs (dummyNode :: live)
  sorted : (dummyNode :: live).Pairwise (fun a b => E.compar a.key b.key < 0)
  level_pos : ∀ n ∈ live, 1 ≤ n.level

/-- The location describes the position of `loc.keybuf` in the chain. -/
def LocAt (E : Env) (loc : skiploc) (live : List node) : Prop :=
  ∃ p S, live = p ++ S ∧ (∀ n ∈ p, E.compar n.key loc.keybuf < 0) ∧
    (∀ i, i < MAXLEVEL → loc.backloc i = lastAt i (dummyNode :: p)) ∧
    ((loc.is_exactmatch = true ∧ ∃ m S', S = m :: S' ∧ m.key = loc.keybuf ∧
        RecOf loc.record m ∧ ∀ i, i < MAXLEVEL → loc.forwardloc i = nextAt i S') ∨
     (loc.is_exactmatch = false ∧ (∀ n ∈ S, E.compar loc.keybuf n.key < 0) ∧
        RecOf loc.record (lastNode p) ∧ ∀ i, i < MAXLEVEL → loc.forwardloc i = nextAt i S))

/-- The loop invariant of `relocate`: the search stands at node `x` of the
prefix `P` (the nodes below the key), about to follow level `l - 1`. -/
structure RelInv (E : Env) (db : dbengine) (K : List Nat) (P S : List node)
    (l : Nat) (loc : skiploc) (nr : skiprecord) (cmp : Int)
    (x : node) (pre mid : List node) : Prop where
  hP : P = pre ++ x :: mid
  hmid : ∀ n ∈ mid, n.level ≤ l
  hx : l ≤ x.level
  hrec : loc.record ∈ db.mf.recs
  hro : loc.record.offset = x.offset
  hkey : loc.keybuf = K
  harr : ∀ i, l ≤ i → i < MAXLEVEL →
    loc.backloc i = lastAt i P ∧ loc.forwardloc i = nextAt i S
  hcmp : (cmp < 0 ∧ (nr.offset = 0 ∨ nr.offset = x.offset)) ∨
    (0 ≤ cmp ∧ ∃ y ∈ S, nr ∈ db.mf.recs ∧ nr.offset = y.offset ∧
      cmp = E.compar y.key K ∧ l ≤ y.level)
  hfin : l = 0 → (S = [] → cmp < 0) ∧
    (∀ y S', S = y :: S' → nr ∈ db.mf.recs ∧ nr.offset = y.offset ∧ cmp = E.compar y.key K)

/-- What the loop of `relocate` leaves behind. -/
structure RelPost (E : Env) (db : dbengine) (K : List Nat) (P S : List node)
    (loc loc1 : skiploc) (nr1 : skiprecord) (cmp1 : Int) : Prop where
  hkey : loc1.keybuf = K
  hgen : loc1.generation = loc.generation
  hend : loc1.end_ = loc.end_
  hexact : loc1.is_exactmatch = loc.is_exactmatch
  hrec : loc1.record ∈ db.mf.recs
  hlast : ∃ pre1 x1, P = pre1 ++ [x1] ∧ loc1.record.offset = x1.offset
  harr : ∀ i, i < MAXLEVEL → loc1.backloc i = lastAt i P ∧ loc1.forwardloc i = nextAt i S
  hnil : S = [] → cmp1 < 0
  hcons : ∀ y S', S = y :: S' →
    nr1 ∈ db.mf.recs ∧ nr1.offset = y.offset ∧ cmp1 = E.compar y.key K

/-- The file part of the invariant: the records are well formed, the level
zero slots point inside the file, and the live records form a skip list. -/
structure FileOK (E : Env) (db : dbengine) (live : List node) : Prop where
  mf : MfOK db.mf
  slots : ∀ d ∈ db.mf.recs, d.nextloc 0 < db.end_ ∧ d.nextloc 1 < db.end_
  chain : ChainOK E db.mf.recs live

/-- The record that `write_record` puts in the file. -/
def disk_image (off : Nat) (record : skiprecord) (key val : List Nat) : skiprecord :=
  { record with
    offset := off,
    keyoffset := off + headlen record.keylen record.vallen + 8 * (1 + record.level) + 8,
    valoffset := off + headlen record.keylen record.vallen + 8 * (1 + record.level) + 8
                   + record.keylen,
    len := reclen record.level record.keylen record.vallen,
    key := key.take record.keylen, val := val.take record.vallen,
    nextloc := diskptrs record.level record.nextloc }

/-- The in-memory header after `append_record`. -/
def dirtied (db : dbengine) : db_header :=
  if db.header.flags &&& DIRTY = 0 then { db.header with flags := db.header.flags ||| DIRTY }
  else db.header

/-- The header in the file after `append_record`. -/
def dirtied_mf (db : dbengine) : db_header :=
  if db.header.flags &&& DIRTY = 0 then { db.header with flags := db.header.flags ||| DIRTY }
  else db.mf.header

/-- What `stitch` makes of a record of the file: at each level below `upto`
whose back location is this record, the pointer is set to the forward
location. -/
def stitch_rec (db : dbengine) (upto : Nat) (e : skiprecord) : skiprecord :=
  { e with nextloc := fun j =>
      if j ≤ 1 then
        (if 0 < upto ∧ db.loc.backloc 0 = e.offset ∧ 1 ≤ e.level then
          (_setloc db e 0 (db.loc.forwardloc 0)).nextloc j
         else e.nextloc j)
      else if j - 1 < upto ∧ db.loc.backloc (j - 1) = e.offset ∧ j ≤ e.level then
        db.loc.forwardloc (j - 1)
      else e.nextloc j }

/-- What `stitch` needs: the back locations are records of the file, each
the back location of all the levels from the one asked up to its own. -/
structure StitchH (db : dbengine) (maxlevel : Nat) : Prop where
  dirty : db.header.flags &&& DIRTY ≠ 0
  mf : MfOK db.mf
  maxle : maxlevel ≤ MAXLEVEL
  back : ∀ i, i < maxlevel → ∃ B ∈ db.mf.recs, B.offset = db.loc.backloc i ∧ i < B.level ∧
    ∀ j, i ≤ j → j < B.level → j < maxlevel → db.loc.backloc j = B.offset

/-- The database after `stitch` has run over the levels below `upto`. -/
def stitched (db : dbengine) (upto : Nat) : dbengine :=
  { db with mf := { db.mf with recs := db.mf.recs.map (stitch_rec db upto) } }

/-- The level zero pointer as it reads when the end of the file is the
committed size `cs`. -/
def czero (cs : Nat) (d : skiprecord) : Nat := _getzero ({ end_ := cs } : dbengine) d

/-- At most one of the two level zero slots is at or past `cs`. -/
def Dual (cs : Nat) (d : skiprecord) : Prop := ¬ (cs ≤ d.nextloc 0 ∧ cs ≤ d.nextloc 1)

/-- What a step of a transaction keeps of a record. -/
structure Keeps (cs : Nat) (d d1 : skiprecord) : Prop where
  offset : d1.offset = d.offset
  type : d1.type = d.type
  level : d1.level = d.level
  keylen : d1.keylen = d.keylen
  vallen : d1.vallen = d.vallen
  key : d1.key = d.key
  val : d1.val = d.val
  len : d1.len = d.len
  zero : czero cs d1 = czero cs d
  flat : d.level = 0 → d1 = d
  dual : Dual cs d1

/-- The state after a record `D` was appended at `e0` to the records `old`,
where the location still describes the place `p | Sold` of the old chain. -/
structure PreStitch (E : Env) (db : dbengine) (old : List skiprecord) (D : skiprecord)
    (e0 : Nat) (p Sold : List node) : Prop where
  recs : db.mf.recs = old ++ [D]
  Doff : D.offset = e0
  Dnorm : Norm D
  Dslots : D.nextloc 0 < e0 ∧ D.nextloc 1 < e0
  nodup : (old.map skiprecord.offset).Nodup
  norm : ∀ d ∈ old, Norm d
  bound : ∀ d ∈ old, HEADER_SIZE ≤ d.offset ∧ d.offset + d.len ≤ e0
  slots : ∀ d ∈ old, d.nextloc 0 < e0 ∧ d.nextloc 1 < e0
  size : db.mf.size = e0 + D.len
  end_eq : db.end_ = e0 + D.len
  e64 : HEADER_SIZE ≤ e0
  link : Linked old (dummyNode :: (p ++ Sold))
  sort : (dummyNode :: (p ++ Sold)).Pairwise (fun a b => E.compar a.key b.key < 0)
  pos : ∀ n ∈ p, 1 ≤ n.level
  back : ∀ i, i < MAXLEVEL → db.loc.backloc i = lastAt i (dummyNode :: p)
  dirty : db.header.flags &&& DIRTY ≠ 0
  fwd0 : db.loc.forwardloc 0 = e0

/-- What a write inside a transaction leaves of the handle. -/
structure Frame (db db1 : dbengine) : Prop where
  txn : db1.current_txn = db.current_txn
  is_open : db1.is_open = db.is_open
  open_flags : db1.open_flags = db.open_flags
  txn_num : db1.txn_num = db.txn_num
  lock : db1.mf.lock_status = db.mf.lock_status
  cs : db1.header.current_size = db.header.current_size
  version : db1.header.version = db.header.version
  generation : db1.header.generation = db.header.generation
  dirty : db1.header.flags &&& DIRTY ≠ 0
  size : db1.mf.size = db1.end_
  end_lt : db.end_ < db1.end_
  loc_end : db1.loc.end_ = db1.end_
  loc_gen : db1.loc.generation = db.loc.generation
  loc_key : db1.loc.keybuf = db.loc.keybuf

/-- The record after the level zero `_setloc` calls with the offsets `offs`,
in turn. -/
def setloc_zero_seq (db : dbengine) (record : skiprecord) (offs : List Nat) : skiprecord :=
  offs.foldl (fun r z => _setloc db r 0 z) record

/-- One slot holds the value `a` below the committed size and the other
slot is at or past it. -/
def Parked (cs a : Nat) (j : Nat) (r : skiprecord) : Prop :=
  (j = 0 ∧ r.nextloc 0 = a ∧ cs ≤ r.nextloc 1) ∨ (j = 1 ∧ r.nextloc 1 = a ∧ cs ≤ r.nextloc 0)

/-- The value the live records hold for the key `k`. -/
def lookup (live : List node) (k : List Nat) : Option (List Nat) :=
  (live.find? (fun n => n.key = k)).map node.val

/-- The invariant of the handle inside a transaction, over the live records
`live`. -/
structure InTxn (E : Env) (db : dbengine) (live : List node) : Prop where
  file : FileOK E db live
  txn : db.current_txn ≠ none
  size : db.mf.size = db.end_
  cs_pos : 0 < db.header.current_size
  cs_le : db.header.current_size ≤ db.end_
  cache : db.loc.end_ = db.end_ → db.loc.generation = db.header.generation →
    LocAt E db.loc live
  dual : ∀ d ∈ db.mf.recs, Dual db.header.current_size d

/-- What one write does to the records of the file: one record `D` is
appended at the old end and the records at back locations get new
pointers. -/
def Step (cs : Nat) (db db1 : dbengine) (live live1 : List node) : Prop :=
  ∃ f D, db1.mf.recs = (db.mf.recs ++ [D]).map f ∧ D.offset = db.end_ ∧
    (D.type = DELETE → D.level = 0 ∧ D.keylen = 0) ∧ Dual cs D ∧
    (∀ d, Dual cs d → Keeps cs d (f d)) ∧
    (∀ d, f d = d ∨ ∃ n ∈ dummyNode :: live, n.offset = d.offset) ∧
    (∀ n ∈ live1, n ∈ live ∨ n.offset = db.end_)

/-- The code a write returns: `Exists` for a store without force over a
present key, `NotFound` for a delete without force of an absent key, else
0. -/
def write_code (present : Bool) (data : Option (List Nat)) (force : Bool) : Int :=
  match data with
  | some _ => if present ∧ ¬ force then CYRUSDB_EXISTS else 0
  | none => if ¬ present ∧ ¬ force then CYRUSDB_NOTFOUND else 0

/-- What a call inside a transaction leaves of the handle, the location
apart. -/
structure TxnFrame (db db1 : dbengine) : Prop where
  txn : db1.current_txn = db.current_txn
  is_open : db1.is_open = db.is_open
  open_flags : db1.open_flags = db.open_flags
  txn_num : db1.txn_num = db.txn_num
  lock : db1.mf.lock_status = db.mf.lock_status
  cs : db1.header.current_size = db.header.current_size
  version : db1.header.version = db.header.version
  generation : db1.header.generation = db.header.generation
  end_le : db.end_ ≤ db1.end_

/-- A call inside a transaction either left the file alone or made one
write. -/
def Wrote (db db1 : dbengine) (live live1 : List node) : Prop :=
  (db1.mf = db.mf ∧ db1.end_ = db.end_ ∧ db1.header = db.header ∧ live1 = live) ∨
  (db1.header.flags &&& DIRTY ≠ 0 ∧ db.end_ < db1.end_ ∧
    Step db.header.current_size db db1 live live1)

/-- The environment of a database opened with the raw comparator. -/
def raw_env : Env :=
  { compar := bsearch_ncompare_raw }

/-- The handle as `read_header` leaves it. -/
def reread (db : dbengine) : dbengine :=
  { db with header := db.mf.header, end_ := db.mf.header.current_size }

/-- The invariant of the handle between transactions, over the live records
`live`: the file is clean and holds the skip list of `live`. -/
structure Idle (E : Env) (db : dbengine) (live : List node) : Prop where
  is_open : db.is_open = true
  no_txn : db.current_txn = none
  version : db.mf.header.version ≤ VERSION
  clean_size : db.mf.header.current_size = db.mf.size
  clean_flags : db.mf.header.flags &&& DIRTY = 0
  file : FileOK E (reread db) live
  cache : db.loc.end_ = db.mf.header.current_size →
    db.loc.generation = db.mf.header.generation → LocAt E db.loc live

/-- What holds of the handle inside a transaction besides the skip list. -/
structure Held (db : dbengine) : Prop where
  is_open : db.is_open = true
  lock : db.mf.lock_status = WRITELOCKED
  version : db.header.version ≤ VERSION
  stale : db.header.flags &&& DIRTY ≠ 0 → db.loc.end_ ≤ db.end_
  clean : db.header.flags &&& DIRTY = 0 →
    db.mf.header = db.header ∧ db.end_ = db.header.current_size

/-- The handle after `newtxn` between transactions. -/
def begun (db : dbengine) : dbengine :=
  { reread db with
    mf := mappedfile_writelock db.mf
    txn_num := db.txn_num + 1
    current_txn := some { num := db.txn_num + 1 } }

/-- The header of a database that was just created. -/
def new_header : db_header :=
  { version := VERSION, flags := 0, generation := 1, num_records := 0,
    repack_size := 336, current_size := 336 }

/-- The DUMMY record of a database that was just created. -/
def new_dummy : skiprecord :=
  { offset := HEADER_SIZE, len := 272, type := DUMMY, level := MAXLEVEL,
    nextloc := diskptrs MAXLEVEL (fun _ => 0), keyoffset := 336, valoffset := 336 }

/-- The handle `opendb` returns for a new file. -/
def new_db (flags : Nat) (src : Nat → Bool) : dbengine :=
  { mf := { size := 336, header := new_header, recs := [new_dummy], lock_status := UNLOCKED },
    header := new_header, is_open := true, end_ := 336, open_flags := flags, rand_src := src }

/-- Every record of the file has its level zero slots inside the file and
at most one of them at or past `current_size`. -/
def DualOK (db : dbengine) : Prop :=
  ∀ d ∈ db.mf.recs, max (d.nextloc 0) (d.nextloc 1) < db.mf.size ∧
    ¬ (db.header.current_size ≤ d.nextloc 0 ∧ db.header.current_size ≤ d.nextloc 1)

/-- The handle after `find_loc` for `key`. -/
def located (E : Env) (db : dbengine) (key : List Nat) : dbengine :=
  match find_loc E db key with
  | some (_, db1) => db1
  | none => db

/-- A write: a store of a value under a key, or a delete of a key. -/
structure write_op where
  key : List Nat
  data : Option (List Nat)
  force : Bool

/-- The finite map after a write: the key holds the value stored, or
nothing after a delete; every other key holds what it held. -/
def map_write (m : List Nat → Option (List Nat)) (op : write_op) :
    List Nat → Option (List Nat) :=
  fun k => if k = op.key then op.data else m k

/-- The writes `ops` in turn inside one transaction, each one successful
(code 0); `none` when one of them is not. -/
def run_writes (E : Env) : List write_op → dbengine → Option dbengine
  | [], db => some db
  | op :: rest, db =>
    match skipwrite E db op.key op.data op.force with
    | none => none
    | some (r, db1) => if r = 0 then run_writes E rest db1 else none

/-- The handle after the header was read under the lock `ls`. -/
def locked (ls : Nat) (db : dbengine) : dbengine :=
  { reread db with mf := { db.mf with lock_status := ls } }

/-- A database with the keys `[2]` and `[3]`, each stored and committed. -/
def two_keys : Option dbengine :=
  (mystore raw_env (ctx raw_env 1) (new_db 0 (fun _ => false)) [2] (some [20]) none true).bind
    fun r => (mystore raw_env (ctx raw_env 1) r.2.1 [3] (some [30]) none true).map
      fun r1 => r1.2.1

/-- The COMMIT record `mycommit` appends, as it lies in the file. -/
def commit_record (db : dbengine) : skiprecord :=
  disk_image db.end_
    { type := COMMIT, nextloc := Function.update (fun _ => 0) 0 db.header.current_size } [] []

/-- The header `mycommit` writes after the COMMIT record. -/
def committed_header (db : dbengine) : db_header :=
  { db.header with current_size := db.end_ + 24, flags := clear_dirty db.header.flags }

/-- The handle after the body of a dirty `mycommit`. -/
def committed (db : dbengine) : dbengine :=
  { db with
    header := committed_header db
    mf := { db.mf with
      header := committed_header db
      size := db.end_ + 24
      recs := db.mf.recs ++ [commit_record db] }
    end_ := db.end_ + 24 }

/-- The handle after the body of `mycommit`. -/
def commit_body (db : dbengine) : dbengine :=
  if db.header.flags &&& DIRTY = 0 then db else committed db

/-- The test `mycommit` makes before it runs a checkpoint. -/
def needs_checkpoint (E : Env) (db : dbengine) : Prop :=
  sub64 db.header.current_size db.header.repack_size > MINREWRITE ∧
    ratio_exceeded (sub64 db.header.current_size db.header.repack_size)
      db.header.current_size = true

instance (E : Env) (db : dbengine) : Decidable (needs_checkpoint E db) := by
  unfold needs_checkpoint; infer_instance

/-- The handle `mycommit` leaves when no checkpoint runs. -/
def released (db : dbengine) : dbengine :=
  { db with mf := { db.mf with lock_status := UNLOCKED }, current_txn := none }

/-- The end of `mycommit` after a successful body. -/
def commit_finish (E : Env) (C : Ctx) (db2 : dbengine) : Option (Int × dbengine) :=
  if needs_checkpoint E db2 then
    match C.mycheckpoint db2 with
    | none => none
    | some (r, db3) => some (r, { db3 with current_txn := none })
  else some (0, released db2)

/-- A handle inside a transaction that made no write, over a clean file of
20000 bytes with an empty skip list; `repack` is the `repack_size` of its
header. -/
def slack_db (repack : Nat) : dbengine :=
  { mf := { size := 20000,
            header := { new_header with current_size := 20000, repack_size := repack },
            recs := [new_dummy], lock_status := WRITELOCKED },
    header := { new_header with current_size := 20000, repack_size := repack },
    is_open := true, end_ := 20000, txn_num := 1, current_txn := some { num := 1 } }

/-- The first transaction of a new database after one store. -/
def one_store : Option dbengine :=
  run_writes raw_env [⟨[1], some [5], false⟩] (begun (new_db 0 (fun _ => false)))

/-- The key length of a record is the length of its key. -/
def KL (r : skiprecord) : Prop := r.keylen = r.key.length

/-- The filter of `myforeach`: no `goodp`, or `goodp` returns non-zero. -/
def good {ρ : Type} (goodp : Option (ρ → List Nat → List Nat → Int)) (rock : ρ)
    (key val : List Nat) : Bool :=
  match goodp with
  | none => true
  | some p => p rock key val ≠ 0

/-- The reference iteration: the callback on the records of `l` in turn that
pass the filter, until one returns non-zero; the result is that value, or 0
at the end of `l`, and the rock. -/
def foreach_ref {ρ : Type} (goodp : Option (ρ → List Nat → List Nat → Int))
    (cb : ρ → List Nat → List Nat → Option (Int × ρ)) : List node → ρ → Option (Int × ρ)
  | [], rock => some (0, rock)
  | n :: rest, rock =>
    if good goodp rock n.key n.val then
      match cb rock n.key n.val with
      | none => none
      | some (cb_r, rock1) =>
        if cb_r ≠ 0 then some (cb_r, rock1) else foreach_ref goodp cb rest rock1
    else foreach_ref goodp cb rest rock

/-- The prefix test of the loop of `myforeach` on a live record. -/
def starts_with (E : Env) (pfx : List Nat) (n : node) : Bool :=
  decide (pfx.length = 0) ||
    (!decide (n.key.length < pfx.length) && decide (E.compar (n.key.take pfx.length) pfx = 0))

/-- What `myforeach` relies on to stop at the first key without the prefix:
a prefix is not above its extensions, and a key above the prefix that does
not extend it is above every extension. -/
structure PrefixLaws (cmp : List Nat → List Nat → Int) : Prop where
  le_ext : ∀ p a, p <+: a → cmp p a ≤ 0
  gap : ∀ p a b, p <+: b → ¬ p <+: a → cmp p a < 0 → cmp b a < 0

/-- The handle of a read outside a transaction: releasing the read lock
leaves the handle between transactions, and taking it again gives the same
handle back. -/
def Relock (E : Env) (db : dbengine) (live : List node) : Prop :=
  Idle E (unlock db).2 live ∧ locked READLOCKED (unlock db).2 = db

/-- The body of `myforeach` after the lock or the transaction is taken:
`db1` is the handle then, `notid` tells that no transaction is used and
`tid1` is `*tidptr`. -/
def foreach_body {ρ : Type} (E : Env) (C : Ctx) (pfx : List Nat)
    (goodp : Option (ρ → List Nat → List Nat → Int))
    (cb : ρ → List Nat → List Nat → Option (Int × ρ)) (rock : ρ)
    (db1 : dbengine) (notid : Bool) (tid1 : Option txn) :
    Option (Int × dbengine × ρ × Option txn) :=
  let done (res : Int × Int × dbengine × ρ × Bool) : Int × dbengine × ρ × Option txn :=
    match res with
    | (r, cb_r, db, rock1, need_unlock) =>
      ((if r ≠ 0 then r else cb_r), (if need_unlock then (unlock db).2 else db), rock1, tid1)
  match find_loc E db1 pfx with
  | none => none
  | some (r, db2) =>
    if r ≠ 0 then some (done (r, 0, db2, rock, notid))
    else
      match (if ¬ db2.loc.is_exactmatch then advance_loc E db2 else some (0, db2)) with
      | none => none
      | some (r, db3) =>
        if r ≠ 0 then some (done (r, 0, db3, rock, notid))
        else
          match myforeach_loop E C pfx goodp cb notid (db3.mf.recs.length + 1) db3 rock notid with
          | none => none
          | some res => some (done res)

/-- The keys with the prefix are a run of the upper part of every split of
the live records at the prefix. -/
def PrefixRun (E : Env) (pfx : List Nat) (live : List node) : Prop :=
  ∀ P S, live = P ++ S → (∀ n ∈ P, E.compar n.key pfx < 0) →
    (∀ n ∈ S, 0 ≤ E.compar n.key pfx) →
    live.filter (starts_with E pfx) = S.takeWhile (starts_with E pfx)

/-- The rock of the copy inside its transaction on the new file: the new
file holds the map `m` in `cnt` records, and all of it is accounted for in
`repack_size`. -/
structure InCopy (E : Env) (cr : copy_rock) (m : List Nat → Option (List Nat)) (cnt : Nat) :
    Prop where
  tid : cr.tid = cr.db.current_txn
  live : ∃ liveN, InTxn E cr.db liveN ∧ ∀ k, lookup liveN k = m k
  held : Held cr.db
  dirty : cr.db.header.flags &&& DIRTY ≠ 0
  num : cr.db.header.num_records = cnt % 2 ^ 64
  slack : sub64 cr.db.end_ cr.db.header.repack_size = 0
  kl : KL cr.db.loc.record

/-- The map after the records of `l` are stored in turn over `m`. -/
def stored (m : List Nat → Option (List Nat)) (l : List node) : List Nat → Option (List Nat) :=
  l.foldl (fun m1 n => fun k => if k = n.key then some n.val else m1 k) m

/-- The handle of the copy with the generation `g` set in memory. -/
def with_generation (db : dbengine) (g : Nat) : dbengine :=
  { db with header := { db.header with generation := g } }

/-- The handle `mycheckpoint` returns for a database without live records:
the new file as created, the new generation in memory only. -/
def emptied (db : dbengine) : dbengine :=
  released (with_generation (new_db db.open_flags db.rand_src) (db.header.generation + 1))

/-- The key and the value of a live record. -/
def kv (n : node) : List Nat × List Nat := (n.key, n.val)

/-- The in-memory record with its checksums (`struct skiprecord`). -/
structure Codec.skiprecord where
  offset : Nat := 0
  len : Nat := 0
  type : Nat := 0
  level : Nat := 0
  keylen : Nat := 0
  vallen : Nat := 0
  nextloc : Nat → Nat := fun _ => 0
  crc32_head : Nat := 0
  crc32_tail : Nat := 0
  keyoffset : Nat := 0
  valoffset : Nat := 0

/-- The `w` bytes of `n` in network order: the store of `htons`, `htonl` or
`htonll` of `n`. -/
def Codec.be : Nat → Nat → List Nat
  | 0, _ => []
  | w + 1, n => (n / 256 ^ w) % 256 :: Codec.be w n

/-- The number the `w` bytes at `off` hold in network order: `ntohs`,
`ntohl` or `ntohll` of the load.  A byte past the end of the list reads as
0, where the load of the source is outside the mapping: the statements on
`read_record` either keep the loads inside the file (`Codec.read_extent`)
or are about the case in which they are not. -/
def Codec.rd (base : List Nat) : Nat → Nat → Nat
  | _, 0 => 0
  | off, w + 1 => base.getD off 0 * 256 ^ w + Codec.rd base (off + 1) w

/-- The pointers `nextloc[i..i+cnt)` in network order. -/
def Codec.ptrs (nextloc : Nat → Nat) : Nat → Nat → List Nat
  | 0, _ => []
  | cnt + 1, i => Codec.be 8 (nextloc i) ++ Codec.ptrs nextloc cnt (i + 1)

/-- Modelled from the spec: `mappedfile_pwrite` and `mappedfile_pwritev`
write `data` at `off`, past the end after a gap of zeros. -/
def Codec.pwrite (base data : List Nat) (off : Nat) : List Nat :=
  base.take off ++ List.replicate (off - base.length) 0 ++ data ++ base.drop (off + data.length)

/-- Prepare the header part of the record (everything except the key, value
and padding); `crc32_map` is the checksum of `crc32.c`.  The result is the
record with `crc32_head` set and the `len` bytes of `buf`. -/
def Codec.prepare_record (crc32_map : List Nat → Nat) (record : Codec.skiprecord) :
    Option (Codec.skiprecord × List Nat) :=
  if record.level > MAXLEVEL then none
  else
    let fixed : List Nat :=
      [record.type % 256, record.level % 256]
        ++ (if record.keylen < UINT16_MAX then Codec.be 2 record.keylen
            else Codec.be 2 UINT16_MAX)
        ++ (if record.vallen < UINT32_MAX then Codec.be 4 record.vallen
            else Codec.be 4 UINT32_MAX)
    let longkey : List Nat :=
      if record.keylen < UINT16_MAX then [] else Codec.be 8 record.keylen
    let longval : List Nat :=
      if record.vallen < UINT32_MAX then [] else Codec.be 8 record.vallen
    let head := fixed ++ longkey ++ longval ++ Codec.ptrs record.nextloc (record.level + 1) 0
    let crc := crc32_map head % 2 ^ 32
    some ({ record with crc32_head := crc },
      head ++ Codec.be 4 crc ++ Codec.be 4 record.crc32_tail)

/-- You can only write records at the end.  The result is the code, the
bytes of the file, `db->end` and the record. -/
def Codec.write_record (crc32_map : List Nat → Nat) (base : List Nat) (end_ : Nat)
    (record : Codec.skiprecord) (key val : List Nat) :
    Option (Int × List Nat × Nat × Codec.skiprecord) :=
  if record.offset ≠ 0 then none
  else
    let k := key.take record.keylen
    let v := val.take record.vallen
    let len := (record.vallen + record.keylen) % 2 ^ 64
    let pad := List.replicate (roundup len 8 - len) 0
    let record1 := { record with crc32_tail := crc32_map (k ++ v ++ pad) % 2 ^ 32 }
    match Codec.prepare_record crc32_map record1 with
    | none => none
    | some (record2, head) =>
      let data := head ++ k ++ v ++ pad
      some (0, Codec.pwrite base data end_, end_ + data.length,
        { record2 with
          offset := end_, keyoffset := end_ + head.length,
          valoffset := end_ + head.length + record.keylen, len := data.length })

/-- Read a single skiprecord at the given offset of the mapped bytes.  The
sums compared with the size of the file, the length and `valoffset` are
`size_t` sums and wrap at `2 ^ 64`; `none` is the failed assertion on the
level. -/
def Codec.read_record (crc32_map : List Nat → Nat) (base : List Nat) (offset : Nat) :
    Option (Int × Codec.skiprecord) :=
  if (offset + 24) % 2 ^ 64 > base.length then
    some (CYRUSDB_IOERROR, { offset := offset, len := 24 })
  else
    let type := base.getD offset 0
    let level := base.getD (offset + 1) 0
    let keylen0 := Codec.rd base (offset + 2) 2
    let vallen0 := Codec.rd base (offset + 4) 4
    let off1 := offset + 8
    if level > MAXLEVEL then none
    else
      let keylen := if keylen0 = UINT16_MAX then Codec.rd base off1 8 else keylen0
      let off2 := if keylen0 = UINT16_MAX then off1 + 8 else off1
      let vallen := if vallen0 = UINT32_MAX then Codec.rd base off2 8 else vallen0
      let off3 := if vallen0 = UINT32_MAX then off2 + 8 else off2
      let len := ((off3 - offset) + 8 * (1 + level) + 8
                  + roundup ((keylen + vallen) % 2 ^ 64) 8) % 2 ^ 64
      if (offset + len) % 2 ^ 64 > base.length then
        some (CYRUSDB_IOERROR, { offset := offset, len := len, type := type, level := level,
                                 keylen := keylen, vallen := vallen })
      else
        let nextloc : Nat → Nat :=
          fun i => if i ≤ level then Codec.rd base (off3 + 8 * i) 8 else 0
        let off4 := off3 + 8 * (level + 1)
        let crc32_head := Codec.rd base off4 4
        if crc32_map ((base.drop offset).take (off4 - offset)) % 2 ^ 32 ≠ crc32_head then
          some (CYRUSDB_IOERROR, { offset := offset, len := len, type := type, level := level,
                                   keylen := keylen, vallen := vallen, nextloc := nextloc,
                                   crc32_head := crc32_head })
        else
          some (0, { offset := offset, len := len, type := type, level := level,
                     keylen := keylen, vallen := vallen, nextloc := nextloc,
                     crc32_head := crc32_head,
                     crc32_tail := Codec.rd base (off4 + 4) 4,
                     keyoffset := off4 + 8,
                     valoffset := (off4 + 8 + keylen) % 2 ^ 64 })

/-- The check of the tail checksum of a record that was read. -/
def Codec.check_tailcrc (crc32_map : List Nat → Nat) (base : List Nat)
    (record : Codec.skiprecord) : Int :=
  if crc32_map ((base.drop record.keyoffset).take
        (roundup ((record.keylen + record.vallen) % 2 ^ 64) 8 % 2 ^ 64)) % 2 ^ 32
      ≠ record.crc32_tail then CYRUSDB_IOERROR
  else 0

/-- A stand-in checksum for evaluations: the sum of the bytes. -/
def Codec.sum_crc (l : List Nat) : Nat := l.foldl (fun a b => a + b) 7

/-- The fixed eight bytes of a record head. -/
def Codec.fixed (r : Codec.skiprecord) : List Nat :=
  [r.type % 256, r.level % 256]
    ++ (if r.keylen < UINT16_MAX then Codec.be 2 r.keylen else Codec.be 2 UINT16_MAX)
    ++ (if r.vallen < UINT32_MAX then Codec.be 4 r.vallen else Codec.be 4 UINT32_MAX)

/-- The extended key length, when there is one. -/
def Codec.longkey (r : Codec.skiprecord) : List Nat :=
  if r.keylen < UINT16_MAX then [] else Codec.be 8 r.keylen

/-- The extended value length, when there is one. -/
def Codec.longval (r : Codec.skiprecord) : List Nat :=
  if r.vallen < UINT32_MAX then [] else Codec.be 8 r.vallen

/-- The bytes of a record from its start through the last pointer. -/
def Codec.head (r : Codec.skiprecord) : List Nat :=
  Codec.fixed r ++ Codec.longkey r ++ Codec.longval r ++ Codec.ptrs r.nextloc (r.level + 1) 0

/-- The record `read_record` returns for the bytes of `r`. -/
def Codec.decoded (crc32_map : List Nat → Nat) (r : Codec.skiprecord) (off kvlen : Nat) :
    Codec.skiprecord :=
  { offset := off, len := (Codec.head r).length + 8 + kvlen, type := r.type, level := r.level,
    keylen := r.keylen, vallen := r.vallen,
    nextloc := fun i => if i ≤ r.level then r.nextloc i % 2 ^ 64 else 0,
    crc32_head := crc32_map (Codec.head r) % 2 ^ 32, crc32_tail := r.crc32_tail,
    keyoffset := off + (Codec.head r).length + 8,
    valoffset := off + (Codec.head r).length + 8 + r.keylen }

/-- The level byte `read_record` loads at `offset`. -/
def Codec.level_at (base : List Nat) (offset : Nat) : Nat := base.getD (offset + 1) 0

/-- The key length `read_record` decodes at `offset`. -/
def Codec.keylen_at (base : List Nat) (offset : Nat) : Nat :=
  if Codec.rd base (offset + 2) 2 = UINT16_MAX then Codec.rd base (offset + 8) 8
  else Codec.rd base (offset + 2) 2

/-- The offset `read_record` has reached after the key length. -/
def Codec.off2_at (base : List Nat) (offset : Nat) : Nat :=
  if Codec.rd base (offset + 2) 2 = UINT16_MAX then offset + 8 + 8 else offset + 8

/-- The value length `read_record` decodes at `offset`. -/
def Codec.vallen_at (base : List Nat) (offset : Nat) : Nat :=
  if Codec.rd base (offset + 4) 4 = UINT32_MAX then Codec.rd base (Codec.off2_at base offset) 8
  else Codec.rd base (offset + 4) 4

/-- The offset of the first pointer of the record at `offset`. -/
def Codec.ptrs_at (base : List Nat) (offset : Nat) : Nat :=
  if Codec.rd base (offset + 4) 4 = UINT32_MAX then Codec.off2_at base offset + 8
  else Codec.off2_at base offset

/-- The offset of the head checksum of the record at `offset`. -/
def Codec.crc_at (base : List Nat) (offset : Nat) : Nat :=
  Codec.ptrs_at base offset + 8 * (Codec.level_at base offset + 1)

/-- The length `read_record` computes for the record at `offset`
(`record->len`, a `size_t`). -/
def Codec.len_at (base : List Nat) (offset : Nat) : Nat :=
  ((Codec.ptrs_at base offset - offset) + 8 * (1 + Codec.level_at base offset) + 8
    + roundup ((Codec.keylen_at base offset + Codec.vallen_at base offset) % 2 ^ 64) 8) % 2 ^ 64

/-- The pointers `read_record` loads for the record at `offset`. -/
def Codec.nextloc_at (base : List Nat) (offset : Nat) : Nat → Nat :=
  fun i => if i ≤ Codec.level_at base offset then Codec.rd base (Codec.ptrs_at base offset + 8 * i) 8
    else 0

/-- A RECORD of level 0 whose extended key length is `2 ^ 64 - 8`. -/
def Codec.overlong : Codec.skiprecord :=
  { type := 43, level := 0, keylen := 2 ^ 64 - 8, vallen := 0 }

/-- A file of 96 bytes: 64 bytes, then the head of `Codec.overlong` with its
head checksum and a tail checksum of zero. -/
def Codec.overlong_file (crc32_map : List Nat → Nat) : List Nat :=
  List.replicate 64 0 ++
    (Codec.head Codec.overlong ++ Codec.be 4 (crc32_map (Codec.head Codec.overlong) % 2 ^ 32)
      ++ Codec.be 4 0 ++ [] ++ [])

/-- The bytes after the head of a record: key, value and zero padding. -/
def Codec.keyval (key val : List Nat) : List Nat :=
  key ++ (val ++ List.replicate
    (roundup (key.length + val.length) 8 - (key.length + val.length)) 0)

/-- Only changing the record head, so only rewrite that much; `none` is a
failed assertion (the file is not DIRTY, or the record has no offset). -/
def Codec.rewrite_record (crc32_map : List Nat → Nat) (base : List Nat) (flags : Nat)
    (record : Codec.skiprecord) : Option (Int × List Nat × Codec.skiprecord) :=
  if flags &&& DIRTY = 0 then none
  else if record.offset = 0 then none
  else
    match Codec.prepare_record crc32_map record with
    | none => none
    | some (record1, buf) => some (0, Codec.pwrite base buf record.offset, record1)

/-- The file holds bytes. -/
def Codec.Bytes (base : List Nat) : Prop := ∀ b, b ∈ base → b < 256

/-- A RECORD of level 0 with a key of one byte, pointing at offset 200. -/
def Codec.sample : Codec.skiprecord :=
  { type := 43, level := 0, keylen := 1, vallen := 0, nextloc := fun _ => 200, crc32_tail := 12 }

/-- A file of 96 bytes: 64 bytes, then `Codec.sample` with its key `[5]`
under the stand-in checksum. -/
def Codec.sample_file : List Nat :=
  List.replicate 64 0 ++
    (Codec.head Codec.sample ++ Codec.be 4 (Codec.sum_crc (Codec.head Codec.sample) % 2 ^ 32)
      ++ Codec.be 4 Codec.sample.crc32_tail ++ [5, 0, 0, 0, 0, 0, 0, 0] ++ [])

/-- The magic of a twoskip file: `"\241\002\213\015twoskip file\0\0\0\0"`. -/
def Codec.HEADER_MAGIC : List Nat :=
  [161, 2, 139, 13, 116, 119, 111, 115, 107, 105, 112, 32, 102, 105, 108, 101, 0, 0, 0, 0]

/-- The first 60 bytes that `write_header` formats: the magic and the
fields in network order at `OFFSET_VERSION` (20), `OFFSET_GENERATION` (24),
`OFFSET_NUM_RECORDS` (32), `OFFSET_REPACK_SIZE` (40), `OFFSET_CURRENT_SIZE`
(48) and `OFFSET_FLAGS` (56). -/
def Codec.header_fields (header : db_header) : List Nat :=
  Codec.HEADER_MAGIC ++ Codec.be 4 header.version ++ Codec.be 8 header.generation
    ++ Codec.be 8 header.num_records ++ Codec.be 8 header.repack_size
    ++ Codec.be 8 header.current_size ++ Codec.be 4 header.flags

/-- Given an open, mapped, locked db, write the header information: the
result is the code and the bytes of the file. -/
def Codec.write_header (crc32_map : List Nat → Nat) (base : List Nat) (header : db_header) :
    Int × List Nat :=
  let buf := Codec.header_fields header
  (0, Codec.pwrite base (buf ++ Codec.be 4 (crc32_map (buf.take 60) % 2 ^ 32)) 0)

/-- Given an open, mapped db, read in the header information: the result
is the code, `db->header` and `db->end`. -/
def Codec.read_header (crc32_map : List Nat → Nat) (base : List Nat) (header : db_header)
    (end_ : Nat) : Int × db_header × Nat :=
  if base.length < HEADER_SIZE then (CYRUSDB_IOERROR, header, end_)
  else if base.take 20 ≠ Codec.HEADER_MAGIC then (CYRUSDB_IOERROR, header, end_)
  else
    let header1 := { header with version := Codec.rd base 20 4 }
    if header1.version > VERSION then (CYRUSDB_IOERROR, header1, end_)
    else
      let header2 : db_header :=
        { version := header1.version,
          generation := Codec.rd base 24 8,
          num_records := Codec.rd base 32 8,
          repack_size := Codec.rd base 40 8,
          current_size := Codec.rd base 48 8,
          flags := Codec.rd base 56 4 }
      if crc32_map (base.take 60) % 2 ^ 32 ≠ Codec.rd base 60 4 then
        (CYRUSDB_IOERROR, header2, end_)
      else (0, header2, header2.current_size)

/-- The records `R` of a file in a transaction against the records `R0` at
its start, when the committed size was `cs`: every record of `R0` is still
there with its committed level zero pointer, changed at all only when it is
a node of the committed chain, and every other record of `R` starts at or
after `cs`. -/
structure Since (cs : Nat) (R0 R : List skiprecord) (chain : List node) : Prop where
  keeps : ∀ d0 ∈ R0, ∃ d ∈ R, Keeps cs d0 d ∧ (d = d0 ∨ ∃ n ∈ chain, n.offset = d0.offset)
  rest : ∀ d ∈ R, cs ≤ d.offset ∨ ∃ d0 ∈ R0, d0.offset = d.offset

/-- The records that the `while (nextoffset)` loop of `recovery1` visits
from offset `o` on over the records `R0`: `k` of them, a delete record being
passed through its pointer and a node through its level zero pointer, and
the nodes met are `S`. -/
inductive Raw (R0 : List skiprecord) : Nat → List node → Nat → Prop
  | done : Raw R0 0 [] 0
  | hop (o : Nat) (e : skiprecord) (S : List node) (k : Nat) : e ∈ R0 → e.offset = o → o ≠ 0 →
      e.type = DELETE → Raw R0 (e.nextloc 0) S k → Raw R0 o S (k + 1)
  | node (o : Nat) (d : skiprecord) (n : node) (S : List node) (k : Nat) : d ∈ R0 →
      d.offset = o → o ≠ 0 → d.type ≠ DELETE → RecOf d n →
      Raw R0 (max (d.nextloc 0) (d.nextloc 1)) S k → Raw R0 o (n :: S) (k + 1)

/-- The file with one pointer of the record at `off` set to `v`. -/
def poke (db : dbengine) (off j v : Nat) : dbengine :=
  { db with mf := { db.mf with recs := db.mf.recs.map (fun d =>
      if d.offset = off then { d with nextloc := Function.update d.nextloc j v } else d) } }

/-- What the loop `for (i = 2; i <= record.level; i++)` of `recovery1`
makes of a record of the file: at each index of the loop whose `prev` is this
record and whose `next` is not the record visited (at `ro`), the pointer is set
to `ro`. -/
def fix_rec (ro : Nat) (prev next : Nat → Nat) (lo cnt : Nat) (e : skiprecord) : skiprecord :=
  { e with nextloc := fun j =>
      if lo ≤ j ∧ j < lo + cnt ∧ prev j = e.offset ∧ next j ≠ ro then ro else e.nextloc j }

/-- A record with its level zero slots at or past `cs` set to zero. -/
def zap_rec (cs : Nat) (e : skiprecord) : skiprecord :=
  { e with nextloc := fun j => if j < 2 ∧ cs ≤ e.nextloc j then 0 else e.nextloc j }

/-- The handle over the same file with other records. -/
def setrecs (db : dbengine) (R : List skiprecord) : dbengine :=
  { db with mf := { db.mf with recs := R } }

/-- One round of the loop that zeroes the level zero pointers: the slot `i`
of the record is set to zero when it is at or past `cs`. -/
def zap1 (cs i : Nat) (e : skiprecord) : skiprecord :=
  { e with nextloc := fun j => if j = i ∧ cs ≤ e.nextloc j then 0 else e.nextloc j }

/-- The committed state a transaction started from: a consistent file of
size `cs` in which the delete records are of level zero and carry no key. -/
structure Committed (E : Env) (cs : Nat) (db0 : dbengine) (live0 : List node) : Prop where
  file : FileOK E db0 live0
  size : db0.mf.size = cs
  end_ : db0.end_ = cs
  flat : ∀ d ∈ db0.mf.recs, d.type = DELETE → d.level = 0 ∧ d.keylen = 0

/-- The state of `recovery1` in its walk, after the nodes `P` of the
committed chain: the arrays `prev` and `next` hold the last node of each
level and the pointer read from it, and the nodes behind point to one
another as they did in the committed file. -/
structure Walk (cs : Nat) (db0 : dbengine) (chain : List node) (db : dbengine)
    (P : List node) (prev next : Nat → Nat) : Prop where
  mf : MfOK db.mf
  dirty : db.header.flags &&& DIRTY ≠ 0
  cur : db.header.current_size = cs
  end_ : db.end_ = cs
  since : Since cs db0.mf.recs db.mf.recs chain
  prev : P ≠ [] → ∀ j, 2 ≤ j → j ≤ MAXLEVEL → prev j = lastAt (j - 1) P
  start : P = [] → ∀ j, 2 ≤ j → j ≤ MAXLEVEL → next j = HEADER_SIZE
  seen : ∀ a m b, P = a ++ m :: b → ∃ d ∈ db.mf.recs, d.offset = m.offset ∧
    d.nextloc 0 < cs ∧ d.nextloc 1 < cs ∧
    ∀ j, 2 ≤ j → j ≤ m.level →
      (nextAt (j - 1) b = 0 ∧ next j = d.nextloc j) ∨
      (nextAt (j - 1) b ≠ 0 ∧ d.nextloc j = nextAt (j - 1) b)

/-- The number of nodes that carry a key. -/
def keyed (S : List node) : Nat := S.countP (fun n => decide (n.key ≠ []))

/-- The file after the loops of `recovery1`: it keeps the committed file,
the level zero slots of every node of the chain are below `cs`, and its
pointers of the higher levels are the committed ones. -/
structure Mended (cs : Nat) (db0 : dbengine) (chain : List node) (db : dbengine) : Prop where
  mf : MfOK db.mf
  since : Since cs db0.mf.recs db.mf.recs chain
  seen : ∀ a m b, chain = a ++ m :: b → ∃ d ∈ db.mf.recs, d.offset = m.offset ∧
    d.nextloc 0 < cs ∧ d.nextloc 1 < cs ∧
    ∀ j, 2 ≤ j → j ≤ m.level → d.nextloc j = nextAt (j - 1) b

/-- The state `recovery1` returns on the file of an uncommitted transaction. -/
def recovered (db : dbengine) (R : List skiprecord) (n : Nat) : dbengine :=
  { db with
    mf := { db.mf with
      size := db.header.current_size
      header := { db.header with flags := clear_dirty db.header.flags, num_records := n }
      recs := R.filter (fun d => decide (d.offset < db.header.current_size)) }
    header := { db.header with flags := clear_dirty db.header.flags, num_records := n } }

/-- The delete records of the file are as `delete_here` writes them: of
level zero, with no key. -/
def Flat (db : dbengine) : Prop :=
  ∀ d ∈ db.mf.recs, d.type = DELETE → d.level = 0 ∧ d.keylen = 0

/-- The handle `myabort` passes to `recovery1`. -/
def aborting (db : dbengine) : dbengine :=
  { db with current_txn := none, end_ := db.header.current_size }

/-- The header of a clean file of 64 bytes: the header alone, no DUMMY. -/
def torn_header : db_header :=
  { version := VERSION, flags := 0, generation := 1, num_records := 0,
    repack_size := 64, current_size := 64 }

/-- An open handle on a clean file that ends after its header, so that the
DUMMY record at offset 64 cannot be read. -/
def torn_db : dbengine :=
  { mf := { size := 64, header := torn_header, recs := [], lock_status := UNLOCKED },
    header := torn_header, is_open := true, end_ := 64 }

/-- The handle `torn_db` in a transaction, after `find_loc` of the key
`[1]`. -/
def torn_txn : Option dbengine :=
  (newtxn (ctx raw_env 1) torn_db none).bind fun r =>
    (find_loc raw_env r.2.1 [1]).map fun r1 => r1.2

/-- The handle `store_here` passes to `stitch` when it stores the value `[5]`
from `torn_txn`: the new record is appended and the forward pointers of the
location are set to it. -/
def torn_appended : Option dbengine :=
  torn_txn.bind fun db =>
    (append_record { db with rand_src := (randlvl db.rand_src 1 MAXLEVEL).2 }
      { type := RECORD, level := (randlvl db.rand_src 1 MAXLEVEL).1,
        keylen := db.loc.keybuf.length, vallen := 1,
        nextloc := nextloc_loop db.loc.forwardloc (randlvl db.rand_src 1 MAXLEVEL).1 0
          (fun _ => 0) } db.loc.keybuf [5]).map fun r =>
      { r.2.1 with loc := { r.2.1.loc with
        forwardloc := fill_loop r.2.2.offset r.2.2.level 0 r.2.1.loc.forwardloc } }

/-- A database of generation 7 that holds one committed record: the file of
a new database after the store of the key `[1]`, with generation 7 in the
header of the file and in memory. -/
def aged_db : Option dbengine :=
  (mystore raw_env (ctx raw_env 1) (new_db 0 (fun _ => false)) [1] (some [5]) none true).map
    fun r => { r.2.1 with
      header := { r.2.1.header with generation := 7 }
      mf := { r.2.1.mf with header := { r.2.1.mf.header with generation := 7 } } }

/-- The record `r` held in memory is what reading the file at its offset
gives. -/
def Fresh (db : dbengine) (r : skiprecord) : Prop := read_record db r.offset = some (0, r)

/-- The step from `a` to `b` leaves the header in memory, the header on file
and the transaction as they are. -/
structure Kept (a b : dbengine) : Prop where
  header : b.header = a.header
  file : b.mf.header = a.mf.header
  txn : b.current_txn = a.current_txn

/-- The step from `a` to `b` changes the location only. -/
def LocOnly (a b : dbengine) : Prop := ∃ l, b = { a with loc := l }

/-- When the header in memory has the DIRTY flag, the header on file has
it. -/
def Synced (db : dbengine) : Prop :=
  db.header.flags &&& DIRTY ≠ 0 → db.mf.header.flags &&& DIRTY ≠ 0

/-- The header in memory and the header on file both have the DIRTY flag. -/
def Dirty2 (db : dbengine) : Prop :=
  db.header.flags &&& DIRTY ≠ 0 ∧ db.mf.header.flags &&& DIRTY ≠ 0

/-- A handle between transactions over a clean file of `size` bytes that
holds an empty skip list (only the DUMMY record); `repack` is the
`repack_size` of its header. -/
def wide_db (size repack : Nat) : dbengine :=
  { mf := { size := size,
            header := { new_header with current_size := size, repack_size := repack },
            recs := [new_dummy], lock_status := UNLOCKED },
    header := { new_header with current_size := size, repack_size := repack },
    is_open := true, end_ := size }

/-- The records with the slot `nextloc[0]` of the record at `offset` set to
`v`. -/
def with_slot0 (recs : List skiprecord) (offset v : Nat) : List skiprecord :=
  recs.map fun d =>
    if d.offset = offset then { d with nextloc := Function.update d.nextloc 0 v } else d

/-- A transaction on a file of 440 bytes that holds the keys `[1]` (at 336)
and `[2]` (at 376), stored and committed, in which the unused level zero
slot `nextloc[0]` of the record of `[1]` holds 450, an offset past the end
of the file; its slot `nextloc[1]` holds 376. -/
def stale_db : Option dbengine :=
  (run_writes raw_env [⟨[1], some [5], false⟩, ⟨[2], some [6], false⟩]
    (begun (new_db 0 (fun _ => false)))).bind fun db =>
  (mycommit raw_env (ctx raw_env 1) db db.current_txn).map fun r =>
    begun { r.2 with mf := { r.2.mf with recs := with_slot0 r.2.mf.recs 336 450 } }

/-- The first transaction of a new database after the stores of `[2, 8]`,
`[1]` and `[2, 7]`, in this order. -/
def three_keys : Option dbengine :=
  run_writes raw_env [⟨[2, 8], some [7], false⟩, ⟨[1], some [5], false⟩,
    ⟨[2, 7], some [6], false⟩] (begun (new_db 0 (fun _ => false)))

/-- The end of the range of bytes that `read_record` at `offset` loads from
the mapping: nothing when the first size check fails; the 8 bytes of the
fixed header when the assertion on the level fails; through the extended
lengths when the second size check fails; else the pointers, the head
checksum and the bytes the head checksum is computed on, and the tail
checksum when the head checksum matches. -/
def Codec.read_extent (crc32_map : List Nat → Nat) (base : List Nat) (offset : Nat) : Nat :=
  if (offset + 24) % 2 ^ 64 > base.length then 0
  else if Codec.level_at base offset > MAXLEVEL then offset + 8
  else if (offset + Codec.len_at base offset) % 2 ^ 64 > base.length then
    Codec.ptrs_at base offset
  else if crc32_map ((base.drop offset).take (Codec.crc_at base offset - offset)) % 2 ^ 32
      ≠ Codec.rd base (Codec.crc_at base offset) 4 then
    Codec.crc_at base offset + 4
  else Codec.crc_at base offset + 8

/-- A record of level 1 with the key `[11]` and the value `[12]`, as bytes,
with the head checksum of `Codec.sum_crc`. -/
def Codec.sample_bytes : List Nat :=
  [43, 1, 0, 1, 0, 0, 0, 1] ++ List.replicate 16 0 ++ [0, 0, 0, 53] ++ [0, 0, 0, 0]
    ++ [11, 12, 0, 0, 0, 0, 0, 0]

/-! ## Verification -/

/-! ## Closed forms of the array loops -/

theorem fill_loop_apply (v : Nat) (cnt i : Nat) (a : Nat → Nat) (j : Nat) :
    fill_loop v cnt i a j = if i ≤ j ∧ j < i + cnt then v else a j := by
  induction cnt generalizing i a with
  | zero =>
    simp only [fill_loop]
    rw [if_neg]
    omega
  | succ n ih =>
    simp only [fill_loop, ih]
    by_cases h1 : i + 1 ≤ j ∧ j < i + 1 + n
    · have : i ≤ j ∧ j < i + (n + 1) := by omega
      simp [h1, this]
    · by_cases h2 : j = i
      · subst h2; simp [h1]
      · have : ¬ (i ≤ j ∧ j < i + (n + 1)) := by omega
        simp [h1, this, Function.update_noteq h2]

theorem nextloc_loop_apply (fwd : Nat → Nat) (cnt i : Nat) (a : Nat → Nat) (j : Nat) :
    nextloc_loop fwd cnt i a j = if i + 1 ≤ j ∧ j < i + 1 + cnt then fwd (j - 1) else a j := by
  induction cnt generalizing i a with
  | zero =>
    simp only [nextloc_loop]
    rw [if_neg]
    omega
  | succ n ih =>
    simp only [nextloc_loop, ih]
    by_cases h1 : i + 1 + 1 ≤ j ∧ j < i + 1 + 1 + n
    · have : i + 1 ≤ j ∧ j < i + 1 + (n + 1) := by omega
      simp [h1, this]
    · by_cases h2 : j = i + 1
      · subst h2; simp [h1]
      · have : ¬ (i + 1 ≤ j ∧ j < i + 1 + (n + 1)) := by omega
        simp [h1, this, Function.update_noteq h2]

theorem forwardloc_loop_apply (nxt : Nat → Nat) (cnt i : Nat) (a : Nat → Nat) (j : Nat) :
    forwardloc_loop nxt cnt i a j = if i ≤ j ∧ j < i + cnt then nxt (j + 1) else a j := by
  induction cnt generalizing i a with
  | zero =>
    simp only [forwardloc_loop]
    rw [if_neg]
    omega
  | succ n ih =>
    simp only [forwardloc_loop, ih]
    by_cases h1 : i + 1 ≤ j ∧ j < i + 1 + n
    · have : i ≤ j ∧ j < i + (n + 1) := by omega
      simp [h1, this]
    · by_cases h2 : j = i
      · subst h2; simp [h1]
      · have : ¬ (i ≤ j ∧ j < i + (n + 1)) := by omega
        simp [h1, this, Function.update_noteq h2]

/-! ## The random level -/

theorem randlvl_loop_bounds (fuel : Nat) (src : Nat → Bool) (lvl maxlvl : Nat)
    (h1 : 1 ≤ lvl) (h2 : lvl < maxlvl) (h3 : maxlvl ≤ 255) (hf : maxlvl - lvl ≤ fuel) :
    1 ≤ (randlvl_loop fuel src lvl maxlvl).1 ∧ (randlvl_loop fuel src lvl maxlvl).1 ≤ maxlvl := by
  induction fuel generalizing src lvl with
  | zero => omega
  | succ n ih =>
    simp only [randlvl_loop]
    split
    · have hm : (lvl + 1) % 256 = lvl + 1 := Nat.mod_eq_of_lt (by omega)
      simp only [hm]
      split
      · simp; omega
      · apply ih <;> omega
    · simp; omega

theorem randlvl_bounds (src : Nat → Bool) :
    1 ≤ (randlvl src 1 MAXLEVEL).1 ∧ (randlvl src 1 MAXLEVEL).1 ≤ MAXLEVEL := by
  unfold randlvl
  apply randlvl_loop_bounds <;> simp [MAXLEVEL]

/-! ## Well-formed files -/

theorem reclen_ge (l k v : Nat) : 24 ≤ reclen l k v := by
  unfold reclen headlen; omega

theorem diskptrs_eq {d : skiprecord} (h : ∀ i, d.level < i → d.nextloc i = 0) :
    diskptrs d.level d.nextloc = d.nextloc := by
  funext i
  unfold diskptrs
  split
  · rfl
  · rw [h i (by omega)]

theorem find_offset {l : List skiprecord} (hn : (l.map skiprecord.offset).Nodup)
    {d : skiprecord} (hd : d ∈ l) :
    l.find? (fun e => decide (e.offset = d.offset)) = some d := by
  induction l with
  | nil => cases hd
  | cons a t ih =>
    rw [List.map_cons, List.nodup_cons] at hn
    rcases List.mem_cons.1 hd with h | h
    · subst h; simp
    · have : a.offset ≠ d.offset := by
        intro e
        exact hn.1 (e ▸ List.mem_map_of_mem _ h)
      rw [List.find?_cons_of_neg _ (by simpa using this)]
      exact ih hn.2 h

theorem find_offset_none {l : List skiprecord} {off : Nat}
    (h : ∀ d ∈ l, d.offset ≠ off) :
    l.find? (fun e => decide (e.offset = off)) = none := by
  rw [List.find?_eq_none]
  intro d hd
  simpa using h d hd

theorem read_record_mf {db db1 : dbengine} (h : db1.mf = db.mf) (off : Nat) :
    read_record db1 off = read_record db off := by
  unfold read_record _size
  rw [h]

theorem read_record_of_mem {db : dbengine} (hm : MfOK db.mf) {d : skiprecord}
    (hd : d ∈ db.mf.recs) : read_record db d.offset = some (0, d) := by
  have hN := hm.norm d hd
  have hb := hm.bound d hd
  have hlen := reclen_ge d.level d.keylen d.vallen
  have h1 : ¬ (d.offset + 24 > _size db) := by
    unfold _size; rw [hN.len_eq] at hb; omega
  have h2 : ¬ (d.level > MAXLEVEL) := by have := hN.level_le; omega
  have h3 : ¬ (d.offset + reclen d.level d.keylen d.vallen > _size db) := by
    unfold _size; rw [hN.len_eq] at hb; omega
  unfold read_record
  simp only [h1, if_false, find_offset hm.nodup hd, h2, h3]
  have e1 := hN.len_eq
  have e2 := diskptrs_eq hN.ptrs
  have e3 := hN.keyoffset_eq
  have e4 := hN.valoffset_eq
  clear hN hb hlen h1 h2 h3 hd
  cases d
  simp only at e1 e2 e3 e4
  simp only [Option.some.injEq, Prod.mk.injEq, skiprecord.mk.injEq, true_and, e2]
  refine ⟨e1.symm, e3.symm, ?_⟩
  rw [e4, e3]
  exact ⟨rfl, trivial⟩

/-- Reading a well-formed file never fails an assertion: it returns the
record at the offset, or an error. -/
theorem read_record_total {db : dbengine} (hm : MfOK db.mf) (off : Nat) :
    (∃ d ∈ db.mf.recs, d.offset = off ∧ read_record db off = some (0, d)) ∨
    (∃ r, read_record db off = some (CYRUSDB_IOERROR, r)) := by
  by_cases h : ∃ d ∈ db.mf.recs, d.offset = off
  · obtain ⟨d, hd, ho⟩ := h
    left
    exact ⟨d, hd, ho, ho ▸ read_record_of_mem hm hd⟩
  · right
    push_neg at h
    unfold read_record
    simp only [find_offset_none h]
    by_cases hs : off + 24 > _size db
    · simp only [hs, if_true]; exact ⟨_, rfl⟩
    · simp only [hs, if_false]; exact ⟨_, rfl⟩

theorem read_record_some {db : dbengine} (hm : MfOK db.mf) {off : Nat} {r : skiprecord}
    (h : read_record db off = some (0, r)) : r ∈ db.mf.recs ∧ r.offset = off := by
  rcases read_record_total hm off with ⟨d, hd, ho, hr⟩ | ⟨r1, hr⟩
  · rw [hr] at h
    simp only [Option.some.injEq, Prod.mk.injEq, true_and] at h
    subst h
    exact ⟨hd, ho⟩
  · rw [hr] at h
    simp [CYRUSDB_IOERROR] at h

/-! ## The abstract chain of live records -/

theorem getzero_max {db : dbengine} {d : skiprecord}
    (h0 : d.nextloc 0 < db.end_) (h1 : d.nextloc 1 < db.end_) :
    _getzero db d = max (d.nextloc 0) (d.nextloc 1) := by
  unfold _getzero
  have a : ¬ (d.nextloc 0 ≥ db.end_) := by omega
  have b : ¬ (d.nextloc 1 ≥ db.end_) := by omega
  simp only [a, b, if_false]
  split
  · rw [max_eq_left (by omega)]
  · rw [max_eq_right (by omega)]

theorem getloc_zero {db : dbengine} (hm : MfOK db.mf) {d : skiprecord}
    (h0 : d.nextloc 0 < db.end_) (h1 : d.nextloc 1 < db.end_) {t : Nat}
    (hs : Succ0 db.mf.recs d t) : _getloc db d 0 = some (0, t) := by
  unfold _getloc
  simp only [ne_eq, not_true_eq_false, if_false, getzero_max h0 h1]
  rcases hs with ⟨hz, ht⟩ | ⟨e, he, ho, hne, hty⟩
  · simp [hz, ht]
  · rw [← ho, if_neg hne, read_record_of_mem hm he]
    rcases hty with ⟨hd, ht⟩ | ⟨hd, ht⟩
    · simp [hd, ht]
    · simp [hd, ht]

theorem getloc_pos (db : dbengine) (d : skiprecord) {i : Nat} (hi : 1 ≤ i) :
    _getloc db d i = some (0, d.nextloc (i + 1)) := by
  unfold _getloc
  have : i ≠ 0 := by omega
  simp [this]

/-! ### Lemmas on `nextAt` -/

theorem nextAt_append_le {i : Nat} {a : List node} (h : ∀ n ∈ a, n.level ≤ i) (b : List node) :
    nextAt i (a ++ b) = nextAt i b := by
  induction a with
  | nil => rfl
  | cons x t ih =>
    have hx : ¬ (i < x.level) := by have := h x (List.mem_cons_self _ _); omega
    simp only [List.cons_append, nextAt, hx, if_false]
    exact ih (fun n hn => h n (List.mem_cons_of_mem _ hn))

theorem nextAt_append_of_mem {i : Nat} {a : List node} (h : ∃ n ∈ a, i < n.level) (b : List node) :
    nextAt i (a ++ b) = nextAt i a := by
  induction a with
  | nil => obtain ⟨n, hn, _⟩ := h; cases hn
  | cons x t ih =>
    simp only [List.cons_append, nextAt]
    split
    · rfl
    · rename_i hx
      obtain ⟨n, hn, hl⟩ := h
      rcases List.mem_cons.1 hn with e | e
      · subst e; exact absurd hl hx
      · exact ih ⟨n, e, hl⟩

/-- When `nextAt` is a non-zero offset, it is the first node of the level. -/
theorem nextAt_split {i : Nat} {l : List node} (hoff : ∀ n ∈ l, n.offset ≠ 0) :
    (nextAt i l = 0 ∧ ∀ n ∈ l, n.level ≤ i) ∨
    ∃ a y b, l = a ++ y :: b ∧ (∀ n ∈ a, n.level ≤ i) ∧ i < y.level ∧ nextAt i l = y.offset := by
  induction l with
  | nil => left; exact ⟨rfl, by simp⟩
  | cons x t ih =>
    by_cases hx : i < x.level
    · right
      exact ⟨[], x, t, rfl, by simp, hx, by simp [nextAt, hx]⟩
    · rcases ih (fun n hn => hoff n (List.mem_cons_of_mem _ hn)) with ⟨h0, hall⟩ | ⟨a, y, b, e, ha, hy, hn⟩
      · left
        refine ⟨by simp [nextAt, hx, h0], ?_⟩
        intro n hn
        rcases List.mem_cons.1 hn with e | e
        · subst e; omega
        · exact hall n e
      · right
        refine ⟨x :: a, y, b, by simp [e], ?_, hy, by simp [nextAt, hx, hn]⟩
        intro n hn
        rcases List.mem_cons.1 hn with e | e
        · subst e; omega
        · exact ha n e

theorem lastAt_append_single (i : Nat) (l : List node) (x : node) :
    lastAt i (l ++ [x]) = if i < x.level then x.offset else lastAt i l := by
  simp [lastAt, nextAt]

theorem lastAt_append_le {i : Nat} (l : List node) {a : List node} (h : ∀ n ∈ a, n.level ≤ i) :
    lastAt i (l ++ a) = lastAt i l := by
  unfold lastAt
  rw [List.reverse_append]
  exact nextAt_append_le (fun n hn => h n (List.mem_reverse.1 hn)) _

theorem lastAt_mid {i : Nat} (l : List node) (x : node) {a : List node} (hx : i < x.level)
    (h : ∀ n ∈ a, n.level ≤ i) : lastAt i (l ++ x :: a) = x.offset := by
  have : l ++ x :: a = (l ++ [x]) ++ a := by simp
  rw [this, lastAt_append_le _ h, lastAt_append_single, if_pos hx]

/-! ### Lemmas on `Linked` -/

theorem linked_split {recs : List skiprecord} {c : List node} (h : Linked recs c)
    {pre : List node} {n : node} {rest : List node} (e : c = pre ++ n :: rest) :
    NodeAt recs n rest := by
  induction pre generalizing c with
  | nil => subst e; exact h.1
  | cons x t ih => subst e; exact ih h.2 rfl

theorem linked_of_split {recs : List skiprecord} {c : List node}
    (h : ∀ pre n rest, c = pre ++ n :: rest → NodeAt recs n rest) : Linked recs c := by
  induction c with
  | nil => trivial
  | cons x t ih =>
    refine ⟨h [] x t rfl, ih ?_⟩
    intro pre n rest e
    exact h (x :: pre) n rest (by simp [e])

/-! ## The comparator -/

theorem CompareLaws.irrefl {cmp : List Nat → List Nat → Int} (h : CompareLaws cmp) (a : List Nat) :
    ¬ cmp a a < 0 := by
  have := (h.eq_zero a a).2 rfl
  omega

theorem lastNode_nil : lastNode [] = dummyNode := rfl

theorem lastNode_concat (p : List node) (x : node) : lastNode (p ++ [x]) = x := by
  simp [lastNode]

/-! ### Positions in a sorted chain -/

theorem sorted_split_unique {E : Env} (hc : CompareLaws E.compar) {c : List node}
    (hs : c.Pairwise (fun a b => E.compar a.key b.key < 0))
    {a a1 b b1 : List node} {y y1 : node}
    (e : c = a ++ y :: b) (e1 : c = a1 ++ y1 :: b1) (hk : y.key = y1.key) :
    a = a1 ∧ y = y1 ∧ b = b1 := by
  induction c generalizing a a1 with
  | nil => cases a <;> simp at e
  | cons x t ih =>
    rw [List.pairwise_cons] at hs
    cases a with
    | nil =>
      cases a1 with
      | nil =>
        simp only [List.nil_append, List.cons.injEq] at e e1
        exact ⟨rfl, e.1.symm.trans e1.1, e.2.symm.trans e1.2⟩
      | cons z a2 =>
        exfalso
        simp only [List.nil_append, List.cons_append, List.cons.injEq] at e e1
        have hy1 : y1 ∈ t := by rw [e1.2]; simp
        have := hs.1 y1 hy1
        rw [e.1, hk] at this
        exact hc.irrefl _ this
    | cons z a2 =>
      cases a1 with
      | nil =>
        exfalso
        simp only [List.nil_append, List.cons_append, List.cons.injEq] at e e1
        have hy : y ∈ t := by rw [e.2]; simp
        have := hs.1 y hy
        rw [e1.1, hk] at this
        exact hc.irrefl _ this
      | cons z1 a3 =>
        simp only [List.cons_append, List.cons.injEq] at e e1
        obtain ⟨h1, h2, h3⟩ := ih hs.2 e.2 e1.2
        exact ⟨by rw [h1, ← e.1, ← e1.1], h2, h3⟩

/-- The record that holds a node. -/
theorem nodeAt_mem {recs : List skiprecord} (hn : (recs.map skiprecord.offset).Nodup)
    {n : node} {rest : List node} (h : NodeAt recs n rest)
    {r : skiprecord} (hr : r ∈ recs) (ho : r.offset = n.offset) :
    r.level = n.level ∧ r.key = n.key ∧ r.val = n.val ∧ r.type ≠ DELETE ∧
    Succ0 recs r (nextAt 0 rest) ∧ ∀ i, 1 ≤ i → i < n.level → r.nextloc (i + 1) = nextAt i rest := by
  obtain ⟨d, hd, h1, h2, h3, h4, h5, h6, h7⟩ := h
  have : d = r := by
    have e1 := find_offset hn hd
    have e2 := find_offset hn hr
    rw [h1, ← ho, e2] at e1
    exact (Option.some.inj e1).symm
  subst this
  exact ⟨h2, h3, h4, h5, h6, h7⟩

theorem node_getloc {db : dbengine} (hm : MfOK db.mf)
    (hsl : ∀ d ∈ db.mf.recs, d.nextloc 0 < db.end_ ∧ d.nextloc 1 < db.end_)
    {n : node} {rest : List node} (h : NodeAt db.mf.recs n rest)
    {r : skiprecord} (hr : r ∈ db.mf.recs) (ho : r.offset = n.offset)
    {i : Nat} (hi : i < n.level) : _getloc db r i = some (0, nextAt i rest) := by
  obtain ⟨_, _, _, _, h5, h6⟩ := nodeAt_mem hm.nodup h hr ho
  by_cases h0 : i = 0
  · subst h0
    exact getloc_zero hm (hsl r hr).1 (hsl r hr).2 h5
  · rw [getloc_pos db r (by omega), h6 i (by omega) hi]

theorem nodeAt_read {db : dbengine} (hm : MfOK db.mf)
    {n : node} {rest : List node} (h : NodeAt db.mf.recs n rest) :
    ∃ d, d ∈ db.mf.recs ∧ read_record db n.offset = some (0, d) ∧ RecOf d n ∧ d.type ≠ DELETE := by
  obtain ⟨d, hd, h1, h2, h3, h4, h5, _, _⟩ := h
  exact ⟨d, hd, h1 ▸ read_record_of_mem hm hd, ⟨h1, h2, h3, h4⟩, h5⟩

theorem node_offset_ne_zero {mf : mappedfile} (hm : MfOK mf)
    {n : node} {rest : List node} (h : NodeAt mf.recs n rest) : n.offset ≠ 0 := by
  obtain ⟨d, hd, h1, _⟩ := h
  have := (hm.bound d hd).1
  unfold HEADER_SIZE at this
  omega

theorem linked_offset_ne_zero {mf : mappedfile} (hm : MfOK mf) {c : List node}
    (h : Linked mf.recs c) : ∀ n ∈ c, n.offset ≠ 0 := by
  intro n hn
  obtain ⟨a, b, e⟩ := List.append_of_mem hn
  exact node_offset_ne_zero hm (linked_split h e)

theorem linked_level_le {mf : mappedfile} (hm : MfOK mf) {c : List node}
    (h : Linked mf.recs c) : ∀ n ∈ c, n.level ≤ MAXLEVEL := by
  intro n hn
  obtain ⟨a, b, e⟩ := List.append_of_mem hn
  obtain ⟨d, hd, _, h2, _⟩ := linked_split h e
  rw [← h2]
  exact (hm.norm d hd).level_le

theorem linked_suffix {recs : List skiprecord} {a b : List node} (h : Linked recs (a ++ b)) :
    Linked recs b := by
  induction a with
  | nil => exact h
  | cons x t ih => exact ih h.2

/-- The result of `forward_loop` when every pointer reads. -/
theorem forward_loop_ok (db : dbengine) (rec : skiprecord) (v : Nat → Nat)
    (cnt i : Nat) (loc : skiploc)
    (h : ∀ j, i ≤ j → j < i + cnt → _getloc db rec j = some (0, v j)) :
    forward_loop db rec false cnt i loc =
      some (0, { loc with forwardloc := fun j => if i ≤ j ∧ j < i + cnt then v j else loc.forwardloc j }) := by
  induction cnt generalizing i loc with
  | zero =>
    simp only [forward_loop]
    congr 2
    have : (fun j => if i ≤ j ∧ j < i + 0 then v j else loc.forwardloc j) = loc.forwardloc := by
      funext j
      rw [if_neg (by omega)]
    rw [this]
  | succ n ih =>
    simp only [forward_loop, h i (le_refl _) (by omega)]
    simp only [Bool.false_eq_true, if_false, ne_eq, not_true_eq_false]
    rw [ih (i + 1) _ (fun j h1 h2 => h j (by omega) (by omega))]
    congr 3
    funext j
    by_cases h1 : i + 1 ≤ j ∧ j < i + 1 + n
    · have h2 : i ≤ j ∧ j < i + (n + 1) := by omega
      rw [if_pos h1, if_pos h2]
    · rw [if_neg h1]
      by_cases h3 : j = i
      · subst h3
        rw [if_pos (by omega)]
        simp
      · rw [if_neg (by omega)]
        simp [Function.update_noteq h3]

theorem forward_loop_back_ok (db : dbengine) (rec : skiprecord) (v : Nat → Nat)
    (cnt i : Nat) (loc : skiploc)
    (h : ∀ j, i ≤ j → j < i + cnt → _getloc db rec j = some (0, v j)) :
    forward_loop db rec true cnt i loc =
      some (0, { loc with
        backloc := fun j => if i ≤ j ∧ j < i + cnt then rec.offset else loc.backloc j,
        forwardloc := fun j => if i ≤ j ∧ j < i + cnt then v j else loc.forwardloc j }) := by
  induction cnt generalizing i loc with
  | zero =>
    simp only [forward_loop]
    congr 2
    have e1 : (fun j => if i ≤ j ∧ j < i + 0 then v j else loc.forwardloc j) = loc.forwardloc := by
      funext j
      rw [if_neg (by omega)]
    have e2 : (fun j => if i ≤ j ∧ j < i + 0 then rec.offset else loc.backloc j) = loc.backloc := by
      funext j
      rw [if_neg (by omega)]
    rw [e1, e2]
  | succ n ih =>
    simp only [forward_loop, h i (le_refl _) (by omega)]
    simp only [if_true, ne_eq, not_true_eq_false, if_false]
    rw [ih (i + 1) _ (fun j h1 h2 => h j (by omega) (by omega))]
    congr 3
    · funext j
      by_cases h1 : i + 1 ≤ j ∧ j < i + 1 + n
      · have h2 : i ≤ j ∧ j < i + (n + 1) := by omega
        rw [if_pos h1, if_pos h2]
      · rw [if_neg h1]
        by_cases h3 : j = i
        · subst h3
          rw [if_pos (by omega)]
          simp
        · rw [if_neg (by omega)]
          simp [Function.update_noteq h3]
    · funext j
      by_cases h1 : i + 1 ≤ j ∧ j < i + 1 + n
      · have h2 : i ≤ j ∧ j < i + (n + 1) := by omega
        rw [if_pos h1, if_pos h2]
      · rw [if_neg h1]
        by_cases h3 : j = i
        · subst h3
          rw [if_pos (by omega)]
          simp
        · rw [if_neg (by omega)]
          simp [Function.update_noteq h3]

/-! ## `relocate` -/

theorem relocate_loop_zero (E : Env) (db : dbengine) (fuel : Nat) (loc : skiploc)
    (nr : skiprecord) (cmp : Int) :
    relocate_loop E db fuel 0 loc nr cmp = some (0, loc, nr, cmp) := by
  cases fuel <;> rfl

/-- Two records of the file at the same offset are the same record. -/
theorem mem_offset_inj {mf : mappedfile} (hm : MfOK mf) {a b : skiprecord}
    (ha : a ∈ mf.recs) (hb : b ∈ mf.recs) (h : a.offset = b.offset) : a = b := by
  have e1 := find_offset hm.nodup ha
  have e2 := find_offset hm.nodup hb
  rw [h, e2] at e1
  exact (Option.some.inj e1).symm

/-- A node of the chain and the key of the record at its offset. -/
theorem node_key {mf : mappedfile} (hm : MfOK mf) {c : List node} (hl : Linked mf.recs c)
    {n : node} (hn : n ∈ c) {r : skiprecord} (hr : r ∈ mf.recs) (ho : r.offset = n.offset) :
    r.key = n.key ∧ r.level = n.level ∧ r.val = n.val := by
  obtain ⟨a, b, e⟩ := List.append_of_mem hn
  obtain ⟨h1, h2, h3, _⟩ := nodeAt_mem hm.nodup (linked_split hl e) hr ho
  exact ⟨h2, h1, h3⟩

theorem relocate_loop_ok {E : Env} (hc : CompareLaws E.compar) {db : dbengine} (hm : MfOK db.mf)
    (hsl : ∀ d ∈ db.mf.recs, d.nextloc 0 < db.end_ ∧ d.nextloc 1 < db.end_)
    {c P S : List node} (hcP : c = P ++ S) (hlink : Linked db.mf.recs c)
    (hsort : c.Pairwise (fun a b => E.compar a.key b.key < 0))
    (hpos : ∀ a n b, c = a ++ n :: b → ∀ m ∈ b, 1 ≤ m.level)
    {K : List Nat} (hlt : ∀ n ∈ P, E.compar n.key K < 0)
    (hge : ∀ n ∈ S, 0 ≤ E.compar n.key K) (fuel : Nat) :
    ∀ (l : Nat) (loc : skiploc) (nr : skiprecord) (cmp : Int) (x : node) (pre mid : List node),
      RelInv E db K P S l loc nr cmp x pre mid → mid.length + l ≤ fuel →
      ∃ loc1 nr1 cmp1, relocate_loop E db fuel l loc nr cmp = some (0, loc1, nr1, cmp1) ∧
        RelPost E db K P S loc loc1 nr1 cmp1 := by
  induction fuel with
  | zero =>
    intro l loc nr cmp x pre mid hI hf
    have hl : l = 0 := by omega
    subst hl
    have hmid : mid = [] := by
      cases mid with
      | nil => rfl
      | cons m t => simp at hf
    subst hmid
    refine ⟨loc, nr, cmp, relocate_loop_zero _ _ _ _ _ _, ?_⟩
    exact ⟨hI.hkey, rfl, rfl, rfl, hI.hrec, ⟨pre, x, hI.hP, hI.hro⟩,
      fun i hi => hI.harr i (Nat.zero_le _) hi, (hI.hfin rfl).1, (hI.hfin rfl).2⟩
  | succ fuel ih =>
    intro l loc nr cmp x pre mid hI hf
    have hc1 : c = pre ++ x :: (mid ++ S) := by rw [hcP, hI.hP]; simp
    have hposm : ∀ m ∈ mid ++ S, 1 ≤ m.level := hpos pre x (mid ++ S) hc1
    cases l with
    | zero =>
      have hmid : mid = [] := by
        cases mid with
        | nil => rfl
        | cons m t =>
          have h1 := hI.hmid m (List.mem_cons_self _ _)
          have h2 := hposm m (by simp)
          omega
      subst hmid
      refine ⟨loc, nr, cmp, relocate_loop_zero _ _ _ _ _ _, ?_⟩
      exact ⟨hI.hkey, rfl, rfl, rfl, hI.hrec, ⟨pre, x, hI.hP, hI.hro⟩,
        fun i hi => hI.harr i (Nat.zero_le _) hi, (hI.hfin rfl).1, (hI.hfin rfl).2⟩
    | succ l =>
      have hnode := linked_split hlink hc1
      have hxl : l < x.level := by have := hI.hx; omega
      have hget := node_getloc hm hsl hnode hI.hrec hI.hro hxl
      have hoff : ∀ n ∈ mid ++ S, n.offset ≠ 0 := by
        intro n hn
        apply linked_offset_ne_zero hm hlink
        rw [hc1]; simp only [List.mem_append, List.mem_cons]
        rcases List.mem_append.1 hn with h | h
        · right; right; left; exact h
        · right; right; right; exact h
      have descend : ∀ (nr' : skiprecord) (cmp' : Int),
          (∀ n ∈ mid, n.level ≤ l) →
          ((cmp' < 0 ∧ (nr'.offset = 0 ∨ nr'.offset = x.offset)) ∨
            (0 ≤ cmp' ∧ ∃ y ∈ S, nr' ∈ db.mf.recs ∧ nr'.offset = y.offset ∧
              cmp' = E.compar y.key K ∧ l ≤ y.level)) →
          (l = 0 → (S = [] → cmp' < 0) ∧
            (∀ y S', S = y :: S' →
              nr' ∈ db.mf.recs ∧ nr'.offset = y.offset ∧ cmp' = E.compar y.key K)) →
          ∃ loc1 nr1 cmp1, relocate_loop E db fuel l
              { loc with backloc := Function.update loc.backloc l loc.record.offset,
                         forwardloc := Function.update loc.forwardloc l (nextAt l (mid ++ S)) }
              nr' cmp' = some (0, loc1, nr1, cmp1) ∧ RelPost E db K P S loc loc1 nr1 cmp1 := by
        intro nr' cmp' hml hcmp' hfin'
        have hI' : RelInv E db K P S l
            { loc with backloc := Function.update loc.backloc l loc.record.offset,
                       forwardloc := Function.update loc.forwardloc l (nextAt l (mid ++ S)) }
            nr' cmp' x pre mid := by
          refine ⟨hI.hP, hml, by omega, hI.hrec, hI.hro, hI.hkey, ?_, hcmp', hfin'⟩
          intro i hi1 hi2
          by_cases hil : i = l
          · subst hil
            simp only [Function.update_same]
            refine ⟨?_, nextAt_append_le hml S⟩
            rw [hI.hP, hI.hro]
            exact (lastAt_mid pre x hxl hml).symm
          · simp only [Function.update_noteq hil]
            exact hI.harr i (by omega) hi2
        obtain ⟨loc1, nr1, cmp1, h1, h2⟩ := ih l _ nr' cmp' x pre mid hI' (by omega)
        exact ⟨loc1, nr1, cmp1, h1,
          ⟨h2.hkey, h2.hgen, h2.hend, h2.hexact, h2.hrec, h2.hlast, h2.harr, h2.hnil, h2.hcons⟩⟩
      simp only [relocate_loop, hget, ne_eq, not_true_eq_false, if_false]
      rcases nextAt_split (i := l) hoff with ⟨h0, hall⟩ | ⟨a, y, b, e, ha, hy, hn⟩
      · have hcond : ¬ (¬ nextAt l (mid ++ S) = 0 ∧ ¬ nr.offset = nextAt l (mid ++ S)) := by
          simp [h0]
        rw [if_neg hcond]
        have hml : ∀ n ∈ mid, n.level ≤ l := fun n hn => hall n (List.mem_append_left _ hn)
        have hSl : ∀ n ∈ S, n.level ≤ l := fun n hn => hall n (List.mem_append_right _ hn)
        have hfirst : cmp < 0 ∧ (nr.offset = 0 ∨ nr.offset = x.offset) := by
          rcases hI.hcmp with h | ⟨_, y, hy, _, _, _, hl⟩
          · exact h
          · have := hSl y hy; omega
        apply descend nr cmp hml (Or.inl hfirst)
        intro _
        refine ⟨fun _ => hfirst.1, ?_⟩
        intro y S' hS
        have h1 := hSl y (by rw [hS]; simp)
        have h2 := hposm y (by rw [hS]; simp)
        omega
      · have hyo : y.offset ≠ 0 := hoff y (by rw [e]; simp)
        have hyc : c = (pre ++ x :: a) ++ y :: b := by rw [hc1, e]; simp
        have hymem : y ∈ c := by rw [hyc]; simp
        have hynode := linked_split hlink hyc
        obtain ⟨dy, hdy, hread, hrecof, _⟩ := nodeAt_read hm hynode
        have hxy : E.compar x.key y.key < 0 := by
          rw [hc1, e] at hsort
          have h1 := (List.pairwise_append.1 hsort).2.1
          exact (List.pairwise_cons.1 h1).1 y (by simp)
        have hinS : 0 ≤ E.compar y.key K → ∃ a', a = mid ++ a' ∧ S = a' ++ y :: b := by
          intro hge0
          rcases List.append_eq_append_iff.1 e with ⟨a', h1, h2⟩ | ⟨c', h1, h2⟩
          · exact ⟨a', h1, h2⟩
          · cases c' with
            | nil =>
              refine ⟨[], ?_, ?_⟩
              · simpa using h1.symm
              · simpa using h2.symm
            | cons z c2 =>
              exfalso
              simp only [List.cons_append, List.cons.injEq] at h2
              have : y ∈ P := by
                rw [hI.hP, h1, h2.1]; simp
              have := hlt y this
              omega
        by_cases hskip : nr.offset = y.offset
        · have hcond : ¬ (¬ nextAt l (mid ++ S) = 0 ∧ ¬ nr.offset = nextAt l (mid ++ S)) := by
            rw [hn]; simp [hskip]
          rw [if_neg hcond]
          have hsec : 0 ≤ cmp ∧ ∃ y' ∈ S, nr ∈ db.mf.recs ∧ nr.offset = y'.offset ∧
              cmp = E.compar y'.key K ∧ l + 1 ≤ y'.level := by
            rcases hI.hcmp with ⟨_, h | h⟩ | h
            · rw [h] at hskip; exact absurd hskip.symm hyo
            · exfalso
              have hxm : x ∈ c := by rw [hc1]; simp
              have k1 := (node_key hm hlink hxm hI.hrec hI.hro).1
              have k2 := (node_key hm hlink hymem hI.hrec (by rw [hI.hro, ← h, hskip])).1
              rw [← k1, k2] at hxy
              exact hc.irrefl _ hxy
            · exact h
          obtain ⟨hcge, y', hy', hnr, hnro, hcmpe, hly'⟩ := hsec
          have hyk : y.key = y'.key := by
            have hy'm : y' ∈ c := by rw [hcP]; exact List.mem_append_right _ hy'
            have k1 := (node_key hm hlink hymem hnr hskip).1
            have k2 := (node_key hm hlink hy'm hnr hnro).1
            rw [← k1, k2]
          obtain ⟨a', ha', hS⟩ := hinS (by rw [hyk, ← hcmpe]; exact hcge)
          apply descend nr cmp (fun n hn => ha n (by rw [ha']; simp [hn]))
            (Or.inr ⟨hcge, y', hy', hnr, hnro, hcmpe, by omega⟩)
          intro hl0
          subst hl0
          have ha'nil : a' = [] := by
            cases a' with
            | nil => rfl
            | cons m t =>
              have h1 := ha m (by rw [ha']; simp)
              have h2 := hposm m (by rw [hS]; simp)
              omega
          subst ha'nil
          refine ⟨fun h => by rw [hS] at h; simp at h, ?_⟩
          intro y0 S' hS0
          rw [hS] at hS0
          simp only [List.nil_append, List.cons.injEq] at hS0
          rw [← hS0.1]
          exact ⟨hnr, hskip, by rw [hcmpe, hyk]⟩
        · have hcond : ¬ nextAt l (mid ++ S) = 0 ∧ ¬ nr.offset = nextAt l (mid ++ S) := by
            rw [hn]; exact ⟨hyo, hskip⟩
          have hread' : read_record db (nextAt l (mid ++ S)) = some (0, dy) := by
            rw [hn]; exact hread
          rw [if_pos hcond, hread']
          simp only [not_true_eq_false, if_false]
          have hk : E.compar (_key dy) loc.keybuf = E.compar y.key K := by
            rw [hI.hkey]
            exact congrArg (fun k => E.compar k K) hrecof.2.2.1
          rw [hk]
          by_cases hlt1 : E.compar y.key K < 0
          · rw [if_pos hlt1]
            have hymid : ∃ m2, mid = a ++ y :: m2 := by
              rcases List.append_eq_append_iff.1 e with ⟨a', h1, h2⟩ | ⟨c', h1, h2⟩
              · exfalso
                have := hge y (by rw [h2]; simp)
                omega
              · cases c' with
                | nil =>
                  exfalso
                  have h3 : S = y :: b := by simpa using h2.symm
                  have := hge y (by rw [h3]; simp)
                  omega
                | cons z c2 =>
                  simp only [List.cons_append, List.cons.injEq] at h2
                  exact ⟨c2, by rw [h1, h2.1]⟩
            obtain ⟨m2, hm2⟩ := hymid
            have hI' : RelInv E db K P S (l + 1)
                { loc with record := dy,
                           backloc := Function.update loc.backloc l loc.record.offset,
                           forwardloc := Function.update loc.forwardloc l (nextAt l (mid ++ S)) }
                dy (E.compar y.key K) y (pre ++ x :: a) m2 := by
              refine ⟨by rw [hI.hP, hm2]; simp, ?_, by omega, hdy, hrecof.1, hI.hkey, ?_,
                Or.inl ⟨hlt1, Or.inr hrecof.1⟩, fun h => by omega⟩
              · intro n hn
                exact hI.hmid n (by rw [hm2]; simp [hn])
              · intro i hi1 hi2
                have hil : i ≠ l := by omega
                simp only [Function.update_noteq hil]
                exact hI.harr i hi1 hi2
            have hlen : m2.length + (l + 1) ≤ fuel := by
              have : mid.length = a.length + (m2.length + 1) := by rw [hm2]; simp
              omega
            obtain ⟨loc1, nr1, cmp1, h1, h2⟩ := ih (l + 1) _ dy _ y (pre ++ x :: a) m2 hI' hlen
            exact ⟨loc1, nr1, cmp1, h1,
              ⟨h2.hkey, h2.hgen, h2.hend, h2.hexact, h2.hrec, h2.hlast, h2.harr, h2.hnil, h2.hcons⟩⟩
          · rw [if_neg hlt1]
            obtain ⟨a', ha', hS⟩ := hinS (by omega)
            have hyS : y ∈ S := by rw [hS]; simp
            apply descend dy (E.compar y.key K) (fun n hn => ha n (by rw [ha']; simp [hn]))
              (Or.inr ⟨by omega, y, hyS, hdy, hrecof.1, rfl, by omega⟩)
            intro hl0
            subst hl0
            have ha'nil : a' = [] := by
              cases a' with
              | nil => rfl
              | cons m t =>
                have h1 := ha m (by rw [ha']; simp)
                have h2 := hposm m (by rw [hS]; simp)
                omega
            subst ha'nil
            refine ⟨fun h => by rw [hS] at h; simp at h, ?_⟩
            intro y0 S' hS0
            rw [hS] at hS0
            simp only [List.nil_append, List.cons.injEq] at hS0
            rw [← hS0.1]
            exact ⟨hdy, hrecof.1, rfl⟩

theorem lastNode_eq {p pre1 : List node} {x1 : node} (h : dummyNode :: p = pre1 ++ [x1]) :
    lastNode p = x1 := by
  have h1 : (dummyNode :: p).reverse = (pre1 ++ [x1]).reverse := by rw [h]
  simp only [List.reverse_cons, List.reverse_append, List.reverse_nil, List.nil_append,
    List.singleton_append] at h1
  unfold lastNode
  cases hp : p.reverse with
  | nil =>
    rw [hp] at h1
    simp only [List.nil_append, List.cons.injEq] at h1
    simp [h1.1]
  | cons z t =>
    rw [hp] at h1
    simp only [List.cons_append, List.cons.injEq] at h1
    simp [h1.1]

/-- A sorted chain splits at any key. -/
theorem sorted_split {E : Env} (hc : CompareLaws E.compar) (K : List Nat) {l : List node}
    (hs : l.Pairwise (fun a b => E.compar a.key b.key < 0)) :
    ∃ p S, l = p ++ S ∧ (∀ n ∈ p, E.compar n.key K < 0) ∧ (∀ n ∈ S, 0 ≤ E.compar n.key K) := by
  induction l with
  | nil => exact ⟨[], [], rfl, by simp, by simp⟩
  | cons x t ih =>
    rw [List.pairwise_cons] at hs
    by_cases hx : E.compar x.key K < 0
    · obtain ⟨p, S, e, h1, h2⟩ := ih hs.2
      refine ⟨x :: p, S, by simp [e], ?_, h2⟩
      intro n hn
      rcases List.mem_cons.1 hn with h | h
      · subst h; exact hx
      · exact h1 n h
    · refine ⟨[], x :: t, rfl, by simp, ?_⟩
      intro n hn
      rcases List.mem_cons.1 hn with h | h
      · subst h; omega
      · by_contra hneg
        have h3 : E.compar n.key K < 0 := by omega
        exact hx (hc.trans _ _ _ (hs.1 n h) h3)

/-- The nodes of a chain are records of the file at distinct offsets. -/
theorem chain_length_le {E : Env} (hc : CompareLaws E.compar) {mf : mappedfile} (hm : MfOK mf)
    {c : List node} (hl : Linked mf.recs c)
    (hs : c.Pairwise (fun a b => E.compar a.key b.key < 0)) : c.length ≤ mf.recs.length := by
  have hsub : c.map node.offset ⊆ mf.recs.map skiprecord.offset := by
    intro o ho
    obtain ⟨n, hn, rfl⟩ := List.mem_map.1 ho
    obtain ⟨a, b, e⟩ := List.append_of_mem hn
    obtain ⟨d, hd, h1, _⟩ := linked_split hl e
    exact List.mem_map.2 ⟨d, hd, h1⟩
  have hnd : (c.map node.offset).Nodup := by
    rw [List.Nodup, List.pairwise_map]
    have hall : ∀ n ∈ c, ∃ d ∈ mf.recs, d.offset = n.offset ∧ d.key = n.key := by
      intro n hn
      obtain ⟨a, b, e⟩ := List.append_of_mem hn
      obtain ⟨d, hd, h1, _, h3, _⟩ := linked_split hl e
      exact ⟨d, hd, h1, h3⟩
    clear hl
    induction c with
    | nil => exact List.Pairwise.nil
    | cons x t ih =>
      rw [List.pairwise_cons] at hs ⊢
      refine ⟨?_, ih hs.2 (fun o ho => hsub (List.mem_cons_of_mem _ ho))
        (fun n hn => hall n (List.mem_cons_of_mem _ hn))⟩
      intro y hy heq
      obtain ⟨d1, hd1, o1, k1⟩ := hall x (List.mem_cons_self _ _)
      obtain ⟨d2, hd2, o2, k2⟩ := hall y (List.mem_cons_of_mem _ hy)
      have : d1 = d2 := mem_offset_inj hm hd1 hd2 (by rw [o1, o2, heq])
      subst this
      have := hs.1 y hy
      rw [← k1, ← k2] at this
      exact hc.irrefl _ this
  have := (List.Nodup.subperm hnd hsub).length_le
  simpa using this

theorem FileOK.congr {E : Env} {db db1 : dbengine} {live : List node} (h : FileOK E db live)
    (h1 : db1.mf = db.mf) (h2 : db1.end_ = db.end_) : FileOK E db1 live := by
  refine ⟨h1 ▸ h.mf, ?_, h1 ▸ h.chain⟩
  rw [h1, h2]
  exact h.slots

theorem relocate_ok {E : Env} (hc : CompareLaws E.compar) {db : dbengine} {live : List node}
    (hf : FileOK E db live) :
    ∃ loc1, relocate E db = some (0, { db with loc := loc1 }) ∧
      loc1.keybuf = db.loc.keybuf ∧ loc1.end_ = db.end_ ∧
      loc1.generation = db.header.generation ∧ LocAt E loc1 live := by
  have hm := hf.mf
  have hlink := hf.chain.linked
  have hsort := hf.chain.sorted
  obtain ⟨d0, hd0, hread0, hrec0, _⟩ := nodeAt_read hm hlink.1
  have hread0' : read_record db HEADER_SIZE = some (0, d0) := hread0
  have hd0l : d0.level = MAXLEVEL := hrec0.2.1
  unfold relocate
  simp only [hread0']
  by_cases hK : db.loc.keybuf = []
  · have hlen : db.loc.keybuf.length = 0 := by rw [hK]; rfl
    simp only [hlen, if_true]
    have hget : ∀ j, 0 ≤ j → j < 0 + d0.level → _getloc db d0 j = some (0, nextAt j live) := by
      intro j _ hj
      exact node_getloc hm hf.slots hlink.1 hd0 hrec0.1 (by rw [hd0l] at hj; simpa [dummyNode] using hj)
    rw [forward_loop_back_ok db d0 (fun j => nextAt j live) d0.level 0 _ hget]
    refine ⟨_, rfl, rfl, rfl, rfl, ?_⟩
    refine ⟨[], live, rfl, by simp, ?_, Or.inr ⟨rfl, ?_, ?_, ?_⟩⟩
    · intro i hi
      have : 0 ≤ i ∧ i < 0 + d0.level := by rw [hd0l]; omega
      simp only [this, and_self, if_true]
      simp [lastAt, nextAt, dummyNode, hi, hrec0.1]
    · intro n hn
      have := (List.pairwise_cons.1 hsort).1 n hn
      simp only [hK]
      exact this
    · exact hrec0
    · intro i hi
      have : 0 ≤ i ∧ i < 0 + d0.level := by rw [hd0l]; omega
      simp only [this, and_self, if_true]
  · have hlen : ¬ db.loc.keybuf.length = 0 := by
      intro h; exact hK (List.length_eq_zero.1 h)
    simp only [hlen, if_false]
    obtain ⟨p, S, hpS, hlt, hge⟩ := sorted_split hc db.loc.keybuf (List.pairwise_cons.1 hsort).2
    have hltP : ∀ n ∈ dummyNode :: p, E.compar n.key db.loc.keybuf < 0 := by
      intro n hn
      rcases List.mem_cons.1 hn with h | h
      · subst h; exact hc.nil_lt _ hK
      · exact hlt n h
    have hcP : dummyNode :: live = (dummyNode :: p) ++ S := by rw [hpS]; simp
    have hpos : ∀ a n b, dummyNode :: live = a ++ n :: b → ∀ m ∈ b, 1 ≤ m.level := by
      intro a n b e m hmb
      apply hf.chain.level_pos
      cases a with
      | nil =>
        simp only [List.nil_append, List.cons.injEq] at e
        rw [e.2]; exact hmb
      | cons z a2 =>
        simp only [List.cons_append, List.cons.injEq] at e
        rw [e.2]; simp [hmb]
    have hlev := linked_level_le hm hlink
    have hI : RelInv E db db.loc.keybuf (dummyNode :: p) S d0.level
        { db.loc with generation := db.header.generation, end_ := db.end_,
                      record := d0, is_exactmatch := false }
        {} (-1) dummyNode [] p := by
      refine ⟨rfl, ?_, by rw [hd0l]; exact le_refl _, hd0, hrec0.1, rfl, ?_, Or.inl ⟨by omega, Or.inl rfl⟩, ?_⟩
      · intro n hn
        rw [hd0l]
        exact hlev n (by rw [hpS]; simp [hn])
      · intro i h1 h2
        rw [hd0l] at h1; omega
      · intro h
        rw [hd0l] at h; simp [MAXLEVEL] at h
    have hfuel : p.length + d0.level ≤ db.mf.recs.length + MAXLEVEL + 1 := by
      have h1 := chain_length_le hc hm hlink hsort
      have h2 : p.length ≤ live.length := by rw [hpS]; simp
      simp only [List.length_cons] at h1
      rw [hd0l]; omega
    obtain ⟨loc1, nr1, cmp1, hrun, hpost⟩ :=
      relocate_loop_ok hc hm hf.slots hcP hlink hsort hpos hltP hge _ _ _ _ _ _ _ _ hI hfuel
    simp only [hrun, ne_eq, not_true_eq_false, if_false]
    obtain ⟨pre1, x1, hP1, hx1o⟩ := hpost.hlast
    have hx1m : x1 ∈ dummyNode :: live := by
      rw [hcP, hP1]; simp
    have hrecx : RecOf loc1.record (lastNode p) := by
      rw [lastNode_eq hP1]
      obtain ⟨k1, k2, k3⟩ := node_key hm hlink hx1m hpost.hrec hx1o
      exact ⟨hx1o, k2, k1, k3⟩
    have hback : ∀ i, i < MAXLEVEL → loc1.backloc i = lastAt i (dummyNode :: p) :=
      fun i hi => (hpost.harr i hi).1
    cases S with
    | nil =>
      have hcmp := hpost.hnil rfl
      have hne : ¬ cmp1 = 0 := by omega
      simp only [hne, if_false]
      refine ⟨loc1, rfl, hpost.hkey, hpost.hend, hpost.hgen, ?_⟩
      refine ⟨p, [], hpS, ?_, hback, Or.inr ⟨hpost.hexact, by simp, hrecx, fun i hi => (hpost.harr i hi).2⟩⟩
      rw [hpost.hkey]; exact hlt
    | cons y S' =>
      obtain ⟨hnr, hnro, hcmp⟩ := hpost.hcons y S' rfl
      have hym : y ∈ dummyNode :: live := by rw [hcP]; simp
      obtain ⟨k1, k2, k3⟩ := node_key hm hlink hym hnr hnro
      by_cases h0 : cmp1 = 0
      · simp only [h0, if_true]
        have hynode : NodeAt db.mf.recs y S' := linked_split hlink hcP
        have hget : ∀ j, 0 ≤ j → j < 0 + nr1.level → _getloc db nr1 j = some (0, nextAt j S') := by
          intro j _ hj
          exact node_getloc hm hf.slots hynode hnr hnro (by rw [k2] at hj; simpa using hj)
        rw [forward_loop_ok db nr1 (fun j => nextAt j S') nr1.level 0 _ hget]
        simp only [ne_eq, not_true_eq_false, if_false, check_tailcrc]
        refine ⟨_, rfl, hpost.hkey, hpost.hend, hpost.hgen, ?_⟩
        refine ⟨p, y :: S', hpS, ?_, hback, Or.inl ⟨rfl, y, S', rfl, ?_, ⟨hnro, k2, k1, k3⟩, ?_⟩⟩
        · simp only [hpost.hkey]; exact hlt
        · simp only [hpost.hkey]
          exact (hc.eq_zero _ _).1 (by rw [← hcmp]; exact h0)
        · intro i hi
          simp only
          by_cases hil : i < nr1.level
          · simp [hil]
          · have : ¬ (0 ≤ i ∧ i < 0 + nr1.level) := by omega
            simp only [this, if_false, (hpost.harr i hi).2]
            rw [k2] at hil
            simp [nextAt, hil]
      · simp only [h0, if_false]
        refine ⟨loc1, rfl, hpost.hkey, hpost.hend, hpost.hgen, ?_⟩
        refine ⟨p, y :: S', hpS, ?_, hback, Or.inr ⟨hpost.hexact, ?_, hrecx, fun i hi => (hpost.harr i hi).2⟩⟩
        · rw [hpost.hkey]; exact hlt
        · rw [hpost.hkey]
          have hy0 := hge y (by simp)
          have hypos : E.compar db.loc.keybuf y.key < 0 := by
            rw [hc.lt_gt]; rw [← hcmp] at hy0 ⊢; omega
          intro n hn
          rcases List.mem_cons.1 hn with h | h
          · subst h; exact hypos
          · have hs2 : (y :: S').Pairwise (fun a b => E.compar a.key b.key < 0) := by
              rw [hcP] at hsort
              exact (List.pairwise_append.1 hsort).2.1
            exact hc.trans _ _ _ hypos ((List.pairwise_cons.1 hs2).1 n h)

/-! ## `find_loc` and `advance_loc` -/

theorem lastAt_dummy_concat {p pre1 : List node} {x1 : node} (h : dummyNode :: p = pre1 ++ [x1])
    (i : Nat) : lastAt i (dummyNode :: p) = if i < x1.level then x1.offset else lastAt i pre1 := by
  rw [h, lastAt_append_single]

theorem exists_last (p : List node) : ∃ pre1, dummyNode :: p = pre1 ++ [lastNode p] := by
  rcases List.eq_nil_or_concat p with h | ⟨p1, x, h⟩
  · subst h; exact ⟨[], rfl⟩
  · rw [List.concat_eq_append] at h
    subst h
    refine ⟨dummyNode :: p1, ?_⟩
    rw [lastNode_concat]
    simp

/-- The gap after the record of a valid location: the nodes up to and
including `loc.record`, and the nodes after it. -/
theorem locAt_gap {E : Env} (hc : CompareLaws E.compar) {loc : skiploc} {live : List node}
    (hsort : (dummyNode :: live).Pairwise (fun a b => E.compar a.key b.key < 0))
    (h : LocAt E loc live) :
    ∃ p R, live = p ++ R ∧ RecOf loc.record (lastNode p) ∧
      (∀ i, i < MAXLEVEL →
        fill_loop loc.record.offset loc.record.level 0 loc.backloc i = lastAt i (dummyNode :: p)) ∧
      (∀ i, i < MAXLEVEL → loc.forwardloc i = nextAt i R) ∧
      (∀ n ∈ p, E.compar n.key loc.keybuf ≤ 0) ∧
      (∀ n ∈ R, E.compar loc.keybuf n.key < 0) := by
  obtain ⟨p, S, hpS, hlt, hback, hcase⟩ := h
  rcases hcase with ⟨_, m, S', hS, hmk, hrec, hfw⟩ | ⟨_, hgt, hrec, hfw⟩
  · refine ⟨p ++ [m], S', by rw [hpS, hS]; simp, by rw [lastNode_concat]; exact hrec, ?_, hfw, ?_, ?_⟩
    · intro i hi
      rw [fill_loop_apply]
      have e : dummyNode :: (p ++ [m]) = (dummyNode :: p) ++ [m] := by simp
      rw [e, lastAt_append_single, hrec.1, hrec.2.1, hback i hi]
      by_cases hl : i < m.level
      · simp [hl]
      · have : ¬ (0 ≤ i ∧ i < 0 + m.level) := by omega
        simp [hl, this]
    · intro n hn
      rcases List.mem_append.1 hn with h1 | h1
      · exact le_of_lt (hlt n h1)
      · simp only [List.mem_singleton] at h1
        subst h1
        rw [hmk, (hc.eq_zero _ _).2 rfl]
    · intro n hn
      rw [← hmk]
      rw [hpS, hS] at hsort
      have h1 : (m :: S').Pairwise (fun a b => E.compar a.key b.key < 0) := by
        have e : dummyNode :: (p ++ m :: S') = (dummyNode :: p) ++ m :: S' := by simp
        rw [e] at hsort
        exact (List.pairwise_append.1 hsort).2.1
      exact (List.pairwise_cons.1 h1).1 n hn
  · refine ⟨p, S, hpS, hrec, ?_, hfw, fun n hn => le_of_lt (hlt n hn), hgt⟩
    intro i hi
    rw [fill_loop_apply]
    obtain ⟨pre1, hpre⟩ := exists_last p
    rw [hback i hi, lastAt_dummy_concat hpre, hrec.1, hrec.2.1]
    by_cases hl : i < (lastNode p).level
    · simp [hl]
    · have : ¬ (0 ≤ i ∧ i < 0 + (lastNode p).level) := by omega
      simp [hl, this]

theorem nextAt_zero_nil {l : List node} (hoff : ∀ n ∈ l, n.offset ≠ 0)
    (hpos : ∀ n ∈ l, 1 ≤ n.level) (h : nextAt 0 l = 0) : l = [] := by
  cases l with
  | nil => rfl
  | cons y t =>
    exfalso
    have h1 := hpos y (List.mem_cons_self _ _)
    have h2 := hoff y (List.mem_cons_self _ _)
    simp only [nextAt, show 0 < y.level by omega, if_true] at h
    exact h2 h

theorem nextAt_zero_cons {y : node} (t : List node) (h : 1 ≤ y.level) :
    nextAt 0 (y :: t) = y.offset := by
  simp [nextAt, show 0 < y.level by omega]

theorem nextAt_cons_ge {i : Nat} {y : node} (t : List node) (h : ¬ i < y.level) :
    nextAt i (y :: t) = nextAt i t := by
  simp [nextAt, h]

/-- All the nodes before a node of a sorted chain have smaller keys. -/
theorem sorted_before {E : Env} {p R : List node}
    (hsort : (dummyNode :: (p ++ R)).Pairwise (fun a b => E.compar a.key b.key < 0))
    {y : node} (hy : y ∈ R) : ∀ n ∈ p, E.compar n.key y.key < 0 := by
  intro n hn
  have h1 := (List.pairwise_cons.1 hsort).2
  exact (List.pairwise_append.1 h1).2.2 n hn y hy

theorem sorted_tail {E : Env} {p : List node} {y : node} {R : List node}
    (hsort : (dummyNode :: (p ++ y :: R)).Pairwise (fun a b => E.compar a.key b.key < 0)) :
    ∀ n ∈ R, E.compar y.key n.key < 0 := by
  have h1 := (List.pairwise_cons.1 hsort).2
  have h2 := (List.pairwise_append.1 h1).2.1
  exact (List.pairwise_cons.1 h2).1

/-- The keys before the predecessor node are below any key above it. -/
theorem before_last {E : Env} (hc : CompareLaws E.compar) {p R : List node}
    (hsort : (dummyNode :: (p ++ R)).Pairwise (fun a b => E.compar a.key b.key < 0))
    {k : List Nat} (hk : E.compar (lastNode p).key k < 0) : ∀ n ∈ p, E.compar n.key k < 0 := by
  intro n hn
  rcases List.eq_nil_or_concat p with h | ⟨p1, x, h⟩
  · subst h; cases hn
  · rw [List.concat_eq_append] at h
    subst h
    rw [lastNode_concat] at hk
    rcases List.mem_append.1 hn with h1 | h1
    · have h2 := (List.pairwise_cons.1 hsort).2
      rw [List.append_assoc] at h2
      have h3 := (List.pairwise_append.1 h2).2.2 n h1 x (by simp)
      exact hc.trans _ _ _ h3 hk
    · simp only [List.mem_singleton] at h1
      subst h1; exact hk

/-- Reading the node after a gap and loading its forward pointers. -/
theorem step_next {E : Env} {db : dbengine} {live : List node}
    (hf : FileOK E db live) {p : List node} {y : node} {R' : List node}
    (hpR : live = p ++ y :: R') :
    ∃ dy, dy ∈ db.mf.recs ∧ read_record db y.offset = some (0, dy) ∧ RecOf dy y ∧
      ∀ loc : skiploc, (∀ i, i < MAXLEVEL → loc.forwardloc i = nextAt i (y :: R')) →
        ∃ F, forward_loop db dy false dy.level 0 loc = some (0, { loc with forwardloc := F }) ∧
          ∀ i, i < MAXLEVEL → F i = nextAt i R' := by
  have hm := hf.mf
  have hc1 : dummyNode :: live = (dummyNode :: p) ++ y :: R' := by rw [hpR]; simp
  have hynode := linked_split hf.chain.linked hc1
  obtain ⟨dy, hdy, hread, hrec, _⟩ := nodeAt_read hm hynode
  refine ⟨dy, hdy, hread, hrec, ?_⟩
  intro loc hfw
  have hget : ∀ j, 0 ≤ j → j < 0 + dy.level → _getloc db dy j = some (0, nextAt j R') := by
    intro j _ hj
    exact node_getloc hm hf.slots hynode hdy hrec.1 (by rw [hrec.2.1] at hj; simpa using hj)
  refine ⟨_, forward_loop_ok db dy (fun j => nextAt j R') dy.level 0 loc hget, ?_⟩
  intro i hi
  by_cases hl : i < dy.level
  · simp [hl]
  · have : ¬ (0 ≤ i ∧ i < 0 + dy.level) := by omega
    simp only [this, if_false, hfw i hi]
    rw [hrec.2.1] at hl
    exact nextAt_cons_ge _ hl

theorem find_loc_ok {E : Env} (hc : CompareLaws E.compar) {db : dbengine} {live : List node}
    (hf : FileOK E db live)
    (hcache : db.loc.end_ = db.end_ → db.loc.generation = db.header.generation →
      LocAt E db.loc live)
    (key : List Nat) :
    ∃ loc1, find_loc E db key = some (0, { db with loc := loc1 }) ∧
      loc1.keybuf = key ∧ loc1.end_ = db.end_ ∧
      loc1.generation = db.header.generation ∧ LocAt E loc1 live := by
  have hreloc : ∀ (bl : Nat → Nat),
      ∃ loc1, relocate E { db with loc := { db.loc with keybuf := key, backloc := bl } } =
          some (0, { db with loc := loc1 }) ∧
        loc1.keybuf = key ∧ loc1.end_ = db.end_ ∧
        loc1.generation = db.header.generation ∧ LocAt E loc1 live := by
    intro bl
    have hf1 : FileOK E { db with loc := { db.loc with keybuf := key, backloc := bl } } live :=
      hf.congr rfl rfl
    exact relocate_ok hc hf1
  have hoffl : ∀ n ∈ live, n.offset ≠ 0 := fun n hn =>
    linked_offset_ne_zero hf.mf hf.chain.linked n (List.mem_cons_of_mem _ hn)
  unfold find_loc
  dsimp only
  by_cases hfast : key.length ≠ 0 ∧ db.loc.end_ = db.end_ ∧
      db.loc.generation = db.header.generation
  · rw [if_pos hfast]
    have hL := hcache hfast.2.1 hfast.2.2
    by_cases hex : db.loc.is_exactmatch = true ∧ E.compar (_key db.loc.record) key = 0
    · rw [if_pos hex]
      refine ⟨_, rfl, rfl, hfast.2.1, hfast.2.2, ?_⟩
      obtain ⟨p, S, hpS, hlt, hback, hcase⟩ := hL
      rcases hcase with ⟨_, m, S', hS, hmk, hrec, hfw⟩ | ⟨hne, _⟩
      · have hkey : db.loc.keybuf = key := by
          rw [← hmk, ← hrec.2.2.1]
          exact (hc.eq_zero _ _).1 hex.2
        refine ⟨p, S, hpS, ?_, hback, Or.inl ⟨hex.1, m, S', hS, by rw [hmk]; exact hkey, hrec, hfw⟩⟩
        intro n hn
        have := hlt n hn
        rw [hkey] at this
        exact this
      · rw [hex.1] at hne; cases hne
    · rw [if_neg hex]
      by_cases hlt : E.compar (_key db.loc.record) key < 0
      · rw [if_pos hlt]
        obtain ⟨p, R, hpR, hrec, hback, hfw, _, _⟩ := locAt_gap hc hf.chain.sorted hL
        have hsort := hf.chain.sorted
        rw [hpR] at hsort
        have hqk : E.compar (lastNode p).key key < 0 := by
          have : _key db.loc.record = (lastNode p).key := hrec.2.2.1
          rw [← this]; exact hlt
        have hplt : ∀ n ∈ p, E.compar n.key key < 0 := before_last hc hsort hqk
        have hRpos : ∀ n ∈ R, 1 ≤ n.level := fun n hn =>
          hf.chain.level_pos n (by rw [hpR]; exact List.mem_append_right _ hn)
        have hRoff : ∀ n ∈ R, n.offset ≠ 0 := fun n hn =>
          hoffl n (by rw [hpR]; exact List.mem_append_right _ hn)
        by_cases hz : db.loc.forwardloc 0 = 0
        · rw [if_pos hz]
          have hR : R = [] := by
            apply nextAt_zero_nil hRoff hRpos
            rw [← hfw 0 (by simp [MAXLEVEL])]; exact hz
          subst hR
          refine ⟨_, rfl, rfl, hfast.2.1, hfast.2.2, ?_⟩
          exact ⟨p, [], hpR, hplt, hback, Or.inr ⟨rfl, by simp, hrec, hfw⟩⟩
        · rw [if_neg hz]
          cases R with
          | nil =>
            exfalso
            apply hz
            rw [hfw 0 (by simp [MAXLEVEL])]; rfl
          | cons y R' =>
            have hf1 : FileOK E { db with loc := { db.loc with
                keybuf := key,
                backloc := fill_loop db.loc.record.offset db.loc.record.level 0 db.loc.backloc } }
                live := hf.congr rfl rfl
            obtain ⟨dy, hdy, hread, hrecy, hfl⟩ := step_next hf1 hpR
            have hfw0 : db.loc.forwardloc 0 = y.offset := by
              rw [hfw 0 (by simp [MAXLEVEL]), nextAt_zero_cons _ (hRpos y (by simp))]
            rw [hfw0, hread]
            simp only [ne_eq, not_true_eq_false, if_false]
            have hky : _key dy = y.key := hrecy.2.2.1
            rw [hky]
            by_cases h0 : E.compar y.key key = 0
            · rw [if_pos h0]
              obtain ⟨F, hF, hFv⟩ := hfl { db.loc with
                keybuf := key, is_exactmatch := true, record := dy,
                backloc := fill_loop db.loc.record.offset db.loc.record.level 0 db.loc.backloc } hfw
              rw [hF]
              simp only [ne_eq, not_true_eq_false, if_false, check_tailcrc]
              refine ⟨_, rfl, rfl, hfast.2.1, hfast.2.2, ?_⟩
              exact ⟨p, y :: R', hpR, hplt, hback,
                Or.inl ⟨rfl, y, R', rfl, (hc.eq_zero _ _).1 h0, hrecy, hFv⟩⟩
            · rw [if_neg h0]
              by_cases hgt : E.compar y.key key > 0
              · rw [if_pos hgt]
                refine ⟨_, rfl, rfl, hfast.2.1, hfast.2.2, ?_⟩
                refine ⟨p, y :: R', hpR, hplt, hback, Or.inr ⟨rfl, ?_, hrec, hfw⟩⟩
                have hky2 : E.compar key y.key < 0 := (hc.lt_gt _ _).2 hgt
                intro n hn
                rcases List.mem_cons.1 hn with h | h
                · subst h; exact hky2
                · exact hc.trans _ _ _ hky2 (sorted_tail hsort n h)
              · rw [if_neg hgt]
                exact hreloc _
      · rw [if_neg hlt]
        exact hreloc _
  · rw [if_neg hfast]
    exact hreloc _

/-- No live record has the empty key. -/
theorem live_key_ne_nil {E : Env} (hc : CompareLaws E.compar) {live : List node}
    (hsort : (dummyNode :: live).Pairwise (fun a b => E.compar a.key b.key < 0))
    {n : node} (hn : n ∈ live) : n.key ≠ [] := by
  intro h
  have := (List.pairwise_cons.1 hsort).1 n hn
  rw [h] at this
  exact hc.irrefl _ this

theorem advance_loc_ok {E : Env} (hc : CompareLaws E.compar) {db : dbengine} {live : List node}
    (hf : FileOK E db live)
    (hcache : db.loc.end_ = db.end_ → db.loc.generation = db.header.generation →
      LocAt E db.loc live) :
    ∃ loc1, advance_loc E db = some (0, { db with loc := loc1 }) ∧
      loc1.end_ = db.end_ ∧ loc1.generation = db.header.generation ∧ LocAt E loc1 live ∧
      ∃ p R, live = p ++ R ∧ (∀ n ∈ p, E.compar n.key db.loc.keybuf ≤ 0) ∧
        (∀ n ∈ R, E.compar db.loc.keybuf n.key < 0) ∧
        (R = [] → loc1.is_exactmatch = false ∧ loc1.keybuf = []) ∧
        (∀ y R', R = y :: R' →
          loc1.is_exactmatch = true ∧ loc1.keybuf = y.key ∧ RecOf loc1.record y) := by
  have hoffl : ∀ n ∈ live, n.offset ≠ 0 := fun n hn =>
    linked_offset_ne_zero hf.mf hf.chain.linked n (List.mem_cons_of_mem _ hn)
  have hA : ∃ locA, (if db.loc.end_ ≠ db.end_ ∨ db.loc.generation ≠ db.header.generation
        then relocate E db else some (0, db)) = some (0, { db with loc := locA }) ∧
      locA.keybuf = db.loc.keybuf ∧ locA.end_ = db.end_ ∧
      locA.generation = db.header.generation ∧ LocAt E locA live := by
    by_cases hst : db.loc.end_ ≠ db.end_ ∨ db.loc.generation ≠ db.header.generation
    · rw [if_pos hst]
      exact relocate_ok hc hf
    · rw [if_neg hst]
      have h1 : db.loc.end_ = db.end_ := by
        by_contra h; exact hst (Or.inl h)
      have h2 : db.loc.generation = db.header.generation := by
        by_contra h; exact hst (Or.inr h)
      exact ⟨db.loc, rfl, rfl, h1, h2, hcache h1 h2⟩
  obtain ⟨locA, hrunA, hkA, heA, hgA, hLA⟩ := hA
  unfold advance_loc
  dsimp only
  rw [hrunA]
  dsimp only
  simp only [ne_eq, not_true_eq_false, if_false]
  obtain ⟨p, R, hpR, hrec, hback, hfw, hple, hRgt⟩ := locAt_gap hc hf.chain.sorted hLA
  rw [hkA] at hple hRgt
  have hsort := hf.chain.sorted
  rw [hpR] at hsort
  have hRpos : ∀ n ∈ R, 1 ≤ n.level := fun n hn =>
    hf.chain.level_pos n (by rw [hpR]; exact List.mem_append_right _ hn)
  have hRoff : ∀ n ∈ R, n.offset ≠ 0 := fun n hn =>
    hoffl n (by rw [hpR]; exact List.mem_append_right _ hn)
  by_cases hz : locA.forwardloc 0 = 0
  · rw [if_pos hz]
    have hR : R = [] := by
      apply nextAt_zero_nil hRoff hRpos
      rw [← hfw 0 (by simp [MAXLEVEL])]; exact hz
    subst hR
    have hf1 : FileOK E { db with loc := { locA with keybuf := [] } } live := hf.congr rfl rfl
    obtain ⟨loc1, hrun, hk1, he1, hg1, hL1⟩ := relocate_ok hc hf1
    refine ⟨loc1, hrun, he1, hg1, hL1, p, [], hpR, hple, hRgt, ?_, ?_⟩
    · intro _
      refine ⟨?_, hk1⟩
      obtain ⟨p1, S1, hpS1, _, _, hcase⟩ := hL1
      rcases hcase with ⟨_, m, S', hS, hmk, _⟩ | ⟨hne, _⟩
      · exfalso
        apply live_key_ne_nil hc hf.chain.sorted (n := m)
        · rw [hpS1, hS]; simp
        · rw [hmk, hk1]
      · exact hne
    · intro y R' h; cases h
  · rw [if_neg hz]
    cases R with
    | nil =>
      exfalso
      apply hz
      rw [hfw 0 (by simp [MAXLEVEL])]; rfl
    | cons y R' =>
      have hf1 : FileOK E { db with loc := locA } live := hf.congr rfl rfl
      obtain ⟨dy, hdy, hread, hrecy, hfl⟩ := step_next hf1 hpR
      have hfw0 : locA.forwardloc 0 = y.offset := by
        rw [hfw 0 (by simp [MAXLEVEL]), nextAt_zero_cons _ (hRpos y (by simp))]
      rw [hfw0, hread]
      simp only [ne_eq, not_true_eq_false, if_false]
      obtain ⟨F, hF, hFv⟩ := hfl { locA with
        backloc := fill_loop locA.record.offset locA.record.level 0 locA.backloc,
        record := dy } hfw
      rw [hF]
      simp only [ne_eq, not_true_eq_false, if_false, check_tailcrc]
      have hky : _key dy = y.key := hrecy.2.2.1
      refine ⟨_, rfl, heA, hgA, ?_, p, y :: R', hpR, hple, hRgt, ?_, ?_⟩
      · refine ⟨p, y :: R', hpR, ?_, hback, Or.inl ⟨rfl, y, R', rfl, hky.symm, hrecy, hFv⟩⟩
        simp only [hky]
        exact sorted_before hsort (by simp)
      · intro h; cases h
      · intro y1 R1 h
        simp only [List.cons.injEq] at h
        rw [← h.1]
        exact ⟨rfl, hky, hrecy⟩

/-! ## Appending and rewriting records -/

theorem dirty_or (f : Nat) : (f ||| DIRTY) &&& DIRTY ≠ 0 := by
  unfold DIRTY
  rw [Nat.and_one_is_mod]
  have : (f ||| 1).testBit 0 = true := by simp [Nat.testBit_or]
  rw [Nat.testBit_zero] at this
  simp only [decide_eq_true_eq] at this
  omega

theorem clear_dirty_and (f : Nat) : clear_dirty f &&& DIRTY = 0 := by
  unfold clear_dirty DIRTY
  rw [Nat.and_one_is_mod]
  have : (f &&& (4294967295 - 1)).testBit 0 = false := by
    rw [Nat.testBit_and]
    simp
  rw [Nat.testBit_zero] at this
  simp only [decide_eq_false_iff_not] at this
  omega

theorem filter_keep {l : List skiprecord} {e n : Nat}
    (h : ∀ d ∈ l, d.offset + d.len ≤ e) :
    l.filter (fun d => decide (d.offset + d.len ≤ e ∨ e + n ≤ d.offset)) = l := by
  rw [List.filter_eq_self]
  intro d hd
  simp [h d hd]

theorem write_record_ok {db : dbengine} {record : skiprecord} (key val : List Nat)
    (ho : record.offset = 0) (hl : record.level ≤ MAXLEVEL)
    (hb : ∀ d ∈ db.mf.recs, d.offset + d.len ≤ db.end_) (hs : db.mf.size = db.end_) :
    write_record db record key val =
      some (0, { db with
        mf := { db.mf with
          size := db.end_ + reclen record.level record.keylen record.vallen,
          recs := db.mf.recs ++ [disk_image db.end_ record key val] },
        end_ := db.end_ + reclen record.level record.keylen record.vallen },
        { disk_image db.end_ record key val with nextloc := record.nextloc }) := by
  unfold write_record
  have h1 : ¬ record.offset ≠ 0 := by simp [ho]
  have h2 : ¬ record.level > MAXLEVEL := by omega
  simp only [h1, h2, if_false, filter_keep hb, hs]
  have : max db.end_ (db.end_ + reclen record.level record.keylen record.vallen)
      = db.end_ + reclen record.level record.keylen record.vallen := by
    apply max_eq_right; omega
  rw [this]
  rfl

theorem dirtied_flags (db : dbengine) : (dirtied db).flags &&& DIRTY ≠ 0 := by
  unfold dirtied
  split
  · exact dirty_or _
  · assumption

theorem dirtied_other (db : dbengine) :
    (dirtied db).current_size = db.header.current_size ∧
    (dirtied db).version = db.header.version ∧
    (dirtied db).generation = db.header.generation ∧
    (dirtied db).num_records = db.header.num_records ∧
    (dirtied db).repack_size = db.header.repack_size := by
  unfold dirtied
  split <;> exact ⟨rfl, rfl, rfl, rfl, rfl⟩

theorem append_record_ok {db : dbengine} {record : skiprecord} (key val : List Nat)
    (ht : db.current_txn ≠ none)
    (ho : record.offset = 0) (hl : record.level ≤ MAXLEVEL)
    (hb : ∀ d ∈ db.mf.recs, d.offset + d.len ≤ db.end_) (hs : db.mf.size = db.end_)
    (h64 : HEADER_SIZE ≤ db.mf.size) :
    append_record db record key val =
      some (0, { db with
        header := dirtied db,
        mf := { db.mf with
          header := dirtied_mf db,
          size := db.end_ + reclen record.level record.keylen record.vallen,
          recs := db.mf.recs ++ [disk_image db.end_ record key val] },
        end_ := db.end_ + reclen record.level record.keylen record.vallen },
        { disk_image db.end_ record key val with nextloc := record.nextloc }) := by
  unfold append_record
  rw [if_neg ht]
  by_cases hd : db.header.flags &&& DIRTY = 0
  · rw [if_pos hd]
    simp only [commit_header, write_header, ne_eq, not_true_eq_false, if_false]
    have hmax : max db.mf.size HEADER_SIZE = db.mf.size := max_eq_left h64
    rw [write_record_ok key val ho hl (by simpa using hb)
      (by show max db.mf.size HEADER_SIZE = db.end_; rw [hmax, hs])]
    simp only [dirtied, dirtied_mf, hd, if_true, hmax]
  · rw [if_neg hd]
    rw [write_record_ok key val ho hl hb hs]
    simp only [dirtied, dirtied_mf, hd, if_false]

/-! ## `_setloc` and `stitch` -/

theorem setloc_static (db : dbengine) (r : skiprecord) (i v : Nat) :
    (_setloc db r i v).offset = r.offset ∧ (_setloc db r i v).level = r.level ∧
    (_setloc db r i v).type = r.type ∧ (_setloc db r i v).keylen = r.keylen ∧
    (_setloc db r i v).vallen = r.vallen ∧ (_setloc db r i v).key = r.key ∧
    (_setloc db r i v).val = r.val ∧ (_setloc db r i v).len = r.len ∧
    (_setloc db r i v).keyoffset = r.keyoffset ∧ (_setloc db r i v).valoffset = r.valoffset := by
  unfold _setloc
  split
  · exact ⟨rfl, rfl, rfl, rfl, rfl, rfl, rfl, rfl, rfl, rfl⟩
  · split
    · exact ⟨rfl, rfl, rfl, rfl, rfl, rfl, rfl, rfl, rfl, rfl⟩
    · split
      · exact ⟨rfl, rfl, rfl, rfl, rfl, rfl, rfl, rfl, rfl, rfl⟩
      · split <;> exact ⟨rfl, rfl, rfl, rfl, rfl, rfl, rfl, rfl, rfl, rfl⟩

theorem setloc_pos_nextloc (db : dbengine) (r : skiprecord) {i : Nat} (hi : i ≠ 0) (v j : Nat) :
    (_setloc db r i v).nextloc j = if j = i + 1 then v else r.nextloc j := by
  unfold _setloc
  rw [if_pos hi]
  simp only [Function.update_apply]

theorem setloc_zero_high (db : dbengine) (r : skiprecord) (v : Nat) {j : Nat} (hj : 2 ≤ j) :
    (_setloc db r 0 v).nextloc j = r.nextloc j := by
  unfold _setloc
  have h0 : j ≠ 0 := by omega
  have h1 : j ≠ 1 := by omega
  simp only [ne_eq, not_true_eq_false, if_false]
  split
  · simp [Function.update_noteq h0]
  · split
    · simp [Function.update_noteq h1]
    · split
      · simp [Function.update_noteq h0]
      · simp [Function.update_noteq h1]

theorem setloc_loop_static (db : dbengine) (cnt i : Nat) (r : skiprecord) :
    (setloc_loop db cnt i r).offset = r.offset ∧ (setloc_loop db cnt i r).level = r.level ∧
    (setloc_loop db cnt i r).type = r.type ∧ (setloc_loop db cnt i r).keylen = r.keylen ∧
    (setloc_loop db cnt i r).vallen = r.vallen := by
  induction cnt generalizing i r with
  | zero => exact ⟨rfl, rfl, rfl, rfl, rfl⟩
  | succ n ih =>
    simp only [setloc_loop]
    obtain ⟨h1, h2, h3, h4, h5⟩ := ih (i + 1) (_setloc db r i (db.loc.forwardloc i))
    obtain ⟨g1, g2, g3, g4, g5, _⟩ := setloc_static db r i (db.loc.forwardloc i)
    exact ⟨h1.trans g1, h2.trans g2, h3.trans g3, h4.trans g4, h5.trans g5⟩

theorem setloc_loop_high (db : dbengine) (cnt i : Nat) (r : skiprecord) {j : Nat} (hj : 2 ≤ j) :
    (setloc_loop db cnt i r).nextloc j =
      if i ≤ j - 1 ∧ j - 1 < i + cnt then db.loc.forwardloc (j - 1) else r.nextloc j := by
  induction cnt generalizing i r with
  | zero =>
    simp only [setloc_loop]
    rw [if_neg (by omega)]
  | succ n ih =>
    simp only [setloc_loop]
    rw [ih]
    by_cases h1 : i + 1 ≤ j - 1 ∧ j - 1 < i + 1 + n
    · rw [if_pos h1, if_pos (by omega)]
    · rw [if_neg h1]
      by_cases h2 : j - 1 = i
      · rw [if_pos (by omega)]
        by_cases hi : i = 0
        · omega
        · rw [setloc_pos_nextloc db r hi, if_pos (by omega), h2]
      · rw [if_neg (by omega)]
        by_cases hi : i = 0
        · subst hi; exact setloc_zero_high db r _ hj
        · rw [setloc_pos_nextloc db r hi, if_neg (by omega)]

theorem setloc_loop_low (db : dbengine) (cnt i : Nat) (r : skiprecord) {j : Nat} (hj : j ≤ 1) :
    (setloc_loop db cnt i r).nextloc j =
      if i = 0 ∧ 0 < cnt then (_setloc db r 0 (db.loc.forwardloc 0)).nextloc j
      else r.nextloc j := by
  induction cnt generalizing i r with
  | zero =>
    simp only [setloc_loop]
    rw [if_neg (by omega)]
  | succ n ih =>
    simp only [setloc_loop]
    rw [ih, if_neg (by omega)]
    by_cases hi : i = 0
    · subst hi
      rw [if_pos (by omega)]
    · rw [if_neg (by omega), setloc_pos_nextloc db r hi, if_neg (by omega)]

theorem rewrite_record_ok {db : dbengine} (hd : db.header.flags &&& DIRTY ≠ 0) {r : skiprecord}
    (ho : r.offset ≠ 0) (hl : r.level ≤ MAXLEVEL)
    (hsz : r.offset + (headlen r.keylen r.vallen + 8 * (1 + r.level) + 8) ≤ db.mf.size) :
    rewrite_record db r = some (0, { db with mf := { db.mf with
      recs := db.mf.recs.map (fun d =>
        if d.offset = r.offset then
          { d with type := r.type, level := r.level, keylen := r.keylen, vallen := r.vallen,
                   nextloc := diskptrs r.level r.nextloc }
        else d) } }) := by
  unfold rewrite_record
  rw [if_neg hd, if_neg ho, if_neg (by omega)]
  simp only [max_eq_left hsz]

theorem stitch_rec_static (db : dbengine) (upto : Nat) (e : skiprecord) :
    (stitch_rec db upto e).offset = e.offset ∧ (stitch_rec db upto e).level = e.level ∧
    (stitch_rec db upto e).type = e.type ∧ (stitch_rec db upto e).keylen = e.keylen ∧
    (stitch_rec db upto e).vallen = e.vallen ∧ (stitch_rec db upto e).key = e.key ∧
    (stitch_rec db upto e).val = e.val ∧ (stitch_rec db upto e).len = e.len ∧
    (stitch_rec db upto e).keyoffset = e.keyoffset ∧
    (stitch_rec db upto e).valoffset = e.valoffset :=
  ⟨rfl, rfl, rfl, rfl, rfl, rfl, rfl, rfl, rfl, rfl⟩

theorem stitch_rec_eq_of_nextloc {db : dbengine} {upto : Nat} {e r : skiprecord}
    (h1 : r.offset = e.offset) (h2 : r.len = e.len) (h3 : r.type = e.type)
    (h4 : r.level = e.level) (h5 : r.keylen = e.keylen) (h6 : r.vallen = e.vallen)
    (h7 : r.keyoffset = e.keyoffset) (h8 : r.valoffset = e.valoffset)
    (h9 : r.key = e.key) (h10 : r.val = e.val)
    (hn : ∀ j, r.nextloc j = (stitch_rec db upto e).nextloc j) : r = stitch_rec db upto e := by
  have hf : r.nextloc = (stitch_rec db upto e).nextloc := funext hn
  cases r
  cases e
  simp only [stitch_rec] at hf ⊢
  simp only at h1 h2 h3 h4 h5 h6 h7 h8 h9 h10
  subst h1 h2 h3 h4 h5 h6 h7 h8 h9 h10
  simp only [skiprecord.mk.injEq, true_and, and_true]
  exact hf

theorem stitch_rec_congr {db : dbengine} {u1 u2 : Nat} {e : skiprecord}
    (h : ∀ i, (i < u1 ↔ i < u2) ∨ db.loc.backloc i ≠ e.offset) :
    stitch_rec db u1 e = stitch_rec db u2 e := by
  apply stitch_rec_eq_of_nextloc (r := stitch_rec db u1 e) (e := e)
    rfl rfl rfl rfl rfl rfl rfl rfl rfl rfl
  intro j
  simp only [stitch_rec]
  by_cases hj : j ≤ 1
  · simp only [hj, if_true]
    by_cases hb : db.loc.backloc 0 = e.offset
    · have hiff : 0 < u1 ↔ 0 < u2 := by
        rcases h 0 with h1 | h1
        · exact h1
        · exact absurd hb h1
      simp only [hb, hiff]
    · simp only [hb, false_and, and_false, if_false]
  · simp only [hj, if_false]
    by_cases hb : db.loc.backloc (j - 1) = e.offset
    · have hiff : j - 1 < u1 ↔ j - 1 < u2 := by
        rcases h (j - 1) with h1 | h1
        · exact h1
        · exact absurd hb h1
      simp only [hb, hiff]
    · simp only [hb, false_and, and_false, if_false]

theorem stitch_rec_zero (db : dbengine) (e : skiprecord) : stitch_rec db 0 e = e := by
  symm
  apply stitch_rec_eq_of_nextloc rfl rfl rfl rfl rfl rfl rfl rfl rfl rfl
  intro j
  simp only [stitch_rec]
  by_cases hj : j ≤ 1
  · simp [hj]
  · simp [hj]

theorem stitched_mfok {db : dbengine} (hm : MfOK db.mf) (upto : Nat) :
    MfOK (stitched db upto).mf := by
  refine ⟨?_, ?_, ?_⟩
  · have : (stitched db upto).mf.recs.map skiprecord.offset = db.mf.recs.map skiprecord.offset := by
      simp only [stitched, List.map_map]
      apply List.map_congr_left
      intro e _
      rfl
    rw [this]; exact hm.nodup
  · intro d hd
    simp only [stitched, List.mem_map] at hd
    obtain ⟨e, he, rfl⟩ := hd
    have hN := hm.norm e he
    refine ⟨hN.level_le, hN.len_eq, hN.keylen_eq, hN.vallen_eq, hN.keyoffset_eq, hN.valoffset_eq, ?_⟩
    intro j hj
    have hj' : e.level < j := hj
    simp only [stitch_rec]
    by_cases h1 : j ≤ 1
    · have : ¬ (0 < upto ∧ db.loc.backloc 0 = e.offset ∧ 1 ≤ e.level) := by omega
      simp only [h1, if_true, this, if_false]
      exact hN.ptrs j hj'
    · have : ¬ (j - 1 < upto ∧ db.loc.backloc (j - 1) = e.offset ∧ j ≤ e.level) := by omega
      simp only [h1, if_false, this]
      exact hN.ptrs j hj'
  · intro d hd
    simp only [stitched, List.mem_map] at hd
    obtain ⟨e, he, rfl⟩ := hd
    exact hm.bound e he

theorem stitch_loop_ok {db : dbengine} {maxlevel : Nat} (H : StitchH db maxlevel) (fuel : Nat) :
    ∀ l, maxlevel - l ≤ fuel →
      (∀ i, i < l → i < maxlevel → ∀ B ∈ db.mf.recs, B.offset = db.loc.backloc i → B.level ≤ l) →
      stitch_loop maxlevel fuel l (stitched db (min l maxlevel)) =
        some (0, stitched db maxlevel) := by
  induction fuel with
  | zero =>
    intro l hf _
    have : ¬ l < maxlevel := by omega
    simp only [stitch_loop, this, if_false]
    rw [min_eq_right (by omega)]
  | succ fuel ih =>
    intro l hf hinv
    by_cases hl : l < maxlevel
    · simp only [stitch_loop, hl, if_true]
      rw [min_eq_left (le_of_lt hl)]
      obtain ⟨B, hB, hBo, hBl, hblock⟩ := H.back l hl
      have hBself : stitch_rec db l B = B := by
        refine Eq.trans ?_ (stitch_rec_zero db B)
        apply stitch_rec_congr
        intro i
        by_cases hi : i < l
        · right
          intro hb
          have := hinv i hi (by omega) B hB hb.symm
          omega
        · left; omega
      have hBmem : B ∈ (stitched db l).mf.recs := by
        simp only [stitched, List.mem_map]
        exact ⟨B, hB, hBself⟩
      have hmS := stitched_mfok H.mf l
      have hread : read_record (stitched db l) ((stitched db l).loc.backloc l) = some (0, B) := by
        have : (stitched db l).loc.backloc l = B.offset := hBo.symm
        rw [this]
        exact read_record_of_mem hmS hBmem
      rw [hread]
      simp only [ne_eq, not_true_eq_false, if_false]
      obtain ⟨s1, s2, s3, s4, s5⟩ :=
        setloc_loop_static (stitched db l) (maxlevel - l) l B
      have hNB := H.mf.norm B hB
      have hbB := H.mf.bound B hB
      have hrw := @rewrite_record_ok (stitched db l) H.dirty
        (setloc_loop (stitched db l) (maxlevel - l) l B)
        (by rw [s1]; have := hbB.1; unfold HEADER_SIZE at this; omega)
        (by rw [s2]; exact hNB.level_le)
        (by
          rw [s1, s2, s4, s5]
          have h1 := hbB.2
          rw [hNB.len_eq] at h1
          unfold reclen at h1
          show _ ≤ db.mf.size
          omega)
      rw [hrw]
      simp only [ne_eq, not_true_eq_false, if_false]
      have hnext : ∀ i, i < B.level → i < maxlevel → ∀ B' ∈ db.mf.recs,
          B'.offset = db.loc.backloc i → B'.level ≤ B.level := by
        intro i hi1 hi2 B' hB' hB'o
        by_cases hil : i < l
        · have := hinv i hil hi2 B' hB' hB'o
          omega
        · have h1 := hblock i (by omega) hi1 hi2
          have : B' = B := mem_offset_inj H.mf hB' hB (by rw [hB'o, h1])
          rw [this]
      have hlow : ∀ j, j ≤ 1 → (setloc_loop (stitched db l) (maxlevel - l) l B).nextloc j =
          if l = 0 ∧ 0 < maxlevel - l then (_setloc db B 0 (db.loc.forwardloc 0)).nextloc j
          else B.nextloc j := fun j hj => setloc_loop_low (stitched db l) _ _ _ hj
      have hhigh : ∀ j, 2 ≤ j → (setloc_loop (stitched db l) (maxlevel - l) l B).nextloc j =
          if l ≤ j - 1 ∧ j - 1 < l + (maxlevel - l) then db.loc.forwardloc (j - 1)
          else B.nextloc j := fun j hj => setloc_loop_high (stitched db l) _ _ _ hj
      generalize setloc_loop (stitched db l) (maxlevel - l) l B = R at s1 s2 s3 s4 s5 hlow hhigh
      have hrecs : (stitched db l).mf.recs.map (fun d =>
            if d.offset = R.offset then
              { d with type := R.type, level := R.level, keylen := R.keylen, vallen := R.vallen,
                       nextloc := diskptrs R.level R.nextloc }
            else d) = db.mf.recs.map (stitch_rec db (min B.level maxlevel)) := by
        show (db.mf.recs.map (stitch_rec db l)).map _ = _
        rw [List.map_map]
        apply List.map_congr_left
        intro e he
        simp only [Function.comp]
        rw [s1, s2, s3, s4, s5]
        by_cases heo : e.offset = B.offset
        · have heB : e = B := mem_offset_inj H.mf he hB heo
          subst heB
          have hc : (stitch_rec db l e).offset = e.offset := rfl
          rw [if_pos hc, hBself]
          refine stitch_rec_eq_of_nextloc ?_ ?_ ?_ ?_ ?_ ?_ ?_ ?_ ?_ ?_ ?_
          iterate 10 rfl
          intro j
          simp only [diskptrs, stitch_rec]
          by_cases hjl : j ≤ e.level
          · rw [if_pos hjl]
            by_cases hj1 : j ≤ 1
            · rw [hlow j hj1, if_pos hj1]
              by_cases hl0 : l = 0
              · subst hl0
                have c1 : (0 = 0 ∧ 0 < maxlevel - 0) := by omega
                have c2 : (0 < min e.level maxlevel ∧ db.loc.backloc 0 = e.offset ∧ 1 ≤ e.level) :=
                  ⟨by omega, hBo.symm, by omega⟩
                rw [if_pos c1, if_pos c2]
              · have c1 : ¬ (l = 0 ∧ 0 < maxlevel - l) := by omega
                have c2 : ¬ (0 < min e.level maxlevel ∧ db.loc.backloc 0 = e.offset ∧ 1 ≤ e.level) := by
                  intro hc
                  have := hinv 0 (by omega) (by omega) e he hc.2.1.symm
                  omega
                rw [if_neg c1, if_neg c2]
            · have hj2 : 2 ≤ j := by omega
              rw [hhigh j hj2, if_neg hj1]
              by_cases hc1 : l ≤ j - 1 ∧ j - 1 < l + (maxlevel - l)
              · have c2 : j - 1 < min e.level maxlevel ∧ db.loc.backloc (j - 1) = e.offset ∧ j ≤ e.level :=
                  ⟨by omega, hblock (j - 1) hc1.1 (by omega) (by omega), hjl⟩
                rw [if_pos hc1, if_pos c2]
              · have c2 : ¬ (j - 1 < min e.level maxlevel ∧ db.loc.backloc (j - 1) = e.offset ∧ j ≤ e.level) := by
                  intro hc
                  have hlt : j - 1 < l := by omega
                  have := hinv (j - 1) hlt (by omega) e he hc.2.1.symm
                  omega
                rw [if_neg hc1, if_neg c2]
          · rw [if_neg hjl]
            have hz := hNB.ptrs j (by omega)
            by_cases hj1 : j ≤ 1
            · have c2 : ¬ (0 < min e.level maxlevel ∧ db.loc.backloc 0 = e.offset ∧ 1 ≤ e.level) := by
                omega
              rw [if_pos hj1, if_neg c2, hz]
            · have c2 : ¬ (j - 1 < min e.level maxlevel ∧ db.loc.backloc (j - 1) = e.offset ∧ j ≤ e.level) := by
                omega
              rw [if_neg hj1, if_neg c2, hz]
        · have hc : ¬ (stitch_rec db l e).offset = B.offset := heo
          rw [if_neg hc]
          apply stitch_rec_congr
          intro i
          by_cases hi : l ≤ i ∧ i < min B.level maxlevel
          · right
            rw [hblock i hi.1 (by omega) (by omega)]
            exact fun h => heo h.symm
          · left; omega
      rw [hrecs, s2]
      exact ih B.level (by omega) hnext
    · simp only [stitch_loop, hl, if_false]
      rw [min_eq_right (by omega)]

theorem stitch_ok {db : dbengine} {maxlevel : Nat} (H : StitchH db maxlevel) :
    stitch db maxlevel = some (0, stitched db maxlevel) := by
  unfold stitch
  have h0 : stitched db (min 0 maxlevel) = db := by
    simp only [Nat.zero_min, stitched]
    have : db.mf.recs.map (stitch_rec db 0) = db.mf.recs := by
      rw [List.map_congr_left (fun e _ => stitch_rec_zero db e)]
      simp
    rw [this]
  have := stitch_loop_ok H (maxlevel + 1) 0 (by omega) (fun i hi => by omega)
  rw [h0] at this
  exact this

/-! ## Splicing the chain -/

theorem stitch_rec_self {db : dbengine} {upto : Nat} {e : skiprecord}
    (h : ∀ i, i < upto → db.loc.backloc i ≠ e.offset) : stitch_rec db upto e = e := by
  refine Eq.trans ?_ (stitch_rec_zero db e)
  apply stitch_rec_congr
  intro i
  by_cases hi : i < upto
  · right; exact h i hi
  · left; omega

theorem succ0_mono {recs recs1 : List skiprecord} {d : skiprecord} {t : Nat}
    (h : Succ0 recs d t) (hsub : ∀ e ∈ recs, e ∈ recs1) : Succ0 recs1 d t := by
  rcases h with h | ⟨e, he, h1, h2, h3⟩
  · exact Or.inl h
  · exact Or.inr ⟨e, hsub e he, h1, h2, h3⟩

theorem nodeAt_mono {recs recs1 : List skiprecord} {n : node} {rest : List node}
    (h : NodeAt recs n rest) (hsub : ∀ e ∈ recs, e ∈ recs1) : NodeAt recs1 n rest := by
  obtain ⟨d, hd, h1, h2, h3, h4, h5, h6, h7⟩ := h
  exact ⟨d, hsub d hd, h1, h2, h3, h4, h5, succ0_mono h6 hsub, h7⟩

theorem linked_mono {recs recs1 : List skiprecord} {c : List node}
    (h : Linked recs c) (hsub : ∀ e ∈ recs, e ∈ recs1) : Linked recs1 c := by
  induction c with
  | nil => trivial
  | cons x t ih => exact ⟨nodeAt_mono h.1 hsub, ih h.2⟩

/-- The level zero successor survives `stitch` when the slots of the record
are untouched. -/
theorem succ0_stitched {db : dbengine} {upto : Nat} {d d1 : skiprecord} {t : Nat}
    (h : Succ0 db.mf.recs d t)
    (hdel : ∀ e ∈ db.mf.recs, e.type = DELETE → ∀ i, i < upto → db.loc.backloc i ≠ e.offset)
    (h0 : d1.nextloc 0 = d.nextloc 0) (h1 : d1.nextloc 1 = d.nextloc 1) :
    Succ0 (db.mf.recs.map (stitch_rec db upto)) d1 t := by
  unfold Succ0
  rw [h0, h1]
  rcases h with h | ⟨e, he, e1, e2, e3⟩
  · exact Or.inl h
  · right
    refine ⟨stitch_rec db upto e, List.mem_map_of_mem _ he, e1, e2, ?_⟩
    rcases e3 with ⟨ht, hv⟩ | ⟨ht, hv⟩
    · left
      rw [stitch_rec_self (hdel e he ht)]
      exact ⟨ht, hv⟩
    · right
      exact ⟨ht, hv⟩

theorem nodeAt_stitched {db : dbengine} {upto : Nat} {n : node} {rest : List node}
    (h : NodeAt db.mf.recs n rest)
    (hdel : ∀ e ∈ db.mf.recs, e.type = DELETE → ∀ i, i < upto → db.loc.backloc i ≠ e.offset)
    (hn : ∀ i, i < upto → db.loc.backloc i ≠ n.offset) :
    NodeAt (db.mf.recs.map (stitch_rec db upto)) n rest := by
  obtain ⟨d, hd, h1, h2, h3, h4, h5, h6, h7⟩ := h
  have hself : stitch_rec db upto d = d := stitch_rec_self (by rw [h1]; exact hn)
  refine ⟨d, ?_, h1, h2, h3, h4, h5, succ0_stitched h6 hdel rfl rfl, h7⟩
  rw [← hself]
  exact List.mem_map_of_mem _ hd

theorem linked_stitched {db : dbengine} {upto : Nat} {c : List node}
    (h : Linked db.mf.recs c)
    (hdel : ∀ e ∈ db.mf.recs, e.type = DELETE → ∀ i, i < upto → db.loc.backloc i ≠ e.offset)
    (hn : ∀ n ∈ c, ∀ i, i < upto → db.loc.backloc i ≠ n.offset) :
    Linked (db.mf.recs.map (stitch_rec db upto)) c := by
  induction c with
  | nil => trivial
  | cons x t ih =>
    exact ⟨nodeAt_stitched h.1 hdel (hn x (List.mem_cons_self _ _)),
      ih h.2 (fun n hn1 => hn n (List.mem_cons_of_mem _ hn1))⟩

theorem linked_append {recs : List skiprecord} {P T : List node}
    (hP : ∀ pre n mid, P = pre ++ n :: mid → NodeAt recs n (mid ++ T))
    (hT : Linked recs T) : Linked recs (P ++ T) := by
  induction P with
  | nil => exact hT
  | cons x t ih =>
    refine ⟨hP [] x t rfl, ih ?_⟩
    intro pre n mid e
    exact hP (x :: pre) n mid (by rw [e]; rfl)

theorem nextAt_mem {i : Nat} {r : List node} (hr : ∃ m ∈ r, i < m.level) :
    ∃ m ∈ r, i < m.level ∧ nextAt i r = m.offset := by
  induction r with
  | nil => obtain ⟨m, hm, _⟩ := hr; cases hm
  | cons x t ih =>
    by_cases hx : i < x.level
    · exact ⟨x, List.mem_cons_self _ _, hx, by simp [nextAt, hx]⟩
    · obtain ⟨m, hm, hl⟩ := hr
      rcases List.mem_cons.1 hm with e | e
      · subst e; exact absurd hl hx
      · obtain ⟨m1, hm1, hl1, hv⟩ := ih ⟨m, e, hl⟩
        exact ⟨m1, List.mem_cons_of_mem _ hm1, hl1, by simp [nextAt, hx, hv]⟩

/-- `lastAt` is the offset of a node of the list when one has the level. -/
theorem lastAt_mem {i : Nat} {l : List node} (h : ∃ m ∈ l, i < m.level) :
    ∃ m ∈ l, i < m.level ∧ lastAt i l = m.offset := by
  have hr : ∃ m ∈ l.reverse, i < m.level := by
    obtain ⟨m, hm, hl⟩ := h
    exact ⟨m, List.mem_reverse.2 hm, hl⟩
  obtain ⟨m, hm, hl, hv⟩ := nextAt_mem hr
  exact ⟨m, List.mem_reverse.1 hm, hl, hv⟩

/-- Two nodes of a sorted chain at different places are at different offsets. -/
theorem chain_offset_ne {E : Env} (hc : CompareLaws E.compar) {mf : mappedfile} (hm : MfOK mf)
    {c : List node} (hl : Linked mf.recs c)
    (hs : c.Pairwise (fun a b => E.compar a.key b.key < 0))
    {a : List node} {x : node} {b : List node} (e : c = a ++ x :: b)
    {y : node} (hy : y ∈ b) : x.offset ≠ y.offset := by
  intro heq
  obtain ⟨d, hd, h1, _, h3, _⟩ := linked_split hl e
  have hyc : y ∈ c := by rw [e]; simp [hy]
  have k := (node_key hm hl hyc hd (by rw [h1, heq])).1
  rw [e] at hs
  have h2 := (List.pairwise_append.1 hs).2.1
  have h4 := (List.pairwise_cons.1 h2).1 y hy
  rw [← h3, k] at h4
  exact hc.irrefl _ h4

theorem setloc_zero_max (db : dbengine) (d : skiprecord) (z : Nat)
    (h0 : d.nextloc 0 < z) (h1 : d.nextloc 1 < z) :
    max ((_setloc db d 0 z).nextloc 0) ((_setloc db d 0 z).nextloc 1) = z := by
  unfold _setloc
  simp only [ne_eq, not_true_eq_false, if_false]
  split
  · simp only [Function.update_same, Function.update_noteq (show (1:Nat) ≠ 0 by omega)]
    exact max_eq_left (by omega)
  · split
    · simp only [Function.update_same, Function.update_noteq (show (0:Nat) ≠ 1 by omega)]
      exact max_eq_right (by omega)
    · split
      · simp only [Function.update_same, Function.update_noteq (show (1:Nat) ≠ 0 by omega)]
        exact max_eq_left (by omega)
      · simp only [Function.update_same, Function.update_noteq (show (0:Nat) ≠ 1 by omega)]
        exact max_eq_right (by omega)

/-- The nodes before the place of the change, after `stitch`: their
pointers lead over the new records `T`. -/
theorem splice_prefix {E : Env} (hc : CompareLaws E.compar) {db : dbengine} {maxlevel : Nat}
    {p Sold T : List node} (hm : MfOK db.mf)
    (hlink : Linked db.mf.recs (dummyNode :: (p ++ Sold)))
    (hsort : (dummyNode :: (p ++ Sold)).Pairwise (fun a b => E.compar a.key b.key < 0))
    (hpos : ∀ n ∈ p, 1 ≤ n.level)
    (hback : ∀ i, i < MAXLEVEL → db.loc.backloc i = lastAt i (dummyNode :: p))
    (hmax1 : 1 ≤ maxlevel) (hmax2 : maxlevel ≤ MAXLEVEL)
    (hdel : ∀ e ∈ db.mf.recs, e.type = DELETE → ∀ i, i < maxlevel → db.loc.backloc i ≠ e.offset)
    (hR1 : ∀ i, 1 ≤ i → i < MAXLEVEL →
      (if i < maxlevel then db.loc.forwardloc i else nextAt i Sold) = nextAt i T)
    (hR0 : ∃ e ∈ db.mf.recs, e.offset = db.loc.forwardloc 0 ∧ e.offset ≠ 0 ∧
      ((e.type = DELETE ∧ nextAt 0 T = e.nextloc 0) ∨ (e.type ≠ DELETE ∧ nextAt 0 T = e.offset)))
    (hnew : ∀ n ∈ dummyNode :: p, ∀ d ∈ db.mf.recs, d.offset = n.offset →
      d.nextloc 0 < db.loc.forwardloc 0 ∧ d.nextloc 1 < db.loc.forwardloc 0) :
    ∀ pre n mid, dummyNode :: p = pre ++ n :: mid →
      NodeAt (db.mf.recs.map (stitch_rec db maxlevel)) n (mid ++ T) := by
  intro pre n mid hP
  have hc1 : dummyNode :: (p ++ Sold) = pre ++ n :: (mid ++ Sold) := by
    have : dummyNode :: (p ++ Sold) = (dummyNode :: p) ++ Sold := rfl
    rw [this, hP]; simp
  have hnode := linked_split hlink hc1
  obtain ⟨d, hd, h1, h2, h3, h4, h5, h6, h7⟩ := hnode
  have hnmem : n ∈ dummyNode :: p := by rw [hP]; simp
  have hmidp : ∀ m ∈ mid, m ∈ p := by
    intro m hmm
    cases pre with
    | nil =>
      simp only [List.nil_append, List.cons.injEq] at hP
      rw [hP.2]; exact hmm
    | cons z pre2 =>
      simp only [List.cons_append, List.cons.injEq] at hP
      rw [hP.2]; simp [hmm]
  have hmidpos : ∀ m ∈ mid, 1 ≤ m.level := fun m hmm => hpos m (hmidp m hmm)
  have hne : ∀ m ∈ mid, n.offset ≠ m.offset := by
    intro m hmm
    exact chain_offset_ne hc hm hlink hsort hc1 (List.mem_append_left _ hmm)
  have hnl : n.level ≤ MAXLEVEL :=
    linked_level_le hm hlink n (by rw [hc1]; simp)
  refine ⟨stitch_rec db maxlevel d, List.mem_map_of_mem _ hd, h1, h2, h3, h4, h5, ?_, ?_⟩
  · -- level zero
    cases mid with
    | nil =>
      have hb0 : db.loc.backloc 0 = d.offset := by
        rw [hback 0 (by simp [MAXLEVEL]), hP, h1]
        have hn0 : 0 < n.level := by
          cases pre with
          | nil =>
            simp only [List.nil_append, List.cons.injEq] at hP
            rw [← hP.1]; simp [dummyNode, MAXLEVEL]
          | cons z pre2 =>
            simp only [List.cons_append, List.cons.injEq] at hP
            have := hpos n (by rw [hP.2]; simp)
            omega
        exact lastAt_mid pre n hn0 (by simp)
      have hd1 : 1 ≤ d.level := by
        rw [h2]
        cases pre with
        | nil =>
          simp only [List.nil_append, List.cons.injEq] at hP
          rw [← hP.1]; simp [dummyNode, MAXLEVEL]
        | cons z pre2 =>
          simp only [List.cons_append, List.cons.injEq] at hP
          exact hpos n (by rw [hP.2]; simp)
      obtain ⟨g0, g1⟩ := hnew n hnmem d hd h1
      have hs0 : (stitch_rec db maxlevel d).nextloc 0 =
          (_setloc db d 0 (db.loc.forwardloc 0)).nextloc 0 := by
        simp only [stitch_rec]
        rw [if_pos (by omega), if_pos ⟨by omega, hb0, hd1⟩]
      have hs1 : (stitch_rec db maxlevel d).nextloc 1 =
          (_setloc db d 0 (db.loc.forwardloc 0)).nextloc 1 := by
        simp only [stitch_rec]
        rw [if_pos (by omega), if_pos ⟨by omega, hb0, hd1⟩]
      obtain ⟨e, he, e1, e2, e3⟩ := hR0
      unfold Succ0
      rw [hs0, hs1, setloc_zero_max db d _ g0 g1]
      right
      refine ⟨stitch_rec db maxlevel e, List.mem_map_of_mem _ he, e1, e2, ?_⟩
      simp only [List.nil_append]
      rcases e3 with ⟨ht, hv⟩ | ⟨ht, hv⟩
      · left
        rw [stitch_rec_self (hdel e he ht)]
        exact ⟨ht, hv⟩
      · right
        exact ⟨ht, hv⟩
    | cons m mid2 =>
      have hb0 : ¬ (0 < maxlevel ∧ db.loc.backloc 0 = d.offset ∧ 1 ≤ d.level) := by
        intro hcon
        obtain ⟨m1, hm1, _, hv⟩ := lastAt_mem (i := 0) (l := m :: mid2)
          ⟨m, List.mem_cons_self _ _, by have := hmidpos m (List.mem_cons_self _ _); omega⟩
        have hall : ∃ m2 ∈ m :: mid2, 0 < m2.level := ⟨m1, hm1, by
          have := hmidpos m1 hm1; omega⟩
        have hl : lastAt 0 (dummyNode :: p) = m1.offset := by
          rw [hP]
          have : pre ++ n :: m :: mid2 = (pre ++ [n]) ++ (m :: mid2) := by simp
          rw [this]
          unfold lastAt at hv ⊢
          rw [List.reverse_append, nextAt_append_of_mem, hv]
          obtain ⟨m2, hm2, hl2⟩ := hall
          exact ⟨m2, List.mem_reverse.2 hm2, hl2⟩
        rw [hback 0 (by simp [MAXLEVEL]), hl, h1] at hcon
        exact hne m1 hm1 hcon.2.1.symm
      have hs0 : (stitch_rec db maxlevel d).nextloc 0 = d.nextloc 0 := by
        simp only [stitch_rec]
        rw [if_pos (by omega), if_neg hb0]
      have hs1 : (stitch_rec db maxlevel d).nextloc 1 = d.nextloc 1 := by
        simp only [stitch_rec]
        rw [if_pos (by omega), if_neg hb0]
      have hm0 : 0 < m.level := by have := hmidpos m (List.mem_cons_self _ _); omega
      have ht : nextAt 0 (m :: mid2 ++ T) = nextAt 0 (m :: mid2 ++ Sold) := by
        simp [nextAt, hm0]
      rw [ht]
      exact succ0_stitched h6 hdel hs0 hs1
  · -- the levels above
    intro i hi1 hi2
    have hiM : i < MAXLEVEL := by omega
    have hval : (stitch_rec db maxlevel d).nextloc (i + 1) =
        if i < maxlevel ∧ db.loc.backloc i = d.offset ∧ i + 1 ≤ d.level then db.loc.forwardloc i
        else d.nextloc (i + 1) := by
      simp only [stitch_rec]
      rw [if_neg (by omega)]
      simp only [Nat.add_sub_cancel]
    rw [hval, h7 i hi1 hi2]
    by_cases hmid : ∃ m ∈ mid, i < m.level
    · obtain ⟨m1, hm1, _, hv⟩ := lastAt_mem hmid
      have hl : lastAt i (dummyNode :: p) = m1.offset := by
        rw [hP]
        have : pre ++ n :: mid = (pre ++ [n]) ++ mid := by simp
        rw [this]
        unfold lastAt at hv ⊢
        rw [List.reverse_append, nextAt_append_of_mem, hv]
        obtain ⟨m2, hm2, hl2⟩ := hmid
        exact ⟨m2, List.mem_reverse.2 hm2, hl2⟩
      have hb : ¬ (i < maxlevel ∧ db.loc.backloc i = d.offset ∧ i + 1 ≤ d.level) := by
        intro hcon
        rw [hback i hiM, hl, h1] at hcon
        exact hne m1 hm1 hcon.2.1.symm
      rw [if_neg hb, nextAt_append_of_mem hmid, nextAt_append_of_mem hmid]
    · have hle : ∀ m ∈ mid, m.level ≤ i := by
        intro m hmm
        by_contra hcon
        exact hmid ⟨m, hmm, by omega⟩
      have hb : db.loc.backloc i = d.offset := by
        rw [hback i hiM, hP, h1]
        exact lastAt_mid pre n hi2 hle
      rw [nextAt_append_le hle, nextAt_append_le hle]
      have := hR1 i hi1 hiM
      by_cases him : i < maxlevel
      · rw [if_pos ⟨him, hb, by omega⟩]
        rw [if_pos him] at this
        exact this
      · rw [if_neg (by omega)]
        rw [if_neg him] at this
        exact this

/-! ## The back locations are records of the chain -/

theorem lastAt_split {i : Nat} {l : List node} (h : ∃ m ∈ l, i < m.level) :
    ∃ a y b, l = a ++ y :: b ∧ (∀ n ∈ b, n.level ≤ i) ∧ i < y.level ∧ lastAt i l = y.offset := by
  induction l using List.reverseRecOn with
  | nil => obtain ⟨m, hm, _⟩ := h; cases hm
  | append_singleton l x ih =>
    by_cases hx : i < x.level
    · exact ⟨l, x, [], rfl, by simp, hx, by rw [lastAt_append_single, if_pos hx]⟩
    · have h1 : ∃ m ∈ l, i < m.level := by
        obtain ⟨m, hm, hl⟩ := h
        rcases List.mem_append.1 hm with e | e
        · exact ⟨m, e, hl⟩
        · simp only [List.mem_singleton] at e
          subst e; exact absurd hl hx
      obtain ⟨a, y, b, e, hb, hy, hv⟩ := ih h1
      refine ⟨a, y, b ++ [x], by rw [e]; simp, ?_, hy, ?_⟩
      · intro n hn
        rcases List.mem_append.1 hn with e1 | e1
        · exact hb n e1
        · simp only [List.mem_singleton] at e1
          subst e1; omega
      · rw [lastAt_append_single, if_neg hx, hv]

theorem dummy_split {i : Nat} (hi : i < MAXLEVEL) (p : List node) :
    ∃ a y b, dummyNode :: p = a ++ y :: b ∧ (∀ n ∈ b, n.level ≤ i) ∧ i < y.level ∧
      lastAt i (dummyNode :: p) = y.offset :=
  lastAt_split ⟨dummyNode, List.mem_cons_self _ _, hi⟩

/-- The back locations of a position in the chain satisfy what `stitch`
needs. -/
theorem stitchH_of_back {db : dbengine} {maxlevel : Nat} {p R : List node}
    (hd : db.header.flags &&& DIRTY ≠ 0) (hm : MfOK db.mf) (hmax : maxlevel ≤ MAXLEVEL)
    (hlink : Linked db.mf.recs (dummyNode :: (p ++ R)))
    (hback : ∀ i, i < MAXLEVEL → db.loc.backloc i = lastAt i (dummyNode :: p)) :
    StitchH db maxlevel := by
  refine ⟨hd, hm, hmax, ?_⟩
  intro i hi
  obtain ⟨a, y, b, e, hb, hy, hv⟩ := dummy_split (show i < MAXLEVEL by omega) p
  have e1 : dummyNode :: (p ++ R) = a ++ y :: (b ++ R) := by
    have : dummyNode :: (p ++ R) = (dummyNode :: p) ++ R := rfl
    rw [this, e]; simp
  obtain ⟨B, hB, h1, h2, _⟩ := linked_split hlink e1
  refine ⟨B, hB, ?_, by rw [h2]; exact hy, ?_⟩
  · rw [hback i (by omega), hv, h1]
  · intro j hij hj hjm
    rw [hback j (by omega), e, h1]
    exact lastAt_mid a y (by rw [← h2]; exact hj) (fun n hn => by have := hb n hn; omega)

/-- No back location is a delete record or a record after the place. -/
theorem back_not {E : Env} (hc : CompareLaws E.compar) {db : dbengine} {p R : List node}
    (hm : MfOK db.mf)
    (hlink : Linked db.mf.recs (dummyNode :: (p ++ R)))
    (hsort : (dummyNode :: (p ++ R)).Pairwise (fun a b => E.compar a.key b.key < 0))
    (hback : ∀ i, i < MAXLEVEL → db.loc.backloc i = lastAt i (dummyNode :: p))
    {i : Nat} (hi : i < MAXLEVEL) :
    (∀ e ∈ db.mf.recs, e.type = DELETE → db.loc.backloc i ≠ e.offset) ∧
    (∀ n ∈ R, db.loc.backloc i ≠ n.offset) ∧
    (∃ n ∈ dummyNode :: p, db.loc.backloc i = n.offset) := by
  obtain ⟨a, y, b, e, hb, hy, hv⟩ := dummy_split hi p
  have e1 : dummyNode :: (p ++ R) = a ++ y :: (b ++ R) := by
    have : dummyNode :: (p ++ R) = (dummyNode :: p) ++ R := rfl
    rw [this, e]; simp
  have hn := linked_split hlink e1
  refine ⟨?_, ?_, ⟨y, by rw [e]; simp, by rw [hback i hi, hv]⟩⟩
  · intro r hr ht hcon
    have := (nodeAt_mem hm.nodup hn hr (by rw [← hcon, hback i hi, hv])).2.2.2.1
    exact this ht
  · intro n hnR
    rw [hback i hi, hv]
    exact chain_offset_ne hc hm hlink hsort e1 (List.mem_append_right _ hnR)

/-- The chain after `stitch`. -/
theorem splice_linked {E : Env} (hc : CompareLaws E.compar) {db : dbengine} {maxlevel : Nat}
    {p Sold T : List node} (hm : MfOK db.mf)
    (hlink : Linked db.mf.recs (dummyNode :: (p ++ Sold)))
    (hsort : (dummyNode :: (p ++ Sold)).Pairwise (fun a b => E.compar a.key b.key < 0))
    (hpos : ∀ n ∈ p, 1 ≤ n.level)
    (hback : ∀ i, i < MAXLEVEL → db.loc.backloc i = lastAt i (dummyNode :: p))
    (hmax1 : 1 ≤ maxlevel) (hmax2 : maxlevel ≤ MAXLEVEL)
    (hR1 : ∀ i, 1 ≤ i → i < MAXLEVEL →
      (if i < maxlevel then db.loc.forwardloc i else nextAt i Sold) = nextAt i T)
    (hR0 : ∃ e ∈ db.mf.recs, e.offset = db.loc.forwardloc 0 ∧ e.offset ≠ 0 ∧
      ((e.type = DELETE ∧ nextAt 0 T = e.nextloc 0) ∨ (e.type ≠ DELETE ∧ nextAt 0 T = e.offset)))
    (hnew : ∀ n ∈ dummyNode :: p, ∀ d ∈ db.mf.recs, d.offset = n.offset →
      d.nextloc 0 < db.loc.forwardloc 0 ∧ d.nextloc 1 < db.loc.forwardloc 0)
    (hT : Linked db.mf.recs T)
    (hTn : ∀ n ∈ T, ∀ i, i < maxlevel → db.loc.backloc i ≠ n.offset) :
    Linked (stitched db maxlevel).mf.recs (dummyNode :: (p ++ T)) := by
  have hdel : ∀ e ∈ db.mf.recs, e.type = DELETE → ∀ i, i < maxlevel →
      db.loc.backloc i ≠ e.offset := by
    intro e he ht i hi
    exact (back_not hc hm hlink hsort hback (show i < MAXLEVEL by omega)).1 e he ht
  have h1 := splice_prefix hc hm hlink hsort hpos hback hmax1 hmax2 hdel hR1 hR0 hnew
  have h2 := linked_stitched hT hdel hTn
  exact linked_append (P := dummyNode :: p) h1 h2

/-! ## The committed level zero pointer -/

theorem czero_eq (cs : Nat) (d : skiprecord) :
    czero cs d = if d.nextloc 0 ≥ cs then d.nextloc 1
      else if d.nextloc 1 ≥ cs then d.nextloc 0
      else if d.nextloc 0 > d.nextloc 1 then d.nextloc 0 else d.nextloc 1 := rfl

theorem setloc_keeps {db : dbengine} {cs z : Nat} {d : skiprecord}
    (hcs : db.header.current_size = cs) (hd : Dual cs d) (hz : cs ≤ z) :
    czero cs (_setloc db d 0 z) = czero cs d ∧ Dual cs (_setloc db d 0 z) := by
  unfold Dual at hd ⊢
  rw [czero_eq, czero_eq]
  unfold _setloc
  rw [hcs]
  simp only [ne_eq, not_true_eq_false, if_false, ge_iff_le, gt_iff_lt]
  by_cases h0 : cs ≤ d.nextloc 0
  · have h1 : ¬ cs ≤ d.nextloc 1 := fun h => hd ⟨h0, h⟩
    rw [if_pos h0]
    simp only [Function.update_same, Function.update_noteq (show (1:Nat) ≠ 0 by omega)]
    rw [if_pos hz, if_pos h0]
    exact ⟨rfl, fun h => h1 h.2⟩
  · rw [if_neg h0]
    by_cases h1 : cs ≤ d.nextloc 1
    · rw [if_pos h1]
      simp only [Function.update_same, Function.update_noteq (show (0:Nat) ≠ 1 by omega)]
      rw [if_neg h0, if_pos hz, if_neg h0, if_pos h1]
      exact ⟨rfl, fun h => h0 h.1⟩
    · rw [if_neg h1]
      by_cases h2 : d.nextloc 0 < d.nextloc 1
      · rw [if_pos h2]
        simp only [Function.update_same, Function.update_noteq (show (1:Nat) ≠ 0 by omega)]
        rw [if_pos hz, if_neg h0, if_neg h1, if_neg (by omega)]
        exact ⟨rfl, fun h => h1 h.2⟩
      · rw [if_neg h2]
        simp only [Function.update_same, Function.update_noteq (show (0:Nat) ≠ 1 by omega)]
        rw [if_neg h0, if_pos hz, if_neg h0, if_neg h1]
        refine ⟨?_, fun h => h0 h.1⟩
        split
        · rfl
        · omega

theorem stitch_rec_flat (db : dbengine) (upto : Nat) {d : skiprecord} (h : d.level = 0) :
    stitch_rec db upto d = d := by
  symm
  apply stitch_rec_eq_of_nextloc rfl rfl rfl rfl rfl rfl rfl rfl rfl rfl
  intro j
  simp only [stitch_rec]
  by_cases hj : j ≤ 1
  · rw [if_pos hj, if_neg (by omega)]
  · rw [if_neg hj, if_neg (by omega)]

theorem stitch_rec_keeps {db : dbengine} {cs : Nat} (upto : Nat) {d : skiprecord}
    (hcs : db.header.current_size = cs) (hd : Dual cs d) (hz : cs ≤ db.loc.forwardloc 0) :
    Keeps cs d (stitch_rec db upto d) := by
  obtain ⟨k1, k2⟩ := setloc_keeps hcs hd hz
  have h0 : ∀ j, j ≤ 1 → (stitch_rec db upto d).nextloc j =
      if 0 < upto ∧ db.loc.backloc 0 = d.offset ∧ 1 ≤ d.level then
        (_setloc db d 0 (db.loc.forwardloc 0)).nextloc j
      else d.nextloc j := by
    intro j hj
    simp only [stitch_rec]
    rw [if_pos hj]
  refine ⟨rfl, rfl, rfl, rfl, rfl, rfl, rfl, rfl, ?_, stitch_rec_flat db upto, ?_⟩
  · rw [czero_eq, czero_eq, h0 0 (by omega), h0 1 (by omega)]
    split
    · rw [czero_eq, czero_eq] at k1; exact k1
    · rfl
  · unfold Dual
    rw [h0 0 (by omega), h0 1 (by omega)]
    split
    · exact k2
    · exact hd

/-- Only the records at the back locations are changed by `stitch`. -/
theorem stitch_rec_id_or (db : dbengine) (upto : Nat) (d : skiprecord) :
    stitch_rec db upto d = d ∨ ∃ i, i < upto ∧ db.loc.backloc i = d.offset := by
  by_cases h : ∃ i, i < upto ∧ db.loc.backloc i = d.offset
  · exact Or.inr h
  · left
    apply stitch_rec_self
    intro i hi hb
    exact h ⟨i, hi, hb⟩

/-- The level zero slots after `stitch` are the old ones or the forward
location. -/
theorem stitch_rec_slots (db : dbengine) (upto : Nat) (d : skiprecord) {j : Nat} (hj : j ≤ 1) :
    (stitch_rec db upto d).nextloc j = d.nextloc j ∨
    (stitch_rec db upto d).nextloc j = db.loc.forwardloc 0 := by
  simp only [stitch_rec]
  rw [if_pos hj]
  split
  · unfold _setloc
    simp only [ne_eq, not_true_eq_false, if_false]
    split
    · simp only [Function.update_apply]; split <;> simp
    · split
      · simp only [Function.update_apply]; split <;> simp
      · split
        · simp only [Function.update_apply]; split <;> simp
        · simp only [Function.update_apply]; split <;> simp
  · left; rfl

/-! ## The file between the append and the stitch -/

theorem norm_len_ge {d : skiprecord} (h : Norm d) : 24 ≤ d.len := by
  rw [h.len_eq]; exact reclen_ge _ _ _

theorem PreStitch.old_lt {E : Env} {db : dbengine} {old : List skiprecord} {D : skiprecord}
    {e0 : Nat} {p Sold : List node} (H : PreStitch E db old D e0 p Sold) :
    ∀ d ∈ old, d.offset < e0 := by
  intro d hd
  have := (H.bound d hd).2
  have := norm_len_ge (H.norm d hd)
  omega

theorem PreStitch.mfok {E : Env} {db : dbengine} {old : List skiprecord} {D : skiprecord}
    {e0 : Nat} {p Sold : List node} (H : PreStitch E db old D e0 p Sold) : MfOK db.mf := by
  refine ⟨?_, ?_, ?_⟩
  · rw [H.recs, List.map_append, List.nodup_append]
    refine ⟨H.nodup, by simp, ?_⟩
    intro a ha hb
    simp only [List.map_cons, List.map_nil, List.mem_singleton] at hb
    obtain ⟨d, hd, e⟩ := List.mem_map.1 ha
    have := H.old_lt d hd
    rw [e, hb, H.Doff] at this
    omega
  · intro d hd
    rw [H.recs] at hd
    rcases List.mem_append.1 hd with h | h
    · exact H.norm d h
    · simp only [List.mem_singleton] at h
      rw [h]; exact H.Dnorm
  · intro d hd
    rw [H.recs] at hd
    rw [H.size]
    rcases List.mem_append.1 hd with h | h
    · have := H.bound d h
      omega
    · simp only [List.mem_singleton] at h
      rw [h, H.Doff]
      exact ⟨H.e64, le_refl _⟩

theorem PreStitch.sub {E : Env} {db : dbengine} {old : List skiprecord} {D : skiprecord}
    {e0 : Nat} {p Sold : List node} (H : PreStitch E db old D e0 p Sold) :
    ∀ e ∈ old, e ∈ db.mf.recs := by
  intro e he
  rw [H.recs]
  exact List.mem_append_left _ he

theorem PreStitch.Dmem {E : Env} {db : dbengine} {old : List skiprecord} {D : skiprecord}
    {e0 : Nat} {p Sold : List node} (H : PreStitch E db old D e0 p Sold) :
    D ∈ db.mf.recs := by
  rw [H.recs]; simp

/-- The offsets of the nodes of the old chain are below the new record. -/
theorem PreStitch.node_lt {E : Env} {db : dbengine} {old : List skiprecord} {D : skiprecord}
    {e0 : Nat} {p Sold : List node} (H : PreStitch E db old D e0 p Sold) :
    ∀ n ∈ dummyNode :: (p ++ Sold), n.offset < e0 := by
  intro n hn
  obtain ⟨a, b, e⟩ := List.append_of_mem hn
  obtain ⟨d, hd, h1, _⟩ := linked_split H.link e
  rw [← h1]
  exact H.old_lt d hd

/-- The result of `stitch` after an append: the file holds the chain with
`T` in the place of `Sold`. -/
theorem splice_file {E : Env} (hc : CompareLaws E.compar) {db : dbengine}
    {old : List skiprecord} {D : skiprecord} {e0 : Nat} {p Sold T : List node}
    (H : PreStitch E db old D e0 p Sold) {maxlevel : Nat}
    (hmax1 : 1 ≤ maxlevel) (hmax2 : maxlevel ≤ MAXLEVEL)
    (hR1 : ∀ i, 1 ≤ i → i < MAXLEVEL →
      (if i < maxlevel then db.loc.forwardloc i else nextAt i Sold) = nextAt i T)
    (hR0 : (D.type = DELETE ∧ nextAt 0 T = D.nextloc 0) ∨ (D.type ≠ DELETE ∧ nextAt 0 T = e0))
    (hT : Linked db.mf.recs T) (hTo : ∀ n ∈ T, n ∈ Sold ∨ n.offset = e0)
    (hTs : (dummyNode :: (p ++ T)).Pairwise (fun a b => E.compar a.key b.key < 0))
    (hTp : ∀ n ∈ T, 1 ≤ n.level) :
    stitch db maxlevel = some (0, stitched db maxlevel) ∧
    FileOK E (stitched db maxlevel) (p ++ T) := by
  have hm := H.mfok
  have hlink : Linked db.mf.recs (dummyNode :: (p ++ Sold)) := linked_mono H.link H.sub
  have hSt : StitchH db maxlevel := stitchH_of_back H.dirty hm hmax2 hlink H.back
  refine ⟨stitch_ok hSt, stitched_mfok hm maxlevel, ?_, ?_, hTs, ?_⟩
  · -- the slots
    intro d1 hd1
    obtain ⟨d, hd, e⟩ := List.mem_map.1 hd1
    have hold : d.nextloc 0 < e0 ∧ d.nextloc 1 < e0 := by
      rw [H.recs] at hd
      rcases List.mem_append.1 hd with h | h
      · exact H.slots d h
      · simp only [List.mem_singleton] at h
        rw [h]; exact H.Dslots
    have hlen := norm_len_ge H.Dnorm
    have hend : (stitched db maxlevel).end_ = e0 + D.len := H.end_eq
    rw [hend, ← e]
    constructor
    · rcases stitch_rec_slots db maxlevel d (j := 0) (by omega) with h | h
      · rw [h]; omega
      · rw [h, H.fwd0]; omega
    · rcases stitch_rec_slots db maxlevel d (j := 1) (by omega) with h | h
      · rw [h]; omega
      · rw [h, H.fwd0]; omega
  · -- the chain
    apply splice_linked hc hm hlink H.sort H.pos H.back hmax1 hmax2 hR1
    · refine ⟨D, H.Dmem, by rw [H.Doff, H.fwd0], ?_, ?_⟩
      · rw [H.Doff]; have := H.e64; unfold HEADER_SIZE at this; omega
      · rw [H.Doff]; exact hR0
    · intro n hn d hd ho
      rw [H.fwd0]
      rw [H.recs] at hd
      rcases List.mem_append.1 hd with h | h
      · exact H.slots d h
      · simp only [List.mem_singleton] at h
        have hlt := H.node_lt n (by
          rcases List.mem_cons.1 hn with e | e
          · rw [e]; exact List.mem_cons_self _ _
          · exact List.mem_cons_of_mem _ (List.mem_append_left _ e))
        rw [← ho, h, H.Doff] at hlt
        omega
    · exact hT
    · intro n hn i hi
      have hb := back_not hc hm hlink H.sort H.back (show i < MAXLEVEL by omega)
      rcases hTo n hn with h | h
      · exact hb.2.1 n h
      · obtain ⟨y, hy, e⟩ := hb.2.2
        have hlt := H.node_lt y (by
          rcases List.mem_cons.1 hy with e1 | e1
          · rw [e1]; exact List.mem_cons_self _ _
          · exact List.mem_cons_of_mem _ (List.mem_append_left _ e1))
        rw [e, h]; omega
  · intro n hn
    rcases List.mem_append.1 hn with h | h
    · exact H.pos n h
    · exact hTp n h

/-! ## `store_here` -/

theorem sorted_insert {E : Env} (hc : CompareLaws E.compar) {p Sold S : List node} {N : node}
    (hs : (dummyNode :: (p ++ Sold)).Pairwise (fun a b => E.compar a.key b.key < 0))
    (hsub : ∃ pre, Sold = pre ++ S)
    (hp : ∀ n ∈ p, E.compar n.key N.key < 0) (hS : ∀ n ∈ S, E.compar N.key n.key < 0)
    (hN : N.key ≠ []) :
    (dummyNode :: (p ++ N :: S)).Pairwise (fun a b => E.compar a.key b.key < 0) := by
  obtain ⟨pre, rfl⟩ := hsub
  have h1 : (dummyNode :: (p ++ S)).Pairwise (fun a b => E.compar a.key b.key < 0) := by
    refine hs.sublist ?_
    refine List.Sublist.cons₂ _ ?_
    exact List.Sublist.append (List.Sublist.refl _) (List.sublist_append_right _ _)
  rw [← List.cons_append, List.pairwise_append] at h1 ⊢
  obtain ⟨a1, a2, a3⟩ := h1
  refine ⟨a1, List.pairwise_cons.2 ⟨hS, a2⟩, ?_⟩
  intro a ha b hb
  rcases List.mem_cons.1 hb with e | e
  · rw [e]
    rcases List.mem_cons.1 ha with e1 | e1
    · rw [e1]; exact hc.nil_lt _ hN
    · exact hp a e1
  · exact a3 a ha b e

theorem sorted_remove {E : Env} {p pre S : List node}
    (hs : (dummyNode :: (p ++ (pre ++ S))).Pairwise (fun a b => E.compar a.key b.key < 0)) :
    (dummyNode :: (p ++ S)).Pairwise (fun a b => E.compar a.key b.key < 0) := by
  refine hs.sublist ?_
  refine List.Sublist.cons₂ _ ?_
  exact List.Sublist.append (List.Sublist.refl _) (List.sublist_append_right _ _)

/-- The first node of a level, when there is one, is a record of the file
that is no delete record. -/
theorem nextAt_rec {mf : mappedfile} (hm : MfOK mf) {S : List node} (hl : Linked mf.recs S)
    (i : Nat) (h : nextAt i S ≠ 0) :
    ∃ e ∈ mf.recs, e.offset = nextAt i S ∧ e.type ≠ DELETE ∧ ∃ n ∈ S, n.offset = e.offset := by
  rcases nextAt_split (i := i) (linked_offset_ne_zero hm hl) with ⟨h0, _⟩ | ⟨a, y, b, e, _, _, hv⟩
  · exact absurd h0 h
  · obtain ⟨d, hd, h1, _, _, _, h5, _⟩ := linked_split hl e
    exact ⟨d, hd, by rw [h1, hv], h5, y, by rw [e]; simp, h1.symm⟩

theorem nextAt_lt {mf : mappedfile} (hm : MfOK mf) {S : List node} (hl : Linked mf.recs S)
    (i : Nat) (h0 : 0 < mf.size) : nextAt i S < mf.size := by
  by_cases h : nextAt i S = 0
  · rw [h]; exact h0
  · obtain ⟨e, he, h1, _⟩ := nextAt_rec hm hl i h
    have := (hm.bound e he).2
    have := norm_len_ge (hm.norm e he)
    omega

/-- The position of the location in unified form: the records `S` after
the place, and the level of the record at the place. -/
theorem locAt_unify {E : Env} (hc : CompareLaws E.compar) {loc : skiploc} {live : List node}
    (hsort : (dummyNode :: live).Pairwise (fun a b => E.compar a.key b.key < 0))
    (hlev : ∀ n ∈ dummyNode :: live, n.level ≤ MAXLEVEL)
    (h : LocAt E loc live) :
    ∃ p pre S, live = p ++ (pre ++ S) ∧ (∀ n ∈ p, E.compar n.key loc.keybuf < 0) ∧
      (∀ i, i < MAXLEVEL → loc.backloc i = lastAt i (dummyNode :: p)) ∧
      (∀ i, i < MAXLEVEL → loc.forwardloc i = nextAt i S) ∧
      (∀ n ∈ S, E.compar loc.keybuf n.key < 0) ∧
      (if loc.is_exactmatch then loc.record.level else 0) ≤ MAXLEVEL ∧
      (∀ i, (if loc.is_exactmatch then loc.record.level else 0) ≤ i →
        nextAt i (pre ++ S) = nextAt i S) ∧
      ((loc.is_exactmatch = false ∧ pre = [] ∧ RecOf loc.record (lastNode p)) ∨
       (loc.is_exactmatch = true ∧ ∃ m, pre = [m] ∧ m.key = loc.keybuf ∧ RecOf loc.record m)) := by
  obtain ⟨p, S, hlive, hlt, hback, hex | hne⟩ := h
  · obtain ⟨hx, m, S1, hS, hmk, hrec, hfwd⟩ := hex
    have hs2 : (m :: S1).Pairwise (fun a b => E.compar a.key b.key < 0) := by
      rw [hlive, hS] at hsort
      exact (List.pairwise_append.1 (List.pairwise_cons.1 hsort).2).2.1
    have hml : m.level ≤ MAXLEVEL := hlev m (by rw [hlive, hS]; simp)
    refine ⟨p, [m], S1, by rw [hlive, hS]; rfl, hlt, hback, hfwd, ?_, ?_, ?_, ?_⟩
    · intro n hn
      rw [← hmk]
      exact (List.pairwise_cons.1 hs2).1 n hn
    · rw [hx]; simp only [if_true]; rw [hrec.2.1]; exact hml
    · intro i hi
      rw [hx] at hi; simp only [if_true] at hi
      rw [hrec.2.1] at hi
      show nextAt i (m :: S1) = nextAt i S1
      simp only [nextAt]
      rw [if_neg (by omega)]
    · right; exact ⟨hx, m, rfl, hmk, hrec⟩
  · obtain ⟨hx, hgt, hrec, hfwd⟩ := hne
    refine ⟨p, [], S, by rw [hlive]; rfl, hlt, hback, hfwd, hgt, ?_, ?_, ?_⟩
    · rw [hx]; simp
    · intro i _; rfl
    · left; exact ⟨hx, rfl, hrec⟩

theorem store_here_ok {E : Env} (hc : CompareLaws E.compar) {db : dbengine} {live : List node}
    {cs : Nat} (hf : FileOK E db live) (hloc : LocAt E db.loc live)
    (ht : db.current_txn ≠ none) (hs : db.mf.size = db.end_)
    (hk : db.loc.keybuf ≠ [])
    (hcs : db.header.current_size = cs) (hcs0 : 0 < cs) (hcse : cs ≤ db.end_)
    (val : List Nat) :
    ∃ db1 p pre S N f D, store_here db val = some (0, db1) ∧
      FileOK E db1 (p ++ N :: S) ∧ LocAt E db1.loc (p ++ N :: S) ∧
      live = p ++ (pre ++ S) ∧
      ((db.loc.is_exactmatch = false ∧ pre = []) ∨
       (db.loc.is_exactmatch = true ∧ ∃ m, pre = [m] ∧ m.key = db.loc.keybuf)) ∧
      N.key = db.loc.keybuf ∧ N.val = val ∧ N.offset = db.end_ ∧
      Frame db db1 ∧
      db1.mf.recs = (db.mf.recs ++ [D]).map f ∧ D.offset = db.end_ ∧ Dual cs D ∧
      D.type = RECORD ∧
      (∀ d, Dual cs d → Keeps cs d (f d)) ∧
      (∀ d, f d = d ∨ ∃ n ∈ dummyNode :: live, n.offset = d.offset) ∧
      db1.end_ = db.end_ + D.len ∧
      db1.header.num_records =
        add64 (if db.loc.is_exactmatch = true then sub64 db.header.num_records 1
          else db.header.num_records) 1 ∧
      db1.header.repack_size =
        add64 (if db.loc.is_exactmatch = true then sub64 db.header.repack_size db.loc.record.len
          else db.header.repack_size) D.len ∧
      db1.loc.record.keylen = db1.loc.record.key.length := by
  have hm := hf.mf
  have hlev := linked_level_le hm hf.chain.linked
  obtain ⟨p, pre, S, hlive, hlt, hback, hfwd, hgt, hl0, hskip, hcase⟩ :=
    locAt_unify hc hf.chain.sorted hlev hloc
  have h64 : HEADER_SIZE ≤ db.end_ := by
    obtain ⟨d, hd, h1, _⟩ := hf.chain.linked.1
    have := (hm.bound d hd).2
    have := (hm.bound d hd).1
    omega
  unfold store_here
  dsimp only
  generalize hl0e : (if db.loc.is_exactmatch = true then db.loc.record.level else 0) = level0
    at hl0 hskip
  generalize hdb1 : (if db.loc.is_exactmatch = true then
      ({ db with header := { db.header with
          num_records := sub64 db.header.num_records 1,
          repack_size := sub64 db.header.repack_size db.loc.record.len } } : dbengine)
    else db) = db1
  have hfacts : db1.mf = db.mf ∧ db1.loc = db.loc ∧ db1.end_ = db.end_ ∧
      db1.current_txn = db.current_txn ∧ db1.is_open = db.is_open ∧
      db1.open_flags = db.open_flags ∧ db1.txn_num = db.txn_num ∧
      db1.header.flags = db.header.flags ∧ db1.header.current_size = db.header.current_size ∧
      db1.header.version = db.header.version ∧
      db1.header.generation = db.header.generation ∧ db1.rand_src = db.rand_src ∧
      db1.header.num_records = (if db.loc.is_exactmatch = true then sub64 db.header.num_records 1
          else db.header.num_records) ∧
      db1.header.repack_size =
        (if db.loc.is_exactmatch = true then sub64 db.header.repack_size db.loc.record.len
          else db.header.repack_size) := by
    rw [← hdb1]
    by_cases hx : db.loc.is_exactmatch = true
    · rw [if_pos hx, if_pos hx, if_pos hx]
      exact ⟨rfl, rfl, rfl, rfl, rfl, rfl, rfl, rfl, rfl, rfl, rfl, rfl, rfl, rfl⟩
    · rw [if_neg hx, if_neg hx, if_neg hx]
      exact ⟨rfl, rfl, rfl, rfl, rfl, rfl, rfl, rfl, rfl, rfl, rfl, rfl, rfl, rfl⟩
  obtain ⟨g1, g2, g3, g4, g5, g6, g7, g8, g9, g10, g11, g12, g13, g14⟩ := hfacts
  clear hdb1
  have hL := randlvl_bounds db1.rand_src
  generalize hLe : (randlvl db1.rand_src 1 MAXLEVEL).1 = L at hL ⊢
  generalize hLs : (randlvl db1.rand_src 1 MAXLEVEL).2 = src1
  have happ := @append_record_ok { db1 with rand_src := src1 }
    { type := RECORD, level := L, keylen := db1.loc.keybuf.length,
      vallen := val.length,
      nextloc := nextloc_loop db1.loc.forwardloc L 0 (fun _ => 0) }
    db1.loc.keybuf val (by rw [g4]; exact ht) rfl hL.2
    (by
      intro d hd
      have hd1 : d ∈ db.mf.recs := g1 ▸ hd
      have := (hm.bound d hd1).2
      show d.offset + d.len ≤ db1.end_
      rw [g3, ← hs]; exact this)
    (by show db1.mf.size = db1.end_; rw [g1, g3]; exact hs)
    (by show HEADER_SIZE ≤ db1.mf.size; rw [g1, hs]; exact h64)
  dsimp only at happ
  rw [happ]
  dsimp only
  have hDf : (disk_image db1.end_
      { type := RECORD, level := L, keylen := db1.loc.keybuf.length, vallen := val.length,
        nextloc := nextloc_loop db1.loc.forwardloc L 0 (fun _ => 0) } db1.loc.keybuf val) =
      { offset := db.end_, len := reclen L db.loc.keybuf.length val.length, type := RECORD,
        level := L, keylen := db.loc.keybuf.length, vallen := val.length,
        nextloc := nextloc_loop db.loc.forwardloc L 0 (fun _ => 0),
        keyoffset := db.end_ + headlen db.loc.keybuf.length val.length + 8 * (1 + L) + 8,
        valoffset := db.end_ + headlen db.loc.keybuf.length val.length + 8 * (1 + L) + 8
          + db.loc.keybuf.length,
        key := db.loc.keybuf, val := val } := by
    simp only [disk_image, g3, g2, List.take_length]
    congr 1
    funext i
    simp only [diskptrs, nextloc_loop_apply]
    split
    · rfl
    · rw [if_neg (by omega)]
  rw [hDf]
  dsimp only
  generalize hdh : dirtied { db1 with rand_src := src1 } = hdr4
  generalize hdm : dirtied_mf { db1 with rand_src := src1 } = mh4
  rw [g1, g2, g3, g4, g5, g6, g7]
  have hdirty : hdr4.flags &&& DIRTY ≠ 0 := by rw [← hdh]; exact dirtied_flags _
  have hhdr : hdr4.current_size = db.header.current_size ∧ hdr4.version = db.header.version ∧
      hdr4.generation = db.header.generation := by
    rw [← hdh]
    obtain ⟨a1, a2, a3, _, _⟩ := dirtied_other { db1 with rand_src := src1 }
    exact ⟨a1.trans g9, a2.trans g10, a3.trans g11⟩
  have hnum : hdr4.num_records = db1.header.num_records ∧
      hdr4.repack_size = db1.header.repack_size := by
    rw [← hdh]
    obtain ⟨_, _, _, a4, a5⟩ := dirtied_other { db1 with rand_src := src1 }
    exact ⟨a4, a5⟩
  clear hdh hdm happ hDf
  rw [if_neg (by simp)]
  generalize hD : ({
      offset := db.end_
      len := reclen L db.loc.keybuf.length val.length
      type := RECORD
      level := L
      keylen := db.loc.keybuf.length
      vallen := val.length
      nextloc := nextloc_loop db.loc.forwardloc L 0 (fun _ => 0)
      keyoffset := db.end_ + headlen db.loc.keybuf.length val.length + 8 * (1 + L) + 8
      valoffset := db.end_ + headlen db.loc.keybuf.length val.length + 8 * (1 + L) + 8
        + db.loc.keybuf.length
      key := db.loc.keybuf
      val := val } : skiprecord) = D
  have hDo : D.offset = db.end_ := by rw [← hD]
  have hDl : D.level = L := by rw [← hD]
  have hDt : D.type = RECORD := by rw [← hD]
  have hDk : D.key = db.loc.keybuf := by rw [← hD]
  have hDv : D.val = val := by rw [← hD]
  have hDlen : D.len = reclen L db.loc.keybuf.length val.length := by rw [← hD]
  have hDn : ∀ j, D.nextloc j = if 1 ≤ j ∧ j < 1 + L then db.loc.forwardloc (j - 1) else 0 := by
    intro j
    rw [← hD]
    show nextloc_loop db.loc.forwardloc L 0 (fun _ => 0) j = _
    rw [nextloc_loop_apply]
  have hDnorm : Norm D := by
    rw [← hD]
    refine ⟨hL.2, rfl, rfl, rfl, rfl, rfl, ?_⟩
    intro i hi
    show nextloc_loop db.loc.forwardloc L 0 (fun _ => 0) i = 0
    rw [nextloc_loop_apply, if_neg (by dsimp only at hi; omega)]
  generalize hlvl : (if L > level0 then L else level0) = lvl
  have hlv1 : 1 ≤ lvl ∧ lvl ≤ MAXLEVEL ∧ L ≤ lvl ∧ level0 ≤ lvl := by
    rw [← hlvl]; split <;> omega
  generalize hdb4 : ({
      mf := {
        size := db.end_ + reclen L db.loc.keybuf.length val.length
        header := mh4
        recs := db.mf.recs ++ [D]
        lock_status := db.mf.lock_status }
      header := hdr4
      loc := {
        keybuf := db.loc.keybuf
        is_exactmatch := db.loc.is_exactmatch
        record := db.loc.record
        backloc := db.loc.backloc
        forwardloc := fill_loop db.end_ L 0 db.loc.forwardloc
        generation := db.loc.generation
        end_ := db.loc.end_ }
      is_open := db.is_open
      end_ := db.end_ + reclen L db.loc.keybuf.length val.length
      txn_num := db.txn_num
      current_txn := db.current_txn
      open_flags := db.open_flags
      rand_src := src1 } : dbengine) = db4
  have k1 : db4.mf.recs = db.mf.recs ++ [D] := by rw [← hdb4]
  have k2 : db4.mf.size = db.end_ + D.len := by rw [← hdb4, hDlen]
  have k3 : db4.end_ = db.end_ + D.len := by rw [← hdb4, hDlen]
  have k4 : db4.loc.backloc = db.loc.backloc := by rw [← hdb4]
  have k5 : db4.loc.forwardloc = fill_loop db.end_ L 0 db.loc.forwardloc := by rw [← hdb4]
  have k6 : db4.header = hdr4 := by rw [← hdb4]
  have k7 : db4.loc.keybuf = db.loc.keybuf ∧ db4.loc.generation = db.loc.generation ∧
      db4.is_open = db.is_open ∧ db4.txn_num = db.txn_num ∧
      db4.current_txn = db.current_txn ∧ db4.open_flags = db.open_flags ∧
      db4.mf.lock_status = db.mf.lock_status := by
    rw [← hdb4]; exact ⟨rfl, rfl, rfl, rfl, rfl, rfl, rfl⟩
  clear hdb4
  have hf4 : ∀ j, db4.loc.forwardloc j = if j < L then db.end_ else db.loc.forwardloc j := by
    intro j
    rw [k5, fill_loop_apply]
    by_cases hj : j < L
    · rw [if_pos ⟨by omega, by omega⟩, if_pos hj]
    · rw [if_neg (by omega), if_neg hj]
  have hsize0 : 0 < db.mf.size := by rw [hs]; unfold HEADER_SIZE at h64; omega
  have hlinkS : Linked db.mf.recs S := by
    have := hf.chain.linked
    rw [hlive] at this
    have e : dummyNode :: (p ++ (pre ++ S)) = (dummyNode :: p ++ pre) ++ S := by simp
    rw [e] at this
    exact linked_suffix this
  have hD0 : D.nextloc 0 = 0 := by rw [hDn, if_neg (by omega)]
  have hD1 : D.nextloc 1 = nextAt 0 S := by
    rw [hDn, if_pos ⟨by omega, by omega⟩]
    exact hfwd 0 (by unfold MAXLEVEL; omega)
  have hnS : ∀ i, nextAt i S < db.end_ := fun i => hs ▸ nextAt_lt hm hlinkS i hsize0
  have H : PreStitch E db4 db.mf.recs D db.end_ p (pre ++ S) := by
    refine ⟨k1, hDo, hDnorm, ⟨?_, ?_⟩, hm.nodup, hm.norm, ?_, ?_, k2, k3, h64, ?_, ?_, ?_, ?_, ?_, ?_⟩
    · rw [hD0]; unfold HEADER_SIZE at h64; omega
    · rw [hD1]; exact hnS 0
    · intro d hd; rw [← hs]; exact hm.bound d hd
    · exact hf.slots
    · rw [← hlive]; exact hf.chain.linked
    · rw [← hlive]; exact hf.chain.sorted
    · intro n hn; exact hf.chain.level_pos n (by rw [hlive]; simp [hn])
    · rw [k4]; exact hback
    · rw [k6]; exact hdirty
    · rw [hf4, if_pos (by omega)]
  obtain ⟨N, hN⟩ : ∃ N : node, N = ⟨db.end_, L, db.loc.keybuf, val⟩ := ⟨_, rfl⟩
  have hNo : N.offset = db.end_ := by rw [hN]
  have hNl : N.level = L := by rw [hN]
  have hNk : N.key = db.loc.keybuf := by rw [hN]
  have hNv : N.val = val := by rw [hN]
  clear hN
  have hm4 := H.mfok
  have hlink4 : Linked db4.mf.recs (dummyNode :: (p ++ (pre ++ S))) := linked_mono H.link H.sub
  have hne : RECORD ≠ DELETE := by unfold RECORD DELETE; omega
  have hNode : NodeAt db4.mf.recs N S := by
    refine ⟨D, H.Dmem, by rw [hDo, hNo], by rw [hDl, hNl], by rw [hDk, hNk], by rw [hDv, hNv],
      by rw [hDt]; exact hne, ?_, ?_⟩
    · unfold Succ0
      rw [hD0, hD1, Nat.zero_max]
      by_cases h0 : nextAt 0 S = 0
      · left; exact ⟨h0, h0⟩
      · right
        obtain ⟨e, he, e1, e2, _⟩ := nextAt_rec hm hlinkS 0 h0
        exact ⟨e, H.sub e he, e1, by rw [e1]; exact h0, Or.inr ⟨e2, e1.symm⟩⟩
    · intro i hi1 hi2
      rw [hNl] at hi2
      rw [hDn, if_pos ⟨by omega, by omega⟩]
      simp only [Nat.add_sub_cancel]
      exact hfwd i (by omega)
  have hsp := @splice_file E hc db4 db.mf.recs D db.end_ p (pre ++ S) (N :: S) H lvl hlv1.1 hlv1.2.1
    (by
      intro i hi1 hi2
      simp only [nextAt, hNl, hNo]
      rw [hf4]
      by_cases hiL : i < L
      · rw [if_pos hiL, if_pos (by omega), if_pos hiL]
      · rw [if_neg hiL, if_neg hiL]
        by_cases hil : i < lvl
        · rw [if_pos hil]; exact hfwd i hi2
        · rw [if_neg hil]; exact hskip i (by omega))
    (Or.inr ⟨by rw [hDt]; exact hne, by simp only [nextAt, hNl, hNo]; rw [if_pos (by omega)]⟩)
    ⟨hNode, linked_mono hlinkS H.sub⟩
    (by
      intro n hn
      rcases List.mem_cons.1 hn with e | e
      · right; rw [e]; exact hNo
      · left; exact List.mem_append_right _ e)
    (sorted_insert hc (hlive ▸ hf.chain.sorted) ⟨pre, rfl⟩ (by rw [hNk]; exact hlt)
      (by rw [hNk]; exact hgt) (by rw [hNk]; exact hk))
    (by
      intro n hn
      rcases List.mem_cons.1 hn with e | e
      · rw [e, hNl]; exact hL.1
      · exact hf.chain.level_pos n (by rw [hlive]; simp [e]))
  obtain ⟨hst, hfile⟩ := hsp
  rw [hst]
  dsimp only
  have hbk : ∀ i, i < MAXLEVEL → ∃ n ∈ dummyNode :: p, db4.loc.backloc i = n.offset :=
    fun i hi => (back_not hc hm4 hlink4 H.sort H.back hi).2.2
  have hself : stitch_rec db4 lvl D = D := by
    apply stitch_rec_self
    intro i hi
    obtain ⟨n, hn, e⟩ := hbk i (by omega)
    have := H.node_lt n (by
      rcases List.mem_cons.1 hn with e1 | e1
      · rw [e1]; exact List.mem_cons_self _ _
      · exact List.mem_cons_of_mem _ (List.mem_append_left _ e1))
    rw [e, hDo]; omega
  have hDmem : D ∈ (stitched db4 lvl).mf.recs := List.mem_map.2 ⟨D, H.Dmem, hself⟩
  have hread := read_record_of_mem hfile.mf hDmem
  rw [hDo] at hread
  rw [hread]
  dsimp only
  rw [if_neg (by simp)]
  refine ⟨_, p, pre, S, N, stitch_rec db4 lvl, D, rfl, hfile.congr rfl rfl, ?_, hlive, ?_,
    hNk, hNv, hNo, ?_, ?_, hDo, ?_, hDt, ?_, ?_, k3, ?_, ?_,
    hDnorm.keylen_eq⟩
  · -- the location
    refine ⟨p, N :: S, rfl, ?_, ?_, Or.inl ⟨rfl, N, S, rfl, ?_, ?_, ?_⟩⟩
    · intro n hn
      show E.compar n.key db4.loc.keybuf < 0
      rw [k7.1]; exact hlt n hn
    · intro i hi
      show db4.loc.backloc i = _
      exact H.back i hi
    · show N.key = db4.loc.keybuf
      rw [k7.1, hNk]
    · exact ⟨by rw [hDo, hNo], by rw [hDl, hNl], by rw [hDk, hNk], by rw [hDv, hNv]⟩
    · intro i hi
      show forwardloc_loop (nextloc_loop db.loc.forwardloc L 0 fun _ => 0) L 0
        db4.loc.forwardloc i = nextAt i S
      rw [forwardloc_loop_apply, nextloc_loop_apply, hf4]
      by_cases hiL : i < L
      · rw [if_pos ⟨by omega, by omega⟩, if_pos ⟨by omega, by omega⟩]
        simp only [Nat.add_sub_cancel]
        exact hfwd i hi
      · rw [if_neg (by omega), if_neg hiL]
        exact hfwd i hi
  · rcases hcase with ⟨h1, h2, _⟩ | ⟨h1, m, h2, h3, _⟩
    · exact Or.inl ⟨h1, h2⟩
    · exact Or.inr ⟨h1, m, h2, h3⟩
  · -- the frame
    have hlen := norm_len_ge hDnorm
    refine ⟨k7.2.2.2.2.1, k7.2.2.1, k7.2.2.2.2.2.1, k7.2.2.2.1, k7.2.2.2.2.2.2, ?_, ?_, ?_, ?_,
      ?_, ?_, rfl, k7.2.1, k7.1⟩
    · show db4.header.current_size = _
      rw [k6]; exact hhdr.1
    · show db4.header.version = _
      rw [k6]; exact hhdr.2.1
    · show db4.header.generation = _
      rw [k6]; exact hhdr.2.2
    · show db4.header.flags &&& DIRTY ≠ 0
      rw [k6]; exact hdirty
    · show db4.mf.size = db4.end_
      rw [k2, k3]
    · show db.end_ < db4.end_
      rw [k3]; omega
  · show db4.mf.recs.map (stitch_rec db4 lvl) = _
    rw [k1]
  · unfold Dual
    rw [hD0]; omega
  · intro d hd
    refine stitch_rec_keeps lvl ?_ hd ?_
    · rw [k6, hhdr.1]; exact hcs
    · rw [H.fwd0]; exact hcse
  · intro d
    rcases stitch_rec_id_or db4 lvl d with h | ⟨i, hi, e⟩
    · exact Or.inl h
    · right
      obtain ⟨n, hn, e1⟩ := hbk i (by omega)
      refine ⟨n, ?_, by rw [← e1, e]⟩
      rcases List.mem_cons.1 hn with e2 | e2
      · rw [e2]; exact List.mem_cons_self _ _
      · exact List.mem_cons_of_mem _ (by rw [hlive]; exact List.mem_append_left _ e2)
  · show add64 db4.header.num_records 1 = _
    rw [k6, hnum.1, g13]
  · show add64 db4.header.repack_size D.len = _
    rw [k6, hnum.2, g14]

/-! ## `delete_here` -/

theorem lastAt_zero_last {p : List node} (hpos : ∀ n ∈ p, 1 ≤ n.level) :
    lastAt 0 (dummyNode :: p) = (lastNode p).offset := by
  obtain ⟨pre1, e⟩ := exists_last p
  rw [lastAt_dummy_concat e, if_pos]
  have hmem : lastNode p ∈ dummyNode :: p := by rw [e]; simp
  rcases List.mem_cons.1 hmem with h | h
  · rw [h]; unfold dummyNode MAXLEVEL; simp
  · have := hpos _ h; omega

theorem delete_here_ok {E : Env} (hc : CompareLaws E.compar) {db : dbengine} {live : List node}
    {cs : Nat} (hf : FileOK E db live) (hloc : LocAt E db.loc live)
    (hx : db.loc.is_exactmatch = true)
    (ht : db.current_txn ≠ none) (hs : db.mf.size = db.end_)
    (hcs : db.header.current_size = cs) (hcs0 : 0 < cs) (hcse : cs ≤ db.end_) :
    ∃ db1 p m S f D, delete_here db = some (0, db1) ∧
      FileOK E db1 (p ++ S) ∧ LocAt E db1.loc (p ++ S) ∧
      live = p ++ m :: S ∧ m.key = db.loc.keybuf ∧
      Frame db db1 ∧
      db1.mf.recs = (db.mf.recs ++ [D]).map f ∧ D.offset = db.end_ ∧ Dual cs D ∧
      D.type = DELETE ∧ D.level = 0 ∧
      (∀ d, Dual cs d → Keeps cs d (f d)) ∧
      (∀ d, f d = d ∨ ∃ n ∈ dummyNode :: live, n.offset = d.offset) ∧
      D.keylen = 0 ∧ db1.header.num_records = sub64 db.header.num_records 1 ∧
      D.vallen = 0 ∧ D.nextloc 0 = nextAt 0 S := by
  have hm := hf.mf
  have hlev := linked_level_le hm hf.chain.linked
  obtain ⟨p, pre, S, hlive, hlt, hback, hfwd, hgt, hl0, hskip, hcase⟩ :=
    locAt_unify hc hf.chain.sorted hlev hloc
  rw [hx] at hl0 hskip
  simp only [if_true] at hl0 hskip
  obtain ⟨m, hpre, hmk, hrec⟩ : ∃ m, pre = [m] ∧ m.key = db.loc.keybuf ∧ RecOf db.loc.record m := by
    rcases hcase with ⟨h1, _⟩ | ⟨_, h⟩
    · rw [hx] at h1; cases h1
    · exact h
  subst hpre
  have hml : 1 ≤ db.loc.record.level := by
    rw [hrec.2.1]
    exact hf.chain.level_pos m (by rw [hlive]; simp)
  have h64 : HEADER_SIZE ≤ db.end_ := by
    obtain ⟨d, hd, h1, _⟩ := hf.chain.linked.1
    have := (hm.bound d hd).2
    have := (hm.bound d hd).1
    omega
  unfold delete_here
  rw [hx]
  simp only [not_true_eq_false, if_false]
  generalize hdb1 : ({ db with header := { db.header with
          num_records := sub64 db.header.num_records 1,
          repack_size := sub64 db.header.repack_size db.loc.record.len } } : dbengine) = db1
  have hfacts : db1.mf = db.mf ∧ db1.loc = db.loc ∧ db1.end_ = db.end_ ∧
      db1.current_txn = db.current_txn ∧ db1.is_open = db.is_open ∧
      db1.open_flags = db.open_flags ∧ db1.txn_num = db.txn_num ∧
      db1.header.flags = db.header.flags ∧ db1.header.current_size = db.header.current_size ∧
      db1.header.version = db.header.version ∧
      db1.header.generation = db.header.generation ∧
      db1.header.num_records = sub64 db.header.num_records 1 := by
    rw [← hdb1]
    exact ⟨rfl, rfl, rfl, rfl, rfl, rfl, rfl, rfl, rfl, rfl, rfl, rfl⟩
  obtain ⟨g1, g2, g3, g4, g5, g6, g7, g8, g9, g10, g11, g12⟩ := hfacts
  clear hdb1
  have happ := @append_record_ok db1
    { type := DELETE, nextloc := Function.update (fun _ => 0) 0 (db.loc.forwardloc 0) }
    [] [] (by rw [g4]; exact ht) rfl (by show 0 ≤ MAXLEVEL; omega)
    (by
      intro d hd
      have hd1 : d ∈ db.mf.recs := g1 ▸ hd
      have := (hm.bound d hd1).2
      rw [g3, ← hs]; exact this)
    (by rw [g1, g3]; exact hs)
    (by rw [g1, hs]; exact h64)
  dsimp only at happ
  rw [happ]
  dsimp only
  have hDf : (disk_image db1.end_
      { type := DELETE, nextloc := Function.update (fun _ => 0) 0 (db.loc.forwardloc 0) }
      [] []) =
      { offset := db.end_, len := reclen 0 0 0, type := DELETE,
        nextloc := fun j => if j = 0 then db.loc.forwardloc 0 else 0,
        keyoffset := db.end_ + headlen 0 0 + 8 * (1 + 0) + 8,
        valoffset := db.end_ + headlen 0 0 + 8 * (1 + 0) + 8 + 0 } := by
    simp only [disk_image, g3, List.take_nil]
    congr 1
    funext i
    simp only [diskptrs, Function.update_apply]
    by_cases hi : i = 0
    · subst hi; simp
    · rw [if_neg (by omega), if_neg hi]
  rw [hDf]
  dsimp only
  generalize hdh : dirtied db1 = hdr4
  generalize hdm : dirtied_mf db1 = mh4
  rw [g1, g2, g3, g4, g5, g6, g7]
  have hdirty : hdr4.flags &&& DIRTY ≠ 0 := by rw [← hdh]; exact dirtied_flags _
  have hhdr : hdr4.current_size = db.header.current_size ∧ hdr4.version = db.header.version ∧
      hdr4.generation = db.header.generation ∧
      hdr4.num_records = sub64 db.header.num_records 1 := by
    rw [← hdh]
    obtain ⟨a1, a2, a3, a4, _⟩ := dirtied_other db1
    exact ⟨a1.trans g9, a2.trans g10, a3.trans g11, a4.trans g12⟩
  clear hdh hdm happ hDf
  rw [if_neg (by simp)]
  generalize hD : ({
      offset := db.end_
      len := reclen 0 0 0
      type := DELETE
      nextloc := fun j => if j = 0 then db.loc.forwardloc 0 else 0
      keyoffset := db.end_ + headlen 0 0 + 8 * (1 + 0) + 8
      valoffset := db.end_ + headlen 0 0 + 8 * (1 + 0) + 8 + 0 } : skiprecord) = D
  have hDo : D.offset = db.end_ := by rw [← hD]
  have hDl : D.level = 0 := by rw [← hD]
  have hDt : D.type = DELETE := by rw [← hD]
  have hDk : D.keylen = 0 := by rw [← hD]
  have hDv : D.vallen = 0 := by rw [← hD]
  have hDlen : D.len = reclen 0 0 0 := by rw [← hD]
  have hDn : ∀ j, D.nextloc j = if j = 0 then db.loc.forwardloc 0 else 0 := by
    intro j
    rw [← hD]
  have hDnorm : Norm D := by
    rw [← hD]
    refine ⟨by show 0 ≤ MAXLEVEL; omega, rfl, rfl, rfl, rfl, rfl, ?_⟩
    intro i hi
    show (if i = 0 then db.loc.forwardloc 0 else 0) = 0
    rw [if_neg (by dsimp only at hi; omega)]
  generalize hlvl : db.loc.record.level = lvl at hl0 hskip hml
  generalize hsrc : db1.rand_src = src1
  generalize hdb4 : ({
      mf := {
        size := db.end_ + reclen 0 0 0
        header := mh4
        recs := db.mf.recs ++ [D]
        lock_status := db.mf.lock_status }
      header := hdr4
      loc := {
        keybuf := db.loc.keybuf
        is_exactmatch := db.loc.is_exactmatch
        record := db.loc.record
        backloc := db.loc.backloc
        forwardloc := Function.update db.loc.forwardloc 0 db.end_
        generation := db.loc.generation
        end_ := db.loc.end_ }
      is_open := db.is_open
      end_ := db.end_ + reclen 0 0 0
      txn_num := db.txn_num
      current_txn := db.current_txn
      open_flags := db.open_flags
      rand_src := src1 } : dbengine) = db4
  have k1 : db4.mf.recs = db.mf.recs ++ [D] := by rw [← hdb4]
  have k2 : db4.mf.size = db.end_ + D.len := by rw [← hdb4, hDlen]
  have k3 : db4.end_ = db.end_ + D.len := by rw [← hdb4, hDlen]
  have k4 : db4.loc.backloc = db.loc.backloc := by rw [← hdb4]
  have k5 : db4.loc.forwardloc = Function.update db.loc.forwardloc 0 db.end_ := by rw [← hdb4]
  have k6 : db4.header = hdr4 := by rw [← hdb4]
  have k7 : db4.loc.keybuf = db.loc.keybuf ∧ db4.loc.generation = db.loc.generation ∧
      db4.is_open = db.is_open ∧ db4.txn_num = db.txn_num ∧
      db4.current_txn = db.current_txn ∧ db4.open_flags = db.open_flags ∧
      db4.mf.lock_status = db.mf.lock_status := by
    rw [← hdb4]; exact ⟨rfl, rfl, rfl, rfl, rfl, rfl, rfl⟩
  clear hdb4
  have hf4 : ∀ j, db4.loc.forwardloc j = if j = 0 then db.end_ else db.loc.forwardloc j := by
    intro j
    rw [k5, Function.update_apply]
  have hsize0 : 0 < db.mf.size := by rw [hs]; unfold HEADER_SIZE at h64; omega
  have hlinkS : Linked db.mf.recs S := by
    have := hf.chain.linked
    rw [hlive] at this
    have e : dummyNode :: (p ++ ([m] ++ S)) = (dummyNode :: p ++ [m]) ++ S := by simp
    rw [e] at this
    exact linked_suffix this
  have hD0 : D.nextloc 0 = nextAt 0 S := by
    rw [hDn, if_pos rfl]
    exact hfwd 0 (by unfold MAXLEVEL; omega)
  have hD1 : D.nextloc 1 = 0 := by rw [hDn, if_neg (by omega)]
  have hnS : ∀ i, nextAt i S < db.end_ := fun i => hs ▸ nextAt_lt hm hlinkS i hsize0
  have hposp : ∀ n ∈ p, 1 ≤ n.level :=
    fun n hn => hf.chain.level_pos n (by rw [hlive]; simp [hn])
  have H : PreStitch E db4 db.mf.recs D db.end_ p ([m] ++ S) := by
    refine ⟨k1, hDo, hDnorm, ⟨?_, ?_⟩, hm.nodup, hm.norm, ?_, ?_, k2, k3, h64, ?_, ?_, hposp, ?_,
      ?_, ?_⟩
    · rw [hD0]; exact hnS 0
    · rw [hD1]; unfold HEADER_SIZE at h64; omega
    · intro d hd; rw [← hs]; exact hm.bound d hd
    · exact hf.slots
    · rw [← hlive]; exact hf.chain.linked
    · rw [← hlive]; exact hf.chain.sorted
    · rw [k4]; exact hback
    · rw [k6]; exact hdirty
    · rw [hf4, if_pos rfl]
  have hm4 := H.mfok
  have hlink4 : Linked db4.mf.recs (dummyNode :: (p ++ ([m] ++ S))) := linked_mono H.link H.sub
  have hsp := @splice_file E hc db4 db.mf.recs D db.end_ p ([m] ++ S) S H lvl hml hl0
    (by
      intro i hi1 hi2
      by_cases hil : i < lvl
      · rw [if_pos hil, hf4, if_neg (by omega)]; exact hfwd i hi2
      · rw [if_neg hil]; exact hskip i (by omega))
    (Or.inl ⟨hDt, hD0.symm⟩)
    (linked_mono hlinkS H.sub)
    (fun n hn => Or.inl (List.mem_append_right _ hn))
    (sorted_remove (hlive ▸ hf.chain.sorted))
    (fun n hn => hf.chain.level_pos n (by rw [hlive]; simp [hn]))
  obtain ⟨hst, hfile⟩ := hsp
  rw [hst]
  dsimp only
  rw [if_neg (by simp)]
  have hbk : ∀ i, i < MAXLEVEL → ∃ n ∈ dummyNode :: p, db4.loc.backloc i = n.offset :=
    fun i hi => (back_not hc hm4 hlink4 H.sort H.back hi).2.2
  obtain ⟨pre1, elast⟩ := exists_last p
  have hlastN : NodeAt (stitched db4 lvl).mf.recs (lastNode p) S := by
    have e : dummyNode :: (p ++ S) = pre1 ++ lastNode p :: S := by
      have : dummyNode :: (p ++ S) = (dummyNode :: p) ++ S := rfl
      rw [this, elast]; simp
    exact linked_split hfile.chain.linked e
  obtain ⟨d, _, hrd, hrecd, _⟩ := nodeAt_read hfile.mf hlastN
  have hb0 : (stitched db4 lvl).loc.backloc 0 = (lastNode p).offset := by
    show db4.loc.backloc 0 = _
    rw [H.back 0 (by unfold MAXLEVEL; omega), lastAt_zero_last hposp]
  rw [hb0, hrd]
  dsimp only
  rw [if_neg (by simp)]
  refine ⟨_, p, m, S, stitch_rec db4 lvl, D, rfl, hfile.congr rfl rfl, ?_, hlive, hmk, ?_, ?_,
    hDo, ?_, hDt, hDl, ?_, ?_, hDk, ?_, hDv, hD0⟩
  · -- the location
    refine ⟨p, S, rfl, ?_, ?_, Or.inr ⟨rfl, ?_, hrecd, ?_⟩⟩
    · intro n hn
      show E.compar n.key db4.loc.keybuf < 0
      rw [k7.1]; exact hlt n hn
    · intro i hi
      show db4.loc.backloc i = _
      exact H.back i hi
    · intro n hn
      show E.compar db4.loc.keybuf n.key < 0
      rw [k7.1]; exact hgt n hn
    · intro i hi
      show Function.update db4.loc.forwardloc 0
        (Function.update (fun _ => 0) 0 (db.loc.forwardloc 0) 0) i = nextAt i S
      rw [Function.update_apply, hf4]
      by_cases hi0 : i = 0
      · rw [if_pos hi0, Function.update_same, hi0]
        exact hfwd 0 (by unfold MAXLEVEL; omega)
      · rw [if_neg hi0, if_neg hi0]
        exact hfwd i hi
  · -- the frame
    have hlen := norm_len_ge hDnorm
    refine ⟨k7.2.2.2.2.1, k7.2.2.1, k7.2.2.2.2.2.1, k7.2.2.2.1, k7.2.2.2.2.2.2, ?_, ?_, ?_, ?_,
      ?_, ?_, rfl, k7.2.1, k7.1⟩
    · show db4.header.current_size = _
      rw [k6]; exact hhdr.1
    · show db4.header.version = _
      rw [k6]; exact hhdr.2.1
    · show db4.header.generation = _
      rw [k6]; exact hhdr.2.2.1
    · show db4.header.flags &&& DIRTY ≠ 0
      rw [k6]; exact hdirty
    · show db4.mf.size = db4.end_
      rw [k2, k3]
    · show db.end_ < db4.end_
      rw [k3]; omega
  · show db4.mf.recs.map (stitch_rec db4 lvl) = _
    rw [k1]
  · unfold Dual
    rw [hD1]; omega
  · intro d hd
    refine stitch_rec_keeps lvl ?_ hd ?_
    · rw [k6, hhdr.1]; exact hcs
    · rw [H.fwd0]; exact hcse
  · intro d
    rcases stitch_rec_id_or db4 lvl d with h | ⟨i, hi, e⟩
    · exact Or.inl h
    · right
      obtain ⟨n, hn, e1⟩ := hbk i (by omega)
      refine ⟨n, ?_, by rw [← e1, e]⟩
      rcases List.mem_cons.1 hn with e2 | e2
      · rw [e2]; exact List.mem_cons_self _ _
      · exact List.mem_cons_of_mem _ (by rw [hlive]; exact List.mem_append_left _ e2)
  · show db4.header.num_records = _
    rw [k6]; exact hhdr.2.2.2

/-! ## The dual level zero pointer -/

theorem setloc_zero_slot0 (db : dbengine) (r : skiprecord) (z : Nat) :
    (_setloc db r 0 z).nextloc 0 =
      if db.header.current_size ≤ r.nextloc 0 then z
      else if db.header.current_size ≤ r.nextloc 1 then r.nextloc 0
      else if r.nextloc 0 < r.nextloc 1 then z else r.nextloc 0 := by
  unfold _setloc
  simp only [ne_eq, not_true_eq_false, if_false, ge_iff_le, gt_iff_lt]
  split
  · simp
  · split
    · simp
    · split <;> simp

theorem setloc_zero_slot1 (db : dbengine) (r : skiprecord) (z : Nat) :
    (_setloc db r 0 z).nextloc 1 =
      if db.header.current_size ≤ r.nextloc 0 then r.nextloc 1
      else if db.header.current_size ≤ r.nextloc 1 then z
      else if r.nextloc 0 < r.nextloc 1 then r.nextloc 1 else z := by
  unfold _setloc
  simp only [ne_eq, not_true_eq_false, if_false, ge_iff_le, gt_iff_lt]
  split
  · simp
  · split
    · simp
    · split <;> simp

theorem parked_step {db : dbengine} {a j z : Nat} {r : skiprecord}
    (ha : a < db.header.current_size) (hz : db.header.current_size ≤ z)
    (h : Parked db.header.current_size a j r) :
    Parked db.header.current_size a j (_setloc db r 0 z) := by
  unfold Parked at h ⊢
  rw [setloc_zero_slot0, setloc_zero_slot1]
  rcases h with ⟨hj, h0, h1⟩ | ⟨hj, h1, h0⟩
  · left
    have n0 : ¬ db.header.current_size ≤ r.nextloc 0 := by omega
    rw [if_neg n0, if_pos h1, if_neg n0, if_pos h1]
    exact ⟨hj, h0, hz⟩
  · right
    rw [if_pos h0, if_pos h0]
    exact ⟨hj, h1, hz⟩

theorem parked_seq {db : dbengine} {a j : Nat} (ha : a < db.header.current_size)
    (offs : List Nat) (hz : ∀ z ∈ offs, db.header.current_size ≤ z) (r : skiprecord)
    (h : Parked db.header.current_size a j r) :
    Parked db.header.current_size a j (setloc_zero_seq db r offs) := by
  induction offs generalizing r with
  | nil => exact h
  | cons z t ih =>
    exact ih (fun y hy => hz y (List.mem_cons_of_mem _ hy)) _
      (parked_step ha (hz z (List.mem_cons_self _ _)) h)

theorem parked_getzero {db : dbengine} {a j : Nat} {r : skiprecord}
    (ha : a < db.header.current_size) (h : Parked db.header.current_size a j r) :
    _getzero { db with end_ := db.header.current_size } r = a := by
  unfold _getzero
  simp only [ge_iff_le]
  rcases h with ⟨_, h0, h1⟩ | ⟨_, h1, h0⟩
  · rw [if_neg (by omega), if_pos h1, h0]
  · rw [if_pos h0, h1]

/-- C9: for a record whose two level zero slots are both below
`current_size`, after one or more level zero `_setloc` calls with offsets at
or past `current_size` the slot that held the larger value is untouched, and
`_getzero` with `end = current_size` returns that original maximum. -/
theorem setloc_keeps_committed_pointer (db : dbengine) (record : skiprecord)
    (z : Nat) (offs : List Nat)
    (h0 : record.nextloc 0 < db.header.current_size)
    (h1 : record.nextloc 1 < db.header.current_size)
    (hz : ∀ y ∈ z :: offs, db.header.current_size ≤ y) :
    (∃ j, j ≤ 1 ∧ record.nextloc j = max (record.nextloc 0) (record.nextloc 1) ∧
      (setloc_zero_seq db record (z :: offs)).nextloc j = record.nextloc j) ∧
    _getzero { db with end_ := db.header.current_size } (setloc_zero_seq db record (z :: offs)) =
      max (record.nextloc 0) (record.nextloc 1) := by
  have hmax : max (record.nextloc 0) (record.nextloc 1) < db.header.current_size :=
    max_lt h0 h1
  have hz0 := hz z (List.mem_cons_self _ _)
  have hfirst : ∃ j, j ≤ 1 ∧ record.nextloc j = max (record.nextloc 0) (record.nextloc 1) ∧
      Parked db.header.current_size (max (record.nextloc 0) (record.nextloc 1)) j
        (_setloc db record 0 z) := by
    unfold Parked
    rw [setloc_zero_slot0, setloc_zero_slot1]
    have n0 : ¬ db.header.current_size ≤ record.nextloc 0 := by omega
    have n1 : ¬ db.header.current_size ≤ record.nextloc 1 := by omega
    by_cases hlt : record.nextloc 0 < record.nextloc 1
    · simp only [n0, n1, hlt, if_false, if_true]
      have e : max (record.nextloc 0) (record.nextloc 1) = record.nextloc 1 :=
        max_eq_right (by omega)
      exact ⟨1, le_refl _, e.symm, Or.inr ⟨rfl, e.symm, hz0⟩⟩
    · simp only [n0, n1, hlt, if_false]
      have e : max (record.nextloc 0) (record.nextloc 1) = record.nextloc 0 :=
        max_eq_left (by omega)
      exact ⟨0, by omega, e.symm, Or.inl ⟨rfl, e.symm, hz0⟩⟩
  obtain ⟨j, hj, hjm, hp⟩ := hfirst
  have hseq := parked_seq hmax offs (fun y hy => hz y (List.mem_cons_of_mem _ hy)) _ hp
  have hseq1 : Parked db.header.current_size (max (record.nextloc 0) (record.nextloc 1)) j
      (setloc_zero_seq db record (z :: offs)) := hseq
  refine ⟨⟨j, hj, hjm, ?_⟩, parked_getzero hmax hseq1⟩
  rcases hseq1 with ⟨e, h, _⟩ | ⟨e, h, _⟩
  · subst e; exact h.trans hjm.symm
  · subst e; exact h.trans hjm.symm

/-- A record with slots 10 and 20 below the committed size 100 keeps the 20
through two `_setloc` calls. -/
theorem setloc_keeps_committed_pointer_witness :
    _getzero { ({ header := { current_size := 100 } } : dbengine) with end_ := 100 }
      (setloc_zero_seq { header := { current_size := 100 } }
        { nextloc := fun i => if i = 0 then 10 else if i = 1 then 20 else 0 } [150, 200]) = 20 :=
  (setloc_keeps_committed_pointer { header := { current_size := 100 } }
    { nextloc := fun i => if i = 0 then 10 else if i = 1 then 20 else 0 } 150 [200]
    (by decide) (by decide) (by decide)).2

/-- C11 (as stated, refuted): with both level zero slots at or past the end,
here 200 and 300 against an end and committed size of 100, `_getzero` returns
the second slot, an offset past the committed size. -/
theorem getzero_read_rule_counterexample :
    _getzero { header := { current_size := 100 }, end_ := 100 }
      { nextloc := fun i => if i = 0 then 200 else if i = 1 then 300 else 0 } = 300 ∧
    ¬ (300 < 100) := by
  decide

/-- C11 (amended): when both level zero slots are below `end`, `_getzero`
returns their maximum; during recovery (`end = current_size`), when at most
one of the two slots is at or past `current_size`, `_getzero` returns the
largest slot value that is below `current_size`, so an offset below
`current_size`. -/
theorem getzero_read_rule (db : dbengine) (record : skiprecord) :
    (record.nextloc 0 < db.end_ → record.nextloc 1 < db.end_ →
      _getzero db record = max (record.nextloc 0) (record.nextloc 1)) ∧
    (db.end_ = db.header.current_size →
      ¬ (db.header.current_size ≤ record.nextloc 0 ∧
         db.header.current_size ≤ record.nextloc 1) →
      _getzero db record < db.header.current_size ∧
      (_getzero db record = record.nextloc 0 ∨ _getzero db record = record.nextloc 1) ∧
      ∀ j, j ≤ 1 → record.nextloc j < db.header.current_size →
        record.nextloc j ≤ _getzero db record) := by
  refine ⟨fun h0 h1 => getzero_max h0 h1, ?_⟩
  intro he hd
  unfold _getzero
  rw [he]
  simp only [ge_iff_le, gt_iff_lt]
  have hj : ∀ j, j ≤ 1 → j = 0 ∨ j = 1 := by intro j hj; omega
  by_cases h0 : db.header.current_size ≤ record.nextloc 0
  · have h1 : ¬ db.header.current_size ≤ record.nextloc 1 := fun h => hd ⟨h0, h⟩
    rw [if_pos h0]
    refine ⟨by omega, Or.inr rfl, ?_⟩
    intro j hj1 hlt
    rcases hj j hj1 with e | e
    · subst e; omega
    · subst e; exact le_refl _
  · rw [if_neg h0]
    by_cases h1 : db.header.current_size ≤ record.nextloc 1
    · rw [if_pos h1]
      refine ⟨by omega, Or.inl rfl, ?_⟩
      intro j hj1 hlt
      rcases hj j hj1 with e | e
      · subst e; exact le_refl _
      · subst e; omega
    · rw [if_neg h1]
      by_cases h2 : record.nextloc 1 < record.nextloc 0
      · rw [if_pos h2]
        refine ⟨by omega, Or.inl rfl, ?_⟩
        intro j hj1 _
        rcases hj j hj1 with e | e
        · subst e; exact le_refl _
        · subst e; omega
      · rw [if_neg h2]
        refine ⟨by omega, Or.inr rfl, ?_⟩
        intro j hj1 _
        rcases hj j hj1 with e | e
        · subst e; omega
        · subst e; exact le_refl _

/-- A record with one slot past the committed size 100: `_getzero` returns
the other slot, 40. -/
theorem getzero_read_rule_witness :
    _getzero { header := { current_size := 100 }, end_ := 100 }
      { nextloc := fun i => if i = 0 then 150 else if i = 1 then 40 else 0 } < 100 :=
  ((getzero_read_rule { header := { current_size := 100 }, end_ := 100 }
    { nextloc := fun i => if i = 0 then 150 else if i = 1 then 40 else 0 }).2
    rfl (by decide)).1

/-! ## The content of the database as a finite map -/

theorem lookup_nil (k : List Nat) : lookup [] k = none := rfl

theorem lookup_cons (x : node) (t : List node) (k : List Nat) :
    lookup (x :: t) k = if x.key = k then some x.val else lookup t k := by
  unfold lookup
  by_cases h : x.key = k
  · rw [List.find?_cons_of_pos _ (by simpa using h), if_pos h]; rfl
  · rw [List.find?_cons_of_neg _ (by simpa using h), if_neg h]

theorem lookup_append_of_not {a : List node} {k : List Nat} (h : ∀ n ∈ a, n.key ≠ k)
    (b : List node) : lookup (a ++ b) k = lookup b k := by
  induction a with
  | nil => rfl
  | cons x t ih =>
    rw [List.cons_append, lookup_cons, if_neg (h x (List.mem_cons_self _ _))]
    exact ih (fun n hn => h n (List.mem_cons_of_mem _ hn))

theorem lookup_none_of_not {a : List node} {k : List Nat} (h : ∀ n ∈ a, n.key ≠ k) :
    lookup a k = none := by
  have := lookup_append_of_not h []
  rw [List.append_nil] at this
  rw [this]; rfl

theorem lookup_skip {x : node} {k : List Nat} (h : x.key ≠ k) (p S : List node) :
    lookup (p ++ x :: S) k = lookup (p ++ S) k := by
  induction p with
  | nil => rw [List.nil_append, List.nil_append, lookup_cons, if_neg h]
  | cons y t ih =>
    rw [List.cons_append, List.cons_append, lookup_cons, lookup_cons, ih]

theorem key_ne_of_lt {E : Env} (hc : CompareLaws E.compar) {a b : List Nat}
    (h : E.compar a b < 0) : a ≠ b := by
  intro e
  rw [e] at h
  exact hc.irrefl b h

theorem key_ne_of_gt {E : Env} (hc : CompareLaws E.compar) {a b : List Nat}
    (h : E.compar a b < 0) : b ≠ a := fun e => key_ne_of_lt hc h e.symm

/-- The content at the place of a key that is absent. -/
theorem lookup_gap {E : Env} (hc : CompareLaws E.compar) {p S : List node} {k : List Nat}
    (hp : ∀ n ∈ p, E.compar n.key k < 0) (hS : ∀ n ∈ S, E.compar k n.key < 0) :
    lookup (p ++ S) k = none := by
  apply lookup_none_of_not
  intro n hn
  rcases List.mem_append.1 hn with h | h
  · exact key_ne_of_lt hc (hp n h)
  · exact key_ne_of_gt hc (hS n h)

/-- The content at the place of a key that is present. -/
theorem lookup_hit {E : Env} (hc : CompareLaws E.compar) {p S : List node} {x : node}
    {k : List Nat} (hp : ∀ n ∈ p, E.compar n.key k < 0) (hx : x.key = k) :
    lookup (p ++ x :: S) k = some x.val := by
  rw [lookup_append_of_not (fun n hn => key_ne_of_lt hc (hp n hn)), lookup_cons, if_pos hx]

/-- What the location says about the content at its key. -/
theorem locAt_lookup {E : Env} (hc : CompareLaws E.compar) {loc : skiploc} {live : List node}
    (h : LocAt E loc live) :
    lookup live loc.keybuf = if loc.is_exactmatch then some loc.record.val else none := by
  obtain ⟨p, S, hlive, hlt, _, hex | hne⟩ := h
  · obtain ⟨hx, m, S1, hS, hmk, hrec, _⟩ := hex
    rw [hx, hlive, hS]
    simp only [if_true]
    rw [lookup_hit hc hlt hmk, hrec.2.2.2]
  · obtain ⟨hx, hgt, _, _⟩ := hne
    rw [hx, hlive]
    simp only [Bool.false_eq_true, if_false]
    exact lookup_gap hc hlt hgt

/-! ## The state inside a transaction -/

/-- The state after `find_loc` in a transaction. -/
theorem find_loc_txn {E : Env} (hc : CompareLaws E.compar) {db : dbengine} {live : List node}
    (h : InTxn E db live) (key : List Nat) :
    ∃ loc1, find_loc E db key = some (0, { db with loc := loc1 }) ∧
      loc1.keybuf = key ∧ loc1.end_ = db.end_ ∧ loc1.generation = db.header.generation ∧
      LocAt E loc1 live ∧ InTxn E { db with loc := loc1 } live := by
  obtain ⟨loc1, h1, h2, h3, h4, h5⟩ := find_loc_ok hc h.file h.cache key
  exact ⟨loc1, h1, h2, h3, h4, h5,
    ⟨h.file.congr rfl rfl, h.txn, h.size, h.cs_pos, h.cs_le, fun _ _ => h5, h.dual⟩⟩

/-! ## Writes inside a transaction -/

theorem step_dual {cs : Nat} {db db1 : dbengine} {live live1 : List node}
    (h : Step cs db db1 live live1) (hd : ∀ d ∈ db.mf.recs, Dual cs d) :
    ∀ d ∈ db1.mf.recs, Dual cs d := by
  obtain ⟨f, D, hr, _, _, hD, hk, _, _⟩ := h
  intro d1 hd1
  rw [hr] at hd1
  obtain ⟨d, hdm, e⟩ := List.mem_map.1 hd1
  rw [← e]
  rcases List.mem_append.1 hdm with h1 | h1
  · exact (hk d (hd d h1)).dual
  · simp only [List.mem_singleton] at h1
    rw [h1]; exact (hk D hD).dual

theorem intxn_of_frame {E : Env} {db db1 : dbengine} {live live1 : List node}
    (h : InTxn E db live) (hf : FileOK E db1 live1) (hl : LocAt E db1.loc live1)
    (fr : Frame db db1) (st : Step db.header.current_size db db1 live live1) :
    InTxn E db1 live1 := by
  refine ⟨hf, by rw [fr.txn]; exact h.txn, fr.size, by rw [fr.cs]; exact h.cs_pos, ?_,
    fun _ _ => hl, ?_⟩
  · rw [fr.cs]
    have := h.cs_le
    have := fr.end_lt
    omega
  · rw [fr.cs]
    exact step_dual st h.dual

theorem sub64_add64 (e rp l : Nat) : sub64 (e + l) (add64 rp l) = sub64 e rp := by
  unfold sub64 add64
  simp only [Nat.mod_mod]
  have h1 := Nat.mod_lt e (show 0 < 2 ^ 64 by norm_num)
  have h2 := Nat.mod_lt rp (show 0 < 2 ^ 64 by norm_num)
  have h3 := Nat.mod_lt l (show 0 < 2 ^ 64 by norm_num)
  have h4 : (e + l) % 2 ^ 64 = (e % 2 ^ 64 + l % 2 ^ 64) % 2 ^ 64 := Nat.add_mod _ _ _
  have h5 : (rp + l) % 2 ^ 64 = (rp % 2 ^ 64 + l % 2 ^ 64) % 2 ^ 64 := Nat.add_mod _ _ _
  rw [h4, h5]
  generalize e % 2 ^ 64 = a at *
  generalize rp % 2 ^ 64 = b at *
  generalize l % 2 ^ 64 = c at *
  split <;> split <;> omega

theorem add64_succ (a : Nat) : add64 (a % 2 ^ 64) 1 = (a + 1) % 2 ^ 64 := by
  unfold add64
  omega

theorem add64_sub64_one (a : Nat) : add64 (sub64 a 1) 1 = a % 2 ^ 64 := by
  unfold add64 sub64
  have h1 := Nat.mod_lt a (show 0 < 2 ^ 64 by norm_num)
  have e : (1 : Nat) % 2 ^ 64 = 1 := by norm_num
  rw [e]
  generalize a % 2 ^ 64 = b at *
  split <;> omega

theorem sub64_pred (a : Nat) (h : 1 ≤ a) : sub64 (a % 2 ^ 64) 1 = (a - 1) % 2 ^ 64 := by
  unfold sub64
  have e : (1 : Nat) % 2 ^ 64 = 1 := by norm_num
  rw [e, Nat.mod_mod]
  split <;> omega

/-- `store_here` in a transaction: the key of the location now holds `val`
and every other key holds what it held; a new key adds one to `num_records`
and its record length to `repack_size`. -/
theorem store_txn {E : Env} (hc : CompareLaws E.compar) {db : dbengine} {live : List node}
    (h : InTxn E db live) (hloc : LocAt E db.loc live) (hk : db.loc.keybuf ≠ [])
    (val : List Nat) :
    ∃ db1 live1, store_here db val = some (0, db1) ∧ InTxn E db1 live1 ∧
      (∀ k, lookup live1 k = if k = db.loc.keybuf then some val else lookup live k) ∧
      Frame db db1 ∧ Step db.header.current_size db db1 live live1 ∧
      (db.loc.is_exactmatch = false →
        db1.header.num_records = add64 db.header.num_records 1 ∧
        sub64 db1.end_ db1.header.repack_size = sub64 db.end_ db.header.repack_size) ∧
      db1.loc.record.keylen = db1.loc.record.key.length ∧
      (db.header.num_records = live.length % 2 ^ 64 →
        db1.header.num_records = live1.length % 2 ^ 64) := by
  obtain ⟨db1, p, pre, S, N, f, D, h1, h2, h3, h4, h5, h6, h7, h8, h9, h10, h11, h12, h13, h14,
    h15, h16, h17, h18, h19⟩ := store_here_ok hc h.file hloc h.txn h.size hk rfl h.cs_pos h.cs_le val
  have hsort := h.file.chain.sorted
  rw [h4] at hsort
  have hS2 := h2.chain.sorted
  have hpk : ∀ n ∈ p, n.key ≠ db.loc.keybuf := by
    intro n hn
    have := sorted_before hS2 (List.mem_cons_self N S) n hn
    rw [h6] at this
    exact key_ne_of_lt hc this
  have hSk : ∀ n ∈ S, n.key ≠ db.loc.keybuf := by
    intro n hn
    have := sorted_tail hS2 n hn
    rw [h6] at this
    exact key_ne_of_gt hc this
  have st : Step db.header.current_size db db1 live (p ++ N :: S) := by
    refine ⟨f, D, h10, h11, ?_, h12, h14, h15, ?_⟩
    · intro ht; rw [h13] at ht
      unfold RECORD DELETE at ht; omega
    · intro n hn
      rcases List.mem_append.1 hn with e | e
      · left; rw [h4]; exact List.mem_append_left _ e
      · rcases List.mem_cons.1 e with e1 | e1
        · right; rw [e1]; exact h8
        · left; rw [h4]
          exact List.mem_append_right _ (List.mem_append_right _ e1)
  refine ⟨db1, p ++ N :: S, h1, intxn_of_frame h h2 h3 h9 st, ?_, h9, st, ?_, h19, ?_⟩
  rotate_left
  · intro hx
    rw [hx] at h17 h18
    simp only [Bool.false_eq_true, if_false] at h17 h18
    rw [h17, h18, h16, sub64_add64]
    exact ⟨rfl, rfl⟩
  · intro hnr
    rw [h17, hnr, h4]
    rcases h5 with ⟨hx, e⟩ | ⟨hx, m, e, _⟩
    · rw [hx, e]
      simp only [Bool.false_eq_true, if_false, List.nil_append, List.length_append,
        List.length_cons]
      rw [add64_succ]
      congr 1
    · rw [hx, e]
      simp only [if_true, List.length_append, List.length_cons, List.length_nil]
      rw [add64_sub64_one, Nat.mod_mod]
      congr 1
      omega
  intro k
  by_cases hkk : k = db.loc.keybuf
  · rw [if_pos hkk, hkk, lookup_append_of_not hpk, lookup_cons, if_pos h6, h7]
  · rw [if_neg hkk, lookup_skip (by rw [h6]; exact fun e => hkk e.symm), h4]
    rcases h5 with ⟨_, e⟩ | ⟨_, m, e, hm⟩
    · rw [e]; rfl
    · rw [e]
      exact (lookup_skip (by rw [hm]; exact fun e => hkk e.symm) p S).symm

/-- `delete_here` in a transaction: the key of the location is gone and
every other key holds what it held. -/
theorem delete_txn {E : Env} (hc : CompareLaws E.compar) {db : dbengine} {live : List node}
    (h : InTxn E db live) (hloc : LocAt E db.loc live) (hx : db.loc.is_exactmatch = true) :
    ∃ db1 live1, delete_here db = some (0, db1) ∧ InTxn E db1 live1 ∧
      (∀ k, lookup live1 k = if k = db.loc.keybuf then none else lookup live k) ∧
      Frame db db1 ∧ Step db.header.current_size db db1 live live1 ∧
      (db.header.num_records = live.length % 2 ^ 64 →
        db1.header.num_records = live1.length % 2 ^ 64) := by
  obtain ⟨db1, p, m, S, f, D, h1, h2, h3, h4, h5, h9, h10, h11, h12, h13, h13b, h14, h15, h16,
    h17, _, _⟩ :=
    delete_here_ok hc h.file hloc hx h.txn h.size rfl h.cs_pos h.cs_le
  have hsort := h.file.chain.sorted
  rw [h4] at hsort
  have hpk : ∀ n ∈ p, n.key ≠ db.loc.keybuf := by
    intro n hn
    have := sorted_before hsort (List.mem_cons_self m S) n hn
    rw [h5] at this
    exact key_ne_of_lt hc this
  have hSk : ∀ n ∈ S, n.key ≠ db.loc.keybuf := by
    intro n hn
    have := sorted_tail hsort n hn
    rw [h5] at this
    exact key_ne_of_gt hc this
  have st : Step db.header.current_size db db1 live (p ++ S) := by
    refine ⟨f, D, h10, h11, fun _ => ⟨h13b, h16⟩, h12, h14, h15, ?_⟩
    intro n hn
    left; rw [h4]
    rcases List.mem_append.1 hn with e | e
    · exact List.mem_append_left _ e
    · exact List.mem_append_right _ (List.mem_cons_of_mem _ e)
  refine ⟨db1, p ++ S, h1, intxn_of_frame h h2 h3 h9 st, ?_, h9, st, ?_⟩
  swap
  · intro hnr
    rw [h17, hnr, h4]
    simp only [List.length_append, List.length_cons]
    rw [sub64_pred _ (by omega)]
    congr 1
  intro k
  by_cases hkk : k = db.loc.keybuf
  · rw [if_pos hkk, hkk]
    apply lookup_none_of_not
    intro n hn
    rcases List.mem_append.1 hn with e | e
    · exact hpk n e
    · exact hSk n e
  · rw [if_neg hkk, h4]
    exact (lookup_skip (by rw [h5]; exact fun e => hkk e.symm) p S).symm

/-! ## `skipwrite` -/

theorem txnFrame_of_frame {db db1 : dbengine} (fr : Frame db db1) : TxnFrame db db1 :=
  ⟨fr.txn, fr.is_open, fr.open_flags, fr.txn_num, fr.lock, fr.cs, fr.version, fr.generation,
    Nat.le_of_lt fr.end_lt⟩

theorem txnFrame_of_frame_loc {db db1 : dbengine} {loc1 : skiploc}
    (fr : Frame { db with loc := loc1 } db1) : TxnFrame db db1 :=
  ⟨fr.txn, fr.is_open, fr.open_flags, fr.txn_num, fr.lock, fr.cs, fr.version, fr.generation,
    Nat.le_of_lt fr.end_lt⟩

theorem txnFrame_loc (db : dbengine) (loc1 : skiploc) : TxnFrame db { db with loc := loc1 } :=
  ⟨rfl, rfl, rfl, rfl, rfl, rfl, rfl, rfl, le_refl _⟩

/-- The result of `skipwrite` in a transaction: the code, the state, and
the content. -/
theorem skipwrite_ok {E : Env} (hc : CompareLaws E.compar) {db : dbengine} {live : List node}
    (h : InTxn E db live) {key : List Nat} (hk : key ≠ []) (data : Option (List Nat))
    (force : Bool) :
    ∃ r db1 live1,
      skipwrite E db key data force = some (r, db1) ∧
      r = write_code (lookup live key).isSome data force ∧
      InTxn E db1 live1 ∧
      (∀ k, lookup live1 k = if r = 0 ∧ k = key then data else lookup live k) ∧
      TxnFrame db db1 ∧ Wrote db db1 live live1 ∧
      (r ≠ 0 ∨ (data = none ∧ lookup live key = none) →
        db1.mf = db.mf ∧ db1.end_ = db.end_ ∧ live1 = live) ∧
      db1.loc.end_ = db1.end_ ∧
      (db.header.num_records = live.length % 2 ^ 64 →
        db1.header.num_records = live1.length % 2 ^ 64) := by
  obtain ⟨loc1, h1, h2, h3, h4, h5, h6⟩ := find_loc_txn hc h key
  have hlk := locAt_lookup hc h5
  rw [h2] at hlk
  have hE : CYRUSDB_EXISTS ≠ 0 := by unfold CYRUSDB_EXISTS; omega
  have hN : CYRUSDB_NOTFOUND ≠ 0 := by unfold CYRUSDB_NOTFOUND; omega
  have same : ∀ (c : Int), (c = 0 → data = lookup live key) →
      (∀ k, lookup live k = if c = 0 ∧ k = key then data else lookup live k) := by
    intro c hcd k
    by_cases hk1 : c = 0 ∧ k = key
    · rw [if_pos hk1, hk1.2, hcd hk1.1]
    · rw [if_neg hk1]
  have keep : Wrote db { db with loc := loc1 } live live := Or.inl ⟨rfl, rfl, rfl, rfl⟩
  have upd : ∀ (live1 : List node) (v : Option (List Nat)),
      (∀ k, lookup live1 k = if k = loc1.keybuf then v else lookup live k) →
      ∀ k, lookup live1 k = if (0 : Int) = 0 ∧ k = key then v else lookup live k := by
    intro live1 v hv k
    rw [hv k, h2]
    by_cases hkk : k = key
    · rw [if_pos hkk, if_pos ⟨rfl, hkk⟩]
    · rw [if_neg hkk, if_neg (fun hh => hkk hh.2)]
  unfold skipwrite
  rw [h1]
  simp only [ne_eq, not_true_eq_false, if_false]
  by_cases hx : loc1.is_exactmatch = true
  · rw [hx] at hlk
    simp only [if_true] at hlk
    simp only [hx, if_true]
    cases data with
    | none =>
      obtain ⟨db1, live1, d1, d2, d3, d4, d5, d6⟩ := delete_txn hc h6 h5 hx
      refine ⟨0, db1, live1, d1, by simp [write_code, hlk], d2, upd live1 none d3,
        txnFrame_of_frame_loc d4, Or.inr ⟨d4.dirty, d4.end_lt, d5⟩, ?_, d4.loc_end, d6⟩
      intro hh
      rcases hh with hh | ⟨_, hh⟩
      · exact absurd rfl hh
      · rw [hlk] at hh; cases hh
    | some d =>
      by_cases hf : force = true
      · subst hf
        simp only [not_true_eq_false, if_false]
        by_cases hsame : E.compar d (_val loc1.record) = 0
        · rw [if_pos hsame]
          have hd : d = loc1.record.val := (hc.eq_zero _ _).1 hsame
          refine ⟨0, _, live, rfl, by simp [write_code, hlk], h6,
            same 0 (fun _ => by rw [hd, hlk]), txnFrame_loc db loc1, keep, ?_, h3, fun hh => hh⟩
          intro _
          exact ⟨rfl, rfl, rfl⟩
        · rw [if_neg hsame]
          obtain ⟨db1, live1, d1, d2, d3, d4, d5, _, _, d8⟩ :=
            store_txn hc h6 h5 (by show loc1.keybuf ≠ []; rw [h2]; exact hk) d
          refine ⟨0, db1, live1, d1, by simp [write_code, hlk], d2, upd live1 (some d) d3,
            txnFrame_of_frame_loc d4, Or.inr ⟨d4.dirty, d4.end_lt, d5⟩, ?_, d4.loc_end, d8⟩
          intro hh
          rcases hh with hh | ⟨hh, _⟩
          · exact absurd rfl hh
          · cases hh
      · have hf0 : force = false := by simpa using hf
        subst hf0
        simp only [Bool.false_eq_true, not_false_eq_true, if_true]
        refine ⟨CYRUSDB_EXISTS, _, live, rfl, by simp [write_code, hlk], h6, ?_,
          txnFrame_loc db loc1, keep, fun _ => ⟨rfl, rfl, rfl⟩, h3, fun hh => hh⟩
        intro k
        rw [if_neg (fun hh => hE hh.1)]
  · have hx0 : loc1.is_exactmatch = false := by simpa using hx
    rw [hx0] at hlk
    simp only [Bool.false_eq_true, if_false] at hlk
    simp only [hx0, Bool.false_eq_true, if_false]
    cases data with
    | some d =>
      obtain ⟨db1, live1, d1, d2, d3, d4, d5, _, _, d8⟩ :=
        store_txn hc h6 h5 (by show loc1.keybuf ≠ []; rw [h2]; exact hk) d
      refine ⟨0, db1, live1, d1, by simp [write_code, hlk], d2, upd live1 (some d) d3,
        txnFrame_of_frame_loc d4, Or.inr ⟨d4.dirty, d4.end_lt, d5⟩, ?_, d4.loc_end, d8⟩
      intro hh
      rcases hh with hh | ⟨hh, _⟩
      · exact absurd rfl hh
      · cases hh
    | none =>
      by_cases hf : force = true
      · subst hf
        simp only [not_true_eq_false, if_false]
        exact ⟨0, _, live, rfl, by simp [write_code, hlk], h6, same 0 (fun _ => hlk.symm),
          txnFrame_loc db loc1, keep, fun _ => ⟨rfl, rfl, rfl⟩, h3, fun hh => hh⟩
      · have hf0 : force = false := by simpa using hf
        subst hf0
        simp only [Bool.false_eq_true, not_false_eq_true, if_true]
        refine ⟨CYRUSDB_NOTFOUND, _, live, rfl, by simp [write_code, hlk], h6, ?_,
          txnFrame_loc db loc1, keep, fun _ => ⟨rfl, rfl, rfl⟩, h3, fun hh => hh⟩
        intro k
        rw [if_neg (fun hh => hN hh.1)]

/-! ## The raw comparator -/

theorem raw_eq_zero (a b : List Nat) : bsearch_ncompare_raw a b = 0 ↔ a = b := by
  induction a generalizing b with
  | nil =>
    cases b with
    | nil => simp [bsearch_ncompare_raw]
    | cons y t => simp [bsearch_ncompare_raw]
  | cons x s ih =>
    cases b with
    | nil => simp [bsearch_ncompare_raw]
    | cons y t =>
      simp only [bsearch_ncompare_raw, List.cons.injEq]
      by_cases h1 : x < y
      · rw [if_pos h1]
        constructor
        · intro h; omega
        · intro h; omega
      · rw [if_neg h1]
        by_cases h2 : y < x
        · rw [if_pos h2]
          constructor
          · intro h; omega
          · intro h; omega
        · rw [if_neg h2, ih t]
          constructor
          · intro h; exact ⟨by omega, h⟩
          · intro h; exact h.2

theorem raw_lt_gt (a b : List Nat) :
    bsearch_ncompare_raw a b < 0 ↔ 0 < bsearch_ncompare_raw b a := by
  induction a generalizing b with
  | nil =>
    cases b with
    | nil => simp [bsearch_ncompare_raw]
    | cons y t => simp [bsearch_ncompare_raw]
  | cons x s ih =>
    cases b with
    | nil => simp [bsearch_ncompare_raw]
    | cons y t =>
      simp only [bsearch_ncompare_raw]
      by_cases h1 : x < y
      · rw [if_pos h1, if_neg (by omega), if_pos h1]
        constructor <;> intro _ <;> omega
      · rw [if_neg h1]
        by_cases h2 : y < x
        · rw [if_pos h2, if_pos h2]
          constructor <;> intro h <;> omega
        · rw [if_neg h2, if_neg h2, if_neg h1]
          exact ih t

theorem raw_trans (a b c : List Nat) (h1 : bsearch_ncompare_raw a b < 0)
    (h2 : bsearch_ncompare_raw b c < 0) : bsearch_ncompare_raw a c < 0 := by
  induction a generalizing b c with
  | nil =>
    cases c with
    | nil =>
      cases b with
      | nil => simp [bsearch_ncompare_raw] at h1
      | cons y t => simp [bsearch_ncompare_raw] at h2
    | cons z u => simp [bsearch_ncompare_raw]
  | cons x s ih =>
    cases b with
    | nil => simp [bsearch_ncompare_raw] at h1
    | cons y t =>
      cases c with
      | nil => simp [bsearch_ncompare_raw] at h2
      | cons z u =>
        simp only [bsearch_ncompare_raw] at h1 h2 ⊢
        by_cases a1 : x < y
        · by_cases b1 : y < z
          · rw [if_pos (by omega)]; omega
          · rw [if_neg b1] at h2
            by_cases b2 : z < y
            · rw [if_pos b2] at h2; omega
            · rw [if_pos (by omega)]; omega
        · rw [if_neg a1] at h1
          by_cases a2 : y < x
          · rw [if_pos a2] at h1; omega
          · rw [if_neg a2] at h1
            by_cases b1 : y < z
            · rw [if_pos (by omega)]; omega
            · rw [if_neg b1] at h2
              by_cases b2 : z < y
              · rw [if_pos b2] at h2; omega
              · rw [if_neg b2] at h2
                rw [if_neg (by omega), if_neg (by omega)]
                exact ih t u h1 h2

/-- The raw comparator is a strict total order with the empty key least. -/
theorem raw_laws : CompareLaws raw_env.compar :=
  ⟨raw_eq_zero, raw_lt_gt, raw_trans, by
    intro a ha
    cases a with
    | nil => exact absurd rfl ha
    | cons x s => simp [raw_env, bsearch_ncompare_raw]⟩

/-! ## Between transactions -/

theorem fileOK_size64 {E : Env} {db : dbengine} {live : List node} (h : FileOK E db live) :
    HEADER_SIZE + 24 ≤ db.mf.size := by
  obtain ⟨d, hd, h1, _⟩ := h.chain.linked.1
  have := (h.mf.bound d hd).2
  have := (h.mf.bound d hd).1
  have := norm_len_ge (h.mf.norm d hd)
  omega

theorem read_header_idle {E : Env} {db : dbengine} {live : List node} (h : Idle E db live)
    (ls : Nat) :
    read_header { db with mf := { db.mf with lock_status := ls } } =
      (0, { reread db with mf := { db.mf with lock_status := ls } }) := by
  have h64 : HEADER_SIZE + 24 ≤ (reread db).mf.size := fileOK_size64 h.file
  have h64 : HEADER_SIZE + 24 ≤ db.mf.size := h64
  unfold read_header _size
  have n1 : ¬ db.mf.size < HEADER_SIZE := by omega
  have n2 : ¬ db.mf.header.version > VERSION := by have := h.version; omega
  simp only [n1, n2, if_false]
  rfl

theorem db_is_clean_idle {E : Env} {db : dbengine} {live : List node} (h : Idle E db live)
    (ls : Nat) :
    db_is_clean { reread db with mf := { db.mf with lock_status := ls } } = true := by
  unfold db_is_clean _size
  have e1 : ¬ db.mf.header.current_size ≠ db.mf.size := by rw [h.clean_size]; simp
  have e2 : ¬ db.mf.header.flags &&& DIRTY ≠ 0 := by rw [h.clean_flags]; simp
  show (if db.mf.header.current_size ≠ db.mf.size then false
    else if db.mf.header.flags &&& DIRTY ≠ 0 then false else true) = true
  rw [if_neg e1, if_neg e2]

theorem fileOK_of_recs {E : Env} {db db1 : dbengine} {live : List node} (h : FileOK E db live)
    (h1 : db1.mf.recs = db.mf.recs) (h2 : db1.mf.size = db.mf.size) (h3 : db1.end_ = db.end_) :
    FileOK E db1 live := by
  refine ⟨⟨?_, ?_, ?_⟩, ?_, ?_⟩
  · rw [h1]; exact h.mf.nodup
  · rw [h1]; exact h.mf.norm
  · rw [h1, h2]; exact h.mf.bound
  · rw [h1, h3]; exact h.slots
  · rw [h1]; exact h.chain

theorem write_lock_idle {E : Env} (C : Ctx) {db : dbengine} {live : List node}
    (h : Idle E db live) :
    write_lock C db =
      some (0, { reread db with mf := { db.mf with lock_status := WRITELOCKED } }) := by
  have hrh := read_header_idle h WRITELOCKED
  have hcl := db_is_clean_idle h WRITELOCKED
  unfold write_lock mappedfile_writelock
  dsimp only
  rw [if_pos h.is_open, hrh]
  dsimp only
  rw [if_neg (by simp)]
  unfold recovery
  rw [hcl]
  rfl

theorem newtxn_ok {E : Env} (C : Ctx) {db : dbengine} {live : List node} (h : Idle E db live) :
    newtxn C db none = some (0, begun db, some { num := db.txn_num + 1 }) ∧
    InTxn E (begun db) live ∧ Held (begun db) ∧
    (begun db).header.flags &&& DIRTY = 0 ∧ (begun db).mf.recs = db.mf.recs ∧
    (begun db).mf.size = db.mf.size := by
  have h64 : HEADER_SIZE + 24 ≤ (reread db).mf.size := fileOK_size64 h.file
  have h64 : HEADER_SIZE + 24 ≤ db.mf.size := h64
  refine ⟨?_, ?_, ?_, h.clean_flags, rfl, rfl⟩
  · unfold newtxn
    rw [if_neg (by rw [h.no_txn]; simp), if_neg (by simp), write_lock_idle C h]
    rfl
  · refine ⟨fileOK_of_recs h.file rfl rfl rfl, by simp [begun], ?_, ?_, ?_, ?_, ?_⟩
    · show db.mf.size = db.mf.header.current_size
      exact h.clean_size.symm
    · show 0 < db.mf.header.current_size
      rw [h.clean_size]; unfold HEADER_SIZE at h64; omega
    · exact le_refl _
    · exact h.cache
    · intro d hd
      have := h.file.slots d hd
      unfold Dual
      show ¬ (db.mf.header.current_size ≤ d.nextloc 0 ∧ db.mf.header.current_size ≤ d.nextloc 1)
      have e : (reread db).end_ = db.mf.header.current_size := rfl
      rw [e] at this
      omega
  · refine ⟨h.is_open, rfl, h.version, ?_, fun _ => ⟨rfl, rfl⟩⟩
    intro hd
    exact absurd h.clean_flags hd

/-! ## A new database -/

theorem opendb_new (C : Ctx) (flags : Nat) (src : Nat → Bool) :
    opendb C {} flags src = some (0, new_db flags src) := by
  simp [opendb, read_lock, opendb_attempt, write_lock, recovery, db_is_clean, unlock,
    mappedfile_readlock, mappedfile_writelock, mappedfile_unlock, _size, write_record,
    commit_header, write_header, read_header, READLOCKED, WRITELOCKED, UNLOCKED, HEADER_SIZE,
    MAXLEVEL, DIRTY, VERSION, reclen, headlen, roundup, UINT16_MAX, UINT32_MAX]
  rfl

theorem new_dummy_norm : Norm new_dummy := by
  refine ⟨le_refl _, by decide, rfl, rfl, by decide, rfl, ?_⟩
  intro i hi
  show diskptrs MAXLEVEL (fun _ => 0) i = 0
  unfold diskptrs
  split <;> rfl

theorem idle_new (E : Env) (flags : Nat) (src : Nat → Bool) : Idle E (new_db flags src) [] := by
  have hz : ∀ i, new_dummy.nextloc i = 0 := by
    intro i
    show diskptrs MAXLEVEL (fun _ => 0) i = 0
    unfold diskptrs
    split <;> rfl
  refine ⟨rfl, rfl, le_refl _, rfl, by show 0 &&& DIRTY = 0; decide,
    ⟨⟨?_, ?_, ?_⟩, ?_, ⟨?_, ?_, ?_⟩⟩, ?_⟩
  · show ([new_dummy].map skiprecord.offset).Nodup
    simp
  · intro d hd
    have : d = new_dummy := by simpa [reread, new_db] using hd
    rw [this]; exact new_dummy_norm
  · intro d hd
    have : d = new_dummy := by simpa [reread, new_db] using hd
    rw [this]
    show HEADER_SIZE ≤ HEADER_SIZE ∧ HEADER_SIZE + 272 ≤ 336
    unfold HEADER_SIZE; omega
  · intro d hd
    have : d = new_dummy := by simpa [reread, new_db] using hd
    rw [this, hz 0, hz 1]
    show 0 < 336 ∧ 0 < 336
    omega
  · refine ⟨⟨new_dummy, by simp [reread, new_db], rfl, rfl, rfl, rfl, by decide, ?_, ?_⟩, trivial⟩
    · left
      rw [hz 0, hz 1]
      exact ⟨rfl, rfl⟩
    · intro i _ _
      rw [hz]; rfl
  · simp
  · intro n hn; cases hn
  · intro h1
    have h2 : (0 : Nat) = 336 := h1
    omega

/-! ## The codes of store and delete -/

/-- C6: inside a transaction, a store (`skipwrite` with a value) of a
non-empty key returns `Exists` exactly when the key is present and `force` is
false, returns 0 in every other case, and when it returns `Exists` the file
and its end are as before: no record was appended. -/
theorem store_exists_iff {E : Env} (hc : CompareLaws E.compar) {db : dbengine}
    {live : List node} (h : InTxn E db live) {key : List Nat} (hk : key ≠ [])
    (value : List Nat) (force : Bool) :
    ∃ r db1, skipwrite E db key (some value) force = some (r, db1) ∧
      (r = CYRUSDB_EXISTS ↔ (lookup live key ≠ none ∧ force = false)) ∧
      (¬ (lookup live key ≠ none ∧ force = false) → r = 0) ∧
      (r = CYRUSDB_EXISTS → db1.mf = db.mf ∧ db1.end_ = db.end_) := by
  obtain ⟨r, db1, live1, h1, h2, _, _, _, _, h7, _⟩ := skipwrite_ok hc h hk (some value) force
  have hE : CYRUSDB_EXISTS ≠ 0 := by unfold CYRUSDB_EXISTS; omega
  have hcode : r = if (lookup live key ≠ none ∧ force = false) then CYRUSDB_EXISTS else 0 := by
    rw [h2]
    unfold write_code
    cases hl : lookup live key <;> cases force <;> simp
  refine ⟨r, db1, h1, ?_, ?_, ?_⟩
  · rw [hcode]
    constructor
    · intro hh
      by_contra hn
      rw [if_neg hn] at hh
      exact hE hh.symm
    · intro hh
      rw [if_pos hh]
  · intro hn
    rw [hcode, if_neg hn]
  · intro hr
    have := h7 (Or.inl (by rw [hr]; exact hE))
    exact ⟨this.1, this.2.1⟩

/-- C7: inside a transaction, a delete (`skipwrite` without a value) of a
non-empty key returns `NotFound` exactly when the key is absent and `force`
is false; a forced delete of an absent key returns 0 and leaves the file and
its end as they were; a delete of a present key returns 0. -/
theorem delete_notfound_iff {E : Env} (hc : CompareLaws E.compar) {db : dbengine}
    {live : List node} (h : InTxn E db live) {key : List Nat} (hk : key ≠ [])
    (force : Bool) :
    ∃ r db1, skipwrite E db key none force = some (r, db1) ∧
      (r = CYRUSDB_NOTFOUND ↔ (lookup live key = none ∧ force = false)) ∧
      (lookup live key = none → force = true →
        r = 0 ∧ db1.mf = db.mf ∧ db1.end_ = db.end_) ∧
      (lookup live key ≠ none → r = 0) := by
  obtain ⟨r, db1, live1, h1, h2, _, _, _, _, h7, _⟩ := skipwrite_ok hc h hk none force
  have hN : CYRUSDB_NOTFOUND ≠ 0 := by unfold CYRUSDB_NOTFOUND; omega
  have hcode : r = if (lookup live key = none ∧ force = false) then CYRUSDB_NOTFOUND else 0 := by
    rw [h2]
    unfold write_code
    cases hl : lookup live key <;> cases force <;> simp
  refine ⟨r, db1, h1, ?_, ?_, ?_⟩
  · rw [hcode]
    constructor
    · intro hh
      by_contra hn
      rw [if_neg hn] at hh
      exact hN hh.symm
    · intro hh
      rw [if_pos hh]
  · intro hl hf
    have := h7 (Or.inr ⟨rfl, hl⟩)
    refine ⟨?_, this.1, this.2.1⟩
    rw [hcode, if_neg]
    intro hh
    rw [hf] at hh
    cases hh.2
  · intro hl
    rw [hcode, if_neg (fun hh => hl hh.1)]

/-! ## Dual pointer integrity -/

theorem setloc_dual (db : dbengine) (d : skiprecord) (level z : Nat) {sz : Nat}
    (hz : z < sz) (hm : max (d.nextloc 0) (d.nextloc 1) < sz)
    (hd : ¬ (db.header.current_size ≤ d.nextloc 0 ∧ db.header.current_size ≤ d.nextloc 1)) :
    max ((_setloc db d level z).nextloc 0) ((_setloc db d level z).nextloc 1) < sz ∧
    ¬ (db.header.current_size ≤ (_setloc db d level z).nextloc 0 ∧
       db.header.current_size ≤ (_setloc db d level z).nextloc 1) := by
  have h0 : d.nextloc 0 < sz := lt_of_le_of_lt (le_max_left _ _) hm
  have h1 : d.nextloc 1 < sz := lt_of_le_of_lt (le_max_right _ _) hm
  by_cases hl : level = 0
  · subst hl
    rw [setloc_zero_slot0, setloc_zero_slot1]
    by_cases a0 : db.header.current_size ≤ d.nextloc 0
    · simp only [a0, if_true]
      exact ⟨max_lt hz h1, fun hh => hd ⟨a0, hh.2⟩⟩
    · by_cases a1 : db.header.current_size ≤ d.nextloc 1
      · simp only [a0, a1, if_true, if_false]
        exact ⟨max_lt h0 hz, fun hh => hh.1⟩
      · by_cases a2 : d.nextloc 0 < d.nextloc 1
        · simp only [a0, a1, a2, if_true, if_false]
          exact ⟨max_lt hz h1, fun hh => hh.2⟩
        · simp only [a0, a1, a2, if_false]
          exact ⟨max_lt h0 hz, fun hh => hh.1⟩
  · rw [setloc_pos_nextloc db d hl, setloc_pos_nextloc db d hl, if_neg (by omega),
      if_neg (by omega)]
    exact ⟨hm, hd⟩

theorem stitched_dual {db : dbengine} (upto : Nat) (hz : db.loc.forwardloc 0 < db.mf.size)
    (h : DualOK db) : DualOK (stitched db upto) := by
  intro d1 hd1
  obtain ⟨d, hd, e⟩ := List.mem_map.1 hd1
  obtain ⟨hm, hdu⟩ := h d hd
  have hs : ∀ j, j ≤ 1 → (stitch_rec db upto d).nextloc j =
      if 0 < upto ∧ db.loc.backloc 0 = d.offset ∧ 1 ≤ d.level then
        (_setloc db d 0 (db.loc.forwardloc 0)).nextloc j
      else d.nextloc j := by
    intro j hj
    simp only [stitch_rec]
    rw [if_pos hj]
  rw [← e, hs 0 (by omega), hs 1 (by omega)]
  show _ < db.mf.size ∧ ¬ (db.header.current_size ≤ _ ∧ db.header.current_size ≤ _)
  split
  · exact setloc_dual db d 0 _ hz hm hdu
  · exact ⟨hm, hdu⟩

theorem dualOK_of_intxn {E : Env} {db : dbengine} {live : List node} (h : InTxn E db live) :
    DualOK db := by
  intro d hd
  have := h.file.slots d hd
  rw [h.size]
  exact ⟨max_lt this.1 this.2, h.dual d hd⟩

/-- C10: inside a transaction every record of the file has
`max(nextloc[0], nextloc[1])` below the file size and at most one of the two
slots at or past `current_size`, and each step keeps it so: `_setloc` on a
record (any level, any offset inside the file), `stitch`, `store_here` and
`delete_here`. -/
theorem dual_pointer_invariant {E : Env} (hc : CompareLaws E.compar) {db : dbengine}
    {live : List node} (h : InTxn E db live) :
    DualOK db ∧
    (∀ d level z, z < db.mf.size → max (d.nextloc 0) (d.nextloc 1) < db.mf.size →
      ¬ (db.header.current_size ≤ d.nextloc 0 ∧ db.header.current_size ≤ d.nextloc 1) →
      max ((_setloc db d level z).nextloc 0) ((_setloc db d level z).nextloc 1) < db.mf.size ∧
      ¬ (db.header.current_size ≤ (_setloc db d level z).nextloc 0 ∧
         db.header.current_size ≤ (_setloc db d level z).nextloc 1)) ∧
    (∀ maxlevel, maxlevel ≤ MAXLEVEL → db.header.flags &&& DIRTY ≠ 0 →
      LocAt E db.loc live → db.loc.forwardloc 0 < db.mf.size →
      ∃ db1, stitch db maxlevel = some (0, db1) ∧ DualOK db1) ∧
    (LocAt E db.loc live → db.loc.keybuf ≠ [] → ∀ val,
      ∃ db1, store_here db val = some (0, db1) ∧ DualOK db1) ∧
    (LocAt E db.loc live → db.loc.is_exactmatch = true →
      ∃ db1, delete_here db = some (0, db1) ∧ DualOK db1) := by
  have hd := dualOK_of_intxn h
  refine ⟨hd, ?_, ?_, ?_, ?_⟩
  · intro d level z hz hm hdu
    exact setloc_dual db d level z hz hm hdu
  · intro maxlevel hmax hdirty hloc hz
    obtain ⟨p, S, hlive, _, hback, _⟩ := hloc
    have hSt : StitchH db maxlevel :=
      stitchH_of_back hdirty h.file.mf hmax (hlive ▸ h.file.chain.linked) hback
    exact ⟨_, stitch_ok hSt, stitched_dual maxlevel hz hd⟩
  · intro hloc hk val
    obtain ⟨db1, live1, h1, h2, _⟩ := store_txn hc h hloc hk val
    exact ⟨db1, h1, dualOK_of_intxn h2⟩
  · intro hloc hx
    obtain ⟨db1, live1, h1, h2, _⟩ := delete_txn hc h hloc hx
    exact ⟨db1, h1, dualOK_of_intxn h2⟩

/-! ## Witnesses on a new database -/

/-- A delete of key `[1]` without force in the first transaction of a new
database. -/
theorem delete_notfound_iff_witness :
    ∃ r db1, skipwrite raw_env (begun (new_db 0 (fun _ => false))) [1] none false =
        some (r, db1) ∧
      (r = CYRUSDB_NOTFOUND ↔ (lookup [] [1] = none ∧ false = false)) ∧
      (lookup [] [1] = none → false = true →
        r = 0 ∧ db1.mf = (begun (new_db 0 (fun _ => false))).mf ∧
        db1.end_ = (begun (new_db 0 (fun _ => false))).end_) ∧
      (lookup [] [1] ≠ none → r = 0) :=
  delete_notfound_iff raw_laws
    (newtxn_ok (ctx raw_env 1) (idle_new raw_env 0 (fun _ => false))).2.1
    (by decide) false

/-! ## The consistency check -/

theorem consistent_init_ok (db : dbengine) (rec : skiprecord) (v : Nat → Nat)
    (cnt i : Nat) (fwd : Nat → Nat)
    (h : ∀ j, i ≤ j → j < i + cnt → _getloc db rec j = some (0, v j)) :
    consistent_init db rec cnt i fwd =
      some (0, fun j => if i ≤ j ∧ j < i + cnt then v j else fwd j) := by
  induction cnt generalizing i fwd with
  | zero =>
    simp only [consistent_init]
    congr 2
    funext j
    rw [if_neg (by omega)]
  | succ n ih =>
    simp only [consistent_init]
    rw [h i (le_refl _) (by omega)]
    simp only [ne_eq, not_true_eq_false, if_false]
    rw [ih (i + 1) _ (fun j h1 h2 => h j (by omega) (by omega))]
    congr 2
    funext j
    by_cases h1 : i + 1 ≤ j ∧ j < i + 1 + n
    · rw [if_pos h1, if_pos (by omega)]
    · rw [if_neg h1]
      by_cases h2 : j = i
      · rw [if_pos (by omega), h2, Function.update_same]
      · rw [if_neg (by omega), Function.update_noteq h2]

theorem consistent_link_ok (db : dbengine) (rec : skiprecord) (v : Nat → Nat)
    (cnt i : Nat) (fwd : Nat → Nat)
    (hf : ∀ j, i ≤ j → j < i + cnt → fwd j = rec.offset)
    (h : ∀ j, i ≤ j → j < i + cnt → _getloc db rec j = some (0, v j)) :
    consistent_link db rec cnt i fwd =
      some (0, fun j => if i ≤ j ∧ j < i + cnt then v j else fwd j) := by
  induction cnt generalizing i fwd with
  | zero =>
    simp only [consistent_link]
    congr 2
    funext j
    rw [if_neg (by omega)]
  | succ n ih =>
    simp only [consistent_link]
    rw [if_neg (by rw [hf i (le_refl _) (by omega)]; simp), h i (le_refl _) (by omega)]
    simp only [ne_eq, not_true_eq_false, if_false]
    rw [ih (i + 1) _
      (fun j h1 h2 => by rw [Function.update_noteq (by omega)]; exact hf j (by omega) (by omega))
      (fun j h1 h2 => h j (by omega) (by omega))]
    congr 2
    funext j
    by_cases h1 : i + 1 ≤ j ∧ j < i + 1 + n
    · rw [if_pos h1, if_pos (by omega)]
    · rw [if_neg h1]
      by_cases h2 : j = i
      · rw [if_pos (by omega), h2, Function.update_same]
      · rw [if_neg (by omega), Function.update_noteq h2]

theorem consistent_tail_ok (fwd : Nat → Nat) (cnt i : Nat)
    (h : ∀ j, i ≤ j → j < i + cnt → fwd j = 0) : consistent_tail fwd cnt i = 0 := by
  induction cnt generalizing i with
  | zero => rfl
  | succ n ih =>
    simp only [consistent_tail]
    rw [if_neg (by rw [h i (le_refl _) (by omega)]; simp)]
    exact ih (i + 1) (fun j h1 h2 => h j (by omega) (by omega))

theorem consistent_walk_ok {E : Env} (hc : CompareLaws E.compar) {db : dbengine}
    (hm : MfOK db.mf)
    (hsl : ∀ d ∈ db.mf.recs, d.nextloc 0 < db.end_ ∧ d.nextloc 1 < db.end_)
    (R : List node) :
    ∀ (old : skiprecord) (fwd : Nat → Nat) (fuel : Nat),
      Linked db.mf.recs R →
      (∀ n ∈ R, 1 ≤ n.level) →
      R.Pairwise (fun a b => E.compar a.key b.key < 0) →
      (∀ n ∈ R, E.compar (_key old) n.key < 0) →
      (∀ i, i < MAXLEVEL → fwd i = nextAt i R) → R.length ≤ fuel →
      ∃ fwd1, consistent_walk E db fuel old fwd = some (0, fwd1) ∧
        ∀ i, i < MAXLEVEL → fwd1 i = 0 := by
  induction R with
  | nil =>
    intro old fwd fuel _ _ _ _ hfwd _
    have h0 : fwd 0 = 0 := hfwd 0 (by unfold MAXLEVEL; omega)
    refine ⟨fwd, ?_, fun i hi => hfwd i hi⟩
    cases fuel with
    | zero => simp only [consistent_walk]; rw [if_neg (by rw [h0]; simp)]
    | succ f => simp only [consistent_walk]; rw [if_pos h0]
  | cons y R1 ih =>
    intro old fwd fuel hl hpos hsort hold hfwd hfuel
    have hy1 : 1 ≤ y.level := hpos y (List.mem_cons_self _ _)
    obtain ⟨dy, hdy, hread, hrec, _⟩ := nodeAt_read hm hl.1
    have hyo : y.offset ≠ 0 := node_offset_ne_zero hm hl.1
    have h0 : fwd 0 = y.offset := by
      rw [hfwd 0 (by unfold MAXLEVEL; omega)]
      exact nextAt_zero_cons R1 hy1
    cases fuel with
    | zero => simp at hfuel
    | succ f =>
      simp only [consistent_walk]
      rw [if_neg (by rw [h0]; exact hyo), h0, hread]
      simp only [ne_eq, not_true_eq_false, if_false]
      have hcmp : ¬ E.compar (_key dy) (_key old) ≤ 0 := by
        have h1 := hold y (List.mem_cons_self _ _)
        have h2 := (hc.lt_gt _ _).1 h1
        have e : _key dy = y.key := hrec.2.2.1
        rw [e]; omega
      rw [if_neg hcmp]
      have hlvl : dy.level = y.level := hrec.2.1
      have hml : y.level ≤ MAXLEVEL := by
        rw [← hlvl]; exact (hm.norm dy hdy).level_le
      rw [consistent_link_ok db dy (fun j => nextAt j R1) dy.level 0 fwd
        (by
          intro j _ hj
          rw [hfwd j (by omega)]
          simp only [nextAt]
          rw [if_pos (by omega)]
          exact hrec.1.symm)
        (by
          intro j _ hj
          exact node_getloc hm hsl hl.1 hdy hrec.1 (by omega))]
      simp only [ne_eq, not_true_eq_false, if_false]
      apply ih dy _ f hl.2 (fun n hn => hpos n (List.mem_cons_of_mem _ hn))
        (List.pairwise_cons.1 hsort).2
      · intro n hn
        have e : _key dy = y.key := hrec.2.2.1
        rw [e]
        exact (List.pairwise_cons.1 hsort).1 n hn
      · intro i hi
        by_cases hil : i < dy.level
        · rw [if_pos ⟨by omega, by omega⟩]
        · rw [if_neg (by omega), hfwd i hi]
          exact nextAt_cons_ge R1 (by omega)
      · simp only [List.length_cons] at hfuel
        omega

/-- The consistency check passes on a file that holds a skip list. -/
theorem myconsistent_ok {E : Env} (hc : CompareLaws E.compar) {db : dbengine}
    {live : List node} (hf : FileOK E db live) (tid : Option txn) (ht : db.current_txn = tid) :
    myconsistent E db tid = some 0 := by
  have hm := hf.mf
  obtain ⟨d0, hd0, hread0, hrec0, _⟩ := nodeAt_read hm hf.chain.linked.1
  have hread : read_record db HEADER_SIZE = some (0, d0) := hread0
  unfold myconsistent
  rw [if_neg (by rw [ht]; simp), hread]
  simp only [ne_eq, not_true_eq_false, if_false]
  rw [consistent_init_ok db d0 (fun j => nextAt j live) MAXLEVEL 0 _
    (by
      intro j _ hj
      exact node_getloc hm hf.slots hf.chain.linked.1 hd0 hrec0.1
        (by show j < MAXLEVEL; omega))]
  simp only [ne_eq, not_true_eq_false, if_false]
  have hlen := chain_length_le hc hm hf.chain.linked hf.chain.sorted
  simp only [List.length_cons] at hlen
  obtain ⟨fwd1, hw, hz⟩ := consistent_walk_ok hc hm hf.slots live d0
    (fun j => if 0 ≤ j ∧ j < 0 + MAXLEVEL then nextAt j live else 0)
    (db.mf.recs.length + 1) hf.chain.linked.2 hf.chain.level_pos
    (List.pairwise_cons.1 hf.chain.sorted).2
    (by
      intro n hn
      have e : _key d0 = dummyNode.key := hrec0.2.2.1
      rw [e]
      exact (List.pairwise_cons.1 hf.chain.sorted).1 n hn)
    (by
      intro i hi
      show (if 0 ≤ i ∧ i < 0 + MAXLEVEL then nextAt i live else 0) = nextAt i live
      rw [if_pos ⟨by omega, by omega⟩])
    (by omega)
  rw [hw]
  simp only [ne_eq, not_true_eq_false, if_false]
  rw [consistent_tail_ok fwd1 MAXLEVEL 0 (fun j _ hj => hz j (by omega))]

/-! ## Reads inside a transaction -/

theorem enter_read_txn (C : Ctx) {db : dbengine} (ht : db.current_txn ≠ none) :
    enter_read C db (some db.current_txn) = some (0, db, some db.current_txn) := by
  obtain ⟨t, e⟩ := Option.ne_none_iff_exists'.1 ht
  unfold enter_read
  rw [e]
  simp

/-- The result of `myfetch` in a transaction: the value the live records
hold for the key, or `NotFound`. -/
theorem myfetch_txn {E : Env} (hc : CompareLaws E.compar) (C : Ctx) {db : dbengine}
    {live : List node} (h : InTxn E db live) (key : List Nat) :
    ∃ loc1, myfetch E C db key (some db.current_txn) false =
        some ⟨if lookup live key = none then CYRUSDB_NOTFOUND else 0,
          { db with loc := loc1 }, db.current_txn, some key, lookup live key⟩ ∧
      InTxn E { db with loc := loc1 } live := by
  obtain ⟨loc1, h1, h2, h3, h4, h5, h6⟩ := find_loc_txn hc h key
  have hlk := locAt_lookup hc h5
  rw [h2] at hlk
  refine ⟨loc1, ?_, h6⟩
  unfold myfetch
  rw [enter_read_txn C h.txn]
  simp only [ne_eq, not_true_eq_false, if_false, h1, Option.getD_some, Bool.false_eq_true]
  by_cases hx : loc1.is_exactmatch = true
  · rw [hx] at hlk
    simp only [if_true] at hlk
    rw [if_pos hx, hlk, h2]
    simp [_val]
  · have hx0 : loc1.is_exactmatch = false := by simpa using hx
    rw [hx0] at hlk
    simp only [Bool.false_eq_true, if_false] at hlk
    rw [if_neg hx, hlk, h2]
    simp

theorem located_ok {E : Env} (hc : CompareLaws E.compar) {db : dbengine} {live : List node}
    (h : InTxn E db live) (key : List Nat) :
    InTxn E (located E db key) live ∧ LocAt E (located E db key).loc live ∧
    (located E db key).loc.keybuf = key := by
  obtain ⟨loc1, h1, h2, _, _, h5, h6⟩ := find_loc_txn hc h key
  unfold located
  rw [h1]
  exact ⟨h6, h5, h2⟩

/-! ## The engine as a finite map -/

theorem run_writes_ok {E : Env} (hc : CompareLaws E.compar) (ops : List write_op) :
    ∀ {db : dbengine} {live : List node}, InTxn E db live →
      (∀ op ∈ ops, op.key ≠ []) → (run_writes E ops db).isSome = true →
      ∃ db1 live1, run_writes E ops db = some db1 ∧ InTxn E db1 live1 ∧
        db1.current_txn = db.current_txn ∧
        ∀ k, lookup live1 k = ops.foldl map_write (lookup live) k := by
  induction ops with
  | nil =>
    intro db live h _ _
    exact ⟨db, live, rfl, h, rfl, fun _ => rfl⟩
  | cons op rest ih =>
    intro db live h hk hs
    obtain ⟨r, db1, live1, h1, _, h3, h4, h5, _⟩ :=
      skipwrite_ok hc h (hk op (List.mem_cons_self _ _)) op.data op.force
    simp only [run_writes, h1] at hs ⊢
    by_cases hr : r = 0
    · rw [if_pos hr] at hs ⊢
      obtain ⟨db2, live2, g1, g2, g3, g4⟩ :=
        ih h3 (fun o ho => hk o (List.mem_cons_of_mem _ ho)) hs
      refine ⟨db2, live2, g1, g2, g3.trans h5.txn, ?_⟩
      intro k
      have e : lookup live1 = map_write (lookup live) op := by
        funext k1
        rw [h4 k1]
        unfold map_write
        by_cases hk1 : k1 = op.key
        · rw [if_pos ⟨hr, hk1⟩, if_pos hk1]
        · rw [if_neg (fun hh => hk1 hh.2), if_neg hk1]
      rw [g4 k, List.foldl_cons, e]
    · rw [if_neg hr] at hs
      cases hs

/-- C3: for every sequence of successful stores and deletes of non-empty
keys inside a transaction, the content afterwards is the finite map obtained
by applying them in turn (a store sets its key, a delete removes its key,
every other key keeps its value), and `fetch` of a key returns the value of
that map, or `NotFound` where it has none. -/
theorem engine_refines_map {E : Env} (hc : CompareLaws E.compar) (C : Ctx) {db : dbengine}
    {live : List node} (h : InTxn E db live) (ops : List write_op)
    (hk : ∀ op ∈ ops, op.key ≠ []) (hs : (run_writes E ops db).isSome = true) :
    ∃ db1, run_writes E ops db = some db1 ∧
      ∀ k, k ≠ [] → ∃ db2, fetch E C db1 k (some db1.current_txn) =
        some ⟨if ops.foldl map_write (lookup live) k = none then CYRUSDB_NOTFOUND else 0,
          db2, db1.current_txn, some k, ops.foldl map_write (lookup live) k⟩ := by
  obtain ⟨db1, live1, h1, h2, _, h4⟩ := run_writes_ok hc ops h hk hs
  refine ⟨db1, h1, ?_⟩
  intro k hkk
  obtain ⟨loc1, g1, _⟩ := myfetch_txn hc C h2 k
  refine ⟨{ db1 with loc := loc1 }, ?_⟩
  unfold fetch
  rw [if_neg (by intro hl; exact hkk (List.length_eq_zero.1 hl)), g1, h4 k]

/-- In the first transaction of a new database: store `[1] ↦ [5]`, store
`[2] ↦ [6]`, replace `[1] ↦ [7]`, delete `[2]`; then `[1]` fetches `[7]`. -/
theorem engine_refines_map_witness :
    ∃ db1, run_writes raw_env
        [⟨[1], some [5], false⟩, ⟨[2], some [6], false⟩, ⟨[1], some [7], true⟩,
          ⟨[2], none, false⟩]
        (begun (new_db 0 (fun _ => false))) = some db1 ∧
      ∀ k, k ≠ [] → ∃ db2, fetch raw_env (ctx raw_env 1) db1 k (some db1.current_txn) =
        some ⟨if List.foldl map_write (lookup [])
            [⟨[1], some [5], false⟩, ⟨[2], some [6], false⟩, ⟨[1], some [7], true⟩,
              ⟨[2], none, false⟩] k = none then CYRUSDB_NOTFOUND else 0,
          db2, db1.current_txn, some k,
          List.foldl map_write (lookup [])
            [⟨[1], some [5], false⟩, ⟨[2], some [6], false⟩, ⟨[1], some [7], true⟩,
              ⟨[2], none, false⟩] k⟩ :=
  engine_refines_map raw_laws (ctx raw_env 1)
    (newtxn_ok (ctx raw_env 1) (idle_new raw_env 0 (fun _ => false))).2.1 _
    (by decide) (by decide)

/-! ## Reads between transactions -/

theorem read_lock_idle {E : Env} (C : Ctx) {db : dbengine} {live : List node}
    (h : Idle E db live) : read_lock C 2 db = some (0, locked READLOCKED db) := by
  have hrh := read_header_idle h READLOCKED
  have hcl := db_is_clean_idle h READLOCKED
  unfold read_lock mappedfile_readlock
  dsimp only
  rw [if_pos h.is_open, hrh]
  dsimp only
  rw [if_neg (by simp), hcl]
  simp only [not_true_eq_false, if_false]
  rfl

theorem locked_file {E : Env} {db : dbengine} {live : List node} (h : Idle E db live)
    (ls : Nat) : FileOK E (locked ls db) live :=
  fileOK_of_recs h.file rfl rfl rfl

theorem enter_read_idle {E : Env} (C : Ctx) {db : dbengine} {live : List node}
    (h : Idle E db live) :
    enter_read C db none = some (0, locked READLOCKED db, none) := by
  unfold enter_read
  simp only [h.no_txn, ne_eq, not_true_eq_false, and_false, if_false]
  rw [read_lock_idle C h]

/-- The handle is between transactions again after a read that left the
location `loc1`. -/
theorem idle_after_read {E : Env} {db : dbengine} {live : List node} (h : Idle E db live)
    {loc1 : skiploc} (hl : LocAt E loc1 live) :
    Idle E (unlock { locked READLOCKED db with loc := loc1 }).2 live :=
  ⟨h.is_open, h.no_txn, h.version, h.clean_size, h.clean_flags,
    fileOK_of_recs h.file rfl rfl rfl, fun _ _ => hl⟩

/-- The result of `myfetch` between transactions. -/
theorem myfetch_idle {E : Env} (hc : CompareLaws E.compar) (C : Ctx) {db : dbengine}
    {live : List node} (h : Idle E db live) (key : List Nat) :
    ∃ db1, myfetch E C db key none false =
        some ⟨if lookup live key = none then CYRUSDB_NOTFOUND else 0,
          db1, none, some key, lookup live key⟩ ∧
      Idle E db1 live ∧ db1.mf.recs = db.mf.recs ∧ db1.mf.size = db.mf.size ∧
      db1.mf.header = db.mf.header := by
  obtain ⟨loc1, h1, h2, h3, h4, h5⟩ :=
    find_loc_ok hc (locked_file h READLOCKED) (by exact h.cache) key
  have hlk := locAt_lookup hc h5
  rw [h2] at hlk
  refine ⟨(unlock { locked READLOCKED db with loc := loc1 }).2, ?_, idle_after_read h h5,
    rfl, rfl, rfl⟩
  unfold myfetch
  rw [enter_read_idle C h]
  simp only [ne_eq, not_true_eq_false, if_false, h1, Option.getD_none, Bool.false_eq_true,
    if_true]
  by_cases hx : loc1.is_exactmatch = true
  · rw [hx] at hlk
    simp only [if_true] at hlk
    rw [if_pos hx, hlk, h2]
    simp [_val]
  · have hx0 : loc1.is_exactmatch = false := by simpa using hx
    rw [hx0] at hlk
    simp only [Bool.false_eq_true, if_false] at hlk
    rw [if_neg hx, hlk, h2]
    simp

/-! ## `fetchnext` -/

/-- C4 (as stated, refuted): in a database that holds the keys `[2]` and
`[3]`, `fetch` of `[2]` finds it, and `fetchnext` of `[2]` returns the key
`[3]` with its value, not the key `[2]` itself. -/
theorem fetchnext_counterexample :
    (two_keys.bind fun db => (fetch raw_env (ctx raw_env 1) db [2] none).map
      fun r => (r.r, r.foundkey, r.data)) = some (0, some [2], some [20]) ∧
    (two_keys.bind fun db => (fetchnext raw_env (ctx raw_env 1) db [2] none).map
      fun r => (r.r, r.foundkey, r.data)) = some (0, some [3], some [30]) := by
  decide

/-- C4 (amended): between transactions `fetchnext(key)` returns the key and
value of the smallest live key strictly greater than `key` under the
comparator, and `NotFound` when no live key is greater; a key equal to the
input is never the one returned. -/
theorem fetchnext_strict {E : Env} (hc : CompareLaws E.compar) (C : Ctx) {db : dbengine}
    {live : List node} (h : Idle E db live) (key : List Nat) :
    ∃ res p R, fetchnext E C db key none = some res ∧ live = p ++ R ∧
      (∀ n ∈ p, E.compar n.key key ≤ 0) ∧ (∀ n ∈ R, E.compar key n.key < 0) ∧
      (R = [] → res.r = CYRUSDB_NOTFOUND ∧ res.data = none) ∧
      (∀ y R1, R = y :: R1 → res.r = 0 ∧ res.foundkey = some y.key ∧ res.data = some y.val ∧
        ∀ n ∈ live, E.compar key n.key < 0 → E.compar y.key n.key ≤ 0) := by
  obtain ⟨loc1, h1, h2, h3, h4, h5⟩ :=
    find_loc_ok hc (locked_file h READLOCKED) (by exact h.cache) key
  have hf2 : FileOK E { locked READLOCKED db with loc := loc1 } live :=
    (locked_file h READLOCKED).congr rfl rfl
  obtain ⟨loc2, a1, a2, a3, a4, p, R, a5, a6, a7, a8, a9⟩ :=
    advance_loc_ok hc hf2 (fun _ _ => h5)
  have a6k : ∀ n ∈ p, E.compar n.key key ≤ 0 := by
    intro n hn
    have := a6 n hn
    rw [← h2]; exact this
  have a7k : ∀ n ∈ R, E.compar key n.key < 0 := by
    intro n hn
    have := a7 n hn
    rw [← h2]; exact this
  unfold fetchnext myfetch
  rw [enter_read_idle C h]
  simp only [ne_eq, not_true_eq_false, if_false, h1, if_true, a1]
  by_cases hx : loc2.is_exactmatch = true
  · rw [if_pos hx]
    refine ⟨_, p, R, rfl, a5, a6k, a7k, ?_, ?_⟩
    · intro hR
      have := (a8 hR).1
      rw [hx] at this
      cases this
    · intro y R1 hR
      obtain ⟨_, b2, b3⟩ := a9 y R1 hR
      refine ⟨by simp, by simp [b2], by simp [_val, b3.2.2.2], ?_⟩
      intro n hn hlt
      rw [a5, hR] at hn
      rcases List.mem_append.1 hn with e | e
      · have h1 := a6k n e
        have h2 := (hc.lt_gt _ _).1 hlt
        omega
      · rcases List.mem_cons.1 e with e1 | e1
        · rw [e1]
          exact le_of_eq ((hc.eq_zero _ _).2 rfl)
        · have hs := h.file.chain.sorted
          rw [a5, hR] at hs
          exact le_of_lt (sorted_tail hs n e1)
  · rw [if_neg hx]
    refine ⟨_, p, R, rfl, a5, a6k, a7k, ?_, ?_⟩
    · intro _
      simp
    · intro y R1 hR
      have := (a9 y R1 hR).1
      exact absurd this hx

/-! ## Commit -/

theorem commit_record_len (db : dbengine) : (commit_record db).len = 24 := by
  simp [commit_record, disk_image, reclen, headlen, roundup, UINT16_MAX, UINT32_MAX]

theorem mycommit_clean (E : Env) (C : Ctx) {db : dbengine} {tid : Option txn}
    (ht : tid = db.current_txn) (hd : db.header.flags &&& DIRTY = 0) :
    mycommit E C db tid = commit_finish E C db := by
  unfold mycommit commit_finish needs_checkpoint
  simp only [ht, ne_eq, not_true_eq_false, if_false, hd, if_true]
  rfl

theorem mycommit_dirty (E : Env) (C : Ctx) {db : dbengine} {tid : Option txn}
    (ht : tid = db.current_txn) (hd : db.header.flags &&& DIRTY ≠ 0)
    (htx : db.current_txn ≠ none)
    (hb : ∀ d ∈ db.mf.recs, d.offset + d.len ≤ db.end_) (hs : db.mf.size = db.end_)
    (h64 : HEADER_SIZE ≤ db.mf.size) :
    mycommit E C db tid = commit_finish E C (committed db) := by
  unfold mycommit
  rw [if_neg (by simp [ht]), if_neg hd]
  dsimp only
  rw [@append_record_ok db _ [] [] htx rfl (by simp [MAXLEVEL]) hb hs h64]
  have e1 : dirtied db = db.header := by simp [dirtied, hd]
  have e2 : reclen 0 0 0 = 24 := by
    simp [reclen, headlen, roundup, UINT16_MAX, UINT32_MAX]
  simp only [ne_eq, not_true_eq_false, if_false, commit_header, write_header, e1]
  have e3 : max (db.end_ + reclen (0 : Nat) 0 0) HEADER_SIZE = db.end_ + 24 := by
    rw [e2]; unfold HEADER_SIZE at *; omega
  rw [e3]
  simp only [e2]
  unfold commit_finish needs_checkpoint
  rfl

/-! ### The handle along a transaction -/

theorem held_step {E : Env} (hc : CompareLaws E.compar) {db : dbengine} {live : List node}
    (h : InTxn E db live) (hh : Held db) {key : List Nat} (hk : key ≠ [])
    (data : Option (List Nat)) (force : Bool) :
    ∃ r db1 live1, skipwrite E db key data force = some (r, db1) ∧
      r = write_code (lookup live key).isSome data force ∧ InTxn E db1 live1 ∧ Held db1 ∧
      (∀ k, lookup live1 k = if r = 0 ∧ k = key then data else lookup live k) ∧
      TxnFrame db db1 := by
  obtain ⟨r, db1, live1, h1, h2, h3, h4, h5, h6, _, h8, _⟩ := skipwrite_ok hc h hk data force
  refine ⟨r, db1, live1, h1, h2, h3, ?_, h4, h5⟩
  refine ⟨h5.is_open.trans hh.is_open, h5.lock.trans hh.lock, ?_, ?_, ?_⟩
  · rw [h5.version]; exact hh.version
  · intro _; exact Nat.le_of_eq h8
  · intro hd
    rcases h6 with ⟨e1, e2, e3, _⟩ | ⟨e1, _⟩
    · rw [e1, e2, e3]
      exact hh.clean (e3 ▸ hd)
    · exact absurd hd e1

theorem run_writes_txn {E : Env} (hc : CompareLaws E.compar) (ops : List write_op) :
    ∀ {db : dbengine} {live : List node}, InTxn E db live → Held db →
      (∀ op ∈ ops, op.key ≠ []) → (run_writes E ops db).isSome = true →
      ∃ db1 live1, run_writes E ops db = some db1 ∧ InTxn E db1 live1 ∧ Held db1 ∧
        TxnFrame db db1 ∧
        ∀ k, lookup live1 k = ops.foldl map_write (lookup live) k := by
  induction ops with
  | nil =>
    intro db live h hh _ _
    exact ⟨db, live, rfl, h, hh, ⟨rfl, rfl, rfl, rfl, rfl, rfl, rfl, rfl, Nat.le_refl _⟩,
      fun _ => rfl⟩
  | cons op rest ih =>
    intro db live h hh hk hs
    obtain ⟨r, db1, live1, h1, _, h3, hh1, h4, h5⟩ :=
      held_step hc h hh (hk op (List.mem_cons_self _ _)) op.data op.force
    simp only [run_writes, h1] at hs ⊢
    by_cases hr : r = 0
    · rw [if_pos hr] at hs ⊢
      obtain ⟨db2, live2, g1, g2, gh, g3, g4⟩ :=
        ih h3 hh1 (fun o ho => hk o (List.mem_cons_of_mem _ ho)) hs
      refine ⟨db2, live2, g1, g2, gh, ?_, ?_⟩
      · exact ⟨g3.txn.trans h5.txn, g3.is_open.trans h5.is_open,
          g3.open_flags.trans h5.open_flags, g3.txn_num.trans h5.txn_num,
          g3.lock.trans h5.lock, g3.cs.trans h5.cs, g3.version.trans h5.version,
          g3.generation.trans h5.generation, Nat.le_trans h5.end_le g3.end_le⟩
      · intro k
        have e : lookup live1 = map_write (lookup live) op := by
          funext k1
          rw [h4 k1]
          simp only [hr, true_and, map_write]
        rw [g4 k, e]
        rfl
    · rw [if_neg hr] at hs
      exact absurd hs (by simp)

/-! ### The file after a commit -/

theorem commit_record_norm (db : dbengine) : Norm (commit_record db) := by
  refine ⟨by simp [commit_record, disk_image, MAXLEVEL], rfl, rfl, rfl, rfl, rfl, ?_⟩
  intro i hi
  have h0 : (commit_record db).level = 0 := rfl
  rw [h0] at hi
  show diskptrs 0 _ i = 0
  unfold diskptrs
  rw [if_neg (by omega)]

theorem commit_record_slots (db : dbengine) :
    (commit_record db).nextloc 0 = db.header.current_size ∧ (commit_record db).nextloc 1 = 0 := by
  constructor
  · simp [commit_record, disk_image, diskptrs]
  · simp [commit_record, disk_image, diskptrs]

theorem committed_file {E : Env} {db : dbengine} {live : List node} (hfile : FileOK E db live)
    (hsize : db.mf.size = db.end_) (hcs : db.header.current_size ≤ db.end_) :
    FileOK E (committed db) live := by
  have hm := hfile.mf
  have hlt : ∀ d ∈ db.mf.recs, d.offset < db.end_ := by
    intro d hd
    have h1 := (hm.bound d hd).2
    have h2 := norm_len_ge (hm.norm d hd)
    have h3 := hsize
    omega
  refine ⟨⟨?_, ?_, ?_⟩, ?_, ?_⟩
  · show ((db.mf.recs ++ [commit_record db]).map skiprecord.offset).Nodup
    rw [List.map_append, List.nodup_append]
    refine ⟨hm.nodup, by simp, ?_⟩
    intro a ha hb
    simp only [List.map_cons, List.map_nil, List.mem_singleton] at hb
    obtain ⟨d, hd, rfl⟩ := List.mem_map.1 ha
    have := hlt d hd
    have e : (commit_record db).offset = db.end_ := rfl
    omega
  · intro d hd
    have hd : d ∈ db.mf.recs ++ [commit_record db] := hd
    rcases List.mem_append.1 hd with hd | hd
    · exact hm.norm d hd
    · rw [List.mem_singleton.1 hd]; exact commit_record_norm db
  · intro d hd
    have hd : d ∈ db.mf.recs ++ [commit_record db] := hd
    show HEADER_SIZE ≤ d.offset ∧ d.offset + d.len ≤ db.end_ + 24
    rcases List.mem_append.1 hd with hd | hd
    · have := hm.bound d hd
      have := hsize
      omega
    · rw [List.mem_singleton.1 hd, commit_record_len]
      have e : (commit_record db).offset = db.end_ := rfl
      have := fileOK_size64 hfile
      have := hsize
      rw [e]; omega
  · intro d hd
    have hd : d ∈ db.mf.recs ++ [commit_record db] := hd
    show d.nextloc 0 < db.end_ + 24 ∧ d.nextloc 1 < db.end_ + 24
    rcases List.mem_append.1 hd with hd | hd
    · have := hfile.slots d hd
      omega
    · rw [List.mem_singleton.1 hd, (commit_record_slots db).1, (commit_record_slots db).2]
      have := hcs
      omega
  · exact ⟨linked_mono hfile.chain.linked (fun e he => List.mem_append_left _ he),
      hfile.chain.sorted, hfile.chain.level_pos⟩

theorem commit_idle {E : Env} {db : dbengine} {live : List node} (h : InTxn E db live)
    (hh : Held db) : Idle E (released (commit_body db)) live := by
  unfold commit_body
  by_cases hd : db.header.flags &&& DIRTY = 0
  · rw [if_pos hd]
    obtain ⟨e1, e2⟩ := hh.clean hd
    refine ⟨hh.is_open, rfl, ?_, ?_, ?_, ?_, ?_⟩
    · show db.mf.header.version ≤ VERSION
      rw [e1]; exact hh.version
    · show db.mf.header.current_size = db.mf.size
      rw [e1, ← e2, h.size]
    · show db.mf.header.flags &&& DIRTY = 0
      rw [e1]; exact hd
    · refine fileOK_of_recs h.file rfl rfl ?_
      show db.mf.header.current_size = db.end_
      rw [e1, e2]
    · intro g1 g2
      have g1 : db.loc.end_ = db.mf.header.current_size := g1
      have g2 : db.loc.generation = db.mf.header.generation := g2
      rw [e1] at g1 g2
      exact h.cache (g1.trans e2.symm) g2
  · rw [if_neg hd]
    refine ⟨hh.is_open, rfl, hh.version, rfl, clear_dirty_and _, ?_, ?_⟩
    · exact fileOK_of_recs (committed_file h.file h.size h.cs_le) rfl rfl rfl
    · intro g1 _
      have g1 : db.loc.end_ = db.end_ + 24 := g1
      have := hh.stale hd
      omega

/-! ## Commit, abort and the checkpoint test on concrete handles -/

/-- C14: on a write-locked handle whose header is not DIRTY and whose file
size equals `current_size`, `recovery1` returns 0 and the handle as it is
(no write, no truncate), and `myabort` of the transaction returns 0 with
the same records, size and header of the file and the same header in
memory. -/
theorem recovery1_clean_noop (db : dbengine) (hl : db.mf.lock_status = WRITELOCKED)
    (hd : db.header.flags &&& DIRTY = 0) (hs : db.mf.size = db.header.current_size) :
    recovery1 db = some (0, db) ∧
    ∃ db1, myabort db db.current_txn = some (0, db1) ∧
      db1.mf.recs = db.mf.recs ∧ db1.mf.size = db.mf.size ∧ db1.mf.header = db.mf.header ∧
      db1.header = db.header := by
  have hc : db_is_clean db = true := by
    unfold db_is_clean _size
    rw [if_neg (by simp [hs]), if_neg (by simp [hd])]
  have h1 : recovery1 db = some (0, db) := by
    unfold recovery1
    rw [if_neg (by simp [hl]), if_pos hc]
  refine ⟨h1, ?_⟩
  have hc2 : db_is_clean { db with current_txn := none, end_ := db.header.current_size }
      = true := hc
  have h2 : recovery1 { db with current_txn := none, end_ := db.header.current_size } =
      some (0, { db with current_txn := none, end_ := db.header.current_size }) := by
    unfold recovery1
    rw [if_neg (by simp [hl]), if_pos hc2]
  refine ⟨(unlock { db with current_txn := none, end_ := db.header.current_size }).2, ?_, ?_⟩
  · unfold myabort
    rw [if_neg (by simp)]
    dsimp only
    rw [h2]
  · exact ⟨rfl, rfl, rfl, rfl⟩

/-- A transaction on a new database that made no write. -/
theorem recovery1_clean_noop_witness :
    recovery1 (begun (new_db 0 (fun _ => false)))
      = some (0, begun (new_db 0 (fun _ => false))) ∧
    ∃ db1, myabort (begun (new_db 0 (fun _ => false)))
        (begun (new_db 0 (fun _ => false))).current_txn = some (0, db1) ∧
      db1.mf.recs = (begun (new_db 0 (fun _ => false))).mf.recs ∧
      db1.mf.size = (begun (new_db 0 (fun _ => false))).mf.size ∧
      db1.mf.header = (begun (new_db 0 (fun _ => false))).mf.header ∧
      db1.header = (begun (new_db 0 (fun _ => false))).header :=
  recovery1_clean_noop (begun (new_db 0 (fun _ => false))) rfl (by decide) rfl

/-- C17 (the code at the failing input): `mycheckpoint` on a database with
no live record and generation 1 returns 0, and the header of the new file
still holds generation 1; only the header in memory holds 2. -/
theorem checkpoint_empty_generation :
    (slack_db 336).header.generation = 1 ∧
    (mycheckpoint raw_env (ctx raw_env 0) (slack_db 336)).map
      (fun r => (r.1, r.2.mf.header.generation, r.2.header.generation)) = some (0, 1, 2) := by
  decide

/-! ## The cached record is well formed -/

theorem forward_loop_record (db : dbengine) (rec : skiprecord) (back : Bool) :
    ∀ (cnt i : Nat) (loc : skiploc) {r : Int} {loc1 : skiploc},
      forward_loop db rec back cnt i loc = some (r, loc1) → loc1.record = loc.record := by
  intro cnt
  induction cnt with
  | zero =>
    intro i loc r loc1 h
    simp only [forward_loop, Option.some.injEq, Prod.mk.injEq] at h
    rw [← h.2]
  | succ n ih =>
    intro i loc r loc1 h
    simp only [forward_loop] at h
    split at h
    · cases h
    · rename_i r0 out _
      split at h
      · simp only [Option.some.injEq, Prod.mk.injEq] at h
        rw [← h.2]
        split <;> rfl
      · rw [ih _ _ h]
        split <;> rfl

theorem read_record_kl {db : dbengine} (hm : MfOK db.mf) {off : Nat} {r : skiprecord}
    (h : read_record db off = some (0, r)) : KL r :=
  (hm.norm r (read_record_some hm h).1).keylen_eq

theorem relocate_loop_kl (E : Env) {db : dbengine} (hm : MfOK db.mf) :
    ∀ (fuel l : Nat) (loc : skiploc) (nr : skiprecord) (cmp : Int)
      {loc1 : skiploc} {nr1 : skiprecord} {cmp1 : Int},
      KL loc.record → KL nr →
      relocate_loop E db fuel l loc nr cmp = some (0, loc1, nr1, cmp1) →
      KL loc1.record ∧ KL nr1 := by
  intro fuel
  induction fuel with
  | zero =>
    intro l loc nr cmp loc1 nr1 cmp1 h1 h2 h
    cases l with
    | zero =>
      simp only [relocate_loop, Option.some.injEq, Prod.mk.injEq, true_and] at h
      rw [← h.1, ← h.2.1]; exact ⟨h1, h2⟩
    | succ l => simp [relocate_loop] at h
  | succ n ih =>
    intro l loc nr cmp loc1 nr1 cmp1 h1 h2 h
    cases l with
    | zero =>
      simp only [relocate_loop, Option.some.injEq, Prod.mk.injEq, true_and] at h
      rw [← h.1, ← h.2.1]; exact ⟨h1, h2⟩
    | succ l =>
      simp only [relocate_loop] at h
      split at h
      · cases h
      · rename_i r0 offset _
        split at h
        · rename_i hr0
          simp only [Option.some.injEq, Prod.mk.injEq] at h
          exact absurd h.1 hr0
        · split at h
          · split at h
            · cases h
            · rename_i r1 nrx hread
              split at h
              · rename_i hr1
                simp only [Option.some.injEq, Prod.mk.injEq] at h
                exact absurd h.1 hr1
              · rename_i hr1
                have hr1 : r1 = 0 := by simpa using hr1
                subst hr1
                have hk := read_record_kl hm hread
                split at h
                · exact ih _ _ _ _ (by exact hk) hk h
                · exact ih _ _ _ _ (by exact h1) hk h
          · exact ih _ _ _ _ (by exact h1) h2 h

theorem relocate_kl {E : Env} {db : dbengine} {live : List node} (hf : FileOK E db live)
    {db1 : dbengine} (h : relocate E db = some (0, db1)) : KL db1.loc.record := by
  have hm := hf.mf
  unfold relocate at h
  dsimp only at h
  obtain ⟨d, hd, ho, _⟩ := hf.chain.linked.1
  have hr : read_record db HEADER_SIZE = some (0, d) := by
    have := read_record_of_mem hm hd
    rw [ho] at this
    exact this
  · have hk : KL d := (hm.norm d hd).keylen_eq
    rw [hr] at h
    dsimp only at h
    split at h
    · split at h
      · cases h
      · rename_i r1 loc2 hfw
        simp only [Option.some.injEq, Prod.mk.injEq] at h
        rw [← h.2]
        rw [show ({ db with loc := loc2 } : dbengine).loc.record = loc2.record from rfl,
          forward_loop_record _ _ _ _ _ _ hfw]
        exact hk
    · split at h
      · cases h
      · rename_i r1 loc2 nr cmp hloop
        split at h
        · rename_i hr1
          simp only [Option.some.injEq, Prod.mk.injEq] at h
          exact absurd h.1 hr1
        · rename_i hr1
          have hr1 : r1 = 0 := by simpa using hr1
          subst hr1
          obtain ⟨k1, k2⟩ := relocate_loop_kl E hm _ _ _ _ _ (by exact hk) (by rfl) hloop
          split at h
          · split at h
            · cases h
            · rename_i r2 loc4 hfw
              have e := forward_loop_record _ _ _ _ _ _ hfw
              split at h
              · simp only [Option.some.injEq, Prod.mk.injEq] at h
                rw [← h.2]
                show KL loc4.record
                rw [e]; exact k2
              · simp only [Option.some.injEq, Prod.mk.injEq] at h
                rw [← h.2]
                show KL loc4.record
                rw [e]; exact k2
          · simp only [Option.some.injEq, Prod.mk.injEq] at h
            rw [← h.2]
            exact k1

theorem find_loc_kl {E : Env} {db : dbengine} {live : List node} (hf : FileOK E db live)
    (hk : KL db.loc.record) {key : List Nat} {db1 : dbengine}
    (h : find_loc E db key = some (0, db1)) : KL db1.loc.record := by
  have hm := hf.mf
  unfold find_loc at h
  dsimp only at h
  split at h
  · split at h
    · simp only [Option.some.injEq, Prod.mk.injEq, true_and] at h
      rw [← h]; exact hk
    · split at h
      · split at h
        · simp only [Option.some.injEq, Prod.mk.injEq, true_and] at h
          rw [← h]; exact hk
        · split at h
          · cases h
          · rename_i r nr hread
            split at h
            · rename_i hr
              simp only [Option.some.injEq, Prod.mk.injEq] at h
              exact absurd h.1 hr
            · rename_i hr
              have hr : r = 0 := by simpa using hr
              subst hr
              have hread : read_record db _ = some (0, nr) :=
                (read_record_mf (by rfl) _).symm.trans hread
              have hnk := read_record_kl hm hread
              split at h
              · split at h
                · cases h
                · rename_i r2 loc3 hfw
                  have e := forward_loop_record _ _ _ _ _ _ hfw
                  split at h
                  · simp only [Option.some.injEq, Prod.mk.injEq] at h
                    rw [← h.2]
                    show KL loc3.record
                    rw [e]; exact hnk
                  · simp only [Option.some.injEq, Prod.mk.injEq] at h
                    rw [← h.2]
                    show KL loc3.record
                    rw [e]; exact hnk
              · split at h
                · simp only [Option.some.injEq, Prod.mk.injEq, true_and] at h
                  rw [← h]; exact hk
                · exact relocate_kl (by exact hf.congr rfl rfl) h
      · exact relocate_kl (by exact hf.congr rfl rfl) h
  · exact relocate_kl (by exact hf.congr rfl rfl) h

theorem advance_loc_kl {E : Env} (hc : CompareLaws E.compar) {db : dbengine}
    {live : List node} (hf : FileOK E db live) (hk : KL db.loc.record) {db1 : dbengine}
    (h : advance_loc E db = some (0, db1)) : KL db1.loc.record := by
  have hm := hf.mf
  obtain ⟨locR, hrel, _⟩ := relocate_ok hc hf
  have hA : ∃ locA, (if db.loc.end_ ≠ db.end_ ∨ db.loc.generation ≠ db.header.generation
        then relocate E db else some (0, db)) = some (0, { db with loc := locA }) ∧
      KL locA.record := by
    by_cases hst : db.loc.end_ ≠ db.end_ ∨ db.loc.generation ≠ db.header.generation
    · rw [if_pos hst]
      exact ⟨locR, hrel, relocate_kl hf hrel⟩
    · rw [if_neg hst]
      exact ⟨db.loc, rfl, hk⟩
  obtain ⟨locA, hrunA, hkA⟩ := hA
  unfold advance_loc at h
  dsimp only at h
  rw [hrunA] at h
  dsimp only at h
  simp only [ne_eq, not_true_eq_false, if_false] at h
  split at h
  · exact relocate_kl (by exact hf.congr rfl rfl) h
  · split at h
    · cases h
    · rename_i r nr hread
      have hread : read_record db _ = some (r, nr) :=
        (read_record_mf (by rfl) _).symm.trans hread
      split at h
      · rename_i hr
        simp only [Option.some.injEq, Prod.mk.injEq] at h
        exact absurd h.1 hr
      · rename_i hr
        have hr : r = 0 := by simpa using hr
        subst hr
        have hnk := read_record_kl hm hread
        split at h
        · cases h
        · rename_i r2 loc3 hfw
          have e := forward_loop_record _ _ _ _ _ _ hfw
          split at h
          · simp only [Option.some.injEq, Prod.mk.injEq] at h
            rw [← h.2]
            show KL loc3.record
            rw [e]; exact hnk
          · simp only [Option.some.injEq, Prod.mk.injEq] at h
            rw [← h.2]
            show KL loc3.record
            rw [e]; exact hnk

/-! ## Iteration: the reference and the prefix range -/

theorem starts_with_iff {E : Env} (hc : CompareLaws E.compar) (pfx : List Nat) (n : node) :
    starts_with E pfx n = true ↔ pfx <+: n.key := by
  unfold starts_with
  simp only [Bool.or_eq_true, Bool.and_eq_true, decide_eq_true_eq, Bool.not_eq_true',
    decide_eq_false_iff_not, hc.eq_zero]
  constructor
  · rintro (h | ⟨_, h2⟩)
    · rw [List.length_eq_zero.1 h]; exact List.nil_prefix
    · rw [← h2]; exact List.take_prefix _ _
  · intro h
    right
    exact ⟨by have := h.length_le; omega, (List.prefix_iff_eq_take.1 h).symm⟩

theorem split_le_unique {E : Env} (hc : CompareLaws E.compar) {k : List Nat} :
    ∀ {a a1 b b1 : List node}, a ++ b = a1 ++ b1 →
      (∀ n ∈ a, E.compar n.key k ≤ 0) → (∀ n ∈ b, E.compar k n.key < 0) →
      (∀ n ∈ a1, E.compar n.key k ≤ 0) → (∀ n ∈ b1, E.compar k n.key < 0) →
      a = a1 ∧ b = b1 := by
  intro a
  induction a with
  | nil =>
    intro a1 b b1 e _ hb ha1 _
    cases a1 with
    | nil => exact ⟨rfl, e⟩
    | cons x t =>
      exfalso
      simp only [List.nil_append, List.cons_append] at e
      have h1 := hb x (by rw [e]; simp)
      have h2 := ha1 x (by simp)
      have := (hc.lt_gt _ _).1 h1
      omega
  | cons x t ih =>
    intro a1 b b1 e ha hb ha1 hb1
    cases a1 with
    | nil =>
      exfalso
      simp only [List.nil_append, List.cons_append] at e
      have h1 := hb1 x (by rw [← e]; simp)
      have h2 := ha x (by simp)
      have := (hc.lt_gt _ _).1 h1
      omega
    | cons x1 t1 =>
      simp only [List.cons_append, List.cons.injEq] at e
      obtain ⟨e1, e2⟩ := ih e.2 (fun n hn => ha n (List.mem_cons_of_mem _ hn)) hb
        (fun n hn => ha1 n (List.mem_cons_of_mem _ hn)) hb1
      exact ⟨by rw [e.1, e1], e2⟩

/-- In a sorted list split at the prefix, the keys with the prefix are the
longest run of them at the head of the upper part. -/
theorem filter_prefix_segment {E : Env} (hc : CompareLaws E.compar)
    (hp : PrefixLaws E.compar) (pfx : List Nat) {P S : List node}
    (hs : (P ++ S).Pairwise (fun a b => E.compar a.key b.key < 0))
    (hP : ∀ n ∈ P, E.compar n.key pfx < 0) (hS : ∀ n ∈ S, 0 ≤ E.compar n.key pfx) :
    (P ++ S).filter (starts_with E pfx) = S.takeWhile (starts_with E pfx) := by
  have h1 : P.filter (starts_with E pfx) = [] := by
    rw [List.filter_eq_nil_iff]
    intro n hn hm
    have := hp.le_ext _ _ ((starts_with_iff hc pfx n).1 hm)
    have h2 := hP n hn
    have := (hc.lt_gt _ _).1 h2
    omega
  rw [List.filter_append, h1, List.nil_append]
  have hsS := (List.pairwise_append.1 hs).2.1
  clear hs h1 hP
  induction S with
  | nil => rfl
  | cons x t ih =>
    rw [List.pairwise_cons] at hsS
    by_cases hx : starts_with E pfx x = true
    · rw [List.filter_cons_of_pos hx, List.takeWhile_cons_of_pos hx,
        ih (fun n hn => hS n (List.mem_cons_of_mem _ hn)) hsS.2]
    · rw [List.filter_cons_of_neg hx, List.takeWhile_cons_of_neg hx, List.filter_eq_nil_iff]
      intro n hn hm
      have hnp := (starts_with_iff hc pfx n).1 hm
      have hxp : ¬ pfx <+: x.key := fun h => hx ((starts_with_iff hc pfx x).2 h)
      have hne : E.compar x.key pfx ≠ 0 := by
        intro h0
        rw [hc.eq_zero] at h0
        exact hxp (h0 ▸ List.prefix_refl _)
      have hlt : E.compar pfx x.key < 0 := by
        rw [hc.lt_gt]
        have := hS x (List.mem_cons_self _ _)
        omega
      have h3 := hp.gap _ _ _ hnp hxp hlt
      have h4 := hsS.1 n hn
      have := (hc.lt_gt _ _).1 h4
      omega

theorem raw_le_ext : ∀ (p a : List Nat), p <+: a → bsearch_ncompare_raw p a ≤ 0 := by
  intro p
  induction p with
  | nil =>
    intro a _
    cases a <;> simp [bsearch_ncompare_raw]
  | cons x s ih =>
    intro a h
    cases a with
    | nil => simp at h
    | cons y u =>
      rw [List.cons_prefix_cons] at h
      simp only [bsearch_ncompare_raw, h.1, lt_self_iff_false, if_false]
      exact ih u h.2

theorem raw_gap : ∀ (p a b : List Nat), p <+: b → ¬ p <+: a →
    bsearch_ncompare_raw p a < 0 → bsearch_ncompare_raw b a < 0 := by
  intro p
  induction p with
  | nil =>
    intro a b _ h
    exact absurd List.nil_prefix h
  | cons x s ih =>
    intro a b hb ha hlt
    cases b with
    | nil => simp at hb
    | cons z t =>
      rw [List.cons_prefix_cons] at hb
      obtain ⟨rfl, hb⟩ := hb
      cases a with
      | nil => simp [bsearch_ncompare_raw] at hlt
      | cons y u =>
        simp only [bsearch_ncompare_raw] at hlt ⊢
        by_cases h1 : x < y
        · rw [if_pos h1]; omega
        · rw [if_neg h1] at hlt ⊢
          by_cases h2 : y < x
          · rw [if_pos h2] at hlt; omega
          · rw [if_neg h2] at hlt ⊢
            have e : x = y := by omega
            subst e
            refine ih u t hb ?_ hlt
            intro h
            exact ha (List.cons_prefix_cons.2 ⟨rfl, h⟩)

theorem raw_prefix_laws : PrefixLaws raw_env.compar := ⟨raw_le_ext, raw_gap⟩

/-! ## Advancing along the chain -/

/-- From an exact match at `y`, `advance_loc` moves to the successor of
`y`. -/
theorem advance_next {E : Env} (hc : CompareLaws E.compar) {db : dbengine} {live : List node}
    (hf : FileOK E db live) (hl : LocAt E db.loc live)
    {k : List Nat} (hk : db.loc.keybuf = k) {p R : List node} (hpR : live = p ++ R)
    (hp : ∀ n ∈ p, E.compar n.key k ≤ 0) (hR : ∀ n ∈ R, E.compar k n.key < 0) :
    ∃ loc1, advance_loc E db = some (0, { db with loc := loc1 }) ∧
      loc1.end_ = db.end_ ∧ loc1.generation = db.header.generation ∧ LocAt E loc1 live ∧
      (KL db.loc.record → KL loc1.record) ∧ (R = [] → loc1.is_exactmatch = false) ∧
      (∀ y R', R = y :: R' →
        loc1.is_exactmatch = true ∧ loc1.keybuf = y.key ∧ RecOf loc1.record y) := by
  obtain ⟨loc1, a1, a2, a3, a4, p1, R1, a5, a6, a7, a8, a9⟩ :=
    advance_loc_ok hc hf (fun _ _ => hl)
  rw [hk] at a6 a7
  obtain ⟨e1, e2⟩ := split_le_unique hc (hpR.symm.trans a5) hp hR a6 a7
  subst e1 e2
  exact ⟨loc1, a1, a2, a3, a4, fun hkl => advance_loc_kl hc hf hkl a1, fun h => (a8 h).1, a9⟩

/-! ## The loop of `myforeach` -/

theorem relock_loc {E : Env} {db : dbengine} {live : List node} (h : Relock E db live)
    {loc1 : skiploc} (hl : LocAt E loc1 live) : Relock E { db with loc := loc1 } live := by
  refine ⟨⟨h.1.is_open, h.1.no_txn, h.1.version, h.1.clean_size, h.1.clean_flags,
    fileOK_of_recs h.1.file rfl rfl rfl, fun _ _ => hl⟩, ?_⟩
  show ({ locked READLOCKED (unlock db).2 with loc := loc1 } : dbengine) = _
  rw [h.2]

theorem relock_read {E : Env} (C : Ctx) {db : dbengine} {live : List node}
    (h : Relock E db live) : read_lock C 2 (unlock db).2 = some (0, db) := by
  rw [read_lock_idle C h.1, h.2]

theorem myforeach_loop_succ {ρ : Type} (E : Env) (C : Ctx) (pfx : List Nat)
    (goodp : Option (ρ → List Nat → List Nat → Int))
    (cb : ρ → List Nat → List Nat → Option (Int × ρ)) (notid : Bool)
    (fuel : Nat) (db : dbengine) (rock : ρ) (need_unlock : Bool) :
    myforeach_loop E C pfx goodp cb notid (fuel + 1) db rock need_unlock =
    if ¬ db.loc.is_exactmatch then some (0, 0, db, rock, need_unlock)
    else if pfx.length ≠ 0 ∧ db.loc.record.keylen < pfx.length then
      some (0, 0, db, rock, need_unlock)
    else if pfx.length ≠ 0 ∧ E.compar ((_key db.loc.record).take pfx.length) pfx ≠ 0 then
      some (0, 0, db, rock, need_unlock)
    else
      let val := _val db.loc.record
      if good goodp rock db.loc.keybuf val then
        let db1 := if notid then (unlock db).2 else db
        let need_unlock1 := if notid then false else need_unlock
        match cb rock db1.loc.keybuf val with
        | none => none
        | some (cb_r, rock1) =>
          if cb_r ≠ 0 then some (0, cb_r, db1, rock1, need_unlock1)
          else
            match (if notid then read_lock C 2 db1 else some (0, db1)) with
            | none => none
            | some (r, db2) =>
              if r ≠ 0 then some (r, cb_r, db2, rock1, need_unlock1)
              else
                let need_unlock2 := if notid then true else need_unlock1
                match advance_loc E db2 with
                | none => none
                | some (r, db3) =>
                  if r ≠ 0 then some (r, cb_r, db3, rock1, need_unlock2)
                  else myforeach_loop E C pfx goodp cb notid fuel db3 rock1 need_unlock2
      else
        match advance_loc E db with
        | none => none
        | some (r, db3) =>
          if r ≠ 0 then some (r, 0, db3, rock, need_unlock)
          else myforeach_loop E C pfx goodp cb notid fuel db3 rock need_unlock := by
  cases goodp <;> rfl

theorem foreach_loop_ok {ρ : Type} {E : Env} (hc : CompareLaws E.compar) (C : Ctx)
    (pfx : List Nat) (goodp : Option (ρ → List Nat → List Nat → Int))
    (cb : ρ → List Nat → List Nat → Option (Int × ρ)) (notid : Bool) {live : List node} :
    ∀ (R p : List node) (db : dbengine) (rock : ρ) (fuel : Nat),
      FileOK E db live → live = p ++ R → R.length < fuel →
      LocAt E db.loc live → db.loc.end_ = db.end_ →
      db.loc.generation = db.header.generation →
      (notid = true → Relock E db live) →
      (R = [] → db.loc.is_exactmatch = false) →
      (∀ y R', R = y :: R' →
        db.loc.is_exactmatch = true ∧ db.loc.keybuf = y.key ∧ RecOf db.loc.record y) →
      (pfx.length ≠ 0 → KL db.loc.record) →
      (foreach_ref goodp cb (R.takeWhile (starts_with E pfx)) rock = none →
        myforeach_loop E C pfx goodp cb notid fuel db rock notid = none) ∧
      (∀ cb_r rock1,
        foreach_ref goodp cb (R.takeWhile (starts_with E pfx)) rock = some (cb_r, rock1) →
        ∃ loc1 dbf nuf,
          myforeach_loop E C pfx goodp cb notid fuel db rock notid
            = some (0, cb_r, dbf, rock1, nuf) ∧
          (if nuf = true then (unlock dbf).2 else dbf) =
            (if notid = true then (unlock { db with loc := loc1 }).2
              else { db with loc := loc1 }) ∧
          LocAt E loc1 live ∧ loc1.end_ = db.end_ ∧
          loc1.generation = db.header.generation) := by
  intro R
  induction R with
  | nil =>
    intro p db rock fuel hf hpR hfu hl he hg hre hnil _ _
    obtain ⟨f, rfl⟩ : ∃ f, fuel = f + 1 := ⟨fuel - 1, by simp at hfu; omega⟩
    have hx := hnil rfl
    rw [myforeach_loop]
    simp only [hx, Bool.false_eq_true, not_false_eq_true, if_true, List.takeWhile_nil,
      foreach_ref]
    refine ⟨fun h => (by cases h), ?_⟩
    intro cb_r rock1 h
    simp only [Option.some.injEq, Prod.mk.injEq] at h
    refine ⟨db.loc, db, notid, by rw [h.1, h.2], ?_, hl, he, hg⟩
    cases notid <;> rfl
  | cons y R' ih =>
    intro p db rock fuel hf hpR hfu hl he hg hre _ hcons hkl
    obtain ⟨f, rfl⟩ : ∃ f, fuel = f + 1 := ⟨fuel - 1, by simp at hfu; omega⟩
    obtain ⟨hx, hkey, hrec⟩ := hcons y R' rfl
    have hsort := hf.chain.sorted
    rw [hpR] at hsort
    have hple : ∀ n ∈ p ++ [y], E.compar n.key y.key ≤ 0 := by
      intro n hn
      rcases List.mem_append.1 hn with h | h
      · exact le_of_lt (sorted_before hsort (List.mem_cons_self _ _) n h)
      · rw [List.mem_singleton.1 h]
        exact le_of_eq ((hc.eq_zero _ _).2 rfl)
    have hRgt : ∀ n ∈ R', E.compar y.key n.key < 0 := sorted_tail hsort
    have hpR1 : live = (p ++ [y]) ++ R' := by rw [hpR]; simp
    -- the step to the next record
    obtain ⟨loc2, a1, a2, a3, a4, a5, a6, a7⟩ :=
      advance_next hc hf hl hkey hpR1 hple hRgt
    have hf2 : FileOK E { db with loc := loc2 } live := hf.congr rfl rfl
    have hnext := fun rk => ih (p ++ [y]) { db with loc := loc2 } rk f hf2 hpR1
      (by simp at hfu; omega) a4 a2 a3 (fun h => relock_loc (hre h) a4) a6 a7 (fun h => a5 (hkl h))
    rw [myforeach_loop_succ]
    have hklen : (pfx.length ≠ 0 ∧ db.loc.record.keylen < pfx.length) ↔
        (pfx.length ≠ 0 ∧ y.key.length < pfx.length) := by
      constructor
      · rintro ⟨h0, h1⟩
        have := hkl h0
        unfold KL at this
        rw [this, hrec.2.2.1] at h1
        exact ⟨h0, h1⟩
      · rintro ⟨h0, h1⟩
        have := hkl h0
        unfold KL at this
        rw [this, hrec.2.2.1]
        exact ⟨h0, h1⟩
    have hkey2 : _key db.loc.record = y.key := hrec.2.2.1
    have hval : _val db.loc.record = y.val := hrec.2.2.2
    rw [if_neg (by simp [hx]), if_congr hklen rfl rfl, hkey2, hval, hkey]
    have stop : starts_with E pfx y = false →
        (foreach_ref goodp cb (List.takeWhile (starts_with E pfx) (y :: R')) rock = none →
          some ((0 : Int), (0 : Int), db, rock, notid) = none) ∧
        ∀ cb_r rock1,
          foreach_ref goodp cb (List.takeWhile (starts_with E pfx) (y :: R')) rock
            = some (cb_r, rock1) →
          ∃ loc1 dbf nuf,
            some ((0 : Int), (0 : Int), db, rock, notid) = some (0, cb_r, dbf, rock1, nuf) ∧
            (if nuf = true then (unlock dbf).2 else dbf) =
              (if notid = true then (unlock { db with loc := loc1 }).2
                else { db with loc := loc1 }) ∧
            LocAt E loc1 live ∧ loc1.end_ = db.end_ ∧
            loc1.generation = db.header.generation := by
      intro hm
      rw [List.takeWhile_cons_of_neg (by simp [hm])]
      simp only [foreach_ref]
      refine ⟨fun h => (by cases h), ?_⟩
      intro cb_r rock1 h
      simp only [Option.some.injEq, Prod.mk.injEq] at h
      refine ⟨db.loc, db, notid, by rw [h.1, h.2], ?_, hl, he, hg⟩
      cases notid <;> rfl
    by_cases c2 : pfx.length ≠ 0 ∧ y.key.length < pfx.length
    · rw [if_pos c2]
      apply stop
      simp [starts_with, c2.1, c2.2]
    rw [if_neg c2]
    by_cases c3 : pfx.length ≠ 0 ∧ E.compar (y.key.take pfx.length) pfx ≠ 0
    · rw [if_pos c3]
      apply stop
      simp [starts_with, c3.1, c3.2]
    rw [if_neg c3]
    have hm : starts_with E pfx y = true := by
      unfold starts_with
      by_cases h0 : pfx.length = 0
      · simp [h0]
      · have h2 : ¬ y.key.length < pfx.length := fun h => c2 ⟨h0, h⟩
        have h3 : E.compar (y.key.take pfx.length) pfx = 0 := by
          by_contra h; exact c3 ⟨h0, h⟩
        simp [h2, h3]
    rw [List.takeWhile_cons_of_pos hm]
    dsimp only
    have hk1 : (if notid = true then (unlock db).2 else db).loc.keybuf = y.key := by
      cases notid
      · exact hkey
      · exact hkey
    have hrl : (if notid = true then read_lock C 2 (if notid = true then (unlock db).2 else db)
        else some (0, if notid = true then (unlock db).2 else db)) = some (0, db) := by
      cases hn : notid
      · rfl
      · simp only [if_true]
        exact relock_read C (hre hn)
    have hnu : (if notid = true then true else if notid = true then false else notid)
        = notid := by
      cases notid <;> rfl
    rw [hk1]
    simp only [foreach_ref]
    by_cases hgd : good goodp rock y.key y.val = true
    · rw [if_pos hgd, if_pos hgd]
      cases hcb : cb rock y.key y.val with
      | none => exact ⟨fun _ => rfl, fun _ _ h => (by cases h)⟩
      | some res =>
        obtain ⟨cb_r0, rk1⟩ := res
        dsimp only
        by_cases hz : cb_r0 ≠ 0
        · rw [if_pos hz, if_pos hz]
          refine ⟨fun h => (by cases h), ?_⟩
          intro cb_r rock1 h
          simp only [Option.some.injEq, Prod.mk.injEq] at h
          refine ⟨db.loc, _, _, by rw [h.1, h.2], ?_, hl, he, hg⟩
          cases notid <;> rfl
        · rw [if_neg hz, if_neg hz, hrl]
          dsimp only
          rw [if_neg (by simp), a1]
          dsimp only
          rw [if_neg (by simp), hnu]
          exact hnext rk1
    · rw [if_neg hgd, if_neg hgd, a1]
      dsimp only
      rw [if_neg (by simp)]
      exact hnext rock

/-! ## `myforeach` -/

theorem myforeach_eq {ρ : Type} (E : Env) (C : Ctx) (pfx : List Nat)
    (goodp : Option (ρ → List Nat → List Nat → Int))
    (cb : ρ → List Nat → List Nat → Option (Int × ρ)) (rock : ρ)
    {db0 db1 : dbengine} {tidptr tidptr1 : Option (Option txn)}
    (h : enter_read C db0 tidptr = some (0, db1, tidptr1)) :
    myforeach E C db0 pfx goodp cb rock tidptr =
      foreach_body E C pfx goodp cb rock db1 (decide (tidptr1 = none)) (tidptr1.getD none) := by
  unfold myforeach foreach_body
  rw [h]
  rfl

theorem prefixRun_of_laws {E : Env} (hc : CompareLaws E.compar) (hp : PrefixLaws E.compar)
    (pfx : List Nat) {live : List node}
    (hs : live.Pairwise (fun a b => E.compar a.key b.key < 0)) : PrefixRun E pfx live := by
  intro P S e hP hS
  rw [e] at hs ⊢
  exact filter_prefix_segment hc hp pfx hs hP hS

theorem prefixRun_nil {E : Env} (hc : CompareLaws E.compar) {live : List node}
    (hk : ∀ n ∈ live, n.key ≠ []) : PrefixRun E [] live := by
  intro P S e hP _
  have hPn : P = [] := by
    cases P with
    | nil => rfl
    | cons x t =>
      exfalso
      have h1 := hP x (List.mem_cons_self _ _)
      have h2 := hc.nil_lt x.key (hk x (by rw [e]; simp))
      have := (hc.lt_gt _ _).1 h1
      omega
  subst hPn
  rw [e, List.nil_append]
  have ht : ∀ n : node, starts_with E [] n = true := fun n => by simp [starts_with]
  rw [List.filter_eq_self.2 (fun n _ => ht n), List.takeWhile_eq_self_iff.2 (fun n _ => ht n)]

theorem foreach_body_ok {ρ : Type} {E : Env} (hc : CompareLaws E.compar)
    (C : Ctx) (pfx : List Nat)
    (goodp : Option (ρ → List Nat → List Nat → Int))
    (cb : ρ → List Nat → List Nat → Option (Int × ρ)) (rock : ρ)
    {db1 : dbengine} {live : List node} (hp : PrefixRun E pfx live)
    (notid : Bool) (tid1 : Option txn)
    (hf : FileOK E db1 live)
    (hcache : db1.loc.end_ = db1.end_ → db1.loc.generation = db1.header.generation →
      LocAt E db1.loc live)
    (hre : notid = true → ∀ loc1, LocAt E loc1 live → Relock E { db1 with loc := loc1 } live)
    (hkl : pfx.length ≠ 0 → KL db1.loc.record) :
    (foreach_ref goodp cb (live.filter (starts_with E pfx)) rock = none →
      foreach_body E C pfx goodp cb rock db1 notid tid1 = none) ∧
    (∀ r rock1, foreach_ref goodp cb (live.filter (starts_with E pfx)) rock = some (r, rock1) →
      ∃ loc1, foreach_body E C pfx goodp cb rock db1 notid tid1 =
          some (r, (if notid = true then (unlock { db1 with loc := loc1 }).2
            else { db1 with loc := loc1 }), rock1, tid1) ∧
        LocAt E loc1 live ∧ loc1.end_ = db1.end_ ∧
        loc1.generation = db1.header.generation) := by
  obtain ⟨loc1, h1, h2, h3, h4, h5⟩ := find_loc_ok hc hf hcache pfx
  have hk1 : pfx.length ≠ 0 → KL loc1.record := fun h => find_loc_kl hf (hkl h) h1
  have hf1 : FileOK E { db1 with loc := loc1 } live := hf.congr rfl rfl
  have hsort := hf.chain.sorted
  have hlen : live.length < db1.mf.recs.length := by
    have := chain_length_le hc hf.mf hf.chain.linked hsort
    simp only [List.length_cons] at this
    omega
  -- the position of the loop: the suffix `S` of the live records from the prefix on
  have hstart : ∃ P S loc2, live = P ++ S ∧ (∀ n ∈ P, E.compar n.key pfx < 0) ∧
      (∀ n ∈ S, 0 ≤ E.compar n.key pfx) ∧
      (if ¬ loc1.is_exactmatch = true then advance_loc E { db1 with loc := loc1 }
        else some (0, { db1 with loc := loc1 })) = some (0, { db1 with loc := loc2 }) ∧
      LocAt E loc2 live ∧ loc2.end_ = db1.end_ ∧ loc2.generation = db1.header.generation ∧
      (pfx.length ≠ 0 → KL loc2.record) ∧ (S = [] → loc2.is_exactmatch = false) ∧
      (∀ y R', S = y :: R' →
        loc2.is_exactmatch = true ∧ loc2.keybuf = y.key ∧ RecOf loc2.record y) := by
    have h5c := h5
    obtain ⟨P, S, hPS, hlt, _, hcase⟩ := h5c
    rw [h2] at hlt hcase
    rcases hcase with ⟨hx, m, S', hS, hmk, hrec, _⟩ | ⟨hx, hgt, _, _⟩
    · refine ⟨P, S, loc1, hPS, hlt, ?_, ?_, h5, h3, h4, hk1, ?_, ?_⟩
      · intro n hn
        rw [hS] at hn
        rcases List.mem_cons.1 hn with e | e
        · rw [e, hmk]
          exact le_of_eq ((hc.eq_zero _ _).2 rfl).symm
        · have hs2 := hsort
          rw [hPS, hS] at hs2
          have := sorted_tail hs2 n e
          rw [hmk] at this
          have := (hc.lt_gt _ _).1 this
          omega
      · rw [if_neg (by simp [hx])]
      · intro h; rw [hS] at h; cases h
      · intro y R' h
        rw [hS] at h
        simp only [List.cons.injEq] at h
        rw [← h.1]
        exact ⟨hx, by rw [h2, hmk], hrec⟩
    · obtain ⟨loc2, a1, a2, a3, a4, a5, a6, a7⟩ :=
        advance_next hc hf1 h5 h2 hPS (fun n hn => le_of_lt (hlt n hn)) hgt
      refine ⟨P, S, loc2, hPS, hlt, ?_, ?_, a4, a2, a3, fun h => a5 (hk1 h), a6, a7⟩
      · intro n hn
        have := (hc.lt_gt _ _).1 (hgt n hn)
        omega
      · rw [if_pos (by simp [hx])]
        exact a1
  obtain ⟨P, S, loc2, hPS, hP, hS, hadv, b1, b2, b3, b4, b5, b6⟩ := hstart
  have hseg : live.filter (starts_with E pfx) = S.takeWhile (starts_with E pfx) :=
    hp P S hPS hP hS
  have hf2 : FileOK E { db1 with loc := loc2 } live := hf.congr rfl rfl
  have hloop := foreach_loop_ok hc C pfx goodp cb notid S P { db1 with loc := loc2 } rock
    (db1.mf.recs.length + 1) hf2 hPS
    (by have : S.length ≤ live.length := by rw [hPS]; simp
        omega)
    b1 b2 b3 (fun h => hre h loc2 b1) b5 b6 b4
  rw [hseg]
  unfold foreach_body
  dsimp only
  rw [h1]
  dsimp only
  rw [if_neg (by simp), hadv]
  dsimp only
  rw [if_neg (by simp)]
  constructor
  · intro h
    rw [hloop.1 h]
  · intro r rock1 h
    obtain ⟨loc3, dbf, nuf, c1, c2, c3, c4, c5⟩ := hloop.2 r rock1 h
    refine ⟨loc3, ?_, c3, c4, c5⟩
    rw [c1]
    dsimp only
    rw [if_neg (by simp)]
    congr 2
    cases nuf
    · simpa using c2
    · simpa using c2

/-! ## `myforeach` against its reference -/

theorem filter_prefix_eq {E : Env} (hc : CompareLaws E.compar) (pfx : List Nat)
    (live : List node) :
    live.filter (fun n => pfx.isPrefixOf n.key) = live.filter (starts_with E pfx) := by
  apply List.filter_congr
  intro n _
  rw [Bool.eq_iff_iff, List.isPrefixOf_iff_prefix, starts_with_iff hc]

/-- C5: `myforeach` with prefix `pfx`, filter `goodp` and callback `cb`,
outside a transaction or inside the running one, is the reference iteration
`foreach_ref` over the live records whose key starts with `pfx` (all of them
for the empty prefix), which are in strictly ascending comparator order: the
callback runs on those that pass `goodp`, in that order, the iteration stops
at the first callback that returns non-zero and returns that value, and
returns 0 otherwise; the file is unchanged.  The cached record of the handle
is one that `read_record` returned (its `keylen` is the length of its key). -/
theorem foreach_refines {ρ : Type} {E : Env} (hc : CompareLaws E.compar)
    (hp : PrefixLaws E.compar) (C : Ctx) {db : dbengine} {live : List node}
    (pfx : List Nat) (goodp : Option (ρ → List Nat → List Nat → Int))
    (cb : ρ → List Nat → List Nat → Option (Int × ρ)) (rock : ρ)
    (tidptr : Option (Option txn))
    (hmode : (tidptr = none ∧ Idle E db live) ∨
      (tidptr = some db.current_txn ∧ InTxn E db live))
    (hkl : pfx.length ≠ 0 → KL db.loc.record) :
    (live.filter (fun n => pfx.isPrefixOf n.key)).Pairwise
      (fun a b => E.compar a.key b.key < 0) ∧
    (foreach_ref goodp cb (live.filter (fun n => pfx.isPrefixOf n.key)) rock = none →
      myforeach E C db pfx goodp cb rock tidptr = none) ∧
    (∀ r rock1,
      foreach_ref goodp cb (live.filter (fun n => pfx.isPrefixOf n.key)) rock
        = some (r, rock1) →
      ∃ db1, myforeach E C db pfx goodp cb rock tidptr
          = some (r, db1, rock1, tidptr.getD none) ∧
        db1.mf.recs = db.mf.recs ∧ db1.mf.size = db.mf.size ∧
        db1.mf.header = db.mf.header ∧
        ((tidptr = none ∧ Idle E db1 live) ∨
          (tidptr = some db1.current_txn ∧ InTxn E db1 live))) := by
  rw [filter_prefix_eq hc]
  rcases hmode with ⟨ht, h⟩ | ⟨ht, h⟩
  · subst ht
    refine ⟨?_, ?_⟩
    · have := (List.pairwise_cons.1 h.file.chain.sorted).2
      exact this.sublist (List.filter_sublist _)
    have hre : true = true → ∀ loc1, LocAt E loc1 live →
        Relock E { locked READLOCKED db with loc := loc1 } live :=
      fun _ loc1 hl => ⟨idle_after_read h hl, rfl⟩
    have hb := foreach_body_ok hc C pfx goodp cb rock
      (prefixRun_of_laws hc hp pfx (List.pairwise_cons.1 h.file.chain.sorted).2) true none
      (locked_file h READLOCKED) (by exact h.cache) hre hkl
    rw [myforeach_eq E C pfx goodp cb rock (enter_read_idle C h)]
    refine ⟨hb.1, ?_⟩
    intro r rock1 hr
    obtain ⟨loc1, c1, c2, _, _⟩ := hb.2 r rock1 hr
    exact ⟨_, c1, rfl, rfl, rfl, Or.inl ⟨rfl, idle_after_read h c2⟩⟩
  · refine ⟨?_, ?_⟩
    · have := (List.pairwise_cons.1 h.file.chain.sorted).2
      exact this.sublist (List.filter_sublist _)
    have hb := foreach_body_ok hc C pfx goodp cb rock
      (prefixRun_of_laws hc hp pfx (List.pairwise_cons.1 h.file.chain.sorted).2)
      false db.current_txn h.file h.cache (fun hh => (by cases hh)) hkl
    have he := enter_read_txn C h.txn
    rw [← ht] at he
    rw [myforeach_eq E C pfx goodp cb rock he]
    have hd : decide (tidptr = none) = false := by
      rw [ht]; simp
    have hg : tidptr.getD none = db.current_txn := by rw [ht]; rfl
    rw [hd, hg]
    refine ⟨hb.1, ?_⟩
    intro r rock1 hr
    obtain ⟨loc1, c1, c2, _, _⟩ := hb.2 r rock1 hr
    refine ⟨_, c1, rfl, rfl, rfl, Or.inr ⟨ht, ?_⟩⟩
    exact ⟨h.file.congr rfl rfl, h.txn, h.size, h.cs_pos, h.cs_le, fun _ _ => c2, h.dual⟩

/-! ## Copying the live records into a new file -/

/-- The `skipwrite` of a key that the live records do not hold: a store. -/
theorem skipwrite_insert {E : Env} (hc : CompareLaws E.compar) {db : dbengine}
    {live : List node} (h : InTxn E db live) (hh : Held db) {key : List Nat} (hk : key ≠ [])
    (d : List Nat) (force : Bool) (hnew : lookup live key = none) :
    ∃ db1 live1, skipwrite E db key (some d) force = some (0, db1) ∧
      InTxn E db1 live1 ∧ Held db1 ∧
      (∀ k, lookup live1 k = if k = key then some d else lookup live k) ∧
      TxnFrame db db1 ∧ db1.header.flags &&& DIRTY ≠ 0 ∧
      db1.header.num_records = add64 db.header.num_records 1 ∧
      sub64 db1.end_ db1.header.repack_size = sub64 db.end_ db.header.repack_size ∧
      KL db1.loc.record := by
  obtain ⟨loc1, h1, h2, h3, h4, h5, h6⟩ := find_loc_txn hc h key
  have hlk := locAt_lookup hc h5
  rw [h2, hnew] at hlk
  have hx0 : loc1.is_exactmatch = false := by
    cases hx : loc1.is_exactmatch
    · rfl
    · rw [hx] at hlk; simp at hlk
  obtain ⟨db1, live1, d1, d2, d3, d4, _, d6, d7, _⟩ :=
    store_txn hc h6 h5 (by show loc1.keybuf ≠ []; rw [h2]; exact hk) d
  refine ⟨db1, live1, ?_, d2, ?_, ?_, txnFrame_of_frame_loc d4, d4.dirty, (d6 hx0).1,
    (d6 hx0).2, d7⟩
  · unfold skipwrite
    rw [h1]
    simp only [ne_eq, not_true_eq_false, if_false, hx0, Bool.false_eq_true]
    exact d1
  · refine ⟨d4.is_open.trans hh.is_open, d4.lock.trans hh.lock, ?_, ?_, ?_⟩
    · rw [d4.version]; exact hh.version
    · intro _; exact Nat.le_of_eq d4.loc_end
    · intro hd; exact absurd hd d4.dirty
  · intro k
    rw [d3 k]
    show (if k = loc1.keybuf then some d else lookup live k) = _
    rw [h2]

theorem add64_mod (a : Nat) : add64 (a % 2 ^ 64) 1 = (a + 1) % 2 ^ 64 := by
  unfold add64
  omega

/-- One call of `copy_cb` from a handle in a transaction. -/
theorem copy_txn_step {E : Env} (hc : CompareLaws E.compar) (C : Ctx) {db : dbengine}
    {live : List node} (h : InTxn E db live) (hh : Held db) {key : List Nat} (hk : key ≠ [])
    (val : List Nat) (hnew : lookup live key = none) :
    ∃ db1 live1, copy_cb E C { db := db, tid := db.current_txn } key val =
        some (0, { db := db1, tid := db1.current_txn }) ∧
      InTxn E db1 live1 ∧ Held db1 ∧
      (∀ k, lookup live1 k = if k = key then some val else lookup live k) ∧
      TxnFrame db db1 ∧ db1.header.flags &&& DIRTY ≠ 0 ∧
      db1.header.num_records = add64 db.header.num_records 1 ∧
      sub64 db1.end_ db1.header.repack_size = sub64 db.end_ db.header.repack_size ∧
      KL db1.loc.record := by
  obtain ⟨db1, live1, a1, a2, a3, a4, a5, a6, a7, a8, a9⟩ :=
    skipwrite_insert hc h hh hk val false hnew
  refine ⟨db1, live1, ?_, a2, a3, a4, a5, a6, a7, a8, a9⟩
  unfold copy_cb mystore
  have hkl : ¬ key.length = 0 := fun e => hk (List.length_eq_zero.1 e)
  simp only [hkl, if_false, Option.getD_some, h.txn, a1, ne_eq, not_true_eq_false,
    reduceCtorEq, false_and]
  rw [a5.txn]

theorem stored_eq (l : List node) :
    ∀ (m : List Nat → Option (List Nat)), l.Pairwise (fun a b => a.key ≠ b.key) →
      ∀ k, stored m l k = (match lookup l k with
        | some v => some v
        | none => m k) := by
  induction l with
  | nil => intro m _ k; rfl
  | cons n t ih =>
    intro m hp k
    rw [List.pairwise_cons] at hp
    show stored (fun k => if k = n.key then some n.val else m k) t k = _
    rw [ih _ hp.2 k, lookup_cons]
    by_cases hk : n.key = k
    · rw [if_pos hk]
      have : lookup t k = none := by
        apply lookup_none_of_not
        intro x hx e
        exact hp.1 x hx (hk.trans e.symm)
      rw [this]
      simp [hk]
    · rw [if_neg hk]
      cases lookup t k with
      | none =>
        have hk2 : ¬ k = n.key := fun e => hk e.symm
        simp [hk2]
      | some v => rfl

theorem copy_run {E : Env} (hc : CompareLaws E.compar) (C : Ctx) :
    ∀ (rest : List node) (cr : copy_rock) (m : List Nat → Option (List Nat)) (cnt : Nat),
      InCopy E cr m cnt → (∀ n ∈ rest, n.key ≠ [] ∧ m n.key = none) →
      rest.Pairwise (fun a b => a.key ≠ b.key) →
      ∃ cr1, foreach_ref none (copy_cb E C) rest cr = some (0, cr1) ∧
        InCopy E cr1 (stored m rest) (cnt + rest.length) ∧
        cr1.db.header.generation = cr.db.header.generation ∧
        cr1.db.open_flags = cr.db.open_flags := by
  intro rest
  induction rest with
  | nil =>
    intro cr m cnt h _ _
    exact ⟨cr, rfl, h, rfl, rfl⟩
  | cons n t ih =>
    intro cr m cnt h hk hp
    rw [List.pairwise_cons] at hp
    obtain ⟨liveN, hl1, hl2⟩ := h.live
    obtain ⟨hkn, hmn⟩ := hk n (List.mem_cons_self _ _)
    obtain ⟨db1, live1, a1, a2, a3, a4, a5, a6, a7, a8, a9⟩ :=
      copy_txn_step hc C hl1 h.held hkn n.val (by rw [hl2]; exact hmn)
    have hcr : cr = { db := cr.db, tid := cr.db.current_txn } := by
      cases cr with
      | mk d t1 =>
        have := h.tid
        simp only at this
        rw [this]
    have hin : InCopy E { db := db1, tid := db1.current_txn }
        (fun k => if k = n.key then some n.val else m k) (cnt + 1) := by
      refine ⟨rfl, ⟨live1, a2, ?_⟩, a3, a6, ?_, ?_, a9⟩
      · intro k
        rw [a4 k, hl2 k]
      · show db1.header.num_records = _
        rw [a7, h.num, add64_mod]
      · show sub64 db1.end_ db1.header.repack_size = 0
        rw [a8]; exact h.slack
    obtain ⟨cr1, b1, b2, b3, b4⟩ := ih _ _ _ hin
      (by
        intro x hx
        refine ⟨(hk x (List.mem_cons_of_mem _ hx)).1, ?_⟩
        show (if x.key = n.key then some n.val else m x.key) = none
        rw [if_neg (fun e => hp.1 x hx e.symm)]
        exact (hk x (List.mem_cons_of_mem _ hx)).2)
      hp.2
    refine ⟨cr1, ?_, ?_, ?_, ?_⟩
    · rw [foreach_ref]
      simp only [good, if_true]
      rw [hcr, a1]
      simp only [ne_eq, not_true_eq_false, if_false]
      exact b1
    · have e : cnt + (n :: t).length = cnt + 1 + t.length := by
        simp only [List.length_cons]; omega
      rw [e]
      exact b2
    · rw [b3]; exact a5.generation
    · rw [b4]; exact a5.open_flags

/-! ## Checkpoint -/

/-- The first call of `copy_cb`, on the new file: it begins the transaction
of the copy. -/
theorem copy_first {E : Env} (hc : CompareLaws E.compar) (C : Ctx) (flags : Nat)
    (src : Nat → Bool) {key : List Nat} (hk : key ≠ []) (val : List Nat) :
    ∃ cr1, copy_cb E C { db := new_db flags src, tid := none } key val = some (0, cr1) ∧
      InCopy E cr1 (fun k => if k = key then some val else none) 1 ∧
      cr1.db.header.generation = 1 ∧ cr1.db.open_flags = flags := by
  have hi := idle_new E flags src
  obtain ⟨n1, n2, n3, _⟩ := newtxn_ok C hi
  obtain ⟨db1, live1, a1, a2, a3, a4, a5, a6, a7, a8, a9⟩ :=
    skipwrite_insert hc n2 n3 hk val false (lookup_nil key)
  refine ⟨{ db := db1, tid := db1.current_txn }, ?_, ?_, ?_, ?_⟩
  · unfold copy_cb mystore
    have hkl : ¬ key.length = 0 := fun e => hk (List.length_eq_zero.1 e)
    simp only [hkl, if_false, Option.getD_some, if_true, n1, a1, ne_eq, not_true_eq_false,
      reduceCtorEq, false_and]
    rw [a5.txn]
    rfl
  · refine ⟨rfl, ⟨live1, a2, ?_⟩, a3, a6, ?_, ?_, a9⟩
    · intro k
      rw [a4 k, lookup_nil]
    · show db1.header.num_records = _
      rw [a7]
      rfl
    · show sub64 db1.end_ db1.header.repack_size = 0
      rw [a8]
      show sub64 336 336 = 0
      decide
  · show db1.header.generation = 1
    rw [a5.generation]
    rfl
  · show db1.open_flags = flags
    rw [a5.open_flags]
    rfl

/-- The whole copy: `foreach_ref` of `copy_cb` over the live records. -/
theorem copy_all {E : Env} (hc : CompareLaws E.compar) (C : Ctx) (flags : Nat)
    (src : Nat → Bool) {live : List node}
    (hs : live.Pairwise (fun a b => E.compar a.key b.key < 0))
    (hk : ∀ n ∈ live, n.key ≠ []) (hne : live ≠ []) :
    ∃ cr1, foreach_ref none (copy_cb E C) live { db := new_db flags src, tid := none }
        = some (0, cr1) ∧
      InCopy E cr1 (lookup live) live.length ∧
      cr1.db.header.generation = 1 ∧ cr1.db.open_flags = flags := by
  have hd : live.Pairwise (fun a b => a.key ≠ b.key) :=
    hs.imp (fun h => key_ne_of_lt hc h)
  cases live with
  | nil => exact absurd rfl hne
  | cons n t =>
    rw [List.pairwise_cons] at hd
    obtain ⟨cr1, a1, a2, a3, a4⟩ := copy_first (E := E) hc C flags src
      (hk n (List.mem_cons_self _ _)) n.val
    obtain ⟨cr2, b1, b2, b3, b4⟩ := copy_run hc C t cr1 _ 1 a2
      (by
        intro x hx
        refine ⟨hk x (List.mem_cons_of_mem _ hx), ?_⟩
        show (if x.key = n.key then some n.val else none) = none
        rw [if_neg (fun e => hd.1 x hx e.symm)])
      hd.2
    refine ⟨cr2, ?_, ?_, b3.trans a3, b4.trans a4⟩
    · rw [foreach_ref]
      simp only [good, if_true]
      rw [a1]
      simp only [ne_eq, not_true_eq_false, if_false]
      exact b1
    · have e : (n :: t).length = 1 + t.length := by
        simp only [List.length_cons]; omega
      rw [e]
      have em : lookup (n :: t) = stored (fun k => if k = n.key then some n.val else none) t := by
        funext k
        rw [stored_eq t _ hd.2 k, lookup_cons]
        by_cases hkk : n.key = k
        · rw [if_pos hkk]
          have : lookup t k = none := by
            apply lookup_none_of_not
            intro x hx e
            exact hd.1 x hx (hkk.trans e.symm)
          rw [this]
          simp [hkk]
        · rw [if_neg hkk]
          have hk2 : ¬ k = n.key := fun e => hkk e.symm
          cases lookup t k with
          | none => simp [hk2]
          | some v => rfl
      rw [em]
      exact b2

/-! ## The commit of the new file -/

theorem sub64_slack {e rp : Nat} (h : sub64 e rp = 0) : sub64 (e + 24) rp = 24 := by
  unfold sub64 at h ⊢
  have h1 := Nat.mod_lt e (show 0 < 2 ^ 64 by norm_num)
  have h2 := Nat.mod_lt rp (show 0 < 2 ^ 64 by norm_num)
  have h4 : (e + 24) % 2 ^ 64 = (e % 2 ^ 64 + 24) % 2 ^ 64 := by omega
  rw [h4]
  generalize e % 2 ^ 64 = a at *
  generalize rp % 2 ^ 64 = b at *
  split at h <;> split <;> omega

/-- The commit of the copy when records were copied: the COMMIT record and
the header are written, no checkpoint of the new file follows, and the
handle is between transactions again. -/
theorem commit_copy {E : Env} (C : Ctx) {cr : copy_rock} {m : List Nat → Option (List Nat)}
    {cnt : Nat} (h : InCopy E cr m cnt) (g : Nat) :
    mycommit E C (with_generation cr.db g) cr.tid
      = some (0, released (committed (with_generation cr.db g))) ∧
    ∃ liveN, Idle E (released (committed (with_generation cr.db g))) liveN ∧
      ∀ k, lookup liveN k = m k := by
  obtain ⟨liveN, hl1, hl2⟩ := h.live
  have hm := hl1.file.mf
  have hfile : FileOK E (with_generation cr.db g) liveN := hl1.file.congr rfl rfl
  have hb : ∀ d ∈ (with_generation cr.db g).mf.recs,
      d.offset + d.len ≤ (with_generation cr.db g).end_ := by
    intro d hd
    have := (hm.bound d hd).2
    have := hl1.size
    show d.offset + d.len ≤ cr.db.end_
    omega
  have h64 : HEADER_SIZE ≤ (with_generation cr.db g).mf.size := by
    have := fileOK_size64 hl1.file
    show HEADER_SIZE ≤ cr.db.mf.size
    omega
  have e := @mycommit_dirty E C (with_generation cr.db g) cr.tid h.tid h.dirty hl1.txn hb
    hl1.size h64
  have hn : ¬ needs_checkpoint E (committed (with_generation cr.db g)) := by
    intro hn
    have h1 := hn.1
    have h2 : sub64 (cr.db.end_ + 24) cr.db.header.repack_size = 24 := sub64_slack h.slack
    have h3 : sub64 (committed (with_generation cr.db g)).header.current_size
        (committed (with_generation cr.db g)).header.repack_size = 24 := h2
    rw [h3] at h1
    unfold MINREWRITE at h1
    omega
  constructor
  · rw [e]
    unfold commit_finish
    rw [if_neg hn]
  · refine ⟨liveN, ⟨h.held.is_open, rfl, h.held.version, rfl, clear_dirty_and _, ?_, ?_⟩, hl2⟩
    · exact fileOK_of_recs (committed_file hfile hl1.size hl1.cs_le) rfl rfl rfl
    · intro g1 _
      have g1 : cr.db.loc.end_ = cr.db.end_ + 24 := g1
      have := h.held.stale h.dirty
      omega

theorem idle_emptied (E : Env) (db : dbengine) : Idle E (emptied db) [] := by
  have h := idle_new E db.open_flags db.rand_src
  refine ⟨h.is_open, rfl, h.version, h.clean_size, h.clean_flags,
    fileOK_of_recs h.file rfl rfl rfl, fun g1 _ => ?_⟩
  have g1 : (0 : Nat) = 336 := g1
  omega

/-- `mycheckpoint` in a transaction over a consistent file: it returns 0 and
the handle of the new file, between transactions, which holds the same
key-to-value map in `live.length` records. -/
theorem mycheckpoint_ok {E : Env} (hc : CompareLaws E.compar) (C : Ctx) {db : dbengine}
    {live : List node} (h : InTxn E db live) :
    ∃ db1 live1, mycheckpoint E C db = some (0, db1) ∧ Idle E db1 live1 ∧
      (∀ k, lookup live1 k = lookup live k) ∧
      db1.mf.header.num_records = live.length % 2 ^ 64 ∧
      db1.header.generation = db.header.generation + 1 ∧
      (live ≠ [] → db1.mf.header.generation = db.header.generation + 1) ∧
      (live = [] → db1 = emptied db) ∧ KL db1.loc.record := by
  have hsort := (List.pairwise_cons.1 h.file.chain.sorted).2
  have hkeys : ∀ n ∈ live, n.key ≠ [] := fun n hn => live_key_ne_nil hc h.file.chain.sorted hn
  have hfl : live.filter (starts_with E []) = live :=
    List.filter_eq_self.2 (fun n _ => by simp [starts_with])
  have hb := foreach_body_ok hc C [] none (copy_cb E C)
    { db := new_db db.open_flags db.rand_src, tid := none }
    (prefixRun_nil hc hkeys) false db.current_txn h.file h.cache (fun hh => (by cases hh))
    (fun hh => absurd rfl hh)
  rw [hfl] at hb
  have he := enter_read_txn C h.txn
  have hfe := myforeach_eq E C [] none (copy_cb E C)
    { db := new_db db.open_flags db.rand_src, tid := none } he
  have hd : decide (some db.current_txn = none) = false := by simp
  rw [hd] at hfe
  have hg : (some db.current_txn).getD none = db.current_txn := rfl
  rw [hg] at hfe
  unfold mycheckpoint
  rw [if_neg h.txn, myconsistent_ok hc h.file db.current_txn rfl]
  dsimp only
  rw [if_neg (by simp), opendb_new]
  dsimp only
  rw [if_neg (by simp), hfe]
  by_cases hl : live = []
  · subst hl
    obtain ⟨loc1, c1, _⟩ := hb.2 0 _ rfl
    rw [c1]
    dsimp only
    rw [if_neg (by simp)]
    have hi := idle_new E db.open_flags db.rand_src
    have hfn : FileOK E (new_db db.open_flags db.rand_src) [] :=
      fileOK_of_recs hi.file rfl rfl rfl
    rw [myconsistent_ok hc hfn none rfl]
    dsimp only
    rw [if_neg (by simp)]
    have hcm : mycommit E C
        { new_db db.open_flags db.rand_src with
          header := { (new_db db.open_flags db.rand_src).header with
            generation := db.header.generation + 1 } } none
        = some (0, emptied db) := by
      have hcl := @mycommit_clean E C
        (with_generation (new_db db.open_flags db.rand_src) (db.header.generation + 1)) none rfl
        (by show (0 : Nat) &&& DIRTY = 0; decide)
      have hcl : mycommit E C
        { new_db db.open_flags db.rand_src with
          header := { (new_db db.open_flags db.rand_src).header with
            generation := db.header.generation + 1 } } none = _ := hcl
      rw [hcl]
      unfold commit_finish
      rw [if_neg]
      · rfl
      · intro hn
        have h1 := hn.1
        have h2 : sub64 336 336 = 0 := by decide
        have h3 : sub64 336 336 > MINREWRITE := h1
        rw [h2] at h3
        unfold MINREWRITE at h3
        omega
    rw [hcm]
    dsimp only
    rw [if_neg (by simp)]
    exact ⟨emptied db, [], rfl, idle_emptied E db, fun _ => rfl, rfl, rfl,
      fun hne => absurd rfl hne, fun _ => rfl, rfl⟩
  · obtain ⟨cr1, a1, a2, a3, a4⟩ := copy_all hc C db.open_flags db.rand_src hsort hkeys hl
    obtain ⟨loc1, c1, _⟩ := hb.2 0 cr1 a1
    rw [c1]
    dsimp only
    rw [if_neg (by simp)]
    obtain ⟨liveN, hl1, hl2⟩ := a2.live
    rw [myconsistent_ok hc hl1.file cr1.tid a2.tid.symm]
    dsimp only
    rw [if_neg (by simp)]
    obtain ⟨e1, liveM, e2, e3⟩ := commit_copy C a2 (db.header.generation + 1)
    have e1 : mycommit E C { cr1.db with header := { cr1.db.header with
        generation := db.header.generation + 1 } } cr1.tid = _ := e1
    rw [e1]
    dsimp only
    rw [if_neg (by simp)]
    refine ⟨_, liveM, rfl, e2, e3, ?_, rfl, fun _ => rfl, fun hh => absurd hh hl, a2.kl⟩
    show cr1.db.header.num_records = _
    exact a2.num

/-! ## Commit, with or without a checkpoint -/

theorem intxn_commit_body {E : Env} {db : dbengine} {live : List node} (h : InTxn E db live)
    (hh : Held db) : InTxn E (commit_body db) live := by
  unfold commit_body
  by_cases hd : db.header.flags &&& DIRTY = 0
  · rw [if_pos hd]; exact h
  · rw [if_neg hd]
    have hf := committed_file h.file h.size h.cs_le
    refine ⟨hf, h.txn, rfl, ?_, le_refl _, ?_, ?_⟩
    · show 0 < db.end_ + 24
      omega
    · intro g1 _
      have g1 : db.loc.end_ = db.end_ + 24 := g1
      have := hh.stale hd
      omega
    · intro d hd1
      have := hf.slots d hd1
      unfold Dual
      show ¬ (db.end_ + 24 ≤ d.nextloc 0 ∧ db.end_ + 24 ≤ d.nextloc 1)
      have h1 : d.nextloc 0 < db.end_ + 24 := this.1
      omega

theorem drop_txn_idle {E : Env} {db : dbengine} {live : List node} (h : Idle E db live) :
    ({ db with current_txn := none } : dbengine) = db := by
  have := h.no_txn
  cases db
  simp only at this
  subst this
  rfl

/-- `mycommit` in a transaction, at any nesting depth of the checkpoint that
it may run: it returns 0 and leaves the handle between transactions with the
content of the transaction. -/
theorem mycommit_ok {E : Env} (hc : CompareLaws E.compar) (d : Nat) {db : dbengine}
    {live : List node} (h : InTxn E db live) (hh : Held db) :
    ∃ db1 live1, mycommit E (ctx E (d + 1)) db db.current_txn = some (0, db1) ∧
      Idle E db1 live1 ∧ (∀ k, lookup live1 k = lookup live k) ∧
      (¬ needs_checkpoint E (commit_body db) → db1 = released (commit_body db) ∧ live1 = live) := by
  have hm := h.file.mf
  have hb : ∀ d ∈ db.mf.recs, d.offset + d.len ≤ db.end_ := by
    intro d hd1
    have := (hm.bound d hd1).2
    have := h.size
    omega
  have h64 : HEADER_SIZE ≤ db.mf.size := by
    have := fileOK_size64 h.file
    omega
  have e : mycommit E (ctx E (d + 1)) db db.current_txn
      = commit_finish E (ctx E (d + 1)) (commit_body db) := by
    unfold commit_body
    by_cases hd : db.header.flags &&& DIRTY = 0
    · rw [if_pos hd, mycommit_clean E _ rfl hd]
    · rw [if_neg hd, mycommit_dirty E _ rfl hd h.txn hb h.size h64]
  rw [e]
  unfold commit_finish
  by_cases hn : needs_checkpoint E (commit_body db)
  · rw [if_pos hn]
    obtain ⟨db1, live1, c1, c2, c3, _⟩ :=
      mycheckpoint_ok hc (ctx E d) (intxn_commit_body h hh)
    have c1 : (ctx E (d + 1)).mycheckpoint (commit_body db) = some (0, db1) := c1
    rw [c1]
    dsimp only
    rw [drop_txn_idle c2]
    exact ⟨db1, live1, rfl, c2, c3, fun hh => absurd hn hh⟩
  · rw [if_neg hn]
    exact ⟨_, live, rfl, commit_idle h hh, fun _ => rfl, fun _ => ⟨rfl, rfl⟩⟩

/-! ## Store, commit, fetch -/

/-- A store with force inside a transaction, then the commit. -/
theorem store_commit {E : Env} (hc : CompareLaws E.compar) (d : Nat) {db : dbengine}
    {live : List node} (h : InTxn E db live) (hh : Held db) {key : List Nat} (hk : key ≠ [])
    (val : List Nat) :
    ∃ db1 db2 live2, skipwrite E db key (some val) true = some (0, db1) ∧
      db1.current_txn = db.current_txn ∧
      mycommit E (ctx E (d + 1)) db1 db1.current_txn = some (0, db2) ∧
      Idle E db2 live2 ∧
      ∀ k, lookup live2 k = if k = key then some val else lookup live k := by
  obtain ⟨r, db1, live1, a1, a2, a3, a4, a5, a6⟩ := held_step hc h hh hk (some val) true
  have hr : r = 0 := by
    rw [a2]
    simp [write_code]
  subst hr
  obtain ⟨db2, live2, b1, b2, b3, _⟩ := mycommit_ok hc d a3 a4
  refine ⟨db1, db2, live2, a1, a6.txn, b1, b2, ?_⟩
  intro k
  rw [b3 k, a5 k]
  simp

theorem lookup_none_of_gt {E : Env} (hc : CompareLaws E.compar) {k : List Nat} {l : List node}
    (h : ∀ n ∈ l, E.compar k n.key < 0) : lookup l k = none :=
  lookup_none_of_not (fun n hn => key_ne_of_gt hc (h n hn))

theorem lookup_head (x : node) (t : List node) : lookup (x :: t) x.key = some x.val := by
  rw [lookup_cons, if_pos rfl]

/-- Two sorted lists of records with the same key-to-value map hold the same
pairs in the same order. -/
theorem sorted_kv_ext {E : Env} (hc : CompareLaws E.compar) :
    ∀ (l1 l2 : List node), l1.Pairwise (fun a b => E.compar a.key b.key < 0) →
      l2.Pairwise (fun a b => E.compar a.key b.key < 0) →
      (∀ k, lookup l1 k = lookup l2 k) → l1.map kv = l2.map kv := by
  intro l1
  induction l1 with
  | nil =>
    intro l2 _ _ h
    cases l2 with
    | nil => rfl
    | cons b t =>
      have := h b.key
      rw [lookup_head, lookup_nil] at this
      cases this
  | cons a t1 ih =>
    intro l2 h1 h2 h
    cases l2 with
    | nil =>
      have := h a.key
      rw [lookup_head, lookup_nil] at this
      cases this
    | cons b t2 =>
      rw [List.pairwise_cons] at h1 h2
      have hab : a.key = b.key := by
        by_contra hne
        have hne0 : E.compar a.key b.key ≠ 0 := fun e => hne ((hc.eq_zero _ _).1 e)
        by_cases hlt : E.compar a.key b.key < 0
        · have h3 : lookup (b :: t2) a.key = none := by
            apply lookup_none_of_gt hc
            intro n hn
            rcases List.mem_cons.1 hn with e | e
            · rw [e]; exact hlt
            · exact hc.trans _ _ _ hlt (h2.1 n e)
          have := h a.key
          rw [lookup_head, h3] at this
          cases this
        · have hgt : E.compar b.key a.key < 0 := by
            rw [hc.lt_gt]
            omega
          have h3 : lookup (a :: t1) b.key = none := by
            apply lookup_none_of_gt hc
            intro n hn
            rcases List.mem_cons.1 hn with e | e
            · rw [e]; exact hgt
            · exact hc.trans _ _ _ hgt (h1.1 n e)
          have := h b.key
          rw [lookup_head, h3] at this
          cases this
      have hv : a.val = b.val := by
        have := h a.key
        rw [lookup_head, hab, lookup_head] at this
        exact Option.some.inj this
      have htl : ∀ k, lookup t1 k = lookup t2 k := by
        intro k
        by_cases hk : k = a.key
        · rw [hk, lookup_none_of_gt hc h1.1, hab, lookup_none_of_gt hc h2.1]
        · have := h k
          rw [lookup_cons, lookup_cons, if_neg (fun e => hk e.symm),
            if_neg (fun e => hk (hab ▸ e.symm))] at this
          exact this
      show kv a :: t1.map kv = kv b :: t2.map kv
      rw [ih t2 h1.2 h2.2 htl]
      unfold kv
      rw [hab, hv]

theorem foreach_ref_congr {ρ : Type} (goodp : Option (ρ → List Nat → List Nat → Int))
    (cb : ρ → List Nat → List Nat → Option (Int × ρ)) :
    ∀ (l1 l2 : List node), l1.map kv = l2.map kv →
      ∀ rock, foreach_ref goodp cb l1 rock = foreach_ref goodp cb l2 rock := by
  intro l1
  induction l1 with
  | nil =>
    intro l2 h rock
    cases l2 with
    | nil => rfl
    | cons b t => simp at h
  | cons a t1 ih =>
    intro l2 h rock
    cases l2 with
    | nil => simp at h
    | cons b t2 =>
      simp only [List.map_cons, List.cons.injEq, kv, Prod.mk.injEq] at h
      obtain ⟨⟨hk, hv⟩, ht⟩ := h
      simp only [foreach_ref, hk, hv]
      split
      · split
        · rfl
        · split
          · rfl
          · exact ih t2 ht _
      · exact ih t2 ht _

theorem filter_kv (p : List Nat → Bool) :
    ∀ (l1 l2 : List node), l1.map kv = l2.map kv →
      (l1.filter (fun n => p n.key)).map kv = (l2.filter (fun n => p n.key)).map kv := by
  intro l1
  induction l1 with
  | nil =>
    intro l2 h
    cases l2 with
    | nil => rfl
    | cons b t => simp at h
  | cons a t1 ih =>
    intro l2 h
    cases l2 with
    | nil => simp at h
    | cons b t2 =>
      simp only [List.map_cons, List.cons.injEq] at h
      have hk : a.key = b.key := congrArg Prod.fst h.1
      simp only [List.filter_cons, hk]
      split
      · simp only [List.map_cons, List.cons.injEq]
        exact ⟨h.1, ih t2 h.2⟩
      · exact ih t2 h.2

/-! ## Checkpoint preservation -/

/-- C16: `mycheckpoint` in a transaction over a consistent file returns 0 and
the handle `db1` of the new file, whose live records `live1` hold the same
(key, value) pairs in the same order as the live records before, every key
once, with `num_records` the number of live records (modulo `2 ^ 64`, the
width of the field); `fetch` on the new file returns for every key what the
old content held, and `myforeach` on it is the reference iteration over the
old live records. -/
theorem checkpoint_preserves {E : Env} (hc : CompareLaws E.compar)
    (hp : PrefixLaws E.compar) (C : Ctx) {db : dbengine} {live : List node}
    (h : InTxn E db live) :
    ∃ db1 live1, mycheckpoint E C db = some (0, db1) ∧ Idle E db1 live1 ∧
      live1.map kv = live.map kv ∧ (live1.map node.key).Nodup ∧
      db1.mf.header.num_records = live.length % 2 ^ 64 ∧
      (∀ key, key ≠ [] → ∃ db2, fetch E C db1 key none =
        some ⟨if lookup live key = none then CYRUSDB_NOTFOUND else 0, db2, none, some key,
          lookup live key⟩) ∧
      (∀ (pfx : List Nat) (goodp : Option (Nat → List Nat → List Nat → Int))
          (cb : Nat → List Nat → List Nat → Option (Int × Nat)) (rock : Nat),
        (foreach_ref goodp cb (live.filter (fun n => pfx.isPrefixOf n.key)) rock = none →
          myforeach E C db1 pfx goodp cb rock none = none) ∧
        (∀ r rock1,
          foreach_ref goodp cb (live.filter (fun n => pfx.isPrefixOf n.key)) rock
            = some (r, rock1) →
          ∃ db2, myforeach E C db1 pfx goodp cb rock none = some (r, db2, rock1, none))) := by
  obtain ⟨db1, live1, a1, a2, a3, a4, _, _, _, a8⟩ := mycheckpoint_ok hc C h
  have hs1 := (List.pairwise_cons.1 a2.file.chain.sorted).2
  have hs := (List.pairwise_cons.1 h.file.chain.sorted).2
  have hkv : live1.map kv = live.map kv := sorted_kv_ext hc live1 live hs1 hs a3
  refine ⟨db1, live1, a1, a2, hkv, ?_, a4, ?_, ?_⟩
  · unfold List.Nodup
    rw [List.pairwise_map]
    exact hs1.imp (fun h => key_ne_of_lt hc h)
  · intro key hk
    obtain ⟨db2, f1, _⟩ := myfetch_idle hc C a2 key
    refine ⟨db2, ?_⟩
    unfold fetch
    rw [if_neg (fun e => hk (List.length_eq_zero.1 e)), f1, a3 key]
  · intro pfx goodp cb rock
    have hf := foreach_refines hc hp C pfx goodp cb rock none (Or.inl ⟨rfl, a2⟩) (fun _ => a8)
    have e : foreach_ref goodp cb (live1.filter (fun n => pfx.isPrefixOf n.key)) rock
        = foreach_ref goodp cb (live.filter (fun n => pfx.isPrefixOf n.key)) rock :=
      foreach_ref_congr goodp cb _ _ (filter_kv (fun k => pfx.isPrefixOf k) _ _ hkv) rock
    rw [e] at hf
    refine ⟨hf.2.1, ?_⟩
    intro r rock1 hr
    obtain ⟨db2, g1, _⟩ := hf.2.2 r rock1 hr
    exact ⟨db2, g1⟩

/-- The checkpoint inside the first transaction of a new database, after
the store `[1] ↦ [5]`. -/
theorem checkpoint_preserves_witness :
    ∃ db live, one_store = some db ∧ lookup live [1] = some [5] ∧
    ∃ db1 live1, mycheckpoint raw_env (ctx raw_env 0) db = some (0, db1) ∧
      Idle raw_env db1 live1 ∧
      live1.map kv = live.map kv ∧ (live1.map node.key).Nodup ∧
      db1.mf.header.num_records = live.length % 2 ^ 64 ∧
      (∀ key, key ≠ [] → ∃ db2, fetch raw_env (ctx raw_env 0) db1 key none =
        some ⟨if lookup live key = none then CYRUSDB_NOTFOUND else 0, db2, none, some key,
          lookup live key⟩) ∧
      (∀ (pfx : List Nat) (goodp : Option (Nat → List Nat → List Nat → Int))
          (cb : Nat → List Nat → List Nat → Option (Int × Nat)) (rock : Nat),
        (foreach_ref goodp cb (live.filter (fun n => pfx.isPrefixOf n.key)) rock = none →
          myforeach raw_env (ctx raw_env 0) db1 pfx goodp cb rock none = none) ∧
        (∀ r rock1,
          foreach_ref goodp cb (live.filter (fun n => pfx.isPrefixOf n.key)) rock
            = some (r, rock1) →
          ∃ db2, myforeach raw_env (ctx raw_env 0) db1 pfx goodp cb rock none
            = some (r, db2, rock1, none))) := by
  have n := newtxn_ok (ctx raw_env 1) (idle_new raw_env 0 (fun _ => false))
  obtain ⟨db, live, g1, g2, _, _, g5⟩ :=
    run_writes_txn raw_laws [⟨[1], some [5], false⟩] n.2.1 n.2.2.1 (by decide) (by decide)
  exact ⟨db, live, g1, by rw [g5]; rfl,
    checkpoint_preserves raw_laws raw_prefix_laws (ctx raw_env 0) g2⟩

/-! ## The record codec on bytes -/

/-! ## Network order -/

theorem be_length (w n : Nat) : (Codec.be w n).length = w := by
  induction w with
  | zero => rfl
  | succ w ih => simp [Codec.be, ih]

theorem rd_cons (x : Nat) (l : List Nat) (off w : Nat) :
    Codec.rd (x :: l) (off + 1) w = Codec.rd l off w := by
  induction w generalizing off with
  | zero => rfl
  | succ w ih =>
    simp only [Codec.rd]
    rw [ih (off + 1)]
    simp [List.getD_cons_succ]

theorem rd_pre (pre l : List Nat) (c w : Nat) :
    Codec.rd (pre ++ l) (pre.length + c) w = Codec.rd l c w := by
  induction pre with
  | nil => simp
  | cons x t ih =>
    have e : (x :: t).length + c = (t.length + c) + 1 := by simp; omega
    rw [e, List.cons_append, rd_cons, ih]

theorem rd_be (w n : Nat) (rest : List Nat) :
    Codec.rd (Codec.be w n ++ rest) 0 w = n % 256 ^ w := by
  induction w with
  | zero => simp [Codec.rd, Nat.mod_one]
  | succ w ih =>
    simp only [Codec.be, List.cons_append, Codec.rd, List.getD_cons_zero]
    rw [rd_cons, ih, pow_succ, Nat.mod_mul]
    ring

/-- The `w` bytes at `o` hold `n` when the file is `pre`, then the bytes of
`n`, then anything. -/
theorem rd_at {pre : List Nat} {o : Nat} (h : pre.length = o) (w n : Nat) (rest : List Nat) :
    Codec.rd (pre ++ (Codec.be w n ++ rest)) o w = n % 256 ^ w := by
  have := rd_pre pre (Codec.be w n ++ rest) 0 w
  rw [Nat.add_zero, h] at this
  rw [this, rd_be]

theorem getD_at {pre : List Nat} {o : Nat} (h : pre.length = o) (x : Nat) (rest : List Nat) :
    (pre ++ (x :: rest)).getD o 0 = x := by
  subst h
  rw [List.getD_eq_getElem?_getD, List.getElem?_append_right (le_refl _)]
  simp

theorem ptrs_length (nl : Nat → Nat) (cnt i : Nat) :
    (Codec.ptrs nl cnt i).length = 8 * cnt := by
  induction cnt generalizing i with
  | zero => rfl
  | succ c ih =>
    simp only [Codec.ptrs, List.length_append, be_length, ih]
    omega

theorem rd_ptrs (nl : Nat → Nat) (rest : List Nat) :
    ∀ (cnt j i : Nat), i < cnt →
      Codec.rd (Codec.ptrs nl cnt j ++ rest) (8 * i) 8 = nl (j + i) % 256 ^ 8 := by
  intro cnt
  induction cnt with
  | zero => intro j i h; omega
  | succ c ih =>
    intro j i h
    cases i with
    | zero =>
      simp only [Codec.ptrs, List.append_assoc, Nat.mul_zero, Nat.add_zero]
      exact rd_be 8 _ _
    | succ i =>
      simp only [Codec.ptrs, List.append_assoc]
      have e : 8 * (i + 1) = (Codec.be 8 (nl j)).length + 8 * i := by rw [be_length]; omega
      rw [e, rd_pre, ih (j + 1) i (by omega)]
      congr 2
      omega

/-! ## The layout of a record head -/

theorem prepare_record_eq (crc32_map : List Nat → Nat) (r : Codec.skiprecord)
    (hl : r.level ≤ MAXLEVEL) :
    Codec.prepare_record crc32_map r =
      some ({ r with crc32_head := crc32_map (Codec.head r) % 2 ^ 32 },
        Codec.head r ++ Codec.be 4 (crc32_map (Codec.head r) % 2 ^ 32)
          ++ Codec.be 4 r.crc32_tail) := by
  unfold Codec.prepare_record
  rw [if_neg (by omega)]
  rfl

theorem fixed_length (r : Codec.skiprecord) : (Codec.fixed r).length = 8 := by
  unfold Codec.fixed
  split <;> split <;> simp [be_length]

theorem head_length (r : Codec.skiprecord) :
    (Codec.head r).length
      = 8 + (Codec.longkey r).length + (Codec.longval r).length + 8 * (r.level + 1) := by
  unfold Codec.head
  simp only [List.length_append, fixed_length, ptrs_length]

theorem mod_small {n m : Nat} (h : n < m) : n % m = n := Nat.mod_eq_of_lt h

/-- The fields that `read_record` loads from a file that holds, after
`pre`, a record head, the two checksums and `kvp`. -/
theorem head_fields (r : Codec.skiprecord) (crc tail : Nat) (pre kvp post : List Nat)
    (ht : r.type < 256) (hl : r.level ≤ MAXLEVEL) (hk : r.keylen < 2 ^ 64)
    (hv : r.vallen < 2 ^ 64) (hc : crc < 2 ^ 32) (htl : tail < 2 ^ 32) (B : List Nat)
    (hB : B = pre ++ (Codec.head r ++ Codec.be 4 crc ++ Codec.be 4 tail ++ kvp ++ post)) :
    B.getD pre.length 0 = r.type ∧ B.getD (pre.length + 1) 0 = r.level ∧
    Codec.rd B (pre.length + 2) 2 = (if r.keylen < UINT16_MAX then r.keylen else UINT16_MAX) ∧
    Codec.rd B (pre.length + 4) 4 = (if r.vallen < UINT32_MAX then r.vallen else UINT32_MAX) ∧
    (¬ r.keylen < UINT16_MAX → Codec.rd B (pre.length + 8) 8 = r.keylen) ∧
    (¬ r.vallen < UINT32_MAX →
      Codec.rd B (pre.length + 8 + (Codec.longkey r).length) 8 = r.vallen) ∧
    (∀ i, i ≤ r.level →
      Codec.rd B (pre.length + 8 + (Codec.longkey r).length + (Codec.longval r).length + 8 * i)
        8 = r.nextloc i % 2 ^ 64) ∧
    Codec.rd B (pre.length + (Codec.head r).length) 4 = crc ∧
    Codec.rd B (pre.length + (Codec.head r).length + 4) 4 = tail ∧
    (B.drop pre.length).take (Codec.head r).length = Codec.head r ∧
    B.drop (pre.length + (Codec.head r).length + 8) = kvp ++ post ∧
    B.length = pre.length + (Codec.head r).length + 8 + kvp.length + post.length := by
  have hlev : r.level < 256 := by unfold MAXLEVEL at hl; omega
  have p2 : (256 : Nat) ^ 2 = 65536 := by norm_num
  have p4 : (256 : Nat) ^ 4 = 4294967296 := by norm_num
  have p8 : (256 : Nat) ^ 8 = 2 ^ 64 := by norm_num
  have hfl := fixed_length r
  have hK : (if r.keylen < UINT16_MAX then Codec.be 2 r.keylen else Codec.be 2 UINT16_MAX)
      = Codec.be 2 (if r.keylen < UINT16_MAX then r.keylen else UINT16_MAX) := by
    split <;> rfl
  have hV : (if r.vallen < UINT32_MAX then Codec.be 4 r.vallen else Codec.be 4 UINT32_MAX)
      = Codec.be 4 (if r.vallen < UINT32_MAX then r.vallen else UINT32_MAX) := by
    split <;> rfl
  have flat : B = pre ++ (r.type % 256 :: r.level % 256 ::
      (Codec.be 2 (if r.keylen < UINT16_MAX then r.keylen else UINT16_MAX) ++
        (Codec.be 4 (if r.vallen < UINT32_MAX then r.vallen else UINT32_MAX) ++
          (Codec.longkey r ++ (Codec.longval r ++ (Codec.ptrs r.nextloc (r.level + 1) 0 ++
            (Codec.be 4 crc ++ (Codec.be 4 tail ++ (kvp ++ post))))))))) := by
    rw [hB]
    simp only [Codec.head, Codec.fixed, hK, hV, List.append_assoc, List.cons_append,
      List.nil_append]
  refine ⟨?_, ?_, ?_, ?_, ?_, ?_, ?_, ?_, ?_, ?_, ?_, ?_⟩
  · rw [flat, getD_at rfl, mod_small ht]
  · have : B = (pre ++ [r.type % 256]) ++ (r.level % 256 ::
        (Codec.be 2 (if r.keylen < UINT16_MAX then r.keylen else UINT16_MAX) ++
          (Codec.be 4 (if r.vallen < UINT32_MAX then r.vallen else UINT32_MAX) ++
            (Codec.longkey r ++ (Codec.longval r ++ (Codec.ptrs r.nextloc (r.level + 1) 0 ++
              (Codec.be 4 crc ++ (Codec.be 4 tail ++ (kvp ++ post))))))))) := by
      rw [flat]; simp only [List.append_assoc, List.cons_append, List.nil_append]
    rw [this, getD_at (by simp), mod_small hlev]
  · have : B = (pre ++ [r.type % 256, r.level % 256]) ++
        (Codec.be 2 (if r.keylen < UINT16_MAX then r.keylen else UINT16_MAX) ++
          (Codec.be 4 (if r.vallen < UINT32_MAX then r.vallen else UINT32_MAX) ++
            (Codec.longkey r ++ (Codec.longval r ++ (Codec.ptrs r.nextloc (r.level + 1) 0 ++
              (Codec.be 4 crc ++ (Codec.be 4 tail ++ (kvp ++ post)))))))) := by
      rw [flat]; simp only [List.append_assoc, List.cons_append, List.nil_append]
    rw [this, rd_at (by simp), p2]
    unfold UINT16_MAX
    split <;> omega
  · have : B = (pre ++ ([r.type % 256, r.level % 256] ++
          Codec.be 2 (if r.keylen < UINT16_MAX then r.keylen else UINT16_MAX))) ++
        (Codec.be 4 (if r.vallen < UINT32_MAX then r.vallen else UINT32_MAX) ++
          (Codec.longkey r ++ (Codec.longval r ++ (Codec.ptrs r.nextloc (r.level + 1) 0 ++
            (Codec.be 4 crc ++ (Codec.be 4 tail ++ (kvp ++ post))))))) := by
      rw [flat]; simp only [List.append_assoc, List.cons_append, List.nil_append]
    rw [this, rd_at (by simp [be_length]), p4]
    unfold UINT32_MAX
    split <;> omega
  · intro hk1
    rw [hB]
    have : pre ++ (Codec.head r ++ Codec.be 4 crc ++ Codec.be 4 tail ++ kvp ++ post)
        = (pre ++ Codec.fixed r) ++ (Codec.be 8 r.keylen ++ (Codec.longval r ++
            (Codec.ptrs r.nextloc (r.level + 1) 0 ++
              (Codec.be 4 crc ++ (Codec.be 4 tail ++ (kvp ++ post)))))) := by
      simp only [Codec.head, Codec.longkey, hk1, if_false, List.append_assoc]
    rw [this, rd_at (by simp [hfl]), p8, mod_small hk]
  · intro hv1
    rw [hB]
    have : pre ++ (Codec.head r ++ Codec.be 4 crc ++ Codec.be 4 tail ++ kvp ++ post)
        = (pre ++ Codec.fixed r ++ Codec.longkey r) ++ (Codec.be 8 r.vallen ++
            (Codec.ptrs r.nextloc (r.level + 1) 0 ++
              (Codec.be 4 crc ++ (Codec.be 4 tail ++ (kvp ++ post))))) := by
      simp only [Codec.head, Codec.longval, hv1, if_false, List.append_assoc]
    rw [this, rd_at (by simp [hfl, Nat.add_assoc]), p8, mod_small hv]
  · intro i hi
    rw [hB]
    have : pre ++ (Codec.head r ++ Codec.be 4 crc ++ Codec.be 4 tail ++ kvp ++ post)
        = (pre ++ Codec.fixed r ++ Codec.longkey r ++ Codec.longval r) ++
          (Codec.ptrs r.nextloc (r.level + 1) 0 ++
            (Codec.be 4 crc ++ (Codec.be 4 tail ++ (kvp ++ post)))) := by
      simp only [Codec.head, List.append_assoc]
    rw [this]
    have e : pre.length + 8 + (Codec.longkey r).length + (Codec.longval r).length + 8 * i
        = (pre ++ Codec.fixed r ++ Codec.longkey r ++ Codec.longval r).length + 8 * i := by
      simp only [List.length_append, hfl]
    rw [e, rd_pre, rd_ptrs _ _ _ _ _ (by omega), p8, Nat.zero_add]
  · rw [hB]
    have : pre ++ (Codec.head r ++ Codec.be 4 crc ++ Codec.be 4 tail ++ kvp ++ post)
        = (pre ++ Codec.head r) ++ (Codec.be 4 crc ++ (Codec.be 4 tail ++ (kvp ++ post))) := by
      simp only [List.append_assoc]
    rw [this, rd_at (by simp), p4]
    omega
  · rw [hB]
    have : pre ++ (Codec.head r ++ Codec.be 4 crc ++ Codec.be 4 tail ++ kvp ++ post)
        = (pre ++ Codec.head r ++ Codec.be 4 crc) ++ (Codec.be 4 tail ++ (kvp ++ post)) := by
      simp only [List.append_assoc]
    rw [this, rd_at (by simp only [List.length_append, be_length]), p4]
    omega
  · rw [hB, List.drop_left]
    simp only [List.append_assoc]
    rw [List.take_left]
  · rw [hB]
    have : pre ++ (Codec.head r ++ Codec.be 4 crc ++ Codec.be 4 tail ++ kvp ++ post)
        = (pre ++ Codec.head r ++ Codec.be 4 crc ++ Codec.be 4 tail) ++ (kvp ++ post) := by
      simp only [List.append_assoc]
    rw [this]
    have e : pre.length + (Codec.head r).length + 8
        = (pre ++ Codec.head r ++ Codec.be 4 crc ++ Codec.be 4 tail).length := by
      simp only [List.length_append, be_length]
    rw [e, List.drop_left]
  · rw [hB]
    simp only [List.length_append, be_length]
    omega

/-! ## Reading a record back -/

theorem read_back (crc32_map : List Nat → Nat) (r : Codec.skiprecord)
    (pre kvp post : List Nat)
    (ht : r.type < 256) (hl : r.level ≤ MAXLEVEL) (hk : r.keylen < 2 ^ 64)
    (hv : r.vallen < 2 ^ 64) (htl : r.crc32_tail < 2 ^ 32)
    (hkvp : kvp.length = roundup ((r.keylen + r.vallen) % 2 ^ 64) 8)
    (htot : pre.length + (Codec.head r).length + 8 + kvp.length < 2 ^ 64)
    (hvo : pre.length + (Codec.head r).length + 8 + r.keylen < 2 ^ 64) :
    Codec.read_record crc32_map
      (pre ++ (Codec.head r ++ Codec.be 4 (crc32_map (Codec.head r) % 2 ^ 32)
        ++ Codec.be 4 r.crc32_tail ++ kvp ++ post)) pre.length
      = some (0, Codec.decoded crc32_map r pre.length kvp.length) := by
  generalize hB : pre ++ (Codec.head r ++ Codec.be 4 (crc32_map (Codec.head r) % 2 ^ 32)
        ++ Codec.be 4 r.crc32_tail ++ kvp ++ post) = B
  obtain ⟨f0, f1, f2, f4, f8, fv, fp, fc, ft, fh, _, flen⟩ :=
    head_fields r (crc32_map (Codec.head r) % 2 ^ 32) r.crc32_tail pre kvp post ht hl hk hv
      (Nat.mod_lt _ (by norm_num)) htl B hB.symm
  have hhl := head_length r
  have hkeylen : (if (if r.keylen < UINT16_MAX then r.keylen else UINT16_MAX) = UINT16_MAX
      then Codec.rd B (pre.length + 8) 8
      else (if r.keylen < UINT16_MAX then r.keylen else UINT16_MAX)) = r.keylen := by
    by_cases h1 : r.keylen < UINT16_MAX
    · rw [if_pos h1, if_neg (by omega)]
    · rw [if_neg h1, if_pos rfl, f8 h1]
  have hoff2 : (if (if r.keylen < UINT16_MAX then r.keylen else UINT16_MAX) = UINT16_MAX
      then pre.length + 8 + 8 else pre.length + 8)
      = pre.length + 8 + (Codec.longkey r).length := by
    unfold Codec.longkey
    by_cases h1 : r.keylen < UINT16_MAX
    · rw [if_pos h1, if_neg (by omega), if_pos h1]; rfl
    · rw [if_neg h1, if_pos rfl, if_neg h1, be_length]
  have hvallen : (if (if r.vallen < UINT32_MAX then r.vallen else UINT32_MAX) = UINT32_MAX
      then Codec.rd B (pre.length + 8 + (Codec.longkey r).length) 8
      else (if r.vallen < UINT32_MAX then r.vallen else UINT32_MAX)) = r.vallen := by
    by_cases h1 : r.vallen < UINT32_MAX
    · rw [if_pos h1, if_neg (by omega)]
    · rw [if_neg h1, if_pos rfl, fv h1]
  have hoff3 : (if (if r.vallen < UINT32_MAX then r.vallen else UINT32_MAX) = UINT32_MAX
      then pre.length + 8 + (Codec.longkey r).length + 8
      else pre.length + 8 + (Codec.longkey r).length)
      = pre.length + 8 + (Codec.longkey r).length + (Codec.longval r).length := by
    unfold Codec.longval
    by_cases h1 : r.vallen < UINT32_MAX
    · rw [if_pos h1, if_neg (by omega), if_pos h1]; rfl
    · rw [if_neg h1, if_pos rfl, if_neg h1, be_length]
  unfold Codec.read_record
  rw [if_neg (by rw [flen]; omega)]
  simp only [f0, f1, f2, f4]
  rw [if_neg (by omega)]
  simp only [hkeylen, hoff2, hvallen, hoff3]
  have hlen : (pre.length + 8 + (Codec.longkey r).length + (Codec.longval r).length - pre.length
      + 8 * (1 + r.level) + 8 + roundup ((r.keylen + r.vallen) % 2 ^ 64) 8) % 2 ^ 64
      = (Codec.head r).length + 8 + kvp.length := by
    rw [← hkvp, Nat.mod_eq_of_lt] <;> omega
  have hoff4 : pre.length + 8 + (Codec.longkey r).length + (Codec.longval r).length
      + 8 * (r.level + 1) = pre.length + (Codec.head r).length := by omega
  have hnl : (fun i => if i ≤ r.level then
        Codec.rd B (pre.length + 8 + (Codec.longkey r).length + (Codec.longval r).length
          + 8 * i) 8 else 0)
      = fun i => if i ≤ r.level then r.nextloc i % 2 ^ 64 else 0 := by
    funext i
    by_cases hi : i ≤ r.level
    · rw [if_pos hi, if_pos hi, fp i hi]
    · rw [if_neg hi, if_neg hi]
  simp only [hlen, hoff4, hnl, fc, ft, Nat.add_sub_cancel_left, fh]
  rw [if_neg (by rw [flen]; omega), if_neg (by simp)]
  rw [Nat.mod_eq_of_lt (by omega : pre.length + (Codec.head r).length + 8 + r.keylen < 2 ^ 64)]
  rfl

/-! ## Writing a record and reading it back -/

theorem roundup_ge (n : Nat) : n ≤ roundup n 8 := by
  unfold roundup
  split <;> omega

theorem roundup_le (n : Nat) : roundup n 8 ≤ n + 7 := by
  unfold roundup
  split <;> omega

theorem take_drop_at {pre : List Nat} {o : Nat} (h : pre.length = o) (l rest : List Nat) :
    ((pre ++ (l ++ rest)).drop o).take l.length = l := by
  subst h
  rw [List.drop_left, List.take_left]

/-- C20: `prepare_record` writes the 16-bit key length field as the true
length when `keylen < 65535` and as `0xFFFF` followed, after the fixed eight
bytes, by the 8-byte length otherwise (65535 itself uses the escape); the
32-bit value length field is the true length when `vallen < 2 ^ 32 - 1` and
`0xFFFFFFFF` followed by the 8-byte length otherwise; and `read_record`
decodes both back to the true lengths. -/
theorem extended_lengths (crc32_map : List Nat → Nat) (r : Codec.skiprecord)
    (ht : r.type < 256) (hl : r.level ≤ MAXLEVEL) (hk : r.keylen < 2 ^ 64)
    (hv : r.vallen < 2 ^ 64) (htl : r.crc32_tail < 2 ^ 32) :
    ∃ r1 buf, Codec.prepare_record crc32_map r = some (r1, buf) ∧
      ((buf.drop 2).take 2 = if r.keylen < 65535 then Codec.be 2 r.keylen else [255, 255]) ∧
      (65535 ≤ r.keylen → (buf.drop 8).take 8 = Codec.be 8 r.keylen) ∧
      ((buf.drop 4).take 4
        = if r.vallen < 4294967295 then Codec.be 4 r.vallen else [255, 255, 255, 255]) ∧
      (4294967295 ≤ r.vallen →
        (buf.drop (if r.keylen < 65535 then 8 else 16)).take 8 = Codec.be 8 r.vallen) ∧
      (∀ pre kvp post, kvp.length = roundup ((r.keylen + r.vallen) % 2 ^ 64) 8 →
        pre.length + buf.length + kvp.length < 2 ^ 64 →
        pre.length + buf.length + r.keylen < 2 ^ 64 →
        ∃ rec2, Codec.read_record crc32_map (pre ++ (buf ++ kvp ++ post)) pre.length
            = some (0, rec2) ∧
          rec2.keylen = r.keylen ∧ rec2.vallen = r.vallen) := by
  refine ⟨_, _, prepare_record_eq crc32_map r hl, ?_, ?_, ?_, ?_, ?_⟩
  · have e : Codec.head r ++ Codec.be 4 (crc32_map (Codec.head r) % 2 ^ 32)
          ++ Codec.be 4 r.crc32_tail
        = [r.type % 256, r.level % 256] ++
          ((if r.keylen < 65535 then Codec.be 2 r.keylen else [255, 255]) ++
            ((if r.vallen < UINT32_MAX then Codec.be 4 r.vallen else Codec.be 4 UINT32_MAX) ++
              (Codec.longkey r ++ Codec.longval r ++ Codec.ptrs r.nextloc (r.level + 1) 0 ++
                Codec.be 4 (crc32_map (Codec.head r) % 2 ^ 32) ++ Codec.be 4 r.crc32_tail))) := by
      simp only [Codec.head, Codec.fixed, List.append_assoc, UINT16_MAX]
      split <;> rfl
    rw [e]
    have hlen : (if r.keylen < 65535 then Codec.be 2 r.keylen else [255, 255]).length = 2 := by
      split <;> simp [be_length]
    have := @take_drop_at [r.type % 256, r.level % 256] 2 rfl
      (if r.keylen < 65535 then Codec.be 2 r.keylen else [255, 255])
      ((if r.vallen < UINT32_MAX then Codec.be 4 r.vallen else Codec.be 4 UINT32_MAX) ++
        (Codec.longkey r ++ Codec.longval r ++ Codec.ptrs r.nextloc (r.level + 1) 0 ++
          Codec.be 4 (crc32_map (Codec.head r) % 2 ^ 32) ++ Codec.be 4 r.crc32_tail))
    rw [hlen] at this
    exact this
  · intro hge
    have hk1 : ¬ r.keylen < UINT16_MAX := by unfold UINT16_MAX; omega
    have e : Codec.head r ++ Codec.be 4 (crc32_map (Codec.head r) % 2 ^ 32)
          ++ Codec.be 4 r.crc32_tail
        = Codec.fixed r ++ (Codec.be 8 r.keylen ++
            (Codec.longval r ++ Codec.ptrs r.nextloc (r.level + 1) 0 ++
              Codec.be 4 (crc32_map (Codec.head r) % 2 ^ 32) ++ Codec.be 4 r.crc32_tail)) := by
      simp only [Codec.head, Codec.longkey, hk1, if_false, List.append_assoc]
    rw [e]
    have := take_drop_at (fixed_length r) (Codec.be 8 r.keylen)
      (Codec.longval r ++ Codec.ptrs r.nextloc (r.level + 1) 0 ++
        Codec.be 4 (crc32_map (Codec.head r) % 2 ^ 32) ++ Codec.be 4 r.crc32_tail)
    rw [be_length] at this
    exact this
  · have e : Codec.head r ++ Codec.be 4 (crc32_map (Codec.head r) % 2 ^ 32)
          ++ Codec.be 4 r.crc32_tail
        = ([r.type % 256, r.level % 256] ++
            (if r.keylen < UINT16_MAX then Codec.be 2 r.keylen else Codec.be 2 UINT16_MAX)) ++
          ((if r.vallen < 4294967295 then Codec.be 4 r.vallen else [255, 255, 255, 255]) ++
            (Codec.longkey r ++ Codec.longval r ++ Codec.ptrs r.nextloc (r.level + 1) 0 ++
              Codec.be 4 (crc32_map (Codec.head r) % 2 ^ 32) ++ Codec.be 4 r.crc32_tail)) := by
      simp only [Codec.head, Codec.fixed, List.append_assoc, UINT32_MAX]
      split <;> split <;> rfl
    rw [e]
    have hlen : (if r.vallen < 4294967295 then Codec.be 4 r.vallen
        else [255, 255, 255, 255]).length = 4 := by
      split <;> simp [be_length]
    have := @take_drop_at ([r.type % 256, r.level % 256] ++
        (if r.keylen < UINT16_MAX then Codec.be 2 r.keylen else Codec.be 2 UINT16_MAX))
      4 (by split <;> simp [be_length])
      (if r.vallen < 4294967295 then Codec.be 4 r.vallen else [255, 255, 255, 255])
      (Codec.longkey r ++ Codec.longval r ++ Codec.ptrs r.nextloc (r.level + 1) 0 ++
        Codec.be 4 (crc32_map (Codec.head r) % 2 ^ 32) ++ Codec.be 4 r.crc32_tail)
    rw [hlen] at this
    exact this
  · intro hge
    have hv1 : ¬ r.vallen < UINT32_MAX := by unfold UINT32_MAX; omega
    have e : Codec.head r ++ Codec.be 4 (crc32_map (Codec.head r) % 2 ^ 32)
          ++ Codec.be 4 r.crc32_tail
        = (Codec.fixed r ++ Codec.longkey r) ++ (Codec.be 8 r.vallen ++
            (Codec.ptrs r.nextloc (r.level + 1) 0 ++
              Codec.be 4 (crc32_map (Codec.head r) % 2 ^ 32) ++ Codec.be 4 r.crc32_tail)) := by
      simp only [Codec.head, Codec.longval, hv1, if_false, List.append_assoc]
    rw [e]
    have hpl : (Codec.fixed r ++ Codec.longkey r).length
        = if r.keylen < 65535 then 8 else 16 := by
      rw [List.length_append, fixed_length]
      unfold Codec.longkey UINT16_MAX
      split <;> simp [be_length]
    have := take_drop_at hpl (Codec.be 8 r.vallen)
      (Codec.ptrs r.nextloc (r.level + 1) 0 ++
        Codec.be 4 (crc32_map (Codec.head r) % 2 ^ 32) ++ Codec.be 4 r.crc32_tail)
    rw [be_length] at this
    exact this
  · intro pre kvp post hkvp htot hvo
    have := read_back crc32_map r pre kvp post ht hl hk hv htl hkvp
      (by
        simp only [List.length_append, be_length] at htot
        omega)
      (by
        simp only [List.length_append, be_length] at hvo
        omega)
    exact ⟨_, this, rfl, rfl⟩

/-- A record at both boundaries: key length 65535 and value length
`2 ^ 32 - 1` both use the escape. -/
theorem extended_lengths_witness :
    ∃ r1 buf, Codec.prepare_record Codec.sum_crc
        { type := 43, level := 0, keylen := 65535, vallen := 4294967295 } = some (r1, buf) ∧
      ((buf.drop 2).take 2
        = if 65535 < 65535 then Codec.be 2 65535 else [255, 255]) ∧
      (65535 ≤ 65535 → (buf.drop 8).take 8 = Codec.be 8 65535) ∧
      ((buf.drop 4).take 4
        = if 4294967295 < 4294967295 then Codec.be 4 4294967295 else [255, 255, 255, 255]) ∧
      (4294967295 ≤ 4294967295 →
        (buf.drop (if 65535 < 65535 then 8 else 16)).take 8 = Codec.be 8 4294967295) ∧
      (∀ pre kvp post, kvp.length = roundup ((65535 + 4294967295) % 2 ^ 64) 8 →
        pre.length + buf.length + kvp.length < 2 ^ 64 →
        pre.length + buf.length + 65535 < 2 ^ 64 →
        ∃ rec2, Codec.read_record Codec.sum_crc (pre ++ (buf ++ kvp ++ post)) pre.length
            = some (0, rec2) ∧
          rec2.keylen = 65535 ∧ rec2.vallen = 4294967295) :=
  extended_lengths Codec.sum_crc
    { type := 43, level := 0, keylen := 65535, vallen := 4294967295 }
    (by decide) (by decide) (by norm_num) (by norm_num) (by norm_num)

/-! ## The checks of `read_record` -/

theorem read_record_eq (crc32_map : List Nat → Nat) (base : List Nat) (offset : Nat) :
    Codec.read_record crc32_map base offset =
      if (offset + 24) % 2 ^ 64 > base.length then
        some (CYRUSDB_IOERROR, { offset := offset, len := 24 })
      else if Codec.level_at base offset > MAXLEVEL then none
      else if (offset + Codec.len_at base offset) % 2 ^ 64 > base.length then
        some (CYRUSDB_IOERROR,
          { offset := offset, len := Codec.len_at base offset, type := base.getD offset 0,
            level := Codec.level_at base offset, keylen := Codec.keylen_at base offset,
            vallen := Codec.vallen_at base offset })
      else if crc32_map ((base.drop offset).take (Codec.crc_at base offset - offset)) % 2 ^ 32
          ≠ Codec.rd base (Codec.crc_at base offset) 4 then
        some (CYRUSDB_IOERROR,
          { offset := offset, len := Codec.len_at base offset, type := base.getD offset 0,
            level := Codec.level_at base offset, keylen := Codec.keylen_at base offset,
            vallen := Codec.vallen_at base offset, nextloc := Codec.nextloc_at base offset,
            crc32_head := Codec.rd base (Codec.crc_at base offset) 4 })
      else
        some (0,
          { offset := offset, len := Codec.len_at base offset, type := base.getD offset 0,
            level := Codec.level_at base offset, keylen := Codec.keylen_at base offset,
            vallen := Codec.vallen_at base offset, nextloc := Codec.nextloc_at base offset,
            crc32_head := Codec.rd base (Codec.crc_at base offset) 4,
            crc32_tail := Codec.rd base (Codec.crc_at base offset + 4) 4,
            keyoffset := Codec.crc_at base offset + 8,
            valoffset := (Codec.crc_at base offset + 8 + Codec.keylen_at base offset) % 2 ^ 64 }) :=
  rfl

/-- C21 (amended): `read_record` returns `CYRUSDB_IOERROR` when fewer than 24
bytes lie between `offset` and the end of the file; and, when the level byte
is at most `MAXLEVEL`, when the computed record length extends past the end of
the file and when the stored head checksum differs from the checksum of the
head bytes read; the sums compared with the size are below `2 ^ 64`. -/
theorem read_record_errors (crc32_map : List Nat → Nat) (base : List Nat) (offset : Nat) :
    (offset + 24 < 2 ^ 64 → base.length < offset + 24 →
      ∃ rec, Codec.read_record crc32_map base offset = some (CYRUSDB_IOERROR, rec)) ∧
    (Codec.level_at base offset ≤ MAXLEVEL →
      offset + Codec.len_at base offset < 2 ^ 64 →
      base.length < offset + Codec.len_at base offset →
      ∃ rec, Codec.read_record crc32_map base offset = some (CYRUSDB_IOERROR, rec)) ∧
    (Codec.level_at base offset ≤ MAXLEVEL →
      crc32_map ((base.drop offset).take (Codec.crc_at base offset - offset)) % 2 ^ 32
        ≠ Codec.rd base (Codec.crc_at base offset) 4 →
      ∃ rec, Codec.read_record crc32_map base offset = some (CYRUSDB_IOERROR, rec)) := by
  rw [read_record_eq]
  refine ⟨?_, ?_, ?_⟩
  · intro h1 h2
    rw [if_pos (by rw [Nat.mod_eq_of_lt h1]; exact h2)]
    exact ⟨_, rfl⟩
  · intro hl h1 h2
    by_cases h0 : (offset + 24) % 2 ^ 64 > base.length
    · rw [if_pos h0]
      exact ⟨_, rfl⟩
    · rw [if_neg h0, if_neg (by omega), if_pos (by rw [Nat.mod_eq_of_lt h1]; exact h2)]
      exact ⟨_, rfl⟩
  · intro hl hc
    by_cases h0 : (offset + 24) % 2 ^ 64 > base.length
    · rw [if_pos h0]
      exact ⟨_, rfl⟩
    · rw [if_neg h0, if_neg (by omega)]
      by_cases h1 : (offset + Codec.len_at base offset) % 2 ^ 64 > base.length
      · rw [if_pos h1]
        exact ⟨_, rfl⟩
      · rw [if_neg h1, if_pos hc]
        exact ⟨_, rfl⟩

/-- Three files of at most 24 bytes: too short; a value length of one byte
that does not fit; and a head checksum that does not match. -/
theorem read_record_errors_witness :
    (∃ rec, Codec.read_record Codec.sum_crc [43, 0, 0] 0 = some (CYRUSDB_IOERROR, rec)) ∧
    (∃ rec, Codec.read_record Codec.sum_crc ([43, 0, 0, 0, 0, 0, 0, 1] ++ List.replicate 16 0) 0
      = some (CYRUSDB_IOERROR, rec)) ∧
    (∃ rec, Codec.read_record Codec.sum_crc (List.replicate 24 0) 0
      = some (CYRUSDB_IOERROR, rec)) :=
  ⟨(read_record_errors Codec.sum_crc [43, 0, 0] 0).1 (by norm_num) (by decide),
   (read_record_errors Codec.sum_crc ([43, 0, 0, 0, 0, 0, 0, 1] ++ List.replicate 16 0) 0).2.1
     (by decide) (by decide) (by decide),
   (read_record_errors Codec.sum_crc (List.replicate 24 0) 0).2.2 (by decide) (by decide)⟩

/-- C21 fails as stated: in a file of 24 bytes whose level byte is 32 the
record length of the format, 280, extends past the end of the file, and
`read_record` does not return `CYRUSDB_IOERROR`: it aborts. -/
theorem read_record_errors_counterexample :
    Codec.len_at (43 :: 32 :: List.replicate 22 0) 0 = 280 ∧
    (43 :: 32 :: List.replicate 22 0).length < 0 + 280 ∧
    ¬ ∃ rec, Codec.read_record Codec.sum_crc (43 :: 32 :: List.replicate 22 0) 0
        = some (CYRUSDB_IOERROR, rec) := by
  refine ⟨by decide, by decide, ?_⟩
  rintro ⟨rec, h⟩
  rw [read_record_eq, if_neg (by decide), if_pos (by decide)] at h
  cases h

/-! ## A record whose length wraps -/

theorem overlong_head :
    Codec.head Codec.overlong
      = [43, 0, 255, 255, 0, 0, 0, 0, 255, 255, 255, 255, 255, 255, 255, 248,
         0, 0, 0, 0, 0, 0, 0, 0] := by
  decide

/-- C23 fails on the code: in a file of 96 bytes `read_record` accepts at
offset 64 a record whose extended key length is `2 ^ 64 - 8`: the computed
length wraps to 24, the size check passes, and the record returned has its
key range and the range `check_tailcrc` reads far past the end of the file. -/
theorem read_record_length_wraps (crc32_map : List Nat → Nat) :
    ∃ rec, Codec.read_record crc32_map (Codec.overlong_file crc32_map) 64 = some (0, rec) ∧
      (Codec.overlong_file crc32_map).length = 96 ∧
      rec.len = 24 ∧ rec.keylen = 2 ^ 64 - 8 ∧ rec.vallen = 0 ∧
      rec.keyoffset = 96 ∧ rec.valoffset = 88 ∧
      (Codec.overlong_file crc32_map).length < rec.keyoffset + rec.keylen ∧
      (Codec.overlong_file crc32_map).length
        < rec.keyoffset + roundup ((rec.keylen + rec.vallen) % 2 ^ 64) 8 % 2 ^ 64 := by
  obtain ⟨f0, f1, f2, f4, f8, fv, fp, fc, ft, fh, _, flen⟩ :=
    head_fields Codec.overlong (crc32_map (Codec.head Codec.overlong) % 2 ^ 32) 0
      (List.replicate 64 0) [] [] (by decide) (by decide) (by decide) (by decide)
      (Nat.mod_lt _ (by norm_num)) (by norm_num) (Codec.overlong_file crc32_map) rfl
  have hh : (Codec.head Codec.overlong).length = 24 := by rw [overlong_head]; rfl
  have hlen : (Codec.overlong_file crc32_map).length = 96 := by
    rw [flen, hh]; rfl
  simp only [List.length_replicate] at f0 f1 f2 f4 f8 fv fp fc ft fh
  have k2 : Codec.rd (Codec.overlong_file crc32_map) (64 + 2) 2 = UINT16_MAX := by
    rw [f2]; rfl
  have k8 : Codec.rd (Codec.overlong_file crc32_map) (64 + 8) 8 = 2 ^ 64 - 8 := by
    rw [f8 (by decide)]; rfl
  have v4 : Codec.rd (Codec.overlong_file crc32_map) (64 + 4) 4 = 0 := by
    rw [f4]; rfl
  have hlev : Codec.level_at (Codec.overlong_file crc32_map) 64 = 0 := f1
  have hkl : Codec.keylen_at (Codec.overlong_file crc32_map) 64 = 2 ^ 64 - 8 := by
    unfold Codec.keylen_at
    rw [k2, if_pos rfl, k8]
  have ho2 : Codec.off2_at (Codec.overlong_file crc32_map) 64 = 80 := by
    unfold Codec.off2_at
    rw [k2, if_pos rfl]
  have hvl : Codec.vallen_at (Codec.overlong_file crc32_map) 64 = 0 := by
    unfold Codec.vallen_at
    rw [v4, if_neg (by decide)]
  have hp : Codec.ptrs_at (Codec.overlong_file crc32_map) 64 = 80 := by
    unfold Codec.ptrs_at
    rw [v4, if_neg (by decide), ho2]
  have hc : Codec.crc_at (Codec.overlong_file crc32_map) 64 = 88 := by
    unfold Codec.crc_at
    rw [hp, hlev]
  have hl : Codec.len_at (Codec.overlong_file crc32_map) 64 = 24 := by
    unfold Codec.len_at
    rw [hp, hlev, hkl, hvl]
    decide
  have hcrc : Codec.rd (Codec.overlong_file crc32_map) 88 4
      = crc32_map (Codec.head Codec.overlong) % 2 ^ 32 := by
    have := fc
    rw [hh] at this
    exact this
  have hhead : ((Codec.overlong_file crc32_map).drop 64).take 24
      = Codec.head Codec.overlong := by
    have := fh
    rw [hh] at this
    exact this
  rw [read_record_eq, if_neg (by rw [hlen]; decide), if_neg (by rw [hlev]; decide),
    if_neg (by rw [hl, hlen]; decide), hc, if_neg (by rw [hhead, hcrc]; exact fun h => h rfl)]
  refine ⟨_, rfl, hlen, ?_, ?_, ?_, ?_, ?_, ?_, ?_⟩
  · exact hl
  · dsimp only
    exact hkl
  · dsimp only
    exact hvl
  · rfl
  · dsimp only
    rw [hkl]
    decide
  · dsimp only
    rw [hlen, hkl]
    decide
  · dsimp only
    rw [hlen, hkl, hvl]
    decide

/-! ## The length of a record -/

theorem keyval_length (key val : List Nat) :
    (Codec.keyval key val).length = roundup (key.length + val.length) 8 := by
  have := roundup_ge (key.length + val.length)
  unfold Codec.keyval
  simp only [List.length_append, List.length_replicate]
  omega

/-- What `write_record` does with a well-formed record: `R` is the record
with its tail checksum. -/
theorem write_record_eq (crc32_map : List Nat → Nat) (base : List Nat) (end_ : Nat)
    (record : Codec.skiprecord) (key val : List Nat)
    (ho : record.offset = 0) (hl : record.level ≤ MAXLEVEL)
    (hk : record.keylen = key.length) (hv : record.vallen = val.length)
    (hs : key.length + val.length < 2 ^ 64) :
    ∃ R rec1 : Codec.skiprecord,
      R.type = record.type ∧ R.level = record.level ∧ R.keylen = key.length ∧
      R.vallen = val.length ∧ R.nextloc = record.nextloc ∧
      R.crc32_tail = crc32_map (Codec.keyval key val) % 2 ^ 32 ∧
      Codec.write_record crc32_map base end_ record key val
        = some (0, Codec.pwrite base (Codec.head R ++
              Codec.be 4 (crc32_map (Codec.head R) % 2 ^ 32) ++ Codec.be 4 R.crc32_tail
                ++ Codec.keyval key val) end_,
            end_ + rec1.len, rec1) ∧
      rec1.offset = end_ ∧
      rec1.len = (Codec.head R).length + 8 + roundup (key.length + val.length) 8 ∧
      rec1.keyoffset = end_ + (Codec.head R).length + 8 ∧
      rec1.valoffset = end_ + (Codec.head R).length + 8 + key.length ∧
      rec1.type = record.type ∧ rec1.level = record.level ∧
      rec1.keylen = record.keylen ∧ rec1.vallen = record.vallen := by
  obtain ⟨o0, l0, ty, lv, keylen, vallen, nl, ch0, ct0, ko0, vo0⟩ := record
  simp only at ho hl hk hv
  subst ho hk hv
  have hsum : (val.length + key.length) % 2 ^ 64 = key.length + val.length := by
    rw [Nat.mod_eq_of_lt] <;> omega
  generalize hkvp : Codec.keyval key val = kvp
  have hkvp2 : key ++ (val ++ List.replicate
      (roundup (key.length + val.length) 8 - (key.length + val.length)) 0) = kvp := hkvp
  have hkvl : kvp.length = roundup (key.length + val.length) 8 := by
    rw [← hkvp, keyval_length]
  generalize htail : crc32_map kvp % 2 ^ 32 = tail
  generalize hR : ({ offset := 0, len := l0, type := ty, level := lv,
                     keylen := key.length, vallen := val.length, nextloc := nl,
                     crc32_head := ch0, crc32_tail := tail, keyoffset := ko0,
                     valoffset := vo0 } : Codec.skiprecord) = R
  have hRf : R.type = ty ∧ R.level = lv ∧ R.keylen = key.length ∧
      R.vallen = val.length ∧ R.nextloc = nl ∧ R.crc32_tail = tail := by
    rw [← hR]; exact ⟨rfl, rfl, rfl, rfl, rfl, rfl⟩
  obtain ⟨r1, r2, r3, r4, r5, r6⟩ := hRf
  have hw : Codec.write_record crc32_map base end_
      { offset := 0, len := l0, type := ty, level := lv,
        keylen := key.length, vallen := val.length, nextloc := nl, crc32_head := ch0,
        crc32_tail := ct0, keyoffset := ko0, valoffset := vo0 } key val
      = some (0, Codec.pwrite base (Codec.head R ++
            Codec.be 4 (crc32_map (Codec.head R) % 2 ^ 32) ++ Codec.be 4 tail ++ kvp)
            end_,
          end_ + (Codec.head R ++
            Codec.be 4 (crc32_map (Codec.head R) % 2 ^ 32) ++ Codec.be 4 tail
            ++ kvp).length,
          { R with
            crc32_head := crc32_map (Codec.head R) % 2 ^ 32,
            offset := end_,
            keyoffset := end_ + (Codec.head R ++
              Codec.be 4 (crc32_map (Codec.head R) % 2 ^ 32) ++ Codec.be 4 tail).length,
            valoffset := end_ + (Codec.head R ++
              Codec.be 4 (crc32_map (Codec.head R) % 2 ^ 32) ++ Codec.be 4 tail).length
              + key.length,
            len := (Codec.head R ++
              Codec.be 4 (crc32_map (Codec.head R) % 2 ^ 32) ++ Codec.be 4 tail
              ++ kvp).length }) := by
    unfold Codec.write_record
    rw [if_neg (by simp)]
    simp only [hsum, List.take_length, List.append_assoc, hkvp2, htail, hR]
    rw [prepare_record_eq crc32_map R (by rw [r2]; exact hl), r6]
    simp only [List.append_assoc, hkvp2, r3]
  obtain ⟨rec1, hrec1⟩ : ∃ rec1 : Codec.skiprecord, rec1 =
      { R with
        crc32_head := crc32_map (Codec.head R) % 2 ^ 32,
        offset := end_,
        keyoffset := end_ + (Codec.head R ++
          Codec.be 4 (crc32_map (Codec.head R) % 2 ^ 32) ++ Codec.be 4 tail).length,
        valoffset := end_ + (Codec.head R ++
          Codec.be 4 (crc32_map (Codec.head R) % 2 ^ 32) ++ Codec.be 4 tail).length
          + key.length,
        len := (Codec.head R ++
          Codec.be 4 (crc32_map (Codec.head R) % 2 ^ 32) ++ Codec.be 4 tail
          ++ kvp).length } := ⟨_, rfl⟩
  have q : rec1.offset = end_ ∧
      rec1.len = (Codec.head R ++
          Codec.be 4 (crc32_map (Codec.head R) % 2 ^ 32) ++ Codec.be 4 tail ++ kvp).length ∧
      rec1.keyoffset = end_ + (Codec.head R ++
          Codec.be 4 (crc32_map (Codec.head R) % 2 ^ 32) ++ Codec.be 4 tail).length ∧
      rec1.valoffset = end_ + (Codec.head R ++
          Codec.be 4 (crc32_map (Codec.head R) % 2 ^ 32) ++ Codec.be 4 tail).length
          + key.length ∧
      rec1.type = R.type ∧ rec1.level = R.level ∧ rec1.keylen = R.keylen ∧
      rec1.vallen = R.vallen := by
    rw [hrec1]; exact ⟨rfl, rfl, rfl, rfl, rfl, rfl, rfl, rfl⟩
  obtain ⟨q1, q2, q3, q4, q5, q6, q7, q8⟩ := q
  rw [← hrec1, ← q2] at hw
  refine ⟨R, rec1, r1, r2, r3, r4, r5, r6, ?_, q1, ?_, ?_, ?_, ?_, ?_, ?_, ?_⟩
  · rw [r6]
    exact hw
  · rw [q2]
    simp only [List.length_append, be_length, hkvl]
  · rw [q3]
    simp only [List.length_append, be_length]
    omega
  · rw [q4]
    simp only [List.length_append, be_length]
    omega
  · rw [q5, r1]
  · rw [q6, r2]
  · rw [q7, r3]
  · rw [q8, r4]

theorem head_length_eq (r : Codec.skiprecord) :
    (Codec.head r).length = 8 + (if 65535 ≤ r.keylen then 8 else 0)
      + (if 4294967295 ≤ r.vallen then 8 else 0) + 8 * (r.level + 1) := by
  rw [head_length]
  have h1 : (Codec.longkey r).length = if 65535 ≤ r.keylen then 8 else 0 := by
    unfold Codec.longkey UINT16_MAX
    split <;> split <;> simp [be_length] <;> omega
  have h2 : (Codec.longval r).length = if 4294967295 ≤ r.vallen then 8 else 0 := by
    unfold Codec.longval UINT32_MAX
    split <;> split <;> simp [be_length] <;> omega
  rw [h1, h2]

theorem bytes_getD {base : List Nat} (hb : Codec.Bytes base) (i : Nat) : base.getD i 0 < 256 := by
  rw [List.getD_eq_getElem?_getD]
  by_cases h : i < base.length
  · rw [List.getElem?_eq_getElem h]
    exact hb _ (List.getElem_mem h)
  · rw [List.getElem?_eq_none (by omega)]
    decide

theorem rd_lt {base : List Nat} (hb : Codec.Bytes base) (w : Nat) :
    ∀ off, Codec.rd base off w < 256 ^ w := by
  induction w with
  | zero => intro off; simp [Codec.rd]
  | succ w ih =>
    intro off
    simp only [Codec.rd]
    have h1 := bytes_getD hb off
    have h2 := ih (off + 1)
    have h3 : base.getD off 0 * 256 ^ w ≤ 255 * 256 ^ w :=
      Nat.mul_le_mul_right _ (by omega)
    have h4 : 256 ^ (w + 1) = 255 * 256 ^ w + 256 ^ w := by ring
    omega

theorem be_add_mul (w a m : Nat) : Codec.be w (a * 256 ^ w + m) = Codec.be w m := by
  induction w generalizing a m with
  | zero => rfl
  | succ w ih =>
    simp only [Codec.be]
    congr 1
    · have e : a * 256 ^ (w + 1) + m = m + 256 ^ w * (256 * a) := by ring
      rw [e, Nat.add_mul_div_left _ _ (by positivity), Nat.add_mul_mod_self_left]
    · have e : a * 256 ^ (w + 1) + m = (a * 256) * 256 ^ w + m := by ring
      rw [e, ih]

/-- Storing what was loaded gives the bytes that were there. -/
theorem be_rd {base : List Nat} (hb : Codec.Bytes base) (w : Nat) :
    ∀ off, off + w ≤ base.length →
      Codec.be w (Codec.rd base off w) = (base.drop off).take w := by
  induction w with
  | zero => intro off _; simp [Codec.be]
  | succ w ih =>
    intro off h
    have hlt : off < base.length := by omega
    have h2 := rd_lt hb w (off + 1)
    have hd : base.drop off = base.getD off 0 :: base.drop (off + 1) := by
      rw [List.getD_eq_getElem?_getD, List.getElem?_eq_getElem hlt]
      exact List.drop_eq_getElem_cons hlt
    rw [hd, List.take_succ_cons]
    simp only [Codec.rd, Codec.be]
    congr 1
    · rw [Nat.add_comm, Nat.add_mul_div_right _ _ (by positivity), Nat.div_eq_of_lt h2,
        Nat.zero_add, Nat.mod_eq_of_lt (bytes_getD hb off)]
    · rw [be_add_mul, ih (off + 1) (by omega)]

/-- What a successful `read_record` says about the file and the record. -/
theorem read_record_ok {crc32_map : List Nat → Nat} {base : List Nat} {offset : Nat}
    {rec : Codec.skiprecord}
    (h : Codec.read_record crc32_map base offset = some (0, rec)) :
    (offset + 24) % 2 ^ 64 ≤ base.length ∧ Codec.level_at base offset ≤ MAXLEVEL ∧
    (offset + Codec.len_at base offset) % 2 ^ 64 ≤ base.length ∧
    crc32_map ((base.drop offset).take (Codec.crc_at base offset - offset)) % 2 ^ 32
      = Codec.rd base (Codec.crc_at base offset) 4 ∧
    rec.offset = offset ∧ rec.len = Codec.len_at base offset ∧
    rec.type = base.getD offset 0 ∧ rec.level = Codec.level_at base offset ∧
    rec.keylen = Codec.keylen_at base offset ∧ rec.vallen = Codec.vallen_at base offset ∧
    rec.nextloc = Codec.nextloc_at base offset ∧
    rec.crc32_head = Codec.rd base (Codec.crc_at base offset) 4 ∧
    rec.crc32_tail = Codec.rd base (Codec.crc_at base offset + 4) 4 ∧
    rec.keyoffset = Codec.crc_at base offset + 8 ∧
    rec.valoffset = (Codec.crc_at base offset + 8 + Codec.keylen_at base offset) % 2 ^ 64 := by
  rw [read_record_eq] at h
  have hne : (CYRUSDB_IOERROR : Int) ≠ 0 := by decide
  split_ifs at h with h1 h2 h3 h4
  · exact absurd (congrArg (fun x => x.1) (Option.some.inj h)) hne
  · exact absurd (congrArg (fun x => x.1) (Option.some.inj h)) hne
  · exact absurd (congrArg (fun x => x.1) (Option.some.inj h)) hne
  · have e := congrArg (fun x => x.2) (Option.some.inj h)
    simp only at e
    subst e
    exact ⟨by omega, by omega, by omega, not_not.mp h4, rfl, rfl, rfl, rfl, rfl, rfl, rfl, rfl,
      rfl, rfl, rfl⟩

/-- The geometry of a record read from bytes: the lengths are below
`2 ^ 64`, an extended length is only there after its escape, and the head
checksum is at least 16 bytes into the record. -/
theorem geometry {base : List Nat} (hb : Codec.Bytes base) (o : Nat) :
    Codec.keylen_at base o < 2 ^ 64 ∧ Codec.vallen_at base o < 2 ^ 64 ∧
    Codec.level_at base o < 256 ∧
    (Codec.ptrs_at base o = o + 8
        + (if Codec.rd base (o + 2) 2 = UINT16_MAX then 8 else 0)
        + (if Codec.rd base (o + 4) 4 = UINT32_MAX then 8 else 0)) ∧
    (UINT16_MAX ≤ Codec.keylen_at base o → Codec.rd base (o + 2) 2 = UINT16_MAX) ∧
    (UINT32_MAX ≤ Codec.vallen_at base o → Codec.rd base (o + 4) 4 = UINT32_MAX) := by
  have k0 := rd_lt hb 2 (o + 2)
  have v0 := rd_lt hb 4 (o + 4)
  have p2 : (256 : Nat) ^ 2 = 65536 := by norm_num
  have p4 : (256 : Nat) ^ 4 = 4294967296 := by norm_num
  have p8 : (256 : Nat) ^ 8 = 2 ^ 64 := by norm_num
  have k8 := rd_lt hb 8 (o + 8)
  have v8 := rd_lt hb 8 (Codec.off2_at base o)
  rw [p8] at k8 v8
  rw [p2] at k0
  rw [p4] at v0
  refine ⟨?_, ?_, bytes_getD hb _, ?_, ?_, ?_⟩
  · unfold Codec.keylen_at
    split
    · exact k8
    · omega
  · unfold Codec.vallen_at
    split
    · exact v8
    · omega
  · unfold Codec.ptrs_at Codec.off2_at
    split <;> split <;> rfl
  · unfold Codec.keylen_at UINT16_MAX
    intro h
    by_contra hne
    rw [if_neg hne] at h
    omega
  · unfold Codec.vallen_at UINT32_MAX
    intro h
    by_contra hne
    rw [if_neg hne] at h
    omega

theorem pwrite_inside (base buf : List Nat) (o : Nat) (h : o + buf.length ≤ base.length) :
    Codec.pwrite base buf o = base.take o ++ (buf ++ base.drop (o + buf.length)) ∧
    (Codec.pwrite base buf o).length = base.length := by
  have e : Codec.pwrite base buf o = base.take o ++ (buf ++ base.drop (o + buf.length)) := by
    unfold Codec.pwrite
    rw [Nat.sub_eq_zero_of_le (by omega)]
    simp
  refine ⟨e, ?_⟩
  rw [e]
  simp only [List.length_append, List.length_take, List.length_drop]
  omega

/-- The head that `prepare_record` writes is no longer than the head that
was read, and shorter by at least 8 bytes when it is shorter. -/
theorem head_fits {base : List Nat} (hb : Codec.Bytes base) (o : Nat) (R : Codec.skiprecord)
    (hl : R.level = Codec.level_at base o) (hk : R.keylen = Codec.keylen_at base o)
    (hv : R.vallen = Codec.vallen_at base o) :
    o + (Codec.head R).length = Codec.crc_at base o ∨
    o + (Codec.head R).length + 8 ≤ Codec.crc_at base o := by
  obtain ⟨_, _, _, gp, gke, gve⟩ := geometry hb o
  rw [head_length, hl]
  unfold Codec.crc_at
  rw [gp]
  have h1 : (Codec.longkey R).length = 0 ∨ ((Codec.longkey R).length = 8 ∧
      Codec.rd base (o + 2) 2 = UINT16_MAX) := by
    unfold Codec.longkey
    by_cases h : R.keylen < UINT16_MAX
    · rw [if_pos h]; exact Or.inl rfl
    · rw [if_neg h, be_length]
      exact Or.inr ⟨rfl, gke (by rw [← hk]; omega)⟩
  have h2 : (Codec.longval R).length = 0 ∨ ((Codec.longval R).length = 8 ∧
      Codec.rd base (o + 4) 4 = UINT32_MAX) := by
    unfold Codec.longval
    by_cases h : R.vallen < UINT32_MAX
    · rw [if_pos h]; exact Or.inl rfl
    · rw [if_neg h, be_length]
      exact Or.inr ⟨rfl, gve (by rw [← hv]; omega)⟩
  rcases h1 with h1 | ⟨h1, h1b⟩ <;> rcases h2 with h2 | ⟨h2, h2b⟩
  · rw [h1, h2]
    split <;> split <;> omega
  · rw [h1, h2, if_pos h2b]
    split <;> omega
  · rw [h1, h2, if_pos h1b]
    split <;> omega
  · rw [h1, h2, if_pos h1b, if_pos h2b]
    omega

theorem len_no_wrap (o p l k v ru n : Nat) (hpo : o + 8 ≤ p)
    (hsz : p + 8 * (l + 1) + 8 + k + v + 8 < 2 ^ 64) (hru : ru ≤ k + v + 7)
    (c3 : (o + ((p - o) + 8 * (1 + l) + 8 + ru) % 2 ^ 64) % 2 ^ 64 ≤ n) :
    p + 8 * (l + 1) + 8 + ru ≤ n := by
  rw [Nat.mod_eq_of_lt (a := (p - o) + 8 * (1 + l) + 8 + ru) (by omega),
    Nat.mod_eq_of_lt (by omega)] at c3
  omega

/-- C25: for a record read from offset `o` and changed only in its pointers,
`rewrite_record` leaves the length of the file, every byte before `o` and
every byte from the tail checksum field on (the tail checksum, the key, the
value, the padding and all that follows) unchanged, so it modifies only bytes
in `[o, keyoffset)`; and reading the record again gives the new pointers, the
same type, level, lengths and tail checksum, and a head checksum that is the
checksum of the head bytes now in the file. -/
theorem rewrite_record_frame (crc32_map : List Nat → Nat) (base : List Nat) (flags o : Nat)
    (rec : Codec.skiprecord) (nl : Nat → Nat)
    (hb : Codec.Bytes base)
    (hread : Codec.read_record crc32_map base o = some (0, rec))
    (ho : o ≠ 0) (hd : flags &&& DIRTY ≠ 0)
    (hsz : rec.keyoffset + rec.keylen + rec.vallen + 8 < 2 ^ 64)
    (hn : ∀ i, i ≤ rec.level → nl i < 2 ^ 64) :
    ∃ base1 rec1 rec2,
      Codec.rewrite_record crc32_map base flags { rec with nextloc := nl }
        = some (0, base1, rec1) ∧
      base1.length = base.length ∧ base1.take o = base.take o ∧
      base1.drop (rec.keyoffset - 4) = base.drop (rec.keyoffset - 4) ∧
      Codec.read_record crc32_map base1 o = some (0, rec2) ∧
      (∀ i, i ≤ rec.level → rec2.nextloc i = nl i) ∧
      rec2.type = rec.type ∧ rec2.level = rec.level ∧ rec2.keylen = rec.keylen ∧
      rec2.vallen = rec.vallen ∧ rec2.crc32_tail = rec.crc32_tail ∧
      rec2.crc32_head = crc32_map ((base1.drop o).take (rec2.keyoffset - 8 - o)) % 2 ^ 32 := by
  obtain ⟨c1, hlv, c3, hcrc, e_off, e_len, e_type, e_level, e_k, e_v, e_nl, e_ch, e_ct, e_ko,
    e_vo⟩ := read_record_ok hread
  obtain ⟨gk, gv, glv, gp, gke, gve⟩ := geometry hb o
  obtain ⟨R, hR⟩ : ∃ R : Codec.skiprecord, R = { rec with nextloc := nl } := ⟨_, rfl⟩
  have hRf : R.offset = o ∧ R.type = rec.type ∧ R.level = rec.level ∧ R.keylen = rec.keylen ∧
      R.vallen = rec.vallen ∧ R.nextloc = nl ∧ R.crc32_tail = rec.crc32_tail := by
    rw [hR]; exact ⟨e_off, rfl, rfl, rfl, rfl, rfl, rfl⟩
  obtain ⟨r0, r1, r2, r3, r4, r5, r6⟩ := hRf
  rw [← hR]
  have hRl : R.level ≤ MAXLEVEL := by rw [r2, e_level]; exact hlv
  -- sizes
  have hfit := head_fits hb o R (by rw [r2, e_level]) (by rw [r3, e_k]) (by rw [r4, e_v])
  rw [e_ko, e_k, e_v] at hsz
  have hru := roundup_le (Codec.keylen_at base o + Codec.vallen_at base o)
  have hpo : o + 8 ≤ Codec.ptrs_at base o := by
    rw [gp]
    exact Nat.le_add_right_of_le (Nat.le_add_right _ _)
  have hsum : (Codec.keylen_at base o + Codec.vallen_at base o) % 2 ^ 64
      = Codec.keylen_at base o + Codec.vallen_at base o :=
    Nat.mod_eq_of_lt (by clear * - hsz; omega)
  have hC : Codec.crc_at base o + 8
      + roundup (Codec.keylen_at base o + Codec.vallen_at base o) 8 ≤ base.length := by
    unfold Codec.len_at at c3
    rw [hsum] at c3
    exact len_no_wrap o _ _ _ _ _ _ hpo hsz hru c3
  have hE : o + (Codec.head R).length + 8 ≤ Codec.crc_at base o + 8 := by
    clear * - hfit
    rcases hfit with h | h <;> omega
  have hco : o ≤ Codec.crc_at base o := by
    clear * - hE
    omega
  clear c1 c3 hpo gp gke gve hcrc e_len e_vo e_ch e_nl e_off hread hR
  -- the bytes written
  generalize hbuf : Codec.head R ++ Codec.be 4 (crc32_map (Codec.head R) % 2 ^ 32)
      ++ Codec.be 4 R.crc32_tail = buf
  have hbl : buf.length = (Codec.head R).length + 8 := by
    rw [← hbuf]
    simp only [List.length_append, be_length]
  have hw : Codec.rewrite_record crc32_map base flags R
      = some (0, Codec.pwrite base buf o,
          { R with crc32_head := crc32_map (Codec.head R) % 2 ^ 32 }) := by
    unfold Codec.rewrite_record
    rw [if_neg hd, if_neg (by rw [r0]; exact ho), prepare_record_eq crc32_map R hRl]
    simp only [hbuf, r0]
  obtain ⟨hp, hpl⟩ := pwrite_inside base buf o (by omega)
  have htl : (base.take o).length = o := by
    rw [List.length_take]; omega
  refine ⟨_, _, Codec.decoded crc32_map R o
    (roundup (Codec.keylen_at base o + Codec.vallen_at base o) 8), hw, hpl, ?_, ?_, ?_, ?_,
    ?_, ?_, ?_, ?_, ?_, ?_⟩
  · rw [hp, List.take_left' htl]
  · rw [e_ko]
    rcases hfit with hfit | hfit
    · -- the head has the length it had: the tail checksum is written as it was
      have e1 : buf = (Codec.head R ++ Codec.be 4 (crc32_map (Codec.head R) % 2 ^ 32))
          ++ Codec.be 4 R.crc32_tail := hbuf.symm
      have e2 : base.take o ++ (buf ++ base.drop (o + buf.length))
          = (base.take o ++ (Codec.head R ++ Codec.be 4 (crc32_map (Codec.head R) % 2 ^ 32)))
            ++ (Codec.be 4 R.crc32_tail ++ base.drop (o + buf.length)) := by
        rw [e1]; simp only [List.append_assoc]
      rw [hp, e2, List.drop_left' (by
        simp only [List.length_append, be_length, htl]; omega)]
      rw [r6, e_ct, be_rd hb 4 _ (by omega)]
      have e3 : o + buf.length = (Codec.crc_at base o + 8 - 4) + 4 := by omega
      have e4 : Codec.crc_at base o + 4 = Codec.crc_at base o + 8 - 4 := by omega
      rw [e3, e4, ← List.drop_drop, List.take_append_drop]
    · have e2 : base.take o ++ (buf ++ base.drop (o + buf.length))
          = (base.take o ++ buf) ++ base.drop (o + buf.length) := by
        simp only [List.append_assoc]
      have e3 : Codec.crc_at base o + 8 - 4
          = (base.take o ++ buf).length + (Codec.crc_at base o + 8 - 4 - (o + buf.length)) := by
        simp only [List.length_append, htl]; omega
      rw [hp, e2, e3, List.drop_append, List.drop_drop]
      congr 1
      simp only [List.length_append, htl]
  · -- reading the record again
    have hrest : roundup (Codec.keylen_at base o + Codec.vallen_at base o) 8
        ≤ (base.drop (o + buf.length)).length := by
      rw [List.length_drop]
      omega
    have hrb := read_back crc32_map R (base.take o)
      ((base.drop (o + buf.length)).take
        (roundup (Codec.keylen_at base o + Codec.vallen_at base o) 8))
      ((base.drop (o + buf.length)).drop
        (roundup (Codec.keylen_at base o + Codec.vallen_at base o) 8))
      (by rw [r1, e_type]; exact bytes_getD hb _) hRl (by rw [r3, e_k]; exact gk)
      (by rw [r4, e_v]; exact gv)
      (by
        rw [r6, e_ct]
        have := rd_lt hb 4 (Codec.crc_at base o + 4)
        norm_num at this
        norm_num
        exact this)
      (by rw [List.length_take, Nat.min_eq_left hrest, r3, r4, e_k, e_v, hsum])
      (by rw [htl, List.length_take, Nat.min_eq_left hrest]; omega)
      (by rw [htl, r3, e_k]; omega)
    rw [htl, List.length_take, Nat.min_eq_left hrest] at hrb
    rw [hp]
    have e : buf ++ base.drop (o + buf.length)
        = Codec.head R ++ Codec.be 4 (crc32_map (Codec.head R) % 2 ^ 32)
          ++ Codec.be 4 R.crc32_tail ++
          (base.drop (o + buf.length)).take
            (roundup (Codec.keylen_at base o + Codec.vallen_at base o) 8) ++
          (base.drop (o + buf.length)).drop
            (roundup (Codec.keylen_at base o + Codec.vallen_at base o) 8) := by
      rw [List.append_assoc _ (List.take _ _), List.take_append_drop, hbuf]
    rw [e]
    exact hrb
  · intro i hi
    unfold Codec.decoded
    dsimp only
    rw [if_pos (by rw [r2]; exact hi), r5, Nat.mod_eq_of_lt (hn i hi)]
  · dsimp only [Codec.decoded]
    exact r1
  · dsimp only [Codec.decoded]
    exact r2
  · dsimp only [Codec.decoded]
    exact r3
  · dsimp only [Codec.decoded]
    exact r4
  · dsimp only [Codec.decoded]
    exact r6
  · unfold Codec.decoded
    dsimp only
    have e : o + (Codec.head R).length + 8 - 8 - o = (Codec.head R).length := by omega
    have e2 : base.take o ++ (buf ++ base.drop (o + buf.length))
        = base.take o ++ (Codec.head R ++ (Codec.be 4 (crc32_map (Codec.head R) % 2 ^ 32)
          ++ Codec.be 4 R.crc32_tail ++ base.drop (o + buf.length))) := by
      rw [← hbuf]; simp only [List.append_assoc]
    rw [e, hp, e2, List.drop_left' htl, List.take_left]

theorem sample_file_bytes : Codec.Bytes Codec.sample_file := by
  unfold Codec.Bytes
  decide

theorem sample_file_read :
    Codec.read_record Codec.sum_crc Codec.sample_file 64
      = some (0, Codec.decoded Codec.sum_crc Codec.sample 64 8) :=
  read_back Codec.sum_crc Codec.sample (List.replicate 64 0) [5, 0, 0, 0, 0, 0, 0, 0] []
    (by decide) (by decide) (by decide) (by decide) (by decide) (by decide) (by decide)
    (by decide)

/-- The record of `Codec.sample_file` rewritten to point at offset 400. -/
theorem rewrite_record_frame_witness :
    ∃ base1 rec1 rec2,
      Codec.rewrite_record Codec.sum_crc Codec.sample_file 1
          { Codec.decoded Codec.sum_crc Codec.sample 64 8 with nextloc := fun _ => 400 }
        = some (0, base1, rec1) ∧
      base1.length = Codec.sample_file.length ∧
      base1.take 64 = Codec.sample_file.take 64 ∧
      base1.drop ((Codec.decoded Codec.sum_crc Codec.sample 64 8).keyoffset - 4)
        = Codec.sample_file.drop ((Codec.decoded Codec.sum_crc Codec.sample 64 8).keyoffset - 4) ∧
      Codec.read_record Codec.sum_crc base1 64 = some (0, rec2) ∧
      (∀ i, i ≤ (Codec.decoded Codec.sum_crc Codec.sample 64 8).level → rec2.nextloc i = 400) ∧
      rec2.type = (Codec.decoded Codec.sum_crc Codec.sample 64 8).type ∧
      rec2.level = (Codec.decoded Codec.sum_crc Codec.sample 64 8).level ∧
      rec2.keylen = (Codec.decoded Codec.sum_crc Codec.sample 64 8).keylen ∧
      rec2.vallen = (Codec.decoded Codec.sum_crc Codec.sample 64 8).vallen ∧
      rec2.crc32_tail = (Codec.decoded Codec.sum_crc Codec.sample 64 8).crc32_tail ∧
      rec2.crc32_head
        = Codec.sum_crc ((base1.drop 64).take (rec2.keyoffset - 8 - 64)) % 2 ^ 32 :=
  rewrite_record_frame Codec.sum_crc Codec.sample_file 1 64
    (Codec.decoded Codec.sum_crc Codec.sample 64 8) (fun _ => 400)
    sample_file_bytes sample_file_read (by decide) (by decide) (by decide)
    (fun _ _ => by norm_num)

/-! ## The header codec on bytes -/

theorem header_fields_length (h : db_header) : (Codec.header_fields h).length = 60 := by
  unfold Codec.header_fields Codec.HEADER_MAGIC
  simp only [List.length_append, be_length, List.length_cons, List.length_nil]

/-- The loads of `read_header` from a file that starts with a header. -/
theorem header_loads (h : db_header) (crc : Nat) (rest B : List Nat)
    (hB : B = Codec.header_fields h ++ Codec.be 4 crc ++ rest) :
    B.take 20 = Codec.HEADER_MAGIC ∧
    Codec.rd B 20 4 = h.version % 2 ^ 32 ∧ Codec.rd B 24 8 = h.generation % 2 ^ 64 ∧
    Codec.rd B 32 8 = h.num_records % 2 ^ 64 ∧ Codec.rd B 40 8 = h.repack_size % 2 ^ 64 ∧
    Codec.rd B 48 8 = h.current_size % 2 ^ 64 ∧ Codec.rd B 56 4 = h.flags % 2 ^ 32 ∧
    Codec.rd B 60 4 = crc % 2 ^ 32 ∧ B.take 60 = Codec.header_fields h ∧
    B.length = 64 + rest.length := by
  have p4 : (256 : Nat) ^ 4 = 2 ^ 32 := by norm_num
  have p8 : (256 : Nat) ^ 8 = 2 ^ 64 := by norm_num
  have hm : Codec.HEADER_MAGIC.length = 20 := rfl
  refine ⟨?_, ?_, ?_, ?_, ?_, ?_, ?_, ?_, ?_, ?_⟩
  · rw [hB]
    unfold Codec.header_fields
    simp only [List.append_assoc]
    exact List.take_left' hm
  · have : B = Codec.HEADER_MAGIC ++ (Codec.be 4 h.version ++ (Codec.be 8 h.generation
        ++ Codec.be 8 h.num_records ++ Codec.be 8 h.repack_size
        ++ Codec.be 8 h.current_size ++ Codec.be 4 h.flags ++ Codec.be 4 crc ++ rest)) := by
      rw [hB]; unfold Codec.header_fields; simp only [List.append_assoc]
    rw [this, rd_at hm, p4]
  · have : B = (Codec.HEADER_MAGIC ++ Codec.be 4 h.version) ++ (Codec.be 8 h.generation
        ++ (Codec.be 8 h.num_records ++ Codec.be 8 h.repack_size
        ++ Codec.be 8 h.current_size ++ Codec.be 4 h.flags ++ Codec.be 4 crc ++ rest)) := by
      rw [hB]; unfold Codec.header_fields; simp only [List.append_assoc]
    rw [this, rd_at (by simp only [List.length_append, be_length, hm]), p8]
  · have : B = (Codec.HEADER_MAGIC ++ Codec.be 4 h.version ++ Codec.be 8 h.generation)
        ++ (Codec.be 8 h.num_records ++ (Codec.be 8 h.repack_size
        ++ Codec.be 8 h.current_size ++ Codec.be 4 h.flags ++ Codec.be 4 crc ++ rest)) := by
      rw [hB]; unfold Codec.header_fields; simp only [List.append_assoc]
    rw [this, rd_at (by simp only [List.length_append, be_length, hm]), p8]
  · have : B = (Codec.HEADER_MAGIC ++ Codec.be 4 h.version ++ Codec.be 8 h.generation
        ++ Codec.be 8 h.num_records) ++ (Codec.be 8 h.repack_size
        ++ (Codec.be 8 h.current_size ++ Codec.be 4 h.flags ++ Codec.be 4 crc ++ rest)) := by
      rw [hB]; unfold Codec.header_fields; simp only [List.append_assoc]
    rw [this, rd_at (by simp only [List.length_append, be_length, hm]), p8]
  · have : B = (Codec.HEADER_MAGIC ++ Codec.be 4 h.version ++ Codec.be 8 h.generation
        ++ Codec.be 8 h.num_records ++ Codec.be 8 h.repack_size)
        ++ (Codec.be 8 h.current_size ++ (Codec.be 4 h.flags ++ Codec.be 4 crc ++ rest)) := by
      rw [hB]; unfold Codec.header_fields; simp only [List.append_assoc]
    rw [this, rd_at (by simp only [List.length_append, be_length, hm]), p8]
  · have : B = (Codec.HEADER_MAGIC ++ Codec.be 4 h.version ++ Codec.be 8 h.generation
        ++ Codec.be 8 h.num_records ++ Codec.be 8 h.repack_size ++ Codec.be 8 h.current_size)
        ++ (Codec.be 4 h.flags ++ (Codec.be 4 crc ++ rest)) := by
      rw [hB]; unfold Codec.header_fields; simp only [List.append_assoc]
    rw [this, rd_at (by simp only [List.length_append, be_length, hm]), p4]
  · have : B = Codec.header_fields h ++ (Codec.be 4 crc ++ rest) := by
      rw [hB]; simp only [List.append_assoc]
    rw [this, rd_at (header_fields_length h), p4]
  · rw [hB, List.append_assoc]
    exact List.take_left' (header_fields_length h)
  · rw [hB]
    simp only [List.length_append, header_fields_length, be_length]

/-- C26: for every header with version at most 1, `write_header` writes at
offset 0 exactly 64 bytes: the 20 bytes of the magic, the fields in network
order at offsets 20, 24, 32, 40, 48 and 56, and at offset 60 the checksum of
bytes 0..59; `read_header` on the file succeeds, returns the same version,
generation, num_records, repack_size, current_size and flags, and sets `end`
to `current_size`.  The fields are as wide as in `struct db_header`. -/
theorem header_round_trip (crc32_map : List Nat → Nat) (base : List Nat) (h h0 : db_header)
    (e0 : Nat)
    (hver : h.version ≤ VERSION) (hfl : h.flags < 2 ^ 32) (hg : h.generation < 2 ^ 64)
    (hn : h.num_records < 2 ^ 64) (hr : h.repack_size < 2 ^ 64)
    (hc : h.current_size < 2 ^ 64) :
    ∃ base1, Codec.write_header crc32_map base h = (0, base1) ∧
      base1.take 64 = Codec.HEADER_MAGIC ++ Codec.be 4 h.version ++ Codec.be 8 h.generation
        ++ Codec.be 8 h.num_records ++ Codec.be 8 h.repack_size
        ++ Codec.be 8 h.current_size ++ Codec.be 4 h.flags
        ++ Codec.be 4 (crc32_map (base1.take 60) % 2 ^ 32) ∧
      (base1.take 64).length = 64 ∧ base1.take 20 = Codec.HEADER_MAGIC ∧
      (base1.drop 20).take 4 = Codec.be 4 h.version ∧
      (base1.drop 24).take 8 = Codec.be 8 h.generation ∧
      (base1.drop 32).take 8 = Codec.be 8 h.num_records ∧
      (base1.drop 40).take 8 = Codec.be 8 h.repack_size ∧
      (base1.drop 48).take 8 = Codec.be 8 h.current_size ∧
      (base1.drop 56).take 4 = Codec.be 4 h.flags ∧
      (base1.drop 60).take 4 = Codec.be 4 (crc32_map (base1.take 60) % 2 ^ 32) ∧
      base1.drop 64 = base.drop 64 ∧
      Codec.read_header crc32_map base1 h0 e0 = (0, h, h.current_size) := by
  have hm : Codec.HEADER_MAGIC.length = 20 := rfl
  have hfl60 := header_fields_length h
  have ht : (Codec.header_fields h).take 60 = Codec.header_fields h :=
    List.take_of_length_le (by rw [hfl60])
  have hw : Codec.write_header crc32_map base h
      = (0, Codec.header_fields h ++ Codec.be 4 (crc32_map (Codec.header_fields h) % 2 ^ 32)
          ++ base.drop 64) := by
    unfold Codec.write_header Codec.pwrite
    simp only [ht, List.take_zero, Nat.zero_sub, List.replicate_zero, List.nil_append,
      List.length_append, hfl60, be_length, Nat.zero_add]
  generalize hB : Codec.header_fields h ++ Codec.be 4 (crc32_map (Codec.header_fields h) % 2 ^ 32)
      ++ base.drop 64 = B at hw
  obtain ⟨l0, l1, l2, l3, l4, l5, l6, l7, l8, l9⟩ :=
    header_loads h (crc32_map (Codec.header_fields h) % 2 ^ 32) (base.drop 64) B hB.symm
  have hhead : Codec.header_fields h ++ Codec.be 4 (crc32_map (Codec.header_fields h) % 2 ^ 32)
      = Codec.HEADER_MAGIC ++ Codec.be 4 h.version ++ Codec.be 8 h.generation
        ++ Codec.be 8 h.num_records ++ Codec.be 8 h.repack_size
        ++ Codec.be 8 h.current_size ++ Codec.be 4 h.flags
        ++ Codec.be 4 (crc32_map (Codec.header_fields h) % 2 ^ 32) := rfl
  have h64 : (Codec.header_fields h
      ++ Codec.be 4 (crc32_map (Codec.header_fields h) % 2 ^ 32)).length = 64 := by
    simp only [List.length_append, hfl60, be_length]
  have at_ : ∀ (pre l rest : List Nat) (o : Nat), pre.length = o → B = pre ++ (l ++ rest) →
      (B.drop o).take l.length = l := by
    intro pre l rest o ho hb
    rw [hb]
    exact take_drop_at ho l rest
  refine ⟨B, hw, ?_, ?_, l0, ?_, ?_, ?_, ?_, ?_, ?_, ?_, ?_, ?_⟩
  · rw [l8, ← hhead, ← hB]
    exact List.take_left' h64
  · rw [List.length_take, l9]
    omega
  · have := at_ Codec.HEADER_MAGIC (Codec.be 4 h.version) (Codec.be 8 h.generation
        ++ Codec.be 8 h.num_records ++ Codec.be 8 h.repack_size
        ++ Codec.be 8 h.current_size ++ Codec.be 4 h.flags
        ++ Codec.be 4 (crc32_map (Codec.header_fields h) % 2 ^ 32) ++ base.drop 64) 20 hm
      (by rw [← hB]; unfold Codec.header_fields; simp only [List.append_assoc])
    rw [be_length] at this
    exact this
  · have := at_ (Codec.HEADER_MAGIC ++ Codec.be 4 h.version) (Codec.be 8 h.generation)
        (Codec.be 8 h.num_records ++ Codec.be 8 h.repack_size
        ++ Codec.be 8 h.current_size ++ Codec.be 4 h.flags
        ++ Codec.be 4 (crc32_map (Codec.header_fields h) % 2 ^ 32) ++ base.drop 64) 24
      (by simp only [List.length_append, be_length, hm])
      (by rw [← hB]; unfold Codec.header_fields; simp only [List.append_assoc])
    rw [be_length] at this
    exact this
  · have := at_ (Codec.HEADER_MAGIC ++ Codec.be 4 h.version ++ Codec.be 8 h.generation)
        (Codec.be 8 h.num_records) (Codec.be 8 h.repack_size
        ++ Codec.be 8 h.current_size ++ Codec.be 4 h.flags
        ++ Codec.be 4 (crc32_map (Codec.header_fields h) % 2 ^ 32) ++ base.drop 64) 32
      (by simp only [List.length_append, be_length, hm])
      (by rw [← hB]; unfold Codec.header_fields; simp only [List.append_assoc])
    rw [be_length] at this
    exact this
  · have := at_ (Codec.HEADER_MAGIC ++ Codec.be 4 h.version ++ Codec.be 8 h.generation
        ++ Codec.be 8 h.num_records) (Codec.be 8 h.repack_size)
        (Codec.be 8 h.current_size ++ Codec.be 4 h.flags
        ++ Codec.be 4 (crc32_map (Codec.header_fields h) % 2 ^ 32) ++ base.drop 64) 40
      (by simp only [List.length_append, be_length, hm])
      (by rw [← hB]; unfold Codec.header_fields; simp only [List.append_assoc])
    rw [be_length] at this
    exact this
  · have := at_ (Codec.HEADER_MAGIC ++ Codec.be 4 h.version ++ Codec.be 8 h.generation
        ++ Codec.be 8 h.num_records ++ Codec.be 8 h.repack_size) (Codec.be 8 h.current_size)
        (Codec.be 4 h.flags
        ++ Codec.be 4 (crc32_map (Codec.header_fields h) % 2 ^ 32) ++ base.drop 64) 48
      (by simp only [List.length_append, be_length, hm])
      (by rw [← hB]; unfold Codec.header_fields; simp only [List.append_assoc])
    rw [be_length] at this
    exact this
  · have := at_ (Codec.HEADER_MAGIC ++ Codec.be 4 h.version ++ Codec.be 8 h.generation
        ++ Codec.be 8 h.num_records ++ Codec.be 8 h.repack_size ++ Codec.be 8 h.current_size)
        (Codec.be 4 h.flags)
        (Codec.be 4 (crc32_map (Codec.header_fields h) % 2 ^ 32) ++ base.drop 64) 56
      (by simp only [List.length_append, be_length, hm])
      (by rw [← hB]; unfold Codec.header_fields; simp only [List.append_assoc])
    rw [be_length] at this
    exact this
  · have := at_ (Codec.header_fields h)
        (Codec.be 4 (crc32_map (Codec.header_fields h) % 2 ^ 32)) (base.drop 64) 60 hfl60
      (by rw [← hB]; simp only [List.append_assoc])
    rw [be_length] at this
    rw [l8]
    exact this
  · rw [← hB]
    exact List.drop_left' h64
  · unfold Codec.read_header
    have hv : h.version % 2 ^ 32 = h.version :=
      Nat.mod_eq_of_lt (by unfold VERSION at hver; omega)
    rw [if_neg (by rw [l9]; unfold HEADER_SIZE; omega), if_neg (by rw [l0]; exact fun h => h rfl)]
    simp only [l1, l2, l3, l4, l5, l6, l7, l8, hv, Nat.mod_eq_of_lt hg, Nat.mod_eq_of_lt hn,
      Nat.mod_eq_of_lt hr, Nat.mod_eq_of_lt hc, Nat.mod_eq_of_lt hfl, Nat.mod_mod]
    rw [if_neg (by omega), if_neg (by simp)]

/-- The header of a new database written to an empty file. -/
theorem header_round_trip_witness :
    ∃ base1, Codec.write_header Codec.sum_crc []
        { version := 1, generation := 1, repack_size := 336, current_size := 336 } = (0, base1) ∧
      base1.take 64 = Codec.HEADER_MAGIC ++ Codec.be 4 1 ++ Codec.be 8 1
        ++ Codec.be 8 0 ++ Codec.be 8 336 ++ Codec.be 8 336 ++ Codec.be 4 0
        ++ Codec.be 4 (Codec.sum_crc (base1.take 60) % 2 ^ 32) ∧
      (base1.take 64).length = 64 ∧ base1.take 20 = Codec.HEADER_MAGIC ∧
      (base1.drop 20).take 4 = Codec.be 4 1 ∧
      (base1.drop 24).take 8 = Codec.be 8 1 ∧
      (base1.drop 32).take 8 = Codec.be 8 0 ∧
      (base1.drop 40).take 8 = Codec.be 8 336 ∧
      (base1.drop 48).take 8 = Codec.be 8 336 ∧
      (base1.drop 56).take 4 = Codec.be 4 0 ∧
      (base1.drop 60).take 4 = Codec.be 4 (Codec.sum_crc (base1.take 60) % 2 ^ 32) ∧
      base1.drop 64 = ([] : List Nat).drop 64 ∧
      Codec.read_header Codec.sum_crc base1 {} 0
        = (0, { version := 1, generation := 1, repack_size := 336, current_size := 336 }, 336) :=
  header_round_trip Codec.sum_crc []
    { version := 1, generation := 1, repack_size := 336, current_size := 336 } {} 0
    (by decide) (by norm_num) (by norm_num) (by norm_num) (by norm_num) (by norm_num)

theorem getD_take_lt (l : List Nat) (n i : Nat) (h : i < n) :
    (l.take n).getD i 0 = l.getD i 0 := by
  rw [List.getD_eq_getElem?_getD, List.getD_eq_getElem?_getD, List.getElem?_take_of_lt h]

/-- C27: `read_header` returns `CYRUSDB_IOERROR` if the file is shorter than
64 bytes, if one of the first 20 bytes differs from the magic, if the version
field is greater than 1, or if the stored checksum differs from the checksum
of bytes 0..59; and whenever it returns an error it leaves `end` unchanged. -/
theorem read_header_rejects (crc32_map : List Nat → Nat) (base : List Nat) (h : db_header)
    (e : Nat) :
    (base.length < 64 → ∃ h1, Codec.read_header crc32_map base h e = (CYRUSDB_IOERROR, h1, e)) ∧
    ((∃ i, i < 20 ∧ base.getD i 0 ≠ Codec.HEADER_MAGIC.getD i 0) →
      ∃ h1, Codec.read_header crc32_map base h e = (CYRUSDB_IOERROR, h1, e)) ∧
    (1 < Codec.rd base 20 4 →
      ∃ h1, Codec.read_header crc32_map base h e = (CYRUSDB_IOERROR, h1, e)) ∧
    (crc32_map (base.take 60) % 2 ^ 32 ≠ Codec.rd base 60 4 →
      ∃ h1, Codec.read_header crc32_map base h e = (CYRUSDB_IOERROR, h1, e)) ∧
    (∀ r h1 e1, Codec.read_header crc32_map base h e = (r, h1, e1) → r ≠ 0 →
      r = CYRUSDB_IOERROR ∧ e1 = e) := by
  have key : ∀ (c1 : base.length < 64 ∨ base.take 20 ≠ Codec.HEADER_MAGIC ∨
      1 < Codec.rd base 20 4 ∨ crc32_map (base.take 60) % 2 ^ 32 ≠ Codec.rd base 60 4),
      ∃ h1, Codec.read_header crc32_map base h e = (CYRUSDB_IOERROR, h1, e) := by
    intro c
    unfold Codec.read_header
    by_cases h1 : base.length < HEADER_SIZE
    · rw [if_pos h1]; exact ⟨_, rfl⟩
    · rw [if_neg h1]
      by_cases h2 : base.take 20 ≠ Codec.HEADER_MAGIC
      · rw [if_pos h2]; exact ⟨_, rfl⟩
      · rw [if_neg h2]
        dsimp only
        by_cases h3 : Codec.rd base 20 4 > VERSION
        · rw [if_pos h3]; exact ⟨_, rfl⟩
        · rw [if_neg h3]
          by_cases h4 : crc32_map (base.take 60) % 2 ^ 32 ≠ Codec.rd base 60 4
          · rw [if_pos h4]; exact ⟨_, rfl⟩
          · exfalso
            unfold HEADER_SIZE at h1
            unfold VERSION at h3
            rcases c with c | c | c | c
            · exact h1 c
            · exact h2 c
            · exact h3 c
            · exact h4 c
  refine ⟨fun c => key (Or.inl c), ?_, fun c => key (Or.inr (Or.inr (Or.inl c))),
    fun c => key (Or.inr (Or.inr (Or.inr c))), ?_⟩
  · rintro ⟨i, hi, hne⟩
    refine key (Or.inr (Or.inl ?_))
    intro heq
    apply hne
    rw [← heq, getD_take_lt _ _ _ hi]
  · intro r h1 e1 hr hne
    unfold Codec.read_header at hr
    dsimp only at hr
    split_ifs at hr
    all_goals
      injection hr with hr1 hr2
      injection hr2 with hr2 hr3
      first
        | exact ⟨hr1.symm, hr3.symm⟩
        | exact absurd hr1.symm hne

/-- Four bad headers: a file too short, 64 zero bytes, the magic with
version 2, and the magic with version 1 and a checksum that does not match. -/
theorem read_header_rejects_witness :
    (∃ h1, Codec.read_header Codec.sum_crc [161, 2, 139] {} 7 = (CYRUSDB_IOERROR, h1, 7)) ∧
    (∃ h1, Codec.read_header Codec.sum_crc (List.replicate 64 0) {} 7
      = (CYRUSDB_IOERROR, h1, 7)) ∧
    (∃ h1, Codec.read_header Codec.sum_crc
        (Codec.HEADER_MAGIC ++ [0, 0, 0, 2] ++ List.replicate 40 0) {} 7
      = (CYRUSDB_IOERROR, h1, 7)) ∧
    (∃ h1, Codec.read_header Codec.sum_crc
        (Codec.HEADER_MAGIC ++ [0, 0, 0, 1] ++ List.replicate 40 0) {} 7
      = (CYRUSDB_IOERROR, h1, 7)) :=
  ⟨(read_header_rejects Codec.sum_crc [161, 2, 139] {} 7).1 (by decide),
   (read_header_rejects Codec.sum_crc (List.replicate 64 0) {} 7).2.1 ⟨0, by decide, by decide⟩,
   (read_header_rejects Codec.sum_crc
      (Codec.HEADER_MAGIC ++ [0, 0, 0, 2] ++ List.replicate 40 0) {} 7).2.2.1 (by decide),
   (read_header_rejects Codec.sum_crc
      (Codec.HEADER_MAGIC ++ [0, 0, 0, 1] ++ List.replicate 40 0) {} 7).2.2.2.1 (by decide)⟩

/-! ## A new database -/

theorem pwrite_empty (data : List Nat) (off : Nat) :
    Codec.pwrite [] data off = List.replicate off 0 ++ data := by
  unfold Codec.pwrite
  simp

/-- The bytes of a new database: `write_record` of the DUMMY after the
header location, then `write_header`. -/
theorem new_file_bytes (crc32_map : List Nat → Nat) :
    ∃ base1 rec1 base2 rec2,
      Codec.write_record crc32_map [] HEADER_SIZE { type := DUMMY, level := MAXLEVEL } [] []
        = some (0, base1, 336, rec1) ∧
      Codec.write_header crc32_map base1 new_header = (0, base2) ∧
      base2.length = 336 ∧
      Codec.read_header crc32_map base2 {} 0 = (0, new_header, 336) ∧
      (base2.drop 60).take 4 = Codec.be 4 (crc32_map (base2.take 60) % 2 ^ 32) ∧
      Codec.read_record crc32_map base2 64 = some (0, rec2) ∧
      rec2.len = 272 ∧ rec2.type = DUMMY ∧ rec2.level = MAXLEVEL ∧
      rec2.keylen = 0 ∧ rec2.vallen = 0 ∧ ∀ i, rec2.nextloc i = 0 := by
  obtain ⟨R, rec1, r1, r2, r3, r4, r5, r6, hw, q1, q2, q3, q4, _⟩ :=
    write_record_eq crc32_map [] HEADER_SIZE { type := DUMMY, level := MAXLEVEL } [] []
      rfl (le_refl _) rfl rfl (by norm_num)
  have r1 : R.type = DUMMY := r1
  have r2 : R.level = MAXLEVEL := r2
  have r3 : R.keylen = 0 := r3
  have r4 : R.vallen = 0 := r4
  have r5 : R.nextloc = fun _ => 0 := r5
  have hkv : Codec.keyval [] [] = [] := rfl
  have hh : (Codec.head R).length = 264 := by
    rw [head_length_eq, r2, r3, r4]
    rfl
  have hlen : rec1.len = 272 := by
    rw [q2, hh]
    rfl
  rw [hlen, hkv, pwrite_empty, List.append_nil] at hw
  generalize hD : Codec.head R ++ Codec.be 4 (crc32_map (Codec.head R) % 2 ^ 32)
      ++ Codec.be 4 R.crc32_tail = D at hw
  have hDl : D.length = 272 := by
    rw [← hD]
    simp only [List.length_append, be_length, hh]
  obtain ⟨base2, hwh, _, _, h20, _, _, _, _, _, _, hcrc, hdrop, hrh⟩ :=
    header_round_trip crc32_map (List.replicate HEADER_SIZE 0 ++ D) new_header {} 0
      (le_refl _) (by norm_num [new_header]) (by norm_num [new_header])
      (by norm_num [new_header]) (by norm_num [new_header]) (by norm_num [new_header])
  have hd2 : base2.drop 64 = D := by
    rw [hdrop]
    exact List.drop_left' (by simp [HEADER_SIZE])
  have hl20 : (base2.take 20).length = 20 := by rw [h20]; rfl
  have hlen2 : 20 ≤ base2.length := by
    rw [List.length_take] at hl20
    omega
  have hB : base2 = base2.take 64 ++ (Codec.head R ++
      Codec.be 4 (crc32_map (Codec.head R) % 2 ^ 32) ++ Codec.be 4 R.crc32_tail ++ [] ++ []) := by
    rw [List.append_nil, List.append_nil, hD, ← hd2, List.take_append_drop]
  have hb2 : base2.length = 336 := by
    have := congrArg List.length hdrop
    rw [List.length_drop, List.length_drop, List.length_append, List.length_replicate, hDl] at this
    unfold HEADER_SIZE at this
    have h3 : 64 ≤ base2.length := by
      by_contra hc
      have : (base2.drop 64).length = 0 := by rw [List.length_drop]; omega
      rw [hd2, hDl] at this
      omega
    omega
  have ht64 : (base2.take 64).length = 64 := by
    rw [List.length_take]; omega
  have hrb := read_back crc32_map R (base2.take 64) [] [] (by rw [r1]; decide)
    (by rw [r2]) (by rw [r3]; norm_num) (by rw [r4]; norm_num)
    (by rw [r6]; exact Nat.mod_lt _ (by norm_num))
    (by rw [r3, r4]; rfl) (by rw [ht64, hh]; norm_num) (by rw [ht64, hh, r3]; norm_num)
  rw [← hB, ht64] at hrb
  refine ⟨_, rec1, base2, _, hw, hwh, hb2, hrh, hcrc, hrb, ?_, ?_, ?_, ?_, ?_, ?_⟩
  · dsimp only [Codec.decoded]
    rw [hh]
    rfl
  · dsimp only [Codec.decoded]
    exact r1
  · dsimp only [Codec.decoded]
    exact r2
  · dsimp only [Codec.decoded]
    exact r3
  · dsimp only [Codec.decoded]
    exact r4
  · intro i
    dsimp only [Codec.decoded]
    rw [r5]
    split <;> rfl

/-- C28: creating a database on an empty file gives exactly 336 bytes: a
header of 64 bytes with version 1, generation 1, num_records 0, repack_size
and current_size 336, flags 0 and a valid checksum, followed at offset 64 by
a DUMMY record of 272 bytes of type `=`, level 31, key and value length 0 and
all pointers zero; the database is clean and the consistency check passes. -/
theorem create_database (E : Env) (hc : CompareLaws E.compar) (C : Ctx) (flags : Nat)
    (src : Nat → Bool) (crc32_map : List Nat → Nat) :
    (∃ db dummy, opendb C {} flags src = some (0, db) ∧
      db.mf.size = 336 ∧
      db.mf.header = { version := 1, generation := 1, num_records := 0, repack_size := 336,
                       current_size := 336, flags := 0 } ∧
      db.mf.recs = [dummy] ∧ dummy.offset = 64 ∧ dummy.len = 272 ∧ dummy.type = 61 ∧
      dummy.level = 31 ∧ dummy.keylen = 0 ∧ dummy.vallen = 0 ∧ (∀ i, dummy.nextloc i = 0) ∧
      db_is_clean db = true ∧ myconsistent E db none = some 0) ∧
    (∃ base1 rec1 base2 rec2,
      Codec.write_record crc32_map [] HEADER_SIZE { type := DUMMY, level := MAXLEVEL } [] []
        = some (0, base1, 336, rec1) ∧
      Codec.write_header crc32_map base1
        { version := 1, generation := 1, num_records := 0, repack_size := 336,
          current_size := 336, flags := 0 } = (0, base2) ∧
      base2.length = 336 ∧
      Codec.read_header crc32_map base2 {} 0
        = (0, { version := 1, generation := 1, num_records := 0, repack_size := 336,
                current_size := 336, flags := 0 }, 336) ∧
      (base2.drop 60).take 4 = Codec.be 4 (crc32_map (base2.take 60) % 2 ^ 32) ∧
      Codec.read_record crc32_map base2 64 = some (0, rec2) ∧
      rec2.len = 272 ∧ rec2.type = 61 ∧ rec2.level = 31 ∧
      rec2.keylen = 0 ∧ rec2.vallen = 0 ∧ ∀ i, rec2.nextloc i = 0) := by
  refine ⟨⟨new_db flags src, new_dummy, opendb_new C flags src, rfl, rfl, rfl, rfl, rfl, rfl,
    rfl, rfl, rfl, ?_, ?_, ?_⟩, new_file_bytes crc32_map⟩
  · intro i
    show diskptrs MAXLEVEL (fun _ => 0) i = 0
    unfold diskptrs
    split <;> rfl
  · simp [db_is_clean, new_db, new_header, _size, DIRTY]
  · exact myconsistent_ok hc ((idle_new E flags src).file.congr rfl rfl) none rfl

/-- A new database under the byte order `bsearch_ncompare_raw` and the
stand-in checksum. -/
theorem create_database_witness :
    (∃ db dummy, opendb (ctx raw_env 1) {} 0 (fun _ => false) = some (0, db) ∧
      db.mf.size = 336 ∧
      db.mf.header = { version := 1, generation := 1, num_records := 0, repack_size := 336,
                       current_size := 336, flags := 0 } ∧
      db.mf.recs = [dummy] ∧ dummy.offset = 64 ∧ dummy.len = 272 ∧ dummy.type = 61 ∧
      dummy.level = 31 ∧ dummy.keylen = 0 ∧ dummy.vallen = 0 ∧ (∀ i, dummy.nextloc i = 0) ∧
      db_is_clean db = true ∧ myconsistent raw_env db none = some 0) ∧
    (∃ base1 rec1 base2 rec2,
      Codec.write_record Codec.sum_crc [] HEADER_SIZE { type := DUMMY, level := MAXLEVEL } [] []
        = some (0, base1, 336, rec1) ∧
      Codec.write_header Codec.sum_crc base1
        { version := 1, generation := 1, num_records := 0, repack_size := 336,
          current_size := 336, flags := 0 } = (0, base2) ∧
      base2.length = 336 ∧
      Codec.read_header Codec.sum_crc base2 {} 0
        = (0, { version := 1, generation := 1, num_records := 0, repack_size := 336,
                current_size := 336, flags := 0 }, 336) ∧
      (base2.drop 60).take 4 = Codec.be 4 (Codec.sum_crc (base2.take 60) % 2 ^ 32) ∧
      Codec.read_record Codec.sum_crc base2 64 = some (0, rec2) ∧
      rec2.len = 272 ∧ rec2.type = 61 ∧ rec2.level = 31 ∧
      rec2.keylen = 0 ∧ rec2.vallen = 0 ∧ ∀ i, rec2.nextloc i = 0) :=
  create_database raw_env raw_laws (ctx raw_env 1) 0 (fun _ => false) Codec.sum_crc

/-! ## What a transaction keeps of the committed file -/

theorem Keeps.refl {cs : Nat} {d : skiprecord} (h : Dual cs d) : Keeps cs d d :=
  ⟨rfl, rfl, rfl, rfl, rfl, rfl, rfl, rfl, rfl, fun _ => rfl, h⟩

theorem Keeps.trans {cs : Nat} {a b c : skiprecord} (h1 : Keeps cs a b) (h2 : Keeps cs b c) :
    Keeps cs a c :=
  ⟨h2.offset.trans h1.offset, h2.type.trans h1.type, h2.level.trans h1.level,
    h2.keylen.trans h1.keylen, h2.vallen.trans h1.vallen, h2.key.trans h1.key,
    h2.val.trans h1.val, h2.len.trans h1.len, h2.zero.trans h1.zero,
    fun hl => by
      have e1 := h1.flat hl
      have e2 := h2.flat (by rw [e1]; exact hl)
      rw [e2, e1],
    h2.dual⟩

theorem since_refl {cs : Nat} {R0 : List skiprecord} (chain : List node)
    (h : ∀ d ∈ R0, Dual cs d) : Since cs R0 R0 chain :=
  ⟨fun d0 hd => ⟨d0, hd, Keeps.refl (h d0 hd), Or.inl rfl⟩, fun d hd => Or.inr ⟨d, hd, rfl⟩⟩

/-- One write of a transaction keeps the committed file. -/
theorem since_step {cs : Nat} {R0 : List skiprecord} {db db1 : dbengine}
    {live0 live live1 : List node}
    (hs : Since cs R0 db.mf.recs (dummyNode :: live0))
    (hd : ∀ d ∈ db.mf.recs, Dual cs d)
    (hn : ∀ n ∈ live, n ∈ live0 ∨ cs ≤ n.offset)
    (h0 : ∀ d0 ∈ R0, d0.offset < cs) (hcs : cs ≤ db.end_)
    (st : Step cs db db1 live live1) :
    Since cs R0 db1.mf.recs (dummyNode :: live0) ∧
    (∀ n ∈ live1, n ∈ live0 ∨ cs ≤ n.offset) := by
  obtain ⟨f, D, hr, hDo, _, hDd, hk, hf, hl⟩ := st
  refine ⟨⟨?_, ?_⟩, ?_⟩
  · intro d0 hd0
    obtain ⟨d, hdm, hkd, hwho⟩ := hs.keeps d0 hd0
    have hk1 := hk d (hd d hdm)
    refine ⟨f d, ?_, hkd.trans hk1, ?_⟩
    · rw [hr]
      exact List.mem_map_of_mem _ (List.mem_append_left _ hdm)
    · rcases hf d with e | ⟨n, hnm, hno⟩
      · rcases hwho with e1 | e1
        · left; rw [e, e1]
        · exact Or.inr e1
      · right
        rcases List.mem_cons.1 hnm with e1 | e1
        · exact ⟨dummyNode, List.mem_cons_self _ _, by rw [← e1, hno, hkd.offset]⟩
        · rcases hn n e1 with e2 | e2
          · exact ⟨n, List.mem_cons_of_mem _ e2, by rw [hno, hkd.offset]⟩
          · exfalso
            have := h0 d0 hd0
            have := hkd.offset
            omega
  · intro d1 hd1
    rw [hr] at hd1
    obtain ⟨d, hdm, e⟩ := List.mem_map.1 hd1
    rcases List.mem_append.1 hdm with h1 | h1
    · have ho := (hk d (hd d h1)).offset
      rcases hs.rest d h1 with h2 | ⟨d0, h2, h3⟩
      · left; rw [← e, ho]; exact h2
      · right; exact ⟨d0, h2, by rw [← e, ho, h3]⟩
    · simp only [List.mem_singleton] at h1
      have ho := (hk D hDd).offset
      left
      rw [← e, h1, ho, hDo]
      exact hcs
  · intro n hnm
    rcases hl n hnm with e | e
    · exact hn n e
    · right; rw [e]; exact hcs

/-- A sequence of writes in a transaction keeps the committed file, and the
record count follows the live records. -/
theorem run_writes_since {E : Env} (hc : CompareLaws E.compar) {cs : Nat}
    {R0 : List skiprecord} {live0 : List node} (h0 : ∀ d0 ∈ R0, d0.offset < cs)
    (ops : List write_op) :
    ∀ {db : dbengine} {live : List node}, InTxn E db live → Held db →
      db.header.current_size = cs →
      Since cs R0 db.mf.recs (dummyNode :: live0) →
      (∀ n ∈ live, n ∈ live0 ∨ cs ≤ n.offset) →
      (∀ op ∈ ops, op.key ≠ []) → (run_writes E ops db).isSome = true →
      ∃ db1 live1, run_writes E ops db = some db1 ∧ InTxn E db1 live1 ∧ Held db1 ∧
        TxnFrame db db1 ∧ Since cs R0 db1.mf.recs (dummyNode :: live0) ∧
        (∀ n ∈ live1, n ∈ live0 ∨ cs ≤ n.offset) ∧
        (∀ k, lookup live1 k = ops.foldl map_write (lookup live) k) ∧
        (db.header.num_records = live.length % 2 ^ 64 →
          db1.header.num_records = live1.length % 2 ^ 64) ∧
        ((db1.mf = db.mf ∧ db1.end_ = db.end_ ∧ db1.header = db.header ∧ live1 = live) ∨
          (db1.header.flags &&& DIRTY ≠ 0 ∧ db.end_ < db1.end_)) := by
  induction ops with
  | nil =>
    intro db live h hh _ hs hn _ _
    exact ⟨db, live, rfl, h, hh, ⟨rfl, rfl, rfl, rfl, rfl, rfl, rfl, rfl, Nat.le_refl _⟩, hs, hn,
      fun _ => rfl, fun e => e, Or.inl ⟨rfl, rfl, rfl, rfl⟩⟩
  | cons op rest ih =>
    intro db live h hh hcs hs hn hk hsome
    obtain ⟨r, db1, live1, h1, _, h3, h4, h5, h6, _, h8, h9⟩ :=
      skipwrite_ok hc h (hk op (List.mem_cons_self _ _)) op.data op.force
    simp only [run_writes, h1] at hsome ⊢
    by_cases hr : r = 0
    · rw [if_pos hr] at hsome ⊢
      have hh1 : Held db1 := by
        refine ⟨h5.is_open.trans hh.is_open, h5.lock.trans hh.lock, ?_, ?_, ?_⟩
        · rw [h5.version]; exact hh.version
        · intro _; exact Nat.le_of_eq h8
        · intro hd
          rcases h6 with ⟨e1, e2, e3, _⟩ | ⟨e1, _⟩
          · rw [e1, e2, e3]
            exact hh.clean (e3 ▸ hd)
          · exact absurd hd e1
      have hs1 : Since cs R0 db1.mf.recs (dummyNode :: live0) ∧
          (∀ n ∈ live1, n ∈ live0 ∨ cs ≤ n.offset) := by
        rcases h6 with ⟨e1, _, _, e4⟩ | ⟨_, _, st⟩
        · rw [e1, e4]; exact ⟨hs, hn⟩
        · rw [hcs] at st
          exact since_step hs (hcs ▸ h.dual) hn h0 (hcs ▸ h.cs_le) st
      obtain ⟨db2, live2, g1, g2, g3, g4, g5, g6, g7, g8, g9⟩ :=
        ih h3 hh1 (h5.cs.trans hcs) hs1.1 hs1.2 (fun o ho => hk o (List.mem_cons_of_mem _ ho))
          hsome
      refine ⟨db2, live2, g1, g2, g3, ?_, g5, g6, ?_, fun e => g8 (h9 e), ?_⟩
      · exact ⟨g4.txn.trans h5.txn, g4.is_open.trans h5.is_open,
          g4.open_flags.trans h5.open_flags, g4.txn_num.trans h5.txn_num,
          g4.lock.trans h5.lock, g4.cs.trans h5.cs, g4.version.trans h5.version,
          g4.generation.trans h5.generation, Nat.le_trans h5.end_le g4.end_le⟩
      · intro k
        have e : lookup live1 = map_write (lookup live) op := by
          funext k1
          rw [h4 k1]
          unfold map_write
          by_cases hk1 : k1 = op.key
          · rw [if_pos ⟨hr, hk1⟩, if_pos hk1]
          · rw [if_neg (fun hh => hk1 hh.2), if_neg hk1]
        rw [g7 k, e]
        rfl
      · rcases g9 with ⟨e1, e2, e3, e4⟩ | ⟨e1, e2⟩
        · rcases h6 with ⟨f1, f2, f3, f4⟩ | ⟨f1, f2, _⟩
          · left
            exact ⟨e1.trans f1, e2.trans f2, e3.trans f3, e4.trans f4⟩
          · right
            rw [e3, e2]
            exact ⟨f1, f2⟩
        · right
          exact ⟨e1, Nat.lt_of_le_of_lt h5.end_le e2⟩
    · rw [if_neg hr] at hsome
      cases hsome

/-! ## The level zero chain as `recovery1` walks it -/

/-- The chain of a file is walked from its first node. -/
theorem raw_of_linked {mf : mappedfile} (hm : MfOK mf) :
    ∀ rest : List node, Linked mf.recs rest → (∀ n ∈ rest, 1 ≤ n.level) →
      ∃ k, Raw mf.recs (nextAt 0 rest) rest k := by
  intro rest
  induction rest with
  | nil => intro _ _; exact ⟨0, Raw.done⟩
  | cons m rest ih =>
    intro hl hpos
    obtain ⟨k, hk⟩ := ih hl.2 (fun n hn => hpos n (List.mem_cons_of_mem _ hn))
    obtain ⟨d, hd, h1, h2, h3, h4, h5, h6, _⟩ := hl.1
    have hd0 : m.offset ≠ 0 := by
      have := (hm.bound d hd).1
      unfold HEADER_SIZE at this
      omega
    rw [nextAt_zero_cons rest (hpos m (List.mem_cons_self _ _))]
    rcases h6 with ⟨hz, ht⟩ | ⟨e, he, heo, hene, hty⟩
    · rw [ht, ← hz] at hk
      exact ⟨k + 1, Raw.node _ d m rest k hd h1 hd0 h5 ⟨h1, h2, h3, h4⟩ hk⟩
    · rcases hty with ⟨hdel, ht⟩ | ⟨hnd, ht⟩
      · rw [ht] at hk
        have h7 : Raw mf.recs (max (d.nextloc 0) (d.nextloc 1)) rest (k + 1) :=
          Raw.hop _ e rest k he heo (heo ▸ hene) hdel hk
        exact ⟨k + 1 + 1, Raw.node _ d m rest (k + 1) hd h1 hd0 h5 ⟨h1, h2, h3, h4⟩ h7⟩
      · rw [ht, heo] at hk
        exact ⟨k + 1, Raw.node _ d m rest k hd h1 hd0 h5 ⟨h1, h2, h3, h4⟩ hk⟩

/-- The walk from an offset is determined by the file. -/
theorem raw_det {mf : mappedfile} (hm : MfOK mf) {o : Nat} {S : List node} {k : Nat}
    (h1 : Raw mf.recs o S k) : ∀ {S1 : List node} {k1 : Nat}, Raw mf.recs o S1 k1 → k = k1 := by
  induction h1 with
  | done =>
    intro S1 k1 h2
    cases h2 with
    | done => rfl
    | hop _ e _ _ _ _ h0 _ _ => exact absurd rfl h0
    | node _ d _ _ _ _ _ h0 _ _ _ => exact absurd rfl h0
  | hop o e S k he heo h0 hty _ ih =>
    intro S1 k1 h2
    cases h2 with
    | done => exact absurd rfl h0
    | hop _ e1 _ k2 he1 heo1 _ _ hr =>
      have : e1 = e := mem_offset_inj hm he1 he (heo1.trans heo.symm)
      subst this
      rw [ih hr]
    | node _ d1 _ _ k2 hd1 hdo1 _ hty1 _ _ =>
      have : d1 = e := mem_offset_inj hm hd1 he (hdo1.trans heo.symm)
      subst this
      exact absurd hty hty1
  | node o d n S k hd hdo h0 hty _ _ ih =>
    intro S1 k1 h2
    cases h2 with
    | done => exact absurd rfl h0
    | hop _ e1 _ k2 he1 heo1 _ hty1 _ =>
      have : e1 = d := mem_offset_inj hm he1 hd (heo1.trans hdo.symm)
      subst this
      exact absurd hty1 hty
    | node _ d1 _ _ k2 hd1 hdo1 _ _ _ hr =>
      have : d1 = d := mem_offset_inj hm hd1 hd (hdo1.trans hdo.symm)
      subst this
      rw [ih hr]

/-- The offsets a walk visits: as many as its length, all different, all of
records of the file. -/
theorem raw_offsets {mf : mappedfile} (hm : MfOK mf) {o : Nat} {S : List node} {k : Nat}
    (h : Raw mf.recs o S k) :
    ∃ vs : List Nat, vs.length = k ∧ vs.Nodup ∧ (∀ v ∈ vs, v ∈ mf.recs.map skiprecord.offset) ∧
      ∀ v ∈ vs, ∃ S1 k1, Raw mf.recs v S1 k1 ∧ k1 ≤ k := by
  induction h with
  | done => exact ⟨[], rfl, List.nodup_nil, by simp, by simp⟩
  | hop o e S k he heo h0 hty hr ih =>
    obtain ⟨vs, h1, h2, h3, h4⟩ := ih
    have hme : Raw mf.recs o S (k + 1) := Raw.hop o e S k he heo h0 hty hr
    refine ⟨o :: vs, by simp [h1], ?_, ?_, ?_⟩
    · rw [List.nodup_cons]
      refine ⟨?_, h2⟩
      intro hmem
      obtain ⟨S1, k1, g1, g2⟩ := h4 o hmem
      have := raw_det hm hme g1
      omega
    · intro v hv
      rcases List.mem_cons.1 hv with e1 | e1
      · rw [e1, ← heo]; exact List.mem_map_of_mem _ he
      · exact h3 v e1
    · intro v hv
      rcases List.mem_cons.1 hv with e1 | e1
      · rw [e1]; exact ⟨S, k + 1, hme, le_refl _⟩
      · obtain ⟨S1, k1, g1, g2⟩ := h4 v e1
        exact ⟨S1, k1, g1, by omega⟩
  | node o d n S k hd hdo h0 hty hrec hr ih =>
    obtain ⟨vs, h1, h2, h3, h4⟩ := ih
    have hme : Raw mf.recs o (n :: S) (k + 1) := Raw.node o d n S k hd hdo h0 hty hrec hr
    refine ⟨o :: vs, by simp [h1], ?_, ?_, ?_⟩
    · rw [List.nodup_cons]
      refine ⟨?_, h2⟩
      intro hmem
      obtain ⟨S1, k1, g1, g2⟩ := h4 o hmem
      have := raw_det hm hme g1
      omega
    · intro v hv
      rcases List.mem_cons.1 hv with e1 | e1
      · rw [e1, ← hdo]; exact List.mem_map_of_mem _ hd
      · exact h3 v e1
    · intro v hv
      rcases List.mem_cons.1 hv with e1 | e1
      · rw [e1]; exact ⟨n :: S, k + 1, hme, le_refl _⟩
      · obtain ⟨S1, k1, g1, g2⟩ := h4 v e1
        exact ⟨S1, k1, g1, by omega⟩

/-- A walk visits no more records than the file has. -/
theorem raw_le {mf : mappedfile} (hm : MfOK mf) {o : Nat} {S : List node} {k : Nat}
    (h : Raw mf.recs o S k) : k ≤ mf.recs.length := by
  obtain ⟨vs, h1, h2, h3, _⟩ := raw_offsets hm h
  have := (List.subperm_of_subset h2 h3).length_le
  rw [h1, List.length_map] at this
  exact this

/-! ## The loops of `recovery1` -/

theorem with_nextloc_congr (e : skiprecord) {f g : Nat → Nat} (h : ∀ j, f j = g j) :
    ({ e with nextloc := f } : skiprecord) = { e with nextloc := g } := by
  rw [funext h]

theorem rewrite_poke {db : dbengine} (hm : MfOK db.mf) (hd : db.header.flags &&& DIRTY ≠ 0)
    {d : skiprecord} (hmem : d ∈ db.mf.recs) {j : Nat} (hj : j ≤ d.level) (v : Nat) :
    rewrite_record db { d with nextloc := Function.update d.nextloc j v }
      = some (0, poke db d.offset j v) := by
  have hN := hm.norm d hmem
  have hb := hm.bound d hmem
  rw [rewrite_record_ok hd (by show d.offset ≠ 0; unfold HEADER_SIZE at hb; omega)
    (by exact hN.level_le)
    (by
      show d.offset + (headlen d.keylen d.vallen + 8 * (1 + d.level) + 8) ≤ db.mf.size
      have h1 := hb.2
      rw [hN.len_eq] at h1
      unfold reclen at h1
      omega)]
  unfold poke
  dsimp only
  refine congrArg (fun l => some ((0 : Int),
    ({ db with mf := { db.mf with recs := l } } : dbengine))) ?_
  apply List.map_congr_left
  intro e he
  dsimp only
  by_cases heo : e.offset = d.offset
  · rw [if_pos heo, if_pos heo]
    have : e = d := mem_offset_inj hm he hmem heo
    subst this
    have hfun : diskptrs e.level (Function.update e.nextloc j v) = Function.update e.nextloc j v := by
      funext i
      unfold diskptrs
      by_cases hi : i ≤ e.level
      · rw [if_pos hi]
      · rw [if_neg hi, Function.update_apply, if_neg (by omega), hN.ptrs i (by omega)]
    rw [hfun]
  · rw [if_neg heo, if_neg heo]

theorem poke_mfok {db : dbengine} (hm : MfOK db.mf) {off j : Nat} (v : Nat)
    (hl : ∀ d ∈ db.mf.recs, d.offset = off → j ≤ d.level) : MfOK (poke db off j v).mf := by
  refine ⟨?_, ?_, ?_⟩
  · show ((db.mf.recs.map _).map skiprecord.offset).Nodup
    rw [List.map_map]
    have : (skiprecord.offset ∘ fun d : skiprecord =>
        if d.offset = off then { d with nextloc := Function.update d.nextloc j v } else d)
        = skiprecord.offset := by
      funext d
      simp only [Function.comp]
      split <;> rfl
    rw [this]
    exact hm.nodup
  · intro d1 hd1
    obtain ⟨d, hd, rfl⟩ := List.mem_map.1 hd1
    have hN := hm.norm d hd
    by_cases h : d.offset = off
    · rw [if_pos h]
      refine ⟨hN.level_le, hN.len_eq, hN.keylen_eq, hN.vallen_eq, hN.keyoffset_eq,
        hN.valoffset_eq, ?_⟩
      intro i hi
      show Function.update d.nextloc j v i = 0
      have := hl d hd h
      rw [Function.update_apply, if_neg (by dsimp only at hi; omega)]
      exact hN.ptrs i hi
    · rw [if_neg h]; exact hN
  · intro d1 hd1
    obtain ⟨d, hd, rfl⟩ := List.mem_map.1 hd1
    have hb := hm.bound d hd
    by_cases h : d.offset = off
    · rw [if_pos h]; exact hb
    · rw [if_neg h]; exact hb

theorem setrecs_self (db : dbengine) : setrecs db db.mf.recs = db := rfl

theorem setrecs_setrecs (db : dbengine) (R R1 : List skiprecord) :
    setrecs (setrecs db R) R1 = setrecs db R1 := rfl

theorem poke_eq (db : dbengine) (off j v : Nat) :
    poke db off j v = setrecs db (db.mf.recs.map (fun d =>
      if d.offset = off then { d with nextloc := Function.update d.nextloc j v } else d)) := rfl

theorem fix_rec_zero (ro : Nat) (prev next : Nat → Nat) (lo : Nat) (e : skiprecord) :
    fix_rec ro prev next lo 0 e = e := by
  unfold fix_rec
  have : (fun j => if lo ≤ j ∧ j < lo + 0 ∧ prev j = e.offset ∧ next j ≠ ro then ro
      else e.nextloc j) = e.nextloc := by
    funext j
    rw [if_neg (by omega)]
  rw [this]

theorem fix_rec_succ (ro : Nat) (prev next : Nat → Nat) (lo cnt : Nat) (v w : Nat)
    (e : skiprecord) :
    fix_rec ro (Function.update prev lo v) (Function.update next lo w) (lo + 1) cnt
      (if next lo ≠ ro then
        (if e.offset = prev lo then { e with nextloc := Function.update e.nextloc lo ro } else e)
       else e)
    = fix_rec ro prev next lo (cnt + 1) e := by
  have hoff : (if next lo ≠ ro then
        (if e.offset = prev lo then { e with nextloc := Function.update e.nextloc lo ro } else e)
       else e) = { e with nextloc := fun j =>
          if j = lo ∧ prev lo = e.offset ∧ next lo ≠ ro then ro else e.nextloc j } := by
    by_cases h1 : next lo ≠ ro
    · rw [if_pos h1]
      by_cases h2 : e.offset = prev lo
      · rw [if_pos h2]
        apply with_nextloc_congr
        intro j
        rw [Function.update_apply]
        by_cases hj : j = lo
        · rw [if_pos hj, if_pos ⟨hj, h2.symm, h1⟩]
        · rw [if_neg hj, if_neg (fun h => hj h.1)]
      · rw [if_neg h2]
        show ({ e with nextloc := e.nextloc } : skiprecord) = _
        apply with_nextloc_congr
        intro j
        rw [if_neg (fun h => h2 h.2.1.symm)]
    · rw [if_neg h1]
      show ({ e with nextloc := e.nextloc } : skiprecord) = _
      apply with_nextloc_congr
      intro j
      rw [if_neg (fun h => h1 h.2.2)]
  rw [hoff]
  unfold fix_rec
  apply with_nextloc_congr
  intro j
  dsimp only
  by_cases hj : j = lo
  · subst hj
    rw [if_neg (by omega)]
    by_cases hc : prev j = e.offset ∧ next j ≠ ro
    · rw [if_pos ⟨rfl, hc⟩, if_pos ⟨le_refl _, by omega, hc⟩]
    · rw [if_neg (fun h => hc h.2), if_neg (fun h => hc h.2.2)]
  · have hin : (if j = lo ∧ prev lo = e.offset ∧ next lo ≠ ro then ro else e.nextloc j)
        = e.nextloc j := if_neg (fun h => hj h.1)
    rw [hin, Function.update_apply, Function.update_apply, if_neg hj, if_neg hj]
    by_cases hc : lo + 1 ≤ j ∧ j < lo + 1 + cnt ∧ prev j = e.offset ∧ next j ≠ ro
    · rw [if_pos hc, if_pos ⟨by omega, by omega, hc.2.2⟩]
    · rw [if_neg hc, if_neg]
      intro h
      exact hc ⟨by omega, by omega, h.2.2⟩

theorem setrecs_mfok {db : dbengine} (hm : MfOK db.mf) (f : skiprecord → skiprecord)
    (ho : ∀ d ∈ db.mf.recs, (f d).offset = d.offset ∧ (f d).len = d.len ∧ Norm (f d)) :
    MfOK (setrecs db (db.mf.recs.map f)).mf := by
  refine ⟨?_, ?_, ?_⟩
  · show ((db.mf.recs.map f).map skiprecord.offset).Nodup
    have : (db.mf.recs.map f).map skiprecord.offset = db.mf.recs.map skiprecord.offset := by
      rw [List.map_map]
      apply List.map_congr_left
      intro d hd
      exact (ho d hd).1
    rw [this]
    exact hm.nodup
  · intro d1 hd1
    obtain ⟨d, hd, rfl⟩ := List.mem_map.1 hd1
    exact (ho d hd).2.2
  · intro d1 hd1
    obtain ⟨d, hd, rfl⟩ := List.mem_map.1 hd1
    rw [(ho d hd).1, (ho d hd).2.1]
    exact hm.bound d hd

/-- The loop that fixes the pointers to the record visited: every write goes
through, and the file is the old one with `fix_rec` on each record. -/
theorem fix_ok (record : skiprecord) :
    ∀ (cnt lo : Nat) (db : dbengine) (prev next : Nat → Nat), MfOK db.mf →
      db.header.flags &&& DIRTY ≠ 0 →
      (∀ j, lo ≤ j → j < lo + cnt → next j ≠ record.offset →
        ∃ e ∈ db.mf.recs, e.offset = prev j ∧ j ≤ e.level) →
      recovery1_fix record cnt lo db prev next
        = some (0, setrecs db (db.mf.recs.map (fix_rec record.offset prev next lo cnt)),
            (fun j => if lo ≤ j ∧ j < lo + cnt then record.offset else prev j),
            (fun j => if lo ≤ j ∧ j < lo + cnt then record.nextloc j else next j)) := by
  intro cnt
  induction cnt with
  | zero =>
    intro lo db prev next _ _ _
    unfold recovery1_fix
    have e1 : db.mf.recs.map (fix_rec record.offset prev next lo 0) = db.mf.recs := by
      conv_rhs => rw [← List.map_id db.mf.recs]
      apply List.map_congr_left
      intro e _
      rw [fix_rec_zero]; rfl
    have e2 : (fun j => if lo ≤ j ∧ j < lo + 0 then record.offset else prev j) = prev := by
      funext j; rw [if_neg (by omega)]
    have e3 : (fun j => if lo ≤ j ∧ j < lo + 0 then record.nextloc j else next j) = next := by
      funext j; rw [if_neg (by omega)]
    rw [e1, e2, e3, setrecs_self]
  | succ cnt ih =>
    intro lo db prev next hm hd hfix
    have hp : (fun j => if lo + 1 ≤ j ∧ j < lo + 1 + cnt then record.offset
          else Function.update prev lo record.offset j)
        = (fun j => if lo ≤ j ∧ j < lo + (cnt + 1) then record.offset else prev j) := by
      funext j
      rw [Function.update_apply]
      by_cases hj : j = lo
      · subst hj
        rw [if_neg (by omega), if_pos rfl, if_pos (by omega)]
      · rw [if_neg hj]
        by_cases hc : lo + 1 ≤ j ∧ j < lo + 1 + cnt
        · rw [if_pos hc, if_pos (by omega)]
        · rw [if_neg hc, if_neg (by omega)]
    have hn : (fun j => if lo + 1 ≤ j ∧ j < lo + 1 + cnt then record.nextloc j
          else Function.update next lo (record.nextloc lo) j)
        = (fun j => if lo ≤ j ∧ j < lo + (cnt + 1) then record.nextloc j else next j) := by
      funext j
      rw [Function.update_apply]
      by_cases hj : j = lo
      · subst hj
        rw [if_neg (by omega), if_pos rfl, if_pos (by omega)]
      · rw [if_neg hj]
        by_cases hc : lo + 1 ≤ j ∧ j < lo + 1 + cnt
        · rw [if_pos hc, if_pos (by omega)]
        · rw [if_neg hc, if_neg (by omega)]
    unfold recovery1_fix
    dsimp only
    by_cases h1 : next lo ≠ record.offset
    · rw [if_pos h1]
      obtain ⟨e, he, heo, hel⟩ := hfix lo (le_refl _) (by omega) h1
      rw [← heo, read_record_of_mem hm he]
      dsimp only
      rw [if_neg (by simp), rewrite_poke hm hd he hel record.offset]
      dsimp only
      rw [if_neg (by simp)]
      have hm1 : MfOK (poke db e.offset lo record.offset).mf :=
        poke_mfok hm _ (fun d hd1 ho => by
          have := mem_offset_inj hm hd1 he ho
          rw [this]; exact hel)
      rw [ih (lo + 1) (poke db e.offset lo record.offset) _ _ hm1 hd ?_]
      · rw [hp, hn, poke_eq, setrecs_setrecs]
        have : (setrecs db (db.mf.recs.map fun d => if d.offset = e.offset then
            { d with nextloc := Function.update d.nextloc lo record.offset } else d)).mf.recs
            = db.mf.recs.map fun d => if d.offset = e.offset then
            { d with nextloc := Function.update d.nextloc lo record.offset } else d := rfl
        rw [this, List.map_map]
        congr 4
        apply List.map_congr_left
        intro d _
        have := fix_rec_succ record.offset prev next lo cnt record.offset (record.nextloc lo) d
        rw [if_pos h1, ← heo] at this
        exact this
      · intro j hj1 hj2 hj3
        rw [Function.update_apply, if_neg (by omega)] at hj3
        obtain ⟨e2, he2, heo2, hel2⟩ := hfix j (by omega) (by omega) hj3
        rw [Function.update_apply, if_neg (by omega)]
        by_cases hx : e2.offset = e.offset
        · refine ⟨_, List.mem_map.2 ⟨e2, he2, rfl⟩, ?_, ?_⟩
          · rw [if_pos hx]; exact heo2
          · rw [if_pos hx]; exact hel2
        · refine ⟨_, List.mem_map.2 ⟨e2, he2, rfl⟩, ?_, ?_⟩
          · rw [if_neg hx]; exact heo2
          · rw [if_neg hx]; exact hel2
    · rw [if_neg h1]
      rw [ih (lo + 1) db _ _ hm hd ?_]
      · rw [hp, hn]
        congr 4
        apply List.map_congr_left
        intro d _
        have := fix_rec_succ record.offset prev next lo cnt record.offset (record.nextloc lo) d
        rw [if_neg h1] at this
        exact this
      · intro j hj1 hj2 hj3
        rw [Function.update_apply, if_neg (by omega)] at hj3
        rw [Function.update_apply, if_neg (by omega)]
        exact hfix j (by omega) (by omega) hj3

theorem zap1_zap1 (cs : Nat) (e : skiprecord) : zap1 cs 1 (zap1 cs 0 e) = zap_rec cs e := by
  unfold zap1 zap_rec
  apply with_nextloc_congr
  intro j
  dsimp only
  by_cases h0 : j = 0
  · subst h0
    rw [if_neg (by omega)]
    by_cases hc : cs ≤ e.nextloc 0
    · rw [if_pos ⟨rfl, hc⟩, if_pos ⟨by omega, hc⟩]
    · rw [if_neg (fun h => hc h.2), if_neg (fun h => hc h.2)]
  · have hin : (if j = 0 ∧ cs ≤ e.nextloc j then 0 else e.nextloc j) = e.nextloc j :=
      if_neg (fun h => h0 h.1)
    rw [hin]
    by_cases h1 : j = 1
    · subst h1
      by_cases hc : cs ≤ e.nextloc 1
      · rw [if_pos ⟨rfl, hc⟩, if_pos ⟨by omega, hc⟩]
      · rw [if_neg (fun h => hc h.2), if_neg (fun h => hc h.2)]
    · rw [if_neg (fun h => h1 h.1), if_neg (fun h => by omega)]

theorem zero_step {db : dbengine} (hm : MfOK db.mf) (hd : db.header.flags &&& DIRTY ≠ 0)
    {cs : Nat} (hcs : db.header.current_size = cs) (h0 : 0 < cs) {d : skiprecord}
    (hmem : d ∈ db.mf.recs) (cnt i : Nat) (r : Int) :
    recovery1_zero (cnt + 1) i r db d
      = recovery1_zero cnt (i + 1) (if cs ≤ d.nextloc i then 0 else r)
          (setrecs db (db.mf.recs.map (fun e => if e.offset = d.offset then zap1 cs i e else e)))
          (zap1 cs i d) := by
  have hN := hm.norm d hmem
  rw [recovery1_zero]
  dsimp only
  rw [hcs]
  by_cases hc : cs ≤ d.nextloc i
  · have hi : i ≤ d.level := by
      by_contra hlt
      have := hN.ptrs i (by omega)
      omega
    rw [if_pos hc, if_pos hc, rewrite_poke hm hd hmem hi 0]
    dsimp only
    have e1 : ({ d with nextloc := Function.update d.nextloc i 0 } : skiprecord) = zap1 cs i d := by
      unfold zap1
      apply with_nextloc_congr
      intro j
      rw [Function.update_apply]
      by_cases hj : j = i
      · subst hj; rw [if_pos rfl, if_pos ⟨rfl, hc⟩]
      · rw [if_neg hj, if_neg (fun h => hj h.1)]
    have e2 : poke db d.offset i 0 = setrecs db (db.mf.recs.map
        (fun e => if e.offset = d.offset then zap1 cs i e else e)) := by
      rw [poke_eq]
      congr 1
      apply List.map_congr_left
      intro e he
      by_cases ho : e.offset = d.offset
      · rw [if_pos ho, if_pos ho]
        have := mem_offset_inj hm he hmem ho
        subst this
        exact e1
      · rw [if_neg ho, if_neg ho]
    rw [e1, e2]
  · rw [if_neg hc, if_neg hc]
    have e1 : zap1 cs i d = d := by
      unfold zap1
      show _ = ({ d with nextloc := d.nextloc } : skiprecord)
      apply with_nextloc_congr
      intro j
      by_cases hj : j = i
      · subst hj; rw [if_neg (fun h => hc h.2)]
      · rw [if_neg (fun h => hj h.1)]
    have e2 : setrecs db (db.mf.recs.map
        (fun e => if e.offset = d.offset then zap1 cs i e else e)) = db := by
      conv_rhs => rw [← setrecs_self db]
      congr 1
      conv_rhs => rw [← List.map_id db.mf.recs]
      apply List.map_congr_left
      intro e he
      by_cases ho : e.offset = d.offset
      · rw [if_pos ho]
        have := mem_offset_inj hm he hmem ho
        subst this
        rw [e1]; rfl
      · rw [if_neg ho]; rfl
    rw [e1, e2]

theorem zap1_norm {cs i : Nat} {e : skiprecord} (h : Norm e) : Norm (zap1 cs i e) := by
  refine ⟨h.level_le, h.len_eq, h.keylen_eq, h.vallen_eq, h.keyoffset_eq, h.valoffset_eq, ?_⟩
  intro j hj
  show (if j = i ∧ cs ≤ e.nextloc j then 0 else e.nextloc j) = 0
  split
  · rfl
  · exact h.ptrs j hj

theorem zap_norm {cs : Nat} {e : skiprecord} (h : Norm e) : Norm (zap_rec cs e) := by
  refine ⟨h.level_le, h.len_eq, h.keylen_eq, h.vallen_eq, h.keyoffset_eq, h.valoffset_eq, ?_⟩
  intro j hj
  show (if j < 2 ∧ cs ≤ e.nextloc j then 0 else e.nextloc j) = 0
  split
  · rfl
  · exact h.ptrs j hj

/-- The loop that zeroes the level zero pointers at or past `current_size`:
both writes go through, and the record at hand and its copy in the file are
`zap_rec` of the old one. -/
theorem zero_ok {db : dbengine} (hm : MfOK db.mf) (hd : db.header.flags &&& DIRTY ≠ 0)
    {cs : Nat} (hcs : db.header.current_size = cs) (h0 : 0 < cs) {d : skiprecord}
    (hmem : d ∈ db.mf.recs) :
    recovery1_zero 2 0 0 db d
      = some (0, setrecs db (db.mf.recs.map
          (fun e => if e.offset = d.offset then zap_rec cs e else e)), zap_rec cs d) := by
  rw [zero_step hm hd hcs h0 hmem 1 0 0]
  have hm1 : MfOK (setrecs db (db.mf.recs.map
      (fun e => if e.offset = d.offset then zap1 cs 0 e else e))).mf := by
    apply setrecs_mfok hm
    intro e he
    by_cases ho : e.offset = d.offset
    · rw [if_pos ho]; exact ⟨rfl, rfl, zap1_norm (hm.norm e he)⟩
    · rw [if_neg ho]; exact ⟨rfl, rfl, hm.norm e he⟩
  have hmem1 : zap1 cs 0 d ∈ (setrecs db (db.mf.recs.map
      (fun e => if e.offset = d.offset then zap1 cs 0 e else e))).mf.recs :=
    List.mem_map.2 ⟨d, hmem, by rw [if_pos rfl]⟩
  rw [zero_step hm1 hd hcs h0 hmem1 0 1 _]
  rw [recovery1_zero, zap1_zap1, setrecs_setrecs]
  have e3 : (setrecs db (db.mf.recs.map
      (fun e => if e.offset = d.offset then zap1 cs 0 e else e))).mf.recs
      = db.mf.recs.map (fun e => if e.offset = d.offset then zap1 cs 0 e else e) := rfl
  rw [e3, List.map_map]
  have e4 : (if cs ≤ (zap1 cs 0 d).nextloc 1 then (0 : Int)
      else if cs ≤ d.nextloc 0 then 0 else 0) = 0 := by
    split
    · rfl
    · split <;> rfl
  rw [e4]
  congr 4
  apply List.map_congr_left
  intro e _
  show (if (if e.offset = d.offset then zap1 cs 0 e else e).offset = (zap1 cs 0 d).offset
      then zap1 cs 1 (if e.offset = d.offset then zap1 cs 0 e else e)
      else (if e.offset = d.offset then zap1 cs 0 e else e)) = _
  by_cases ho : e.offset = d.offset
  · rw [if_pos ho, if_pos ho, if_pos (by exact ho), zap1_zap1]
  · rw [if_neg ho, if_neg ho, if_neg (by exact ho)]

theorem nextAt_concat {i : Nat} {b : List node} (hoff : ∀ x ∈ b, x.offset ≠ 0) (n : node) :
    nextAt i (b ++ [n])
      = if nextAt i b = 0 then (if i < n.level then n.offset else 0) else nextAt i b := by
  induction b with
  | nil => simp [nextAt]
  | cons x t ih =>
    have ihh := ih (fun y hy => hoff y (List.mem_cons_of_mem _ hy))
    simp only [List.cons_append, nextAt]
    by_cases hx : i < x.level
    · rw [if_pos hx, if_pos hx, if_neg (hoff x (List.mem_cons_self _ _))]
    · rw [if_neg hx, if_neg hx]
      exact ihh

theorem nextAt_eq_zero {i : Nat} {b : List node} (hoff : ∀ x ∈ b, x.offset ≠ 0)
    (h : nextAt i b = 0) : ∀ x ∈ b, x.level ≤ i := by
  rcases nextAt_split (i := i) hoff with ⟨_, h2⟩ | ⟨a, y, c, e, _, _, hv⟩
  · exact h2
  · rw [hv] at h
    exact absurd h (hoff y (by rw [e]; simp))

theorem nextAt_ne_zero {i : Nat} {b : List node} (h : nextAt i b ≠ 0) :
    ∃ x ∈ b, i < x.level := by
  by_contra hc
  apply h
  have : ∀ x ∈ b, x.level ≤ i := by
    intro x hx
    by_contra hlt
    exact hc ⟨x, hx, by omega⟩
  have := nextAt_append_le this []
  rw [List.append_nil] at this
  rw [this]; rfl

theorem lastAt_append_of_mem {i : Nat} (l : List node) {b : List node}
    (h : ∃ x ∈ b, i < x.level) : lastAt i (l ++ b) = lastAt i b := by
  unfold lastAt
  rw [List.reverse_append]
  apply nextAt_append_of_mem
  obtain ⟨x, hx, hl⟩ := h
  exact ⟨x, List.mem_reverse.2 hx, hl⟩

theorem fix_rec_id {ro : Nat} {prev next : Nat → Nat} {lo cnt : Nat} {e : skiprecord}
    (h : ∀ j, lo ≤ j → j < lo + cnt → prev j = e.offset → next j = ro) :
    fix_rec ro prev next lo cnt e = e := by
  unfold fix_rec
  show _ = ({ e with nextloc := e.nextloc } : skiprecord)
  apply with_nextloc_congr
  intro j
  rw [if_neg]
  intro hc
  exact hc.2.2.2 (h j hc.1 hc.2.1 hc.2.2.1)

theorem fix_rec_low {ro : Nat} {prev next : Nat → Nat} {lo cnt : Nat} (e : skiprecord) {j : Nat}
    (hj : j < lo) : (fix_rec ro prev next lo cnt e).nextloc j = e.nextloc j := by
  show (if lo ≤ j ∧ j < lo + cnt ∧ prev j = e.offset ∧ next j ≠ ro then ro else e.nextloc j) = _
  rw [if_neg (by omega)]

theorem fix_rec_norm {ro : Nat} {prev next : Nat → Nat} {lo cnt : Nat} {e : skiprecord}
    (hn : Norm e)
    (h : ∀ j, lo ≤ j → j < lo + cnt → prev j = e.offset → next j ≠ ro → j ≤ e.level) :
    Norm (fix_rec ro prev next lo cnt e) := by
  refine ⟨hn.level_le, hn.len_eq, hn.keylen_eq, hn.vallen_eq, hn.keyoffset_eq, hn.valoffset_eq, ?_⟩
  intro j hj
  show (if lo ≤ j ∧ j < lo + cnt ∧ prev j = e.offset ∧ next j ≠ ro then ro else e.nextloc j) = 0
  rw [if_neg]
  · exact hn.ptrs j hj
  · intro hc
    have := h j hc.1 hc.2.1 hc.2.2.1 hc.2.2.2
    have hj2 : e.level < j := hj
    omega

theorem czero_congr {cs : Nat} {a b : skiprecord} (h0 : a.nextloc 0 = b.nextloc 0)
    (h1 : a.nextloc 1 = b.nextloc 1) : czero cs a = czero cs b := by
  rw [czero_eq, czero_eq, h0, h1]

theorem fix_rec_keeps {cs ro : Nat} {prev next : Nat → Nat} {lo cnt : Nat} (hlo : 2 ≤ lo)
    {d0 d : skiprecord} (hk : Keeps cs d0 d)
    (h : ∀ j, lo ≤ j → j < lo + cnt → prev j = d.offset → next j ≠ ro → j ≤ d.level) :
    Keeps cs d0 (fix_rec ro prev next lo cnt d) := by
  have h0 : (fix_rec ro prev next lo cnt d).nextloc 0 = d.nextloc 0 := fix_rec_low d (by omega)
  have h1 : (fix_rec ro prev next lo cnt d).nextloc 1 = d.nextloc 1 := fix_rec_low d (by omega)
  refine ⟨hk.offset, hk.type, hk.level, hk.keylen, hk.vallen, hk.key, hk.val, hk.len, ?_, ?_, ?_⟩
  · rw [czero_congr h0 h1]; exact hk.zero
  · intro hl
    have := hk.flat hl
    rw [fix_rec_id, this]
    intro j hj1 hj2 hj3
    by_contra hne
    have := h j hj1 hj2 hj3 hne
    have hlv := hk.level
    omega
  · unfold Dual
    rw [h0, h1]
    exact hk.dual

theorem zap_id {cs : Nat} {e : skiprecord} (h0 : e.nextloc 0 < cs) (h1 : e.nextloc 1 < cs) :
    zap_rec cs e = e := by
  unfold zap_rec
  show _ = ({ e with nextloc := e.nextloc } : skiprecord)
  apply with_nextloc_congr
  intro j
  rw [if_neg]
  intro hc
  have : j = 0 ∨ j = 1 := by omega
  rcases this with rfl | rfl <;> omega

theorem zap_slot0 (cs : Nat) (e : skiprecord) :
    (zap_rec cs e).nextloc 0 = if cs ≤ e.nextloc 0 then 0 else e.nextloc 0 := by
  show (if 0 < 2 ∧ cs ≤ e.nextloc 0 then 0 else e.nextloc 0) = _
  by_cases h : cs ≤ e.nextloc 0
  · rw [if_pos ⟨by omega, h⟩, if_pos h]
  · rw [if_neg (fun hc => h hc.2), if_neg h]

theorem zap_slot1 (cs : Nat) (e : skiprecord) :
    (zap_rec cs e).nextloc 1 = if cs ≤ e.nextloc 1 then 0 else e.nextloc 1 := by
  show (if 1 < 2 ∧ cs ≤ e.nextloc 1 then 0 else e.nextloc 1) = _
  by_cases h : cs ≤ e.nextloc 1
  · rw [if_pos ⟨by omega, h⟩, if_pos h]
  · rw [if_neg (fun hc => h hc.2), if_neg h]

theorem zap_high (cs : Nat) (e : skiprecord) {j : Nat} (hj : 2 ≤ j) :
    (zap_rec cs e).nextloc j = e.nextloc j := by
  show (if j < 2 ∧ cs ≤ e.nextloc j then 0 else e.nextloc j) = _
  rw [if_neg (by omega)]

theorem zap_lt {cs : Nat} (h : 0 < cs) (e : skiprecord) :
    (zap_rec cs e).nextloc 0 < cs ∧ (zap_rec cs e).nextloc 1 < cs := by
  rw [zap_slot0, zap_slot1]
  constructor
  · split
    · exact h
    · omega
  · split
    · exact h
    · omega

theorem czero_zap {cs : Nat} (h : 0 < cs) {e : skiprecord} (hd : Dual cs e) :
    czero cs (zap_rec cs e) = czero cs e := by
  unfold Dual at hd
  rw [czero_eq, czero_eq, zap_slot0, zap_slot1]
  simp only [ge_iff_le]
  split_ifs <;> first | rfl | omega

theorem zap_keeps {cs : Nat} (h : 0 < cs) {d0 d : skiprecord} (hk : Keeps cs d0 d)
    (h0 : d0.nextloc 0 < cs) (h1 : d0.nextloc 1 < cs) : Keeps cs d0 (zap_rec cs d) := by
  refine ⟨hk.offset, hk.type, hk.level, hk.keylen, hk.vallen, hk.key, hk.val, hk.len, ?_, ?_, ?_⟩
  · rw [czero_zap h hk.dual]; exact hk.zero
  · intro hl
    have := hk.flat hl
    rw [this]
    exact zap_id h0 h1
  · unfold Dual
    have := zap_lt h d
    omega

theorem czero_max {cs : Nat} {d : skiprecord} (h0 : d.nextloc 0 < cs) (h1 : d.nextloc 1 < cs) :
    czero cs d = max (d.nextloc 0) (d.nextloc 1) := by
  unfold czero
  exact getzero_max h0 h1

theorem committed_pos {E : Env} {cs : Nat} {db0 : dbengine} {live0 : List node}
    (hcm : Committed E cs db0 live0) : 0 < cs := by
  have := fileOK_size64 hcm.file
  rw [hcm.size] at this
  omega

theorem committed_lt {E : Env} {cs : Nat} {db0 : dbengine} {live0 : List node}
    (hcm : Committed E cs db0 live0) : ∀ d0 ∈ db0.mf.recs, d0.offset < cs := by
  intro d hd
  have h1 := (hcm.file.mf.bound d hd).2
  have h2 := norm_len_ge (hcm.file.mf.norm d hd)
  rw [hcm.size] at h1
  omega

/-- A node of the committed chain and its record in the committed file. -/
theorem committed_node {E : Env} (hc : CompareLaws E.compar) {cs : Nat} {db0 : dbengine}
    {live0 : List node} (hcm : Committed E cs db0 live0) {a : List node} {m : node}
    {b : List node} (e : dummyNode :: live0 = a ++ m :: b) :
    ∃ d0 ∈ db0.mf.recs, d0.offset = m.offset ∧ d0.level = m.level ∧ d0.key = m.key ∧
      d0.val = m.val ∧ d0.type ≠ DELETE ∧ m.level ≤ MAXLEVEL ∧ m.offset ≠ 0 ∧
      (∀ j, 2 ≤ j → j ≤ m.level → d0.nextloc j = nextAt (j - 1) b) ∧
      (∀ y ∈ b, m.offset ≠ y.offset) ∧ (∀ y ∈ b, y.offset ≠ 0) ∧
      d0.nextloc 0 < cs ∧ d0.nextloc 1 < cs ∧ Succ0 db0.mf.recs d0 (nextAt 0 b) := by
  have hm0 := hcm.file.mf
  have hl0 := hcm.file.chain.linked
  obtain ⟨d0, hd0, h1, h2, h3, h4, h5, h6, h7⟩ := linked_split hl0 e
  have hmem : m ∈ dummyNode :: live0 := by rw [e]; simp
  have hsl := hcm.file.slots d0 hd0
  rw [hcm.end_] at hsl
  refine ⟨d0, hd0, h1, h2, h3, h4, h5, linked_level_le hm0 hl0 m hmem,
    linked_offset_ne_zero hm0 hl0 m hmem, ?_, ?_, ?_, hsl.1, hsl.2, h6⟩
  · intro j hj1 hj2
    have := h7 (j - 1) (by omega) (by omega)
    rw [← this]
    congr 1
    omega
  · intro y hy
    exact chain_offset_ne hc hm0 hl0 hcm.file.chain.sorted e hy
  · intro y hy
    exact linked_offset_ne_zero hm0 hl0 y (by rw [e]; simp [hy])

/-- The record of a committed record in the file of the walk. -/
theorem walk_rec {cs : Nat} {db0 db : dbengine} {chain P : List node} {prev next : Nat → Nat}
    (hw : Walk cs db0 chain db P prev next) {d0 : skiprecord} (hd0 : d0 ∈ db0.mf.recs)
    {d : skiprecord} (hd : d ∈ db.mf.recs) (ho : d.offset = d0.offset) : Keeps cs d0 d := by
  obtain ⟨d1, hd1, hk, _⟩ := hw.since.keeps d0 hd0
  have : d1 = d := mem_offset_inj hw.mf hd1 hd (by rw [hk.offset, ho])
  rw [← this]
  exact hk

theorem concat_split {P : List node} {n : node} {a : List node} {m : node} {b : List node}
    (h : P ++ [n] = a ++ m :: b) :
    (b = [] ∧ a = P ∧ m = n) ∨ ∃ b0, b = b0 ++ [n] ∧ P = a ++ m :: b0 := by
  rcases List.eq_nil_or_concat b with rfl | ⟨b0, x, rfl⟩
  · left
    have := List.append_inj' h rfl
    exact ⟨rfl, this.1.symm, by simpa using this.2.symm⟩
  · right
    rw [List.concat_eq_append] at h ⊢
    have e : a ++ m :: (b0 ++ [x]) = (a ++ m :: b0) ++ [x] := by simp
    rw [e] at h
    have := List.append_inj' h rfl
    have hx : n = x := by simpa using this.2
    exact ⟨b0, by rw [hx], this.1⟩

theorem chain_head {live0 P S : List node} {n : node} (h : dummyNode :: live0 = P ++ n :: S) :
    (P = [] ∧ n = dummyNode) ∨ ∃ P1, P = dummyNode :: P1 := by
  cases P with
  | nil =>
    left
    simp only [List.nil_append, List.cons.injEq] at h
    exact ⟨rfl, h.1.symm⟩
  | cons x t =>
    right
    simp only [List.cons_append, List.cons.injEq] at h
    exact ⟨t, by rw [h.1]⟩

/-- The last node of a level among the nodes seen, and its place. -/
theorem walk_last (P1 : List node) {j : Nat} (hj1 : 2 ≤ j) (hj2 : j ≤ MAXLEVEL) :
    ∃ a y b, dummyNode :: P1 = a ++ y :: b ∧ (∀ x ∈ b, x.level ≤ j - 1) ∧ j ≤ y.level ∧
      lastAt (j - 1) (dummyNode :: P1) = y.offset := by
  obtain ⟨a, y, b, e, h1, h2, h3⟩ := lastAt_split (i := j - 1) (l := dummyNode :: P1)
    ⟨dummyNode, List.mem_cons_self _ _, by show j - 1 < MAXLEVEL; omega⟩
  exact ⟨a, y, b, e, h1, by omega, h3⟩

theorem getzero_czero (db : dbengine) (r : skiprecord) : _getzero db r = czero db.end_ r := rfl

/-- The record the loop of `recovery1` would fix for level `j` when it comes
to the node `n`: the last node seen of that level. -/
theorem walk_prev {E : Env} (hc : CompareLaws E.compar) {cs : Nat} {db0 : dbengine}
    {live0 : List node} (hcm : Committed E cs db0 live0) {db : dbengine} {P S : List node}
    {n : node} {prev next : Nat → Nat}
    (hw : Walk cs db0 (dummyNode :: live0) db P prev next)
    (hch : dummyNode :: live0 = P ++ n :: S) {j : Nat} (hj1 : 2 ≤ j) (_hj2 : j ≤ n.level)
    (hjm : j ≤ MAXLEVEL) (hne : next j ≠ n.offset) :
    ∃ e ∈ db.mf.recs, e.offset = prev j ∧ j ≤ e.level ∧ prev j ≠ n.offset ∧
      ∃ y ∈ P, y.offset = prev j := by
  rcases chain_head hch with ⟨hP, hn⟩ | ⟨P1, hP⟩
  · exfalso
    apply hne
    rw [hw.start hP j hj1 hjm, hn]
    rfl
  · subst hP
    obtain ⟨a, y, b, e, h1, h2, h3⟩ := walk_last P1 hj1 hjm
    have hpj : prev j = y.offset := by
      rw [hw.prev (by simp) j hj1 hjm, h3]
    obtain ⟨r, hr, hro, _, _, _⟩ := hw.seen a y b e
    have hch2 : dummyNode :: live0 = a ++ y :: (b ++ n :: S) := by
      rw [hch, e]; simp
    obtain ⟨r0, hr0, q1, q2, _, _, _, _, _, _, q9, _⟩ := committed_node hc hcm hch2
    have hk := walk_rec hw hr0 hr (by rw [hro, q1])
    refine ⟨r, hr, by rw [hro, hpj], by rw [hk.level, q2]; exact h2, ?_, y, ?_, hpj.symm⟩
    · rw [hpj]
      exact q9 n (by simp)
    · rw [e]; simp

/-- One round of the walk of `recovery1` at a node of the committed chain. -/
theorem walk_node {E : Env} (hc : CompareLaws E.compar) {cs : Nat} {db0 : dbengine}
    {live0 : List node} (hcm : Committed E cs db0 live0) {db : dbengine} {P S : List node}
    {n : node} {prev next : Nat → Nat}
    (hw : Walk cs db0 (dummyNode :: live0) db P prev next)
    (hch : dummyNode :: live0 = P ++ n :: S) :
    ∃ d0 d R prev1 next1 db1, d0 ∈ db0.mf.recs ∧ d0.offset = n.offset ∧
      read_record db n.offset = some (0, d) ∧
      recovery1_fix d (d.level - 1) 2 db prev next = some (0, db1, prev1, next1) ∧
      recovery1_zero 2 0 0 db1 d = some (0, setrecs db R, zap_rec cs d) ∧
      _getzero (setrecs db R) (zap_rec cs d) = max (d0.nextloc 0) (d0.nextloc 1) ∧
      (zap_rec cs d).keylen = n.key.length ∧
      Walk cs db0 (dummyNode :: live0) (setrecs db R) (P ++ [n]) prev1 next1 := by
  have h0 := committed_pos hcm
  obtain ⟨d0, hd0, c1, c2, c3, c4, c5, c6, c7, c8, c9, c10, c11, c12, c13⟩ :=
    committed_node hc hcm hch
  obtain ⟨d, hd, hk, _⟩ := hw.since.keeps d0 hd0
  have hdo : d.offset = n.offset := hk.offset.trans c1
  have hdl : d.level = n.level := hk.level.trans c2
  have hread : read_record db n.offset = some (0, d) := by
    rw [← hdo]; exact read_record_of_mem hw.mf hd
  have hrange : ∀ j, 2 ≤ j → j < 2 + (d.level - 1) → j ≤ n.level ∧ j ≤ MAXLEVEL := by
    intro j _ hj
    rw [hdl] at hj
    omega
  have hfix : ∀ j, 2 ≤ j → j < 2 + (d.level - 1) → next j ≠ d.offset →
      ∃ e ∈ db.mf.recs, e.offset = prev j ∧ j ≤ e.level := by
    intro j hj1 hj2 hne
    obtain ⟨e, he, h1, h2, _⟩ := walk_prev hc hcm hw hch hj1 (hrange j hj1 hj2).1
      (hrange j hj1 hj2).2 (by rw [← hdo]; exact hne)
    exact ⟨e, he, h1, h2⟩
  have hlev : ∀ e ∈ db.mf.recs, ∀ j, 2 ≤ j → j < 2 + (d.level - 1) → prev j = e.offset →
      next j ≠ d.offset → j ≤ e.level := by
    intro e he j hj1 hj2 hp hne
    obtain ⟨e1, he1, h1, h2⟩ := hfix j hj1 hj2 hne
    have := mem_offset_inj hw.mf he1 he (by rw [h1, hp])
    rw [← this]; exact h2
  have hchainP : ∀ e ∈ db.mf.recs, ∀ j, 2 ≤ j → j < 2 + (d.level - 1) → prev j = e.offset →
      next j ≠ d.offset → ∃ y ∈ P, y.offset = e.offset := by
    intro e he j hj1 hj2 hp hne
    obtain ⟨_, _, _, _, _, y, hy, hyo⟩ := walk_prev hc hcm hw hch hj1 (hrange j hj1 hj2).1
      (hrange j hj1 hj2).2 (by rw [← hdo]; exact hne)
    exact ⟨y, hy, by rw [hyo, hp]⟩
  have hFd : fix_rec d.offset prev next 2 (d.level - 1) d = d := by
    apply fix_rec_id
    intro j hj1 hj2 hp
    by_contra hne
    obtain ⟨_, _, _, _, h3, _⟩ := walk_prev hc hcm hw hch hj1 (hrange j hj1 hj2).1
      (hrange j hj1 hj2).2 (by rw [← hdo]; exact hne)
    exact h3 (by rw [hp, hdo])
  have hfixed := fix_ok d (d.level - 1) 2 db prev next hw.mf hw.dirty hfix
  have hm1 : MfOK (setrecs db (db.mf.recs.map
      (fix_rec d.offset prev next 2 (d.level - 1)))).mf :=
    setrecs_mfok hw.mf _ (fun e he => ⟨rfl, rfl, fix_rec_norm (hw.mf.norm e he) (hlev e he)⟩)
  have hd1 : d ∈ (setrecs db (db.mf.recs.map
      (fix_rec d.offset prev next 2 (d.level - 1)))).mf.recs :=
    List.mem_map.2 ⟨d, hd, hFd⟩
  have hz := zero_ok hm1 (by exact hw.dirty) (by exact hw.cur) h0 hd1
  rw [setrecs_setrecs] at hz
  have e3 : (setrecs db (db.mf.recs.map (fix_rec d.offset prev next 2 (d.level - 1)))).mf.recs
      = db.mf.recs.map (fix_rec d.offset prev next 2 (d.level - 1)) := rfl
  rw [e3, List.map_map] at hz
  have hG : ∀ e, ((fun e => if e.offset = d.offset then zap_rec cs e else e) ∘
      fix_rec d.offset prev next 2 (d.level - 1)) e
      = if e.offset = d.offset then zap_rec cs (fix_rec d.offset prev next 2 (d.level - 1) e)
        else fix_rec d.offset prev next 2 (d.level - 1) e := fun e => rfl
  have hGd : ((fun e => if e.offset = d.offset then zap_rec cs e else e) ∘
      fix_rec d.offset prev next 2 (d.level - 1)) d = zap_rec cs d := by
    rw [hG, if_pos rfl, hFd]
  have hGo : ∀ e, e.offset ≠ d.offset → ((fun e => if e.offset = d.offset then zap_rec cs e
      else e) ∘ fix_rec d.offset prev next 2 (d.level - 1)) e
      = fix_rec d.offset prev next 2 (d.level - 1) e := by
    intro e he
    rw [hG, if_neg he]
  have hGk : ∀ e0 ∈ db0.mf.recs, ∀ e ∈ db.mf.recs, Keeps cs e0 e →
      Keeps cs e0 (((fun e => if e.offset = d.offset then zap_rec cs e else e) ∘
        fix_rec d.offset prev next 2 (d.level - 1)) e) := by
    intro e0 he0 e he hke
    have k1 := @fix_rec_keeps cs d.offset prev next 2 (d.level - 1) (le_refl 2) e0 e hke
      (hlev e he)
    rw [hG]
    by_cases ho : e.offset = d.offset
    · rw [if_pos ho]
      have hsl := hcm.file.slots e0 he0
      rw [hcm.end_] at hsl
      exact zap_keeps h0 k1 hsl.1 hsl.2
    · rw [if_neg ho]; exact k1
  refine ⟨d0, d, _, _, _, _, hd0, c1, hread, hfixed, hz, ?_, ?_, ?_⟩
  · rw [getzero_czero]
    show czero db.end_ _ = _
    rw [hw.end_, czero_zap h0 hk.dual, hk.zero, czero_max c11 c12]
  · show d.keylen = n.key.length
    rw [hk.keylen, (hcm.file.mf.norm d0 hd0).keylen_eq, c3]
  · refine ⟨?_, hw.dirty, hw.cur, hw.end_, ⟨?_, ?_⟩, ?_, ?_, ?_⟩
    · apply setrecs_mfok hw.mf
      intro e he
      have hN := @fix_rec_norm d.offset prev next 2 (d.level - 1) e (hw.mf.norm e he)
        (hlev e he)
      rw [hG]
      by_cases ho : e.offset = d.offset
      · rw [if_pos ho]; exact ⟨rfl, rfl, zap_norm hN⟩
      · rw [if_neg ho]; exact ⟨rfl, rfl, hN⟩
    · intro e0 he0
      obtain ⟨e, he, hke, hwho⟩ := hw.since.keeps e0 he0
      refine ⟨_, List.mem_map.2 ⟨e, he, rfl⟩, hGk e0 he0 e he hke, ?_⟩
      by_cases hx : ∃ m ∈ dummyNode :: live0, m.offset = e0.offset
      · exact Or.inr hx
      · left
        have hee : e = e0 := by
          rcases hwho with h | h
          · exact h
          · exact absurd h hx
        have hnd : e.offset ≠ d.offset := by
          intro h
          apply hx
          exact ⟨n, by rw [hch]; simp, by rw [← hdo, ← h, hke.offset]⟩
        rw [hGo e hnd, fix_rec_id, hee]
        intro j hj1 hj2 hp
        by_contra hne
        obtain ⟨y, hy, hyo⟩ := hchainP e he j hj1 hj2 hp hne
        apply hx
        exact ⟨y, by rw [hch]; simp [hy], by rw [hyo, hke.offset]⟩
    · intro e1 he1
      obtain ⟨e, he, rfl⟩ := List.mem_map.1 he1
      have : (((fun e => if e.offset = d.offset then zap_rec cs e else e) ∘
          fix_rec d.offset prev next 2 (d.level - 1)) e).offset = e.offset := by
        rw [hG]
        split <;> rfl
      rw [this]
      exact hw.since.rest e he
    · intro _ j hj1 hj2
      dsimp only
      rw [lastAt_append_single]
      by_cases hjn : j ≤ n.level
      · rw [if_pos ⟨hj1, by rw [hdl]; omega⟩, if_pos (by omega), hdo]
      · rw [if_neg (by rw [hdl]; omega), if_neg (by omega)]
        rcases chain_head hch with ⟨hP, hn⟩ | ⟨P1, hP⟩
        · exfalso
          apply hjn
          rw [hn]
          exact hj2
        · exact hw.prev (by rw [hP]; simp) j hj1 hj2
    · intro hnil
      exact absurd hnil (by simp)
    · intro a m b hsplit
      rcases concat_split hsplit with ⟨rfl, rfl, rfl⟩ | ⟨b0, rfl, hP⟩
      · refine ⟨_, List.mem_map.2 ⟨d, hd, rfl⟩, ?_, ?_, ?_, ?_⟩
        · rw [hGd]; exact hdo
        · rw [hGd]; exact (zap_lt h0 d).1
        · rw [hGd]; exact (zap_lt h0 d).2
        · intro j hj1 hj2
          left
          refine ⟨rfl, ?_⟩
          rw [hGd, zap_high cs d hj1]
          rw [if_pos ⟨hj1, by rw [hdl]; omega⟩]
      · obtain ⟨e, he, heo, s0, s1, hlv⟩ := hw.seen a m b0 hP
        have hch2 : dummyNode :: live0 = a ++ m :: (b0 ++ n :: S) := by
          rw [hch, hP]; simp
        obtain ⟨m0, hm0r, q1, q2, _, _, _, q6, _, _, q9, q10, _⟩ := committed_node hc hcm hch2
        have hmn : e.offset ≠ d.offset := by rw [heo, hdo]; exact q9 n (by simp)
        have hb0 : ∀ x ∈ b0, x.offset ≠ 0 := fun x hx => q10 x (by simp [hx])
        have hPne : P ≠ [] := by rw [hP]; simp
        refine ⟨_, List.mem_map.2 ⟨e, he, rfl⟩, ?_, ?_, ?_, ?_⟩
        · rw [hGo e hmn]; exact heo
        · rw [hGo e hmn, fix_rec_low e (by omega)]; exact s0
        · rw [hGo e hmn, fix_rec_low e (by omega)]; exact s1
        · intro j hj1 hj2
          have hjm : j ≤ MAXLEVEL := le_trans hj2 q6
          rw [hGo e hmn, nextAt_concat hb0]
          have hval : (fix_rec d.offset prev next 2 (d.level - 1) e).nextloc j
              = if 2 ≤ j ∧ j < 2 + (d.level - 1) ∧ prev j = e.offset ∧ next j ≠ d.offset
                then d.offset else e.nextloc j := rfl
          rw [hval]
          rcases hlv j hj1 hj2 with ⟨z, hnx⟩ | ⟨nz, hptr⟩
          · rw [if_pos z]
            have hpj : prev j = e.offset := by
              rw [hw.prev hPne j hj1 hjm, hP, heo]
              exact lastAt_mid a m (by omega) (nextAt_eq_zero hb0 z)
            by_cases hjn : j ≤ n.level
            · right
              rw [if_pos (by omega)]
              refine ⟨c7, ?_⟩
              by_cases hne : next j = d.offset
              · rw [if_neg (fun h => h.2.2.2 hne), ← hnx, hne, hdo]
              · rw [if_pos ⟨hj1, by rw [hdl]; omega, hpj, hne⟩, hdo]
            · left
              rw [if_neg (by omega)]
              refine ⟨rfl, ?_⟩
              rw [if_neg (by rw [hdl]; omega), if_neg (fun h => by rw [hdl] at h; omega)]
              exact hnx
          · rw [if_neg nz]
            right
            refine ⟨nz, ?_⟩
            rw [if_neg, hptr]
            intro hcnd
            have hex := nextAt_ne_zero nz
            have hl : prev j = lastAt (j - 1) b0 := by
              rw [hw.prev hPne j hj1 hjm, hP]
              have : a ++ m :: b0 = (a ++ [m]) ++ b0 := by simp
              rw [this, lastAt_append_of_mem _ hex]
            obtain ⟨y, hy, _, hyo⟩ := lastAt_mem hex
            exact q9 y (by simp [hy]) (by rw [← heo, ← hcnd.2.2.1, hl, hyo])

theorem recovery1_walk_zero (fuel : Nat) (db : dbengine) (prev next : Nat → Nat) (cnt : Nat) :
    recovery1_walk fuel 0 db prev next cnt = some (0, db, prev, next, cnt) := by
  cases fuel <;> rfl

theorem recovery1_walk_succ (fuel : Nat) {o : Nat} (ho : o ≠ 0) (db : dbengine)
    (prev next : Nat → Nat) (cnt : Nat) :
    recovery1_walk (fuel + 1) o db prev next cnt =
      match read_record db o with
      | none => none
      | some (r, record) =>
        if r ≠ 0 then some (r, db, prev, next, cnt)
        else
          match recovery1_fix record (record.level - 1) 2 db prev next with
          | none => none
          | some (r, db1, prev1, next1) =>
            if r ≠ 0 then some (r, db1, prev1, next1, cnt)
            else
              match recovery1_zero 2 0 r db1 record with
              | none => none
              | some (r, db2, record1) =>
                let nextoffset1 := _getzero db2 record1
                if r ≠ 0 then some (r, db2, prev1, next1, cnt)
                else
                  recovery1_walk fuel nextoffset1 db2 prev1 next1
                    (if record1.keylen ≠ 0 then add64 cnt 1 else cnt) := by
  cases o with
  | zero => exact absurd rfl ho
  | succ o => rfl

/-- One round of the walk of `recovery1` at a delete record: nothing is
written. -/
theorem walk_hop {E : Env} {cs : Nat} {db0 : dbengine}
    {live0 : List node} (hcm : Committed E cs db0 live0) {db : dbengine} {P : List node}
    {prev next : Nat → Nat}
    (hw : Walk cs db0 (dummyNode :: live0) db P prev next)
    {e : skiprecord} (he : e ∈ db0.mf.recs) (hty : e.type = DELETE) :
    read_record db e.offset = some (0, e) ∧
      recovery1_fix e (e.level - 1) 2 db prev next = some (0, db, prev, next) ∧
      recovery1_zero 2 0 0 db e = some (0, db, e) ∧
      _getzero db e = e.nextloc 0 ∧ e.keylen = 0 := by
  have h0 := committed_pos hcm
  obtain ⟨hl, hkl⟩ := hcm.flat e he hty
  obtain ⟨d, hd, hk, _⟩ := hw.since.keeps e he
  have hde : d = e := hk.flat hl
  subst hde
  have hsl := hcm.file.slots d he
  rw [hcm.end_] at hsl
  have h1 : d.nextloc 1 = 0 := (hcm.file.mf.norm d he).ptrs 1 (by omega)
  refine ⟨read_record_of_mem hw.mf hd, ?_, ?_, ?_, hkl⟩
  · rw [hl]
    rfl
  · rw [zero_ok hw.mf hw.dirty hw.cur h0 hd, zap_id hsl.1 hsl.2]
    have : db.mf.recs.map (fun x => if x.offset = d.offset then zap_rec cs x else x)
        = db.mf.recs := by
      conv_rhs => rw [← List.map_id db.mf.recs]
      apply List.map_congr_left
      intro x hx
      by_cases ho : x.offset = d.offset
      · rw [if_pos ho]
        have := mem_offset_inj hw.mf hx hd ho
        rw [this, zap_id hsl.1 hsl.2]; rfl
      · rw [if_neg ho]; rfl
    rw [this, setrecs_self]
  · rw [getzero_czero, hw.end_, czero_max hsl.1 hsl.2, h1]
    exact max_eq_left (Nat.zero_le _)

theorem keyed_cons (n : node) (S : List node) :
    keyed (n :: S) = (if n.key.length ≠ 0 then 1 else 0) + keyed S := by
  unfold keyed
  rw [List.countP_cons]
  by_cases h : n.key = []
  · simp [h]
  · have : n.key.length ≠ 0 := fun hl => h (List.length_eq_zero.1 hl)
    simp [h, this]
    omega

theorem add64_keyed (cnt : Nat) (n : node) :
    (if n.key.length ≠ 0 then add64 (cnt % 2 ^ 64) 1 else cnt % 2 ^ 64)
      = (cnt + if n.key.length ≠ 0 then 1 else 0) % 2 ^ 64 := by
  by_cases h : n.key.length ≠ 0
  · rw [if_pos h, if_pos h, add64_succ]
  · rw [if_neg h, if_neg h, Nat.add_zero]

/-- The walk of `recovery1` over the committed chain: it ends with code 0,
having seen every node, and counted the nodes that carry a key. -/
theorem walk_ok {E : Env} (hc : CompareLaws E.compar) {cs : Nat} {db0 : dbengine}
    {live0 : List node} (hcm : Committed E cs db0 live0) {o : Nat} {S : List node} {k : Nat}
    (hraw : Raw db0.mf.recs o S k) :
    ∀ (fuel : Nat) (db : dbengine) (P : List node) (prev next : Nat → Nat) (cnt : Nat),
      k ≤ fuel → dummyNode :: live0 = P ++ S →
      Walk cs db0 (dummyNode :: live0) db P prev next →
      ∃ R prev1 next1, recovery1_walk fuel o db prev next (cnt % 2 ^ 64)
          = some (0, setrecs db R, prev1, next1, (cnt + keyed S) % 2 ^ 64) ∧
        Walk cs db0 (dummyNode :: live0) (setrecs db R) (dummyNode :: live0) prev1 next1 := by
  induction hraw with
  | done =>
    intro fuel db P prev next cnt _ hch hw
    rw [List.append_nil] at hch
    subst hch
    refine ⟨db.mf.recs, prev, next, ?_, ?_⟩
    · rw [recovery1_walk_zero, setrecs_self]
      rfl
    · rw [setrecs_self]
      exact hw
  | hop o e S k he heo ho hty _ ih =>
    intro fuel db P prev next cnt hk hch hw
    obtain ⟨f, rfl⟩ : ∃ f, fuel = f + 1 := ⟨fuel - 1, by omega⟩
    obtain ⟨h1, h2, h3, h4, h5⟩ := walk_hop hcm hw he hty
    rw [heo] at h1
    rw [recovery1_walk_succ f ho, h1]
    dsimp only
    rw [if_neg (by simp), h2]
    dsimp only
    rw [if_neg (by simp), h3]
    dsimp only
    rw [if_neg (by simp), h4, if_neg (by simp [h5])]
    exact ih f db P prev next cnt (by omega) hch hw
  | node o d n S k hd hdo ho _ hrec _ ih =>
    intro fuel db P prev next cnt hk hch hw
    obtain ⟨f, rfl⟩ : ∃ f, fuel = f + 1 := ⟨fuel - 1, by omega⟩
    obtain ⟨d0, d1, R, prev1, next1, db1, g1, g2, g3, g4, g5, g6, g7, g8⟩ :=
      walk_node hc hcm hw hch
    have hdd : d0 = d := mem_offset_inj hcm.file.mf g1 hd (by rw [g2, hdo, ← hrec.1, hdo])
    subst hdd
    rw [← g2, hdo] at g3
    rw [recovery1_walk_succ f ho, g3]
    dsimp only
    rw [if_neg (by simp), g4]
    dsimp only
    rw [if_neg (by simp), g5]
    dsimp only
    rw [if_neg (by simp), g6, g7, add64_keyed]
    have hch1 : dummyNode :: live0 = (P ++ [n]) ++ S := by rw [hch]; simp
    obtain ⟨R1, prev2, next2, r1, r2⟩ := ih f (setrecs db R) (P ++ [n]) prev1 next1
      (cnt + if n.key.length ≠ 0 then 1 else 0) (by omega) hch1 g8
    refine ⟨R1, prev2, next2, ?_, r2⟩
    rw [r1, setrecs_setrecs, keyed_cons]
    congr 6
    omega

theorem fix_rec_next (ro : Nat) (prev next : Nat → Nat) (lo cnt : Nat) (e : skiprecord) :
    fix_rec ro prev next (lo + 1) cnt
      (if next lo ≠ ro then
        (if e.offset = prev lo then { e with nextloc := Function.update e.nextloc lo ro } else e)
       else e)
    = fix_rec ro prev next lo (cnt + 1) e := by
  have := fix_rec_succ ro prev next lo cnt (prev lo) (next lo) e
  rw [Function.update_eq_self, Function.update_eq_self] at this
  exact this

/-- The loop that zeroes the pointers left pending after the walk: every
write goes through, and the file is the old one with `fix_rec` towards 0 on
each record. -/
theorem tail_ok (prev next : Nat → Nat) :
    ∀ (cnt lo : Nat) (db : dbengine), MfOK db.mf →
      db.header.flags &&& DIRTY ≠ 0 →
      (∀ j, lo ≤ j → j < lo + cnt → next j ≠ 0 →
        ∃ e ∈ db.mf.recs, e.offset = prev j ∧ j ≤ e.level) →
      recovery1_tail prev next cnt lo db
        = some (0, setrecs db (db.mf.recs.map (fix_rec 0 prev next lo cnt))) := by
  intro cnt
  induction cnt with
  | zero =>
    intro lo db _ _ _
    unfold recovery1_tail
    have e1 : db.mf.recs.map (fix_rec 0 prev next lo 0) = db.mf.recs := by
      conv_rhs => rw [← List.map_id db.mf.recs]
      apply List.map_congr_left
      intro e _
      rw [fix_rec_zero]; rfl
    rw [e1, setrecs_self]
  | succ cnt ih =>
    intro lo db hm hd hfix
    unfold recovery1_tail
    by_cases h1 : next lo ≠ 0
    · rw [if_pos h1]
      obtain ⟨e, he, heo, hel⟩ := hfix lo (le_refl _) (by omega) h1
      rw [← heo, read_record_of_mem hm he]
      dsimp only
      rw [if_neg (by simp), rewrite_poke hm hd he hel 0]
      dsimp only
      rw [if_neg (by simp)]
      have hm1 : MfOK (poke db e.offset lo 0).mf :=
        poke_mfok hm _ (fun d hd1 ho => by
          have := mem_offset_inj hm hd1 he ho
          rw [this]; exact hel)
      rw [ih (lo + 1) (poke db e.offset lo 0) hm1 hd ?_]
      · rw [poke_eq, setrecs_setrecs]
        have : (setrecs db (db.mf.recs.map fun d => if d.offset = e.offset then
            { d with nextloc := Function.update d.nextloc lo 0 } else d)).mf.recs
            = db.mf.recs.map fun d => if d.offset = e.offset then
            { d with nextloc := Function.update d.nextloc lo 0 } else d := rfl
        rw [this, List.map_map]
        congr 3
        apply List.map_congr_left
        intro d _
        have := fix_rec_next 0 prev next lo cnt d
        rw [if_pos h1, ← heo] at this
        exact this
      · intro j hj1 hj2 hj3
        obtain ⟨e2, he2, heo2, hel2⟩ := hfix j (by omega) (by omega) hj3
        by_cases hx : e2.offset = e.offset
        · refine ⟨_, List.mem_map.2 ⟨e2, he2, rfl⟩, ?_, ?_⟩
          · rw [if_pos hx]; exact heo2
          · rw [if_pos hx]; exact hel2
        · refine ⟨_, List.mem_map.2 ⟨e2, he2, rfl⟩, ?_, ?_⟩
          · rw [if_neg hx]; exact heo2
          · rw [if_neg hx]; exact hel2
    · rw [if_neg h1]
      rw [ih (lo + 1) db hm hd ?_]
      · congr 3
        apply List.map_congr_left
        intro d _
        have := fix_rec_next 0 prev next lo cnt d
        rw [if_neg h1] at this
        exact this
      · intro j hj1 hj2 hj3
        exact hfix j (by omega) (by omega) hj3

/-- The committed file is kept when each record is mapped to one that keeps
it, and only nodes of the chain are changed. -/
theorem since_map {cs : Nat} {R0 R : List skiprecord} {chain : List node}
    (hs : Since cs R0 R chain) (f : skiprecord → skiprecord)
    (hk : ∀ e0 ∈ R0, ∀ e ∈ R, Keeps cs e0 e → Keeps cs e0 (f e))
    (ho : ∀ e ∈ R, (f e).offset = e.offset)
    (hc : ∀ e ∈ R, f e = e ∨ ∃ n ∈ chain, n.offset = e.offset) :
    Since cs R0 (R.map f) chain := by
  refine ⟨?_, ?_⟩
  · intro e0 he0
    obtain ⟨e, he, hke, hwho⟩ := hs.keeps e0 he0
    refine ⟨f e, List.mem_map.2 ⟨e, he, rfl⟩, hk e0 he0 e he hke, ?_⟩
    rcases hc e he with h | ⟨n, hn, hno⟩
    · rcases hwho with h1 | h1
      · left; rw [h, h1]
      · exact Or.inr h1
    · exact Or.inr ⟨n, hn, by rw [hno, hke.offset]⟩
  · intro e1 he1
    obtain ⟨e, he, rfl⟩ := List.mem_map.1 he1
    rw [ho e he]
    exact hs.rest e he

/-- The loop over the pending pointers after the walk of the whole chain. -/
theorem tail_mended {E : Env} (hc : CompareLaws E.compar) {cs : Nat} {db0 : dbengine}
    {live0 : List node} (hcm : Committed E cs db0 live0) {db : dbengine}
    {prev next : Nat → Nat}
    (hw : Walk cs db0 (dummyNode :: live0) db (dummyNode :: live0) prev next) :
    ∃ R, recovery1_tail prev next (MAXLEVEL - 1) 2 db = some (0, setrecs db R) ∧
      Mended cs db0 (dummyNode :: live0) (setrecs db R) := by
  have hrange : ∀ j, 2 ≤ j → j < 2 + (MAXLEVEL - 1) → j ≤ MAXLEVEL := by
    intro j _ h; unfold MAXLEVEL at h ⊢; omega
  have hlast : ∀ j, 2 ≤ j → j < 2 + (MAXLEVEL - 1) →
      ∃ a y b e, dummyNode :: live0 = a ++ y :: b ∧ (∀ x ∈ b, x.level ≤ j - 1) ∧
        j ≤ y.level ∧ prev j = y.offset ∧ e ∈ db.mf.recs ∧ e.offset = y.offset ∧
        e.level = y.level := by
    intro j hj1 hj2
    obtain ⟨a, y, b, e, h1, h2, h3⟩ := walk_last live0 hj1 (hrange j hj1 hj2)
    obtain ⟨r, hr, hro, _⟩ := hw.seen a y b e
    obtain ⟨r0, hr0, q1, q2, _⟩ := committed_node hc hcm e
    have hk := walk_rec hw hr0 hr (by rw [hro, q1])
    exact ⟨a, y, b, r, e, h1, h2, by rw [hw.prev (by simp) j hj1 (hrange j hj1 hj2), h3],
      hr, hro, by rw [hk.level, q2]⟩
  have hfix : ∀ j, 2 ≤ j → j < 2 + (MAXLEVEL - 1) → next j ≠ 0 →
      ∃ e ∈ db.mf.recs, e.offset = prev j ∧ j ≤ e.level := by
    intro j hj1 hj2 _
    obtain ⟨a, y, b, e, _, _, h3, h4, h5, h6, h7⟩ := hlast j hj1 hj2
    exact ⟨e, h5, by rw [h6, h4], by rw [h7]; exact h3⟩
  have hlev : ∀ e ∈ db.mf.recs, ∀ j, 2 ≤ j → j < 2 + (MAXLEVEL - 1) → prev j = e.offset →
      next j ≠ 0 → j ≤ e.level := by
    intro e he j hj1 hj2 hp hne
    obtain ⟨e1, he1, h1, h2⟩ := hfix j hj1 hj2 hne
    have := mem_offset_inj hw.mf he1 he (by rw [h1, hp])
    rw [← this]; exact h2
  refine ⟨_, tail_ok prev next (MAXLEVEL - 1) 2 db hw.mf hw.dirty hfix, ?_, ?_, ?_⟩
  · exact setrecs_mfok hw.mf _
      (fun e he => ⟨rfl, rfl, fix_rec_norm (hw.mf.norm e he) (hlev e he)⟩)
  · apply since_map hw.since
    · intro e0 _ e he hke
      exact fix_rec_keeps (le_refl 2) hke (hlev e he)
    · intro e _; rfl
    · intro e he
      by_cases hx : ∃ n ∈ dummyNode :: live0, n.offset = e.offset
      · exact Or.inr hx
      · left
        apply fix_rec_id
        intro j hj1 hj2 hp
        exfalso
        apply hx
        obtain ⟨a, y, b, _, e1, _, _, h4, _⟩ := hlast j hj1 hj2
        exact ⟨y, by rw [e1]; simp, by rw [← h4, hp]⟩
  · intro a m b hsplit
    obtain ⟨e, he, heo, s0, s1, hlv⟩ := hw.seen a m b hsplit
    obtain ⟨m0, hm0r, q1, q2, _, _, _, q6, _, _, q9, q10, _⟩ := committed_node hc hcm hsplit
    refine ⟨_, List.mem_map.2 ⟨e, he, rfl⟩, heo, ?_, ?_, ?_⟩
    · rw [fix_rec_low e (by omega)]; exact s0
    · rw [fix_rec_low e (by omega)]; exact s1
    · intro j hj1 hj2
      have hjm : j ≤ MAXLEVEL := le_trans hj2 q6
      have hjr : j < 2 + (MAXLEVEL - 1) := by unfold MAXLEVEL at hjm ⊢; omega
      have hval : (fix_rec 0 prev next 2 (MAXLEVEL - 1) e).nextloc j
          = if 2 ≤ j ∧ j < 2 + (MAXLEVEL - 1) ∧ prev j = e.offset ∧ next j ≠ 0
            then 0 else e.nextloc j := rfl
      rw [hval]
      rcases hlv j hj1 hj2 with ⟨z, hnx⟩ | ⟨nz, hptr⟩
      · rw [z]
        by_cases hne : next j = 0
        · rw [if_neg (fun h => h.2.2.2 hne), ← hnx, hne]
        · rw [if_pos]
          refine ⟨hj1, hjr, ?_, hne⟩
          rw [hw.prev (by simp) j hj1 hjm, hsplit, heo]
          exact lastAt_mid a m (by omega) (nextAt_eq_zero q10 z)
      · rw [if_neg, hptr]
        intro hcnd
        have hex := nextAt_ne_zero nz
        have hl : prev j = lastAt (j - 1) b := by
          rw [hw.prev (by simp) j hj1 hjm, hsplit]
          have : a ++ m :: b = (a ++ [m]) ++ b := by simp
          rw [this, lastAt_append_of_mem _ hex]
        obtain ⟨y, hy, _, hyo⟩ := lastAt_mem hex
        exact q9 y hy (by rw [← heo, ← hcnd.2.2.1, hl, hyo])

theorem mended_keeps {cs : Nat} {db0 db : dbengine} {chain : List node}
    (hm : Mended cs db0 chain db) {d0 : skiprecord} (hd0 : d0 ∈ db0.mf.recs)
    {d : skiprecord} (hd : d ∈ db.mf.recs) (ho : d.offset = d0.offset) :
    Keeps cs d0 d ∧ (d = d0 ∨ ∃ n ∈ chain, n.offset = d0.offset) := by
  obtain ⟨d1, hd1, hk, hwho⟩ := hm.since.keeps d0 hd0
  have : d1 = d := mem_offset_inj hm.mf hd1 hd (by rw [hk.offset, ho])
  rw [← this]
  exact ⟨hk, hwho⟩

/-- The file after the loops of `recovery1`, truncated to `cs`, holds the
committed skip list. -/
theorem mended_file {E : Env} (hc : CompareLaws E.compar) {cs : Nat} {db0 : dbengine}
    {live0 : List node} (hcm : Committed E cs db0 live0) {db : dbengine}
    (hm : Mended cs db0 (dummyNode :: live0) db) (db1 : dbengine)
    (h1 : db1.mf.recs = db.mf.recs.filter (fun d => decide (d.offset < cs)))
    (h2 : db1.mf.size = cs) (h3 : db1.end_ = cs) : FileOK E db1 live0 := by
  have hlt := committed_lt hcm
  have hA : ∀ d ∈ db1.mf.recs, d ∈ db.mf.recs ∧ ∃ d0 ∈ db0.mf.recs, Keeps cs d0 d ∧
      (d = d0 ∨ ∃ n ∈ dummyNode :: live0, n.offset = d0.offset) := by
    intro d hd
    rw [h1, List.mem_filter] at hd
    have hdlt : d.offset < cs := by simpa using hd.2
    refine ⟨hd.1, ?_⟩
    rcases hm.since.rest d hd.1 with h | ⟨d0, hd0, ho⟩
    · omega
    · exact ⟨d0, hd0, mended_keeps hm hd0 hd.1 ho.symm⟩
  have hB : ∀ d0 ∈ db0.mf.recs, ∀ d ∈ db.mf.recs, d.offset = d0.offset → d ∈ db1.mf.recs := by
    intro d0 hd0 d hd ho
    rw [h1, List.mem_filter]
    exact ⟨hd, by simpa [ho] using hlt d0 hd0⟩
  have hslot : ∀ d ∈ db1.mf.recs, d.nextloc 0 < cs ∧ d.nextloc 1 < cs := by
    intro d hd
    obtain ⟨hdm, d0, hd0, hk, hwho⟩ := hA d hd
    rcases hwho with h | ⟨n, hn, hno⟩
    · have := hcm.file.slots d0 hd0
      rw [hcm.end_] at this
      rw [h]; exact this
    · obtain ⟨a, b, e⟩ := List.append_of_mem hn
      obtain ⟨d1, hd1, ho1, s0, s1, _⟩ := hm.seen a n b e
      have : d1 = d := mem_offset_inj hm.mf hd1 hdm (by rw [ho1, hno, hk.offset])
      rw [← this]
      exact ⟨s0, s1⟩
  refine ⟨⟨?_, ?_, ?_⟩, ?_, ⟨?_, hcm.file.chain.sorted, hcm.file.chain.level_pos⟩⟩
  · rw [h1]
    exact hm.mf.nodup.sublist ((List.filter_sublist _).map _)
  · intro d hd
    exact hm.mf.norm d (hA d hd).1
  · intro d hd
    obtain ⟨_, d0, hd0, hk, _⟩ := hA d hd
    have := hcm.file.mf.bound d0 hd0
    rw [hk.offset, hk.len, h2, ← hcm.size]
    exact this
  · intro d hd
    rw [h3]
    exact hslot d hd
  · apply linked_of_split
    intro pre m rest e
    obtain ⟨d0, hd0, c1, c2, c3, c4, c5, _, _, _, _, _, c11, c12, c13⟩ :=
      committed_node hc hcm e
    obtain ⟨d, hd, ho, s0, s1, hp⟩ := hm.seen pre m rest e
    have hk := (mended_keeps hm hd0 hd (by rw [ho, c1])).1
    have hd1 : d ∈ db1.mf.recs := hB d0 hd0 d hd (by rw [ho, c1])
    refine ⟨d, hd1, ho, by rw [hk.level, c2], by rw [hk.key, c3], by rw [hk.val, c4],
      by rw [hk.type]; exact c5, ?_, ?_⟩
    · have hmax : max (d.nextloc 0) (d.nextloc 1) = max (d0.nextloc 0) (d0.nextloc 1) := by
        rw [← czero_max s0 s1, ← czero_max c11 c12]
        exact hk.zero
      rcases c13 with ⟨z, t⟩ | ⟨e0, he0, q1, q2, q3⟩
      · left
        exact ⟨by rw [hmax]; exact z, t⟩
      · right
        obtain ⟨e1, he1, hke, _⟩ := hm.since.keeps e0 he0
        have he11 : e1 ∈ db1.mf.recs := hB e0 he0 e1 he1 hke.offset
        refine ⟨e1, he11, by rw [hke.offset, hmax]; exact q1, by rw [hke.offset]; exact q2, ?_⟩
        rcases q3 with ⟨ty, t⟩ | ⟨ty, t⟩
        · left
          have := hke.flat (hcm.flat e0 he0 ty).1
          rw [this]
          exact ⟨ty, t⟩
        · right
          exact ⟨by rw [hke.type]; exact ty, by rw [hke.offset]; exact t⟩
    · intro i hi1 hi2
      have := hp (i + 1) (by omega) (by omega)
      rw [this]
      rfl

theorem keyed_chain {E : Env} (hc : CompareLaws E.compar) {live : List node}
    (hs : (dummyNode :: live).Pairwise (fun a b => E.compar a.key b.key < 0)) :
    keyed (dummyNode :: live) = live.length := by
  have hk : ∀ n ∈ live, n.key ≠ [] := by
    intro n hn hnil
    have := (List.pairwise_cons.1 hs).1 n hn
    rw [hnil] at this
    exact hc.irrefl [] this
  rw [keyed_cons]
  have : keyed live = live.length := by
    unfold keyed
    rw [List.countP_eq_length]
    intro n hn
    simpa using hk n hn
  rw [this]
  show (if ([] : List Nat).length ≠ 0 then 1 else 0) + live.length = live.length
  simp

theorem since_length {cs : Nat} {R0 R : List skiprecord} {chain : List node}
    (hs : Since cs R0 R chain) (hn : (R0.map skiprecord.offset).Nodup) : R0.length ≤ R.length := by
  have hsub : R0.map skiprecord.offset ⊆ R.map skiprecord.offset := by
    intro o ho
    obtain ⟨d0, hd0, rfl⟩ := List.mem_map.1 ho
    obtain ⟨d, hd, hk, _⟩ := hs.keeps d0 hd0
    exact List.mem_map.2 ⟨d, hd, hk.offset⟩
  have := (List.subperm_of_subset hn hsub).length_le
  rw [List.length_map, List.length_map] at this
  exact this

/-- On the file a transaction left dirty over a committed state,
`recovery1` returns 0 and the file holds the committed skip list again. -/
theorem recovery1_ok {E : Env} (hc : CompareLaws E.compar) {cs : Nat} {db0 : dbengine}
    {live0 : List node} (hcm : Committed E cs db0 live0) {db : dbengine}
    (hl : db.mf.lock_status = WRITELOCKED) (hmf : MfOK db.mf)
    (hd : db.header.flags &&& DIRTY ≠ 0) (hcs : db.header.current_size = cs)
    (hend : db.end_ = cs) (hs : Since cs db0.mf.recs db.mf.recs (dummyNode :: live0)) :
    ∃ R, recovery1 db = some (0, recovered db R (live0.length % 2 ^ 64)) ∧
      FileOK E (recovered db R (live0.length % 2 ^ 64)) live0 ∧
      Mended cs db0 (dummyNode :: live0) (setrecs db R) := by
  have h0 := committed_pos hcm
  have hw0 : Walk cs db0 (dummyNode :: live0) db [] (fun _ => 0)
      (fill_loop HEADER_SIZE (MAXLEVEL + 1) 0 (fun _ => 0)) := by
    refine ⟨hmf, hd, hcs, hend, hs, fun h => absurd rfl h, ?_, ?_⟩
    · intro _ j _ hj2
      rw [fill_loop_apply, if_pos (by omega)]
    · intro a m b e
      exact absurd e (by simp)
  obtain ⟨k, hraw⟩ := raw_of_linked hcm.file.mf (dummyNode :: live0) hcm.file.chain.linked
    (by
      intro n hn
      rcases List.mem_cons.1 hn with h | h
      · rw [h]; unfold dummyNode MAXLEVEL; simp
      · exact hcm.file.chain.level_pos n h)
  have hstart : nextAt 0 (dummyNode :: live0) = HEADER_SIZE := by
    simp [nextAt, dummyNode, MAXLEVEL]
  rw [hstart] at hraw
  have hk : k ≤ db.mf.recs.length + 1 :=
    le_trans (raw_le hcm.file.mf hraw)
      (le_trans (since_length hs hcm.file.mf.nodup) (Nat.le_succ _))
  obtain ⟨R1, prev1, next1, w1, w2⟩ := walk_ok hc hcm hraw (db.mf.recs.length + 1) db []
    (fun _ => 0) (fill_loop HEADER_SIZE (MAXLEVEL + 1) 0 (fun _ => 0)) 0 hk rfl hw0
  rw [Nat.zero_mod] at w1
  obtain ⟨R2, t1, t2⟩ := tail_mended hc hcm w2
  rw [setrecs_setrecs] at t1 t2
  rw [keyed_chain hc hcm.file.chain.sorted, Nat.zero_add] at w1
  have hclean : db_is_clean db = false := by
    unfold db_is_clean
    by_cases h : db.header.current_size ≠ _size db
    · rw [if_pos h]
    · rw [if_neg h, if_pos hd]
  have hres : recovery1 db = some (0, recovered db R2 (live0.length % 2 ^ 64)) := by
    unfold recovery1
    rw [if_neg (by simp [hl]), hclean]
    simp only [Bool.false_eq_true, if_false]
    rw [if_neg hd]
    dsimp only
    rw [if_neg (by simp), w1]
    dsimp only
    rw [if_neg (by simp), t1]
    dsimp only
    rw [if_neg (by simp)]
    unfold commit_header write_header recovered mappedfile_truncate setrecs
    dsimp only
    have : max db.header.current_size HEADER_SIZE = db.header.current_size := by
      rw [hcs]
      have := fileOK_size64 hcm.file
      rw [hcm.size] at this
      exact max_eq_left (by omega)
    rw [this]
  refine ⟨R2, hres, ?_, t2⟩
  exact mended_file hc hcm t2 _ (by rw [← hcs]; rfl) hcs hend

theorem run_writes_loc {E : Env} (hc : CompareLaws E.compar) (ops : List write_op) :
    ∀ {db : dbengine} {live : List node}, InTxn E db live → (∀ op ∈ ops, op.key ≠ []) →
      ∀ db1, run_writes E ops db = some db1 → ops ≠ [] → db1.loc.end_ = db1.end_ := by
  induction ops with
  | nil => intro _ _ _ _ _ _ h; exact absurd rfl h
  | cons op rest ih =>
    intro db live h hk db1 hr _
    obtain ⟨r, db2, live2, h1, _, h3, _, _, _, _, h8, _⟩ :=
      skipwrite_ok hc h (hk op (List.mem_cons_self _ _)) op.data op.force
    simp only [run_writes, h1] at hr
    by_cases hr0 : r = 0
    · rw [if_pos hr0] at hr
      by_cases hrest : rest = []
      · subst hrest
        simp only [run_writes, Option.some.injEq] at hr
        rw [← hr]; exact h8
      · exact ih h3 (fun o ho => hk o (List.mem_cons_of_mem _ ho)) db1 hr hrest
    · rw [if_neg hr0] at hr
      cases hr

theorem mended_flat {E : Env} {cs : Nat} {db0 : dbengine} {live0 : List node}
    (hcm : Committed E cs db0 live0) {db : dbengine}
    (hm : Mended cs db0 (dummyNode :: live0) db) :
    ∀ d ∈ db.mf.recs, d.offset < cs → d.type = DELETE → d.level = 0 ∧ d.keylen = 0 := by
  intro d hd hlt hty
  rcases hm.since.rest d hd with h | ⟨d0, hd0, ho⟩
  · omega
  · have hk := (mended_keeps hm hd0 hd ho.symm).1
    rw [hk.level, hk.keylen]
    exact hcm.flat d0 hd0 (by rw [← hk.type]; exact hty)

/-- The abort of a transaction over a committed state: `myabort` returns 0
and leaves the handle between transactions with the committed content. -/
theorem abort_core {E : Env} (hc : CompareLaws E.compar) {db : dbengine} {live0 : List node}
    (hi : Idle E db live0) (hflat : Flat db) (ops : List write_op)
    (hk : ∀ op ∈ ops, op.key ≠ []) {db1 : dbengine}
    (hr : run_writes E ops (begun db) = some db1) :
    ∃ db2 live1, InTxn E db1 live1 ∧ Held db1 ∧
      (∀ k, lookup live1 k = ops.foldl map_write (lookup live0) k) ∧
      (db.mf.header.num_records = live0.length % 2 ^ 64 →
        db1.header.num_records = live1.length % 2 ^ 64) ∧
      db1.header.current_size = db.mf.header.current_size ∧
      recovery1 (aborting db1) = some (0, db2) ∧
      myabort db1 db1.current_txn = some (0, (unlock db2).2) ∧
      Idle E (unlock db2).2 live0 ∧ Flat db2 ∧ FileOK E db2 live0 ∧
      db2.end_ = db.mf.header.current_size ∧
      db2.mf.size = db.mf.header.current_size ∧
      db2.mf.header.current_size = db.mf.header.current_size ∧
      db2.header = db2.mf.header ∧
      db2.mf.header.flags &&& DIRTY = 0 ∧
      (db1.header.flags &&& DIRTY ≠ 0 →
        db2.mf.header.num_records = live0.length % 2 ^ 64) ∧
      (db.mf.header.num_records = live0.length % 2 ^ 64 →
        db2.mf.header.num_records = live0.length % 2 ^ 64) := by
  obtain ⟨_, h2, h3, h4, h5, h6⟩ := newtxn_ok (ctx E 0) hi
  have hcm : Committed E db.mf.header.current_size (begun db) live0 :=
    ⟨h2.file, hi.clean_size.symm, rfl, hflat⟩
  obtain ⟨db1a, live1, g1, g2, g3, g4, g5, g6, g7, g8, g9⟩ :=
    run_writes_since hc (committed_lt hcm) ops h2 h3 rfl
      (since_refl (dummyNode :: live0) h2.dual) (fun n hn => Or.inl hn) hk (by rw [hr]; rfl)
  rw [hr] at g1
  cases g1
  have hcs : db1.header.current_size = db.mf.header.current_size := g4.cs
  have habort : ∀ x, recovery1 (aborting db1) = some (0, x) →
      myabort db1 db1.current_txn = some (0, (unlock x).2) := by
    intro x hx
    unfold myabort
    rw [if_neg (by simp)]
    dsimp only
    have : ({ db1 with current_txn := none, end_ := db1.header.current_size } : dbengine)
        = aborting db1 := rfl
    rw [this, hx]
  rcases g9 with ⟨e1, e2, e3, e4⟩ | ⟨e1, e2⟩
  · subst e4
    have hnd : db1.header.flags &&& DIRTY = 0 := by rw [e3]; exact h4
    have hsz : db1.mf.size = db1.header.current_size := by
      rw [e1, e3]; exact hi.clean_size.symm
    have hrec : recovery1 (aborting db1) = some (0, aborting db1) :=
      (recovery1_clean_noop (aborting db1) g3.lock hnd hsz).1
    have hmfh : db1.mf.header = db.mf.header := by rw [e1]; rfl
    have hfile : FileOK E (aborting db1) live1 :=
      fileOK_of_recs h2.file (by show db1.mf.recs = _; rw [e1])
        (by show db1.mf.size = _; rw [e1]) (by show db1.header.current_size = _; rw [e3]; rfl)
    refine ⟨aborting db1, live1, g2, g3, g7, g8, hcs, hrec, habort _ hrec, ?_, ?_, hfile, hcs,
      by rw [← hcs]; exact hsz, by show db1.mf.header.current_size = _; rw [hmfh],
      by show db1.header = db1.mf.header; rw [hmfh, e3]; rfl,
      by show db1.mf.header.flags &&& DIRTY = 0; rw [hmfh]; exact hi.clean_flags,
      fun h => absurd hnd h, fun h => by show db1.mf.header.num_records = _; rw [hmfh]; exact h⟩
    · refine ⟨g3.is_open, rfl, ?_, ?_, ?_, ?_, ?_⟩
      · show db1.mf.header.version ≤ VERSION
        rw [hmfh]; exact hi.version
      · show db1.mf.header.current_size = db1.mf.size
        rw [hmfh, e1]; exact hi.clean_size
      · show db1.mf.header.flags &&& DIRTY = 0
        rw [hmfh]; exact hi.clean_flags
      · exact fileOK_of_recs hi.file (by show db1.mf.recs = _; rw [e1]; rfl)
          (by show db1.mf.size = _; rw [e1]; rfl)
          (by show db1.mf.header.current_size = _; rw [hmfh]; rfl)
      · intro q1 q2
        have q1 : db1.loc.end_ = db1.mf.header.current_size := q1
        have q2 : db1.loc.generation = db1.mf.header.generation := q2
        rw [hmfh] at q1 q2
        apply g2.cache
        · rw [q1, e2]; rfl
        · rw [q2, e3]; rfl
    · intro d hd
      have hd : d ∈ db1.mf.recs := hd
      rw [e1] at hd
      exact hflat d hd
  · have hne : ops ≠ [] := by
      intro h
      subst h
      simp only [run_writes, Option.some.injEq] at hr
      rw [← hr] at e1
      exact e1 h4
    have hloc := run_writes_loc hc ops h2 hk db1 hr hne
    obtain ⟨R, r1, r2, r3⟩ := @recovery1_ok E hc _ _ _ hcm (aborting db1) g3.lock g2.file.mf e1
      hcs hcs (by exact g5)
    have hmfl := mended_flat hcm r3
    refine ⟨_, live1, g2, g3, g7, g8, hcs, r1, habort _ r1, ?_, ?_, r2, hcs, hcs, hcs, rfl,
      clear_dirty_and _, fun _ => rfl, fun _ => rfl⟩
    · refine ⟨g3.is_open, rfl, g3.version, rfl, clear_dirty_and _, ?_, ?_⟩
      · exact fileOK_of_recs r2 rfl rfl rfl
      · intro q1 _
        have q1 : db1.loc.end_ = db1.header.current_size := q1
        have : (begun db).end_ = db.mf.header.current_size := rfl
        omega
    · intro d hd
      have hd : d ∈ R.filter (fun d => decide (d.offset < db1.header.current_size)) := hd
      rw [List.mem_filter] at hd
      exact hmfl d hd.1 (by rw [← hcs]; simpa using hd.2)

theorem flat_new (flags : Nat) (src : Nat → Bool) : Flat (new_db flags src) := by
  intro d hd hty
  have hd : d ∈ [new_dummy] := hd
  rw [List.mem_singleton] at hd
  subst hd
  exact absurd hty (by decide)

theorem fetch_idle {E : Env} (hc : CompareLaws E.compar) (C : Ctx) {db : dbengine}
    {live : List node} (h : Idle E db live) {key : List Nat} (hk : key ≠ []) :
    ∃ db1, fetch E C db key none =
      some ⟨if lookup live key = none then CYRUSDB_NOTFOUND else 0, db1, none, some key,
        lookup live key⟩ := by
  obtain ⟨db1, f1, _⟩ := myfetch_idle hc C h key
  refine ⟨db1, ?_⟩
  unfold fetch
  rw [if_neg (fun e => hk (List.length_eq_zero.1 e))]
  exact f1

/-- C2: from a database between transactions whose delete records are as
`delete_here` writes them, a transaction makes any sequence `ops` of stores
and deletes of non-empty keys, each returning 0 (a call that fails aborts the
transaction itself); `myabort`, which runs `recovery1` with `end` =
`current_size`, then returns 0 and leaves a handle between transactions on
which `fetch` of every key returns the code and the value it returned at the
start of the transaction, so that a key that was not found then (one the
transaction inserted) is not found again; the file size is the
`current_size` the header had at the start, and DIRTY is clear in the header
of the file and in the header in memory. -/
theorem abort_restores {E : Env} (hc : CompareLaws E.compar) (C : Ctx) {db : dbengine}
    {live0 : List node} (hi : Idle E db live0) (hflat : Flat db) (ops : List write_op)
    (hk : ∀ op ∈ ops, op.key ≠ []) {db1 : dbengine}
    (hr : run_writes E ops (begun db) = some db1) :
    ∃ db2, myabort db1 db1.current_txn = some (0, db2) ∧ Idle E db2 live0 ∧
      (∀ key, key ≠ [] → ∃ r v dbA dbB,
        fetch E C db key none = some ⟨r, dbA, none, some key, v⟩ ∧
        fetch E C db2 key none = some ⟨r, dbB, none, some key, v⟩) ∧
      (∀ op ∈ ops,
        (∃ dbA, fetch E C db op.key none
          = some ⟨CYRUSDB_NOTFOUND, dbA, none, some op.key, none⟩) →
        ∃ dbB, fetch E C db2 op.key none
          = some ⟨CYRUSDB_NOTFOUND, dbB, none, some op.key, none⟩) ∧
      db2.mf.size = db.mf.header.current_size ∧
      db2.mf.header.current_size = db.mf.header.current_size ∧
      db2.mf.header.flags &&& DIRTY = 0 ∧ db2.header.flags &&& DIRTY = 0 ∧
      db2.current_txn = none ∧ db2.mf.lock_status = UNLOCKED := by
  obtain ⟨db2, live1, _, _, _, _, _, a6, a7, a8, _, _, _, a12, a13, a14, a15, _⟩ :=
    abort_core hc hi hflat ops hk hr
  have hfetch : ∀ key, key ≠ [] → ∃ r v dbA dbB,
      fetch E C db key none = some ⟨r, dbA, none, some key, v⟩ ∧
      fetch E C (unlock db2).2 key none = some ⟨r, dbB, none, some key, v⟩ := by
    intro key hkey
    obtain ⟨dbA, fA⟩ := fetch_idle hc C hi hkey
    obtain ⟨dbB, fB⟩ := fetch_idle hc C a8 hkey
    exact ⟨_, _, dbA, dbB, fA, fB⟩
  refine ⟨(unlock db2).2, a7, a8, hfetch, ?_, a12, a13, a15, ?_, ?_, rfl⟩
  · intro op hop ⟨dbA, fA⟩
    obtain ⟨r, v, dbA1, dbB, g1, g2⟩ := hfetch op.key (hk op hop)
    rw [fA] at g1
    simp only [Option.some.injEq, fetch_result.mk.injEq] at g1
    obtain ⟨e1, _, _, _, e2⟩ := g1
    rw [← e1, ← e2] at g2
    exact ⟨dbB, g2⟩
  · show db2.header.flags &&& DIRTY = 0
    rw [a14]; exact a15
  · show db2.current_txn = none
    have := a8.no_txn
    exact this

theorem abort_restores_witness :
    ∃ db1, one_store = some db1 ∧
    ∃ db2, myabort db1 db1.current_txn = some (0, db2) ∧ Idle raw_env db2 [] ∧
      (∀ key, key ≠ [] → ∃ r v dbA dbB,
        fetch raw_env (ctx raw_env 1) (new_db 0 (fun _ => false)) key none
          = some ⟨r, dbA, none, some key, v⟩ ∧
        fetch raw_env (ctx raw_env 1) db2 key none = some ⟨r, dbB, none, some key, v⟩) ∧
      (∀ op ∈ [(⟨[1], some [5], false⟩ : write_op)],
        (∃ dbA, fetch raw_env (ctx raw_env 1) (new_db 0 (fun _ => false)) op.key none
          = some ⟨CYRUSDB_NOTFOUND, dbA, none, some op.key, none⟩) →
        ∃ dbB, fetch raw_env (ctx raw_env 1) db2 op.key none
          = some ⟨CYRUSDB_NOTFOUND, dbB, none, some op.key, none⟩) ∧
      db2.mf.size = (new_db 0 (fun _ => false)).mf.header.current_size ∧
      db2.mf.header.current_size = (new_db 0 (fun _ => false)).mf.header.current_size ∧
      db2.mf.header.flags &&& DIRTY = 0 ∧ db2.header.flags &&& DIRTY = 0 ∧
      db2.current_txn = none ∧ db2.mf.lock_status = UNLOCKED :=
  ⟨Option.get one_store (by decide), (Option.some_get _).symm,
    abort_restores raw_laws (ctx raw_env 1) (idle_new raw_env 0 (fun _ => false))
      (flat_new 0 (fun _ => false)) [⟨[1], some [5], false⟩] (by decide)
      (Option.some_get _).symm⟩

theorem mycommit_num {E : Env} (hc : CompareLaws E.compar) (d : Nat) {db : dbengine}
    {live : List node} (h : InTxn E db live) (hh : Held db)
    (hn : db.header.num_records = live.length % 2 ^ 64) :
    ∃ db1 live1, mycommit E (ctx E (d + 1)) db db.current_txn = some (0, db1) ∧
      Idle E db1 live1 ∧ (∀ k, lookup live1 k = lookup live k) ∧
      db1.mf.header.num_records = live1.length % 2 ^ 64 := by
  obtain ⟨db1, live1, m1, m2, m3, m4⟩ := mycommit_ok hc d h hh
  refine ⟨db1, live1, m1, m2, m3, ?_⟩
  by_cases hnc : needs_checkpoint E (commit_body db)
  · have hm := h.file.mf
    have hb : ∀ d ∈ db.mf.recs, d.offset + d.len ≤ db.end_ := by
      intro d hd1
      have := (hm.bound d hd1).2
      have := h.size
      omega
    have h64 : HEADER_SIZE ≤ db.mf.size := by
      have := fileOK_size64 h.file
      omega
    have e : mycommit E (ctx E (d + 1)) db db.current_txn
        = commit_finish E (ctx E (d + 1)) (commit_body db) := by
      unfold commit_body
      by_cases hd : db.header.flags &&& DIRTY = 0
      · rw [if_pos hd, mycommit_clean E _ rfl hd]
      · rw [if_neg hd, mycommit_dirty E _ rfl hd h.txn hb h.size h64]
    rw [e] at m1
    unfold commit_finish at m1
    rw [if_pos hnc] at m1
    obtain ⟨db3, live3, c1, c2, c3, c4, _⟩ :=
      mycheckpoint_ok hc (ctx E d) (intxn_commit_body h hh)
    have c1 : (ctx E (d + 1)).mycheckpoint (commit_body db) = some (0, db3) := c1
    rw [c1] at m1
    dsimp only at m1
    rw [drop_txn_idle c2] at m1
    simp only [Option.some.injEq, Prod.mk.injEq, true_and] at m1
    subst m1
    have hl : live1.map kv = live.map kv :=
      sorted_kv_ext hc live1 live (List.pairwise_cons.1 m2.file.chain.sorted).2
        (List.pairwise_cons.1 h.file.chain.sorted).2 m3
    have hlen : live1.length = live.length := by
      have := congrArg List.length hl
      rw [List.length_map, List.length_map] at this
      exact this
    rw [c4, hlen]
  · obtain ⟨e1, e2⟩ := m4 hnc
    rw [e1, e2]
    show (commit_body db).mf.header.num_records = _
    unfold commit_body
    by_cases hd : db.header.flags &&& DIRTY = 0
    · rw [if_pos hd, (hh.clean hd).1]
      exact hn
    · rw [if_neg hd]
      exact hn

/-- C29: from a database between transactions whose header counts its live
records (`num_records` = their number, modulo `2 ^ 64`, the width of the
field), a transaction makes any sequence `ops` of stores (insert or replace)
and deletes of non-empty keys, each returning 0; then the header in memory
counts the live records `live1` of the file, the chain of records reachable
from the dummy record that are neither delete nor commit records; after
`mycommit` the header of the file counts the live records of the file; and
after `recovery1` (as `myabort` calls it) the header in memory and the header
of the file count the live records of the file, those of the start of the
transaction, where the recount of a dirty file does not depend on the count in
the header. -/
theorem num_records_invariant {E : Env} (hc : CompareLaws E.compar) (d : Nat) {db : dbengine}
    {live0 : List node} (hi : Idle E db live0) (hflat : Flat db) (ops : List write_op)
    (hk : ∀ op ∈ ops, op.key ≠ []) {db1 : dbengine}
    (hr : run_writes E ops (begun db) = some db1) :
    ∃ live1, InTxn E db1 live1 ∧
      (∀ k, lookup live1 k = ops.foldl map_write (lookup live0) k) ∧
      (db.mf.header.num_records = live0.length % 2 ^ 64 →
        db1.header.num_records = live1.length % 2 ^ 64 ∧
        (∃ db2 live2, mycommit E (ctx E (d + 1)) db1 db1.current_txn = some (0, db2) ∧
          Idle E db2 live2 ∧ (∀ k, lookup live2 k = lookup live1 k) ∧
          db2.mf.header.num_records = live2.length % 2 ^ 64) ∧
        (∃ db3, recovery1 (aborting db1) = some (0, db3) ∧ FileOK E db3 live0 ∧
          db3.header.num_records = live0.length % 2 ^ 64 ∧
          db3.mf.header.num_records = live0.length % 2 ^ 64)) ∧
      (db1.header.flags &&& DIRTY ≠ 0 →
        ∃ db3, recovery1 (aborting db1) = some (0, db3) ∧ FileOK E db3 live0 ∧
          db3.header.num_records = live0.length % 2 ^ 64 ∧
          db3.mf.header.num_records = live0.length % 2 ^ 64) := by
  obtain ⟨db2, live1, a1, a2, a3, a4, _, a6, _, _, _, a10, _, _, _, a14, _, a16, a17⟩ :=
    abort_core hc hi hflat ops hk hr
  refine ⟨live1, a1, a3, ?_, ?_⟩
  · intro hn
    exact ⟨a4 hn, mycommit_num hc d a1 a2 (a4 hn),
      db2, a6, a10, by rw [a14]; exact a17 hn, a17 hn⟩
  · intro hd
    exact ⟨db2, a6, a10, by rw [a14]; exact a16 hd, a16 hd⟩

theorem num_records_invariant_witness :
    ∃ db1, one_store = some db1 ∧
    ∃ live1, InTxn raw_env db1 live1 ∧
      (∀ k, lookup live1 k
        = [(⟨[1], some [5], false⟩ : write_op)].foldl map_write (lookup []) k) ∧
      ((new_db 0 (fun _ => false)).mf.header.num_records = ([] : List node).length % 2 ^ 64 →
        db1.header.num_records = live1.length % 2 ^ 64 ∧
        (∃ db2 live2, mycommit raw_env (ctx raw_env (0 + 1)) db1 db1.current_txn = some (0, db2) ∧
          Idle raw_env db2 live2 ∧ (∀ k, lookup live2 k = lookup live1 k) ∧
          db2.mf.header.num_records = live2.length % 2 ^ 64) ∧
        (∃ db3, recovery1 (aborting db1) = some (0, db3) ∧ FileOK raw_env db3 [] ∧
          db3.header.num_records = ([] : List node).length % 2 ^ 64 ∧
          db3.mf.header.num_records = ([] : List node).length % 2 ^ 64)) ∧
      (db1.header.flags &&& DIRTY ≠ 0 →
        ∃ db3, recovery1 (aborting db1) = some (0, db3) ∧ FileOK raw_env db3 [] ∧
          db3.header.num_records = ([] : List node).length % 2 ^ 64 ∧
          db3.mf.header.num_records = ([] : List node).length % 2 ^ 64) :=
  ⟨Option.get one_store (by decide), (Option.some_get _).symm,
    num_records_invariant raw_laws 0 (idle_new raw_env 0 (fun _ => false))
      (flat_new 0 (fun _ => false)) [⟨[1], some [5], false⟩] (by decide)
      (Option.some_get _).symm⟩

/-! ## The consistency check, exactly -/

/-- C31 (as stated, refuted by the code): on the clean file `torn_db` the
read of the DUMMY record fails with `CYRUSDB_IOERROR`, and yet `relocate` and
`find_loc` return 0 and `fetch` returns `CYRUSDB_NOTFOUND`, the code of a key
that is absent; in a transaction on this file `stitch` fails with
`CYRUSDB_IOERROR` on the handle `store_here` passes to it, and yet `store_here`
and `store` (with the transaction, and with none) return 0, after which `fetch`
does not find the key stored. -/
theorem internal_errors_dropped :
    (read_record torn_db HEADER_SIZE).map (fun r => r.1) = some CYRUSDB_IOERROR ∧
    (relocate raw_env { torn_db with loc := { torn_db.loc with keybuf := [1] } }).map
      (fun r => r.1) = some 0 ∧
    (find_loc raw_env torn_db [1]).map (fun r => r.1) = some 0 ∧
    (fetch raw_env (ctx raw_env 1) torn_db [1] none).map (fun r => r.r)
      = some CYRUSDB_NOTFOUND ∧
    (torn_appended.bind fun db => stitch db 1).map (fun r => r.1) = some CYRUSDB_IOERROR ∧
    (torn_txn.bind fun db => store_here db [5]).map (fun r => r.1) = some 0 ∧
    ((newtxn (ctx raw_env 1) torn_db none).bind fun r =>
      store raw_env (ctx raw_env 1) r.2.1 [1] (some [5]) (some r.2.2)).map (fun r => r.1)
      = some 0 ∧
    (store raw_env (ctx raw_env 1) torn_db [1] (some [5]) none).map (fun r => r.1) = some 0 ∧
    ((store raw_env (ctx raw_env 1) torn_db [1] (some [5]) none).bind fun r =>
      fetch raw_env (ctx raw_env 1) r.2.1 [1] none).map (fun r => r.r)
      = some CYRUSDB_NOTFOUND := by
  decide

/-! ## The generation after `recovery2` -/

/-- C32 (as stated, refuted by the code): `recovery2` on the database
`aged_db` of generation 7, which holds one committed record, returns 0 with
that record replayed (`num_records` = 1, and `fetch` finds the key), and the
generation of the rebuilt file is 1, in its header and in memory, not 8. -/
theorem recovery2_generation_lost :
    aged_db.map (fun db => (db.header.generation, db.mf.header.generation)) = some (7, 7) ∧
    (aged_db.bind fun db => recovery2 raw_env (ctx raw_env 1) db).map
      (fun r => (r.1, r.2.header.num_records, r.2.mf.header.generation,
        r.2.header.generation)) = some (0, 1, 1, 1) ∧
    ((aged_db.bind fun db => recovery2 raw_env (ctx raw_env 1) db).bind fun r =>
      fetch raw_env (ctx raw_env 1) (unlock r.2).2 [1] none).map (fun r => (r.r, r.data))
      = some (0, some [5]) := by
  decide

/-! ## The header after an abort -/

/-- C39 (as stated, refuted by the code): the first transaction of a new
database stores one key and is aborted; `myabort` returns 0 and the
`generation` (1) and `current_size` (336) are those of the start, but
`repack_size` is 376 in memory and in the header of the file, not the 336 of
the start of the transaction: the 40 bytes of the record that was rolled back
stay counted. -/
theorem abort_keeps_repack_size :
    ((begun (new_db 0 (fun _ => false))).header.repack_size,
      (begun (new_db 0 (fun _ => false))).header.generation,
      (begun (new_db 0 (fun _ => false))).header.current_size) = (336, 1, 336) ∧
    one_store.map (fun db => db.header.repack_size) = some 376 ∧
    (one_store.bind fun db => myabort db db.current_txn).map
      (fun r => (r.1, r.2.header.repack_size, r.2.mf.header.repack_size))
      = some (0, 376, 376) ∧
    (one_store.bind fun db => myabort db db.current_txn).map
      (fun r => (r.2.header.generation, r.2.mf.header.generation,
        r.2.header.current_size, r.2.mf.header.current_size, r.2.mf.size))
      = some (1, 1, 336, 336, 336) := by
  decide

/-! ## The cached record is the record on file -/

theorem read_record_fresh {db : dbengine} (hm : MfOK db.mf) {off : Nat} {r : skiprecord}
    (h : read_record db off = some (0, r)) : Fresh db r := by
  unfold Fresh
  rw [(read_record_some hm h).2]
  exact h

theorem fresh_congr {db db1 : dbengine} {r : skiprecord} (h : Fresh db r)
    (h1 : db1.mf = db.mf) : Fresh db1 r := by
  unfold Fresh
  rw [read_record_mf h1]
  exact h

theorem relocate_loop_fresh (E : Env) {db : dbengine} (hm : MfOK db.mf) :
    ∀ (fuel l : Nat) (loc : skiploc) (nr : skiprecord) (cmp : Int)
      {loc1 : skiploc} {nr1 : skiprecord} {cmp1 : Int},
      Fresh db loc.record → (cmp = 0 → Fresh db nr) →
      relocate_loop E db fuel l loc nr cmp = some (0, loc1, nr1, cmp1) →
      Fresh db loc1.record ∧ (cmp1 = 0 → Fresh db nr1) := by
  intro fuel
  induction fuel with
  | zero =>
    intro l loc nr cmp loc1 nr1 cmp1 h1 h2 h
    cases l with
    | zero =>
      simp only [relocate_loop, Option.some.injEq, Prod.mk.injEq, true_and] at h
      rw [← h.1, ← h.2.1, ← h.2.2]; exact ⟨h1, h2⟩
    | succ l => simp [relocate_loop] at h
  | succ n ih =>
    intro l loc nr cmp loc1 nr1 cmp1 h1 h2 h
    cases l with
    | zero =>
      simp only [relocate_loop, Option.some.injEq, Prod.mk.injEq, true_and] at h
      rw [← h.1, ← h.2.1, ← h.2.2]; exact ⟨h1, h2⟩
    | succ l =>
      simp only [relocate_loop] at h
      split at h
      · cases h
      · rename_i r0 offset _
        split at h
        · rename_i hr0
          simp only [Option.some.injEq, Prod.mk.injEq] at h
          exact absurd h.1 hr0
        · split at h
          · split at h
            · cases h
            · rename_i r1 nrx hread
              split at h
              · rename_i hr1
                simp only [Option.some.injEq, Prod.mk.injEq] at h
                exact absurd h.1 hr1
              · rename_i hr1
                have hr1 : r1 = 0 := by simpa using hr1
                subst hr1
                have hk := read_record_fresh hm hread
                split at h
                · exact ih _ _ _ _ (by exact hk) (fun _ => hk) h
                · exact ih _ _ _ _ (by exact h1) (fun _ => hk) h
          · exact ih _ _ _ _ (by exact h1) h2 h

theorem relocate_fresh {E : Env} {db : dbengine} {live : List node} (hf : FileOK E db live)
    {db1 : dbengine} (h : relocate E db = some (0, db1)) : Fresh db db1.loc.record := by
  have hm := hf.mf
  unfold relocate at h
  dsimp only at h
  obtain ⟨d, hd, ho, _⟩ := hf.chain.linked.1
  have hr : read_record db HEADER_SIZE = some (0, d) := by
    have := read_record_of_mem hm hd
    rw [ho] at this
    exact this
  · have hk : Fresh db d := read_record_fresh hm hr
    rw [hr] at h
    dsimp only at h
    split at h
    · split at h
      · cases h
      · rename_i r1 loc2 hfw
        simp only [Option.some.injEq, Prod.mk.injEq] at h
        rw [← h.2]
        rw [show ({ db with loc := loc2 } : dbengine).loc.record = loc2.record from rfl,
          forward_loop_record _ _ _ _ _ _ hfw]
        exact hk
    · split at h
      · cases h
      · rename_i r1 loc2 nr cmp hloop
        split at h
        · rename_i hr1
          simp only [Option.some.injEq, Prod.mk.injEq] at h
          exact absurd h.1 hr1
        · rename_i hr1
          have hr1 : r1 = 0 := by simpa using hr1
          subst hr1
          obtain ⟨k1, k2⟩ := relocate_loop_fresh E hm _ _ _ _ _ (by exact hk)
            (fun h0 => absurd h0 (by decide)) hloop
          split at h
          · rename_i hcmp
            split at h
            · cases h
            · rename_i r2 loc4 hfw
              have e := forward_loop_record _ _ _ _ _ _ hfw
              split at h
              · simp only [Option.some.injEq, Prod.mk.injEq] at h
                rw [← h.2]
                show Fresh db loc4.record
                rw [e]; exact k2 hcmp
              · simp only [Option.some.injEq, Prod.mk.injEq] at h
                rw [← h.2]
                show Fresh db loc4.record
                rw [e]; exact k2 hcmp
          · simp only [Option.some.injEq, Prod.mk.injEq] at h
            rw [← h.2]
            exact k1

theorem find_loc_fresh {E : Env} {db : dbengine} {live : List node} (hf : FileOK E db live)
    (hk0 : db.loc.end_ = db.end_ → db.loc.generation = db.header.generation →
      Fresh db db.loc.record) {key : List Nat} {db1 : dbengine}
    (h : find_loc E db key = some (0, db1)) : Fresh db db1.loc.record := by
  have hm := hf.mf
  have hrel : ∀ (dbx : dbengine), relocate E dbx = some (0, db1) →
      dbx.mf = db.mf → dbx.end_ = db.end_ → Fresh db db1.loc.record := by
    intro dbx hx e1 e2
    have := relocate_fresh (hf.congr e1 e2) hx
    exact fresh_congr this e1.symm
  unfold find_loc at h
  dsimp only at h
  split at h
  · rename_i hfp
    have hk : Fresh db db.loc.record := hk0 hfp.2.1 hfp.2.2
    split at h
    · simp only [Option.some.injEq, Prod.mk.injEq, true_and] at h
      rw [← h]; exact hk
    · split at h
      · split at h
        · simp only [Option.some.injEq, Prod.mk.injEq, true_and] at h
          rw [← h]; exact hk
        · split at h
          · cases h
          · rename_i r nr hread
            split at h
            · rename_i hr
              simp only [Option.some.injEq, Prod.mk.injEq] at h
              exact absurd h.1 hr
            · rename_i hr
              have hr : r = 0 := by simpa using hr
              subst hr
              have hread : read_record db _ = some (0, nr) :=
                (read_record_mf (by rfl) _).symm.trans hread
              have hnk := read_record_fresh hm hread
              split at h
              · split at h
                · cases h
                · rename_i r2 loc3 hfw
                  have e := forward_loop_record _ _ _ _ _ _ hfw
                  split at h
                  · simp only [Option.some.injEq, Prod.mk.injEq] at h
                    rw [← h.2]
                    show Fresh db loc3.record
                    rw [e]; exact hnk
                  · simp only [Option.some.injEq, Prod.mk.injEq] at h
                    rw [← h.2]
                    show Fresh db loc3.record
                    rw [e]; exact hnk
              · split at h
                · simp only [Option.some.injEq, Prod.mk.injEq, true_and] at h
                  rw [← h]; exact hk
                · exact hrel _ h rfl rfl
      · exact hrel _ h rfl rfl
  · exact hrel _ h rfl rfl

theorem read_record_offset {db : dbengine} {off : Nat} {r : Int} {rec : skiprecord}
    (h : read_record db off = some (r, rec)) : rec.offset = off := by
  unfold read_record at h
  dsimp only at h
  split at h
  · simp only [Option.some.injEq, Prod.mk.injEq] at h
    rw [← h.2]
  · split at h
    · simp only [Option.some.injEq, Prod.mk.injEq] at h
      rw [← h.2]
    · split at h
      · cases h
      · split at h
        · simp only [Option.some.injEq, Prod.mk.injEq] at h
          rw [← h.2]
        · simp only [Option.some.injEq, Prod.mk.injEq] at h
          rw [← h.2]

/-- The record that `store_here` leaves in the location is the one on
file. -/
theorem store_here_fresh {db : dbengine} {val : List Nat} {db1 : dbengine}
    (h : store_here db val = some (0, db1)) : Fresh db1 db1.loc.record := by
  unfold store_here at h
  dsimp only at h
  split at h
  · cases h
  · rename_i r db3 nr1 _
    split at h
    · rename_i hr
      simp only [Option.some.injEq, Prod.mk.injEq] at h
      exact absurd h.1 hr
    · split at h
      · cases h
      · rename_i r5 db5 _
        split at h
        · cases h
        · rename_i r6 rec hread
          split at h
          · rename_i hr
            simp only [Option.some.injEq, Prod.mk.injEq] at h
            exact absurd h.1 hr
          · rename_i hr
            have hr : r6 = 0 := by simpa using hr
            subst hr
            simp only [Option.some.injEq, Prod.mk.injEq, true_and] at h
            rw [← h]
            unfold Fresh
            dsimp only
            rw [read_record_offset hread, ← hread]
            exact read_record_mf rfl _

/-- The record that `delete_here` leaves in the location is the one on
file. -/
theorem delete_here_fresh {db : dbengine} {db1 : dbengine}
    (h : delete_here db = some (0, db1)) : Fresh db1 db1.loc.record := by
  unfold delete_here at h
  dsimp only at h
  split at h
  · simp only [Option.some.injEq, Prod.mk.injEq] at h
    exact absurd h.1 (by decide)
  · split at h
    · cases h
    · rename_i r db2 nr1 _
      split at h
      · rename_i hr
        simp only [Option.some.injEq, Prod.mk.injEq] at h
        exact absurd h.1 hr
      · split at h
        · cases h
        · rename_i r4 db4 _
          split at h
          · rename_i hr
            simp only [Option.some.injEq, Prod.mk.injEq] at h
            exact absurd h.1 hr
          · split at h
            · cases h
            · rename_i r5 rec hread
              split at h
              · rename_i hr
                simp only [Option.some.injEq, Prod.mk.injEq] at h
                exact absurd h.1 hr
              · rename_i hr
                have hr : r5 = 0 := by simpa using hr
                subst hr
                simp only [Option.some.injEq, Prod.mk.injEq, true_and] at h
                rw [← h]
                unfold Fresh
                dsimp only
                rw [read_record_offset hread, ← hread]
                exact read_record_mf rfl _

/-- The record that `advance_loc` leaves in the location is the one on
file. -/
theorem advance_loc_fresh {E : Env} (hc : CompareLaws E.compar) {db : dbengine}
    {live : List node} (hf : FileOK E db live)
    (hk : db.loc.end_ = db.end_ → db.loc.generation = db.header.generation →
      Fresh db db.loc.record) {db1 : dbengine}
    (h : advance_loc E db = some (0, db1)) : Fresh db db1.loc.record := by
  have hm := hf.mf
  obtain ⟨locR, hrel, _⟩ := relocate_ok hc hf
  have hA : ∃ locA, (if db.loc.end_ ≠ db.end_ ∨ db.loc.generation ≠ db.header.generation
        then relocate E db else some (0, db)) = some (0, { db with loc := locA }) ∧
      Fresh db locA.record := by
    by_cases hst : db.loc.end_ ≠ db.end_ ∨ db.loc.generation ≠ db.header.generation
    · rw [if_pos hst]
      exact ⟨locR, hrel, relocate_fresh hf hrel⟩
    · rw [if_neg hst]
      have hst1 : db.loc.end_ = db.end_ ∧ db.loc.generation = db.header.generation := by
        constructor
        · by_contra h0; exact hst (Or.inl h0)
        · by_contra h0; exact hst (Or.inr h0)
      exact ⟨db.loc, rfl, hk hst1.1 hst1.2⟩
  obtain ⟨locA, hrunA, hkA⟩ := hA
  unfold advance_loc at h
  dsimp only at h
  rw [hrunA] at h
  dsimp only at h
  simp only [ne_eq, not_true_eq_false, if_false] at h
  split at h
  · have h2 : Fresh _ db1.loc.record := relocate_fresh (by exact hf.congr rfl rfl) h
    exact fresh_congr h2 rfl
  · split at h
    · cases h
    · rename_i r nr hread
      have hread : read_record db _ = some (r, nr) :=
        (read_record_mf (by rfl) _).symm.trans hread
      split at h
      · rename_i hr
        simp only [Option.some.injEq, Prod.mk.injEq] at h
        exact absurd h.1 hr
      · rename_i hr
        have hr : r = 0 := by simpa using hr
        subst hr
        have hnk := read_record_fresh hm hread
        split at h
        · cases h
        · rename_i r2 loc3 hfw
          have e := forward_loop_record _ _ _ _ _ _ hfw
          split at h
          · simp only [Option.some.injEq, Prod.mk.injEq] at h
            rw [← h.2]
            show Fresh db loc3.record
            rw [e]; exact hnk
          · simp only [Option.some.injEq, Prod.mk.injEq] at h
            rw [← h.2]
            show Fresh db loc3.record
            rw [e]; exact hnk

theorem split_pred_unique {α : Type} (P : α → Prop) :
    ∀ {a a1 b b1 : List α}, a ++ b = a1 ++ b1 →
      (∀ n ∈ a, P n) → (∀ n ∈ b, ¬ P n) → (∀ n ∈ a1, P n) → (∀ n ∈ b1, ¬ P n) →
      a = a1 ∧ b = b1 := by
  intro a
  induction a with
  | nil =>
    intro a1 b b1 e _ hb ha1 _
    cases a1 with
    | nil => exact ⟨rfl, by simpa using e⟩
    | cons y a1 =>
      simp only [List.nil_append, List.cons_append] at e
      exact absurd (ha1 y (List.mem_cons_self _ _)) (hb y (by rw [e]; exact List.mem_cons_self _ _))
  | cons x a ih =>
    intro a1 b b1 e ha hb ha1 hb1
    cases a1 with
    | nil =>
      simp only [List.nil_append, List.cons_append] at e
      exact absurd (ha x (List.mem_cons_self _ _))
        (hb1 x (by rw [← e]; exact List.mem_cons_self _ _))
    | cons y a1 =>
      simp only [List.cons_append, List.cons.injEq] at e
      obtain ⟨e1, e2⟩ := ih e.2 (fun n hn => ha n (List.mem_cons_of_mem _ hn)) hb
        (fun n hn => ha1 n (List.mem_cons_of_mem _ hn)) hb1
      exact ⟨by rw [e.1, e1], e2⟩

/-- What a location says, with the live records split at the key. -/
theorem locAt_parts {E : Env} (hc : CompareLaws E.compar) {loc : skiploc} {live : List node}
    (hsort : (dummyNode :: live).Pairwise (fun a b => E.compar a.key b.key < 0))
    (hlev : ∀ n ∈ dummyNode :: live, n.level ≤ MAXLEVEL)
    (h : LocAt E loc live) :
    ∃ p pre S, live = p ++ (pre ++ S) ∧ (∀ n ∈ p, E.compar n.key loc.keybuf < 0) ∧
      (∀ n ∈ pre, n.key = loc.keybuf) ∧ pre.length ≤ 1 ∧
      (∀ n ∈ S, E.compar loc.keybuf n.key < 0) ∧
      (loc.is_exactmatch = true ↔ pre ≠ []) ∧
      RecOf loc.record (lastNode (p ++ pre)) ∧
      (∀ i, i < MAXLEVEL → loc.backloc i = lastAt i (dummyNode :: p)) ∧
      (∀ i, i < MAXLEVEL → loc.forwardloc i = nextAt i S) := by
  obtain ⟨p, pre, S, hlive, hlt, hback, hfwd, hgt, _, _, hcase⟩ := locAt_unify hc hsort hlev h
  refine ⟨p, pre, S, hlive, hlt, ?_, ?_, hgt, ?_, ?_, hback, hfwd⟩
  · rcases hcase with ⟨_, hp, _⟩ | ⟨_, m, hp, hm, _⟩
    · rw [hp]; intro n hn; cases hn
    · rw [hp]; intro n hn
      rw [List.mem_singleton] at hn
      rw [hn]; exact hm
  · rcases hcase with ⟨_, hp, _⟩ | ⟨_, m, hp, _, _⟩
    · rw [hp]; exact Nat.zero_le _
    · rw [hp]; exact le_refl _
  · rcases hcase with ⟨he, hp, _⟩ | ⟨he, m, hp, _, _⟩
    · rw [he, hp]; simp
    · rw [he, hp]; simp
  · rcases hcase with ⟨_, hp, hr⟩ | ⟨_, m, hp, _, hr⟩
    · rw [hp, List.append_nil]; exact hr
    · rw [hp, lastNode_concat]; exact hr

/-- Two locations for the same key over the same skip list agree. -/
theorem locAt_agree {E : Env} (hc : CompareLaws E.compar) {a b : skiploc} {live : List node}
    (hsort : (dummyNode :: live).Pairwise (fun x y => E.compar x.key y.key < 0))
    (hlev : ∀ n ∈ dummyNode :: live, n.level ≤ MAXLEVEL)
    (ha : LocAt E a live) (hb : LocAt E b live) (hkey : a.keybuf = b.keybuf) :
    a.is_exactmatch = b.is_exactmatch ∧ a.record.offset = b.record.offset ∧
      (∀ i, i < MAXLEVEL → a.backloc i = b.backloc i) ∧
      (∀ i, i < MAXLEVEL → a.forwardloc i = b.forwardloc i) := by
  obtain ⟨p, pre, S, hl, hlt, heq, _, hgt, hex, hrec, hback, hfwd⟩ :=
    locAt_parts hc hsort hlev ha
  obtain ⟨p1, pre1, S1, hl1, hlt1, heq1, _, hgt1, hex1, hrec1, hback1, hfwd1⟩ :=
    locAt_parts hc hsort hlev hb
  rw [← hkey] at hlt1 heq1 hgt1
  have hz : ∀ n : node, n.key = a.keybuf → E.compar n.key a.keybuf = 0 :=
    fun n hn => (hc.eq_zero _ _).2 hn
  have e0 : (p ++ pre) ++ S = (p1 ++ pre1) ++ S1 := by
    rw [List.append_assoc, List.append_assoc, ← hl, ← hl1]
  have hle : ∀ (q r : List node), (∀ n ∈ q, E.compar n.key a.keybuf < 0) →
      (∀ n ∈ r, n.key = a.keybuf) → ∀ n ∈ q ++ r, E.compar n.key a.keybuf ≤ 0 := by
    intro q r hq hr n hn
    rcases List.mem_append.1 hn with h1 | h1
    · exact le_of_lt (hq n h1)
    · exact le_of_eq (hz n (hr n h1))
  obtain ⟨e1, e2⟩ := split_le_unique hc e0 (hle p pre hlt heq) hgt (hle p1 pre1 hlt1 heq1) hgt1
  have hnot : ∀ (r : List node), (∀ n ∈ r, n.key = a.keybuf) →
      ∀ n ∈ r, ¬ E.compar n.key a.keybuf < 0 := by
    intro r hr n hn h0
    have := hz n (hr n hn)
    omega
  obtain ⟨e3, e4⟩ := split_pred_unique (fun n : node => E.compar n.key a.keybuf < 0) e1
    hlt (hnot pre heq) hlt1 (hnot pre1 heq1)
  subst e2 e3 e4
  refine ⟨?_, ?_, ?_, ?_⟩
  · cases h1 : a.is_exactmatch <;> cases h2 : b.is_exactmatch
    · rfl
    · exact absurd (hex.2 (hex1.1 h2)) (by rw [h1]; decide)
    · exact absurd (hex1.2 (hex.1 h1)) (by rw [h2]; decide)
    · rfl
  · rw [hrec.1, hrec1.1]
  · intro i hi; rw [hback i hi, hback1 i hi]
  · intro i hi; rw [hfwd i hi, hfwd1 i hi]

/-- C36: on a consistent database `relocate` returns 0 for every target key,
the non-empty ones included, and leaves a location such that, with the live
records split in key order into those below the target, the one equal to it
(at most one) and those above it: `is_exactmatch` is set exactly when a live
record has the target key; `loc.record` is what reading the file gives at
the offset of that live record, or else of the last live record below the
target, the DUMMY when there is none; for every `i` in 0..30 `backloc[i]` is
the offset of the last record of level above `i` among the DUMMY and the
records below the target, and `forwardloc[i]` is the offset of the first
record of level above `i` among the records above the target, 0 when there
is none. -/
theorem relocate_postcondition {E : Env} (hc : CompareLaws E.compar) {db : dbengine}
    {live : List node} (hf : FileOK E db live) :
    ∃ loc1 p pre S, relocate E db = some (0, { db with loc := loc1 }) ∧
      loc1.keybuf = db.loc.keybuf ∧
      live = p ++ (pre ++ S) ∧
      (∀ n ∈ p, E.compar n.key db.loc.keybuf < 0) ∧
      (∀ n ∈ pre, n.key = db.loc.keybuf) ∧ pre.length ≤ 1 ∧
      (∀ n ∈ S, E.compar db.loc.keybuf n.key < 0) ∧
      (loc1.is_exactmatch = true ↔ ∃ n ∈ live, n.key = db.loc.keybuf) ∧
      (loc1.is_exactmatch = true ↔ pre ≠ []) ∧
      RecOf loc1.record (lastNode (p ++ pre)) ∧
      read_record db (lastNode (p ++ pre)).offset = some (0, loc1.record) ∧
      check_tailcrc db loc1.record = 0 ∧
      (∀ i, i < MAXLEVEL → loc1.backloc i = lastAt i (dummyNode :: p)) ∧
      (∀ i, i < MAXLEVEL → loc1.forwardloc i = nextAt i S) := by
  obtain ⟨loc1, hrun, hkey, _, _, hloc⟩ := relocate_ok hc hf
  have hlev := linked_level_le hf.mf hf.chain.linked
  obtain ⟨p, pre, S, hl, hlt, heq, hlen, hgt, hex, hrec, hback, hfwd⟩ :=
    locAt_parts hc hf.chain.sorted hlev hloc
  rw [hkey] at hlt heq hgt
  have hfr : Fresh db loc1.record := relocate_fresh hf hrun
  refine ⟨loc1, p, pre, S, hrun, hkey, hl, hlt, heq, hlen, hgt, ?_, hex, hrec, ?_, rfl,
    hback, hfwd⟩
  · rw [hex]
    constructor
    · intro hne
      cases pre with
      | nil => exact absurd rfl hne
      | cons m t =>
        exact ⟨m, by rw [hl]; simp, heq m (List.mem_cons_self _ _)⟩
    · rintro ⟨n, hn, hk⟩ hnil
      rw [hl, hnil, List.nil_append] at hn
      have hz := (hc.eq_zero n.key db.loc.keybuf).2 hk
      rcases List.mem_append.1 hn with h1 | h1
      · have := hlt n h1; omega
      · have := hgt n h1
        rw [hc.lt_gt] at this
        omega
  · rw [← hrec.1]; exact hfr

/-- C37: on a consistent database, when the fingerprint of the cached
location (generation and end) matches the database and the cache is a
location of the skip list whose record is the one on file, as `find_loc`,
`advance_loc`, `store_here` and `delete_here` leave it, `find_loc` of a key
returns 0 with the same `is_exactmatch`, the same `loc.record`, the same
`backloc[0..30]` and the same `forwardloc[0..30]` as `relocate` of that key;
and when the fingerprint differs `find_loc` is `relocate`. -/
theorem find_loc_cache_sound {E : Env} (hc : CompareLaws E.compar) {db : dbengine}
    {live : List node} (hf : FileOK E db live) (key : List Nat) :
    ((db.loc.end_ ≠ db.end_ ∨ db.loc.generation ≠ db.header.generation) →
      find_loc E db key = relocate E { db with loc := { db.loc with keybuf := key } }) ∧
    (db.loc.end_ = db.end_ → db.loc.generation = db.header.generation →
      LocAt E db.loc live → Fresh db db.loc.record →
      ∃ a b, find_loc E db key = some (0, { db with loc := a }) ∧
        relocate E { db with loc := { db.loc with keybuf := key } }
          = some (0, { db with loc := b }) ∧
        a.keybuf = key ∧ b.keybuf = key ∧
        a.is_exactmatch = b.is_exactmatch ∧ a.record = b.record ∧
        (∀ i, i < MAXLEVEL → a.backloc i = b.backloc i) ∧
        (∀ i, i < MAXLEVEL → a.forwardloc i = b.forwardloc i) ∧
        a.generation = b.generation ∧ a.end_ = b.end_) := by
  constructor
  · intro hne
    unfold find_loc
    dsimp only
    rw [if_neg]
    rintro ⟨_, h1, h2⟩
    rcases hne with h | h
    · exact h h1
    · exact h h2
  · intro h1 h2 hloc hfresh
    obtain ⟨a, hrunA, hka, hea, hga, hla⟩ := find_loc_ok hc hf (fun _ _ => hloc) key
    have hfk : FileOK E { db with loc := { db.loc with keybuf := key } } live :=
      hf.congr rfl rfl
    obtain ⟨b, hrunB, hkb, heb, hgb, hlb⟩ := relocate_ok hc hfk
    have hlev := linked_level_le hf.mf hf.chain.linked
    have hfa : Fresh db a.record := find_loc_fresh hf (fun _ _ => hfresh) hrunA
    have hfb : Fresh db b.record := fresh_congr (relocate_fresh hfk hrunB) rfl
    obtain ⟨x1, x2, x3, x4⟩ := locAt_agree hc hf.chain.sorted hlev hla hlb (by rw [hka, hkb])
    refine ⟨a, b, hrunA, hrunB, hka, hkb, x1, ?_, x3, x4, ?_, ?_⟩
    · unfold Fresh at hfa hfb
      rw [x2, hfb] at hfa
      simp only [Option.some.injEq, Prod.mk.injEq, true_and] at hfa
      exact hfa.symm
    · rw [hga, hgb]
    · rw [hea, heb]

theorem relocate_postcondition_witness :
    ∃ db1 live, one_store = some db1 ∧ lookup live [1] = some [5] ∧
      ∃ loc1 p pre S,
        relocate raw_env { db1 with loc := { db1.loc with keybuf := [1] } }
          = some (0, { db1 with loc := loc1 }) ∧
        loc1.keybuf = [1] ∧
        live = p ++ (pre ++ S) ∧
        (∀ n ∈ p, raw_env.compar n.key [1] < 0) ∧
        (∀ n ∈ pre, n.key = [1]) ∧ pre.length ≤ 1 ∧
        (∀ n ∈ S, raw_env.compar [1] n.key < 0) ∧
        (loc1.is_exactmatch = true ↔ ∃ n ∈ live, n.key = [1]) ∧
        (loc1.is_exactmatch = true ↔ pre ≠ []) ∧
        RecOf loc1.record (lastNode (p ++ pre)) ∧
        read_record db1 (lastNode (p ++ pre)).offset = some (0, loc1.record) ∧
        check_tailcrc db1 loc1.record = 0 ∧
        (∀ i, i < MAXLEVEL → loc1.backloc i = lastAt i (dummyNode :: p)) ∧
        (∀ i, i < MAXLEVEL → loc1.forwardloc i = nextAt i S) := by
  obtain ⟨_, live1, hin, _, hlook, _⟩ :=
    abort_core raw_laws (idle_new raw_env 0 (fun _ => false)) (flat_new 0 (fun _ => false))
      [⟨[1], some [5], false⟩] (by decide)
      (Option.some_get (by decide : one_store.isSome = true)).symm
  have hf : FileOK raw_env
      { Option.get one_store (by decide) with
        loc := { (Option.get one_store (by decide)).loc with keybuf := [1] } } live1 :=
    hin.file.congr rfl rfl
  exact ⟨Option.get one_store (by decide), live1, (Option.some_get _).symm,
    by rw [hlook]; decide, relocate_postcondition raw_laws hf⟩

theorem find_loc_cache_sound_witness :
    ∃ db1 loc1, one_store = some db1 ∧
      relocate raw_env { db1 with loc := { db1.loc with keybuf := [1] } }
        = some (0, { db1 with loc := loc1 }) ∧
      ∃ a b, find_loc raw_env { db1 with loc := loc1 } [2] = some (0, { db1 with loc := a }) ∧
        relocate raw_env { db1 with loc := { loc1 with keybuf := [2] } }
          = some (0, { db1 with loc := b }) ∧
        a.keybuf = [2] ∧ b.keybuf = [2] ∧
        a.is_exactmatch = b.is_exactmatch ∧ a.record = b.record ∧
        (∀ i, i < MAXLEVEL → a.backloc i = b.backloc i) ∧
        (∀ i, i < MAXLEVEL → a.forwardloc i = b.forwardloc i) ∧
        a.generation = b.generation ∧ a.end_ = b.end_ := by
  obtain ⟨_, live1, hin, _, _, _⟩ :=
    abort_core raw_laws (idle_new raw_env 0 (fun _ => false)) (flat_new 0 (fun _ => false))
      [⟨[1], some [5], false⟩] (by decide)
      (Option.some_get (by decide : one_store.isSome = true)).symm
  have hf : FileOK raw_env
      { Option.get one_store (by decide) with
        loc := { (Option.get one_store (by decide)).loc with keybuf := [1] } } live1 :=
    hin.file.congr rfl rfl
  obtain ⟨loc1, hrun, _, he, hg, hloc⟩ := relocate_ok raw_laws hf
  have hfr := relocate_fresh hf hrun
  have hf2 : FileOK raw_env { Option.get one_store (by decide) with loc := loc1 } live1 :=
    hf.congr rfl rfl
  exact ⟨Option.get one_store (by decide), loc1, (Option.some_get _).symm, hrun,
    (find_loc_cache_sound raw_laws hf2 [2]).2 he hg hloc (fresh_congr hfr rfl)⟩

/-! ## The consistency check terminates -/

theorem kept_refl (a : dbengine) : Kept a a := ⟨rfl, rfl, rfl⟩

theorem kept_trans {a b c : dbengine} (h1 : Kept a b) (h2 : Kept b c) : Kept a c :=
  ⟨h2.header.trans h1.header, h2.file.trans h1.file, h2.txn.trans h1.txn⟩

theorem rewrite_record_kept {a b : dbengine} {rec : skiprecord} {r : Int}
    (h : rewrite_record a rec = some (r, b)) : Kept a b := by
  unfold rewrite_record at h
  split at h
  · cases h
  · split at h
    · cases h
    · split at h
      · cases h
      · simp only [Option.some.injEq, Prod.mk.injEq] at h
        rw [← h.2]
        exact ⟨rfl, rfl, rfl⟩

theorem write_record_kept {a b : dbengine} {rec rec1 : skiprecord} {key val : List Nat} {r : Int}
    (h : write_record a rec key val = some (r, b, rec1)) : Kept a b := by
  unfold write_record at h
  split at h
  · cases h
  · split at h
    · cases h
    · simp only [Option.some.injEq, Prod.mk.injEq] at h
      rw [← h.2.1]
      exact ⟨rfl, rfl, rfl⟩

theorem stitch_loop_kept (maxlevel : Nat) :
    ∀ (fuel level : Nat) (a : dbengine) {r : Int} {b : dbengine},
      stitch_loop maxlevel fuel level a = some (r, b) → Kept a b := by
  intro fuel
  induction fuel with
  | zero =>
    intro level a r b h
    simp only [stitch_loop] at h
    split at h
    · cases h
    · simp only [Option.some.injEq, Prod.mk.injEq] at h
      rw [← h.2]; exact kept_refl a
  | succ n ih =>
    intro level a r b h
    simp only [stitch_loop] at h
    split at h
    · split at h
      · cases h
      · split at h
        · simp only [Option.some.injEq, Prod.mk.injEq] at h
          rw [← h.2]; exact kept_refl a
        · split at h
          · cases h
          · rename_i r1 db1 hrw
            have k1 := rewrite_record_kept hrw
            split at h
            · simp only [Option.some.injEq, Prod.mk.injEq] at h
              rw [← h.2]; exact k1
            · exact kept_trans k1 (ih _ _ h)
    · simp only [Option.some.injEq, Prod.mk.injEq] at h
      rw [← h.2]; exact kept_refl a

theorem stitch_kept {a b : dbengine} {maxlevel : Nat} {r : Int}
    (h : stitch a maxlevel = some (r, b)) : Kept a b :=
  stitch_loop_kept maxlevel _ _ a h

theorem loconly_kept {a b : dbengine} (h : LocOnly a b) : Kept a b := by
  obtain ⟨l, rfl⟩ := h
  exact ⟨rfl, rfl, rfl⟩

theorem relocate_loc {E : Env} {a b : dbengine} {r : Int}
    (h : relocate E a = some (r, b)) : LocOnly a b := by
  unfold relocate at h
  dsimp only at h
  split at h
  · cases h
  · split at h
    · split at h
      · cases h
      · simp only [Option.some.injEq, Prod.mk.injEq] at h
        exact ⟨_, h.2.symm⟩
    · split at h
      · cases h
      · split at h
        · simp only [Option.some.injEq, Prod.mk.injEq] at h
          exact ⟨_, h.2.symm⟩
        · split at h
          · split at h
            · cases h
            · split at h
              · simp only [Option.some.injEq, Prod.mk.injEq] at h
                exact ⟨_, h.2.symm⟩
              · simp only [Option.some.injEq, Prod.mk.injEq] at h
                exact ⟨_, h.2.symm⟩
          · simp only [Option.some.injEq, Prod.mk.injEq] at h
            exact ⟨_, h.2.symm⟩

theorem find_loc_loc {E : Env} {a b : dbengine} {key : List Nat} {r : Int}
    (h : find_loc E a key = some (r, b)) : LocOnly a b := by
  have hrel : ∀ (x : dbengine), relocate E x = some (r, b) → LocOnly x a → LocOnly a b := by
    intro x hx ⟨l, hl⟩
    obtain ⟨l1, hl1⟩ := relocate_loc hx
    exact ⟨l1, by rw [hl1, hl]⟩
  unfold find_loc at h
  dsimp only at h
  split at h
  · split at h
    · simp only [Option.some.injEq, Prod.mk.injEq] at h
      exact ⟨_, h.2.symm⟩
    · split at h
      · split at h
        · simp only [Option.some.injEq, Prod.mk.injEq] at h
          exact ⟨_, h.2.symm⟩
        · split at h
          · cases h
          · split at h
            · simp only [Option.some.injEq, Prod.mk.injEq] at h
              exact ⟨_, h.2.symm⟩
            · split at h
              · split at h
                · cases h
                · split at h
                  · simp only [Option.some.injEq, Prod.mk.injEq] at h
                    exact ⟨_, h.2.symm⟩
                  · simp only [Option.some.injEq, Prod.mk.injEq] at h
                    exact ⟨_, h.2.symm⟩
              · split at h
                · simp only [Option.some.injEq, Prod.mk.injEq] at h
                  exact ⟨_, h.2.symm⟩
                · exact hrel _ h ⟨a.loc, rfl⟩
      · exact hrel _ h ⟨a.loc, rfl⟩
  · exact hrel _ h ⟨a.loc, rfl⟩

theorem recovery1_fix_kept (record : skiprecord) :
    ∀ (cnt i : Nat) (a : dbengine) (prev next : Nat → Nat) {r : Int} {b : dbengine}
      {p n : Nat → Nat},
      recovery1_fix record cnt i a prev next = some (r, b, p, n) → Kept a b := by
  intro cnt
  induction cnt with
  | zero =>
    intro i a prev next r b p n h
    simp only [recovery1_fix, Option.some.injEq, Prod.mk.injEq] at h
    rw [← h.2.1]; exact kept_refl a
  | succ k ih =>
    intro i a prev next r b p n h
    simp only [recovery1_fix] at h
    split at h
    · split at h
      · cases h
      · split at h
        · simp only [Option.some.injEq, Prod.mk.injEq] at h
          rw [← h.2.1]; exact kept_refl a
        · split at h
          · cases h
          · rename_i r1 db1 hrw
            have k1 := rewrite_record_kept hrw
            split at h
            · simp only [Option.some.injEq, Prod.mk.injEq] at h
              rw [← h.2.1]; exact k1
            · exact kept_trans k1 (ih _ _ _ _ h)
    · exact ih _ _ _ _ h

theorem recovery1_zero_kept :
    ∀ (cnt i : Nat) (r0 : Int) (a : dbengine) (rec : skiprecord) {r : Int} {b : dbengine}
      {rec1 : skiprecord},
      recovery1_zero cnt i r0 a rec = some (r, b, rec1) → Kept a b := by
  intro cnt
  induction cnt with
  | zero =>
    intro i r0 a rec r b rec1 h
    simp only [recovery1_zero, Option.some.injEq, Prod.mk.injEq] at h
    rw [← h.2.1]; exact kept_refl a
  | succ k ih =>
    intro i r0 a rec r b rec1 h
    simp only [recovery1_zero] at h
    split at h
    · split at h
      · cases h
      · rename_i r1 db1 hrw
        exact kept_trans (rewrite_record_kept hrw) (ih _ _ _ _ h)
    · exact ih _ _ _ _ h

theorem recovery1_walk_kept :
    ∀ (fuel o : Nat) (a : dbengine) (prev next : Nat → Nat) (cnt : Nat) {r : Int}
      {b : dbengine} {p n : Nat → Nat} {c : Nat},
      recovery1_walk fuel o a prev next cnt = some (r, b, p, n, c) → Kept a b := by
  intro fuel
  induction fuel with
  | zero =>
    intro o a prev next cnt r b p n c h
    cases o with
    | zero =>
      simp only [recovery1_walk, Option.some.injEq, Prod.mk.injEq] at h
      rw [← h.2.1]; exact kept_refl a
    | succ o => simp [recovery1_walk] at h
  | succ k ih =>
    intro o a prev next cnt r b p n c h
    cases o with
    | zero =>
      simp only [recovery1_walk, Option.some.injEq, Prod.mk.injEq] at h
      rw [← h.2.1]; exact kept_refl a
    | succ o =>
      simp only [recovery1_walk] at h
      split at h
      · cases h
      · split at h
        · simp only [Option.some.injEq, Prod.mk.injEq] at h
          rw [← h.2.1]; exact kept_refl a
        · split at h
          · cases h
          · rename_i r1 db1 p1 n1 hfix
            have k1 := recovery1_fix_kept _ _ _ _ _ _ hfix
            split at h
            · simp only [Option.some.injEq, Prod.mk.injEq] at h
              rw [← h.2.1]; exact k1
            · split at h
              · cases h
              · rename_i r2 db2 rec1 hzero
                have k2 := kept_trans k1 (recovery1_zero_kept _ _ _ _ _ hzero)
                split at h
                · simp only [Option.some.injEq, Prod.mk.injEq] at h
                  rw [← h.2.1]; exact k2
                · exact kept_trans k2 (ih _ _ _ _ _ h)

theorem recovery1_tail_kept (prev next : Nat → Nat) :
    ∀ (cnt i : Nat) (a : dbengine) {r : Int} {b : dbengine},
      recovery1_tail prev next cnt i a = some (r, b) → Kept a b := by
  intro cnt
  induction cnt with
  | zero =>
    intro i a r b h
    simp only [recovery1_tail, Option.some.injEq, Prod.mk.injEq] at h
    rw [← h.2]; exact kept_refl a
  | succ k ih =>
    intro i a r b h
    simp only [recovery1_tail] at h
    split at h
    · split at h
      · cases h
      · split at h
        · simp only [Option.some.injEq, Prod.mk.injEq] at h
          rw [← h.2]; exact kept_refl a
        · split at h
          · cases h
          · rename_i r1 db1 hrw
            have k1 := rewrite_record_kept hrw
            split at h
            · simp only [Option.some.injEq, Prod.mk.injEq] at h
              rw [← h.2]; exact k1
            · exact kept_trans k1 (ih _ _ h)
    · exact ih _ _ h

theorem dirty2_synced {db : dbengine} (h : Dirty2 db) : Synced db := fun _ => h.2

theorem kept_synced {a b : dbengine} (k : Kept a b) (h : Synced a) : Synced b := by
  unfold Synced
  rw [k.header, k.file]
  exact h

theorem kept_dirty2 {a b : dbengine} (k : Kept a b) (h : Dirty2 a) : Dirty2 b := by
  unfold Dirty2
  rw [k.header, k.file]
  exact h

/-- The state in which `append_record` calls `write_record`. -/
theorem append_record_guard {db : dbengine} (hs : Synced db) (ht : db.current_txn ≠ none)
    (record : skiprecord) (key val : List Nat) :
    ∃ db0, Dirty2 db0 ∧ db0.mf.recs = db.mf.recs ∧ db0.end_ = db.end_ ∧
      db0.current_txn = db.current_txn ∧
      append_record db record key val = write_record db0 record key val := by
  unfold append_record
  rw [if_neg ht]
  by_cases hd : db.header.flags &&& DIRTY = 0
  · rw [if_pos hd]
    refine ⟨(commit_header
      { db with header := { db.header with flags := db.header.flags ||| DIRTY } }).2,
      ⟨dirty_or _, dirty_or _⟩, rfl, rfl, rfl, ?_⟩
    simp [commit_header, write_header]
  · rw [if_neg hd]
    exact ⟨db, ⟨hd, hs hd⟩, rfl, rfl, rfl, rfl⟩

theorem append_record_dirty {db : dbengine} (hs : Synced db) {record rec1 : skiprecord}
    {key val : List Nat} {r : Int} {db1 : dbengine}
    (h : append_record db record key val = some (r, db1, rec1)) :
    Dirty2 db1 ∧ db1.current_txn = db.current_txn := by
  have ht : db.current_txn ≠ none := by
    intro h0
    unfold append_record at h
    rw [if_pos h0] at h
    cases h
  obtain ⟨db0, hd, _, _, e, hrun⟩ := append_record_guard hs ht record key val
  rw [hrun] at h
  have k := write_record_kept h
  exact ⟨kept_dirty2 k hd, k.txn.trans e⟩

theorem rewrite_record_dirty {db : dbengine} (hs : Synced db) {rec : skiprecord} {r : Int}
    {db1 : dbengine} (h : rewrite_record db rec = some (r, db1)) : Dirty2 db ∧ Dirty2 db1 := by
  have hd : db.header.flags &&& DIRTY ≠ 0 := by
    intro h0
    unfold rewrite_record at h
    rw [if_pos h0] at h
    cases h
  have : Dirty2 db := ⟨hd, hs hd⟩
  exact ⟨this, kept_dirty2 (rewrite_record_kept h) this⟩

theorem rewrite_record_asserts {db : dbengine} (hd : db.header.flags &&& DIRTY ≠ 0)
    {rec : skiprecord} (h : rewrite_record db rec = none) :
    rec.offset = 0 ∨ MAXLEVEL < rec.level := by
  unfold rewrite_record at h
  rw [if_neg hd] at h
  split at h
  · rename_i h0; exact Or.inl h0
  · split at h
    · rename_i h1; exact Or.inr h1
    · cases h

theorem store_here_synced {db : dbengine} (hs : Synced db) {val : List Nat} {r : Int}
    {db1 : dbengine} (h : store_here db val = some (r, db1)) :
    Dirty2 db1 ∧ db1.current_txn = db.current_txn := by
  unfold store_here at h
  dsimp only at h
  split at h
  · cases h
  · rename_i r3 db3 nr1 happ
    have hs1 : Synced (if db.loc.is_exactmatch = true then
        ({ db with header := { db.header with
          num_records := sub64 db.header.num_records 1,
          repack_size := sub64 db.header.repack_size db.loc.record.len } } : dbengine)
        else db) := by
      split
      · exact hs
      · exact hs
    have ht1 : (if db.loc.is_exactmatch = true then
        ({ db with header := { db.header with
          num_records := sub64 db.header.num_records 1,
          repack_size := sub64 db.header.repack_size db.loc.record.len } } : dbengine)
        else db).current_txn = db.current_txn := by
      split <;> rfl
    obtain ⟨d3, t3⟩ := append_record_dirty (by exact hs1) happ
    have t3 : db3.current_txn = db.current_txn := t3.trans ht1
    split at h
    · simp only [Option.some.injEq, Prod.mk.injEq] at h
      rw [← h.2]
      exact ⟨d3, t3⟩
    · split at h
      · cases h
      · rename_i r5 db5 hst
        have k5 := stitch_kept hst
        have d5 : Dirty2 db5 := kept_dirty2 k5 (by exact d3)
        have t5 : db5.current_txn = db.current_txn := k5.txn.trans t3
        split at h
        · cases h
        · split at h
          · simp only [Option.some.injEq, Prod.mk.injEq] at h
            rw [← h.2]
            exact ⟨d5, t5⟩
          · simp only [Option.some.injEq, Prod.mk.injEq] at h
            rw [← h.2]
            exact ⟨d5, t5⟩

theorem delete_here_synced {db : dbengine} (hs : Synced db) {r : Int}
    {db1 : dbengine} (h : delete_here db = some (r, db1)) :
    Synced db1 ∧ db1.current_txn = db.current_txn := by
  unfold delete_here at h
  dsimp only at h
  split at h
  · simp only [Option.some.injEq, Prod.mk.injEq] at h
    rw [← h.2]
    exact ⟨hs, rfl⟩
  · split at h
    · cases h
    · rename_i r2 db2 nr1 happ
      have hs1 : Synced ({ db with header := { db.header with
          num_records := sub64 db.header.num_records 1,
          repack_size := sub64 db.header.repack_size db.loc.record.len } } : dbengine) := hs
      obtain ⟨d2, t2⟩ := append_record_dirty (by exact hs1) happ
      have t2 : db2.current_txn = db.current_txn := t2
      split at h
      · simp only [Option.some.injEq, Prod.mk.injEq] at h
        rw [← h.2]
        exact ⟨dirty2_synced d2, t2⟩
      · split at h
        · cases h
        · rename_i r4 db4 hst
          have k4 := stitch_kept hst
          have d4 : Dirty2 db4 := kept_dirty2 k4 (by exact d2)
          have t4 : db4.current_txn = db.current_txn := k4.txn.trans t2
          split at h
          · simp only [Option.some.injEq, Prod.mk.injEq] at h
            rw [← h.2]
            exact ⟨dirty2_synced d4, t4⟩
          · split at h
            · cases h
            · split at h
              · simp only [Option.some.injEq, Prod.mk.injEq] at h
                rw [← h.2]
                exact ⟨dirty2_synced d4, t4⟩
              · simp only [Option.some.injEq, Prod.mk.injEq] at h
                rw [← h.2]
                exact ⟨dirty2_synced d4, t4⟩

theorem skipwrite_synced {E : Env} {db : dbengine} (hs : Synced db) {key : List Nat}
    {data : Option (List Nat)} {force : Bool} {r : Int} {db1 : dbengine}
    (h : skipwrite E db key data force = some (r, db1)) :
    Synced db1 ∧ db1.current_txn = db.current_txn := by
  unfold skipwrite at h
  split at h
  · cases h
  · rename_i r0 dbl hfind
    have kl := loconly_kept (find_loc_loc hfind)
    have sl := kept_synced kl hs
    have hsame : Synced dbl ∧ dbl.current_txn = db.current_txn := ⟨sl, kl.txn⟩
    split at h
    · simp only [Option.some.injEq, Prod.mk.injEq] at h
      rw [← h.2]; exact hsame
    · split at h
      · split at h
        · obtain ⟨a, b⟩ := delete_here_synced sl h
          exact ⟨a, b.trans kl.txn⟩
        · split at h
          · simp only [Option.some.injEq, Prod.mk.injEq] at h
            rw [← h.2]; exact hsame
          · split at h
            · simp only [Option.some.injEq, Prod.mk.injEq] at h
              rw [← h.2]; exact hsame
            · obtain ⟨a, b⟩ := store_here_synced sl h
              exact ⟨dirty2_synced a, b.trans kl.txn⟩
      · split at h
        · obtain ⟨a, b⟩ := store_here_synced sl h
          exact ⟨dirty2_synced a, b.trans kl.txn⟩
        · split at h
          · simp only [Option.some.injEq, Prod.mk.injEq] at h
            rw [← h.2]; exact hsame
          · simp only [Option.some.injEq, Prod.mk.injEq] at h
            rw [← h.2]; exact hsame

/-- The state from which the loops of `recovery1` run has the DIRTY flag in
memory and on file. -/
theorem recovery1_entry {db : dbengine} (hs : Synced db) :
    Dirty2 (if db.header.flags &&& DIRTY = 0 then
        commit_header { db with header := { db.header with flags := db.header.flags ||| DIRTY } }
      else ((0 : Int), db)).2 := by
  split
  · exact ⟨dirty_or _, dirty_or _⟩
  · rename_i hd
    exact ⟨hd, hs hd⟩

theorem recovery1_synced {db : dbengine} (hs : Synced db) {r : Int} {db1 : dbengine}
    (h : recovery1 db = some (r, db1)) :
    Synced db1 ∧ db1.current_txn = db.current_txn := by
  have he := recovery1_entry hs
  have hte : (if db.header.flags &&& DIRTY = 0 then
        commit_header { db with header := { db.header with flags := db.header.flags ||| DIRTY } }
      else ((0 : Int), db)).2.current_txn = db.current_txn := by
    split <;> rfl
  unfold recovery1 at h
  dsimp only at h
  generalize (if db.header.flags &&& DIRTY = 0 then
        commit_header { db with header := { db.header with flags := db.header.flags ||| DIRTY } }
      else ((0 : Int), db)) = D at h he hte
  split at h
  · cases h
  · split at h
    · simp only [Option.some.injEq, Prod.mk.injEq] at h
      rw [← h.2]; exact ⟨hs, rfl⟩
    · split at h
      · simp only [Option.some.injEq] at h
        rw [h] at he hte
        exact ⟨dirty2_synced he, hte⟩
      · split at h
        · cases h
        · rename_i r1 d1 prev next cnt hwalk
          have k1 := recovery1_walk_kept _ _ _ _ _ _ hwalk
          split at h
          · simp only [Option.some.injEq, Prod.mk.injEq] at h
            rw [← h.2]
            exact ⟨dirty2_synced (kept_dirty2 k1 he), k1.txn.trans hte⟩
          · split at h
            · cases h
            · rename_i r2 d2 htail
              have k2 := kept_trans k1 (recovery1_tail_kept _ _ _ _ _ htail)
              split at h
              · simp only [Option.some.injEq, Prod.mk.injEq] at h
                rw [← h.2]
                exact ⟨dirty2_synced (kept_dirty2 k2 he), k2.txn.trans hte⟩
              · simp only [Option.some.injEq] at h
                have e2 := congrArg Prod.snd h
                dsimp only [commit_header, write_header] at e2
                rw [← e2]
                exact ⟨fun hd => hd, k2.txn.trans hte⟩

theorem myabort_synced {db : dbengine} (hs : Synced db) {tid : Option txn} {r : Int}
    {db1 : dbengine} (h : myabort db tid = some (r, db1)) :
    Synced db1 ∧ db1.current_txn = none := by
  unfold myabort at h
  split at h
  · cases h
  · dsimp only at h
    split at h
    · cases h
    · rename_i r1 d1 hrec
      simp only [Option.some.injEq, Prod.mk.injEq] at h
      rw [← h.2]
      have hs0 : Synced ({ db with current_txn := none, end_ := db.header.current_size } :
          dbengine) := hs
      obtain ⟨a, b⟩ := recovery1_synced hs0 hrec
      exact ⟨a, b⟩

theorem read_header_synced (db : dbengine) (h : (read_header db).1 = 0) :
    Synced (read_header db).2 := by
  unfold read_header at h ⊢
  split
  · rename_i h1
    rw [if_pos h1] at h
    simp [CYRUSDB_IOERROR] at h
  · rename_i h1
    rw [if_neg h1] at h
    dsimp only at h ⊢
    split
    · rename_i h2
      rw [if_pos h2] at h
      simp [CYRUSDB_IOERROR] at h
    · exact fun hd => hd

theorem mycommit_synced {E : Env} {C : Ctx} {db : dbengine} (hs : Synced db)
    (hC : ∀ d r d1, C.mycheckpoint d = some (r, d1) → Synced d1) {tid : Option txn}
    {r : Int} {db1 : dbengine} (h : mycommit E C db tid = some (r, db1)) : Synced db1 := by
  unfold mycommit at h
  split at h
  · cases h
  · dsimp only at h
    have hbody : ∀ r2 db2, (if db.header.flags &&& DIRTY = 0 then some ((0 : Int), db)
        else
          match append_record db
            { type := COMMIT, nextloc := Function.update (fun _ => 0) 0 db.header.current_size }
            [] [] with
          | none => none
          | some (r, db1, _) =>
            if r ≠ 0 then some (r, db1)
            else
              some (commit_header { db1 with header := { db1.header with
                current_size := db1.end_, flags := clear_dirty db1.header.flags } }))
        = some (r2, db2) → Synced db2 := by
      intro r2 db2 hb
      split at hb
      · simp only [Option.some.injEq, Prod.mk.injEq] at hb
        rw [← hb.2]; exact hs
      · split at hb
        · cases hb
        · rename_i r3 d3 rec3 happ
          obtain ⟨d, _⟩ := append_record_dirty hs happ
          split at hb
          · simp only [Option.some.injEq, Prod.mk.injEq] at hb
            rw [← hb.2]; exact dirty2_synced d
          · simp only [Option.some.injEq] at hb
            have e2 := congrArg Prod.snd hb
            dsimp only [commit_header, write_header] at e2
            rw [← e2]
            exact fun hd => hd
    split at h
    · cases h
    · rename_i r2 db2 hb
      have s2 := hbody r2 db2 hb
      split at h
      · split at h
        · cases h
        · rename_i r3 db3 hab
          simp only [Option.some.injEq, Prod.mk.injEq] at h
          rw [← h.2]
          exact (myabort_synced s2 hab).1
      · split at h
        · split at h
          · cases h
          · rename_i r3 db3 hcp
            simp only [Option.some.injEq, Prod.mk.injEq] at h
            rw [← h.2]
            have s3 : Synced db3 := hC _ _ _ hcp
            exact s3
        · simp only [Option.some.injEq, Prod.mk.injEq] at h
          rw [← h.2]
          exact s2

theorem mystore_synced {E : Env} {C : Ctx} {db : dbengine} (hs : Synced db)
    {key : List Nat} {data : Option (List Nat)} {tid : Option txn} (ht : tid ≠ none)
    {force : Bool} {r : Int} {db1 : dbengine} {t : Option txn}
    (h : mystore E C db key data (some tid) force = some (r, db1, t)) : Synced db1 := by
  unfold mystore at h
  split at h
  · cases h
  · dsimp only at h
    simp only [Option.getD_some, if_neg ht] at h
    simp only [ne_eq, not_true_eq_false, if_false] at h
    split at h
    · cases h
    · rename_i r2 db2 hsw
      have s2 := (skipwrite_synced hs hsw).1
      split at h
      · split at h
        · cases h
        · rename_i r3 db3 hab
          simp only [Option.some.injEq, Prod.mk.injEq] at h
          rw [← h.2.1]
          exact (myabort_synced s2 hab).1
      · split at h
        · rename_i hx
          exact absurd hx.1 (by simp)
        · simp only [Option.some.injEq, Prod.mk.injEq] at h
          rw [← h.2.1]
          exact s2

theorem run_writes_synced {E : Env} (ops : List write_op) :
    ∀ {db db1 : dbengine}, Synced db → run_writes E ops db = some db1 → Synced db1 := by
  induction ops with
  | nil =>
    intro db db1 hs h
    simp only [run_writes, Option.some.injEq] at h
    rw [← h]; exact hs
  | cons op rest ih =>
    intro db db1 hs h
    simp only [run_writes] at h
    split at h
    · cases h
    · rename_i r d hsw
      split at h
      · exact ih (skipwrite_synced hs hsw).1 h
      · cases h

theorem synced_begun (db : dbengine) : Synced (begun db) := fun h => h

/-- C35: call `Synced` a state in which the header on file has the DIRTY flag
whenever the header in memory has it, and `Dirty2` a state in which both have
it.  A header read from the file is `Synced`, and `store_here`,
`delete_here`, `skipwrite`, `mystore` in a running transaction, `mycommit`
(given that the checkpoint it may start does), `myabort` and `recovery1`
lead from `Synced` states to `Synced` states.  From a `Synced` state
`append_record` calls `write_record` in a `Dirty2` state with the records of
the file still as they were, so the DIRTY header is on file before the
record is appended; a `rewrite_record` that passes its assertion runs in a
`Dirty2` state; `stitch` is entered in the `Dirty2` state `append_record`
leaves and the loops of `recovery1` in the `Dirty2` state its guard leaves,
and `stitch` and every loop of `recovery1` keep both headers as they are, so
each of their calls of `rewrite_record` is made in a `Dirty2` state, where
the assertion on DIRTY holds (`rewrite_record` can then only stop on offset 0
or a level above 31).  In every execution from a database between
transactions, after any successful stores and deletes of a transaction, a
further store or delete and the abort of the transaction return: no
assertion fails. -/
theorem dirty_before_write :
    (∀ db, (read_header db).1 = 0 → Synced (read_header db).2) ∧
    (∀ db record key val, Synced db → db.current_txn ≠ none →
      ∃ db0, Dirty2 db0 ∧ db0.mf.recs = db.mf.recs ∧ db0.end_ = db.end_ ∧
        append_record db record key val = write_record db0 record key val) ∧
    (∀ db record key val r db1 rec1, Synced db →
      append_record db record key val = some (r, db1, rec1) → Dirty2 db1) ∧
    (∀ db rec r db1, Synced db → rewrite_record db rec = some (r, db1) →
      Dirty2 db ∧ Dirty2 db1) ∧
    (∀ db rec, Dirty2 db → rewrite_record db rec = none →
      rec.offset = 0 ∨ MAXLEVEL < rec.level) ∧
    (∀ db level r db1, Dirty2 db → stitch db level = some (r, db1) → Dirty2 db1) ∧
    (∀ db, Synced db →
      Dirty2 (if db.header.flags &&& DIRTY = 0 then
          commit_header
            { db with header := { db.header with flags := db.header.flags ||| DIRTY } }
        else ((0 : Int), db)).2) ∧
    (∀ rec cnt i db prev next r db1 p n, Dirty2 db →
      recovery1_fix rec cnt i db prev next = some (r, db1, p, n) → Dirty2 db1) ∧
    (∀ cnt i r0 db rec r db1 rec1, Dirty2 db →
      recovery1_zero cnt i r0 db rec = some (r, db1, rec1) → Dirty2 db1) ∧
    (∀ fuel o db prev next cnt r db1 p n c, Dirty2 db →
      recovery1_walk fuel o db prev next cnt = some (r, db1, p, n, c) → Dirty2 db1) ∧
    (∀ prev next cnt i db r db1, Dirty2 db →
      recovery1_tail prev next cnt i db = some (r, db1) → Dirty2 db1) ∧
    (∀ db val r db1, Synced db → store_here db val = some (r, db1) → Dirty2 db1) ∧
    (∀ db r db1, Synced db → delete_here db = some (r, db1) → Synced db1) ∧
    (∀ E db key data force r db1, Synced db →
      skipwrite E db key data force = some (r, db1) → Synced db1) ∧
    (∀ E C db key data tid force r db1 t, Synced db → tid ≠ none →
      mystore E C db key data (some tid) force = some (r, db1, t) → Synced db1) ∧
    (∀ E C db tid r db1, Synced db →
      (∀ d r d1, C.mycheckpoint d = some (r, d1) → Synced d1) →
      mycommit E C db tid = some (r, db1) → Synced db1) ∧
    (∀ db tid r db1, Synced db → myabort db tid = some (r, db1) → Synced db1) ∧
    (∀ db r db1, Synced db → recovery1 db = some (r, db1) → Synced db1) ∧
    (∀ E db live0 ops db1, CompareLaws E.compar → Idle E db live0 → Flat db →
      (∀ op ∈ ops, op.key ≠ []) → run_writes E ops (begun db) = some db1 →
      Synced (begun db) ∧ Synced db1 ∧
      (∀ key data force, key ≠ [] →
        ∃ r db2, skipwrite E db1 key data force = some (r, db2) ∧ Synced db2) ∧
      ∃ db2, myabort db1 db1.current_txn = some (0, db2) ∧ Synced db2) := by
  refine ⟨read_header_synced, ?_, ?_, ?_, ?_, ?_, ?_, ?_, ?_, ?_, ?_, ?_, ?_, ?_, ?_, ?_, ?_,
    ?_, ?_⟩
  · intro db record key val hs ht
    obtain ⟨db0, h1, h2, h3, _, h5⟩ := append_record_guard hs ht record key val
    exact ⟨db0, h1, h2, h3, h5⟩
  · intro db record key val r db1 rec1 hs h
    exact (append_record_dirty hs h).1
  · intro db rec r db1 hs h
    exact rewrite_record_dirty hs h
  · intro db rec hd h
    exact rewrite_record_asserts hd.1 h
  · intro db level r db1 hd h
    exact kept_dirty2 (stitch_kept h) hd
  · intro db hs
    exact recovery1_entry hs
  · intro rec cnt i db prev next r db1 p n hd h
    exact kept_dirty2 (recovery1_fix_kept rec cnt i db prev next h) hd
  · intro cnt i r0 db rec r db1 rec1 hd h
    exact kept_dirty2 (recovery1_zero_kept cnt i r0 db rec h) hd
  · intro fuel o db prev next cnt r db1 p n c hd h
    exact kept_dirty2 (recovery1_walk_kept fuel o db prev next cnt h) hd
  · intro prev next cnt i db r db1 hd h
    exact kept_dirty2 (recovery1_tail_kept prev next cnt i db h) hd
  · intro db val r db1 hs h
    exact (store_here_synced hs h).1
  · intro db r db1 hs h
    exact (delete_here_synced hs h).1
  · intro E db key data force r db1 hs h
    exact (skipwrite_synced hs h).1
  · intro E C db key data tid force r db1 t hs ht h
    exact mystore_synced hs ht h
  · intro E C db tid r db1 hs hC h
    exact mycommit_synced hs hC h
  · intro db tid r db1 hs h
    exact (myabort_synced hs h).1
  · intro db r db1 hs h
    exact (recovery1_synced hs h).1
  · intro E db live0 ops db1 hc hi hflat hk hr
    have s1 : Synced db1 := run_writes_synced ops (synced_begun db) hr
    obtain ⟨db2, live1, hin, hheld, _, _, _, _, hab, _⟩ := abort_core hc hi hflat ops hk hr
    refine ⟨synced_begun db, s1, ?_, _, hab, (myabort_synced s1 hab).1⟩
    intro key data force hkey
    obtain ⟨r, d2, _, hrun, _⟩ := skipwrite_ok hc hin hkey data force
    exact ⟨r, d2, hrun, (skipwrite_synced s1 hrun).1⟩

theorem dirty_before_write_witness :
    ∃ db1, one_store = some db1 ∧ Synced (begun (new_db 0 (fun _ => false))) ∧ Synced db1 ∧
      (∀ key data force, key ≠ [] →
        ∃ r db2, skipwrite raw_env db1 key data force = some (r, db2) ∧ Synced db2) ∧
      ∃ db2, myabort db1 db1.current_txn = some (0, db2) ∧ Synced db2 :=
  ⟨Option.get one_store (by decide), (Option.some_get _).symm,
    dirty_before_write.2.2.2.2.2.2.2.2.2.2.2.2.2.2.2.2.2.2 raw_env (new_db 0 (fun _ => false)) []
      [⟨[1], some [5], false⟩] _ raw_laws (idle_new raw_env 0 (fun _ => false))
      (flat_new 0 (fun _ => false)) (by decide) (Option.some_get _).symm⟩

/-! ## A failing write aborts the transaction -/

theorem run_writes_snoc {E : Env} (op : write_op) :
    ∀ (ops : List write_op) (db : dbengine) {db1 db2 : dbengine},
      run_writes E ops db = some db1 → skipwrite E db1 op.key op.data op.force = some (0, db2) →
      run_writes E (ops ++ [op]) db = some db2 := by
  intro ops
  induction ops with
  | nil =>
    intro db db1 db2 h1 h2
    simp only [run_writes, Option.some.injEq] at h1
    subst h1
    simp [run_writes, h2]
  | cons o rest ih =>
    intro db db1 db2 h1 h2
    simp only [run_writes, List.cons_append] at h1 ⊢
    split at h1
    · cases h1
    · rename_i r d hsw
      split at h1
      · rename_i hr
        rw [if_pos hr]
        exact ih d h1 h2
      · cases h1

/-- A write that fails in a transaction leaves the handle as a forced write
of the same key that changes nothing leaves it. -/
theorem failed_as_forced {E : Env} (hc : CompareLaws E.compar) {db : dbengine}
    {live : List node} (h : InTxn E db live) {key : List Nat} (hk : key ≠ [])
    {data : Option (List Nat)} {force : Bool} {r : Int} {dbf : dbengine}
    (hs : skipwrite E db key data force = some (r, dbf)) (hr : r ≠ 0) :
    (r = CYRUSDB_EXISTS ∨ r = CYRUSDB_NOTFOUND) ∧
    ∃ data1, skipwrite E db key data1 true = some (0, dbf) := by
  obtain ⟨loc1, hfind, hkey, _, _, hloc, _⟩ := find_loc_txn hc h key
  obtain ⟨r1, d1, _, hrun, hcode, _⟩ := skipwrite_ok hc h hk data force
  rw [hs] at hrun
  simp only [Option.some.injEq, Prod.mk.injEq] at hrun
  have hcode : r = write_code (lookup live key).isSome data force := by rw [hrun.1]; exact hcode
  have hlook := locAt_lookup hc hloc
  rw [hkey] at hlook
  unfold skipwrite at hs ⊢
  rw [hfind] at hs ⊢
  dsimp only at hs ⊢
  simp only [ne_eq, not_true_eq_false, if_false] at hs ⊢
  cases hx : loc1.is_exactmatch
  · rw [hx] at hlook
    simp only [Bool.false_eq_true, if_false] at hlook
    rw [hlook] at hcode
    cases data with
    | some d =>
      simp [write_code] at hcode
      exact absurd hcode hr
    | none =>
      cases force with
      | true =>
        simp [write_code] at hcode
        exact absurd hcode hr
      | false =>
        simp only [hx, Bool.false_eq_true, if_false, not_false_eq_true, if_true,
          Option.some.injEq, Prod.mk.injEq] at hs
        refine ⟨Or.inr hs.1.symm, none, ?_⟩
        simp only [hx, Bool.false_eq_true, if_false, not_true_eq_false]
        rw [hs.2]
  · rw [hx] at hlook
    simp only [if_true] at hlook
    rw [hlook] at hcode
    cases data with
    | none =>
      simp [write_code] at hcode
      exact absurd hcode hr
    | some d =>
      cases force with
      | true =>
        simp [write_code] at hcode
        exact absurd hcode hr
      | false =>
        simp only [hx, if_true, Bool.false_eq_true, not_false_eq_true, Option.some.injEq,
          Prod.mk.injEq] at hs
        refine ⟨Or.inl hs.1.symm, some (_val loc1.record), ?_⟩
        simp only [hx, if_true, not_true_eq_false, if_false]
        rw [if_pos ((hc.eq_zero _ _).2 rfl)]
        rw [hs.2]

theorem recovery1_txn {db : dbengine} {r : Int} {db1 : dbengine}
    (h : recovery1 db = some (r, db1)) : db1.current_txn = db.current_txn := by
  have hte : (if db.header.flags &&& DIRTY = 0 then
        commit_header { db with header := { db.header with flags := db.header.flags ||| DIRTY } }
      else ((0 : Int), db)).2.current_txn = db.current_txn := by
    split <;> rfl
  unfold recovery1 at h
  dsimp only at h
  generalize (if db.header.flags &&& DIRTY = 0 then
        commit_header { db with header := { db.header with flags := db.header.flags ||| DIRTY } }
      else ((0 : Int), db)) = D at h hte
  split at h
  · cases h
  · split at h
    · simp only [Option.some.injEq, Prod.mk.injEq] at h
      rw [← h.2]
    · split at h
      · simp only [Option.some.injEq] at h
        rw [h] at hte
        exact hte
      · split at h
        · cases h
        · rename_i r1 d1 prev next cnt hwalk
          have k1 := recovery1_walk_kept _ _ _ _ _ _ hwalk
          split at h
          · simp only [Option.some.injEq, Prod.mk.injEq] at h
            rw [← h.2]
            exact k1.txn.trans hte
          · split at h
            · cases h
            · rename_i r2 d2 htail
              have k2 := kept_trans k1 (recovery1_tail_kept _ _ _ _ _ htail)
              split at h
              · simp only [Option.some.injEq, Prod.mk.injEq] at h
                rw [← h.2]
                exact k2.txn.trans hte
              · simp only [Option.some.injEq] at h
                have e2 := congrArg Prod.snd h
                dsimp only [commit_header, write_header] at e2
                rw [← e2]
                exact k2.txn.trans hte

theorem myabort_txn {db : dbengine} {tid : Option txn} {r : Int} {db1 : dbengine}
    (h : myabort db tid = some (r, db1)) : db1.current_txn = none := by
  unfold myabort at h
  split at h
  · cases h
  · dsimp only at h
    split at h
    · cases h
    · rename_i r1 d1 hrec
      simp only [Option.some.injEq, Prod.mk.injEq] at h
      rw [← h.2]
      exact recovery1_txn hrec

/-- What `mystore` does in a running transaction when the write fails. -/
theorem mystore_failed {E : Env} (C : Ctx) {db : dbengine} {key : List Nat} (hk : key ≠ [])
    {data : Option (List Nat)} {tid : Option txn} (ht : tid ≠ none) {force : Bool} {r : Int}
    {dbf : dbengine} (hs : skipwrite E db key data force = some (r, dbf)) (hr : r ≠ 0) :
    mystore E C db key data (some tid) force
      = (myabort dbf tid).map (fun a => ((if a.1 ≠ 0 then a.1 else r), a.2, tid)) := by
  have hl : key.length ≠ 0 := by
    intro h0
    exact hk (List.length_eq_zero.1 h0)
  unfold mystore
  rw [if_neg hl]
  dsimp only
  simp only [Option.getD_some, if_neg ht, ne_eq, not_true_eq_false, if_false, hs]
  rw [if_pos hr]
  cases myabort dbf tid with
  | none => rfl
  | some a => rfl

/-- C40: in a transaction begun on a database between transactions, after
any stores and deletes that returned 0, a store or delete of a non-empty key
that returns an error returns `CYRUSDB_EXISTS` or `CYRUSDB_NOTFOUND`;
`mystore`, called with the transaction, then returns that error after
`myabort` of the transaction, which returns 0: the handle is between
transactions again with the live records of the start of the transaction
(every `fetch` returns the code and the value it returned then), the file
size and `current_size` are those of the start, DIRTY is clear, the lock is
released and the handle has no current transaction.  On any handle whatever
(an I/O error included), when the write returns an error `mystore` calls
`myabort` on the transaction, returns the error of `myabort` if it has one
and else the error of the write, and the handle `myabort` returns has no
current transaction. -/
theorem failing_write_aborts {E : Env} (hc : CompareLaws E.compar) (C : Ctx) {db : dbengine}
    {live0 : List node} (hi : Idle E db live0) (hflat : Flat db) (ops : List write_op)
    (hk : ∀ op ∈ ops, op.key ≠ []) {db1 : dbengine}
    (hr : run_writes E ops (begun db) = some db1) {key : List Nat} (hkey : key ≠ [])
    {data : Option (List Nat)} {force : Bool} {r : Int} {dbf : dbengine}
    (hs : skipwrite E db1 key data force = some (r, dbf)) (hr0 : r ≠ 0) :
    (r = CYRUSDB_EXISTS ∨ r = CYRUSDB_NOTFOUND) ∧
    (∃ db3, mystore E C db1 key data (some db1.current_txn) force
        = some (r, db3, db1.current_txn) ∧
      myabort dbf db1.current_txn = some (0, db3) ∧
      Idle E db3 live0 ∧
      (∀ k, k ≠ [] → ∃ c v dbA dbB,
        fetch E C db k none = some ⟨c, dbA, none, some k, v⟩ ∧
        fetch E C db3 k none = some ⟨c, dbB, none, some k, v⟩) ∧
      db3.mf.size = db.mf.header.current_size ∧
      db3.mf.header.current_size = db.mf.header.current_size ∧
      db3.header.current_size = db.mf.header.current_size ∧
      db3.mf.header.flags &&& DIRTY = 0 ∧ db3.header.flags &&& DIRTY = 0 ∧
      db3.current_txn = none ∧ db3.mf.lock_status = UNLOCKED) ∧
    (∀ (dbx : dbengine) (k : List Nat) (d : Option (List Nat)) (tid : Option txn) (f : Bool)
      (rx : Int) (dby : dbengine), k ≠ [] → tid ≠ none →
      skipwrite E dbx k d f = some (rx, dby) → rx ≠ 0 →
      mystore E C dbx k d (some tid) f
        = (myabort dby tid).map (fun a => ((if a.1 ≠ 0 then a.1 else rx), a.2, tid)) ∧
      ∀ r3 db3, myabort dby tid = some (r3, db3) → db3.current_txn = none) := by
  obtain ⟨_, live1, hin, _, _, _, _, _, _, _⟩ := abort_core hc hi hflat ops hk hr
  obtain ⟨hcode, data1, hforced⟩ := failed_as_forced hc hin hkey hs hr0
  have hrun := run_writes_snoc ⟨key, data1, true⟩ ops (begun db) hr hforced
  have hk1 : ∀ op ∈ ops ++ [(⟨key, data1, true⟩ : write_op)], op.key ≠ [] := by
    intro op hop
    rcases List.mem_append.1 hop with h1 | h1
    · exact hk op h1
    · rw [List.mem_singleton] at h1
      rw [h1]; exact hkey
  obtain ⟨db2, _, _, _, _, _, _, _, a7, a8, _, _, _, a12, a13, a14, a15, _⟩ :=
    abort_core hc hi hflat _ hk1 hrun
  have htxn : dbf.current_txn = db1.current_txn :=
    (skipwrite_synced (run_writes_synced ops (synced_begun db) hr) hs).2
  rw [htxn] at a7
  have hfetch : ∀ k, k ≠ [] → ∃ c v dbA dbB,
      fetch E C db k none = some ⟨c, dbA, none, some k, v⟩ ∧
      fetch E C (unlock db2).2 k none = some ⟨c, dbB, none, some k, v⟩ := by
    intro k hk0
    obtain ⟨dbA, fA⟩ := fetch_idle hc C hi hk0
    obtain ⟨dbB, fB⟩ := fetch_idle hc C a8 hk0
    exact ⟨_, _, dbA, dbB, fA, fB⟩
  refine ⟨hcode, ⟨(unlock db2).2, ?_, a7, a8, hfetch, a12, a13, ?_, a15, ?_, a8.no_txn, rfl⟩, ?_⟩
  · rw [mystore_failed C hkey hin.txn hs hr0, a7]
    rfl
  · show db2.header.current_size = _
    rw [a14]; exact a13
  · show db2.header.flags &&& DIRTY = 0
    rw [a14]; exact a15
  · intro dbx k d tid f rx dby hk0 ht hsx hrx
    exact ⟨mystore_failed C hk0 ht hsx hrx, fun r3 db3 h3 => myabort_txn h3⟩

theorem failing_write_aborts_witness :
    ∃ db1 r dbf, one_store = some db1 ∧
      skipwrite raw_env db1 [1] (some [6]) false = some (r, dbf) ∧ r ≠ 0 ∧
      (r = CYRUSDB_EXISTS ∨ r = CYRUSDB_NOTFOUND) ∧
      (∃ db3, mystore raw_env (ctx raw_env 1) db1 [1] (some [6]) (some db1.current_txn) false
          = some (r, db3, db1.current_txn) ∧
        myabort dbf db1.current_txn = some (0, db3) ∧
        Idle raw_env db3 [] ∧
        (∀ k, k ≠ [] → ∃ c v dbA dbB,
          fetch raw_env (ctx raw_env 1) (new_db 0 (fun _ => false)) k none
            = some ⟨c, dbA, none, some k, v⟩ ∧
          fetch raw_env (ctx raw_env 1) db3 k none = some ⟨c, dbB, none, some k, v⟩) ∧
        db3.mf.size = (new_db 0 (fun _ => false)).mf.header.current_size ∧
        db3.mf.header.current_size = (new_db 0 (fun _ => false)).mf.header.current_size ∧
        db3.header.current_size = (new_db 0 (fun _ => false)).mf.header.current_size ∧
        db3.mf.header.flags &&& DIRTY = 0 ∧ db3.header.flags &&& DIRTY = 0 ∧
        db3.current_txn = none ∧ db3.mf.lock_status = UNLOCKED) ∧
      (∀ (dbx : dbengine) (k : List Nat) (d : Option (List Nat)) (tid : Option txn) (f : Bool)
        (rx : Int) (dby : dbengine), k ≠ [] → tid ≠ none →
        skipwrite raw_env dbx k d f = some (rx, dby) → rx ≠ 0 →
        mystore raw_env (ctx raw_env 1) dbx k d (some tid) f
          = (myabort dby tid).map (fun a => ((if a.1 ≠ 0 then a.1 else rx), a.2, tid)) ∧
        ∀ r3 db3, myabort dby tid = some (r3, db3) → db3.current_txn = none) := by
  have e1 : one_store = some (Option.get one_store (by decide)) := (Option.some_get _).symm
  have e2 : skipwrite raw_env (Option.get one_store (by decide)) [1] (some [6]) false
      = some (Option.get
        (skipwrite raw_env (Option.get one_store (by decide)) [1] (some [6]) false)
        (by decide)) := (Option.some_get _).symm
  have h3 : (Option.get
      (skipwrite raw_env (Option.get one_store (by decide)) [1] (some [6]) false)
      (by decide)).1 ≠ 0 := by decide
  exact ⟨_, _, _, e1, e2, h3,
    failing_write_aborts raw_laws (ctx raw_env 1) (idle_new raw_env 0 (fun _ => false))
      (flat_new 0 (fun _ => false)) [⟨[1], some [5], false⟩] (by decide) e1.symm
      (by decide) e2 h3⟩

/-! ## The record a write appends -/

/-- The record `store_here` appends, as it stands in the file afterwards. -/
theorem store_here_record {E : Env} (hc : CompareLaws E.compar) {db : dbengine}
    {live : List node} (h : InTxn E db live) (hloc : LocAt E db.loc live)
    (hk : db.loc.keybuf ≠ []) (val : List Nat) :
    ∃ db1 f A, store_here db val = some (0, db1) ∧
      db1.mf.recs = db.mf.recs.map f ++ [A] ∧
      (∀ d ∈ db.mf.recs, Keeps db.header.current_size d (f d)) ∧
      A.offset = db.end_ ∧ A.type = RECORD ∧ 1 ≤ A.level ∧ A.level ≤ MAXLEVEL ∧
      A.key = db.loc.keybuf ∧ A.val = val ∧ A.keylen = db.loc.keybuf.length ∧
      A.vallen = val.length ∧
      db1.end_ = db.end_ + A.len ∧ 24 ≤ A.len ∧ db1.mf.size = db1.end_ ∧
      db1.header.num_records =
        add64 (if db.loc.is_exactmatch = true then sub64 db.header.num_records 1
          else db.header.num_records) 1 := by
  obtain ⟨db1, p, pre, S, N, f, D, hrun, hf1, _, _, _, hNk, hNv, hNo, hfr, hrecs, hDo, hDd,
    hDt, hkeep, _, hend, hnum, _, _⟩ :=
    store_here_ok hc h.file hloc h.txn h.size hk rfl h.cs_pos h.cs_le val
  have hK := hkeep D hDd
  have hmem : f D ∈ db1.mf.recs := by
    rw [hrecs, List.map_append]
    simp
  have hnode : NodeAt db1.mf.recs N S :=
    linked_split hf1.chain.linked (show dummyNode :: (p ++ N :: S) = (dummyNode :: p) ++ N :: S
      from rfl)
  obtain ⟨d, hd, ho, hl, hkey, hval, _⟩ := hnode
  have hdA : d = f D := mem_offset_inj hf1.mf hd hmem (by rw [ho, hNo, hK.offset, hDo])
  subst hdA
  have hnorm := hf1.mf.norm _ hmem
  have hlev := linked_level_le hf1.mf hf1.chain.linked N (by simp)
  have hpos := hf1.chain.level_pos N (by simp)
  refine ⟨db1, f, f D, hrun, ?_, ?_, by rw [hK.offset, hDo], by rw [hK.type, hDt],
    by rw [hl]; exact hpos, by rw [hl]; exact hlev, by rw [hkey, hNk], by rw [hval, hNv],
    by rw [hnorm.keylen_eq, hkey, hNk], by rw [hnorm.vallen_eq, hval, hNv],
    by rw [hend, hK.len], ?_, hfr.size, hnum⟩
  · rw [hrecs, List.map_append]
    rfl
  · intro d0 hd0
    exact hkeep d0 (h.dual d0 hd0)
  · rw [hnorm.len_eq]
    exact reclen_ge _ _ _

/-- The record `delete_here` appends, as it stands in the file afterwards. -/
theorem delete_here_record {E : Env} (hc : CompareLaws E.compar) {db : dbengine}
    {live : List node} (h : InTxn E db live) (hloc : LocAt E db.loc live)
    (hx : db.loc.is_exactmatch = true) :
    ∃ db1 p m S f D, delete_here db = some (0, db1) ∧
      live = p ++ m :: S ∧ m.key = db.loc.keybuf ∧
      db1.mf.recs = db.mf.recs.map f ++ [D] ∧
      (∀ d ∈ db.mf.recs, Keeps db.header.current_size d (f d)) ∧
      D.offset = db.end_ ∧ D.type = DELETE ∧ D.level = 0 ∧ D.keylen = 0 ∧ D.vallen = 0 ∧
      D.nextloc 0 = nextAt 0 S := by
  obtain ⟨db1, p, m, S, f, D, hrun, _, _, hlive, hmk, _, hrecs, hDo, hDd, hDt, hDl, hkeep, _,
    hDk, _, hDv, hD0⟩ :=
    delete_here_ok hc h.file hloc hx h.txn h.size rfl h.cs_pos h.cs_le
  have hfD : f D = D := (hkeep D hDd).flat hDl
  refine ⟨db1, p, m, S, f, D, hrun, hlive, hmk, ?_, ?_, hDo, hDt, hDl, hDk, hDv, hD0⟩
  · rw [hrecs, List.map_append, List.map_singleton, hfD]
  · intro d0 hd0
    exact hkeep d0 (h.dual d0 hd0)

/-- C34: `randlvl(1, MAXLEVEL)` returns a level from 1 to 31 for every
stream of random draws.  In a transaction, with the location on a non-empty
key, `store_here` returns 0 and the record it has appended at the old end of
the file is a RECORD with a level from 1 to 31 and the non-empty key of the
location, whatever the random source of the handle gives; with the location
on a live record, `delete_here` returns 0 and the record it has appended at
the old end of the file is a DELETE of level 0, with `keylen` 0 and `vallen`
0, whose `nextloc[0]` is the offset of the live record that follows the
deleted one at level 0, or 0 when there is none. -/
theorem record_type_constraints {E : Env} (hc : CompareLaws E.compar) {db : dbengine}
    {live : List node} (h : InTxn E db live) (hloc : LocAt E db.loc live) :
    MAXLEVEL = 31 ∧
    (∀ src : Nat → Bool,
      1 ≤ (randlvl src 1 MAXLEVEL).1 ∧ (randlvl src 1 MAXLEVEL).1 ≤ MAXLEVEL) ∧
    (db.loc.keybuf ≠ [] → ∀ val, ∃ db1 f A, store_here db val = some (0, db1) ∧
      db1.mf.recs = db.mf.recs.map f ++ [A] ∧ A.offset = db.end_ ∧
      A.type = RECORD ∧ 1 ≤ A.level ∧ A.level ≤ MAXLEVEL ∧
      A.key = db.loc.keybuf ∧ A.key ≠ [] ∧ A.keylen = A.key.length ∧ 0 < A.keylen) ∧
    (db.loc.is_exactmatch = true → ∃ db1 p m S f D, delete_here db = some (0, db1) ∧
      live = p ++ m :: S ∧ m.key = db.loc.keybuf ∧
      db1.mf.recs = db.mf.recs.map f ++ [D] ∧ D.offset = db.end_ ∧
      D.type = DELETE ∧ D.level = 0 ∧ D.keylen = 0 ∧ D.vallen = 0 ∧
      D.nextloc 0 = nextAt 0 S) := by
  refine ⟨rfl, randlvl_bounds, ?_, ?_⟩
  · intro hk val
    obtain ⟨db1, f, A, h1, h2, _, h4, h5, h6, h7, h8, _, h10, _⟩ :=
      store_here_record hc h hloc hk val
    refine ⟨db1, f, A, h1, h2, h4, h5, h6, h7, h8, by rw [h8]; exact hk, by rw [h10, h8], ?_⟩
    rw [h10]
    exact List.length_pos.2 hk
  · intro hx
    obtain ⟨db1, p, m, S, f, D, h1, h2, h3, h4, _, h6, h7, h8, h9, h10, h11⟩ :=
      delete_here_record hc h hloc hx
    exact ⟨db1, p, m, S, f, D, h1, h2, h3, h4, h6, h7, h8, h9, h10, h11⟩

/-- C33: in a transaction, a forced store of a non-empty key that is present
with value `v0` returns 0.  When the value given equals `v0`, the file (its
size, its header and every record), `end` and the header in memory with
`num_records` and `repack_size` are unchanged: no record is appended.  When
it differs, the file afterwards is the old records at their offsets, with
their types, keys, values and lengths, followed by one new RECORD at the old
end of the file that holds the key and the new value, and `end` has grown by
the length of that record.  So the file and `end` are unchanged exactly when
the value equals the stored one. -/
theorem forced_store_unchanged {E : Env} (hc : CompareLaws E.compar) (C : Ctx) {db : dbengine}
    {live : List node} (h : InTxn E db live) {key : List Nat} (hk : key ≠ [])
    {v0 : List Nat} (hp : lookup live key = some v0) (val : List Nat) :
    ∃ db1, skipwrite E db key (some val) true = some (0, db1) ∧
      store E C db key (some val) (some db.current_txn) = some (0, db1, db.current_txn) ∧
      (val = v0 → db1.mf = db.mf ∧ db1.end_ = db.end_ ∧ db1.header = db.header) ∧
      (val ≠ v0 → ∃ f A, db1.mf.recs = db.mf.recs.map f ++ [A] ∧
        (∀ d ∈ db.mf.recs, (f d).offset = d.offset ∧ (f d).type = d.type ∧
          (f d).key = d.key ∧ (f d).val = d.val ∧ (f d).len = d.len) ∧
        A.offset = db.end_ ∧ A.type = RECORD ∧ A.key = key ∧ A.val = val ∧
        db1.end_ = db.end_ + A.len ∧ db.end_ < db1.end_ ∧ db1.mf.size = db1.end_) ∧
      ((db1.mf = db.mf ∧ db1.end_ = db.end_) ↔ val = v0) := by
  obtain ⟨loc1, hfind, hkey, _, _, hloc, hin1⟩ := find_loc_txn hc h key
  have hlook := locAt_lookup hc hloc
  rw [hkey, hp] at hlook
  have hx : loc1.is_exactmatch = true := by
    cases hx : loc1.is_exactmatch
    · rw [hx] at hlook; simp at hlook
    · rfl
  rw [hx] at hlook
  simp only [if_true, Option.some.injEq] at hlook
  have hl : key.length ≠ 0 := fun h0 => hk (List.length_eq_zero.1 h0)
  have hstore : ∀ db1, skipwrite E db key (some val) true = some (0, db1) →
      store E C db key (some val) (some db.current_txn) = some (0, db1, db.current_txn) := by
    intro db1 hs
    unfold store mystore
    rw [if_neg hl]
    dsimp only
    simp only [Option.getD_some, if_neg h.txn, ne_eq, not_true_eq_false, if_false, hs]
    rw [if_neg (by simp)]
  have hsw : skipwrite E db key (some val) true
      = if E.compar val (_val loc1.record) = 0 then some (0, { db with loc := loc1 })
        else store_here { db with loc := loc1 } val := by
    unfold skipwrite
    rw [hfind]
    dsimp only
    simp only [ne_eq, not_true_eq_false, if_false, hx, if_true]
  have hv : _val loc1.record = v0 := hlook.symm
  rw [hv] at hsw
  by_cases hval : val = v0
  · rw [if_pos ((hc.eq_zero _ _).2 hval)] at hsw
    refine ⟨_, hsw, hstore _ hsw, fun _ => ⟨rfl, rfl, rfl⟩, fun hne => absurd hval hne, ?_⟩
    exact ⟨fun _ => hval, fun _ => ⟨rfl, rfl⟩⟩
  · rw [if_neg (fun h0 => hval ((hc.eq_zero _ _).1 h0))] at hsw
    obtain ⟨db1, f, A, h1, h2, h3, h4, h5, _, _, h8, h9, _, _, h12, h13, h14, _⟩ :=
      store_here_record hc hin1 hloc (by show loc1.keybuf ≠ []; rw [hkey]; exact hk) val
    rw [h1] at hsw
    have hend : db1.end_ = db.end_ + A.len := h12
    refine ⟨db1, hsw, hstore _ hsw, fun he => absurd he hval, fun _ => ?_, ?_⟩
    · refine ⟨f, A, h2, ?_, h4, h5, by rw [h8]; exact hkey, h9, hend, by omega, h14⟩
      intro d hd
      have k := h3 d hd
      exact ⟨k.offset, k.type, k.key, k.val, k.len⟩
    · constructor
      · rintro ⟨_, he⟩
        omega
      · intro he
        exact absurd he hval

theorem record_type_constraints_witness :
    ∃ db1 live loc1, one_store = some db1 ∧
      find_loc raw_env db1 [1] = some (0, { db1 with loc := loc1 }) ∧
      loc1.keybuf = [1] ∧ loc1.is_exactmatch = true ∧
      (MAXLEVEL = 31 ∧
      (∀ src : Nat → Bool,
        1 ≤ (randlvl src 1 MAXLEVEL).1 ∧ (randlvl src 1 MAXLEVEL).1 ≤ MAXLEVEL) ∧
      (loc1.keybuf ≠ [] → ∀ val, ∃ db2 f A,
        store_here { db1 with loc := loc1 } val = some (0, db2) ∧
        db2.mf.recs = db1.mf.recs.map f ++ [A] ∧ A.offset = db1.end_ ∧
        A.type = RECORD ∧ 1 ≤ A.level ∧ A.level ≤ MAXLEVEL ∧
        A.key = loc1.keybuf ∧ A.key ≠ [] ∧ A.keylen = A.key.length ∧ 0 < A.keylen) ∧
      (loc1.is_exactmatch = true → ∃ db2 p m S f D,
        delete_here { db1 with loc := loc1 } = some (0, db2) ∧
        live = p ++ m :: S ∧ m.key = loc1.keybuf ∧
        db2.mf.recs = db1.mf.recs.map f ++ [D] ∧ D.offset = db1.end_ ∧
        D.type = DELETE ∧ D.level = 0 ∧ D.keylen = 0 ∧ D.vallen = 0 ∧
        D.nextloc 0 = nextAt 0 S)) := by
  obtain ⟨_, live1, hin, _, hlook, _⟩ :=
    abort_core raw_laws (idle_new raw_env 0 (fun _ => false)) (flat_new 0 (fun _ => false))
      [⟨[1], some [5], false⟩] (by decide)
      (Option.some_get (by decide : one_store.isSome = true)).symm
  obtain ⟨loc1, hfind, hkey, _, _, hloc, hin1⟩ := find_loc_txn raw_laws hin [1]
  have hl := locAt_lookup raw_laws hloc
  rw [hkey, hlook] at hl
  have hx : loc1.is_exactmatch = true := by
    cases hx : loc1.is_exactmatch
    · rw [hx] at hl
      simp [map_write] at hl
    · rfl
  exact ⟨Option.get one_store (by decide), live1, loc1, (Option.some_get _).symm, hfind, hkey,
    hx, record_type_constraints raw_laws hin1 hloc⟩

theorem forced_store_unchanged_witness :
    ∃ db1 live, one_store = some db1 ∧ lookup live [1] = some [5] ∧
      ∃ db2, skipwrite raw_env db1 [1] (some [5]) true = some (0, db2) ∧
        store raw_env (ctx raw_env 1) db1 [1] (some [5]) (some db1.current_txn)
          = some (0, db2, db1.current_txn) ∧
        (([5] : List Nat) = [5] → db2.mf = db1.mf ∧ db2.end_ = db1.end_ ∧
          db2.header = db1.header) ∧
        (([5] : List Nat) ≠ [5] → ∃ f A, db2.mf.recs = db1.mf.recs.map f ++ [A] ∧
          (∀ d ∈ db1.mf.recs, (f d).offset = d.offset ∧ (f d).type = d.type ∧
            (f d).key = d.key ∧ (f d).val = d.val ∧ (f d).len = d.len) ∧
          A.offset = db1.end_ ∧ A.type = RECORD ∧ A.key = [1] ∧ A.val = [5] ∧
          db2.end_ = db1.end_ + A.len ∧ db1.end_ < db2.end_ ∧ db2.mf.size = db2.end_) ∧
        ((db2.mf = db1.mf ∧ db2.end_ = db1.end_) ↔ ([5] : List Nat) = [5]) := by
  obtain ⟨_, live1, hin, _, hlook, _⟩ :=
    abort_core raw_laws (idle_new raw_env 0 (fun _ => false)) (flat_new 0 (fun _ => false))
      [⟨[1], some [5], false⟩] (by decide)
      (Option.some_get (by decide : one_store.isSome = true)).symm
  have hp : lookup live1 [1] = some [5] := by rw [hlook]; decide
  exact ⟨Option.get one_store (by decide), live1, (Option.some_get _).symm, hp,
    forced_store_unchanged raw_laws (ctx raw_env 1) hin (by decide) hp [5]⟩

/-! ## The binary32 test of `mycommit` in integers -/

theorem ilog2_spec (fuel : Nat) : ∀ n, 0 < n → n < 2 ^ fuel →
    2 ^ ilog2 fuel n ≤ n ∧ n < 2 ^ (ilog2 fuel n + 1) := by
  induction fuel with
  | zero =>
    intro n h1 h2
    simp at h2
    omega
  | succ k ih =>
    intro n h1 h2
    unfold ilog2
    by_cases h : n < 2
    · rw [if_pos h]
      simp
      omega
    · rw [if_neg h]
      have h3 : n / 2 < 2 ^ k := by
        rw [pow_succ] at h2
        omega
      obtain ⟨a, b⟩ := ih (n / 2) (by omega) h3
      rw [pow_succ]
      rw [pow_succ] at b
      omega

theorem ilog2_zero (fuel : Nat) : ilog2 fuel 0 = 0 := by
  cases fuel <;> simp [ilog2]

theorem round_even_cases (P Q : Nat) :
    (round_even P Q = P / Q ∧ 2 * (P % Q) ≤ Q) ∨
    (round_even P Q = P / Q + 1 ∧ (Q < 2 * (P % Q) ∨ (2 * (P % Q) = Q ∧ (P / Q) % 2 = 1))) := by
  unfold round_even
  dsimp only
  split
  · rename_i h
    right
    refine ⟨rfl, ?_⟩
    rcases h with h | h
    · exact Or.inl h
    · exact Or.inr h
  · rename_i h
    left
    refine ⟨rfl, ?_⟩
    by_contra hn
    exact h (Or.inl (by omega))

theorem round_even_ge {P Q m : Nat} (hQ : 0 < Q) (h : m * Q ≤ P) : m ≤ round_even P Q := by
  have hq : m ≤ P / Q := (Nat.le_div_iff_mul_le hQ).2 h
  rcases round_even_cases P Q with ⟨e, _⟩ | ⟨e, _⟩ <;> omega

theorem round_even_le {P Q m : Nat} (hQ : 0 < Q) (h : P ≤ m * Q) : round_even P Q ≤ m := by
  have hdm := Nat.div_add_mod P Q
  have hq : P / Q ≤ m := by
    calc P / Q ≤ m * Q / Q := Nat.div_le_div_right h
      _ = m := Nat.mul_div_cancel _ hQ
  rcases Nat.lt_or_ge (P / Q) m with hlt | hge
  · rcases round_even_cases P Q with ⟨e, _⟩ | ⟨e, _⟩ <;> omega
  · have hqm : P / Q = m := by omega
    have hr : P % Q = 0 := by
      rw [hqm] at hdm
      have : Q * m = m * Q := Nat.mul_comm _ _
      omega
    unfold round_even
    dsimp only
    rw [if_neg (by rw [hr]; omega)]
    omega

/-- The rounding reaches the odd number 13421773 exactly above the midpoint
13421772.5. -/
theorem round_even_mid (P Q : Nat) (hQ : 0 < Q) :
    13421773 ≤ round_even P Q ↔ 26843545 * Q < 2 * P := by
  have hdm := Nat.div_add_mod P Q
  have hr := Nat.mod_lt P hQ
  have hc := round_even_cases P Q
  rw [Nat.mul_comm Q (P / Q)] at hdm
  generalize round_even P Q = n at hc ⊢
  generalize P / Q = q at hc hdm
  generalize P % Q = r at hc hdm hr
  rcases Nat.lt_trichotomy q 13421772 with hlt | heq | hgt
  · have h1 : q * Q ≤ 13421771 * Q := Nat.mul_le_mul_right Q (by omega)
    generalize q * Q = T at h1 hdm
    constructor
    · intro h; omega
    · intro h; omega
  · have h1 : q * Q = 13421772 * Q := by rw [heq]
    generalize q * Q = T at h1 hdm
    rcases hc with ⟨e, e2⟩ | ⟨e, e2 | ⟨_, e3⟩⟩
    · constructor
      · intro h; omega
      · intro h; omega
    · constructor
      · intro h; omega
      · intro h; omega
    · rw [heq] at e3
      norm_num at e3
  · have h1 : 13421773 * Q ≤ q * Q := Nat.mul_le_mul_right Q (by omega)
    generalize q * Q = T at h1 hdm
    constructor
    · intro _; omega
    · intro _; omega

/-- The scaled quotient of two numbers with leading bits `la` and `lb` lies
in `[2 ^ 23, 2 ^ 24)`. -/
theorem quotient_scaled (a b la lb adj : Nat)
    (hA : 2 ^ la ≤ a ∧ a < 2 ^ (la + 1)) (hB : 2 ^ lb ≤ b ∧ b < 2 ^ (lb + 1))
    (hadj : adj = if a * 2 ^ lb < b * 2 ^ la then 1 else 0) :
    2 ^ 23 * (b * 2 ^ la) ≤ a * 2 ^ (23 + lb + adj) ∧
    a * 2 ^ (23 + lb + adj) < 2 ^ 24 * (b * 2 ^ la) := by
  obtain ⟨hA1, hA2⟩ := hA
  obtain ⟨hB1, hB2⟩ := hB
  rw [pow_succ] at hA2 hB2
  have hApos : 0 < 2 ^ la := Nat.pow_pos (by norm_num)
  have hBpos : 0 < 2 ^ lb := Nat.pow_pos (by norm_num)
  rw [pow_add, pow_add]
  generalize 2 ^ la = A at *
  generalize 2 ^ lb = B at *
  by_cases h : a * B < b * A
  · rw [if_pos h] at hadj
    subst hadj
    have h1 : b * A < (B * 2) * A := Nat.mul_lt_mul_of_pos_right hB2 hApos
    have h2 : (B * 2) * A ≤ (B * 2) * a := Nat.mul_le_mul_left _ hA1
    have e1 : (B * 2) * a = 2 * (a * B) := by ring
    have e2 : a * (2 ^ 23 * B * 2 ^ 1) = 2 ^ 24 * (a * B) := by ring
    rw [e2]
    rw [e1] at h2
    generalize a * B = X at *
    generalize b * A = Y at *
    constructor
    · norm_num
      omega
    · norm_num
      omega
  · rw [if_neg h] at hadj
    subst hadj
    have h1 : a * B < (A * 2) * B := Nat.mul_lt_mul_of_pos_right hA2 hBpos
    have h2 : (A * 2) * B ≤ (A * 2) * b := Nat.mul_le_mul_left _ hB1
    have e1 : (A * 2) * b = 2 * (b * A) := by ring
    have e2 : a * (2 ^ 23 * B * 2 ^ 0) = 2 ^ 23 * (a * B) := by ring
    rw [e2]
    rw [e1] at h2
    generalize a * B = X at *
    generalize b * A = Y at *
    constructor
    · norm_num
      omega
    · norm_num
      omega

/-- The binary32 quotient of `a` and `b` exceeds the binary64 number
nearest to 0.2 exactly when `a / b` is above the midpoint
`26843545 / 2 ^ 27` of the two binary32 numbers around 0.2. -/
theorem ratio_core (a b la lb adj : Nat) (ha : 0 < a) (hb : 0 < b)
    (hA : 2 ^ la ≤ a ∧ a < 2 ^ (la + 1)) (hB : 2 ^ lb ≤ b ∧ b < 2 ^ (lb + 1))
    (hadj : adj = if a * 2 ^ lb < b * 2 ^ la then 1 else 0) :
    round_even (a * 2 ^ (23 + lb + adj)) (b * 2 ^ la) * 2 ^ la * 2 ^ 54
        > REWRITE_RATIO_NUM * 2 ^ (23 + lb + adj) ↔
      26843545 * b < 2 ^ 27 * a := by
  obtain ⟨hP1, hP2⟩ := quotient_scaled a b la lb adj hA hB hadj
  have hApos : 0 < 2 ^ la := Nat.pow_pos (by norm_num)
  have hQ : 0 < b * 2 ^ la := Nat.mul_pos hb hApos
  have hn1 : 2 ^ 23 ≤ round_even (a * 2 ^ (23 + lb + adj)) (b * 2 ^ la) :=
    round_even_ge hQ hP1
  have hn2 : round_even (a * 2 ^ (23 + lb + adj)) (b * 2 ^ la) ≤ 2 ^ 24 :=
    round_even_le hQ (Nat.le_of_lt hP2)
  have hmid := round_even_mid (a * 2 ^ (23 + lb + adj)) (b * 2 ^ la) hQ
  have hSpos : 0 < 2 ^ (23 + lb + adj) := Nat.pow_pos (by norm_num)
  unfold REWRITE_RATIO_NUM
  rcases Nat.lt_trichotomy (23 + lb + adj) (la + 26) with hlt | heq | hgt
  · -- the quotient is at least 1/4
    obtain ⟨k, hk⟩ : ∃ k, la + 25 = (23 + lb + adj) + k := ⟨la + 25 - (23 + lb + adj), by omega⟩
    have hpow : 2 ^ la * 2 ^ 25 = 2 ^ (23 + lb + adj) * 2 ^ k := by
      rw [← pow_add, ← pow_add, hk]
    have hKpos : 0 < 2 ^ k := Nat.pow_pos (by norm_num)
    generalize round_even (a * 2 ^ (23 + lb + adj)) (b * 2 ^ la) = n at *
    generalize 2 ^ (23 + lb + adj) = S at *
    generalize 2 ^ la = A at *
    generalize 2 ^ k = K at *
    have h1 : 2 ^ 23 * A ≤ n * A := Nat.mul_le_mul_right A hn1
    have h2 : S * 1 ≤ S * K := Nat.mul_le_mul_left S hKpos
    have h3 : a * S * 1 ≤ a * S * K := Nat.mul_le_mul_left _ hKpos
    have e3 : a * S * K = 2 ^ 25 * (a * A) := by
      calc a * S * K = a * (S * K) := by ring
        _ = a * (A * 2 ^ 25) := by rw [hpow]
        _ = 2 ^ 25 * (a * A) := by ring
    have e4 : 2 ^ 23 * (b * A) = 2 ^ 23 * b * A := by ring
    have e5 : 2 ^ 25 * (a * A) = 2 ^ 25 * a * A := by ring
    have h4 : 2 ^ 23 * b * A ≤ 2 ^ 25 * a * A := by
      rw [← e4, ← e5, ← e3]
      omega
    have h5 : 2 ^ 23 * b ≤ 2 ^ 25 * a := Nat.le_of_mul_le_mul_right h4 hApos
    constructor
    · intro _
      norm_num at h5 ⊢
      omega
    · intro _
      generalize n * A = N at *
      generalize S * K = T at *
      norm_num at *
      omega
  · -- the quotient is in [1/8, 1/4)
    have hpow : 2 ^ (23 + lb + adj) = 2 ^ la * 2 ^ 26 := by
      rw [← pow_add, heq]
    rw [hpow] at hmid ⊢
    generalize round_even (a * (2 ^ la * 2 ^ 26)) (b * 2 ^ la) = n at *
    generalize 2 ^ la = A at *
    have e1 : n * A * 2 ^ 54 = (n * 2 ^ 54) * A := by ring
    have e2 : 3602879701896397 * (A * 2 ^ 26) = (3602879701896397 * 2 ^ 26) * A := by ring
    have e3 : 26843545 * (b * A) = (26843545 * b) * A := by ring
    have e4 : 2 * (a * (A * 2 ^ 26)) = (2 ^ 27 * a) * A := by ring
    rw [e3, e4, Nat.mul_lt_mul_right hApos] at hmid
    rw [gt_iff_lt, e1, e2, Nat.mul_lt_mul_right hApos, ← hmid]
    norm_num
    omega
  · -- the quotient is below 1/8
    obtain ⟨k, hk⟩ : ∃ k, 23 + lb + adj = (la + 27) + k := ⟨23 + lb + adj - (la + 27), by omega⟩
    have hpow : 2 ^ (23 + lb + adj) = 2 ^ la * 2 ^ 27 * 2 ^ k := by
      rw [← pow_add, ← pow_add, hk]
    have hKpos : 0 < 2 ^ k := Nat.pow_pos (by norm_num)
    rw [hpow] at hP2 hn2 ⊢
    clear hn1 hmid
    generalize round_even (a * (2 ^ la * 2 ^ 27 * 2 ^ k)) (b * 2 ^ la) = n at *
    generalize 2 ^ la = A at *
    generalize 2 ^ k = K at *
    have h1 : n * A ≤ 2 ^ 24 * A := Nat.mul_le_mul_right A hn2
    have h2 : A * 1 ≤ A * K := Nat.mul_le_mul_left A hKpos
    have h3 : a * A * 2 ^ 27 * 1 ≤ a * A * 2 ^ 27 * K := Nat.mul_le_mul_left _ hKpos
    have e3 : a * (A * 2 ^ 27 * K) = a * A * 2 ^ 27 * K := by ring
    have e4 : 2 ^ 24 * (b * A) = 2 ^ 24 * b * A := by ring
    have e5 : a * A * 2 ^ 27 * 1 = 2 ^ 27 * a * A := by ring
    have h4 : 2 ^ 27 * a * A < 2 ^ 24 * b * A := by
      rw [← e4, ← e5]
      rw [e3] at hP2
      omega
    have h5 : 2 ^ 27 * a < 2 ^ 24 * b := Nat.lt_of_mul_lt_mul_right h4
    have e6 : 3602879701896397 * (A * 2 ^ 27 * K) = 3602879701896397 * 2 ^ 27 * (A * K) := by
      ring
    rw [e6]
    constructor
    · intro h
      exfalso
      generalize n * A = N at *
      generalize A * K = T at *
      norm_num at *
      omega
    · intro h
      exfalso
      norm_num at h5 h
      omega

theorem round_even_near (P Q : Nat) (hQ : 0 < Q) :
    2 * (round_even P Q * Q) ≤ 2 * P + Q ∧ 2 * P ≤ 2 * (round_even P Q * Q) + Q := by
  have hdm := Nat.div_add_mod P Q
  have hr := Nat.mod_lt P hQ
  have hc := round_even_cases P Q
  rw [Nat.mul_comm Q (P / Q)] at hdm
  rcases hc with ⟨e, e2⟩ | ⟨e, e2⟩
  · rw [e]
    generalize P / Q * Q = T at *
    omega
  · rw [e]
    have : (P / Q + 1) * Q = P / Q * Q + Q := by ring
    rw [this]
    generalize P / Q * Q = T at *
    omega

/-- An integer of at most 24 bits is a binary32 number. -/
theorem to_float_small {n : Nat} (h : n < 2 ^ 24) : to_float n = n := by
  unfold to_float
  dsimp only
  by_cases h0 : n = 0
  · subst h0
    rw [ilog2_zero]
    rfl
  · have h64 : n < 2 ^ 64 := Nat.lt_of_lt_of_le h (Nat.pow_le_pow_right (by norm_num) (by norm_num))
    obtain ⟨h1, _⟩ := ilog2_spec 64 n (Nat.pos_of_ne_zero h0) h64
    have h2 : 2 ^ ilog2 64 n < 2 ^ 24 := Nat.lt_of_le_of_lt h1 h
    have h3 : ilog2 64 n < 24 := (Nat.pow_lt_pow_iff_right (by norm_num)).1 h2
    rw [if_pos h3]

/-- The conversion to binary32 moves an unsigned 64-bit integer by at most
one part in `2 ^ 24`. -/
theorem to_float_near {n : Nat} (h : n < 2 ^ 64) :
    (2 ^ 24 - 1) * n ≤ 2 ^ 24 * to_float n ∧ 2 ^ 24 * to_float n ≤ (2 ^ 24 + 1) * n := by
  by_cases hs : n < 2 ^ 24
  · rw [to_float_small hs]
    constructor
    · exact Nat.mul_le_mul_right n (by norm_num)
    · exact Nat.mul_le_mul_right n (by norm_num)
  · have h0 : 0 < n := by
      have : 0 < 2 ^ 24 := by norm_num
      omega
    obtain ⟨h1, _⟩ := ilog2_spec 64 n h0 h
    unfold to_float
    dsimp only
    by_cases h3 : ilog2 64 n < 24
    · rw [if_pos h3]
      constructor
      · exact Nat.mul_le_mul_right n (by norm_num)
      · exact Nat.mul_le_mul_right n (by norm_num)
    · rw [if_neg h3]
      have hu : 0 < 2 ^ (ilog2 64 n - 23) := Nat.pow_pos (by norm_num)
      have hp : 2 ^ ilog2 64 n = 2 ^ 23 * 2 ^ (ilog2 64 n - 23) := by
        rw [← pow_add]
        congr 1
        omega
      rw [hp] at h1
      obtain ⟨a, b⟩ := round_even_near n (2 ^ (ilog2 64 n - 23)) hu
      generalize round_even n (2 ^ (ilog2 64 n - 23)) * 2 ^ (ilog2 64 n - 23) = t at *
      generalize 2 ^ (ilog2 64 n - 23) = u at *
      norm_num at *
      omega

theorem to_float_zero : to_float 0 = 0 := to_float_small (by norm_num)

theorem to_float_pos {n : Nat} (h : n < 2 ^ 64) (h0 : 0 < n) : 0 < to_float n := by
  have := (to_float_near h).1
  norm_num at this
  omega

theorem to_float_lt {n : Nat} (h : n < 2 ^ 64) : to_float n < 2 ^ 65 := by
  have := (to_float_near h).2
  norm_num at *
  omega

/-- The test of `mycommit` on two unsigned 64-bit integers: the quotient of
the two binary32 numbers is above `26843545 / 2 ^ 27`. -/
theorem ratio_exceeded_iff {d c : Nat} (hd : d < 2 ^ 64) (hc : c < 2 ^ 64) :
    ratio_exceeded d c = true ↔ 26843545 * to_float c < 2 ^ 27 * to_float d := by
  unfold ratio_exceeded
  dsimp only
  by_cases hb : to_float c = 0
  · rw [if_pos hb, hb]
    simp
    omega
  · rw [if_neg hb]
    by_cases ha : to_float d = 0
    · rw [if_pos ha, ha]
      simp
    · rw [if_neg ha, decide_eq_true_iff]
      exact ratio_core (to_float d) (to_float c) _ _ _ (Nat.pos_of_ne_zero ha)
        (Nat.pos_of_ne_zero hb)
        (ilog2_spec 65 _ (Nat.pos_of_ne_zero ha) (to_float_lt hd))
        (ilog2_spec 65 _ (Nat.pos_of_ne_zero hb) (to_float_lt hc)) rfl

/-- For sizes below `2 ^ 24` (16 MiB) the test of `mycommit` is
`diff / current_size > 26843545 / 2 ^ 27` on exact quotients
(0.19999999553...): it holds at the ratio 0.2 itself. -/
theorem ratio_exceeded_small {d c : Nat} (hd : d < 2 ^ 24) (hc : c < 2 ^ 24) :
    ratio_exceeded d c = true ↔ 26843545 * c < 2 ^ 27 * d := by
  have h1 : d < 2 ^ 64 := Nat.lt_of_lt_of_le hd (Nat.pow_le_pow_right (by norm_num) (by norm_num))
  have h2 : c < 2 ^ 64 := Nat.lt_of_lt_of_le hc (Nat.pow_le_pow_right (by norm_num) (by norm_num))
  rw [ratio_exceeded_iff h1 h2, to_float_small hd, to_float_small hc]

/-- For all sizes the test of `mycommit` holds when the exact ratio is at
least 0.20000002 and fails when it is at most 0.19999997. -/
theorem ratio_exceeded_bounds {d c : Nat} (hd : d < 2 ^ 64) (hc : c < 2 ^ 64) (h0 : 0 < c) :
    (20000002 * c ≤ 100000000 * d → ratio_exceeded d c = true) ∧
    (100000000 * d ≤ 19999997 * c → ratio_exceeded d c = false) := by
  obtain ⟨a1, a2⟩ := to_float_near hd
  obtain ⟨b1, b2⟩ := to_float_near hc
  have hiff := ratio_exceeded_iff hd hc
  generalize to_float d = a at *
  generalize to_float c = b at *
  constructor
  · intro h
    rw [hiff]
    norm_num at *
    omega
  · intro h
    cases hr : ratio_exceeded d c
    · rfl
    · rw [hr] at hiff
      have := hiff.1 rfl
      norm_num at *
      omega

/-! ## Commit and the checkpoint test -/

theorem idle_wide (E : Env) (size repack : Nat) (hs : 336 ≤ size) :
    Idle E (wide_db size repack) [] := by
  have hz : ∀ i, new_dummy.nextloc i = 0 := by
    intro i
    show diskptrs MAXLEVEL (fun _ => 0) i = 0
    unfold diskptrs
    split <;> rfl
  refine ⟨rfl, rfl, le_refl _, rfl, by show 0 &&& DIRTY = 0; decide,
    ⟨⟨?_, ?_, ?_⟩, ?_, ⟨?_, ?_, ?_⟩⟩, ?_⟩
  · show ([new_dummy].map skiprecord.offset).Nodup
    simp
  · intro d hd
    have : d = new_dummy := by simpa [reread, wide_db] using hd
    rw [this]; exact new_dummy_norm
  · intro d hd
    have : d = new_dummy := by simpa [reread, wide_db] using hd
    rw [this]
    show HEADER_SIZE ≤ HEADER_SIZE ∧ HEADER_SIZE + 272 ≤ size
    unfold HEADER_SIZE; omega
  · intro d hd
    have : d = new_dummy := by simpa [reread, wide_db] using hd
    rw [this, hz 0, hz 1]
    show 0 < size ∧ 0 < size
    omega
  · refine ⟨⟨new_dummy, by simp [reread, wide_db], rfl, rfl, rfl, rfl, by decide, ?_, ?_⟩,
      trivial⟩
    · left
      rw [hz 0, hz 1]
      exact ⟨rfl, rfl⟩
    · intro i _ _
      rw [hz]; rfl
  · simp
  · intro n hn; cases hn
  · intro h1
    have h2 : (0 : Nat) = size := h1
    omega

/-- C13 (as stated, refuted): the handle `slack_db 336` is inside a
transaction that made no write, over a clean file of 20000 bytes of which
336 are accounted for in `repack_size`; `mycommit` on it runs a checkpoint,
and the file afterwards is the new file of 336 bytes. -/
theorem commit_nowrite_counterexample :
    (slack_db 336).header.flags &&& DIRTY = 0 ∧ db_is_clean (slack_db 336) = true ∧
    (slack_db 336).mf.size = 20000 ∧
    mycommit raw_env (ctx raw_env 1) (slack_db 336) (slack_db 336).current_txn =
      (match mycheckpoint raw_env (ctx raw_env 0) (slack_db 336) with
       | none => none
       | some (r, db3) => some (r, { db3 with current_txn := none })) ∧
    (mycommit raw_env (ctx raw_env 1) (slack_db 336) (slack_db 336).current_txn).map
      (fun r => (r.1, r.2.mf.size)) = some (0, 336) := by
  refine ⟨by decide, by decide, rfl, ?_, by decide⟩
  rw [mycommit_clean raw_env (ctx raw_env 1) rfl (by decide)]
  unfold commit_finish
  rw [if_pos (by decide)]
  rfl

/-- C13 (amended): committing a transaction in which no write occurred
(DIRTY not set) appends no COMMIT record and does not rewrite the header:
the handle goes to the checkpoint test as it is.  The test is
`current_size - repack_size > 16834` and `(float)diff / (float)current_size
> 0.2` in binary32, which for sizes below `2 ^ 24` is `2 ^ 27 * diff >
26843545 * current_size` and holds at the ratio 0.2 itself.  When the test
fails the commit returns 0 and only releases the lock and drops the
transaction (the records, the size and the header of the file, and the
header in memory, are the same); when the test holds the result is that of
`mycheckpoint` on the unchanged handle. -/
theorem commit_nowrite (E : Env) (C : Ctx) (db : dbengine)
    (hd : db.header.flags &&& DIRTY = 0) :
    (¬ (sub64 db.header.current_size db.header.repack_size > 16834 ∧
        ratio_exceeded (sub64 db.header.current_size db.header.repack_size)
          db.header.current_size = true) →
      ∃ db1, mycommit E C db db.current_txn = some (0, db1) ∧
        db1.mf.recs = db.mf.recs ∧ db1.mf.size = db.mf.size ∧ db1.mf.header = db.mf.header ∧
        db1.header = db.header ∧ db1.mf.lock_status = UNLOCKED ∧ db1.current_txn = none) ∧
    ((sub64 db.header.current_size db.header.repack_size > 16834 ∧
        ratio_exceeded (sub64 db.header.current_size db.header.repack_size)
          db.header.current_size = true) →
      mycommit E C db db.current_txn =
        match C.mycheckpoint db with
        | none => none
        | some (r, db3) => some (r, { db3 with current_txn := none })) ∧
    (sub64 db.header.current_size db.header.repack_size < 2 ^ 24 →
      db.header.current_size < 2 ^ 24 →
      (ratio_exceeded (sub64 db.header.current_size db.header.repack_size)
          db.header.current_size = true ↔
        26843545 * db.header.current_size
          < 2 ^ 27 * sub64 db.header.current_size db.header.repack_size)) := by
  rw [mycommit_clean E C rfl hd]
  unfold commit_finish
  refine ⟨?_, ?_, fun h1 h2 => ratio_exceeded_small h1 h2⟩
  · intro hn
    exact ⟨released db, if_neg hn, rfl, rfl, rfl, rfl, rfl, rfl⟩
  · intro hn
    exact (if_pos hn).trans rfl

/-- Two transactions that made no write.  Over a clean file of 20000 bytes
with `repack_size` 3500 the difference 16500 is not above 16834 and the
commit only releases the lock.  Over a clean file of 85000 bytes with
`repack_size` 68000 the difference is 17000, a ratio of exactly 0.2: the
test holds, and the commit runs the checkpoint, which leaves the new file of
336 bytes. -/
theorem commit_nowrite_witness :
    (∃ db1, mycommit raw_env (ctx raw_env 1) (slack_db 3500) (slack_db 3500).current_txn
        = some (0, db1) ∧
      db1.mf.recs = (slack_db 3500).mf.recs ∧ db1.mf.size = (slack_db 3500).mf.size ∧
      db1.mf.header = (slack_db 3500).mf.header ∧ db1.header = (slack_db 3500).header ∧
      db1.mf.lock_status = UNLOCKED ∧ db1.current_txn = none) ∧
    sub64 (begun (wide_db 85000 68000)).header.current_size
      (begun (wide_db 85000 68000)).header.repack_size = 17000 ∧
    5 * 17000 = (begun (wide_db 85000 68000)).header.current_size ∧
    mycommit raw_env (ctx raw_env 1) (begun (wide_db 85000 68000))
        (begun (wide_db 85000 68000)).current_txn =
      (match (ctx raw_env 1).mycheckpoint (begun (wide_db 85000 68000)) with
       | none => none
       | some (r, db3) => some (r, { db3 with current_txn := none })) ∧
    (mycommit raw_env (ctx raw_env 1) (begun (wide_db 85000 68000))
        (begun (wide_db 85000 68000)).current_txn).map (fun r => (r.1, r.2.mf.size))
      = some (0, 336) ∧
    (ratio_exceeded 17000 85000 = true ↔ 26843545 * 85000 < 2 ^ 27 * 17000) :=
  ⟨(commit_nowrite raw_env (ctx raw_env 1) (slack_db 3500) (by decide)).1 (by decide),
    by decide, by decide,
    (commit_nowrite raw_env (ctx raw_env 1) (begun (wide_db 85000 68000)) (by decide)).2.1
      (by decide),
    by decide,
    (commit_nowrite raw_env (ctx raw_env 1) (begun (wide_db 85000 68000)) (by decide)).2.2
      (by decide) (by decide)⟩

/-- C18 (as stated, refuted): a commit with `current_size - repack_size` =
16500, above 16384, and ratio 0.825, for which the floating point test
holds, runs no checkpoint: it returns the handle with the lock released and
the file of 20000 bytes, where a checkpoint would have left a file of 336
bytes. -/
theorem checkpoint_trigger_counterexample :
    sub64 (slack_db 3500).header.current_size (slack_db 3500).header.repack_size = 16500 ∧
    ratio_exceeded 16500 (slack_db 3500).header.current_size = true ∧
    mycommit raw_env (ctx raw_env 1) (slack_db 3500) (slack_db 3500).current_txn
      = some (0, released (slack_db 3500)) ∧
    (released (slack_db 3500)).mf.size = 20000 ∧
    (mycheckpoint raw_env (ctx raw_env 0) (slack_db 3500)).map
      (fun r => (r.1, r.2.mf.size)) = some (0, 336) := by
  refine ⟨by decide, by decide, ?_, rfl, by decide⟩
  rw [mycommit_clean raw_env (ctx raw_env 1) rfl (by decide)]
  unfold commit_finish
  rw [if_neg (by decide)]

/-- C18 (amended): after the body of a commit succeeded, on the handle
`db2` it leaves (the handle itself when no write was made, else with the
COMMIT record appended and the header written), a checkpoint is run exactly
when `diff = current_size - repack_size` exceeds 16834 bytes and the test
`(float)diff / (float)current_size > 0.2` holds, made in binary32 on the two
sizes converted to binary32; otherwise the commit returns 0 and releases the
lock.  For sizes below `2 ^ 24` the floating point test is
`2 ^ 27 * diff > 26843545 * current_size` (a ratio above 0.19999999553, the
ratio 0.2 included); for all sizes it holds when the ratio is at least
0.20000002 and fails when the ratio is at most 0.19999997. -/
theorem checkpoint_trigger {E : Env} (C : Ctx) {db : dbengine} {live : List node}
    (h : InTxn E db live) :
    ∃ db2, db2.header.repack_size = db.header.repack_size ∧
      db2.header.current_size =
        (if db.header.flags &&& DIRTY = 0 then db.header.current_size else db.end_ + 24) ∧
      (sub64 db2.header.current_size db2.header.repack_size > 16834 ∧
        ratio_exceeded (sub64 db2.header.current_size db2.header.repack_size)
          db2.header.current_size = true →
        mycommit E C db db.current_txn =
          match C.mycheckpoint db2 with
          | none => none
          | some (r, db3) => some (r, { db3 with current_txn := none })) ∧
      (¬ (sub64 db2.header.current_size db2.header.repack_size > 16834 ∧
        ratio_exceeded (sub64 db2.header.current_size db2.header.repack_size)
          db2.header.current_size = true) →
        mycommit E C db db.current_txn = some (0, released db2)) ∧
      (∀ diff current_size, diff < 2 ^ 24 → current_size < 2 ^ 24 →
        (ratio_exceeded diff current_size = true ↔
          26843545 * current_size < 2 ^ 27 * diff)) ∧
      (∀ diff current_size, diff < 2 ^ 64 → current_size < 2 ^ 64 → 0 < current_size →
        (20000002 * current_size ≤ 100000000 * diff →
          ratio_exceeded diff current_size = true) ∧
        (100000000 * diff ≤ 19999997 * current_size →
          ratio_exceeded diff current_size = false)) := by
  have hm := h.file.mf
  have hb : ∀ d ∈ db.mf.recs, d.offset + d.len ≤ db.end_ := by
    intro d hd1
    have := (hm.bound d hd1).2
    have := h.size
    omega
  have h64 : HEADER_SIZE ≤ db.mf.size := by
    have := fileOK_size64 h.file
    omega
  by_cases hd : db.header.flags &&& DIRTY = 0
  · refine ⟨db, rfl, by rw [if_pos hd], ?_, ?_, fun _ _ h1 h2 => ratio_exceeded_small h1 h2,
      fun _ _ h1 h2 h3 => ratio_exceeded_bounds h1 h2 h3⟩
    · intro hn
      rw [mycommit_clean E C rfl hd]
      unfold commit_finish
      exact (if_pos hn).trans rfl
    · intro hn
      rw [mycommit_clean E C rfl hd]
      unfold commit_finish
      exact if_neg hn
  · refine ⟨committed db, rfl, by rw [if_neg hd]; rfl, ?_, ?_,
      fun _ _ h1 h2 => ratio_exceeded_small h1 h2,
      fun _ _ h1 h2 h3 => ratio_exceeded_bounds h1 h2 h3⟩
    · intro hn
      rw [mycommit_dirty E C rfl hd h.txn hb h.size h64]
      unfold commit_finish
      exact (if_pos hn).trans rfl
    · intro hn
      rw [mycommit_dirty E C rfl hd h.txn hb h.size h64]
      unfold commit_finish
      exact if_neg hn

/-- A transaction that made no write over a clean file of 85000 bytes with
`repack_size` 68000: the difference 17000 exceeds 16834 and is exactly 0.2
of the size; the floating point test holds (`2 ^ 27 * 17000 > 26843545 *
85000`), so that the commit runs the checkpoint, which leaves the new file
of 336 bytes.  With one byte less of difference the test fails. -/
theorem checkpoint_trigger_witness :
    ∃ db2, db2.header.repack_size = 68000 ∧ db2.header.current_size = 85000 ∧
      5 * sub64 db2.header.current_size db2.header.repack_size = db2.header.current_size ∧
      (sub64 db2.header.current_size db2.header.repack_size > 16834 ∧
        ratio_exceeded (sub64 db2.header.current_size db2.header.repack_size)
          db2.header.current_size = true) ∧
      mycommit raw_env (ctx raw_env 1) (begun (wide_db 85000 68000))
          (begun (wide_db 85000 68000)).current_txn =
        (match (ctx raw_env 1).mycheckpoint db2 with
         | none => none
         | some (r, db3) => some (r, { db3 with current_txn := none })) ∧
      (mycommit raw_env (ctx raw_env 1) (begun (wide_db 85000 68000))
          (begun (wide_db 85000 68000)).current_txn).map (fun r => (r.1, r.2.mf.size))
        = some (0, 336) ∧
      (ratio_exceeded 17000 85000 = true ↔ 26843545 * 85000 < 2 ^ 27 * 17000) ∧
      (ratio_exceeded 16999 85000 = true ↔ 26843545 * 85000 < 2 ^ 27 * 16999) ∧
      ratio_exceeded 16999 85000 = false := by
  obtain ⟨db2, a1, a2, a3, _, a5, _⟩ :=
    checkpoint_trigger (ctx raw_env 1)
      (newtxn_ok (ctx raw_env 1) (idle_wide raw_env 85000 68000 (by norm_num))).2.1
  have e1 : db2.header.repack_size = 68000 := a1
  have e2 : db2.header.current_size = 85000 := a2.trans (by decide)
  have ht : sub64 db2.header.current_size db2.header.repack_size > 16834 ∧
      ratio_exceeded (sub64 db2.header.current_size db2.header.repack_size)
        db2.header.current_size = true := by
    rw [e1, e2]
    decide
  exact ⟨db2, e1, e2, by rw [e1, e2]; decide, ht, a3 ht, by decide,
    a5 17000 85000 (by norm_num) (by norm_num), a5 16999 85000 (by norm_num) (by norm_num),
    by decide⟩

/-! ## States that hold records -/

/-- A store with force between transactions: the store runs in a
transaction of its own and commits it. -/
theorem mystore_idle {E : Env} (hc : CompareLaws E.compar) (d : Nat) {db : dbengine}
    {live : List node} (h : Idle E db live) {key : List Nat} (hk : key ≠ [])
    (val : List Nat) :
    ∃ db2 tid live2, mystore E (ctx E (d + 1)) db key (some val) none true
        = some (0, db2, tid) ∧ Idle E db2 live2 ∧
      ∀ k, lookup live2 k = if k = key then some val else lookup live k := by
  obtain ⟨n1, n2, n3, _⟩ := newtxn_ok (ctx E (d + 1)) h
  obtain ⟨db1, db2, live2, a1, a2, a3, a4, a5⟩ := store_commit hc d n2 n3 hk val
  have hkl : ¬ key.length = 0 := fun e => hk (List.length_eq_zero.1 e)
  have htid : db1.current_txn = some { num := db.txn_num + 1 } := a2
  rw [htid] at a3
  refine ⟨db2, some { num := db.txn_num + 1 }, live2, ?_, a4, a5⟩
  unfold mystore
  simp only [hkl, if_false, Option.getD_none, if_true, n1, Option.getD_some, a1, ne_eq,
    not_true_eq_false, reduceCtorEq, not_false_eq_true, and_self, a3]

/-! ## The skip list invariant -/

/-- C8 (as stated, refuted): on `stale_db` the consistency check passes
(the slot that holds 450 is at or past `end` = 440, so that the level zero
pointer of the record is its other slot); `store_here` of the new key `[3]`
returns 0 and moves `end` to 480, after which the slot that holds 450 is the
level zero pointer of the record of `[1]`, and the consistency check fails
with `CYRUSDB_IOERROR`. -/
theorem consistent_after_write_counterexample :
    stale_db.map (fun db => (db.end_, db.mf.size,
      db.mf.recs.map (fun d => [d.offset, d.nextloc 0, d.nextloc 1])))
      = some (440, 440, [[64, 0, 336], [336, 450, 376], [376, 0, 0], [416, 336, 0]]) ∧
    stale_db.map (fun db => myconsistent raw_env db db.current_txn) = some (some 0) ∧
    stale_db.map (fun db => myconsistent raw_env (located raw_env db [3])
      (located raw_env db [3]).current_txn) = some (some 0) ∧
    (stale_db.bind fun db => (store_here (located raw_env db [3]) [7]).map
      fun r => (r.1, r.2.end_, myconsistent raw_env r.2 r.2.current_txn))
      = some (0, 480, some CYRUSDB_IOERROR) := by
  refine ⟨by decide, by decide, by decide, by decide⟩

/-- C8 (amended): on a database inside a transaction that satisfies the
invariant `InTxn` of a transaction (the records lie inside the file, every
level zero slot is below `end`, which is the file size, at most one of the
two is at or past `current_size`, and the file holds a skip list: the keys
along the level zero chain from DUMMY are strictly increasing and every
pointer of every level leads to the next record of that level or is 0 at
the tail), `myconsistent` passes, and `store_here` (insert or replace, for
every random level drawn) and `delete_here` return a state that satisfies
the invariant again, holds a skip list again, and on which `myconsistent`
passes. -/
theorem consistent_after_write {E : Env} (hc : CompareLaws E.compar) {db : dbengine}
    {live : List node} (h : InTxn E db live) (hloc : LocAt E db.loc live) :
    myconsistent E db db.current_txn = some 0 ∧
    (db.loc.keybuf ≠ [] → ∀ val, ∃ db1 live1, store_here db val = some (0, db1) ∧
      InTxn E db1 live1 ∧ ChainOK E db1.mf.recs live1 ∧
      myconsistent E db1 db1.current_txn = some 0) ∧
    (db.loc.is_exactmatch = true → ∃ db1 live1, delete_here db = some (0, db1) ∧
      InTxn E db1 live1 ∧ ChainOK E db1.mf.recs live1 ∧
      myconsistent E db1 db1.current_txn = some 0) := by
  refine ⟨myconsistent_ok hc h.file _ rfl, ?_, ?_⟩
  · intro hk val
    obtain ⟨db1, live1, h1, h2, _⟩ := store_txn hc h hloc hk val
    exact ⟨db1, live1, h1, h2, h2.file.chain, myconsistent_ok hc h2.file _ rfl⟩
  · intro hx
    obtain ⟨db1, live1, h1, h2, _⟩ := delete_txn hc h hloc hx
    exact ⟨db1, live1, h1, h2, h2.file.chain, myconsistent_ok hc h2.file _ rfl⟩

/-- The first transaction of a new database after the store of `[1] ↦ [5]`,
positioned at the key `[1]` it holds and at the key `[2]` it does not hold:
the check passes, and passes again after the replacement of `[1]`, after the
delete of `[1]` and after the insertion of `[2]`. -/
theorem consistent_after_write_witness :
    ∃ db live, one_store = some db ∧ lookup live [1] = some [5] ∧
      (located raw_env db [1]).loc.is_exactmatch = true ∧
      (located raw_env db [2]).loc.is_exactmatch = false ∧
      myconsistent raw_env (located raw_env db [1]) (located raw_env db [1]).current_txn
        = some 0 ∧
      (∃ db1 live1, store_here (located raw_env db [1]) [9] = some (0, db1) ∧
        InTxn raw_env db1 live1 ∧ ChainOK raw_env db1.mf.recs live1 ∧
        myconsistent raw_env db1 db1.current_txn = some 0) ∧
      (∃ db1 live1, delete_here (located raw_env db [1]) = some (0, db1) ∧
        InTxn raw_env db1 live1 ∧ ChainOK raw_env db1.mf.recs live1 ∧
        myconsistent raw_env db1 db1.current_txn = some 0) ∧
      (∃ db1 live1, store_here (located raw_env db [2]) [9] = some (0, db1) ∧
        InTxn raw_env db1 live1 ∧ ChainOK raw_env db1.mf.recs live1 ∧
        myconsistent raw_env db1 db1.current_txn = some 0) := by
  obtain ⟨_, live1, hin, _, hlook, _⟩ :=
    abort_core raw_laws (idle_new raw_env 0 (fun _ => false)) (flat_new 0 (fun _ => false))
      [⟨[1], some [5], false⟩] (by decide)
      (Option.some_get (by decide : one_store.isSome = true)).symm
  have hp : lookup live1 [1] = some [5] := by rw [hlook]; decide
  obtain ⟨c1, c2, c3⟩ := consistent_after_write raw_laws (located_ok raw_laws hin [1]).1
    (located_ok raw_laws hin [1]).2.1
  obtain ⟨_, d2, _⟩ := consistent_after_write raw_laws (located_ok raw_laws hin [2]).1
    (located_ok raw_laws hin [2]).2.1
  exact ⟨Option.get one_store (by decide), live1, (Option.some_get _).symm, hp, by decide,
    by decide, c1, c2 (by decide) [9], c3 (by decide), d2 (by decide) [9]⟩

/-! ## Witnesses on states that hold records -/

/-- On the database that holds the committed keys `[2]` and `[3]`:
`fetchnext` of `[2]` returns the key `[3]` and its value. -/
theorem fetchnext_strict_witness :
    ∃ db live, two_keys = some db ∧ lookup live [2] = some [20] ∧
      lookup live [3] = some [30] ∧
      (∃ res p R, fetchnext raw_env (ctx raw_env 1) db [2] none = some res ∧ live = p ++ R ∧
        (∀ n ∈ p, raw_env.compar n.key [2] ≤ 0) ∧ (∀ n ∈ R, raw_env.compar [2] n.key < 0) ∧
        (R = [] → res.r = CYRUSDB_NOTFOUND ∧ res.data = none) ∧
        (∀ y R1, R = y :: R1 →
          res.r = 0 ∧ res.foundkey = some y.key ∧ res.data = some y.val ∧
          ∀ n ∈ live, raw_env.compar [2] n.key < 0 → raw_env.compar y.key n.key ≤ 0)) ∧
      (fetchnext raw_env (ctx raw_env 1) db [2] none).map
        (fun r => (r.r, r.foundkey, r.data)) = some (0, some [3], some [30]) ∧
      (fetchnext raw_env (ctx raw_env 1) db [3] none).map
        (fun r => (r.r, r.data)) = some (CYRUSDB_NOTFOUND, none) := by
  obtain ⟨dbA, tidA, liveA, eA, iA, lA⟩ :=
    mystore_idle raw_laws 0 (idle_new raw_env 0 (fun _ => false))
      (by decide : ([2] : List Nat) ≠ []) [20]
  obtain ⟨dbB, tidB, liveB, eB, iB, lB⟩ :=
    mystore_idle raw_laws 0 iA (by decide : ([3] : List Nat) ≠ []) [30]
  have e : two_keys = some dbB := by
    unfold two_keys
    rw [eA]
    show (mystore raw_env (ctx raw_env 1) dbA [3] (some [30]) none true).map _ = _
    rw [eB]
    rfl
  have v1 : (two_keys.bind fun db => (fetchnext raw_env (ctx raw_env 1) db [2] none).map
      fun r => (r.r, r.foundkey, r.data)) = some (0, some [3], some [30]) := by decide
  have v2 : (two_keys.bind fun db => (fetchnext raw_env (ctx raw_env 1) db [3] none).map
      fun r => (r.r, r.data)) = some (CYRUSDB_NOTFOUND, none) := by decide
  rw [e] at v1 v2
  refine ⟨dbB, liveB, e, ?_, ?_, fetchnext_strict raw_laws (ctx raw_env 1) iB [2], v1, v2⟩
  · rw [lB, lA]; decide
  · rw [lB, if_pos rfl]

/-- In the first transaction of a new database after the stores of
`[2, 8]`, `[1]` and `[2, 7]`: `myforeach` with the prefix `[2]` and a
callback that appends the key and the value it gets to the rock runs the
callback on `[2, 7]` and then on `[2, 8]`, and not on `[1]`. -/
theorem foreach_refines_witness :
    ∃ db live, three_keys = some db ∧ lookup live [1] = some [5] ∧
      lookup live [2, 7] = some [6] ∧ lookup live [2, 8] = some [7] ∧
      ((live.filter (fun n => ([2] : List Nat).isPrefixOf n.key)).Pairwise
        (fun a b => raw_env.compar a.key b.key < 0) ∧
      (foreach_ref none
          (fun (acc : List (List Nat × List Nat)) k v => some (0, acc ++ [(k, v)]))
          (live.filter (fun n => ([2] : List Nat).isPrefixOf n.key)) [] = none →
        myforeach raw_env (ctx raw_env 1) db [2] none
          (fun (acc : List (List Nat × List Nat)) k v => some (0, acc ++ [(k, v)])) []
          (some db.current_txn) = none) ∧
      (∀ r rock1,
        foreach_ref none
          (fun (acc : List (List Nat × List Nat)) k v => some (0, acc ++ [(k, v)]))
          (live.filter (fun n => ([2] : List Nat).isPrefixOf n.key)) [] = some (r, rock1) →
        ∃ db1, myforeach raw_env (ctx raw_env 1) db [2] none
            (fun (acc : List (List Nat × List Nat)) k v => some (0, acc ++ [(k, v)])) []
            (some db.current_txn)
            = some (r, db1, rock1, (some db.current_txn : Option (Option txn)).getD none) ∧
          db1.mf.recs = db.mf.recs ∧ db1.mf.size = db.mf.size ∧
          db1.mf.header = db.mf.header ∧
          (((some db.current_txn : Option (Option txn)) = none ∧ Idle raw_env db1 live) ∨
            ((some db.current_txn : Option (Option txn)) = some db1.current_txn ∧
              InTxn raw_env db1 live)))) ∧
      (myforeach raw_env (ctx raw_env 1) db [2] none
          (fun (acc : List (List Nat × List Nat)) k v => some (0, acc ++ [(k, v)])) []
          (some db.current_txn)).map (fun r => (r.1, r.2.2.1))
        = some (0, [([2, 7], [6]), ([2, 8], [7])]) := by
  obtain ⟨_, live1, hin, _, hlook, _⟩ :=
    abort_core raw_laws (idle_new raw_env 0 (fun _ => false)) (flat_new 0 (fun _ => false))
      [⟨[2, 8], some [7], false⟩, ⟨[1], some [5], false⟩, ⟨[2, 7], some [6], false⟩]
      (by decide) (Option.some_get (by decide : three_keys.isSome = true)).symm
  exact ⟨Option.get three_keys (by decide), live1, (Option.some_get _).symm,
    by rw [hlook]; decide, by rw [hlook]; decide, by rw [hlook]; decide,
    foreach_refines raw_laws raw_prefix_laws (ctx raw_env 1) [2] none
      (fun (acc : List (List Nat × List Nat)) k v => some (0, acc ++ [(k, v)])) []
      (some (Option.get three_keys (by decide)).current_txn) (Or.inr ⟨rfl, hin⟩)
      (fun _ => by unfold KL; decide),
    by decide⟩

/-- In the first transaction of a new database after the store of
`[1] ↦ [5]`: a store of the key `[1]` without force returns `Exists` and
leaves the file as it is; with force it returns 0; a store of the absent key
`[2]` without force returns 0. -/
theorem store_exists_iff_witness :
    ∃ db live, one_store = some db ∧ lookup live [1] = some [5] ∧ lookup live [2] = none ∧
      (∃ r db1, skipwrite raw_env db [1] (some [2]) false = some (r, db1) ∧
        (r = CYRUSDB_EXISTS ↔ (lookup live [1] ≠ none ∧ false = false)) ∧
        (¬ (lookup live [1] ≠ none ∧ false = false) → r = 0) ∧
        (r = CYRUSDB_EXISTS → db1.mf = db.mf ∧ db1.end_ = db.end_) ∧
        r = CYRUSDB_EXISTS ∧ db1.mf = db.mf ∧ db1.end_ = db.end_) ∧
      (∃ db1, skipwrite raw_env db [1] (some [2]) true = some (0, db1)) ∧
      (∃ db1, skipwrite raw_env db [2] (some [2]) false = some (0, db1)) := by
  obtain ⟨_, live1, hin, _, hlook, _⟩ :=
    abort_core raw_laws (idle_new raw_env 0 (fun _ => false)) (flat_new 0 (fun _ => false))
      [⟨[1], some [5], false⟩] (by decide)
      (Option.some_get (by decide : one_store.isSome = true)).symm
  have hp : lookup live1 [1] = some [5] := by rw [hlook]; decide
  have hq : lookup live1 [2] = none := by rw [hlook]; decide
  obtain ⟨r, db1, a1, a2, a3, a4⟩ := store_exists_iff raw_laws hin
    (by decide : ([1] : List Nat) ≠ []) [2] false
  obtain ⟨r2, db2, b1, b2, b3, _⟩ := store_exists_iff raw_laws hin
    (by decide : ([1] : List Nat) ≠ []) [2] true
  obtain ⟨r3, db3, c1, c2, c3, _⟩ := store_exists_iff raw_laws hin
    (by decide : ([2] : List Nat) ≠ []) [2] false
  have hr : r = CYRUSDB_EXISTS := a2.2 ⟨by rw [hp]; simp, rfl⟩
  have hr2 : r2 = 0 := b3 (by simp)
  have hr3 : r3 = 0 := c3 (by rw [hq]; simp)
  rw [hr2] at b1
  rw [hr3] at c1
  exact ⟨Option.get one_store (by decide), live1, (Option.some_get _).symm, hp, hq,
    ⟨r, db1, a1, a2, a3, a4, hr, (a4 hr).1, (a4 hr).2⟩, ⟨db2, b1⟩, ⟨db3, c1⟩⟩

/-- In the first transaction of a new database after the store of
`[1] ↦ [5]`, positioned at the key `[1]`: every record satisfies the two
bounds, and so does every record after `_setloc` of the level zero pointer
of the DUMMY record to the offset 336, after `stitch` at level 1, after
`store_here` of a new value and after `delete_here`. -/
theorem dual_pointer_invariant_witness :
    ∃ db live, one_store = some db ∧ lookup live [1] = some [5] ∧
      (located raw_env db [1]).mf.recs.map (fun d => [d.offset, d.nextloc 0, d.nextloc 1])
        = [[64, 0, 336], [336, 0, 0]] ∧
      (located raw_env db [1]).header.current_size = 336 ∧
      (located raw_env db [1]).mf.size = 376 ∧
      DualOK (located raw_env db [1]) ∧
      (max ((_setloc (located raw_env db [1]) new_dummy 0 336).nextloc 0)
          ((_setloc (located raw_env db [1]) new_dummy 0 336).nextloc 1)
          < (located raw_env db [1]).mf.size ∧
        ¬ ((located raw_env db [1]).header.current_size
            ≤ (_setloc (located raw_env db [1]) new_dummy 0 336).nextloc 0 ∧
          (located raw_env db [1]).header.current_size
            ≤ (_setloc (located raw_env db [1]) new_dummy 0 336).nextloc 1)) ∧
      (∃ db1, stitch (located raw_env db [1]) 1 = some (0, db1) ∧ DualOK db1) ∧
      (∃ db1, store_here (located raw_env db [1]) [9] = some (0, db1) ∧ DualOK db1) ∧
      (∃ db1, delete_here (located raw_env db [1]) = some (0, db1) ∧ DualOK db1) := by
  obtain ⟨_, live1, hin, _, hlook, _⟩ :=
    abort_core raw_laws (idle_new raw_env 0 (fun _ => false)) (flat_new 0 (fun _ => false))
      [⟨[1], some [5], false⟩] (by decide)
      (Option.some_get (by decide : one_store.isSome = true)).symm
  have hp : lookup live1 [1] = some [5] := by rw [hlook]; decide
  obtain ⟨hl1, hl2, _⟩ := located_ok raw_laws hin [1]
  obtain ⟨c1, c2, c3, c4, c5⟩ := dual_pointer_invariant raw_laws hl1
  exact ⟨Option.get one_store (by decide), live1, (Option.some_get _).symm, hp, by decide,
    by decide, by decide, c1,
    c2 new_dummy 0 336 (by decide) (by decide) (by decide),
    c3 1 (by decide) (by decide) hl2 (by decide), c4 hl2 (by decide) [9],
    c5 hl2 (by decide)⟩

/-! ## `read_record` on untrusted bytes -/

theorem ptrs_at_bounds (base : List Nat) (offset : Nat) :
    offset + 8 ≤ Codec.ptrs_at base offset ∧ Codec.ptrs_at base offset ≤ offset + 24 := by
  unfold Codec.ptrs_at Codec.off2_at
  split_ifs <;> omega

/-- C22 (amended): on every file content and every offset for which the
sums of `read_record` do not wrap (`offset`, the key length and the value
length stored in the file and the 296 bytes of the largest head and padding
add up to less than `2 ^ 64`; the wrap is the subject of C23), `read_record`
returns a decoded record (code 0) or `CYRUSDB_IOERROR`, except that it
aborts on its assertion exactly when the first size check passes and the
level byte exceeds `MAXLEVEL`; every byte it loads lies inside the file, and
a record it returns with code 0 lies inside the file with its key, value
and padding. -/
theorem read_record_returns_or_aborts (crc32_map : List Nat → Nat) (base : List Nat)
    (offset : Nat)
    (hw : offset + Codec.keylen_at base offset + Codec.vallen_at base offset + 296 < 2 ^ 64) :
    (Codec.read_record crc32_map base offset = none ↔
      (offset + 24 ≤ base.length ∧ MAXLEVEL < Codec.level_at base offset)) ∧
    (∀ r rec, Codec.read_record crc32_map base offset = some (r, rec) →
      r = 0 ∨ r = CYRUSDB_IOERROR) ∧
    Codec.read_extent crc32_map base offset ≤ base.length ∧
    (∀ rec, Codec.read_record crc32_map base offset = some (0, rec) →
      rec.offset = offset ∧ offset + rec.len ≤ base.length ∧ rec.level ≤ MAXLEVEL ∧
      offset < rec.keyoffset ∧
      rec.keyoffset + roundup (rec.keylen + rec.vallen) 8 = offset + rec.len) := by
  have h24 : (offset + 24) % 2 ^ 64 = offset + 24 := Nat.mod_eq_of_lt (by omega)
  have hp := ptrs_at_bounds base offset
  have hkv : (Codec.keylen_at base offset + Codec.vallen_at base offset) % 2 ^ 64
      = Codec.keylen_at base offset + Codec.vallen_at base offset :=
    Nat.mod_eq_of_lt (by omega)
  have hru := roundup_le (Codec.keylen_at base offset + Codec.vallen_at base offset)
  have hlen : Codec.level_at base offset ≤ MAXLEVEL →
      Codec.len_at base offset = (Codec.ptrs_at base offset - offset)
        + 8 * (1 + Codec.level_at base offset) + 8
        + roundup (Codec.keylen_at base offset + Codec.vallen_at base offset) 8 := by
    intro hl
    unfold MAXLEVEL at hl
    unfold Codec.len_at
    rw [hkv]
    exact Nat.mod_eq_of_lt (by omega)
  have hsum : Codec.level_at base offset ≤ MAXLEVEL →
      (offset + Codec.len_at base offset) % 2 ^ 64 = offset + Codec.len_at base offset := by
    intro hl
    rw [hlen hl]
    unfold MAXLEVEL at hl
    exact Nat.mod_eq_of_lt (by omega)
  rw [read_record_eq]
  unfold Codec.read_extent
  rw [h24]
  refine ⟨?_, ?_, ?_, ?_⟩
  · constructor
    · intro h
      split_ifs at h with h1 h2 h3 h4
      exact ⟨by omega, h2⟩
    · rintro ⟨h1, h2⟩
      rw [if_neg (by omega), if_pos h2]
  · intro r rec h
    split_ifs at h with h1 h2 h3 h4
    all_goals
      injection h with h
      injection h with h _
      first
        | exact Or.inl h.symm
        | exact Or.inr h.symm
  · by_cases h1 : offset + 24 > base.length
    · rw [if_pos h1]
      exact Nat.zero_le _
    · rw [if_neg h1]
      by_cases h2 : Codec.level_at base offset > MAXLEVEL
      · rw [if_pos h2]
        omega
      · rw [if_neg h2, hsum (by omega)]
        by_cases h3 : offset + Codec.len_at base offset > base.length
        · rw [if_pos h3]
          omega
        · rw [if_neg h3]
          have hl := hlen (by omega)
          unfold Codec.crc_at
          split_ifs <;> omega
  · intro rec h
    by_cases h1 : offset + 24 > base.length
    · rw [if_pos h1] at h
      injection h with h
      injection h with h _
      unfold CYRUSDB_IOERROR at h
      omega
    · rw [if_neg h1] at h
      by_cases h2 : Codec.level_at base offset > MAXLEVEL
      · rw [if_pos h2] at h
        cases h
      · rw [if_neg h2, hsum (by omega)] at h
        have hl := hlen (by omega)
        by_cases h3 : offset + Codec.len_at base offset > base.length
        · rw [if_pos h3] at h
          injection h with h
          injection h with h _
          unfold CYRUSDB_IOERROR at h
          omega
        · rw [if_neg h3] at h
          split_ifs at h with h4
          · injection h with h
            injection h with h _
            unfold CYRUSDB_IOERROR at h
            omega
          · injection h with h
            injection h with _ h
            subst h
            dsimp only
            unfold Codec.crc_at
            refine ⟨rfl, by omega, by omega, by omega, by omega⟩

/-- C22 fails as stated: 24 bytes whose level byte is 255 make `read_record`
abort on its assertion; it returns neither a record nor an error. -/
theorem read_record_abort_counterexample :
    ¬ ∃ res, Codec.read_record Codec.sum_crc (0 :: 255 :: List.replicate 22 0) 0 = some res := by
  rintro ⟨res, h⟩
  rw [read_record_eq, if_neg (by decide), if_pos (by decide)] at h
  cases h

/-- The 40 bytes of a record of level 1 with a key and a value of one byte:
`read_record` at offset 0 returns it with code 0, having loaded the 32 bytes
of its head, and the record with its key, value and padding ends at the end
of the file. -/
theorem read_record_returns_or_aborts_witness :
    Codec.sample_bytes.length = 40 ∧
    (Codec.read_record Codec.sum_crc Codec.sample_bytes 0).map
      (fun r => (r.1, r.2.len, r.2.level, r.2.keylen, r.2.vallen, r.2.keyoffset))
      = some (0, 40, 1, 1, 1, 32) ∧
    Codec.read_extent Codec.sum_crc Codec.sample_bytes 0 = 32 ∧
    ((Codec.read_record Codec.sum_crc Codec.sample_bytes 0 = none ↔
      (0 + 24 ≤ Codec.sample_bytes.length ∧ MAXLEVEL < Codec.level_at Codec.sample_bytes 0)) ∧
    (∀ r rec, Codec.read_record Codec.sum_crc Codec.sample_bytes 0 = some (r, rec) →
      r = 0 ∨ r = CYRUSDB_IOERROR) ∧
    Codec.read_extent Codec.sum_crc Codec.sample_bytes 0 ≤ Codec.sample_bytes.length ∧
    (∀ rec, Codec.read_record Codec.sum_crc Codec.sample_bytes 0 = some (0, rec) →
      rec.offset = 0 ∧ 0 + rec.len ≤ Codec.sample_bytes.length ∧ rec.level ≤ MAXLEVEL ∧
      0 < rec.keyoffset ∧
      rec.keyoffset + roundup (rec.keylen + rec.vallen) 8 = 0 + rec.len)) :=
  ⟨by decide, by decide, by decide,
    read_record_returns_or_aborts Codec.sum_crc Codec.sample_bytes 0 (by decide)⟩

end Twoskip
